import Mathlib

/-!
# univang::fmt — numeric rendering

A shallow embedding of the formatting engine of `univang/format`:

* bytes and characters are natural numbers (their code points), `0` meaning "absent" exactly as
  in the C++ `char` fields of `format_spec`;
* the output sink (`format_context`) is the list of bytes appended so far; capacity management
  (`ensure`/`reserve`/`grow`) does not change the contents and is not modelled;
* scratch buffers written right-to-left (`tmp[--pos] = c`) are the list of bytes in
  `[pos, len)`, the returned position being `len - length`;
* machine integers are naturals with explicit reduction modulo `2^w` wherever the C++
  arithmetic can wrap.
-/

namespace univang.fmt

/-! ## format.hpp: `format_spec` -/

/-- The parsed `[[fill]align][sign]["#"]["0"][width]["." precision][type]` of format.hpp. -/
structure format_spec where
  width : Nat := 0
  precision : Nat := 0
  has_precision : Bool := false
  fill : Nat := 0
  align : Nat := 0
  sign : Nat := 0
  alt : Nat := 0
  type : Nat := 0
deriving Repr, DecidableEq

/-- The bytes of a string literal. -/
def bytes (s : String) : List Nat := s.toList.map Char.toNat

/-- Member `format_context::add_padding(c, count)`. -/
def add_padding (out : List Nat) (c count : Nat) : List Nat := out ++ List.replicate count c

/-- Member `format_context::add(c)`. -/
def add (out : List Nat) (c : Nat) : List Nat := out ++ [c]

namespace detail

/-! ## format_utils.hpp -/

/-- Function `write_padded(out, spec, value)` of format_utils.hpp; `value` is the text of the
`padded_string` / `padded_char`, whose `size()` is its length. -/
def write_padded (out : List Nat) (spec : format_spec) (value : List Nat) : List Nat :=
  let size := value.length
  if spec.width ≤ size then out ++ value
  else
    let padding := spec.width - size
    let left_padding := if spec.align = 60 then 0 else if spec.align = 94 then padding / 2 else padding
    let right_padding :=
      if spec.align = 60 then padding else if spec.align = 94 then padding - left_padding else 0
    let fill := if spec.fill ≠ 0 then spec.fill else 32
    let out := if left_padding ≠ 0 then add_padding out fill left_padding else out
    let out := out ++ value
    if right_padding ≠ 0 then add_padding out fill right_padding else out

/-- Member `format_handler::format_str(v)` of format.cpp: strings default to `'<'`. -/
def format_str (out : List Nat) (spec : format_spec) (v : List Nat) : List Nat :=
  let spec := if spec.align = 0 then { spec with align := 60 } else spec
  write_padded out spec v

/-- Member `format_handler::operator()(bool)` of format.cpp. -/
def format_bool (out : List Nat) (spec : format_spec) (arg : Bool) : List Nat :=
  format_str out spec (if arg then bytes "true" else bytes "false")

/-- Member `format_handler::operator()(char)` of format.cpp for the character presentation
(no type, `'s'` or `'c'`): chars default to `'<'` as well. -/
def format_char (out : List Nat) (spec : format_spec) (arg : Nat) : List Nat :=
  let spec := if spec.align = 0 then { spec with align := 60 } else spec
  write_padded out spec [arg]

/-! ## format_integer.hpp -/

/-- The two-digit lookup table `base_100_digits`. -/
def base_100_digits : List Nat :=
  bytes ("0001020304050607080910111213141516171819" ++
         "2021222324252627282930313233343536373839" ++
         "4041424344454647484950515253545556575859" ++
         "6061626364656667686970717273747576777879" ++
         "8081828384858687888990919293949596979899")

/-- The `while(i >= 100)` loop of `write_dec`: returns the remaining `i` and the bytes written. -/
def write_dec_loop : Nat → Nat → List Nat → Nat × List Nat
  | 0, i, acc => (i, acc)
  | fuel + 1, i, acc =>
    if i ≥ 100 then
      let num := (i % 100) * 2
      write_dec_loop fuel (i / 100) (base_100_digits.getD num 0 :: base_100_digits.getD (num + 1) 0 :: acc)
    else (i, acc)

/-- Function `write_dec(out, len, i)`: the bytes left in `out[pos .. len)`. -/
def write_dec (i : Nat) : List Nat :=
  let r := write_dec_loop i i []
  if r.1 ≥ 10 then
    let num := r.1 * 2
    base_100_digits.getD num 0 :: base_100_digits.getD (num + 1) 0 :: r.2
  else (48 + r.1) :: r.2

/-- The lambda `write_sep` of `write_dec_with_sep`, acting on the counter `n` and the buffer. -/
def write_sep (sep : Nat) (st : Nat × List Nat) : Nat × List Nat :=
  let n := st.1 + 1
  if n = 3 then (0, sep :: st.2) else (n, st.2)

/-- The `while(i >= 100)` loop of `write_dec_with_sep`. -/
def write_dec_with_sep_loop (sep : Nat) : Nat → Nat → Nat × List Nat → Nat × (Nat × List Nat)
  | 0, i, st => (i, st)
  | fuel + 1, i, st =>
    if i ≥ 100 then
      let num := (i % 100) * 2
      let st := (st.1, base_100_digits.getD (num + 1) 0 :: st.2)
      let st := write_sep sep st
      let st := (st.1, base_100_digits.getD num 0 :: st.2)
      let st := write_sep sep st
      write_dec_with_sep_loop sep fuel (i / 100) st
    else (i, st)

/-- Function `write_dec_with_sep(out, len, i, sep)`: the bytes left in `out[pos .. len)`. -/
def write_dec_with_sep (i sep : Nat) : List Nat :=
  let r := write_dec_with_sep_loop sep i i (0, [])
  let i := r.1
  let st := r.2
  if i ≥ 10 then
    let num := i * 2
    let st := (st.1, base_100_digits.getD (num + 1) 0 :: st.2)
    let st := write_sep sep st
    base_100_digits.getD num 0 :: st.2
  else
    let st := write_sep sep st
    (48 + i) :: st.2

/-- The digit alphabet selected in `write_int`. -/
def int_digits (uppercase : Bool) : List Nat :=
  if uppercase then bytes "0123456789ABCDEF" else bytes "0123456789abcdef"

/-- The `while(i >= base)` loop of `write_int`. -/
def write_int_loop (base : Nat) (uppercase : Bool) : Nat → Nat → List Nat → Nat × List Nat
  | 0, i, acc => (i, acc)
  | fuel + 1, i, acc =>
    if i ≥ base then
      write_int_loop base uppercase fuel (i / base) ((int_digits uppercase).getD (i % base) 0 :: acc)
    else (i, acc)

/-- Function `write_int(out, len, i, base, uppercase)`: the bytes left in `out[pos .. len)`. -/
def write_int (i base : Nat) (uppercase : Bool) : List Nat :=
  let r := write_int_loop base uppercase i i []
  (int_digits uppercase).getD r.1 0 :: r.2

/-- The `switch(spec.type)` of `format_num`: the effective `alt` flag and the digit text, or
`none` for an unsupported type (`return false`). -/
def format_num_digits (spec : format_spec) (arg : Nat) : Option (Nat × List Nat) :=
  if spec.type = 0 ∨ spec.type = 100 then some (0, write_dec arg)
  else if spec.type = 110 then some (0, write_dec_with_sep arg 44)
  else if spec.type = 98 ∨ spec.type = 66 then some (spec.alt, write_int arg 2 false)
  else if spec.type = 111 then some (spec.alt, write_int arg 8 false)
  else if spec.type = 120 ∨ spec.type = 88 then some (spec.alt, write_int arg 16 (spec.type = 88))
  else none

/-- The sign character computed at the top of `format_num` (and of `do_format_double`). -/
def sign_char (spec : format_spec) (negative : Bool) : Nat :=
  if negative then 45 else if spec.sign = 45 then 0 else spec.sign

/-- The sign/prefix text `format_num` emits before the digits. -/
def format_num_head (spec : format_spec) (alt : Nat) (negative : Bool) : List Nat :=
  let sign := sign_char spec negative
  let out : List Nat := if sign ≠ 0 then [sign] else []
  if alt ≠ 0 then
    let out := add out 48
    if spec.type ≠ 111 then add out spec.type else out
  else out

/-- Function `format_num(out, spec, arg, negative)`: `none` when it returns `false`. -/
def format_num (out : List Nat) (spec : format_spec) (arg : Nat) (negative : Bool) :
    Option (List Nat) :=
  let sign := sign_char spec negative
  match format_num_digits spec arg with
  | none => none
  | some (alt, num_str) =>
    let size := num_str.length
    let size := size + (if sign ≠ 0 then 1 else 0)
    let size := if alt ≠ 0 then size + (if spec.type = 111 then 1 else 2) else size
    let padding := if spec.width ≤ size then 0 else spec.width - size
    let fill := if spec.fill ≠ 0 then spec.fill else 32
    let out :=
      if spec.align = 62 ∨ spec.align = 0 then add_padding out fill padding
      else if spec.align = 94 then add_padding out fill (padding / 2)
      else out
    let out := if sign ≠ 0 then add out sign else out
    let out :=
      if alt ≠ 0 then
        let out := add out 48
        if spec.type ≠ 111 then add out spec.type else out
      else out
    let out := if spec.align = 61 then add_padding out fill padding else out
    let out := out ++ num_str
    let out :=
      if spec.align = 60 then add_padding out fill padding
      else if spec.align = 94 then add_padding out fill (padding - padding / 2)
      else out
    some out

end detail

end univang.fmt

namespace univang.fmt.detail

/-! ## format_double.hpp: `double_format_context` -/

/-- The digit-generation modes `dtoa_mode`. -/
inductive dtoa_mode where
  | SHORTEST
  | FIXED
  | PRECISION
deriving Repr, DecidableEq

/-- The state `double_format_context`. The `double value` is kept as its IEEE-754 bit pattern;
`digits` holds `digits[0 .. digit_count)`, so `digit_count` is its length. -/
structure double_format_context where
  value : Nat
  significand : Nat
  exponent : Int
  uppercase : Bool := false
  has_requested_digits : Bool := false
  format_as_exponent : Bool := false
  digits_after_point : Nat := 0
  requested_digits : Int := 0
  decimal_point : Int := 0
  digits : List Nat := []
deriving Repr, DecidableEq

/-- Constructor `double_format_context(double value)`, on the bit pattern `u` of `value`:
`u & kSignificandMask` is `u % 2^52` and `(u & kExponentMask) >> 52` is `(u / 2^52) % 2^11`. -/
def double_format_context.of_double (u : Nat) : double_format_context :=
  let significand : Nat := u % 2 ^ 52
  let exponent_bits : Nat := (u / 2 ^ 52) % 2 ^ 11
  if exponent_bits ≠ 0 then
    { value := u, significand := significand + 2 ^ 52, exponent := (exponent_bits : Int) - 1075 }
  else
    { value := u, significand := significand, exponent := -1074 }

/-- Member `digit_count`. -/
def double_format_context.digit_count (dbl : double_format_context) : Nat := dbl.digits.length

/-- Member `lower_boundary_is_closer()`. -/
def double_format_context.lower_boundary_is_closer (dbl : double_format_context) : Bool :=
  dbl.significand = 2 ^ 52

/-- Member `add_digit(char)`. -/
def double_format_context.add_digit (dbl : double_format_context) (c : Nat) :
    double_format_context :=
  { dbl with digits := dbl.digits ++ [c] }

/-- Member `add_num_digit(num)`: stores `byte(num + '0')`. -/
def double_format_context.add_num_digit (dbl : double_format_context) (num : Nat) :
    double_format_context :=
  { dbl with digits := dbl.digits ++ [(num + 48) % 256] }

/-- Member `round_up_digit(pos)` on the digit buffer. -/
def round_up_digit (digits : List Nat) (pos : Nat) : List Nat :=
  digits.set pos ((digits.getD pos 0 + 1) % 256)

/-- Member `round_down_digit(pos)` on the digit buffer. -/
def round_down_digit (digits : List Nat) (pos : Nat) : List Nat :=
  digits.set pos ((digits.getD pos 0 + 255) % 256)

/-- The carry loop of member `round_up()`, from index `i` down to `0`, followed by the test of
the first digit. -/
def round_up_loop (digits : List Nat) : Nat → List Nat × Bool
  | 0 => if digits.getD 0 0 ≠ 58 then (digits, false) else (digits.set 0 49, true)
  | i + 1 =>
    if digits.getD (i + 1) 0 ≠ 58 then (digits, false)
    else round_up_loop (round_up_digit (digits.set (i + 1) 48) i) i

/-- Member `round_up()`: the new digits and whether `99999 -> 1000` happened. -/
def double_format_context.round_up (dbl : double_format_context) : List Nat × Bool :=
  round_up_loop (round_up_digit dbl.digits (dbl.digits.length - 1)) (dbl.digits.length - 1)

/-! ## format_double_fixed.cpp -/

/-- Function `write_digits(dbl, number)`. -/
def write_digits (dbl : double_format_context) (number : Nat) : double_format_context :=
  { dbl with digits := dbl.digits ++ write_dec number }

/-- Function `write_17_digits(dbl, number)`. -/
def write_17_digits (dbl : double_format_context) (number : Nat) : double_format_context :=
  let tmp := write_dec number
  let padding := 17 - tmp.length
  { dbl with digits := dbl.digits ++ List.replicate padding 48 ++ tmp }

/-- Function `round_up(dbl)` of format_double_fixed.cpp. -/
def fixed_round_up (dbl : double_format_context) : double_format_context :=
  if dbl.digits.length = 0 then
    { dbl with digits := dbl.digits ++ [49], decimal_point := 1 }
  else
    let r := dbl.round_up
    if r.2 then { dbl with digits := r.1, decimal_point := dbl.decimal_point + 1 }
    else { dbl with digits := r.1 }

/-- The 64-bit digit loop of `write_fraction_digits`: `(fractionals, point, digits)` after at
most `count` iterations. -/
def write_fraction_loop64 : Nat → Nat → Nat → List Nat → Nat × Nat × List Nat
  | 0, fractionals, point, digits => (fractionals, point, digits)
  | count + 1, fractionals, point, digits =>
    if fractionals = 0 then (fractionals, point, digits)
    else
      let fractionals := (fractionals * 5) % 2 ^ 64
      let point := point - 1
      let digit := (fractionals >>> point) % 256
      let digits := digits ++ [(digit + 48) % 256]
      let fractionals := (fractionals + 2 ^ 64 - (digit <<< point) % 2 ^ 64) % 2 ^ 64
      write_fraction_loop64 count fractionals point digits

/-- The statement block commented `x *= 5` of the 128-bit loop, on `(hi, lo)`. -/
def f128_times5 (hi lo : Nat) : Nat × Nat :=
  let mask := 0xffffffff
  let accumulator := ((lo &&& mask) * 5) % 2 ^ 64
  let part := (5 &&& mask) % 2 ^ 32
  let accumulator := accumulator >>> 32
  let accumulator := (accumulator + (lo >>> 32) * 5) % 2 ^ 64
  let lo := ((accumulator <<< 32) + part) % 2 ^ 64
  let accumulator := accumulator >>> 32
  let accumulator := (accumulator + (hi &&& mask) * 5) % 2 ^ 64
  let part := (accumulator &&& mask) % 2 ^ 32
  let accumulator := accumulator >>> 32
  let accumulator := (accumulator + (hi >>> 32) * 5) % 2 ^ 64
  let hi := ((accumulator <<< 32) + part) % 2 ^ 64
  (hi, lo)

/-- The 128-bit digit loop of `write_fraction_digits`: `(hi, lo, point, digits)` after at most
`count` iterations. -/
def write_fraction_loop128 : Nat → Nat → Nat → Nat → List Nat → Nat × Nat × Nat × List Nat
  | 0, hi, lo, point, digits => (hi, lo, point, digits)
  | count + 1, hi, lo, point, digits =>
    if hi = 0 ∧ lo = 0 then (hi, lo, point, digits)
    else
      let x := f128_times5 hi lo
      let hi := x.1
      let lo := x.2
      let point := point - 1
      if point ≥ 64 then
        let digit := (hi >>> (point - 64)) % 256
        let hi := (hi + 2 ^ 64 - (digit <<< (point - 64)) % 2 ^ 64) % 2 ^ 64
        write_fraction_loop128 count hi lo point (digits ++ [(digit + 48) % 256])
      else
        let part_low := lo >>> point
        let part_high := (hi <<< (64 - point)) % 2 ^ 64
        let digit := ((part_low + part_high) % 2 ^ 64) % 256
        let lo := (lo + 2 ^ 64 - (part_low <<< point) % 2 ^ 64) % 2 ^ 64
        write_fraction_loop128 count 0 lo point (digits ++ [(digit + 48) % 256])

/-- Function `write_fraction_digits(dbl, fractionals)`. A shift by the full width (the case
`exponent = -128` of `fractionals >> (-exponent - 64)`) is taken to give `0`. -/
def write_fraction_digits (dbl : double_format_context) (fractionals : Nat) :
    double_format_context :=
  let exponent := dbl.exponent
  let fractional_count := dbl.requested_digits
  if -exponent ≤ 64 then
    let r := write_fraction_loop64 fractional_count.toNat fractionals (-exponent).toNat dbl.digits
    let fractionals := r.1
    let point := r.2.1
    let dbl := { dbl with digits := r.2.2 }
    if fractionals ≠ 0 ∧ (fractionals >>> (point - 1)) &&& 1 = 1 then fixed_round_up dbl
    else dbl
  else
    let hi := fractionals >>> ((-exponent).toNat - 64)
    let lo := (fractionals <<< (128 + exponent).toNat) % 2 ^ 64
    let r := write_fraction_loop128 fractional_count.toNat hi lo 128 dbl.digits
    let hi := r.1
    let lo := r.2.1
    let point := r.2.2.1 - 1
    let dbl := { dbl with digits := r.2.2.2 }
    let part := if point ≥ 64 then hi else lo
    let point := if point ≥ 64 then point - 64 else point
    if (part >>> point) &&& 1 ≠ 0 then fixed_round_up dbl else dbl

/-- The loop `while(digit_count != 0 && last_digit() == '0') --digit_count`. -/
def trim_trailing_zeros (digits : List Nat) : List Nat :=
  (digits.reverse.dropWhile (fun d => d = 48)).reverse

/-- The "trim leading/trailing zeros" tail of `fast_fixed_dtoa`. -/
def fixed_trim_zeros (dbl : double_format_context) : double_format_context :=
  let dbl := { dbl with digits := trim_trailing_zeros dbl.digits }
  if dbl.digits.length = 0 then
    { dbl with decimal_point := -dbl.requested_digits }
  else if dbl.digits.getD 0 0 = 48 then
    let leading_zeros := (dbl.digits.takeWhile (fun d => d = 48)).length
    { dbl with digits := dbl.digits.drop leading_zeros,
               decimal_point := dbl.decimal_point - leading_zeros }
  else dbl

/-- Function `fast_fixed_dtoa(dbl)`: the returned flag and the updated context. -/
def fast_fixed_dtoa (dbl : double_format_context) : Bool × double_format_context :=
  if dbl.exponent > 20 then (false, dbl)
  else if dbl.requested_digits > 20 then (false, dbl)
  else
    let exponent := dbl.exponent
    let significand := dbl.significand
    let dbl :=
      if exponent + 53 > 64 then
        let divisor := 0x000000B1A2BC2EC5
        let divisor_power : Int := 17
        let dividend := significand
        let qr : Nat × Nat :=
          if exponent > divisor_power then
            let dividend := (dividend <<< (exponent - divisor_power).toNat) % 2 ^ 64
            ((dividend / divisor) % 2 ^ 32, ((dividend % divisor) <<< 17) % 2 ^ 64)
          else
            let divisor := (divisor <<< (divisor_power - exponent).toNat) % 2 ^ 64
            ((dividend / divisor) % 2 ^ 32, ((dividend % divisor) <<< exponent.toNat) % 2 ^ 64)
        let dbl := write_digits dbl qr.1
        let dbl := write_17_digits dbl qr.2
        { dbl with decimal_point := dbl.digits.length }
      else if exponent ≥ 0 then
        let significand := (significand <<< exponent.toNat) % 2 ^ 64
        let dbl := write_digits dbl significand
        { dbl with decimal_point := dbl.digits.length }
      else if exponent > -53 then
        let integrals := significand >>> (-exponent).toNat
        let fractionals := (significand + 2 ^ 64 - (integrals <<< (-exponent).toNat) % 2 ^ 64) % 2 ^ 64
        let dbl := write_digits dbl integrals
        let dbl := { dbl with decimal_point := dbl.digits.length }
        write_fraction_digits dbl fractionals
      else if exponent < -128 then
        { dbl with digits := [], decimal_point := -dbl.requested_digits }
      else
        write_fraction_digits { dbl with decimal_point := 0 } significand
    (true, fixed_trim_zeros dbl)


/-! ## format_double_bignum.cpp: `Bignum`

`bigits` holds `bigits_buffer_[0 .. used_bigits_)`, least significant first, so `used_bigits_`
is its length; `exponent` is `exponent_` (never negative). A read of `RawBigit(i)` is
`bigits.getD i 0`. `Chunk` is `uint32_t` and `DoubleChunk` is `uint64_t`: the arithmetic is
reduced modulo `2^32` / `2^64` as in the source. The fixed capacity `kBigitCapacity = 128`
is checked in the source by `assert` only and is not part of the state. -/

/-- Class `Bignum`. -/
structure Bignum where
  bigits : List Nat := []
  exponent : Nat := 0
deriving Repr, DecidableEq

namespace Bignum

/-- The integer written by a list of bigits, least significant first. -/
def lvalue : List Nat → Nat
  | [] => 0
  | d :: ds => d + 2 ^ 28 * lvalue ds

/-- The integer a `Bignum` stands for: `value(bigits) * 2^(exponent * kBigitSize)`. -/
def value (b : Bignum) : Nat := lvalue b.bigits * 2 ^ (28 * b.exponent)

/-- Well-formed bignums: every bigit is below `2^kBigitSize`, the number is clamped
(`IsClamped()`: no bigit or a non-zero top bigit), and zero has exponent zero. -/
def wf (b : Bignum) : Prop :=
  (∀ d ∈ b.bigits, d < 2 ^ 28) ∧ b.bigits.getLast? ≠ some 0 ∧ (b.bigits = [] → b.exponent = 0)

/-- Member `RawBigit(index)` (read). -/
def RawBigit (b : Bignum) (index : Nat) : Nat := b.bigits.getD index 0

/-- Member `BigitLength()`. -/
def BigitLength (b : Bignum) : Nat := b.bigits.length + b.exponent

/-- Member `Zero()`. -/
def Zero : Bignum := { bigits := [], exponent := 0 }

/-- Member `AssignUInt16(value)`. -/
def AssignUInt16 (value : Nat) : Bignum :=
  if value > 0 then { bigits := [value], exponent := 0 } else Zero

/-- The loop of `AssignUInt64`. -/
def AssignUInt64_loop : Nat → Nat → List Nat
  | 0, _ => []
  | fuel + 1, value =>
    if value > 0 then (value % 2 ^ 28) :: AssignUInt64_loop fuel (value >>> 28) else []

/-- Member `AssignUInt64(value)`. -/
def AssignUInt64 (value : Nat) : Bignum :=
  { bigits := AssignUInt64_loop value value, exponent := 0 }

/-- Removal of the zero bigits at the top (the `while` of `Clamp`). -/
def drop_top_zeros (bigits : List Nat) : List Nat :=
  (bigits.reverse.dropWhile (fun d => d = 0)).reverse

/-- Member `Clamp()`. -/
def Clamp (b : Bignum) : Bignum :=
  let bigits := drop_top_zeros b.bigits
  if bigits.length = 0 then { bigits := bigits, exponent := 0 }
  else { bigits := bigits, exponent := b.exponent }

/-- Member `Align(other)`. -/
def Align (b other : Bignum) : Bignum :=
  if b.exponent > other.exponent then
    let zero_bigits := b.exponent - other.exponent
    { bigits := List.replicate zero_bigits 0 ++ b.bigits, exponent := b.exponent - zero_bigits }
  else b

/-- The loop and the final carry of `BigitsShiftLeft`. -/
def BigitsShiftLeft_loop (shift_amount : Nat) : List Nat → Nat → List Nat
  | [], carry => if carry ≠ 0 then [carry] else []
  | d :: ds, carry =>
    let new_carry := d >>> (28 - shift_amount)
    ((((d <<< shift_amount) % 2 ^ 32 + carry) % 2 ^ 32) % 2 ^ 28)
      :: BigitsShiftLeft_loop shift_amount ds new_carry

/-- Member `BigitsShiftLeft(shift_amount)`. -/
def BigitsShiftLeft (b : Bignum) (shift_amount : Nat) : Bignum :=
  { b with bigits := BigitsShiftLeft_loop shift_amount b.bigits 0 }

/-- Member `ShiftLeft(shift_amount)`. -/
def ShiftLeft (b : Bignum) (shift_amount : Nat) : Bignum :=
  if b.bigits.length = 0 then b
  else
    let b := { b with exponent := b.exponent + shift_amount / 28 }
    BigitsShiftLeft b (shift_amount % 28)

/-- The loop `while(carry != 0)` closing both multiplications. -/
def carry_loop : Nat → Nat → List Nat
  | 0, _ => []
  | fuel + 1, carry =>
    if carry ≠ 0 then (carry % 2 ^ 28) :: carry_loop fuel (carry >>> 28) else []

/-- The `for` loop of `MultiplyByUInt32`, followed by the carry loop. -/
def MultiplyByUInt32_loop (factor : Nat) : List Nat → Nat → List Nat
  | [], carry => carry_loop carry carry
  | d :: ds, carry =>
    let product := (factor * d + carry) % 2 ^ 64
    (product % 2 ^ 28) :: MultiplyByUInt32_loop factor ds (product >>> 28)

/-- Member `MultiplyByUInt32(factor)`. -/
def MultiplyByUInt32 (b : Bignum) (factor : Nat) : Bignum :=
  if factor = 1 then b
  else if factor = 0 then Zero
  else if b.bigits.length = 0 then b
  else { b with bigits := MultiplyByUInt32_loop factor b.bigits 0 }

/-- The `for` loop of `MultiplyByUInt64`, followed by the carry loop. -/
def MultiplyByUInt64_loop (low high : Nat) : List Nat → Nat → List Nat
  | [], carry => carry_loop carry carry
  | d :: ds, carry =>
    let product_low := (low * d) % 2 ^ 64
    let product_high := (high * d) % 2 ^ 64
    let tmp := (carry % 2 ^ 28 + product_low) % 2 ^ 64
    let carry := ((carry >>> 28) + (tmp >>> 28) + (product_high <<< 4) % 2 ^ 64) % 2 ^ 64
    (tmp % 2 ^ 28) :: MultiplyByUInt64_loop low high ds carry

/-- Member `MultiplyByUInt64(factor)`. -/
def MultiplyByUInt64 (b : Bignum) (factor : Nat) : Bignum :=
  if factor = 1 then b
  else if factor = 0 then Zero
  else if b.bigits.length = 0 then b
  else
    let low := factor % 2 ^ 32
    let high := factor >>> 32
    { b with bigits := MultiplyByUInt64_loop low high b.bigits 0 }

/-- Member `Times10()`. -/
def Times10 (b : Bignum) : Bignum := MultiplyByUInt32 b 10

/-- One inner `while` of `Square`: the products `chunk1 * chunk2` for `bigit_index1` running
down from `hi` and `bigit_index2` running up from `lo`, `count` times, added to the
accumulator. -/
def Square_inner (a : List Nat) : Nat → Nat → Nat → Nat → Nat
  | 0, _, _, accumulator => accumulator
  | count + 1, bigit_index1, bigit_index2, accumulator =>
    let chunk1 := a.getD bigit_index1 0
    let chunk2 := a.getD bigit_index2 0
    Square_inner a count (bigit_index1 - 1) (bigit_index2 + 1)
      ((accumulator + (chunk1 * chunk2) % 2 ^ 64) % 2 ^ 64)

/-- The first outer loop of `Square` (columns `i, i+1, .., used_bigits_ - 1`; `n` columns are
left): the bigits written and the accumulator passed on. -/
def Square_loop1 (a : List Nat) : Nat → Nat → Nat → List Nat × Nat
  | 0, _, accumulator => ([], accumulator)
  | n + 1, i, accumulator =>
    let accumulator := Square_inner a (i + 1) i 0 accumulator
    let d := (accumulator % 2 ^ 32) % 2 ^ 28
    let r := Square_loop1 a n (i + 1) (accumulator >>> 28)
    (d :: r.1, r.2)

/-- The second outer loop of `Square` (columns `i, .., product_length - 1`). -/
def Square_loop2 (a : List Nat) : Nat → Nat → Nat → List Nat × Nat
  | 0, _, accumulator => ([], accumulator)
  | n + 1, i, accumulator =>
    let used := a.length
    let bigit_index1 := used - 1
    let bigit_index2 := i - bigit_index1
    let accumulator := Square_inner a (used - bigit_index2) bigit_index1 bigit_index2 accumulator
    let d := (accumulator % 2 ^ 32) % 2 ^ 28
    let r := Square_loop2 a n (i + 1) (accumulator >>> 28)
    (d :: r.1, r.2)

/-- Member `Square()`. The branch `std::abort()` needs `used_bigits_ >= 256`, beyond the
capacity of 128 bigits; the model leaves the number unchanged there. -/
def Square (b : Bignum) : Bignum :=
  let used := b.bigits.length
  if 256 ≤ used then b
  else
    let r1 := Square_loop1 b.bigits used 0 0
    let r2 := Square_loop2 b.bigits used used r1.2
    Clamp { bigits := r1.1 ++ r2.1, exponent := b.exponent * 2 }

/-- The loop `while((base & 1) == 0)` of `AssignPowerUInt16`: the odd base and the shifts. -/
def strip_twos : Nat → Nat → Nat → Nat × Nat
  | 0, base, shifts => (base, shifts)
  | fuel + 1, base, shifts =>
    if base &&& 1 = 0 then strip_twos fuel (base >>> 1) (shifts + 1) else (base, shifts)

/-- The loop computing `bit_size`. -/
def bit_size_loop : Nat → Nat → Nat → Nat
  | 0, _, bit_size => bit_size
  | fuel + 1, tmp_base, bit_size =>
    if tmp_base ≠ 0 then bit_size_loop fuel (tmp_base >>> 1) (bit_size + 1) else bit_size

/-- The loop `while(power_exponent >= mask) mask <<= 1`. -/
def mask_loop (power_exponent : Nat) : Nat → Nat → Nat
  | 0, mask => mask
  | fuel + 1, mask => if power_exponent ≥ mask then mask_loop power_exponent fuel (mask <<< 1) else mask

/-- The 64-bit phase of the exponentiation: `(mask, this_value, delayed_multiplication)`. -/
def power_loop64 (base bit_size power_exponent : Nat) : Nat → Nat → Nat → Bool → Nat × Nat × Bool
  | 0, mask, this_value, delayed => (mask, this_value, delayed)
  | fuel + 1, mask, this_value, delayed =>
    if mask ≠ 0 ∧ this_value ≤ 0xFFFFFFFF then
      let this_value := (this_value * this_value) % 2 ^ 64
      if power_exponent &&& mask ≠ 0 then
        let high_bits_zero := this_value >>> (64 - bit_size) = 0
        if high_bits_zero then
          power_loop64 base bit_size power_exponent fuel (mask >>> 1) ((this_value * base) % 2 ^ 64) delayed
        else
          power_loop64 base bit_size power_exponent fuel (mask >>> 1) this_value true
      else
        power_loop64 base bit_size power_exponent fuel (mask >>> 1) this_value delayed
    else (mask, this_value, delayed)

/-- The bignum phase of the exponentiation. -/
def power_loop_big (base power_exponent : Nat) : Nat → Nat → Bignum → Bignum
  | 0, _, b => b
  | fuel + 1, mask, b =>
    if mask ≠ 0 then
      let b := Square b
      let b := if power_exponent &&& mask ≠ 0 then MultiplyByUInt32 b base else b
      power_loop_big base power_exponent fuel (mask >>> 1) b
    else b

/-- Member `AssignPowerUInt16(base, power_exponent)`. The test
`(this_value & base_bits_mask) == 0` on the top `bit_size` bits is `this_value >> (64 - bit_size) == 0`. -/
def AssignPowerUInt16 (base power_exponent : Nat) : Bignum :=
  if power_exponent = 0 then AssignUInt16 1
  else
    let s := strip_twos 16 base 0
    let base := s.1
    let shifts := s.2
    let bit_size := bit_size_loop 32 base 0
    let mask := mask_loop power_exponent 32 1
    let mask := mask >>> 2
    let r := power_loop64 base bit_size power_exponent 32 mask base false
    let b := AssignUInt64 r.2.1
    let b := if r.2.2 then MultiplyByUInt32 b base else b
    let b := power_loop_big base power_exponent 32 r.1 b
    ShiftLeft b (shifts * power_exponent)

/-- The two borrow loops of `SubtractBignum` on the bigits from `offset` upwards: the first
while the bigits of `other` last, the second while the borrow is not zero. (A borrow left
after the last bigit needs `this < other`, which the precondition excludes.) -/
def SubtractBignum_loop : List Nat → List Nat → Nat → List Nat
  | [], _, _ => []
  | a :: as, o :: os, borrow =>
    let difference := (a + 2 ^ 32 + 2 ^ 32 - o - borrow) % 2 ^ 32
    (difference % 2 ^ 28) :: SubtractBignum_loop as os (difference >>> 31)
  | a :: as, [], borrow =>
    if borrow ≠ 0 then
      let difference := (a + 2 ^ 32 - borrow) % 2 ^ 32
      (difference % 2 ^ 28) :: SubtractBignum_loop as [] (difference >>> 31)
    else a :: as

/-- Member `SubtractBignum(other)`. -/
def SubtractBignum (b other : Bignum) : Bignum :=
  let b := Align b other
  let offset := other.exponent - b.exponent
  let r := SubtractBignum_loop (b.bigits.drop offset) other.bigits 0
  Clamp { b with bigits := b.bigits.take offset ++ r }

/-- The `for(i < factor) SubtractBignum(other)` of `SubtractTimes`. -/
def SubtractTimes_small : Nat → Bignum → Bignum → Bignum
  | 0, b, _ => b
  | n + 1, b, other => SubtractTimes_small n (SubtractBignum b other) other

/-- The first loop of `SubtractTimes` (over the bigits of `other`), then the second (over the
remaining bigits of `this`): the new bigits, and whether the second loop left by
`return` (borrow zero) before the `Clamp()`. -/
def SubtractTimes_loop (factor : Nat) : List Nat → List Nat → Nat → List Nat × Bool
  | [], _, _ => ([], false)
  | a :: as, o :: os, borrow =>
    let product := (factor * o) % 2 ^ 64
    let remove := (borrow + product) % 2 ^ 64
    let difference := (a + 2 ^ 32 - remove % 2 ^ 28) % 2 ^ 32
    let borrow := ((difference >>> 31) + (remove >>> 28)) % 2 ^ 32
    let r := SubtractTimes_loop factor as os borrow
    ((difference % 2 ^ 28) :: r.1, r.2)
  | a :: as, [], borrow =>
    if borrow = 0 then (a :: as, true)
    else
      let difference := (a + 2 ^ 32 - borrow) % 2 ^ 32
      let r := SubtractTimes_loop factor as [] (difference >>> 31)
      ((difference % 2 ^ 28) :: r.1, r.2)

/-- Member `SubtractTimes(other, factor)`. -/
def SubtractTimes (b other : Bignum) (factor : Nat) : Bignum :=
  if factor < 3 then SubtractTimes_small factor b other
  else
    let exponent_diff := other.exponent - b.exponent
    let r := SubtractTimes_loop factor (b.bigits.drop exponent_diff) other.bigits 0
    let b := { b with bigits := b.bigits.take exponent_diff ++ r.1 }
    if r.2 then b else Clamp b

/-- Member `BigitOrZero(index)`. -/
def BigitOrZero (b : Bignum) (index : Nat) : Nat :=
  if index ≥ b.BigitLength then 0
  else if index < b.exponent then 0
  else b.RawBigit (index - b.exponent)

/-- The loop of `Compare`, over the indices `lo + n - 1` down to `lo`. -/
def Compare_loop (a b : Bignum) (lo : Nat) : Nat → Int
  | 0 => 0
  | n + 1 =>
    let bigit_a := a.BigitOrZero (lo + n)
    let bigit_b := b.BigitOrZero (lo + n)
    if bigit_a < bigit_b then -1
    else if bigit_a > bigit_b then 1
    else Compare_loop a b lo n

/-- Static member `Compare(a, b)`. -/
def Compare (a b : Bignum) : Int :=
  let bigit_length_a := a.BigitLength
  let bigit_length_b := b.BigitLength
  if bigit_length_a < bigit_length_b then -1
  else if bigit_length_a > bigit_length_b then 1
  else
    let lo := min a.exponent b.exponent
    Compare_loop a b lo (bigit_length_a - lo)

/-- Static member `Equal(a, b)`. -/
def Equal (a b : Bignum) : Bool := Compare a b = 0
/-- Static member `LessEqual(a, b)`. -/
def LessEqual (a b : Bignum) : Bool := Compare a b ≤ 0
/-- Static member `Less(a, b)`. -/
def Less (a b : Bignum) : Bool := Compare a b < 0

/-- The loop of `PlusCompare`, over the indices `lo + n - 1` down to `lo`, then the final
test of the borrow. -/
def PlusCompare_loop (a b c : Bignum) (lo : Nat) : Nat → Nat → Int
  | 0, borrow => if borrow = 0 then 0 else -1
  | n + 1, borrow =>
    let chunk_a := a.BigitOrZero (lo + n)
    let chunk_b := b.BigitOrZero (lo + n)
    let chunk_c := c.BigitOrZero (lo + n)
    let sum := (chunk_a + chunk_b) % 2 ^ 32
    if sum > (chunk_c + borrow) % 2 ^ 32 then 1
    else
      let borrow := ((chunk_c + borrow) % 2 ^ 32 + 2 ^ 32 - sum) % 2 ^ 32
      if borrow > 1 then -1
      else PlusCompare_loop a b c lo n ((borrow <<< 28) % 2 ^ 32)

/-- Static member `PlusCompare(a, b, c)` after the swap that makes `a` the longer number. -/
def PlusCompare_ordered (a b c : Bignum) : Int :=
  if a.BigitLength + 1 < c.BigitLength then -1
  else if a.BigitLength > c.BigitLength then 1
  else if a.exponent ≥ b.BigitLength ∧ a.BigitLength < c.BigitLength then -1
  else
    let min_exponent := min (min a.exponent b.exponent) c.exponent
    PlusCompare_loop a b c min_exponent (c.BigitLength - min_exponent) 0

/-- Static member `PlusCompare(a, b, c)`. -/
def PlusCompare (a b c : Bignum) : Int :=
  if a.BigitLength < b.BigitLength then PlusCompare_ordered b a c
  else PlusCompare_ordered a b c

/-- The first loop of `DivideModuloIntBignum` (`while(BigitLength() > other.BigitLength())`):
`none` when the fuel runs out. -/
def DivideModulo_loop1 (other : Bignum) : Nat → Bignum → Nat → Option (Bignum × Nat)
  | 0, _, _ => none
  | fuel + 1, b, result =>
    if b.BigitLength > other.BigitLength then
      let top := b.RawBigit (b.bigits.length - 1)
      let result := (result + top % 2 ^ 16) % 2 ^ 16
      DivideModulo_loop1 other fuel (SubtractTimes b other top) result
    else some (b, result)

/-- The last loop of `DivideModuloIntBignum` (`while(LessEqual(other, *this))`): `none` when
the fuel runs out. -/
def DivideModulo_loop2 (other : Bignum) : Nat → Bignum → Nat → Option (Bignum × Nat)
  | 0, _, _ => none
  | fuel + 1, b, result =>
    if LessEqual other b then
      DivideModulo_loop2 other fuel (SubtractBignum b other) ((result + 1) % 2 ^ 16)
    else some (b, result)

/-- Member `DivideModuloIntBignum(other)`: the remainder left in `this` and the returned
quotient. Each loop iteration lowers the value of `this`, so `value + 1` iterations are
allowed; `none` when that does not suffice. -/
def DivideModuloIntBignum (b other : Bignum) : Option (Bignum × Nat) :=
  if b.BigitLength < other.BigitLength then some (b, 0)
  else
    let b := Align b other
    match DivideModulo_loop1 other (b.value + 1) b 0 with
    | none => none
    | some (b, result) =>
      let this_bigit := b.RawBigit (b.bigits.length - 1)
      let other_bigit := other.RawBigit (other.bigits.length - 1)
      if other.bigits.length = 1 then
        let quotient := this_bigit / other_bigit
        let top := (this_bigit + 2 ^ 32 - (other_bigit * quotient) % 2 ^ 32) % 2 ^ 32
        let b := { b with bigits := b.bigits.set (b.bigits.length - 1) top }
        some (Clamp b, (result + quotient % 2 ^ 16) % 2 ^ 16)
      else
        let division_estimate := this_bigit / (other_bigit + 1)
        let result := (result + division_estimate % 2 ^ 16) % 2 ^ 16
        let b := SubtractTimes b other division_estimate
        if (other_bigit * (division_estimate + 1)) % 2 ^ 32 > this_bigit then some (b, result)
        else DivideModulo_loop2 other (b.value + 1) b result

end Bignum


/-! ## IEEE-754 double arithmetic used by the estimators

`EstimatePower` and `GetCachedPowerForBinaryExponentRange` compute in `double`. A `double` in
the normal range is kept as a pair `(m, e)` standing for `m * 2^e`; each operation is the
exact result rounded to a 53-bit significand, ties to even (no overflow or underflow occurs at
the magnitudes involved, no fused multiply-add is assumed). -/

/-- The least `k`, counted from the given one, with `n < 2^(2^k)` (`fuel` bounds the search;
`n` itself suffices). -/
def bit_length_up : Nat → Nat → Nat → Nat
  | 0, k, _ => k
  | fuel + 1, k, n => if n < 2 ^ (2 ^ k) then k else bit_length_up fuel (k + 1) n

/-- The number of binary digits of `n < 2^(2^k)`, added to `acc`, by halving the width. -/
def bit_length_down : Nat → Nat → Nat → Nat
  | 0, n, acc => if n = 0 then acc else acc + 1
  | k + 1, n, acc =>
    if n ≥ 2 ^ (2 ^ k) then bit_length_down k (n >>> (2 ^ k)) (acc + 2 ^ k)
    else bit_length_down k n acc

/-- The number of binary digits of `n`. -/
def bit_length (n : Nat) : Nat := bit_length_down (bit_length_up n 0 n) n 0

/-- Rounding of `m * 2^e` to a 53-bit significand, ties to even. -/
def fp_round (m e : Int) : Int × Int :=
  let a := m.natAbs
  if a < 2 ^ 53 then (m, e)
  else
    let s := bit_length a - 53
    let q := a >>> s
    let r := a % 2 ^ s
    let half := 2 ^ (s - 1)
    let q := if r > half ∨ (r = half ∧ q % 2 = 1) then q + 1 else q
    (if m < 0 then -(q : Int) else (q : Int), e + s)

/-- The `double` product. -/
def fp_mul (x y : Int × Int) : Int × Int := fp_round (x.1 * y.1) (x.2 + y.2)

/-- The `double` difference. -/
def fp_sub (x y : Int × Int) : Int × Int :=
  let e := min x.2 y.2
  fp_round (x.1 * 2 ^ (x.2 - e).toNat - y.1 * 2 ^ (y.2 - e).toNat) e

/-- Function `ceil` followed by the conversion to `int`. -/
def fp_ceil (x : Int × Int) : Int :=
  if x.2 ≥ 0 then x.1 * 2 ^ x.2.toNat else -((-x.1) / 2 ^ (-x.2).toNat)

/-- The constant `0.30102999566398114` (`k1Log10`, `kD_1_LOG2_10`): `0x3fd34413509f79fe`. -/
def k1Log10 : Int × Int := (0x134413509f79fe, -54)

/-- The constant `1e-10`: `0x3ddb7cdfd9d7bdbb`. -/
def k1e_10 : Int × Int := (0x1b7cdfd9d7bdbb, -86)

/-! ## format_double_bignum.cpp: digit generation -/

/-- Function `NormalizedExponent(significand, exponent)` (the loop runs at most 52 times for
a non-zero 53-bit significand). -/
def NormalizedExponent_loop : Nat → Nat → Int → Int
  | 0, _, exponent => exponent
  | fuel + 1, significand, exponent =>
    if significand &&& 2 ^ 52 = 0 then
      NormalizedExponent_loop fuel ((significand <<< 1) % 2 ^ 64) (exponent - 1)
    else exponent

/-- Function `NormalizedExponent(significand, exponent)`. -/
def NormalizedExponent (significand : Nat) (exponent : Int) : Int :=
  NormalizedExponent_loop 64 significand exponent

/-- Function `EstimatePower(exponent)`:
`ceil((exponent + kSignificandSize - 1) * k1Log10 - 1e-10)`. -/
def EstimatePower (exponent : Int) : Int :=
  fp_ceil (fp_sub (fp_mul (exponent + 53 - 1, 0) k1Log10) k1e_10)

/-- The four bignums of `bignum_dtoa`. -/
structure BignumState where
  numerator : Bignum := {}
  denominator : Bignum := {}
  delta_minus : Bignum := {}
  delta_plus : Bignum := {}
deriving Repr, DecidableEq

/-- Function `InitialScaledStartValuesPositiveExponent`. -/
def InitialScaledStartValuesPositiveExponent (significand : Nat) (exponent estimated_power : Int)
    (need_boundary_deltas : Bool) (st : BignumState) : BignumState :=
  let numerator := (Bignum.AssignUInt64 significand).ShiftLeft exponent.toNat
  let denominator := Bignum.AssignPowerUInt16 10 estimated_power.toNat
  if need_boundary_deltas then
    let denominator := denominator.ShiftLeft 1
    let numerator := numerator.ShiftLeft 1
    let delta_plus := (Bignum.AssignUInt16 1).ShiftLeft exponent.toNat
    let delta_minus := (Bignum.AssignUInt16 1).ShiftLeft exponent.toNat
    { numerator := numerator, denominator := denominator,
      delta_minus := delta_minus, delta_plus := delta_plus }
  else { st with numerator := numerator, denominator := denominator }

/-- Function `InitialScaledStartValuesNegativeExponentPositivePower`. -/
def InitialScaledStartValuesNegativeExponentPositivePower (significand : Nat)
    (exponent estimated_power : Int) (need_boundary_deltas : Bool) (st : BignumState) :
    BignumState :=
  let numerator := Bignum.AssignUInt64 significand
  let denominator := (Bignum.AssignPowerUInt16 10 estimated_power.toNat).ShiftLeft (-exponent).toNat
  if need_boundary_deltas then
    let denominator := denominator.ShiftLeft 1
    let numerator := numerator.ShiftLeft 1
    { numerator := numerator, denominator := denominator,
      delta_minus := Bignum.AssignUInt16 1, delta_plus := Bignum.AssignUInt16 1 }
  else { st with numerator := numerator, denominator := denominator }

/-- Function `InitialScaledStartValuesNegativeExponentNegativePower`. -/
def InitialScaledStartValuesNegativeExponentNegativePower (significand : Nat)
    (exponent estimated_power : Int) (need_boundary_deltas : Bool) (st : BignumState) :
    BignumState :=
  let power_ten := Bignum.AssignPowerUInt16 10 (-estimated_power).toNat
  let st := if need_boundary_deltas then
      { st with delta_plus := power_ten, delta_minus := power_ten } else st
  let numerator := power_ten.MultiplyByUInt64 significand
  let denominator := (Bignum.AssignUInt16 1).ShiftLeft (-exponent).toNat
  if need_boundary_deltas then
    { st with numerator := numerator.ShiftLeft 1, denominator := denominator.ShiftLeft 1 }
  else { st with numerator := numerator, denominator := denominator }

/-- Function `InitialScaledStartValues`. -/
def InitialScaledStartValues (significand : Nat) (exponent : Int) (lower_boundary_is_closer : Bool)
    (estimated_power : Int) (need_boundary_deltas : Bool) (st : BignumState) : BignumState :=
  let st :=
    if exponent ≥ 0 then
      InitialScaledStartValuesPositiveExponent significand exponent estimated_power
        need_boundary_deltas st
    else if estimated_power ≥ 0 then
      InitialScaledStartValuesNegativeExponentPositivePower significand exponent estimated_power
        need_boundary_deltas st
    else
      InitialScaledStartValuesNegativeExponentNegativePower significand exponent estimated_power
        need_boundary_deltas st
  if need_boundary_deltas ∧ lower_boundary_is_closer then
    { st with denominator := st.denominator.ShiftLeft 1, numerator := st.numerator.ShiftLeft 1,
              delta_plus := st.delta_plus.ShiftLeft 1 }
  else st

/-- Function `FixupMultiply10`: the decimal point and the adjusted bignums. -/
def FixupMultiply10 (estimated_power : Int) (is_even : Bool) (st : BignumState) :
    Int × BignumState :=
  let in_range :=
    if is_even then decide (Bignum.PlusCompare st.numerator st.delta_plus st.denominator ≥ 0)
    else decide (Bignum.PlusCompare st.numerator st.delta_plus st.denominator > 0)
  if in_range then (estimated_power + 1, st)
  else
    let numerator := st.numerator.Times10
    if Bignum.Equal st.delta_minus st.delta_plus then
      let delta_minus := st.delta_minus.Times10
      (estimated_power, { st with numerator := numerator, delta_minus := delta_minus,
                                  delta_plus := delta_minus })
    else
      (estimated_power, { st with numerator := numerator, delta_minus := st.delta_minus.Times10,
                                  delta_plus := st.delta_plus.Times10 })

/-- Member `round_up_last_digit()`. -/
def double_format_context.round_up_last_digit (dbl : double_format_context) :
    double_format_context :=
  { dbl with digits := round_up_digit dbl.digits (dbl.digits.length - 1) }

/-- Member `round_down_last_digit()`. -/
def double_format_context.round_down_last_digit (dbl : double_format_context) :
    double_format_context :=
  { dbl with digits := round_down_digit dbl.digits (dbl.digits.length - 1) }

/-- Member `last_digit()`. -/
def double_format_context.last_digit (dbl : double_format_context) : Nat :=
  dbl.digits.getD (dbl.digits.length - 1) 0

/-- The `for(;;)` of `GenerateShortestDigits`. `same` records that `delta_plus` was made to
point to `delta_minus`; `none` when the fuel runs out. -/
def GenerateShortestDigits_loop (is_even same : Bool) (denominator : Bignum) :
    Nat → double_format_context → Bignum → Bignum → Bignum → Option double_format_context
  | 0, _, _, _, _ => none
  | fuel + 1, dbl, numerator, delta_minus, delta_plus =>
    match numerator.DivideModuloIntBignum denominator with
    | none => none
    | some (numerator, digit) =>
      let dbl := dbl.add_num_digit digit
      let plus := if same then delta_minus else delta_plus
      let in_delta_room_minus :=
        if is_even then Bignum.LessEqual numerator delta_minus
        else Bignum.Less numerator delta_minus
      let in_delta_room_plus :=
        if is_even then decide (Bignum.PlusCompare numerator plus denominator ≥ 0)
        else decide (Bignum.PlusCompare numerator plus denominator > 0)
      if !in_delta_room_minus && !in_delta_room_plus then
        GenerateShortestDigits_loop is_even same denominator fuel dbl numerator.Times10
          delta_minus.Times10 (if same then delta_plus else delta_plus.Times10)
      else if in_delta_room_minus && in_delta_room_plus then
        let compare := Bignum.PlusCompare numerator numerator denominator
        if compare < 0 then some dbl
        else if compare > 0 then some dbl.round_up_last_digit
        else if ((dbl.last_digit : Int) - 48) % 2 = 0 then some dbl
        else some dbl.round_up_last_digit
      else if in_delta_room_minus then some dbl
      else some dbl.round_up_last_digit

/-- Function `GenerateShortestDigits`. The loop stops at the latest when `delta_minus`, which
grows tenfold per digit, exceeds the denominator: `value(denominator) + 1` iterations are
allowed. -/
def GenerateShortestDigits (dbl : double_format_context) (st : BignumState) (is_even : Bool) :
    Option double_format_context :=
  let same := Bignum.Equal st.delta_minus st.delta_plus
  GenerateShortestDigits_loop is_even same st.denominator (st.denominator.value + 1) dbl
    st.numerator st.delta_minus st.delta_plus

/-- The first loop of `GenerateCountedDigits` (`count - 1` digits): `none` when a division
does not return. -/
def GenerateCountedDigits_loop (denominator : Bignum) :
    Nat → double_format_context → Bignum → Option (double_format_context × Bignum)
  | 0, dbl, numerator => some (dbl, numerator)
  | n + 1, dbl, numerator =>
    match numerator.DivideModuloIntBignum denominator with
    | none => none
    | some (numerator, digit) =>
      GenerateCountedDigits_loop denominator n (dbl.add_num_digit (digit % 256)) numerator.Times10

/-- The carry loop of `GenerateCountedDigits`, from index `i` down to `1`. -/
def counted_carry_loop (digits : List Nat) : Nat → List Nat
  | 0 => digits
  | i + 1 =>
    if digits.getD (i + 1) 0 ≠ 58 then digits
    else counted_carry_loop (round_up_digit (digits.set (i + 1) 48) i) i

/-- Function `GenerateCountedDigits(dbl, count, numerator, denominator)`. -/
def GenerateCountedDigits (dbl : double_format_context) (count : Int)
    (numerator denominator : Bignum) : Option double_format_context :=
  match GenerateCountedDigits_loop denominator (count - 1).toNat dbl numerator with
  | none => none
  | some (dbl, numerator) =>
    match numerator.DivideModuloIntBignum denominator with
    | none => none
    | some (numerator, digit) =>
      let digit :=
        if Bignum.PlusCompare numerator numerator denominator ≥ 0 then (digit + 1) % 2 ^ 16
        else digit
      let dbl := dbl.add_num_digit (digit % 256)
      let digits := counted_carry_loop dbl.digits (count - 1).toNat
      if digits.getD 0 0 = 58 then
        some { dbl with digits := digits.set 0 49, decimal_point := dbl.decimal_point + 1 }
      else some { dbl with digits := digits }

/-- Function `BignumToFixed(dbl, numerator, denominator)`. -/
def BignumToFixed (dbl : double_format_context) (numerator denominator : Bignum) :
    Option double_format_context :=
  if -dbl.decimal_point > dbl.requested_digits then
    some { dbl with decimal_point := -dbl.requested_digits }
  else if -dbl.decimal_point = dbl.requested_digits then
    let denominator := denominator.Times10
    if Bignum.PlusCompare numerator numerator denominator ≥ 0 then
      some { dbl.add_digit 49 with decimal_point := dbl.decimal_point + 1 }
    else some dbl
  else
    let needed_digits := dbl.decimal_point + dbl.requested_digits
    GenerateCountedDigits dbl needed_digits numerator denominator

/-- Function `bignum_dtoa(dbl, mode)`: `none` when a loop of the model runs out of fuel. -/
def bignum_dtoa (dbl : double_format_context) (mode : dtoa_mode) : Option double_format_context :=
  let significand := dbl.significand
  let exponent := dbl.exponent
  let lower_boundary_is_closer := dbl.lower_boundary_is_closer
  let need_boundary_deltas := decide (mode = dtoa_mode.SHORTEST)
  let is_even := decide (significand &&& 1 = 0)
  let normalized_exponent := NormalizedExponent significand exponent
  let estimated_power := EstimatePower normalized_exponent
  if mode = dtoa_mode.FIXED ∧ -estimated_power - 1 > dbl.requested_digits then
    some { dbl with decimal_point := -dbl.requested_digits }
  else
    let st := InitialScaledStartValues significand exponent lower_boundary_is_closer
      estimated_power need_boundary_deltas {}
    let r := FixupMultiply10 estimated_power is_even st
    let dbl := { dbl with decimal_point := r.1 }
    let st := r.2
    match mode with
    | dtoa_mode.SHORTEST => GenerateShortestDigits dbl st is_even
    | dtoa_mode.FIXED => BignumToFixed dbl st.numerator st.denominator
    | dtoa_mode.PRECISION =>
      GenerateCountedDigits dbl dbl.requested_digits st.numerator st.denominator


/-! ## format_double_grisu.cpp -/

/-- Addition of `uint64_t`. -/
def add64 (a b : Nat) : Nat := (a + b) % 2 ^ 64
/-- Subtraction of `uint64_t`. -/
def sub64 (a b : Nat) : Nat := (a + 2 ^ 64 - b % 2 ^ 64) % 2 ^ 64
/-- Multiplication of `uint64_t`. -/
def mul64 (a b : Nat) : Nat := (a * b) % 2 ^ 64
/-- Left shift of `uint64_t`. -/
def shl64 (a s : Nat) : Nat := (a <<< s) % 2 ^ 64

/-- Class `DiyFp`: `f * 2^e`. -/
structure DiyFp where
  f : Nat := 0
  e : Int := 0
deriving Repr, DecidableEq

namespace DiyFp

/-- The loop of `MakeNormalized`. -/
def MakeNormalized_loop : Nat → Nat → Int → Nat × Int
  | 0, f, e => (f, e)
  | fuel + 1, f, e =>
    if f &&& 2 ^ 52 = 0 then MakeNormalized_loop fuel (shl64 f 1) (e - 1) else (f, e)

/-- Static member `MakeNormalized(dbl)` (at most 52 shifts for a non-zero significand). -/
def MakeNormalized (dbl : double_format_context) : DiyFp :=
  let r := MakeNormalized_loop 64 dbl.significand dbl.exponent
  { f := shl64 r.1 (64 - 53), e := r.2 - (64 - 53) }

/-- The first loop of `Normalize` (`k10MSBits`). -/
def Normalize_loop10 : Nat → Nat → Int → Nat × Int
  | 0, significand, exponent => (significand, exponent)
  | fuel + 1, significand, exponent =>
    if significand &&& 0xFFC0000000000000 = 0 then
      Normalize_loop10 fuel (shl64 significand 10) (exponent - 10)
    else (significand, exponent)

/-- The second loop of `Normalize` (`kUint64MSB`). -/
def Normalize_loop1 : Nat → Nat → Int → Nat × Int
  | 0, significand, exponent => (significand, exponent)
  | fuel + 1, significand, exponent =>
    if significand &&& 0x8000000000000000 = 0 then
      Normalize_loop1 fuel (shl64 significand 1) (exponent - 1)
    else (significand, exponent)

/-- Member `Normalize()` (for a non-zero significand both loops end within 64 shifts). -/
def Normalize (a : DiyFp) : DiyFp :=
  let r := Normalize_loop10 64 a.f a.e
  let r := Normalize_loop1 64 r.1 r.2
  { f := r.1, e := r.2 }

/-- Static member `NormalizedBoundaries(dbl, out_m_minus, out_m_plus)`: `(m_minus, m_plus)`. -/
def NormalizedBoundaries (dbl : double_format_context) : DiyFp × DiyFp :=
  let lower_boundary_is_closer := dbl.lower_boundary_is_closer
  let v : DiyFp := { f := dbl.significand, e := dbl.exponent }
  let m_plus := Normalize { f := add64 (shl64 v.f 1) 1, e := v.e - 1 }
  let m_minus : DiyFp :=
    if lower_boundary_is_closer then { f := sub64 (shl64 v.f 2) 1, e := v.e - 2 }
    else { f := sub64 (shl64 v.f 1) 1, e := v.e - 1 }
  let m_minus := { m_minus with f := shl64 m_minus.f (m_minus.e - m_plus.e).toNat }
  let m_minus := { m_minus with e := m_plus.e }
  (m_minus, m_plus)

/-- Static member `Minus(a, b)`. -/
def Minus (a b : DiyFp) : DiyFp := { a with f := sub64 a.f b.f }

/-- Static member `Times(a, b)` (member `Multiply`). -/
def Times (x other : DiyFp) : DiyFp :=
  let kM32 := 0xFFFFFFFF
  let a := x.f >>> 32
  let b := x.f &&& kM32
  let c := other.f >>> 32
  let d := other.f &&& kM32
  let ac := mul64 a c
  let bc := mul64 b c
  let ad := mul64 a d
  let bd := mul64 b d
  let tmp := add64 (add64 (add64 (bd >>> 32) (ad &&& kM32)) (bc &&& kM32)) (2 ^ 31)
  { e := x.e + (other.e + 64),
    f := add64 (add64 (add64 ac (ad >>> 32)) (bc >>> 32)) (tmp >>> 32) }

end DiyFp

/-- The table `kCachedPowers`: `(significand, binary_exponent, decimal_exponent)`. -/
def kCachedPowers : List (Nat × Int × Int) := [
  (0xfa8fd5a0081c0288, -1220, -348), (0xbaaee17fa23ebf76, -1193, -340), (0x8b16fb203055ac76, -1166, -332),
  (0xcf42894a5dce35ea, -1140, -324), (0x9a6bb0aa55653b2d, -1113, -316), (0xe61acf033d1a45df, -1087, -308),
  (0xab70fe17c79ac6ca, -1060, -300), (0xff77b1fcbebcdc4f, -1034, -292), (0xbe5691ef416bd60c, -1007, -284),
  (0x8dd01fad907ffc3c, -980, -276), (0xd3515c2831559a83, -954, -268), (0x9d71ac8fada6c9b5, -927, -260),
  (0xea9c227723ee8bcb, -901, -252), (0xaecc49914078536d, -874, -244), (0x823c12795db6ce57, -847, -236),
  (0xc21094364dfb5637, -821, -228), (0x9096ea6f3848984f, -794, -220), (0xd77485cb25823ac7, -768, -212),
  (0xa086cfcd97bf97f4, -741, -204), (0xef340a98172aace5, -715, -196), (0xb23867fb2a35b28e, -688, -188),
  (0x84c8d4dfd2c63f3b, -661, -180), (0xc5dd44271ad3cdba, -635, -172), (0x936b9fcebb25c996, -608, -164),
  (0xdbac6c247d62a584, -582, -156), (0xa3ab66580d5fdaf6, -555, -148), (0xf3e2f893dec3f126, -529, -140),
  (0xb5b5ada8aaff80b8, -502, -132), (0x87625f056c7c4a8b, -475, -124), (0xc9bcff6034c13053, -449, -116),
  (0x964e858c91ba2655, -422, -108), (0xdff9772470297ebd, -396, -100), (0xa6dfbd9fb8e5b88f, -369, -92),
  (0xf8a95fcf88747d94, -343, -84), (0xb94470938fa89bcf, -316, -76), (0x8a08f0f8bf0f156b, -289, -68),
  (0xcdb02555653131b6, -263, -60), (0x993fe2c6d07b7fac, -236, -52), (0xe45c10c42a2b3b06, -210, -44),
  (0xaa242499697392d3, -183, -36), (0xfd87b5f28300ca0e, -157, -28), (0xbce5086492111aeb, -130, -20),
  (0x8cbccc096f5088cc, -103, -12), (0xd1b71758e219652c, -77, -4), (0x9c40000000000000, -50, 4),
  (0xe8d4a51000000000, -24, 12), (0xad78ebc5ac620000, 3, 20), (0x813f3978f8940984, 30, 28),
  (0xc097ce7bc90715b3, 56, 36), (0x8f7e32ce7bea5c70, 83, 44), (0xd5d238a4abe98068, 109, 52),
  (0x9f4f2726179a2245, 136, 60), (0xed63a231d4c4fb27, 162, 68), (0xb0de65388cc8ada8, 189, 76),
  (0x83c7088e1aab65db, 216, 84), (0xc45d1df942711d9a, 242, 92), (0x924d692ca61be758, 269, 100),
  (0xda01ee641a708dea, 295, 108), (0xa26da3999aef774a, 322, 116), (0xf209787bb47d6b85, 348, 124),
  (0xb454e4a179dd1877, 375, 132), (0x865b86925b9bc5c2, 402, 140), (0xc83553c5c8965d3d, 428, 148),
  (0x952ab45cfa97a0b3, 455, 156), (0xde469fbd99a05fe3, 481, 164), (0xa59bc234db398c25, 508, 172),
  (0xf6c69a72a3989f5c, 534, 180), (0xb7dcbf5354e9bece, 561, 188), (0x88fcf317f22241e2, 588, 196),
  (0xcc20ce9bd35c78a5, 614, 204), (0x98165af37b2153df, 641, 212), (0xe2a0b5dc971f303a, 667, 220),
  (0xa8d9d1535ce3b396, 694, 228), (0xfb9b7cd9a4a7443c, 720, 236), (0xbb764c4ca7a44410, 747, 244),
  (0x8bab8eefb6409c1a, 774, 252), (0xd01fef10a657842c, 800, 260), (0x9b10a4e5e9913129, 827, 268),
  (0xe7109bfba19c0c9d, 853, 276), (0xac2820d9623bf429, 880, 284), (0x80444b5e7aa7cf85, 907, 292),
  (0xbf21e44003acdd2d, 933, 300), (0x8e679c2f5e44ff8f, 960, 308), (0xd433179d9c8cb841, 986, 316),
  (0x9e19db92b4e31ba9, 1013, 324), (0xeb96bf6ebadf77d9, 1039, 332), (0xaf87023b9bf0ee6b, 1066, 340)]

/-- Function `GetCachedPowerForBinaryExponentRange(min_exponent, max_exponent, power,
decimal_exponent)`: `(power, decimal_exponent)`. The division is that of `int`
(truncating). -/
def GetCachedPowerForBinaryExponentRange (min_exponent _max_exponent : Int) : DiyFp × Int :=
  let kQ : Int := 64
  let k := fp_ceil (fp_mul (min_exponent + kQ - 1, 0) k1Log10)
  let foo : Int := 348
  let index := Int.tdiv (foo + k - 1) 8 + 1
  let cached_power := kCachedPowers.getD index.toNat (0, 0, 0)
  ({ f := cached_power.1, e := cached_power.2.1 }, cached_power.2.2)

/-- The decrementing loop of `RoundWeed`: `none` when the fuel runs out. -/
def RoundWeed_loop (small_distance unsafe_interval ten_kappa : Nat) :
    Nat → double_format_context → Nat → Option (double_format_context × Nat)
  | 0, _, _ => none
  | fuel + 1, dbl, rest =>
    if rest < small_distance ∧ sub64 unsafe_interval rest ≥ ten_kappa ∧
        (add64 rest ten_kappa < small_distance ∨
          sub64 small_distance rest ≥ sub64 (add64 rest ten_kappa) small_distance) then
      RoundWeed_loop small_distance unsafe_interval ten_kappa fuel dbl.round_down_last_digit
        (add64 rest ten_kappa)
    else some (dbl, rest)

/-- Function `RoundWeed`: the returned flag and the adjusted digits. Every iteration of the
loop moves `rest` up by `ten_kappa` inside the unsafe interval, so `unsafe_interval + 1`
iterations are allowed. -/
def RoundWeed (dbl : double_format_context)
    (distance_too_high_w unsafe_interval rest ten_kappa unit : Nat) :
    Option (Bool × double_format_context) :=
  let small_distance := sub64 distance_too_high_w unit
  let big_distance := add64 distance_too_high_w unit
  match RoundWeed_loop small_distance unsafe_interval ten_kappa (unsafe_interval + 1) dbl rest with
  | none => none
  | some (dbl, rest) =>
    if rest < big_distance ∧ sub64 unsafe_interval rest ≥ ten_kappa ∧
        (add64 rest ten_kappa < big_distance ∨
          sub64 big_distance rest > sub64 (add64 rest ten_kappa) big_distance) then
      some (false, dbl)
    else
      some (decide (mul64 2 unit ≤ rest ∧ rest ≤ sub64 unsafe_interval (mul64 4 unit)), dbl)

/-- Function `RoundWeedCounted`: the returned flag, the digits and `kappa`. -/
def RoundWeedCounted (dbl : double_format_context) (rest ten_kappa unit : Nat) (kappa : Int) :
    Bool × double_format_context × Int :=
  if unit ≥ ten_kappa then (false, dbl, kappa)
  else if sub64 ten_kappa unit ≤ unit then (false, dbl, kappa)
  else if sub64 ten_kappa rest > rest ∧ sub64 ten_kappa (mul64 2 rest) ≥ mul64 2 unit then
    (true, dbl, kappa)
  else if rest > unit ∧ sub64 ten_kappa (sub64 rest unit) ≤ sub64 rest unit then
    let r := dbl.round_up
    (true, { dbl with digits := r.1 }, if r.2 then kappa + 1 else kappa)
  else (false, dbl, kappa)

/-- The table `kSmallPowersOfTen`. -/
def kSmallPowersOfTen : List Nat :=
  [0, 1, 10, 100, 1000, 10000, 100000, 1000000, 10000000, 100000000, 1000000000]

/-- Function `greater_power_of_ten(number, number_bits)`. -/
def greater_power_of_ten (number number_bits : Nat) : Nat :=
  let exponent_plus_one_guess := ((number_bits + 1) * 1233) >>> 12
  let exponent_plus_one_guess := exponent_plus_one_guess + 1
  if number < kSmallPowersOfTen.getD exponent_plus_one_guess 0 then exponent_plus_one_guess - 1
  else exponent_plus_one_guess

/-- Function `BiggestPowerTen(number, number_bits, power, exponent_plus_one)`. -/
def BiggestPowerTen (number number_bits : Nat) : Nat × Nat :=
  let exponent_plus_one_guess := ((number_bits + 1) * 1233) >>> 12
  let exponent_plus_one_guess := exponent_plus_one_guess + 1
  let exponent_plus_one_guess :=
    if number < kSmallPowersOfTen.getD exponent_plus_one_guess 0 then exponent_plus_one_guess - 1
    else exponent_plus_one_guess
  (kSmallPowersOfTen.getD exponent_plus_one_guess 0, exponent_plus_one_guess)

/-- The first loop of `DigitGen` (integral digits, `while(dbl.decimal_point > 0)`), run for
the `pow10` remaining powers: either the result of `RoundWeed` (`inl`) or the state when
the loop is left (`inr (dbl, integrals)`). -/
def DigitGen_loop1 (shift significand too_high unsafe_interval fractionals : Nat) :
    Nat → double_format_context → Nat →
      Option (Bool × double_format_context) ⊕ (double_format_context × Nat)
  | 0, dbl, integrals => Sum.inr (dbl, integrals)
  | n + 1, dbl, integrals =>
    let pow10 := n + 1
    let divisor := kSmallPowersOfTen.getD pow10 0
    let digit := integrals / divisor
    let dbl := dbl.add_digit ((48 + digit) % 256)
    let integrals := integrals % divisor
    let dbl := { dbl with decimal_point := dbl.decimal_point - 1 }
    let rest := add64 (shl64 integrals shift) fractionals
    if rest < unsafe_interval then
      Sum.inl (RoundWeed dbl (sub64 too_high significand) unsafe_interval rest
        (shl64 divisor shift) 1)
    else DigitGen_loop1 shift significand too_high unsafe_interval fractionals n dbl integrals

/-- The second loop of `DigitGen` (fractional digits, `for(;;)`): `none` when the fuel runs
out. -/
def DigitGen_loop2 (shift significand too_high one : Nat) :
    Nat → double_format_context → Nat → Nat → Nat → Option (Bool × double_format_context)
  | 0, _, _, _, _ => none
  | fuel + 1, dbl, fractionals, unit, unsafe_interval =>
    let fractionals := mul64 fractionals 10
    let unit := mul64 unit 10
    let unsafe_interval := mul64 unsafe_interval 10
    let digit := fractionals >>> shift
    let dbl := dbl.add_digit ((48 + digit) % 256)
    let fractionals := fractionals &&& (one - 1)
    let dbl := { dbl with decimal_point := dbl.decimal_point - 1 }
    if fractionals < unsafe_interval then
      RoundWeed dbl (mul64 (sub64 too_high significand) unit) unsafe_interval fractionals one unit
    else DigitGen_loop2 shift significand too_high one fuel dbl fractionals unit unsafe_interval

/-- Function `DigitGen(dbl, exponent, significand, low, high)`. The second loop multiplies
the unsafe interval by ten per digit while `fractionals < 2^60`, so 64 iterations are
allowed. -/
def DigitGen (dbl : double_format_context) (exponent : Int) (significand low high : Nat) :
    Option (Bool × double_format_context) :=
  let too_low := sub64 low 1
  let too_high := add64 high 1
  let unsafe_interval := sub64 too_high too_low
  let shift := (-exponent).toNat
  let one := shl64 1 shift
  let integrals := (too_high >>> shift) % 2 ^ 32
  let fractionals := too_high &&& (one - 1)
  let pow10 := greater_power_of_ten integrals (64 - shift)
  let dbl := { dbl with decimal_point := pow10 }
  match DigitGen_loop1 shift significand too_high unsafe_interval fractionals pow10 dbl integrals with
  | Sum.inl r => r
  | Sum.inr (dbl, _) =>
    DigitGen_loop2 shift significand too_high one 64 dbl fractionals 1 unsafe_interval

/-- The first loop of `DigitGenCounted` (`while(kappa > 0)`):
`(dbl, digits_last, integrals, kappa, divisor)`. -/
def DigitGenCounted_loop1 :
    Nat → double_format_context → Nat → Nat → Nat → Nat →
      double_format_context × Nat × Nat × Nat × Nat
  | 0, dbl, digits_last, integrals, kappa, divisor => (dbl, digits_last, integrals, kappa, divisor)
  | fuel + 1, dbl, digits_last, integrals, kappa, divisor =>
    if kappa > 0 then
      let digit := integrals / divisor
      let dbl := dbl.add_digit ((48 + digit) % 256)
      let digits_last := (digits_last + 2 ^ 32 - 1) % 2 ^ 32
      let integrals := integrals % divisor
      let kappa := kappa - 1
      if digits_last = 0 then (dbl, digits_last, integrals, kappa, divisor)
      else DigitGenCounted_loop1 fuel dbl digits_last integrals kappa (divisor / 10)
    else (dbl, digits_last, integrals, kappa, divisor)

/-- The second loop of `DigitGenCounted`
(`while(digits_last != 0 && fractionals > w_error)`):
`(dbl, digits_last, fractionals, w_error, kappa)`. -/
def DigitGenCounted_loop2 (shift one : Nat) :
    Nat → double_format_context → Nat → Nat → Nat → Int →
      double_format_context × Nat × Nat × Nat × Int
  | 0, dbl, digits_last, fractionals, w_error, kappa => (dbl, digits_last, fractionals, w_error, kappa)
  | fuel + 1, dbl, digits_last, fractionals, w_error, kappa =>
    if digits_last ≠ 0 ∧ fractionals > w_error then
      let fractionals := mul64 fractionals 10
      let w_error := mul64 w_error 10
      let digit := fractionals >>> shift
      let dbl := dbl.add_digit ((48 + digit) % 256)
      let digits_last := (digits_last + 2 ^ 32 - 1) % 2 ^ 32
      let fractionals := fractionals &&& (one - 1)
      DigitGenCounted_loop2 shift one fuel dbl digits_last fractionals w_error (kappa - 1)
    else (dbl, digits_last, fractionals, w_error, kappa)

/-- Function `DigitGenCounted(dbl, w, kappa)`: the flag, the context and `kappa`. The first
loop runs at most `kappa` times and the second at most `digits_last` times. -/
def DigitGenCounted (dbl : double_format_context) (w : DiyFp) :
    Bool × double_format_context × Int :=
  let w_error := 1
  let shift := (-w.e).toNat
  let one := shl64 1 shift
  let integrals := (w.f >>> shift) % 2 ^ 32
  let fractionals := w.f &&& (one - 1)
  let p := BiggestPowerTen integrals (64 - shift)
  let divisor := p.1
  let kappa := p.2
  let digits_last := dbl.requested_digits.toNat % 2 ^ 32
  let r := DigitGenCounted_loop1 kappa dbl digits_last integrals kappa divisor
  let dbl := r.1
  let digits_last := r.2.1
  let integrals := r.2.2.1
  let kappa := r.2.2.2.1
  let divisor := r.2.2.2.2
  if digits_last = 0 then
    let rest := add64 (shl64 integrals shift) fractionals
    RoundWeedCounted dbl rest (shl64 divisor shift) w_error kappa
  else
    let r := DigitGenCounted_loop2 shift one digits_last dbl digits_last fractionals w_error kappa
    if r.2.1 ≠ 0 then (false, r.1, r.2.2.2.2)
    else RoundWeedCounted r.1 r.2.2.1 one r.2.2.2.1 r.2.2.2.2

/-- Function `grisu3_dtoa(dbl)`: the flag and the context; `none` when a loop of the model
runs out of fuel. The boundaries are computed from `dbl.value` as in the source. -/
def grisu3_dtoa (dbl : double_format_context) : Option (Bool × double_format_context) :=
  let w := DiyFp.MakeNormalized dbl
  let bs := DiyFp.NormalizedBoundaries (double_format_context.of_double dbl.value)
  let boundary_minus := bs.1
  let boundary_plus := bs.2
  let ten_mk_minimal_binary_exponent := -60 - (w.e + 64)
  let ten_mk_maximal_binary_exponent := -32 - (w.e + 64)
  let c := GetCachedPowerForBinaryExponentRange ten_mk_minimal_binary_exponent
    ten_mk_maximal_binary_exponent
  let ten_mk := c.1
  let mk := c.2
  let scaled_w := DiyFp.Times w ten_mk
  let scaled_boundary_minus := DiyFp.Times boundary_minus ten_mk
  let scaled_boundary_plus := DiyFp.Times boundary_plus ten_mk
  match DigitGen dbl scaled_w.e scaled_w.f scaled_boundary_minus.f scaled_boundary_plus.f with
  | none => none
  | some (false, dbl) => some (false, { dbl with digits := [] })
  | some (true, dbl) =>
    let decimal_exponent := -mk + dbl.decimal_point
    some (true, { dbl with decimal_point := (dbl.digits.length : Int) + decimal_exponent })

/-- Function `grisu3_fixed_dtoa(dbl)`: the flag and the context. -/
def grisu3_fixed_dtoa (dbl : double_format_context) : Bool × double_format_context :=
  let w := DiyFp.MakeNormalized dbl
  let ten_mk_minimal_binary_exponent := -60 - (w.e + 64)
  let ten_mk_maximal_binary_exponent := -32 - (w.e + 64)
  let c := GetCachedPowerForBinaryExponentRange ten_mk_minimal_binary_exponent
    ten_mk_maximal_binary_exponent
  let ten_mk := c.1
  let mk := c.2
  let scaled_w := DiyFp.Times w ten_mk
  let r := DigitGenCounted dbl scaled_w
  if !r.1 then (false, { r.2.1 with digits := [] })
  else
    let dbl := r.2.1
    let kappa := r.2.2
    let decimal_exponent := -mk + kappa
    (true, { dbl with decimal_point := (dbl.digits.length : Int) + decimal_exponent })


/-! ## format_double.cpp -/

/-- The `double` nearest to `m * 2^e` (ties to even), as a bit pattern: the rounding applied by
a `double` multiplication. Sub-normal results and overflow to infinity are covered. -/
def double_of_scaled (m : Nat) (e : Int) : Nat :=
  if m = 0 then 0
  else
    let len : Int := bit_length m
    let q : Int := max (e + len - 53) (-1074)
    let mant : Nat :=
      if q ≤ e then m * 2 ^ (e - q).toNat
      else
        let s := (q - e).toNat
        let t := m >>> s
        let r := m % 2 ^ s
        let half := 2 ^ (s - 1)
        if r > half ∨ (r = half ∧ t % 2 = 1) then t + 1 else t
    let q : Int := if mant = 2 ^ 53 then q + 1 else q
    let mant : Nat := if mant = 2 ^ 53 then 2 ^ 52 else mant
    if mant < 2 ^ 52 then mant
    else if q + 1075 ≥ 2047 then 0x7FF0000000000000
    else (q + 1075).toNat * 2 ^ 52 + (mant - 2 ^ 52)

/-- The statement `value *= 100` on the bit pattern of a finite non-negative `double`. -/
def double_times_100 (u : Nat) : Nat :=
  let d := double_format_context.of_double u
  double_of_scaled (d.significand * 100) d.exponent

/-- The bit pattern of the `double` constant `1e60` (`max_fixed_value`). -/
def max_fixed_value : Nat := 0x4c63e9e4e4c2f344

/-- Function `std::clamp(v, lo, hi)` on `int`. -/
def clamp (v lo hi : Int) : Int := if v < lo then lo else if hi < v then hi else v

/-- Function `exponent_format_size`'s loop `while(exponent > 0) { ++result; exponent /= 10; }`. -/
def exponent_size_loop : Nat → Nat → Nat → Nat
  | 0, _, result => result
  | fuel + 1, exponent, result =>
    if exponent > 0 then exponent_size_loop fuel (exponent / 10) ((result + 1) % 2 ^ 32) else result

/-- Function `exponent_format_size(dbl)`. -/
def exponent_format_size (dbl : double_format_context) : Nat :=
  let result := (dbl.digits.length + 1) % 2 ^ 32
  let result := if dbl.digits.length > 1 then (result + 1) % 2 ^ 32 else result
  let exponent := dbl.decimal_point - 1
  let result := (result + 1) % 2 ^ 32
  let exponent := if exponent < 0 then -exponent else exponent
  exponent_size_loop exponent.toNat exponent.toNat result

/-- The digit loop of `format_exponent` (`buffer[--pos] = '0' + exponent % 10`). -/
def exponent_digits_loop : Nat → Nat → List Nat → List Nat
  | 0, _, acc => acc
  | fuel + 1, exponent, acc =>
    if exponent > 0 then exponent_digits_loop fuel (exponent / 10) ((48 + exponent % 10) :: acc)
    else acc

/-- Function `format_exponent(out, dbl)`. -/
def format_exponent (out : List Nat) (dbl : double_format_context) : List Nat :=
  let exponent := dbl.decimal_point - 1
  let out := add out (dbl.digits.getD 0 0)
  let out := if dbl.digits.length ≠ 1 then add out 46 ++ dbl.digits.drop 1 else out
  let out := add out (if dbl.uppercase then 69 else 101)
  let out := if exponent < 0 then add out 45 else add out 43
  let exponent := if exponent < 0 then -exponent else exponent
  if exponent = 0 then add out 48
  else out ++ exponent_digits_loop exponent.toNat exponent.toNat []

/-- Conversion of an `int` to `unsigned`. -/
def to_unsigned (i : Int) : Nat := (i % 2 ^ 32).toNat

/-- Function `decimal_format_size(dbl)`, in `unsigned` arithmetic. -/
def decimal_format_size (dbl : double_format_context) : Nat :=
  if dbl.decimal_point ≤ 0 then
    if dbl.digits_after_point = 0 then 1 else (2 + dbl.digits_after_point) % 2 ^ 32
  else if dbl.decimal_point ≥ (dbl.digits.length : Int) then
    let result := to_unsigned dbl.decimal_point
    if dbl.digits_after_point ≠ 0 then (result + (1 + dbl.digits_after_point)) % 2 ^ 32 else result
  else
    to_unsigned ((dbl.digits.length : Int) + 1 + dbl.digits_after_point
      - (to_unsigned ((dbl.digits.length : Int) - dbl.decimal_point) : Int))

/-- Function `format_decimal(out, dbl)`; the counts passed to `add_padding` are `unsigned`
differences (`zero_decimal_fraction` is `0`, so the closing block writes nothing). -/
def format_decimal (out : List Nat) (dbl : double_format_context) : List Nat :=
  if dbl.decimal_point ≤ 0 then
    let out := add out 48
    if dbl.digits_after_point ≠ 0 then
      let out := add out 46
      let out := add_padding out 48 (-dbl.decimal_point).toNat
      let out := out ++ dbl.digits
      let remaining_digits := to_unsigned ((dbl.digits_after_point : Int)
        - to_unsigned (-dbl.decimal_point) - dbl.digits.length)
      add_padding out 48 remaining_digits
    else out
  else if dbl.decimal_point ≥ (dbl.digits.length : Int) then
    let out := out ++ dbl.digits
    let out := add_padding out 48 (to_unsigned ((to_unsigned dbl.decimal_point : Int) - dbl.digits.length))
    if dbl.digits_after_point > 0 then
      let out := add out 46
      add_padding out 48 dbl.digits_after_point
    else out
  else
    let out := out ++ dbl.digits.take dbl.decimal_point.toNat
    let out := add out 46
    let out := out ++ dbl.digits.drop dbl.decimal_point.toNat
    let remaining_digits := to_unsigned ((dbl.digits_after_point : Int)
      - to_unsigned ((dbl.digits.length : Int) - dbl.decimal_point))
    add_padding out 48 remaining_digits

/-- Function `format_size(dbl)`. -/
def format_size (dbl : double_format_context) : Nat :=
  if dbl.format_as_exponent then exponent_format_size dbl else decimal_format_size dbl

/-- Function `format(out, dbl)`. -/
def format (out : List Nat) (dbl : double_format_context) : List Nat :=
  if dbl.format_as_exponent then format_exponent out dbl else format_decimal out dbl

/-- Function `generate_decimal_digits(dbl, mode)`: `none` when a loop of the model runs out of
fuel. `dbl.value == 0` is the test of the bit pattern of a non-negative double. -/
def generate_decimal_digits (dbl : double_format_context) (mode : dtoa_mode) :
    Option double_format_context :=
  if mode = dtoa_mode.PRECISION ∧ dbl.requested_digits = 0 then some dbl
  else if dbl.value = 0 then some { dbl.add_digit 48 with decimal_point := 1 }
  else
    let fast : Option (Bool × double_format_context) :=
      match mode with
      | dtoa_mode.SHORTEST => grisu3_dtoa dbl
      | dtoa_mode.FIXED => some (fast_fixed_dtoa dbl)
      | dtoa_mode.PRECISION => some (grisu3_fixed_dtoa dbl)
    match fast with
    | none => none
    | some (true, dbl) => some dbl
    | some (false, dbl) => bignum_dtoa { dbl with digits := [], decimal_point := 0 } mode

/-- Function `generate_shortest(dbl)`. -/
def generate_shortest (dbl : double_format_context) : Option double_format_context :=
  match generate_decimal_digits dbl dtoa_mode.SHORTEST with
  | none => none
  | some dbl =>
    let exponent := dbl.decimal_point - 1
    if -6 ≤ exponent ∧ exponent ≤ 21 then
      let digits_after_point := to_unsigned (max 0 ((dbl.digits.length : Int) - dbl.decimal_point))
      some { dbl with digits_after_point := digits_after_point }
    else some { dbl with format_as_exponent := true }

/-- Function `generate_fixed(dbl)`: `some none` stands for `return false`. The comparison
`dbl.value >= max_fixed_value` of non-negative doubles is that of their bit patterns (the
second test, `dbl.value <= -max_fixed_value`, is false for them). -/
def generate_fixed (dbl : double_format_context) : Option (Option double_format_context) :=
  if dbl.value ≥ max_fixed_value then some none
  else
    let dbl := { dbl with requested_digits := clamp dbl.requested_digits 0 60 }
    match generate_decimal_digits dbl dtoa_mode.FIXED with
    | none => none
    | some dbl => some (some { dbl with digits_after_point := to_unsigned dbl.requested_digits })

/-- The loop `while(dbl.digit_count < unsigned(dbl.requested_digits)) dbl.add_digit('0')`. -/
def pad_zero_digits (dbl : double_format_context) : double_format_context :=
  let count := to_unsigned dbl.requested_digits - dbl.digits.length
  { dbl with digits := dbl.digits ++ List.replicate count 48 }

/-- Function `generate_exponent(dbl)`. -/
def generate_exponent (dbl : double_format_context) : Option double_format_context :=
  let dbl := { dbl with requested_digits := clamp dbl.requested_digits 0 120 }
  let r :=
    if !dbl.has_requested_digits then generate_decimal_digits dbl dtoa_mode.SHORTEST
    else
      let dbl := { dbl with requested_digits := dbl.requested_digits + 1 }
      match generate_decimal_digits dbl dtoa_mode.PRECISION with
      | none => none
      | some dbl => some (pad_zero_digits dbl)
  match r with
  | none => none
  | some dbl => some { dbl with format_as_exponent := true }

/-- Function `generate_precision(dbl)` (`extra_zero` is `0`). -/
def generate_precision (dbl : double_format_context) : Option double_format_context :=
  let dbl := { dbl with requested_digits := clamp dbl.requested_digits 1 120 }
  match generate_decimal_digits dbl dtoa_mode.PRECISION with
  | none => none
  | some dbl =>
    if -dbl.decimal_point + 1 > 6 ∨ dbl.decimal_point - dbl.requested_digits + 0 > 0 then
      some { pad_zero_digits dbl with format_as_exponent := true }
    else
      let digits_after_point := to_unsigned (max 0 (dbl.requested_digits - dbl.decimal_point))
      some { dbl with digits_after_point := digits_after_point }

/-- The test `spec.type != 0 && spec.type < 'a'` (plain `char` taken as signed). -/
def type_is_upper (type : Nat) : Bool := type ≠ 0 ∧ (type < 97 ∨ type ≥ 128)

/-- Function `format_nan_inf(out, spec, inf)`. -/
def format_nan_inf (out : List Nat) (spec : format_spec) (inf : Bool) : List Nat :=
  let buf : List Nat := if spec.sign ≠ 0 ∧ inf then [spec.sign] else []
  let upper := type_is_upper spec.type
  let str := if inf then (if upper then bytes "INF" else bytes "inf")
    else (if upper then bytes "NAN" else bytes "nan")
  write_padded out spec (buf ++ str)

/-- The digit generation selected by `switch(spec.type)` in `do_format_double`. -/
def generate_for_type (spec : format_spec) (dbl : double_format_context) :
    Option double_format_context :=
  if spec.type = 69 ∨ spec.type = 101 then generate_exponent dbl
  else if spec.type = 70 ∨ spec.type = 102 then
    match generate_fixed dbl with
    | none => none
    | some (some dbl) => some dbl
    | some none => generate_precision dbl
  else if spec.type = 0 ∨ spec.type = 71 ∨ spec.type = 103 ∨ spec.type = 37 then
    if spec.has_precision then generate_precision dbl else generate_shortest dbl
  else some dbl

/-- The conversion of `spec.has_precision ? spec.precision : 6` (an `unsigned`) to the `int`
`requested_digits`. -/
def requested_of_spec (spec : format_spec) : Int :=
  let p : Nat := if spec.has_precision then spec.precision % 2 ^ 32 else 6
  if p ≥ 2 ^ 31 then (p : Int) - 2 ^ 32 else p

/-- Function `do_format_double(out, spec, value)`, `value` given by its bit pattern: `none`
when a loop of the model runs out of fuel. -/
def do_format_double (out : List Nat) (spec : format_spec) (value : Nat) : Option (List Nat) :=
  let negative := decide (value / 2 ^ 63 % 2 = 1)
  let value := if negative then value % 2 ^ 63 else value
  let spec := { spec with sign := sign_char spec negative }
  if (value / 2 ^ 52) % 2 ^ 11 = 2047 then
    some (format_nan_inf out spec (decide (value % 2 ^ 52 = 0)))
  else
    let value := if spec.type = 37 then double_times_100 value else value
    let dbl := double_format_context.of_double value
    let dbl := { dbl with uppercase := type_is_upper spec.type,
                          has_requested_digits := spec.has_precision,
                          requested_digits := requested_of_spec spec }
    match generate_for_type spec dbl with
    | none => none
    | some dbl =>
      let size := format_size dbl
      let size := if spec.sign ≠ 0 then (size + 1) % 2 ^ 32 else size
      let size := if spec.type = 37 then (size + 1) % 2 ^ 32 else size
      let fill := if spec.fill ≠ 0 then spec.fill else 32
      let left_padding :=
        if spec.width > size then
          let size := spec.width
          let padding := to_unsigned ((spec.width : Int) - size)
          if spec.align = 60 then 0 else if spec.align = 94 then padding / 2 else padding
        else 0
      let right_padding := 0
      let out := if left_padding ≠ 0 then add_padding out fill left_padding else out
      let out := if spec.sign ≠ 0 then add out spec.sign else out
      let out := format out dbl
      let out := if spec.type = 37 then add out 37 else out
      let out := if right_padding ≠ 0 then add_padding out fill right_padding else out
      some out

/-! ## Reading the rendered text -/

/-- The number of bytes that follow the first `'.'` of a rendered text (`0` without one). -/
def fraction_length (text : List Nat) : Nat := (text.dropWhile (fun c => c ≠ 46)).length - 1


/-! ## Definitions used by the statements and proofs only -/

/-- Decidable form of `Bignum.wf`. -/
def Bignum.wf_check (b : Bignum) : Bool :=
  b.bigits.all (fun d => decide (d < 2 ^ 28)) && (b.bigits.getLast? != some 0)
    && (!b.bigits.isEmpty || b.exponent == 0)

/-- Whether `p` holds for every number below `n`. -/
def all_below (p : Nat → Bool) : Nat → Bool
  | 0 => true
  | n + 1 => p n && all_below p n


/-- The check, for the normalized exponent `i - 1126`, that `EstimatePower` is in the range
of the powers of ten of doubles and brackets the binade:
`10^(est - 1) <= 2^(ne + 52)` and `2^(ne + 53) <= 10^(est + 1)`. -/
def estimate_check (i : Nat) : Bool :=
  let ne : Int := (i : Int) - 1126
  let est := EstimatePower ne
  decide (-324 ≤ est) && decide (est ≤ 309) && decide (0 ≤ ne → 0 ≤ est)
  && decide (10 ^ (est - 1).toNat * 2 ^ (-(ne + 52)).toNat ≤ 2 ^ (ne + 52).toNat * 10 ^ (-(est - 1)).toNat)
  && decide (2 ^ (ne + 53).toNat * 10 ^ (-(est + 1)).toNat ≤ 10 ^ (est + 1).toNat * 2 ^ (-(ne + 53)).toNat)

/-- The rational number `significand * 2^exponent` a double stands for. -/
def double_value (significand : Nat) (exponent : Int) : ℚ := (significand : ℚ) * 2 ^ exponent

/-- The number written by a list of ASCII decimal digits. -/
def digits_value (digits : List Nat) : Nat := digits.foldl (fun acc c => 10 * acc + (c - 48)) 0

/-- The rational number `0.d1...dn * 10^decimal_point` written by a digit buffer. -/
def decimal_of (digits : List Nat) (decimal_point : Int) : ℚ :=
  (digits_value digits : ℚ) * 10 ^ (decimal_point - digits.length)

/-- The `n` lowest decimal digits of `i` in ASCII, most significant first. -/
def nat_digits : Nat → Nat → List Nat
  | 0, _ => []
  | n + 1, i => nat_digits n (i / 10) ++ [48 + i % 10]

/-- Every byte is an ASCII decimal digit. -/
def all_digits (l : List Nat) : Prop := ∀ c ∈ l, 48 ≤ c ∧ c ≤ 57

/-- A finite, non-zero, non-negative double, given by its bit pattern. -/
def finite_pos (u : Nat) : Prop := 0 < u ∧ u < 2 ^ 63 ∧ (u / 2 ^ 52) % 2 ^ 11 ≠ 2047

instance (l : List Nat) : Decidable (all_digits l) := by unfold all_digits; infer_instance
instance (u : Nat) : Decidable (finite_pos u) := by unfold finite_pos; infer_instance


/-- The integer nearest to `a / b`, a tie going up. -/
def round_half_up (a b : Nat) : Nat := (2 * a + b) / (2 * b)


/-- The integer nearest to `significand * 2^exponent * 10^r`, a tie going up. -/
def fixed_rounding (significand : Nat) (exponent : Int) (r : Nat) : Nat :=
  ⌊double_value significand exponent * 10 ^ r + 1 / 2⌋₊

/-- A digit buffer with its decimal point stands for `R / 10^r`: the digits are decimal
digits without a leading zero, none of them lies beyond the `r`-th fractional place, and zero
is the empty buffer with the decimal point at `-r`. -/
def encodes_fixed (digits : List Nat) (decimal_point : Int) (r R : Nat) : Prop :=
  all_digits digits ∧ digits.head? ≠ some 48 ∧ (digits.length : Int) ≤ decimal_point + r ∧
  (digits = [] → decimal_point = -(r : Int)) ∧
  digits_value digits * 10 ^ (decimal_point + r - digits.length).toNat = R


/-- The digit a character of `"0123456789abcdef"` or `"0123456789ABCDEF"` stands for. -/
def char_digit (c : Nat) : Nat :=
  if 48 ≤ c ∧ c ≤ 57 then c - 48
  else if 97 ≤ c ∧ c ≤ 102 then c - 87
  else if 65 ≤ c ∧ c ≤ 70 then c - 55
  else 0

/-- The number written in base `base` by a list of digit characters. -/
def base_value (base : Nat) (l : List Nat) : Nat :=
  l.foldl (fun acc c => base * acc + char_digit c) 0

/-- A text is the positional representation of `v` in base `base` over the alphabet
`alphabet`: its characters are among the first `base` of the alphabet, it is not empty, it has no
leading zero unless it is `"0"`, and it reads back as `v`. -/
def is_numeral (alphabet : List Nat) (base v : Nat) (l : List Nat) : Prop :=
  (∀ c ∈ l, c ∈ alphabet.take base) ∧ l ≠ [] ∧ (l.head? = some 48 → l = [48]) ∧
  base_value base l = v

/-- The sign text of a number as the format description gives it: `"-"` for a negative value
whatever the flag; for a non-negative value `"+"` with the flag `'+'`, a space with the flag
`' '`, and nothing with the flag `'-'` or without a flag. -/
def sign_text (flag : Nat) (negative : Bool) : List Nat :=
  if negative then bytes "-"
  else if flag = 43 then bytes "+"
  else if flag = 32 then bytes " "
  else []

/-- The alternate-form prefix of an integer as the format description gives it: with `'#'`,
`"0x"` for `'x'`, `"0X"` for `'X'`, `"0b"` for `'b'`, a bare `"0"` for `'o'`, nothing for the
decimal types; nothing without `'#'`. -/
def alternate_text (alt : Nat) (type : Nat) : List Nat :=
  if alt = 0 then []
  else if type = 120 then bytes "0x"
  else if type = 88 then bytes "0X"
  else if type = 98 then bytes "0b"
  else if type = 111 then bytes "0"
  else []


/-- The check, for the binary exponent `we = i - 1137` of a normalized significand, that the
cached power selected for it has a significand with bit 63 set and brings the exponent of the
product into `[-60, -32]`. -/
def cached_check (i : Nat) : Bool :=
  let we : Int := (i : Int) - 1137
  let c := GetCachedPowerForBinaryExponentRange (-60 - (we + 64)) (-32 - (we + 64))
  decide (2 ^ 63 ≤ c.1.f) && decide (c.1.f < 2 ^ 64) &&
    decide (-60 ≤ we + (c.1.e + 64)) && decide (we + (c.1.e + 64) ≤ -32)


/-- The context `a` is the context `b` with other digits and another decimal point: what the
digit generators are allowed to change. -/
def digits_updated (b a : double_format_context) : Prop :=
  ∃ ds k, a = { b with digits := ds, decimal_point := k }

/-- A context that holds the decoding of its own bit pattern, the pattern being that of a
finite non-negative double (or of `+infinity`, which the multiplication by 100 can yield). -/
def decoded (dbl : double_format_context) : Prop :=
  dbl.significand < 2 ^ 53 ∧ -1074 ≤ dbl.exponent ∧ dbl.exponent ≤ 972 ∧
  (dbl.significand < 2 ^ 52 → dbl.exponent = -1074) ∧
  (dbl.value ≠ 0 → 0 < dbl.significand) ∧
  (double_format_context.of_double dbl.value).significand = dbl.significand ∧
  dbl.digits = []

/-- The decimal notation of the digits `d1...dn` with decimal point `k`, without padding of
the fraction: `0.0...0d1...dn` for `k <= 0`, `d1...dn0...0` for `k >= n`, and the digits with a
point after the first `k` of them otherwise. -/
def decimal_text (digits : List Nat) (k : Int) : List Nat :=
  if k ≤ 0 then bytes "0." ++ List.replicate (-k).toNat 48 ++ digits
  else if k ≥ (digits.length : Int) then digits ++ List.replicate (k - digits.length).toNat 48
  else digits.take k.toNat ++ [46] ++ digits.drop k.toNat

end univang.fmt.detail

/-!
# univang::fmt — format strings

The parser of replacement fields (format_parsing.hpp, parse_context.hpp) and the driver
`vformat_to` (format.cpp).

* A parser is the bytes it still views, `[pos_, end_)`, together with its flag `eof_` and its
  message `err_`; a pointer into the view is its offset from `pos_`.
* A result `none` means that the C++ execution has left defined behaviour: the assertion
  `!eof_` of `front_char` / `consume_char` is violated, or `pos_` has moved beyond `end_` so
  that the next access reads outside the viewed string (or a loop of the model is out of fuel,
  which the fuel handed over by the callers excludes).
* Plain `char` is the signed 8-bit type of the x86-64 targets; `int` and `unsigned` have 32
  bits, `long long` and `unsigned long long` have 64.
-/

namespace univang.fmt

/-! ## format.hpp: `format_arg` -/

/-- The alternatives of `format_arg::value_type`. A `double` is its bit pattern, a C string is
its address and its bytes before the terminator, and a `handle` is its `format_fn` bound to its
`ptr`: from the bytes in the sink and the bytes of the `parse_context` to the bytes in the sink
afterwards. -/
inductive format_arg where
  | bool (v : Bool)
  | char (v : Nat)
  | int (v : Int)
  | unsigned (v : Nat)
  | long_long (v : Int)
  | unsigned_long_long (v : Nat)
  | double (v : Nat)
  | c_str (ptr : Nat) (v : List Nat)
  | string_view (v : List Nat)
  | pointer (v : Nat)
  | handle (format_fn : List Nat → List Nat → List Nat)

/-- Function `append_dec(out, i)` of format_integer.hpp for an unsigned type. -/
def detail.append_dec_unsigned (out : List Nat) (i : Nat) : List Nat :=
  out ++ detail.write_dec i

/-- Function `append_dec(out, i)` of format_integer.hpp for a signed type of `w` bits. -/
def detail.append_dec_signed (w : Nat) (out : List Nat) (i : Int) : List Nat :=
  let neg := decide (i < 0)
  let u := if neg then Int.toNat ((-i) % 2 ^ w) else Int.toNat i
  let tmp := detail.write_dec u
  let tmp := if neg then 45 :: tmp else tmp
  out ++ tmp

/-- Function `append(out, const void* v)` of format.cpp. -/
def append_pointer (out : List Nat) (v : Nat) : List Nat :=
  let width := 16
  let tmp := detail.write_int v 16 false
  let pos := width - tmp.length
  let out := add out 48
  let out := add out 120
  let out := add_padding out 48 pos
  out ++ tmp

/-! ## parse_context.hpp and the class `format_parse_context` of format_parsing.hpp -/

/-- Class `format_parse_context` with the members it inherits from `parse_context`: `rest` is
the bytes of `[pos_, end_)`. -/
structure format_parse_context where
  rest : List Nat
  eof : Bool
  err : Option (List Nat) := none
  args : List format_arg := []
  last_arg_pos : Nat := 0

namespace format_parse_context

/-- Constructor `format_parse_context(str, args)`. -/
def init (str : List Nat) (args : List format_arg) : format_parse_context :=
  { rest := str, eof := decide (str.length = 0), args := args }

/-- Member `fail()`. -/
def fail (p : format_parse_context) : Bool := p.err.isSome

/-- Member `error()`, read only once `fail()` holds. -/
def error (p : format_parse_context) : List Nat := p.err.getD []

/-- Function `memchr` on the viewed bytes: the offset of the first `c`. -/
def find_char (c : Nat) : List Nat → Option Nat
  | [] => none
  | x :: xs => if x = c then some 0 else (find_char c xs).map (· + 1)

/-- Member `find(c)`: the offset of the first `c` from `pos_`, `none` for `nullptr`. -/
def find (p : format_parse_context) (c : Nat) : Option Nat :=
  if p.eof then none else find_char c p.rest

/-- Members `advance(count)` and `advance_to(pos_ + count)`, which end in `check_eof()`. -/
def advance (p : format_parse_context) (count : Nat) : Option format_parse_context :=
  if count ≤ p.rest.length then
    some { p with rest := p.rest.drop count, eof := decide (p.rest.length = count) }
  else none

/-- Member `front_char()`. -/
def front_char (p : format_parse_context) : Option Nat :=
  if p.eof then none else p.rest.head?

/-- Member `consume_char()`. -/
def consume_char (p : format_parse_context) : Option (Nat × format_parse_context) :=
  if p.eof then none
  else
    match p.rest with
    | [] => none
    | c :: r => some (c, { p with rest := r, eof := decide (r.length = 0) })

/-- Member `consume(c)`. -/
def consume (p : format_parse_context) (c : Nat) : Bool × format_parse_context :=
  match p.rest with
  | [] => (false, p)
  | x :: r =>
    if p.eof ∨ x ≠ c then (false, p)
    else (true, { p with rest := r, eof := decide (r.length = 0) })

/-- Member `on_error(err)`. -/
def on_error (p : format_parse_context) (err : List Nat) : format_parse_context :=
  { p with eof := true, err := some err }

/-- Member `is_char(c)`. -/
def is_char (p : format_parse_context) (c : Nat) : Bool :=
  !p.eof && decide (p.rest.head? = some c)

/-- Member `is_decimal_digit()`. -/
def is_decimal_digit (p : format_parse_context) : Bool :=
  !p.eof &&
    (match p.rest with
     | [] => false
     | x :: _ => decide (48 ≤ x) && decide (x ≤ 57))

/-- Member `next_arg()`: `return last_arg_pos_++`. -/
def next_arg (p : format_parse_context) : Nat × format_parse_context :=
  (p.last_arg_pos, { p with last_arg_pos := (p.last_arg_pos + 1) % 2 ^ 32 })

/-- Member `arg_count()`. -/
def arg_count (p : format_parse_context) : Nat := p.args.length

/-- Member `get_arg(pos)`: `args_.data[pos].value`. -/
def get_arg (p : format_parse_context) (pos : Nat) : Option format_arg := p.args.get? pos

end format_parse_context

namespace detail

/-! ## format_parsing.hpp -/

/-- The `while(parser.is_decimal_digit())` loop of `parse_uint`. -/
def parse_uint_loop : Nat → format_parse_context → Nat → Option (Nat × format_parse_context)
  | 0, parser, result => if parser.is_decimal_digit then none else some (result, parser)
  | fuel + 1, parser, result =>
    if parser.is_decimal_digit then
      match parser.consume_char with
      | none => none
      | some (c, parser) => parse_uint_loop fuel parser ((result * 10 + (c - 48)) % 2 ^ 32)
    else some (result, parser)

/-- Function `parse_uint(parser)`; its callers have seen a decimal digit at the front. -/
def parse_uint (parser : format_parse_context) : Option (Nat × format_parse_context) :=
  match parser.consume_char with
  | none => none
  | some (c, parser) => parse_uint_loop parser.rest.length parser ((c + 2 ^ 32 - 48) % 2 ^ 32)

/-- Conversion `static_cast<int>(v)` of an integer value: reduction into `[-2^31, 2^31)`. -/
def to_int (v : Int) : Int := (v + 2 ^ 31) % 2 ^ 32 - 2 ^ 31

/-- Conversion `static_cast<int>(v)` of a `double` given by its bit pattern: truncation towards
zero, undefined when the truncated value is not an `int` (or `v` is not finite). -/
def double_to_int (v : Nat) : Option Int :=
  let negative := decide (v / 2 ^ 63 % 2 = 1)
  let biased : Nat := (v / 2 ^ 52) % 2 ^ 11
  let fraction : Nat := v % 2 ^ 52
  if biased = 2047 then none
  else
    let m : Nat := if biased = 0 then fraction else fraction + 2 ^ 52
    let e : Int := (if biased = 0 then 1 else (biased : Int)) - 1075
    let t : Nat := if 0 ≤ e then m * 2 ^ e.toNat else m / 2 ^ (-e).toNat
    let i : Int := if negative then -(t : Int) else (t : Int)
    if -(2 : Int) ^ 31 ≤ i ∧ i < 2 ^ 31 then some i else none

/-- The visitor `int_handler`: `static_cast<int>(v)` for the alternatives convertible to `int`,
`-1` for the others. -/
def int_handler : format_arg → Option Int
  | format_arg.bool v => some (if v then 1 else 0)
  | format_arg.char v => some (if v < 128 then (v : Int) else (v : Int) - 256)
  | format_arg.int v => some (to_int v)
  | format_arg.unsigned v => some (to_int (v : Int))
  | format_arg.long_long v => some (to_int v)
  | format_arg.unsigned_long_long v => some (to_int (v : Int))
  | format_arg.double v => double_to_int v
  | format_arg.c_str _ _ => some (-1)
  | format_arg.string_view _ => some (-1)
  | format_arg.pointer _ => some (-1)
  | format_arg.handle _ => some (-1)

/-- Function `parse_arg_ref(parser)`. -/
def parse_arg_ref (parser : format_parse_context) : Option (Nat × format_parse_context) :=
  match (if parser.is_decimal_digit then parse_uint parser else some parser.next_arg) with
  | none => none
  | some (arg_pos, parser) =>
    if !parser.fail && decide (arg_pos ≥ parser.arg_count) then
      some (arg_pos, parser.on_error (bytes "arg num out of range"))
    else some (arg_pos, parser)

/-- Function `parse_uint_spec_arg(parser, result)`: the value returned, `result` and the
parser afterwards. -/
def parse_uint_spec_arg (parser : format_parse_context) (result : Nat) :
    Option (Bool × Nat × format_parse_context) :=
  let r := parser.consume 123
  if !r.1 then
    match parse_uint r.2 with
    | none => none
    | some (v, parser) => some (!parser.fail, v, parser)
  else
    match parse_arg_ref r.2 with
    | none => none
    | some (arg_pos, parser) =>
      if !parser.fail then
        let r := parser.consume 125
        if !r.1 then
          let parser := r.2.on_error (bytes "dynamic format: missing '\x7d'")
          some (!parser.fail, result, parser)
        else
          match r.2.get_arg arg_pos with
          | none => none
          | some arg =>
            match int_handler arg with
            | none => none
            | some i =>
              if i < 0 then
                let parser := r.2.on_error (bytes "not an integer arg")
                some (!parser.fail, result, parser)
              else some (!r.2.fail, i.toNat, r.2)
      else some (!parser.fail, result, parser)

/-- The lambda `is_align` of `parse_format_spec`. -/
def is_align (c : Nat) : Bool := (decide (c ≥ 60) && decide (c ≤ 62)) || decide (c = 94)

/-- The expression `parser.eof() ? 0 : parser.front_char()` of `parse_format_spec`. -/
def front_or_zero (parser : format_parse_context) : Option Nat :=
  if parser.eof then some 0 else parser.front_char

/-- The step `parser.advance(); c = parser.eof() ? 0 : parser.front_char();` that ends the
blocks of `parse_format_spec`, `count` being 2 after a fill character. -/
def advance_front (parser : format_parse_context) (count : Nat) :
    Option (format_parse_context × Nat) :=
  match parser.advance count with
  | none => none
  | some parser =>
    match front_or_zero parser with
    | none => none
    | some c => some (parser, c)

/-- The fill and align block of `parse_format_spec`, from `auto c = parser.front_char()` on:
`false` with the parser in error for `return false`, else `true` with the spec, the parser and
`c`. -/
def parse_format_spec_align (parser : format_parse_context) (spec : format_spec) :
    Option (Bool × format_spec × format_parse_context × Nat) :=
  match parser.front_char with
  | none => none
  | some c =>
    let next := parser.rest.get? 1
    if (match next with
        | none => false
        | some n => is_align n) then
      if c = 123 then some (false, spec, parser.on_error (bytes "invalid fill char"), c)
      else
        let spec := { spec with fill := c, align := next.getD 0 }
        match advance_front parser 2 with
        | none => none
        | some (parser, c) => some (true, spec, parser, c)
    else if is_align c then
      let spec := { spec with align := c }
      match advance_front parser 1 with
      | none => none
      | some (parser, c) => some (true, spec, parser, c)
    else some (true, spec, parser, c)

/-- The sign block of `parse_format_spec`. -/
def parse_format_spec_sign (spec : format_spec) (parser : format_parse_context) (c : Nat) :
    Option (format_spec × format_parse_context × Nat) :=
  if c = 43 ∨ c = 45 ∨ c = 32 then
    match advance_front parser 1 with
    | none => none
    | some (parser, c1) => some ({ spec with sign := c }, parser, c1)
  else some (spec, parser, c)

/-- The `'#'` block of `parse_format_spec`. -/
def parse_format_spec_alt (spec : format_spec) (parser : format_parse_context) (c : Nat) :
    Option (format_spec × format_parse_context × Nat) :=
  if c = 35 then
    match advance_front parser 1 with
    | none => none
    | some (parser, c1) => some ({ spec with alt := c }, parser, c1)
  else some (spec, parser, c)

/-- The `'0'` block of `parse_format_spec`. -/
def parse_format_spec_zero (spec : format_spec) (parser : format_parse_context) (c : Nat) :
    Option (format_spec × format_parse_context × Nat) :=
  if c = 48 then
    match advance_front parser 1 with
    | none => none
    | some (parser, c1) => some ({ spec with fill := 48, align := 61 }, parser, c1)
  else some (spec, parser, c)

/-- The width block of `parse_format_spec`: `false` with the parser in error for
`return false`. -/
def parse_format_spec_width (spec : format_spec) (parser : format_parse_context) (c : Nat) :
    Option (Bool × format_spec × format_parse_context × Nat) :=
  if c = 123 ∨ (48 ≤ c ∧ c ≤ 57) then
    match parse_uint_spec_arg parser spec.width with
    | none => none
    | some (ok, width, parser) =>
      let spec := { spec with width := width }
      if !ok then some (false, spec, parser, c)
      else
        match front_or_zero parser with
        | none => none
        | some c => some (true, spec, parser, c)
  else some (true, spec, parser, c)

/-- The precision block of `parse_format_spec`: after the number `c` is read by
`parser.front_char()` without a test of `eof()`. -/
def parse_format_spec_precision (spec : format_spec) (parser : format_parse_context) (c : Nat) :
    Option (Bool × format_spec × format_parse_context × Nat) :=
  if c = 46 then
    match advance_front parser 1 with
    | none => none
    | some (parser, c) =>
      let spec := { spec with has_precision := true }
      if c = 123 ∨ (48 ≤ c ∧ c ≤ 57) then
        match parse_uint_spec_arg parser spec.precision with
        | none => none
        | some (ok, precision, parser) =>
          let spec := { spec with precision := precision }
          if !ok then some (false, spec, parser, c)
          else
            match parser.front_char with
            | none => none
            | some c => some (true, spec, parser, c)
      else some (true, spec, parser, c)
  else some (true, spec, parser, c)

/-- The type block of `parse_format_spec`. -/
def parse_format_spec_type (spec : format_spec) (parser : format_parse_context) (c : Nat) :
    Option (format_spec × format_parse_context × Nat) :=
  if c ≠ 125 then
    match advance_front parser 1 with
    | none => none
    | some (parser, c1) => some ({ spec with type := c }, parser, c1)
  else some (spec, parser, c)

/-- The end of `parse_format_spec`, from the last `if(c != '\x7d')` on. -/
def parse_format_spec_close (spec : format_spec) (parser : format_parse_context) (c : Nat) :
    Option (Bool × format_spec × format_parse_context) :=
  if c ≠ 125 then some (false, spec, parser.on_error (bytes "invalid format spec"))
  else
    match parser.advance 1 with
    | none => none
    | some parser => some (true, spec, parser)

/-- The part of `parse_format_spec` from the type block on. -/
def parse_format_spec_from_type (spec : format_spec) (parser : format_parse_context) (c : Nat) :
    Option (Bool × format_spec × format_parse_context) :=
  match parse_format_spec_type spec parser c with
  | none => none
  | some (spec, parser, c) => parse_format_spec_close spec parser c

/-- The part of `parse_format_spec` from the precision block on. -/
def parse_format_spec_from_precision (spec : format_spec) (parser : format_parse_context)
    (c : Nat) : Option (Bool × format_spec × format_parse_context) :=
  match parse_format_spec_precision spec parser c with
  | none => none
  | some (false, spec, parser, _) => some (false, spec, parser)
  | some (true, spec, parser, c) => parse_format_spec_from_type spec parser c

/-- The part of `parse_format_spec` from the width block on. -/
def parse_format_spec_from_width (spec : format_spec) (parser : format_parse_context)
    (c : Nat) : Option (Bool × format_spec × format_parse_context) :=
  match parse_format_spec_width spec parser c with
  | none => none
  | some (false, spec, parser, _) => some (false, spec, parser)
  | some (true, spec, parser, c) => parse_format_spec_from_precision spec parser c

/-- The part of `parse_format_spec` from the `'0'` block on. -/
def parse_format_spec_from_zero (spec : format_spec) (parser : format_parse_context)
    (c : Nat) : Option (Bool × format_spec × format_parse_context) :=
  match parse_format_spec_zero spec parser c with
  | none => none
  | some (spec, parser, c) => parse_format_spec_from_width spec parser c

/-- The part of `parse_format_spec` from the `'#'` block on. -/
def parse_format_spec_from_alt (spec : format_spec) (parser : format_parse_context)
    (c : Nat) : Option (Bool × format_spec × format_parse_context) :=
  match parse_format_spec_alt spec parser c with
  | none => none
  | some (spec, parser, c) => parse_format_spec_from_zero spec parser c

/-- The part of `parse_format_spec` from the sign block on. -/
def parse_format_spec_from_sign (spec : format_spec) (parser : format_parse_context)
    (c : Nat) : Option (Bool × format_spec × format_parse_context) :=
  match parse_format_spec_sign spec parser c with
  | none => none
  | some (spec, parser, c) => parse_format_spec_from_alt spec parser c

/-- Function `parse_format_spec(parser, spec)`: the value returned, the spec and the parser
afterwards. -/
def parse_format_spec (parser : format_parse_context) (spec : format_spec) :
    Option (Bool × format_spec × format_parse_context) :=
  if parser.eof then some (false, spec, parser.on_error (bytes "invalid format spec"))
  else
    match parse_format_spec_align parser spec with
    | none => none
    | some (false, spec, parser, _) => some (false, spec, parser)
    | some (true, spec, parser, c) => parse_format_spec_from_sign spec parser c

end detail

end univang.fmt

namespace univang.fmt

namespace detail

/-! ## format_double.hpp: `validate_float_spec` -/

/-- Function `validate_float_spec(spec)`. -/
def validate_float_spec (spec : format_spec) : Bool :=
  if spec.type = 0 then true
  else if spec.type = 69 then true
  else if spec.type = 101 then true
  else if spec.type = 70 then true
  else if spec.type = 102 then true
  else if spec.type = 71 then true
  else if spec.type = 103 then true
  else if spec.type = 37 then true
  else false

/-! ## format_integer.hpp: `do_format_int` -/

/-- Function `do_format_int(out, spec, arg)` for an unsigned type: `none` when it returns
`false`, which it does before anything is written. -/
def do_format_int_unsigned (out : List Nat) (spec : format_spec) (arg : Nat) :
    Option (List Nat) :=
  format_num out spec arg false

/-- Function `do_format_int(out, spec, arg)` for a signed type of `w` bits: `none` when it
returns `false`, which it does before anything is written. -/
def do_format_int_signed (w : Nat) (out : List Nat) (spec : format_spec) (arg : Int) :
    Option (List Nat) :=
  let negative := decide (arg < 0)
  let u := if negative then Int.toNat ((-arg) % 2 ^ w) else Int.toNat arg
  format_num out spec u negative

/-! ## format.cpp: the visitors -/

/-- The visitor `append_handler`, `dummy_fmt` being an empty `parse_context`: `none` when a
loop of `do_format_double` is out of fuel. -/
def append_handler (out : List Nat) : format_arg → Option (List Nat)
  | format_arg.handle format_fn => some (format_fn out [])
  | format_arg.bool v => some (out ++ (if v then bytes "true" else bytes "false"))
  | format_arg.char v => some (out ++ [v])
  | format_arg.int v => some (append_dec_signed 32 out v)
  | format_arg.unsigned v => some (append_dec_unsigned out v)
  | format_arg.long_long v => some (append_dec_signed 64 out v)
  | format_arg.unsigned_long_long v => some (append_dec_unsigned out v)
  | format_arg.double v => do_format_double out {} v
  | format_arg.c_str _ v => some (out ++ v)
  | format_arg.string_view v => some (out ++ v)
  | format_arg.pointer v => some (append_pointer out v)

/-- Member `format_handler::format_int(arg)`, given the result of `do_format_int`. -/
def format_int (out : List Nat) (fmt : format_parse_context) (r : Option (List Nat)) :
    List Nat × format_parse_context :=
  match r with
  | none => (out, fmt.on_error (bytes "invalid numeric type"))
  | some out => (out, fmt)

/-- The visitor `format_handler` with its members `out`, `fmt` and `spec`: the sink and the
parser afterwards. -/
def format_handler (out : List Nat) (fmt : format_parse_context) (spec : format_spec) :
    format_arg → Option (List Nat × format_parse_context)
  | format_arg.bool v => some (format_str out spec (if v then bytes "true" else bytes "false"), fmt)
  | format_arg.char v =>
    if spec.type ≠ 0 ∧ spec.type ≠ 115 ∧ spec.type ≠ 99 then
      some (format_int out fmt
        (do_format_int_unsigned out spec (if v < 128 then v else v + 2 ^ 32 - 256)))
    else some (format_char out spec v, fmt)
  | format_arg.int v => some (format_int out fmt (do_format_int_signed 32 out spec v))
  | format_arg.unsigned v => some (format_int out fmt (do_format_int_unsigned out spec v))
  | format_arg.long_long v => some (format_int out fmt (do_format_int_signed 64 out spec v))
  | format_arg.unsigned_long_long v =>
    some (format_int out fmt (do_format_int_unsigned out spec v))
  | format_arg.double v =>
    if !validate_float_spec spec then some (out, fmt.on_error (bytes "invalid floating type"))
    else
      match do_format_double out spec v with
      | none => none
      | some out => some (out, fmt)
  | format_arg.c_str ptr v =>
    if spec.type = 112 then some (append_pointer out ptr, fmt)
    else some (format_str out spec v, fmt)
  | format_arg.string_view v => some (format_str out spec v, fmt)
  | format_arg.pointer v => some (append_pointer out v, fmt)
  | format_arg.handle _ => some (out, fmt)

end detail

/-! ## format.cpp: `vformat_to` -/

/-- How the body of the loop of `vformat_to` is left: at its end or by `continue`, by `break`,
or by `return`. -/
inductive loop_exit where
  | next
  | stop
  | done

/-- The part of the loop body of `vformat_to` after `const auto& arg = fmt.get_arg(arg_pos)`. -/
def vformat_to_arg (out : List Nat) (fmt : format_parse_context) (arg : format_arg) :
    Option (loop_exit × List Nat × format_parse_context) :=
  let r := fmt.consume 125
  if r.1 then
    match detail.append_handler out arg with
    | none => none
    | some out => some (loop_exit.next, out, r.2)
  else
    match arg with
    | format_arg.handle format_fn =>
      match r.2.find 125 with
      | none => some (loop_exit.stop, out, r.2.on_error (bytes "invalid format string"))
      | some p =>
        match r.2.advance (p + 1) with
        | none => none
        | some fmt => some (loop_exit.next, format_fn out (r.2.rest.take p), fmt)
    | arg =>
      match detail.parse_format_spec r.2 {} with
      | none => none
      | some (false, _, fmt) => some (loop_exit.stop, out, fmt)
      | some (true, spec, fmt) =>
        match detail.format_handler out fmt spec arg with
        | none => none
        | some (out, fmt) => some (loop_exit.next, out, fmt)

/-- The part of the loop body of `vformat_to` from `const auto& arg = fmt.get_arg(arg_pos)`
on. -/
def vformat_to_field (out : List Nat) (fmt : format_parse_context) (arg_pos : Nat) :
    Option (loop_exit × List Nat × format_parse_context) :=
  match fmt.get_arg arg_pos with
  | none => none
  | some arg => vformat_to_arg out fmt arg

/-- The part of the loop body of `vformat_to` behind `unsigned arg_pos = parse_arg_ref(fmt)`. -/
def vformat_to_ref (out : List Nat) (fmt : format_parse_context) (arg_pos : Nat) :
    Option (loop_exit × List Nat × format_parse_context) :=
  if fmt.fail then some (loop_exit.stop, out, fmt)
  else if fmt.is_char 125 then vformat_to_field out fmt arg_pos
  else
    let r := fmt.consume 58
    if !r.1 || r.2.eof then
      some (loop_exit.stop, out, r.2.on_error (bytes "invalid format string"))
    else vformat_to_field out r.2 arg_pos

/-- The body of the loop `while(!fmt.eof())` of `vformat_to`. -/
def vformat_to_body (out : List Nat) (fmt : format_parse_context) :
    Option (loop_exit × List Nat × format_parse_context) :=
  match fmt.find 123 with
  | none => some (loop_exit.done, out ++ fmt.rest, fmt)
  | some p =>
    let out := out ++ fmt.rest.take p
    match fmt.advance (p + 1) with
    | none => none
    | some fmt =>
      if fmt.eof then some (loop_exit.stop, out, fmt.on_error (bytes "invalid format string"))
      else
        let r := fmt.consume 123
        if r.1 then some (loop_exit.next, out ++ [123], r.2)
        else
          match detail.parse_arg_ref r.2 with
          | none => none
          | some (arg_pos, fmt) => vformat_to_ref out fmt arg_pos

/-- The loop `while(!fmt.eof())` of `vformat_to`: how it is left, by `return` or else, with the
sink and the parser at that point. -/
def vformat_to_loop : Nat → List Nat → format_parse_context →
    Option (loop_exit × List Nat × format_parse_context)
  | 0, _, _ => none
  | fuel + 1, out, fmt =>
    if fmt.eof then some (loop_exit.stop, out, fmt)
    else
      match vformat_to_body out fmt with
      | none => none
      | some (loop_exit.next, out, fmt) => vformat_to_loop fuel out fmt
      | some (loop_exit.stop, out, fmt) => some (loop_exit.stop, out, fmt)
      | some (loop_exit.done, out, fmt) => some (loop_exit.done, out, fmt)

/-- The end of `vformat_to`, reached unless the loop was left by `return`:
`if(fmt.fail()) out.write(fmt.error())`. -/
def vformat_to_end (out : List Nat) (fmt : format_parse_context) :
    List Nat × format_parse_context :=
  (if fmt.fail then out ++ fmt.error else out, fmt)

/-- Function `vformat_to(out, format_str, args)`: the bytes in the sink and the state of the
parser `fmt` when it returns. -/
def vformat_to (out : List Nat) (format_str : List Nat) (args : List format_arg) :
    Option (List Nat × format_parse_context) :=
  match vformat_to_loop (format_str.length + 1) out
      (format_parse_context.init format_str args) with
  | none => none
  | some (loop_exit.done, out, fmt) => some (out, fmt)
  | some (_, out, fmt) => some (vformat_to_end out fmt)

end univang.fmt

namespace univang.fmt

/-- A parser in the state its members leave it in while no error is reported: `eof_` tells
whether the view is empty and `err_` is null. -/
def format_parse_context.running (p : format_parse_context) : Prop :=
  p.eof = decide (p.rest.length = 0) ∧ p.err = none

/-- The parser `p` moved to the view `r`, `eof_` set by `check_eof()`. -/
def format_parse_context.at_rest (p : format_parse_context) (r : List Nat) :
    format_parse_context :=
  { p with rest := r, eof := decide (r.length = 0) }

/-- The argument that an argument reference with the decimal literal `ds` names: the
argument with the explicit index `ds`, or the next automatic one when `ds` is empty. -/
def arg_ref_index (p : format_parse_context) (ds : List Nat) : Nat :=
  if ds = [] then p.last_arg_pos else detail.base_value 10 ds % 2 ^ 32

/-- The parser after an argument reference with the decimal literal `ds`, apart from its
view: an automatic reference counts one argument. -/
def arg_ref_state (p : format_parse_context) (ds : List Nat) : format_parse_context :=
  if ds = [] then { p with last_arg_pos := (p.last_arg_pos + 1) % 2 ^ 32 } else p

/-- The attributes written in a format spec, in the order of the grammar
`[[fill]align][sign]["#"]["0"][width]["." precision][type]`: `none` or `false` for an attribute
that is absent, `width` and `precision` being decimal literals. -/
structure spec_fields where
  fill : Option Nat := none
  align : Option Nat := none
  sign : Option Nat := none
  alt : Bool := false
  zero : Bool := false
  width : Option (List Nat) := none
  precision : Option (List Nat) := none
  type : Option Nat := none

/-- The text of a format spec with the given attributes. -/
def spec_fields.text (a : spec_fields) : List Nat :=
  (match a.align with
   | none => []
   | some c => a.fill.toList ++ [c]) ++
  a.sign.toList ++ (if a.alt then [35] else []) ++ (if a.zero then [48] else []) ++
  a.width.getD [] ++
  (match a.precision with
   | none => []
   | some ds => 46 :: ds) ++
  a.type.toList

/-- The spec `spec` after the attributes were stored in it: an attribute that is absent leaves
its field as it was, and the flag `'0'` stands for the fill `'0'` with the align `'='`, before
which an explicit fill and align give way. -/
def spec_fields.store (a : spec_fields) (spec : format_spec) : format_spec :=
  let width := match a.width with
    | none => spec.width
    | some ds => detail.base_value 10 ds
  let precision := match a.precision with
    | none => spec.precision
    | some ds => detail.base_value 10 ds
  let has_precision := if a.precision.isSome then true else spec.has_precision
  let fill := if a.zero then 48 else a.fill.getD spec.fill
  let align := if a.zero then 61 else a.align.getD spec.align
  let alt := if a.alt then 35 else spec.alt
  format_spec.mk width precision has_precision fill align (a.sign.getD spec.sign) alt
    (a.type.getD spec.type)

/-- The `format_spec` that the attributes describe: every attribute that is absent at its
default. -/
def spec_fields.spec (a : spec_fields) : format_spec := a.store {}

/-- A type char that no earlier part of the grammar takes for itself: not a brace, not `'.'`,
not `'#'`, not a sign, not an align char, not a decimal digit. -/
def type_char (t : Nat) : Prop :=
  t ∉ [125, 123, 46, 35, 43, 45, 32, 60, 61, 62, 94] ∧ ¬ (48 ≤ t ∧ t ≤ 57)

/-- The attributes are those of the grammar: an align among `'<'`, `'>'`, `'^'`; a fill other
than the opening brace and only before an align; a sign among `'+'`, `'-'`, `' '`; a width and a
precision that are decimal literals below `2^32`, the width not beginning with `'0'` unless
the flag `'0'` stands before it; a type char in the sense of `type_char`. -/
def spec_fields.well_formed (a : spec_fields) : Prop :=
  (∀ c, a.align = some c → c = 60 ∨ c = 62 ∨ c = 94) ∧
  (∀ f, a.fill = some f → f ≠ 123 ∧ a.align ≠ none) ∧
  (∀ c, a.sign = some c → c = 43 ∨ c = 45 ∨ c = 32) ∧
  (∀ ds, a.width = some ds → ds ≠ [] ∧ (∀ c ∈ ds, 48 ≤ c ∧ c ≤ 57) ∧
    detail.base_value 10 ds < 2 ^ 32 ∧ (a.zero = false → ds.head? ≠ some 48)) ∧
  (∀ ds, a.precision = some ds → ds ≠ [] ∧ (∀ c ∈ ds, 48 ≤ c ∧ c ≤ 57) ∧
    detail.base_value 10 ds < 2 ^ 32) ∧
  (∀ t, a.type = some t → type_char t)

end univang.fmt

namespace univang.fmt.detail

/-! ## Reading a signed decimal text -/

/-- The integer written by a decimal text with an optional leading `'-'`. -/
def signed_value (text : List Nat) : Int :=
  match text with
  | 45 :: digits => -(digits_value digits : Int)
  | digits => (digits_value digits : Int)

/-! ## The capacity of a `Bignum` -/

/-- The constant `Bignum::kBigitCapacity = kMaxSignificantBits / kBigitSize`. -/
def Bignum.kBigitCapacity : Nat := 3584 / 28

/-- The test of `Bignum::EnsureCapacity(size)`, an `assert` in the source. -/
def Bignum.EnsureCapacity (size : Nat) : Bool := decide (size ≤ Bignum.kBigitCapacity)

/-- A bignum whose used bigits lie in its buffer: `used_bigits_ <= kBigitCapacity`. -/
def Bignum.fits (b : Bignum) : Prop := b.bigits.length ≤ Bignum.kBigitCapacity

instance (b : Bignum) : Decidable b.fits := by unfold Bignum.fits; infer_instance

/-! ## The digit buffer -/

/-- The constant `double_format_context::max_decimal_digits`, the size of the array `digits`. -/
def double_format_context.max_decimal_digits : Nat := 128

/-! ## The layout of the decimal notation -/

/-- The digits of a context fit its fraction (`digit_count - decimal_point` is at most
`digits_after_point`) and each `unsigned` difference that `format_decimal` forms on it is the
exact difference: none of them wraps around. -/
def decimal_layout_ok (dbl : double_format_context) : Prop :=
  (dbl.digits.length : Int) - dbl.decimal_point ≤ dbl.digits_after_point ∧
  (dbl.decimal_point ≤ 0 → dbl.digits_after_point ≠ 0 →
    (to_unsigned (-dbl.decimal_point) : Int) = -dbl.decimal_point ∧
    (to_unsigned ((dbl.digits_after_point : Int) - to_unsigned (-dbl.decimal_point)
      - dbl.digits.length) : Int)
      = (dbl.digits_after_point : Int) - (-dbl.decimal_point) - dbl.digits.length) ∧
  (0 < dbl.decimal_point → dbl.decimal_point ≥ (dbl.digits.length : Int) →
    (to_unsigned ((to_unsigned dbl.decimal_point : Int) - dbl.digits.length) : Int)
      = dbl.decimal_point - dbl.digits.length) ∧
  (0 < dbl.decimal_point → dbl.decimal_point < (dbl.digits.length : Int) →
    0 < dbl.digits_after_point ∧
    (to_unsigned ((dbl.digits.length : Int) - dbl.decimal_point) : Int)
      = (dbl.digits.length : Int) - dbl.decimal_point ∧
    (to_unsigned ((dbl.digits_after_point : Int)
      - to_unsigned ((dbl.digits.length : Int) - dbl.decimal_point)) : Int)
      = (dbl.digits_after_point : Int) - ((dbl.digits.length : Int) - dbl.decimal_point))

instance (dbl : double_format_context) : Decidable (decimal_layout_ok dbl) := by
  unfold decimal_layout_ok; infer_instance


/-- The check that an entry `(f, binary_exponent, decimal_exponent)` of `kCachedPowers` is
`10^decimal_exponent` rounded to 64 bits: `|f * 2^be - 10^de| <= 2^be / 2`, with both sides
scaled to natural numbers. -/
def cached_power_accurate (p : Nat × Int × Int) : Bool :=
  let scaled_power := p.1 * 2 ^ p.2.1.toNat * 10 ^ (-p.2.2).toNat
  let scaled_ten := 10 ^ p.2.2.toNat * 2 ^ (-p.2.1).toNat
  let scaled_ulp := 2 ^ p.2.1.toNat * 10 ^ (-p.2.2).toNat
  decide (2 * scaled_power ≤ 2 * scaled_ten + scaled_ulp ∧
    2 * scaled_ten ≤ 2 * scaled_power + scaled_ulp)

/-- The value of the boundary `m_minus` that `NormalizedBoundaries` and
`InitialScaledStartValues` use: `v - ulp/4` when `lower_boundary_is_closer()` holds, which the
code decides by the significand alone, and `v - ulp/2` otherwise. -/
def m_minus_value (significand : Nat) (exponent : Int) : ℚ :=
  if significand = 2 ^ 52 then (4 * (significand : ℚ) - 1) * 2 ^ (exponent - 2)
  else (2 * (significand : ℚ) - 1) * 2 ^ (exponent - 1)

/-- The value of the boundary `m_plus`: `v + ulp/2`. -/
def m_plus_value (significand : Nat) (exponent : Int) : ℚ :=
  (2 * (significand : ℚ) + 1) * 2 ^ (exponent - 1)

/-- The double below `significand * 2^exponent`, for a decoded finite positive double: at a
power of two above the denormals the spacing halves. -/
def predecessor_value (significand : Nat) (exponent : Int) : ℚ :=
  if significand = 2 ^ 52 ∧ -1074 < exponent then double_value (2 ^ 53 - 1) (exponent - 1)
  else double_value (significand - 1) exponent

/-- The double above `significand * 2^exponent` (`2^1024` above the largest finite double). -/
def successor_value (significand : Nat) (exponent : Int) : ℚ :=
  double_value (significand + 1) exponent

/-- The rounding interval of the double `significand * 2^exponent`: the numbers between the
midpoints to the two neighbouring doubles, the midpoints themselves only when the significand
is even. Reading such a number with round-to-nearest-even gives the double back. -/
def in_rounding_interval (significand : Nat) (exponent : Int) (x : ℚ) : Prop :=
  let low := (predecessor_value significand exponent + double_value significand exponent) / 2
  let high := (double_value significand exponent + successor_value significand exponent) / 2
  if significand % 2 = 0 then low ≤ x ∧ x ≤ high else low < x ∧ x < high

instance (significand : Nat) (exponent : Int) (x : ℚ) :
    Decidable (in_rounding_interval significand exponent x) := by
  unfold in_rounding_interval; infer_instance


/-- The `switch` of `format_num` accepts the eight supported type chars. -/
theorem format_num_digits_isSome (spec : format_spec) (arg : Nat)
    (ht : spec.type ∈ [0, 100, 110, 98, 66, 111, 120, 88]) :
    ∃ alt digits, format_num_digits spec arg = some (alt, digits) := by
  simp only [List.mem_cons, List.mem_singleton, List.not_mem_nil, or_false] at ht
  unfold format_num_digits
  rcases ht with h | h | h | h | h | h | h | h <;> simp [h]

/-- Length of the sign/prefix text. -/
theorem format_num_head_length (spec : format_spec) (alt : Nat) (negative : Bool) :
    (format_num_head spec alt negative).length
      = (if sign_char spec negative ≠ 0 then 1 else 0)
        + (if alt ≠ 0 then (if spec.type = 111 then 1 else 2) else 0) := by
  unfold format_num_head add
  split_ifs <;> simp_all

/-- The sign and prefix statements of `format_num` append `format_num_head`. -/
theorem format_num_head_append (spec : format_spec) (alt : Nat) (negative : Bool) (o : List Nat) :
    (if alt ≠ 0 then
        (if spec.type ≠ 111 then
          add (add (if sign_char spec negative ≠ 0 then add o (sign_char spec negative) else o) 48) spec.type
         else add (if sign_char spec negative ≠ 0 then add o (sign_char spec negative) else o) 48)
      else (if sign_char spec negative ≠ 0 then add o (sign_char spec negative) else o))
      = o ++ format_num_head spec alt negative := by
  unfold format_num_head add
  split_ifs <;> simp_all

/-- Normal form of `format_num`: padding before, between head and digits, and after. -/
theorem format_num_normal_form (out : List Nat) (spec : format_spec) (arg : Nat) (negative : Bool)
    (alt : Nat) (digits : List Nat) (hd : format_num_digits spec arg = some (alt, digits))
    (p : Nat) (hp : p = spec.width - ((format_num_head spec alt negative).length + digits.length))
    (f : Nat) (hf : f = if spec.fill = 0 then 32 else spec.fill) :
    format_num out spec arg negative = some (
      out ++ List.replicate (if spec.align = 62 ∨ spec.align = 0 then p
                              else if spec.align = 94 then p / 2 else 0) f
        ++ format_num_head spec alt negative
        ++ List.replicate (if spec.align = 61 then p else 0) f
        ++ digits
        ++ List.replicate (if spec.align = 60 then p
                            else if spec.align = 94 then p - p / 2 else 0) f) := by
  have hlen := format_num_head_length spec alt negative
  have hsize : (if alt ≠ 0 then (digits.length + (if sign_char spec negative ≠ 0 then 1 else 0))
        + (if spec.type = 111 then 1 else 2)
      else digits.length + (if sign_char spec negative ≠ 0 then 1 else 0))
      = (format_num_head spec alt negative).length + digits.length := by
    rw [hlen]; split_ifs <;> omega
  have hpad : (if spec.width ≤ (format_num_head spec alt negative).length + digits.length then 0
      else spec.width - ((format_num_head spec alt negative).length + digits.length)) = p := by
    rw [hp]; split_ifs <;> omega
  have hfill : (if spec.fill ≠ 0 then spec.fill else 32) = f := by
    rw [hf]; split_ifs <;> simp_all
  unfold format_num
  rw [hd]
  simp only [hsize, hpad, hfill, format_num_head_append, add_padding]
  congr 1
  by_cases h1 : spec.align = 62 ∨ spec.align = 0
  · have h2 : spec.align ≠ 61 := by omega
    have h3 : spec.align ≠ 60 := by omega
    have h4 : spec.align ≠ 94 := by omega
    simp [h1, h2, h3, h4]
  · by_cases h4 : spec.align = 94
    · simp [h4]
    · by_cases h2 : spec.align = 61
      · simp [h2]
      · by_cases h3 : spec.align = 60
        · simp [h3]
        · simp [h1, h2, h3, h4]


/-- C9: for every supported type char, magnitude, sign and spec, `format_num` succeeds; its
natural text is sign/prefix followed by the digits (the output for width 0), of length
sign + prefix + digits; it appends `max(natural_length, width)` bytes (for the five alignment
values the parser produces); and the padding `p = width - natural_length` goes before the sign
for `'>'` or no align, after the digits for `'<'`, `p/2` before and the rest after for `'^'`,
and between the sign/prefix and the digits for `'='`. -/
theorem format_num_padding (out : List Nat) (spec : format_spec) (arg : Nat) (negative : Bool)
    (ht : spec.type ∈ [0, 100, 110, 98, 66, 111, 120, 88]) :
    ∃ alt digits, format_num_digits spec arg = some (alt, digits) ∧
      (format_num_head spec alt negative).length
        = (if sign_char spec negative ≠ 0 then 1 else 0)
          + (if alt ≠ 0 then (if spec.type = 111 then 1 else 2) else 0) ∧
      format_num [] { spec with width := 0 } arg negative
        = some (format_num_head spec alt negative ++ digits) ∧
      (spec.align ∈ [0, 60, 61, 62, 94] → ∃ r, format_num out spec arg negative = some r ∧
        r.length = out.length
          + max ((format_num_head spec alt negative).length + digits.length) spec.width) ∧
      (spec.align = 62 ∨ spec.align = 0 → format_num out spec arg negative = some (out
        ++ List.replicate (spec.width - ((format_num_head spec alt negative).length + digits.length))
            (if spec.fill = 0 then 32 else spec.fill)
        ++ format_num_head spec alt negative ++ digits)) ∧
      (spec.align = 60 → format_num out spec arg negative = some (out
        ++ format_num_head spec alt negative ++ digits
        ++ List.replicate (spec.width - ((format_num_head spec alt negative).length + digits.length))
            (if spec.fill = 0 then 32 else spec.fill))) ∧
      (spec.align = 94 → format_num out spec arg negative = some (out
        ++ List.replicate ((spec.width - ((format_num_head spec alt negative).length + digits.length)) / 2)
            (if spec.fill = 0 then 32 else spec.fill)
        ++ format_num_head spec alt negative ++ digits
        ++ List.replicate ((spec.width - ((format_num_head spec alt negative).length + digits.length))
              - (spec.width - ((format_num_head spec alt negative).length + digits.length)) / 2)
            (if spec.fill = 0 then 32 else spec.fill))) ∧
      (spec.align = 61 → format_num out spec arg negative = some (out
        ++ format_num_head spec alt negative
        ++ List.replicate (spec.width - ((format_num_head spec alt negative).length + digits.length))
            (if spec.fill = 0 then 32 else spec.fill)
        ++ digits)) := by
  obtain ⟨alt, digits, hd⟩ := format_num_digits_isSome spec arg ht
  have hd0 : format_num_digits { spec with width := 0 } arg = some (alt, digits) := by
    rw [← hd]; rfl
  have nf := format_num_normal_form out spec arg negative alt digits hd _ rfl _ rfl
  have nf0 := format_num_normal_form [] { spec with width := 0 } arg negative alt digits hd0 _ rfl _ rfl
  have hh0 : format_num_head { spec with width := 0 } alt negative = format_num_head spec alt negative := rfl
  refine ⟨alt, digits, hd, format_num_head_length spec alt negative, ?_, ?_, ?_, ?_, ?_, ?_⟩
  · rw [nf0, hh0]; simp
  · intro ha
    simp only [List.mem_cons, List.mem_singleton, List.not_mem_nil, or_false] at ha
    refine ⟨_, nf, ?_⟩
    rcases ha with h | h | h | h | h <;> simp [h] <;> omega
  · intro ha
    rw [nf]
    have h2 : spec.align ≠ 61 := by omega
    have h3 : spec.align ≠ 60 := by omega
    have h4 : spec.align ≠ 94 := by omega
    simp [ha, h2, h3, h4]
  · intro ha; rw [nf]; simp [ha]
  · intro ha; rw [nf]; simp [ha]
  · intro ha; rw [nf]; simp [ha]

/-- C9 witness: `"{:06X}"` of `0xBFFF` gives `"00BFFF"`. -/
theorem format_num_padding_witness :
    format_num [] { width := 6, fill := 48, align := 61, type := 88 } 0xBFFF false
      = some (bytes "00BFFF") := by
  obtain ⟨alt, digits, hd, -, -, -, -, -, -, h⟩ :=
    format_num_padding [] { width := 6, fill := 48, align := 61, type := 88 } 0xBFFF false (by decide)
  have e : format_num_digits { width := 6, fill := 48, align := 61, type := 88 } 0xBFFF
      = some (0, bytes "BFFF") := by decide
  rw [e] at hd
  obtain ⟨rfl, rfl⟩ : (0 : Nat) = alt ∧ bytes "BFFF" = digits := by
    simpa using hd
  rw [h rfl]
  decide


/-- With align `'<'`, `write_padded` writes the text and then the padding. -/
theorem write_padded_left (out s : List Nat) (spec : format_spec) (ha : spec.align = 60) :
    write_padded out spec s
      = out ++ s ++ List.replicate (spec.width - s.length) (if spec.fill = 0 then 32 else spec.fill) := by
  unfold write_padded
  by_cases h : spec.width ≤ s.length
  · simp [h, Nat.sub_eq_zero_of_le h]
  · have h1 : spec.width - s.length ≠ 0 := by omega
    simp [h, ha, add_padding, h1]

/-- C10: `write_padded` emits `s` unchanged when `width <= |s|`; it always emits
`max(|s|, width)` bytes; the `width - |s|` fill characters (space when no fill is given) go
after `s` for `'<'`, before `s` for `'>'`, and `floor(p/2)` before and the rest after for
`'^'`; strings, chars and bools are formatted as `'<'` when no align is given. -/
theorem write_padded_placement (out s : List Nat) (spec : format_spec) :
    (spec.width ≤ s.length → write_padded out spec s = out ++ s) ∧
    (write_padded out spec s).length = out.length + max s.length spec.width ∧
    (spec.align = 60 → write_padded out spec s
        = out ++ s ++ List.replicate (spec.width - s.length) (if spec.fill = 0 then 32 else spec.fill)) ∧
    (spec.align = 62 → write_padded out spec s
        = out ++ List.replicate (spec.width - s.length) (if spec.fill = 0 then 32 else spec.fill) ++ s) ∧
    (spec.align = 94 → write_padded out spec s
        = out ++ List.replicate ((spec.width - s.length) / 2) (if spec.fill = 0 then 32 else spec.fill) ++ s
            ++ List.replicate ((spec.width - s.length) - (spec.width - s.length) / 2)
                (if spec.fill = 0 then 32 else spec.fill)) ∧
    (spec.align = 0 → format_str out spec s
        = out ++ s ++ List.replicate (spec.width - s.length) (if spec.fill = 0 then 32 else spec.fill)) ∧
    (spec.align = 0 → ∀ c : Nat, format_char out spec c
        = out ++ [c] ++ List.replicate (spec.width - 1) (if spec.fill = 0 then 32 else spec.fill)) ∧
    (spec.align = 0 → ∀ b : Bool, format_bool out spec b
        = out ++ (if b then bytes "true" else bytes "false")
          ++ List.replicate (spec.width - (if b then 4 else 5)) (if spec.fill = 0 then 32 else spec.fill)) := by
  refine ⟨?_, ?_, write_padded_left out s spec, ?_, ?_, ?_, ?_, ?_⟩
  · intro h; simp [write_padded, h]
  · unfold write_padded
    by_cases h : spec.width ≤ s.length
    · simp [h]
    · simp only [h, if_false, add_padding]
      have h1 : s.length < spec.width := Nat.lt_of_not_le h
      split_ifs <;> simp <;> omega
  · intro ha
    unfold write_padded
    by_cases h : spec.width ≤ s.length
    · simp [h, Nat.sub_eq_zero_of_le h]
    · have h1 : spec.width - s.length ≠ 0 := by omega
      simp [h, ha, add_padding, h1]
  · intro ha
    unfold write_padded
    by_cases h : spec.width ≤ s.length
    · simp [h, Nat.sub_eq_zero_of_le h]
    · have h1 : spec.width - s.length ≠ 0 := by omega
      simp only [h, ha, add_padding, if_false]
      split_ifs <;> simp_all
  · intro ha
    unfold format_str
    simp only [ha, if_true]
    exact write_padded_left out s _ rfl
  · intro ha c
    unfold format_char
    simp only [ha, if_true]
    exact write_padded_left out [c] _ rfl
  · intro ha b
    unfold format_bool format_str
    simp only [ha, if_true]
    cases b
    · exact write_padded_left out (bytes "false") _ rfl
    · exact write_padded_left out (bytes "true") _ rfl

/-- C10 witness: the tests of `FormatTest.Alignment`, `"{:*^6}"` of `'x'` is `"**x***"` and
`"{:6}"` of `true` is `"true  "`. -/
theorem write_padded_placement_witness :
    write_padded [] { width := 6, fill := 42, align := 94 } (bytes "x") = bytes "**x***" ∧
    format_bool [] { width := 6 } true = bytes "true  " := by
  have h := write_padded_placement [] (bytes "x") { width := 6, fill := 42, align := 94 }
  have h2 := write_padded_placement [] (bytes "true") { width := 6 }
  refine ⟨?_, ?_⟩
  · rw [h.2.2.2.2.1 rfl]; decide
  · rw [h2.2.2.2.2.2.2.2 rfl true]; decide


/-! ## Evaluations of the double renderer at concrete inputs -/

/-- C4: the double `5.000000000000001e-15` (bits `0x3cf6849b86a12b9c`, that is
`6338253001141148 * 2^-100`, above `5e-15`) with 14 requested digits: `fast_fixed_dtoa` returns
`true` and its digits render as `0.00000000000000`, while `bignum_dtoa` in FIXED mode gives
the correctly rounded `0.00000000000001`. -/
theorem fast_fixed_dtoa_wrong_rounding :
    (double_format_context.of_double 0x3cf6849b86a12b9c).significand = 6338253001141148 ∧
    (double_format_context.of_double 0x3cf6849b86a12b9c).exponent = -100 ∧
    2 * (6338253001141148 * 10 ^ 14) > 2 ^ 100 ∧
    (fast_fixed_dtoa { double_format_context.of_double 0x3cf6849b86a12b9c with
        requested_digits := 14 }).1 = true ∧
    format_decimal [] { (fast_fixed_dtoa { double_format_context.of_double 0x3cf6849b86a12b9c with
        requested_digits := 14 }).2 with digits_after_point := 14 } = bytes "0.00000000000000" ∧
    (bignum_dtoa { double_format_context.of_double 0x3cf6849b86a12b9c with
        requested_digits := 14 } dtoa_mode.FIXED).map
      (fun d => format_decimal [] { d with digits_after_point := 14 })
      = some (bytes "0.00000000000001") := by
  decide!

/-- C7: `"{:6}"` of `1.0` appends the single byte `"1"`, the same as with width 0, although
`max(natural_length, width)` is 6. -/
theorem do_format_double_width_ignored :
    do_format_double [] { width := 6 } 0x3FF0000000000000 = some (bytes "1") ∧
    do_format_double [] { width := 0 } 0x3FF0000000000000 = some (bytes "1") := by
  decide!

/-- C8: `1.5` in a field of width 6 with fill `'*'` is rendered as `"1.5"` for each of the
aligns `'<'`, `'>'` and `'^'`: no fill character is written on either side. -/
theorem do_format_double_align_ignored :
    do_format_double [] { width := 6, fill := 42, align := 60 } 0x3FF8000000000000
      = some (bytes "1.5") ∧
    do_format_double [] { width := 6, fill := 42, align := 62 } 0x3FF8000000000000
      = some (bytes "1.5") ∧
    do_format_double [] { width := 6, fill := 42, align := 94 } 0x3FF8000000000000
      = some (bytes "1.5") := by
  decide!

/-- C6 (counterexample): the ties `2.5` and `0.5` with precision 0 give `"3"` and `"1"` on the
fast path, and the tie `2^-22 = 0.0000002384185791015625` with precision 21, which the fast
path declines, gives `...563` on the bignum path; the even neighbours are `2`, `0` and
`...562`. -/
theorem fixed_tie_counterexample :
    (double_format_context.of_double 0x4004000000000000).significand = 5 * 2 ^ 50 ∧
    (double_format_context.of_double 0x4004000000000000).exponent = -51 ∧
    do_format_double [] { has_precision := true, precision := 0, type := 102 } 0x4004000000000000
      = some (bytes "3") ∧
    (double_format_context.of_double 0x3FE0000000000000).significand = 2 ^ 52 ∧
    (double_format_context.of_double 0x3FE0000000000000).exponent = -53 ∧
    do_format_double [] { has_precision := true, precision := 0, type := 102 } 0x3FE0000000000000
      = some (bytes "1") ∧
    (double_format_context.of_double 0x3e90000000000000).significand = 2 ^ 52 ∧
    (double_format_context.of_double 0x3e90000000000000).exponent = -74 ∧
    2384185791015625 * 2 ^ 22 = 10 ^ 22 ∧
    (fast_fixed_dtoa { double_format_context.of_double 0x3e90000000000000 with
        requested_digits := 21 }).1 = false ∧
    do_format_double [] { has_precision := true, precision := 21, type := 102 } 0x3e90000000000000
      = some (bytes "0.000000238418579101563") := by
  decide!

end univang.fmt.detail

namespace univang.fmt.detail.Bignum

/-! ## Bignum: values of the bigit lists -/

theorem lvalue_append (a b : List Nat) :
    lvalue (a ++ b) = lvalue a + 2 ^ (28 * a.length) * lvalue b := by
  induction a with
  | nil => simp [lvalue]
  | cons d ds ih =>
    rw [List.cons_append]
    simp only [lvalue, List.length_cons]
    rw [ih, show 28 * (ds.length + 1) = 28 + 28 * ds.length by ring, pow_add]
    ring

theorem lvalue_replicate_zero (n : Nat) : lvalue (List.replicate n 0) = 0 := by
  induction n with
  | zero => simp [lvalue]
  | succ n ih => simp [List.replicate_succ, lvalue, ih]

theorem lvalue_lt (l : List Nat) (h : ∀ d ∈ l, d < 2 ^ 28) : lvalue l < 2 ^ (28 * l.length) := by
  induction l with
  | nil => simp [lvalue]
  | cons d ds ih =>
    have hd : d < 2 ^ 28 := h d (List.mem_cons_self _ _)
    have hds := ih (fun x hx => h x (List.mem_cons_of_mem _ hx))
    simp only [lvalue, List.length_cons]
    rw [show 28 * (ds.length + 1) = 28 + 28 * ds.length by ring, pow_add]
    nlinarith [Nat.two_pow_pos 28]

theorem lvalue_top (l : List Nat) (hne : l ≠ []) (htop : l.getLast? ≠ some 0) :
    2 ^ (28 * (l.length - 1)) ≤ lvalue l := by
  induction l with
  | nil => exact absurd rfl hne
  | cons d ds ih =>
    cases ds with
    | nil =>
      simp only [List.getLast?_singleton, ne_eq, Option.some.injEq] at htop
      simp [lvalue]; omega
    | cons e es =>
      have h2 : (e :: es).getLast? ≠ some 0 := by
        simpa [List.getLast?_cons_cons] using htop
      have := ih (by simp) h2
      simp only [lvalue, List.length_cons, Nat.add_sub_cancel] at this ⊢
      rw [show 28 * (es.length + 1) = 28 + 28 * es.length by ring, pow_add]
      nlinarith [Nat.two_pow_pos 28]

theorem lvalue_eq_zero_of_nil : lvalue [] = 0 := rfl

/-- A well-formed bignum is zero exactly when it has no bigit. -/
theorem value_eq_zero_iff (b : Bignum) (h : b.wf) : b.value = 0 ↔ b.bigits = [] := by
  constructor
  · intro hv
    by_contra hne
    have := lvalue_top b.bigits hne h.2.1
    have hp : 0 < 2 ^ (28 * (b.bigits.length - 1)) := Nat.two_pow_pos _
    have hq : 0 < 2 ^ (28 * b.exponent) := Nat.two_pow_pos _
    unfold value at hv
    have : 0 < lvalue b.bigits * 2 ^ (28 * b.exponent) := Nat.mul_pos (by omega) hq
    omega
  · intro hb; simp [value, hb, lvalue]

/-- Bounds of a well-formed non-zero bignum by its bigit length. -/
theorem value_bounds (b : Bignum) (h : b.wf) (hne : b.bigits ≠ []) :
    2 ^ (28 * (b.BigitLength - 1)) ≤ b.value ∧ b.value < 2 ^ (28 * b.BigitLength) := by
  have h1 := lvalue_top b.bigits hne h.2.1
  have h2 := lvalue_lt b.bigits h.1
  have hl : 1 ≤ b.bigits.length := by
    cases hb : b.bigits with
    | nil => exact absurd hb hne
    | cons _ _ => simp
  unfold value BigitLength
  constructor
  · rw [show 28 * (b.bigits.length + b.exponent - 1) = 28 * (b.bigits.length - 1) + 28 * b.exponent by omega,
      pow_add]
    exact Nat.mul_le_mul_right _ h1
  · rw [show 28 * (b.bigits.length + b.exponent) = 28 * b.bigits.length + 28 * b.exponent by ring, pow_add]
    exact Nat.mul_lt_mul_of_pos_right h2 (Nat.two_pow_pos _)

theorem value_lt_of_wf (b : Bignum) (h : b.wf) : b.value < 2 ^ (28 * b.BigitLength) := by
  by_cases hne : b.bigits = []
  · have : b.value = 0 := (value_eq_zero_iff b h).2 hne
    rw [this]; exact Nat.two_pow_pos _
  · exact (value_bounds b h hne).2

/-! ## Assignment and clamping -/

theorem AssignUInt64_loop_spec (fuel v : Nat) (h : v ≤ fuel) :
    lvalue (AssignUInt64_loop fuel v) = v ∧ (∀ d ∈ AssignUInt64_loop fuel v, d < 2 ^ 28) ∧
    (AssignUInt64_loop fuel v).getLast? ≠ some 0 ∧ (v ≠ 0 → AssignUInt64_loop fuel v ≠ []) := by
  induction fuel generalizing v with
  | zero =>
    have : v = 0 := by omega
    subst this; simp [AssignUInt64_loop, lvalue]
  | succ f ih =>
    unfold AssignUInt64_loop
    by_cases hv : v > 0
    · have hlt : v >>> 28 ≤ f := by
        rw [Nat.shiftRight_eq_div_pow]
        have : v / 2 ^ 28 < v := Nat.div_lt_self hv (by norm_num)
        omega
      obtain ⟨h1, h2, h3, h4⟩ := ih (v >>> 28) hlt
      simp only [hv, if_true]
      refine ⟨?_, ?_, ?_, by simp⟩
      · simp only [lvalue, h1]
        rw [Nat.shiftRight_eq_div_pow]
        omega
      · intro d hd
        rcases List.mem_cons.1 hd with rfl | hd
        · exact Nat.mod_lt _ (by norm_num)
        · exact h2 d hd
      · by_cases hz : v >>> 28 = 0
        · have : AssignUInt64_loop f (v >>> 28) = [] := by
            rw [hz]; cases f <;> simp [AssignUInt64_loop]
          rw [this]
          simp only [List.getLast?_singleton, ne_eq, Option.some.injEq]
          rw [Nat.shiftRight_eq_div_pow] at hz
          have : v < 2 ^ 28 := by
            by_contra hc
            have : 1 ≤ v / 2 ^ 28 := Nat.div_pos (by omega) (by norm_num)
            omega
          rw [Nat.mod_eq_of_lt this]; omega
        · have hne := h4 hz
          obtain ⟨x, xs, hx⟩ := List.exists_cons_of_ne_nil hne
          rw [hx, List.getLast?_cons_cons, ← hx]
          exact h3
    · have : v = 0 := by omega
      subst this; simp [lvalue]

theorem AssignUInt64_value (v : Nat) : (AssignUInt64 v).value = v := by
  simp [AssignUInt64, value, (AssignUInt64_loop_spec v v le_rfl).1]

theorem AssignUInt64_wf (v : Nat) : (AssignUInt64 v).wf := by
  obtain ⟨-, h2, h3, -⟩ := AssignUInt64_loop_spec v v le_rfl
  exact ⟨h2, h3, fun _ => rfl⟩

theorem AssignUInt64_ne_nil (v : Nat) (hv : v ≠ 0) : (AssignUInt64 v).bigits ≠ [] :=
  (AssignUInt64_loop_spec v v le_rfl).2.2.2 hv

theorem carry_loop_eq (fuel c : Nat) : carry_loop fuel c = AssignUInt64_loop fuel c := by
  induction fuel generalizing c with
  | zero => rfl
  | succ f ih =>
    unfold carry_loop AssignUInt64_loop
    by_cases h : c = 0
    · simp [h]
    · have : c > 0 := Nat.pos_of_ne_zero h
      simp [h, this, ih]

theorem AssignUInt16_value (v : Nat) : (AssignUInt16 v).value = v := by
  unfold AssignUInt16
  by_cases h : v > 0
  · simp [h, value, lvalue]
  · have : v = 0 := by omega
    subst this; simp [Zero, value, lvalue]

theorem AssignUInt16_wf (v : Nat) (hv : v < 2 ^ 28) : (AssignUInt16 v).wf := by
  unfold AssignUInt16
  by_cases h : v > 0
  · simp only [h, if_true]
    refine ⟨?_, ?_, by simp⟩
    · intro d hd; simp at hd; omega
    · simp; omega
  · simp only [h, if_false, Zero]
    exact ⟨by simp, by simp, fun _ => rfl⟩

theorem Zero_wf : Zero.wf := ⟨by simp [Zero], by simp [Zero], fun _ => rfl⟩

theorem Zero_value : Zero.value = 0 := by simp [Zero, value, lvalue]

end univang.fmt.detail.Bignum

namespace univang.fmt.detail.Bignum

theorem drop_top_zeros_snoc (l : List Nat) (d : Nat) :
    drop_top_zeros (l ++ [d]) = if d = 0 then drop_top_zeros l else l ++ [d] := by
  unfold drop_top_zeros
  rw [List.reverse_append, List.reverse_singleton, List.singleton_append, List.dropWhile_cons]
  by_cases h : d = 0
  · simp [h]
  · simp [h]

theorem drop_top_zeros_nil : drop_top_zeros [] = [] := rfl

theorem drop_top_zeros_spec (l : List Nat) :
    lvalue (drop_top_zeros l) = lvalue l ∧ (∀ d ∈ drop_top_zeros l, d ∈ l) ∧
    (drop_top_zeros l).getLast? ≠ some 0 ∧ (drop_top_zeros l).length ≤ l.length := by
  induction l using List.reverseRecOn with
  | nil => simp [drop_top_zeros_nil]
  | append_singleton l d ih =>
    rw [drop_top_zeros_snoc]
    by_cases h : d = 0
    · subst h
      simp only [if_true]
      obtain ⟨h1, h2, h3, h4⟩ := ih
      refine ⟨?_, ?_, h3, ?_⟩
      · rw [h1, lvalue_append]; simp [lvalue]
      · intro x hx; exact List.mem_append_left _ (h2 x hx)
      · simp; omega
    · simp only [h, if_false]
      refine ⟨trivial, ?_⟩
      simp [List.getLast?_append]
      exact h

theorem drop_top_zeros_of_top (l : List Nat) (h : l.getLast? ≠ some 0) : drop_top_zeros l = l := by
  induction l using List.reverseRecOn with
  | nil => rfl
  | append_singleton l d _ =>
    rw [drop_top_zeros_snoc]
    have : d ≠ 0 := by
      intro hd; apply h; simp [List.getLast?_append, hd]
    simp [this]

theorem Clamp_value (b : Bignum) : (Clamp b).value = b.value := by
  unfold Clamp
  have h := (drop_top_zeros_spec b.bigits).1
  by_cases he : (drop_top_zeros b.bigits).length = 0
  · simp only [he, if_true, value]
    have h0 : drop_top_zeros b.bigits = [] := List.length_eq_zero.1 he
    rw [h0] at h ⊢
    simp [lvalue] at h ⊢
    rw [← h]
  · simp only [he, if_false, value, h]

theorem Clamp_wf (b : Bignum) (h : ∀ d ∈ b.bigits, d < 2 ^ 28) : (Clamp b).wf := by
  unfold Clamp
  obtain ⟨-, h2, h3, -⟩ := drop_top_zeros_spec b.bigits
  by_cases he : (drop_top_zeros b.bigits).length = 0
  · simp only [he, if_true]
    exact ⟨fun d hd => h d (h2 d hd), h3, fun _ => rfl⟩
  · simp only [he, if_false]
    refine ⟨fun d hd => h d (h2 d hd), h3, fun hn => ?_⟩
    simp at hn
    exact absurd (by simp [hn]) he

theorem Clamp_of_wf (b : Bignum) (h : b.wf) : Clamp b = b := by
  unfold Clamp
  rw [drop_top_zeros_of_top b.bigits h.2.1]
  by_cases he : b.bigits.length = 0
  · have hb : b.bigits = [] := List.length_eq_zero.1 he
    have := h.2.2 hb
    cases b; simp_all
  · simp [he]

theorem Clamp_BigitLength_le (b : Bignum) : (Clamp b).BigitLength ≤ b.BigitLength := by
  unfold Clamp BigitLength
  have := (drop_top_zeros_spec b.bigits).2.2.2
  simp only []
  split_ifs <;> simp <;> omega

/-! ## Alignment -/

theorem Align_value (b other : Bignum) : (Align b other).value = b.value := by
  unfold Align
  by_cases h : b.exponent > other.exponent
  · simp only [h, if_true, value, lvalue_append, lvalue_replicate_zero, List.length_replicate,
      zero_add]
    rw [mul_comm (2 ^ _) _, mul_assoc, ← pow_add]
    congr 2
    omega
  · simp [h]

theorem Align_exponent (b other : Bignum) :
    (Align b other).exponent = min b.exponent other.exponent := by
  unfold Align
  by_cases h : b.exponent > other.exponent
  · simp only [h, if_true]; omega
  · simp only [h, if_false]; omega

theorem Align_BigitLength (b other : Bignum) : (Align b other).BigitLength = b.BigitLength := by
  unfold Align BigitLength
  by_cases h : b.exponent > other.exponent
  · simp only [h, if_true, List.length_append, List.length_replicate]; omega
  · simp [h]

theorem Align_wf (b other : Bignum) (h : b.wf) : (Align b other).wf := by
  unfold Align
  by_cases hgt : b.exponent > other.exponent
  · simp only [hgt, if_true]
    have hne : b.bigits ≠ [] := fun hn => by have := h.2.2 hn; omega
    refine ⟨?_, ?_, ?_⟩
    · intro d hd
      rcases List.mem_append.1 hd with hd | hd
      · rw [List.mem_replicate] at hd; rw [hd.2]; norm_num
      · exact h.1 d hd
    · rw [List.getLast?_append_of_ne_nil _ hne]; exact h.2.1
    · intro hn; simp at hn; exact absurd hn.2 hne
  · simpa [hgt] using h

theorem Align_bigits_ne_nil (b other : Bignum) (h : b.bigits ≠ []) : (Align b other).bigits ≠ [] := by
  unfold Align
  split_ifs
  · simp [h]
  · exact h

end univang.fmt.detail.Bignum

namespace univang.fmt.detail.Bignum

/-! ## Shifts -/

theorem shift_digit (d s carry : Nat) (hs : s < 28) (hd : d < 2 ^ 28) (hc : carry < 2 ^ s) :
    ((d <<< s) % 2 ^ 32 + carry) % 2 ^ 32 % 2 ^ 28 + 2 ^ 28 * (d >>> (28 - s)) = d * 2 ^ s + carry ∧
    d >>> (28 - s) < 2 ^ s ∧
    ((d >>> (28 - s) = 0 ∧ d ≠ 0) → ((d <<< s) % 2 ^ 32 + carry) % 2 ^ 32 % 2 ^ 28 ≠ 0) := by
  rw [Nat.shiftLeft_eq, Nat.shiftRight_eq_div_pow]
  interval_cases s <;> omega

theorem BigitsShiftLeft_loop_cons (s d : Nat) (ds : List Nat) (carry : Nat) :
    BigitsShiftLeft_loop s (d :: ds) carry
      = (((d <<< s) % 2 ^ 32 + carry) % 2 ^ 32 % 2 ^ 28) :: BigitsShiftLeft_loop s ds (d >>> (28 - s)) :=
  rfl

theorem BigitsShiftLeft_loop_spec (s : Nat) (hs : s < 28) (ds : List Nat) (carry : Nat)
    (hd : ∀ d ∈ ds, d < 2 ^ 28) (hc : carry < 2 ^ s) :
    lvalue (BigitsShiftLeft_loop s ds carry) = lvalue ds * 2 ^ s + carry ∧
    (∀ d ∈ BigitsShiftLeft_loop s ds carry, d < 2 ^ 28) := by
  induction ds generalizing carry with
  | nil =>
    unfold BigitsShiftLeft_loop
    have : (2:Nat) ^ s < 2 ^ 28 := Nat.pow_lt_pow_right (by norm_num) hs
    by_cases h : carry = 0
    · simp [h, lvalue]
    · simp only [ne_eq, h, not_false_eq_true, if_true, lvalue, mul_zero, add_zero, zero_mul, zero_add,
        List.mem_singleton, forall_eq, true_and]
      omega
  | cons d ds ih =>
    rw [BigitsShiftLeft_loop_cons]
    have hd0 : d < 2 ^ 28 := hd d (List.mem_cons_self _ _)
    obtain ⟨e1, e2, -⟩ := shift_digit d s carry hs hd0 hc
    obtain ⟨i1, i2⟩ := ih (d >>> (28 - s)) (fun x hx => hd x (List.mem_cons_of_mem _ hx)) e2
    simp only [lvalue]
    refine ⟨?_, ?_⟩
    · rw [i1]
      have : 2 ^ 28 * (lvalue ds * 2 ^ s + d >>> (28 - s))
          = 2 ^ 28 * lvalue ds * 2 ^ s + 2 ^ 28 * (d >>> (28 - s)) := by ring
      rw [this]
      have : (d + 2 ^ 28 * lvalue ds) * 2 ^ s = d * 2 ^ s + 2 ^ 28 * lvalue ds * 2 ^ s := by ring
      rw [this]
      omega
    · intro x hx
      rcases List.mem_cons.1 hx with rfl | hx
      · exact Nat.mod_lt _ (by norm_num)
      · exact i2 x hx

theorem BigitsShiftLeft_loop_top (s : Nat) (hs : s < 28) (ds : List Nat) (carry : Nat)
    (hd : ∀ d ∈ ds, d < 2 ^ 28) (hc : carry < 2 ^ s) (hne : ds ≠ []) (htop : ds.getLast? ≠ some 0) :
    BigitsShiftLeft_loop s ds carry ≠ [] ∧ (BigitsShiftLeft_loop s ds carry).getLast? ≠ some 0 := by
  induction ds generalizing carry with
  | nil => exact absurd rfl hne
  | cons d ds ih =>
    rw [BigitsShiftLeft_loop_cons]
    have hd0 : d < 2 ^ 28 := hd d (List.mem_cons_self _ _)
    obtain ⟨-, e2, e3⟩ := shift_digit d s carry hs hd0 hc
    refine ⟨by simp, ?_⟩
    cases ds with
    | nil =>
      simp only [List.getLast?_singleton, ne_eq, Option.some.injEq] at htop
      unfold BigitsShiftLeft_loop
      by_cases hz : d >>> (28 - s) = 0
      · simp only [hz, ne_eq, not_true_eq_false, if_false, List.getLast?_singleton, Option.some.injEq]
        exact e3 ⟨hz, htop⟩
      · simp [hz]
    | cons e es =>
      have h2 : (e :: es).getLast? ≠ some 0 := by
        simpa [List.getLast?_cons_cons] using htop
      obtain ⟨n1, n2⟩ := ih (d >>> (28 - s)) (fun x hx => hd x (List.mem_cons_of_mem _ hx)) e2
        (by simp) h2
      obtain ⟨x, xs, hx⟩ := List.exists_cons_of_ne_nil n1
      rw [hx, List.getLast?_cons_cons, ← hx]
      exact n2

theorem ShiftLeft_value (b : Bignum) (n : Nat) (h : b.wf) : (b.ShiftLeft n).value = b.value * 2 ^ n := by
  unfold ShiftLeft
  by_cases he : b.bigits.length = 0
  · have hb : b.bigits = [] := List.length_eq_zero.1 he
    simp [he, value, hb, lvalue]
  · simp only [he, if_false, BigitsShiftLeft, value]
    have hs : n % 28 < 28 := Nat.mod_lt _ (by norm_num)
    obtain ⟨e1, -⟩ := BigitsShiftLeft_loop_spec (n % 28) hs b.bigits 0 h.1 (Nat.two_pow_pos _)
    rw [e1, add_zero, mul_assoc, mul_assoc, ← pow_add, ← pow_add]
    congr 2
    have := Nat.div_add_mod n 28
    omega

theorem ShiftLeft_wf (b : Bignum) (n : Nat) (h : b.wf) : (b.ShiftLeft n).wf := by
  unfold ShiftLeft
  by_cases he : b.bigits.length = 0
  · simpa [he] using h
  · simp only [he, if_false, BigitsShiftLeft]
    have hne : b.bigits ≠ [] := fun hn => he (by simp [hn])
    have hs : n % 28 < 28 := Nat.mod_lt _ (by norm_num)
    obtain ⟨-, e2⟩ := BigitsShiftLeft_loop_spec (n % 28) hs b.bigits 0 h.1 (Nat.two_pow_pos _)
    obtain ⟨t1, t2⟩ := BigitsShiftLeft_loop_top (n % 28) hs b.bigits 0 h.1 (Nat.two_pow_pos _) hne h.2.1
    exact ⟨e2, t2, fun hn => absurd hn t1⟩

/-! ## Multiplication by a machine word -/

theorem carry_loop_spec (c : Nat) :
    lvalue (carry_loop c c) = c ∧ (∀ d ∈ carry_loop c c, d < 2 ^ 28) ∧
    (carry_loop c c).getLast? ≠ some 0 ∧ (c ≠ 0 → carry_loop c c ≠ []) := by
  rw [carry_loop_eq]; exact AssignUInt64_loop_spec c c le_rfl

theorem MultiplyByUInt32_loop_cons (factor d : Nat) (ds : List Nat) (carry : Nat) :
    MultiplyByUInt32_loop factor (d :: ds) carry
      = ((factor * d + carry) % 2 ^ 64 % 2 ^ 28)
        :: MultiplyByUInt32_loop factor ds (((factor * d + carry) % 2 ^ 64) >>> 28) := rfl

theorem MultiplyByUInt32_loop_spec (factor : Nat) (hf : factor < 2 ^ 32) (ds : List Nat) (carry : Nat)
    (hd : ∀ d ∈ ds, d < 2 ^ 28) (hc : carry < 2 ^ 36) :
    lvalue (MultiplyByUInt32_loop factor ds carry) = factor * lvalue ds + carry ∧
    (∀ d ∈ MultiplyByUInt32_loop factor ds carry, d < 2 ^ 28) ∧
    (factor ≠ 0 → ds.getLast? ≠ some 0 →
      (MultiplyByUInt32_loop factor ds carry).getLast? ≠ some 0) := by
  induction ds generalizing carry with
  | nil =>
    unfold MultiplyByUInt32_loop
    obtain ⟨h1, h2, h3, -⟩ := carry_loop_spec carry
    simp only [h1, lvalue, mul_zero, zero_add, true_and]
    exact ⟨h2, fun _ _ => h3⟩
  | cons d ds ih =>
    rw [MultiplyByUInt32_loop_cons]
    have hd0 : d < 2 ^ 28 := hd d (List.mem_cons_self _ _)
    have hp : factor * d < 2 ^ 60 := by
      calc factor * d < 2 ^ 32 * 2 ^ 28 := by
            apply Nat.mul_lt_mul'' hf hd0
        _ = 2 ^ 60 := by norm_num
    have hlt : factor * d + carry < 2 ^ 64 := by omega
    have hc' : ((factor * d + carry) % 2 ^ 64) >>> 28 < 2 ^ 36 := by
      rw [Nat.mod_eq_of_lt hlt, Nat.shiftRight_eq_div_pow]; omega
    obtain ⟨i1, i2, i3⟩ := ih _ (fun x hx => hd x (List.mem_cons_of_mem _ hx)) hc'
    simp only [lvalue]
    refine ⟨?_, ?_, ?_⟩
    · rw [i1, Nat.mod_eq_of_lt hlt, Nat.shiftRight_eq_div_pow]
      have : factor * (d + 2 ^ 28 * lvalue ds) = factor * d + 2 ^ 28 * (factor * lvalue ds) := by ring
      rw [this]
      omega
    · intro x hx
      rcases List.mem_cons.1 hx with rfl | hx
      · exact Nat.mod_lt _ (by norm_num)
      · exact i2 x hx
    · intro hf0 htop
      cases ds with
      | nil =>
        simp only [List.getLast?_singleton, ne_eq, Option.some.injEq] at htop
        unfold MultiplyByUInt32_loop
        obtain ⟨-, -, c3, c4⟩ := carry_loop_spec (((factor * d + carry) % 2 ^ 64) >>> 28)
        by_cases hz : ((factor * d + carry) % 2 ^ 64) >>> 28 = 0
        · have : carry_loop (((factor * d + carry) % 2 ^ 64) >>> 28)
              (((factor * d + carry) % 2 ^ 64) >>> 28) = [] := by
            rw [hz]; rfl
          rw [this]
          simp only [List.getLast?_singleton, ne_eq, Option.some.injEq]
          rw [Nat.mod_eq_of_lt hlt, Nat.shiftRight_eq_div_pow] at hz
          rw [Nat.mod_eq_of_lt hlt]
          have : 0 < factor * d := Nat.mul_pos (Nat.pos_of_ne_zero hf0) (Nat.pos_of_ne_zero htop)
          have h28 : factor * d + carry < 2 ^ 28 := by
            by_contra hc2
            have : 1 ≤ (factor * d + carry) / 2 ^ 28 := Nat.div_pos (by omega) (by norm_num)
            omega
          rw [Nat.mod_eq_of_lt h28]; omega
        · obtain ⟨x, xs, hx⟩ := List.exists_cons_of_ne_nil (c4 hz)
          rw [hx, List.getLast?_cons_cons, ← hx]
          exact c3
      | cons e es =>
        have h2 : (e :: es).getLast? ≠ some 0 := by
          simpa [List.getLast?_cons_cons] using htop
        have i3' := i3 hf0 h2
        rw [MultiplyByUInt32_loop_cons] at i3' ⊢
        rw [List.getLast?_cons_cons]
        exact i3'

theorem MultiplyByUInt32_value (b : Bignum) (factor : Nat) (hf : factor < 2 ^ 32) (h : b.wf) :
    (b.MultiplyByUInt32 factor).value = b.value * factor := by
  unfold MultiplyByUInt32
  by_cases h1 : factor = 1
  · simp [h1]
  · by_cases h0 : factor = 0
    · simp [h0, Zero_value]
    · by_cases he : b.bigits.length = 0
      · simp [h1, h0, he]
        have hb : b.bigits = [] := List.length_eq_zero.1 he
        simp [value, hb, lvalue]
      · simp only [h1, h0, he, if_false, value]
        rw [(MultiplyByUInt32_loop_spec factor hf b.bigits 0 h.1 (by norm_num)).1]
        ring

theorem MultiplyByUInt32_wf (b : Bignum) (factor : Nat) (hf : factor < 2 ^ 32) (h : b.wf) :
    (b.MultiplyByUInt32 factor).wf := by
  unfold MultiplyByUInt32
  by_cases h1 : factor = 1
  · simpa [h1] using h
  · by_cases h0 : factor = 0
    · simp [h0, Zero_wf]
    · by_cases he : b.bigits.length = 0
      · simpa [h1, h0, he] using h
      · simp only [h1, h0, he, if_false]
        obtain ⟨-, e2, e3⟩ := MultiplyByUInt32_loop_spec factor hf b.bigits 0 h.1 (by norm_num)
        refine ⟨e2, e3 h0 h.2.1, fun hn => ?_⟩
        exfalso
        simp only at hn
        cases hb : b.bigits with
        | nil => exact he (by simp [hb])
        | cons x xs => rw [hb, MultiplyByUInt32_loop_cons] at hn; exact absurd hn (by simp)

theorem Times10_value (b : Bignum) (h : b.wf) : b.Times10.value = b.value * 10 :=
  MultiplyByUInt32_value b 10 (by norm_num) h

theorem Times10_wf (b : Bignum) (h : b.wf) : b.Times10.wf :=
  MultiplyByUInt32_wf b 10 (by norm_num) h

end univang.fmt.detail.Bignum

namespace univang.fmt.detail.Bignum

theorem MultiplyByUInt64_loop_cons (low high d : Nat) (ds : List Nat) (carry : Nat) :
    MultiplyByUInt64_loop low high (d :: ds) carry
      = ((carry % 2 ^ 28 + (low * d) % 2 ^ 64) % 2 ^ 64 % 2 ^ 28)
        :: MultiplyByUInt64_loop low high ds
            (((carry >>> 28) + (((carry % 2 ^ 28 + (low * d) % 2 ^ 64) % 2 ^ 64) >>> 28)
              + (((high * d) % 2 ^ 64) <<< 4) % 2 ^ 64) % 2 ^ 64) := rfl

theorem mul64_step (low high d carry : Nat) (hl : low < 2 ^ 32) (hh : high < 2 ^ 32)
    (hd : d < 2 ^ 28) (hc : carry < 2 ^ 64) :
    ((carry >>> 28) + (((carry % 2 ^ 28 + (low * d) % 2 ^ 64) % 2 ^ 64) >>> 28)
        + (((high * d) % 2 ^ 64) <<< 4) % 2 ^ 64) % 2 ^ 64 < 2 ^ 64 ∧
    (carry % 2 ^ 28 + (low * d) % 2 ^ 64) % 2 ^ 64 % 2 ^ 28
      + 2 ^ 28 * (((carry >>> 28) + (((carry % 2 ^ 28 + (low * d) % 2 ^ 64) % 2 ^ 64) >>> 28)
        + (((high * d) % 2 ^ 64) <<< 4) % 2 ^ 64) % 2 ^ 64)
      = (low + 2 ^ 32 * high) * d + carry := by
  have hpl : low * d ≤ (2 ^ 32 - 1) * (2 ^ 28 - 1) := Nat.mul_le_mul (by omega) (by omega)
  have hph : high * d ≤ (2 ^ 32 - 1) * (2 ^ 28 - 1) := Nat.mul_le_mul (by omega) (by omega)
  have e : (low + 2 ^ 32 * high) * d = low * d + 2 ^ 32 * (high * d) := by ring
  rw [e]
  generalize low * d = pl at *
  generalize high * d = ph at *
  simp only [Nat.shiftRight_eq_div_pow, Nat.shiftLeft_eq]
  norm_num at hpl hph ⊢
  omega

theorem MultiplyByUInt64_loop_spec (low high : Nat) (hl : low < 2 ^ 32) (hh : high < 2 ^ 32)
    (ds : List Nat) (carry : Nat) (hd : ∀ d ∈ ds, d < 2 ^ 28) (hc : carry < 2 ^ 64) :
    lvalue (MultiplyByUInt64_loop low high ds carry) = (low + 2 ^ 32 * high) * lvalue ds + carry ∧
    (∀ d ∈ MultiplyByUInt64_loop low high ds carry, d < 2 ^ 28) ∧
    (low + 2 ^ 32 * high ≠ 0 → ds.getLast? ≠ some 0 →
      (MultiplyByUInt64_loop low high ds carry).getLast? ≠ some 0) := by
  induction ds generalizing carry with
  | nil =>
    unfold MultiplyByUInt64_loop
    obtain ⟨h1, h2, h3, -⟩ := carry_loop_spec carry
    simp only [h1, lvalue, mul_zero, zero_add, true_and]
    exact ⟨h2, fun _ _ => h3⟩
  | cons d ds ih =>
    rw [MultiplyByUInt64_loop_cons]
    have hd0 : d < 2 ^ 28 := hd d (List.mem_cons_self _ _)
    obtain ⟨s1, s2⟩ := mul64_step low high d carry hl hh hd0 hc
    obtain ⟨i1, i2, i3⟩ := ih _ (fun x hx => hd x (List.mem_cons_of_mem _ hx)) s1
    simp only [lvalue]
    refine ⟨?_, ?_, ?_⟩
    · rw [i1]
      have : (low + 2 ^ 32 * high) * (d + 2 ^ 28 * lvalue ds)
          = (low + 2 ^ 32 * high) * d + 2 ^ 28 * ((low + 2 ^ 32 * high) * lvalue ds) := by ring
      rw [this]
      omega
    · intro x hx
      rcases List.mem_cons.1 hx with rfl | hx
      · exact Nat.mod_lt _ (by norm_num)
      · exact i2 x hx
    · intro hf0 htop
      cases ds with
      | nil =>
        simp only [List.getLast?_singleton, ne_eq, Option.some.injEq] at htop
        unfold MultiplyByUInt64_loop
        generalize hcc : ((carry >>> 28) + (((carry % 2 ^ 28 + (low * d) % 2 ^ 64) % 2 ^ 64) >>> 28)
              + (((high * d) % 2 ^ 64) <<< 4) % 2 ^ 64) % 2 ^ 64 = c' at s2 ⊢
        obtain ⟨-, -, c3, c4⟩ := carry_loop_spec c'
        by_cases hz : c' = 0
        · subst hz
          have : carry_loop 0 0 = [] := rfl
          rw [this]
          simp only [List.getLast?_singleton, ne_eq, Option.some.injEq]
          have : 0 < (low + 2 ^ 32 * high) * d :=
            Nat.mul_pos (Nat.pos_of_ne_zero hf0) (Nat.pos_of_ne_zero htop)
          omega
        · obtain ⟨x, xs, hx⟩ := List.exists_cons_of_ne_nil (c4 hz)
          rw [hx, List.getLast?_cons_cons, ← hx]
          exact c3
      | cons e es =>
        have h2 : (e :: es).getLast? ≠ some 0 := by
          simpa [List.getLast?_cons_cons] using htop
        have i3' := i3 hf0 h2
        rw [MultiplyByUInt64_loop_cons] at i3' ⊢
        rw [List.getLast?_cons_cons]
        exact i3'

theorem split64 (factor : Nat) (hf : factor < 2 ^ 64) :
    factor % 2 ^ 32 < 2 ^ 32 ∧ factor >>> 32 < 2 ^ 32 ∧
    factor % 2 ^ 32 + 2 ^ 32 * (factor >>> 32) = factor := by
  rw [Nat.shiftRight_eq_div_pow]; omega

theorem MultiplyByUInt64_value (b : Bignum) (factor : Nat) (hf : factor < 2 ^ 64) (h : b.wf) :
    (b.MultiplyByUInt64 factor).value = b.value * factor := by
  unfold MultiplyByUInt64
  obtain ⟨q1, q2, q3⟩ := split64 factor hf
  by_cases h1 : factor = 1
  · simp [h1]
  · by_cases h0 : factor = 0
    · simp [h0, Zero_value]
    · by_cases he : b.bigits.length = 0
      · simp [h1, h0, he]
        have hb : b.bigits = [] := List.length_eq_zero.1 he
        simp [value, hb, lvalue]
      · simp only [h1, h0, he, if_false, value]
        rw [(MultiplyByUInt64_loop_spec _ _ q1 q2 b.bigits 0 h.1 (by norm_num)).1, q3]
        ring

theorem MultiplyByUInt64_wf (b : Bignum) (factor : Nat) (hf : factor < 2 ^ 64) (h : b.wf) :
    (b.MultiplyByUInt64 factor).wf := by
  unfold MultiplyByUInt64
  obtain ⟨q1, q2, q3⟩ := split64 factor hf
  by_cases h1 : factor = 1
  · simpa [h1] using h
  · by_cases h0 : factor = 0
    · simp [h0, Zero_wf]
    · by_cases he : b.bigits.length = 0
      · simpa [h1, h0, he] using h
      · simp only [h1, h0, he, if_false]
        obtain ⟨-, e2, e3⟩ := MultiplyByUInt64_loop_spec _ _ q1 q2 b.bigits 0 h.1 (by norm_num)
        refine ⟨e2, e3 (by rw [q3]; exact h0) h.2.1, fun hn => ?_⟩
        exfalso
        simp only at hn
        cases hb : b.bigits with
        | nil => exact he (by simp [hb])
        | cons x xs => rw [hb, MultiplyByUInt64_loop_cons] at hn; exact absurd hn (by simp)

end univang.fmt.detail.Bignum

namespace univang.fmt.detail.Bignum

theorem wf_of_check (b : Bignum) (h : wf_check b = true) : b.wf := by
  unfold wf_check at h
  simp only [Bool.and_eq_true, List.all_eq_true, decide_eq_true_eq, bne_iff_ne, ne_eq,
    Bool.or_eq_true, Bool.not_eq_true', List.isEmpty_eq_false, beq_iff_eq] at h
  refine ⟨h.1.1, h.1.2, fun hn => ?_⟩
  rcases h.2 with h2 | h2
  · rw [hn] at h2; simp at h2
  · exact h2

set_option maxRecDepth 100000 in
theorem AssignPowerUInt16_ten_check_0 :
    all_below (fun k => decide ((AssignPowerUInt16 10 (k + 0)).value = 10 ^ (k + 0))
      && wf_check (AssignPowerUInt16 10 (k + 0))) 55 = true := by
  decide!

set_option maxRecDepth 100000 in
theorem AssignPowerUInt16_ten_check_1 :
    all_below (fun k => decide ((AssignPowerUInt16 10 (k + 55)).value = 10 ^ (k + 55))
      && wf_check (AssignPowerUInt16 10 (k + 55))) 55 = true := by
  decide!

set_option maxRecDepth 100000 in
theorem AssignPowerUInt16_ten_check_2 :
    all_below (fun k => decide ((AssignPowerUInt16 10 (k + 110)).value = 10 ^ (k + 110))
      && wf_check (AssignPowerUInt16 10 (k + 110))) 55 = true := by
  decide!

set_option maxRecDepth 100000 in
theorem AssignPowerUInt16_ten_check_3 :
    all_below (fun k => decide ((AssignPowerUInt16 10 (k + 165)).value = 10 ^ (k + 165))
      && wf_check (AssignPowerUInt16 10 (k + 165))) 55 = true := by
  decide!

set_option maxRecDepth 100000 in
theorem AssignPowerUInt16_ten_check_4 :
    all_below (fun k => decide ((AssignPowerUInt16 10 (k + 220)).value = 10 ^ (k + 220))
      && wf_check (AssignPowerUInt16 10 (k + 220))) 55 = true := by
  decide!

set_option maxRecDepth 100000 in
theorem AssignPowerUInt16_ten_check_5 :
    all_below (fun k => decide ((AssignPowerUInt16 10 (k + 275)).value = 10 ^ (k + 275))
      && wf_check (AssignPowerUInt16 10 (k + 275))) 55 = true := by
  decide!

theorem all_below_imp (p : Nat → Bool) (n : Nat) (h : all_below p n = true) :
    ∀ i < n, p i = true := by
  induction n with
  | zero => intro i hi; omega
  | succ n ih =>
    simp only [all_below, Bool.and_eq_true] at h
    intro i hi
    by_cases hin : i = n
    · rw [hin]; exact h.1
    · exact ih h.2 i (by omega)

theorem AssignPowerUInt16_ten (k : Nat) (hk : k < 330) :
    (AssignPowerUInt16 10 k).value = 10 ^ k ∧ (AssignPowerUInt16 10 k).wf := by
  have key : ∀ j, (∀ i < 55, (decide ((AssignPowerUInt16 10 (i + j)).value = 10 ^ (i + j))
      && wf_check (AssignPowerUInt16 10 (i + j))) = true) → j ≤ k → k < j + 55 →
      (AssignPowerUInt16 10 k).value = 10 ^ k ∧ (AssignPowerUInt16 10 k).wf := by
    intro j hj h1 h2
    have := hj (k - j) (by omega)
    rw [Nat.sub_add_cancel h1] at this
    simp only [Bool.and_eq_true, decide_eq_true_eq] at this
    exact ⟨this.1, wf_of_check _ this.2⟩
  by_cases h0 : k < 55
  · exact key 0 (all_below_imp _ _ AssignPowerUInt16_ten_check_0) (by omega) (by omega)
  by_cases h1 : k < 110
  · exact key 55 (all_below_imp _ _ AssignPowerUInt16_ten_check_1) (by omega) (by omega)
  by_cases h2 : k < 165
  · exact key 110 (all_below_imp _ _ AssignPowerUInt16_ten_check_2) (by omega) (by omega)
  by_cases h3 : k < 220
  · exact key 165 (all_below_imp _ _ AssignPowerUInt16_ten_check_3) (by omega) (by omega)
  by_cases h4 : k < 275
  · exact key 220 (all_below_imp _ _ AssignPowerUInt16_ten_check_4) (by omega) (by omega)
  · exact key 275 (all_below_imp _ _ AssignPowerUInt16_ten_check_5) (by omega) (by omega)

end univang.fmt.detail.Bignum

namespace univang.fmt.detail.Bignum

/-! ## Subtraction -/

theorem sub_digit (a o borrow : Nat) (ha : a < 2 ^ 28) (ho : o < 2 ^ 28) (hb : borrow ≤ 1) :
    ((a + 2 ^ 32 + 2 ^ 32 - o - borrow) % 2 ^ 32) % 2 ^ 28 + o + borrow
      = a + 2 ^ 28 * (((a + 2 ^ 32 + 2 ^ 32 - o - borrow) % 2 ^ 32) >>> 31) ∧
    ((a + 2 ^ 32 + 2 ^ 32 - o - borrow) % 2 ^ 32) >>> 31 ≤ 1 := by
  rw [Nat.shiftRight_eq_div_pow]
  omega

theorem sub_digit_nil (a borrow : Nat) (ha : a < 2 ^ 28) (hb : borrow ≤ 2 ^ 28) :
    ((a + 2 ^ 32 - borrow) % 2 ^ 32) % 2 ^ 28 + borrow
      = a + 2 ^ 28 * (((a + 2 ^ 32 - borrow) % 2 ^ 32) >>> 31) ∧
    ((a + 2 ^ 32 - borrow) % 2 ^ 32) >>> 31 ≤ 1 := by
  rw [Nat.shiftRight_eq_div_pow]
  omega

theorem SubtractBignum_loop_nil (os : List Nat) (borrow : Nat) :
    SubtractBignum_loop [] os borrow = [] := by
  rw [SubtractBignum_loop]

theorem SubtractBignum_loop_spec (as os : List Nat) (borrow : Nat)
    (ha : ∀ d ∈ as, d < 2 ^ 28) (ho : ∀ d ∈ os, d < 2 ^ 28) (hb : borrow ≤ 1)
    (hge : lvalue os + borrow ≤ lvalue as) :
    lvalue (SubtractBignum_loop as os borrow) + lvalue os + borrow = lvalue as ∧
    (∀ d ∈ SubtractBignum_loop as os borrow, d < 2 ^ 28) := by
  induction as generalizing os borrow with
  | nil =>
    simp only [lvalue] at hge
    have h1 : lvalue os = 0 := by omega
    have h2 : borrow = 0 := by omega
    have h3 : SubtractBignum_loop [] os borrow = [] := SubtractBignum_loop_nil os borrow
    rw [h3, h1, h2]
    simp [lvalue]
  | cons a as ih =>
    have ha0 : a < 2 ^ 28 := ha a (List.mem_cons_self _ _)
    have has : ∀ d ∈ as, d < 2 ^ 28 := fun x hx => ha x (List.mem_cons_of_mem _ hx)
    have hlt := lvalue_lt as has
    cases os with
    | nil =>
      by_cases hb0 : borrow = 0
      · subst hb0
        simp only [SubtractBignum_loop, ne_eq, not_true_eq_false, if_false, lvalue, add_zero, true_and]
        exact ha
      · have hb1 : borrow = 1 := by omega
        subst hb1
        simp only [SubtractBignum_loop, ne_eq, one_ne_zero, not_false_eq_true, if_true]
        obtain ⟨e1, e2⟩ := sub_digit_nil a 1 ha0 (by norm_num)
        simp only [lvalue] at hge ⊢
        have hge' : lvalue ([] : List Nat) + ((a + 2 ^ 32 - 1) % 2 ^ 32) >>> 31 ≤ lvalue as := by
          simp only [lvalue, zero_add]
          rw [Nat.shiftRight_eq_div_pow] at e1 e2 ⊢
          omega
        obtain ⟨i1, i2⟩ := ih [] _ has (by simp) e2 hge'
        simp only [lvalue, add_zero] at i1
        refine ⟨by omega, ?_⟩
        intro x hx
        rcases List.mem_cons.1 hx with hx0 | hx
        · rw [hx0]; exact Nat.mod_lt _ (by norm_num)
        · exact i2 x hx
    | cons o os =>
      have ho0 : o < 2 ^ 28 := ho o (List.mem_cons_self _ _)
      have hos : ∀ d ∈ os, d < 2 ^ 28 := fun x hx => ho x (List.mem_cons_of_mem _ hx)
      simp only [SubtractBignum_loop]
      obtain ⟨e1, e2⟩ := sub_digit a o borrow ha0 ho0 hb
      simp only [lvalue] at hge ⊢
      have hge' : lvalue os + ((a + 2 ^ 32 + 2 ^ 32 - o - borrow) % 2 ^ 32) >>> 31 ≤ lvalue as := by
        rw [Nat.shiftRight_eq_div_pow] at e1 e2 ⊢
        omega
      obtain ⟨i1, i2⟩ := ih os _ has hos e2 hge'
      refine ⟨by omega, ?_⟩
      intro x hx
      rcases List.mem_cons.1 hx with hx0 | hx
      · rw [hx0]; exact Nat.mod_lt _ (by norm_num)
      · exact i2 x hx

theorem lvalue_take_drop (l : List Nat) (n : Nat) :
    lvalue l = lvalue (l.take n) + 2 ^ (28 * (l.take n).length) * lvalue (l.drop n) := by
  conv_lhs => rw [← List.take_append_drop n l]
  rw [lvalue_append]

theorem SubtractBignum_spec (b other : Bignum) (hb : b.wf) (ho : other.wf)
    (hge : other.value ≤ b.value) :
    (b.SubtractBignum other).value + other.value = b.value ∧ (b.SubtractBignum other).wf := by
  unfold SubtractBignum
  have hav := Align_value b other
  have hae := Align_exponent b other
  have haw := Align_wf b other hb
  generalize Align b other = a at hav hae haw
  have hle : a.exponent ≤ other.exponent := by omega
  have hsplit := lvalue_take_drop a.bigits (other.exponent - a.exponent)
  have htake : ∀ d ∈ a.bigits.take (other.exponent - a.exponent), d < 2 ^ 28 :=
    fun d hd => haw.1 d (List.mem_of_mem_take hd)
  have hdrop : ∀ d ∈ a.bigits.drop (other.exponent - a.exponent), d < 2 ^ 28 :=
    fun d hd => haw.1 d (List.mem_of_mem_drop hd)
  have htl := lvalue_lt _ htake
  -- the aligned comparison
  have hov : other.value = lvalue other.bigits * 2 ^ (28 * (other.exponent - a.exponent))
      * 2 ^ (28 * a.exponent) := by
    unfold value
    rw [mul_assoc, ← pow_add]
    congr 2; omega
  have hbv : b.value = lvalue a.bigits * 2 ^ (28 * a.exponent) := by rw [← hav]; rfl
  have hpos : 0 < 2 ^ (28 * a.exponent) := Nat.two_pow_pos _
  have hcmp : lvalue other.bigits * 2 ^ (28 * (other.exponent - a.exponent)) ≤ lvalue a.bigits := by
    rw [hov, hbv] at hge
    exact Nat.le_of_mul_le_mul_right hge hpos
  have hlen : (a.bigits.take (other.exponent - a.exponent)).length ≤ other.exponent - a.exponent := by
    simp
  have hge' : lvalue other.bigits + 0 ≤ lvalue (a.bigits.drop (other.exponent - a.exponent)) := by
    rw [add_zero]
    by_contra hc
    push_neg at hc
    by_cases hfull : (a.bigits.take (other.exponent - a.exponent)).length = other.exponent - a.exponent
    · rw [hfull] at hsplit htl
      have : (lvalue (a.bigits.drop (other.exponent - a.exponent)) + 1)
          * 2 ^ (28 * (other.exponent - a.exponent))
          ≤ lvalue other.bigits * 2 ^ (28 * (other.exponent - a.exponent)) :=
        Nat.mul_le_mul_right _ hc
      nlinarith
    · have hshort : a.bigits.length < other.exponent - a.exponent := by
        simp at hfull; omega
      have hd0 : a.bigits.drop (other.exponent - a.exponent) = [] :=
        List.drop_eq_nil_of_le (by omega)
      rw [hd0] at hsplit hc
      simp only [lvalue, mul_zero, add_zero] at hsplit hc
      have h1 : 2 ^ (28 * (a.bigits.take (other.exponent - a.exponent)).length)
          ≤ 2 ^ (28 * (other.exponent - a.exponent)) :=
        Nat.pow_le_pow_right (by norm_num) (by omega)
      have h2 : 1 * 2 ^ (28 * (other.exponent - a.exponent))
          ≤ lvalue other.bigits * 2 ^ (28 * (other.exponent - a.exponent)) :=
        Nat.mul_le_mul_right _ hc
      omega
  obtain ⟨s1, s2⟩ := SubtractBignum_loop_spec _ other.bigits 0 hdrop ho.1 (by norm_num) hge'
  constructor
  · rw [Clamp_value]
    have hr : value { a with bigits := a.bigits.take (other.exponent - a.exponent)
          ++ SubtractBignum_loop (a.bigits.drop (other.exponent - a.exponent)) other.bigits 0 }
        = (lvalue (a.bigits.take (other.exponent - a.exponent))
            + 2 ^ (28 * (a.bigits.take (other.exponent - a.exponent)).length)
              * lvalue (SubtractBignum_loop (a.bigits.drop (other.exponent - a.exponent))
                  other.bigits 0)) * 2 ^ (28 * a.exponent) := by
      simp only [value, lvalue_append]
    rw [hr, hbv, hov, hsplit]
    by_cases hfull : (a.bigits.take (other.exponent - a.exponent)).length = other.exponent - a.exponent
    · rw [hfull, ← s1]
      ring
    · have hshort : a.bigits.length < other.exponent - a.exponent := by
        simp at hfull; omega
      have hd0 : a.bigits.drop (other.exponent - a.exponent) = [] :=
        List.drop_eq_nil_of_le (by omega)
      rw [hd0] at s1 hge' ⊢
      simp only [lvalue, add_zero] at hge' s1 ⊢
      have h0 : lvalue other.bigits = 0 := by omega
      rw [h0]
      simp
  · apply Clamp_wf
    intro d hd
    simp only at hd
    rcases List.mem_append.1 hd with hd | hd
    · exact htake d hd
    · exact s2 d hd

end univang.fmt.detail.Bignum

namespace univang.fmt.detail.Bignum

/-! ## SubtractTimes -/

theorem Clamp_exponent_le (b : Bignum) : (Clamp b).exponent ≤ b.exponent := by
  unfold Clamp
  simp only []
  split_ifs <;> simp

theorem SubtractBignum_exponent_le (b other : Bignum) :
    (b.SubtractBignum other).exponent ≤ min b.exponent other.exponent := by
  unfold SubtractBignum
  simp only []
  refine le_trans (Clamp_exponent_le _) ?_
  simp only [Align_exponent]
  exact le_rfl

theorem SubtractTimes_small_spec (n : Nat) (b other : Bignum) (hb : b.wf) (ho : other.wf)
    (hge : n * other.value ≤ b.value) :
    (SubtractTimes_small n b other).value + n * other.value = b.value ∧
    (SubtractTimes_small n b other).wf ∧
    (SubtractTimes_small n b other).exponent ≤ b.exponent := by
  induction n generalizing b with
  | zero => simp [SubtractTimes_small, hb]
  | succ n ih =>
    simp only [SubtractTimes_small]
    have h1 : other.value ≤ b.value := by
      have : (n + 1) * other.value = n * other.value + other.value := by ring
      omega
    obtain ⟨s1, s2⟩ := SubtractBignum_spec b other hb ho h1
    have h2 : n * other.value ≤ (b.SubtractBignum other).value := by
      have : (n + 1) * other.value = n * other.value + other.value := by ring
      omega
    obtain ⟨i1, i2, i3⟩ := ih (b.SubtractBignum other) s2 h2
    have h3 := SubtractBignum_exponent_le b other
    refine ⟨?_, i2, by omega⟩
    have : (n + 1) * other.value = n * other.value + other.value := by ring
    omega

theorem sub_times_digit (a p borrow : Nat) (ha : a < 2 ^ 28) (hp : p ≤ 72057593501057025)
    (hb : borrow ≤ 2 ^ 28) :
    ((a + 2 ^ 32 - ((borrow + p % 2 ^ 64) % 2 ^ 64) % 2 ^ 28) % 2 ^ 32) % 2 ^ 28 + borrow + p
      = a + 2 ^ 28 * (((((a + 2 ^ 32 - ((borrow + p % 2 ^ 64) % 2 ^ 64) % 2 ^ 28) % 2 ^ 32) >>> 31)
          + (((borrow + p % 2 ^ 64) % 2 ^ 64) >>> 28)) % 2 ^ 32) ∧
    ((((a + 2 ^ 32 - ((borrow + p % 2 ^ 64) % 2 ^ 64) % 2 ^ 28) % 2 ^ 32) >>> 31)
          + (((borrow + p % 2 ^ 64) % 2 ^ 64) >>> 28)) % 2 ^ 32 ≤ 2 ^ 28 := by
  have hp1 : p % 2 ^ 64 = p := Nat.mod_eq_of_lt (by omega)
  have hp2 : (borrow + p) % 2 ^ 64 = borrow + p := Nat.mod_eq_of_lt (by omega)
  rw [hp1, hp2]
  simp only [Nat.shiftRight_eq_div_pow]
  have hrl : (borrow + p) % 2 ^ 28 < 2 ^ 28 := Nat.mod_lt _ (by norm_num)
  have key : ∀ rl, rl < 2 ^ 28 →
      ((a + 2 ^ 32 - rl) % 2 ^ 32) % 2 ^ 28 + rl = a + 2 ^ 28 * (((a + 2 ^ 32 - rl) % 2 ^ 32) / 2 ^ 31)
      ∧ ((a + 2 ^ 32 - rl) % 2 ^ 32) / 2 ^ 31 ≤ 1 := by
    intro rl h
    omega
  obtain ⟨k1, k2⟩ := key _ hrl
  generalize ((a + 2 ^ 32 - (borrow + p) % 2 ^ 28) % 2 ^ 32) % 2 ^ 28 = dg at k1 ⊢
  generalize ((a + 2 ^ 32 - (borrow + p) % 2 ^ 28) % 2 ^ 32) / 2 ^ 31 = d31 at k1 k2 ⊢
  omega

theorem getLast?_cons_of_some (d x : Nat) (l : List Nat) (h : l.getLast? = some x) :
    (d :: l).getLast? = some x := by
  rw [List.getLast?_cons, h]; rfl

theorem SubtractTimes_loop_spec (factor : Nat) (as os : List Nat) (borrow : Nat)
    (ha : ∀ d ∈ as, d < 2 ^ 28) (ho : ∀ d ∈ os, d < 2 ^ 28) (hf : factor < 2 ^ 28)
    (hb : borrow ≤ 2 ^ 28) (hge : factor * lvalue os + borrow ≤ lvalue as) :
    lvalue (SubtractTimes_loop factor as os borrow).1 + factor * lvalue os + borrow = lvalue as ∧
    (∀ d ∈ (SubtractTimes_loop factor as os borrow).1, d < 2 ^ 28) ∧
    ((SubtractTimes_loop factor as os borrow).2 = true →
      ∃ x, as.getLast? = some x ∧ (SubtractTimes_loop factor as os borrow).1.getLast? = some x) := by
  induction as generalizing os borrow with
  | nil =>
    simp only [lvalue] at hge
    have h3 : SubtractTimes_loop factor [] os borrow = ([], false) := by rw [SubtractTimes_loop]
    rw [h3]
    simp only [lvalue]
    refine ⟨by omega, by simp, by simp⟩
  | cons a as ih =>
    have ha0 : a < 2 ^ 28 := ha a (List.mem_cons_self _ _)
    have has : ∀ d ∈ as, d < 2 ^ 28 := fun x hx => ha x (List.mem_cons_of_mem _ hx)
    have hlt := lvalue_lt as has
    cases os with
    | nil =>
      by_cases hb0 : borrow = 0
      · subst hb0
        have h3 : SubtractTimes_loop factor (a :: as) [] 0 = (a :: as, true) := by
          rw [SubtractTimes_loop]; simp
        rw [h3]
        simp only [lvalue, mul_zero, add_zero, true_and]
        refine ⟨ha, fun _ => ?_⟩
        rw [List.getLast?_cons]
        exact ⟨_, rfl, rfl⟩
      · have h3 : SubtractTimes_loop factor (a :: as) [] borrow =
            ((((a + 2 ^ 32 - borrow) % 2 ^ 32) % 2 ^ 28)
              :: (SubtractTimes_loop factor as [] (((a + 2 ^ 32 - borrow) % 2 ^ 32) >>> 31)).1,
             (SubtractTimes_loop factor as [] (((a + 2 ^ 32 - borrow) % 2 ^ 32) >>> 31)).2) := by
          rw [SubtractTimes_loop]; simp [hb0]
        rw [h3]
        obtain ⟨e1, e2⟩ := sub_digit_nil a borrow ha0 hb
        simp only [lvalue, mul_zero, zero_add] at hge ⊢
        have hge' : factor * lvalue ([] : List Nat) + ((a + 2 ^ 32 - borrow) % 2 ^ 32) >>> 31
            ≤ lvalue as := by
          simp only [lvalue, mul_zero, zero_add]
          rw [Nat.shiftRight_eq_div_pow] at e1 e2 ⊢
          omega
        obtain ⟨i1, i2, i3⟩ := ih [] _ has (by simp) (by omega) hge'
        simp only [lvalue, mul_zero, add_zero] at i1
        refine ⟨by omega, ?_, ?_⟩
        · intro x hx
          rcases List.mem_cons.1 hx with hx0 | hx
          · rw [hx0]; exact Nat.mod_lt _ (by norm_num)
          · exact i2 x hx
        · intro h2
          obtain ⟨x, hx1, hx2⟩ := i3 h2
          exact ⟨x, getLast?_cons_of_some _ _ _ hx1, getLast?_cons_of_some _ _ _ hx2⟩
    | cons o os =>
      have ho0 : o < 2 ^ 28 := ho o (List.mem_cons_self _ _)
      have hos : ∀ d ∈ os, d < 2 ^ 28 := fun x hx => ho x (List.mem_cons_of_mem _ hx)
      have hp : factor * o ≤ 72057593501057025 := by
        have : factor * o ≤ (2 ^ 28 - 1) * (2 ^ 28 - 1) := Nat.mul_le_mul (by omega) (by omega)
        norm_num at this
        exact this
      obtain ⟨e1, e2⟩ := sub_times_digit a (factor * o) borrow ha0 hp hb
      generalize hbn : ((((a + 2 ^ 32 - ((borrow + (factor * o) % 2 ^ 64) % 2 ^ 64) % 2 ^ 28) % 2 ^ 32) >>> 31)
          + (((borrow + (factor * o) % 2 ^ 64) % 2 ^ 64) >>> 28)) % 2 ^ 32 = bn at e1 e2
      generalize hdg : ((a + 2 ^ 32 - ((borrow + (factor * o) % 2 ^ 64) % 2 ^ 64) % 2 ^ 28) % 2 ^ 32) % 2 ^ 28
          = dg at e1
      have hdlt : dg < 2 ^ 28 := by rw [← hdg]; exact Nat.mod_lt _ (by norm_num)
      have h3 : SubtractTimes_loop factor (a :: as) (o :: os) borrow =
          (dg :: (SubtractTimes_loop factor as os bn).1, (SubtractTimes_loop factor as os bn).2) := by
        rw [SubtractTimes_loop, hbn, hdg]
      rw [h3]
      simp only [lvalue] at hge ⊢
      have hexp : factor * (o + 2 ^ 28 * lvalue os) = factor * o + 2 ^ 28 * (factor * lvalue os) := by
        ring
      rw [hexp] at hge ⊢
      have hge' : factor * lvalue os + bn ≤ lvalue as := by omega
      obtain ⟨i1, i2, i3⟩ := ih os bn has hos e2 hge'
      refine ⟨by omega, ?_, ?_⟩
      · intro x hx
        rcases List.mem_cons.1 hx with hx0 | hx
        · rw [hx0]; exact hdlt
        · exact i2 x hx
      · intro h2
        obtain ⟨x, hx1, hx2⟩ := i3 h2
        exact ⟨x, getLast?_cons_of_some _ _ _ hx1, getLast?_cons_of_some _ _ _ hx2⟩

end univang.fmt.detail.Bignum

namespace univang.fmt.detail.Bignum

theorem lvalue_take_lt (l : List Nat) (k : Nat) (h : ∀ d ∈ l, d < 2 ^ 28) :
    lvalue (l.take k) < 2 ^ (28 * k) := by
  have h1 := lvalue_lt (l.take k) (fun d hd => h d (List.mem_of_mem_take hd))
  have h2 : (l.take k).length ≤ k := by simp
  exact lt_of_lt_of_le h1 (Nat.pow_le_pow_right (by norm_num) (by omega))

theorem lvalue_split (l : List Nat) (k : Nat) :
    lvalue l = lvalue (l.take k) + 2 ^ (28 * k) * lvalue (l.drop k) := by
  by_cases hk : k ≤ l.length
  · have := lvalue_take_drop l k
    rwa [List.length_take, Nat.min_eq_left hk] at this
  · have hd0 : l.drop k = [] := List.drop_eq_nil_of_le (by omega)
    have ht0 : l.take k = l := List.take_of_length_le (by omega)
    rw [hd0, ht0]
    simp [lvalue]

theorem lvalue_take_append (l r : List Nat) (k : Nat) (h : l.drop k = [] → lvalue r = 0) :
    lvalue (l.take k ++ r) = lvalue (l.take k) + 2 ^ (28 * k) * lvalue r := by
  rw [lvalue_append]
  by_cases hk : k ≤ l.length
  · rw [List.length_take, Nat.min_eq_left hk]
  · have hd0 : l.drop k = [] := List.drop_eq_nil_of_le (by omega)
    rw [h hd0]
    simp

/-- Comparison of two aligned numbers on their bigits above the exponent difference. -/
theorem aligned_le (l : List Nat) (k x : Nat) (h : ∀ d ∈ l, d < 2 ^ 28)
    (hle : x * 2 ^ (28 * k) ≤ lvalue l) : x ≤ lvalue (l.drop k) := by
  have h1 := lvalue_split l k
  have h2 := lvalue_take_lt l k h
  by_contra hc
  push_neg at hc
  have : (lvalue (l.drop k) + 1) * 2 ^ (28 * k) ≤ x * 2 ^ (28 * k) := Nat.mul_le_mul_right _ hc
  nlinarith

theorem value_of_le_exponent (other : Bignum) (e : Nat) (he : e ≤ other.exponent) :
    other.value = lvalue other.bigits * 2 ^ (28 * (other.exponent - e)) * 2 ^ (28 * e) := by
  unfold value
  rw [mul_assoc, ← pow_add]
  congr 2; omega

theorem SubtractTimes_spec (b other : Bignum) (factor : Nat) (hb : b.wf) (ho : other.wf)
    (he : b.exponent ≤ other.exponent) (hf : factor < 2 ^ 28)
    (hge : factor * other.value ≤ b.value) :
    (SubtractTimes b other factor).value + factor * other.value = b.value ∧
    (SubtractTimes b other factor).wf ∧
    (SubtractTimes b other factor).exponent ≤ b.exponent := by
  unfold SubtractTimes
  by_cases h3 : factor < 3
  · simp only [h3, if_true]
    exact SubtractTimes_small_spec factor b other hb ho hge
  · simp only [h3, if_false]
    have hov := value_of_le_exponent other b.exponent he
    have hpos : 0 < 2 ^ (28 * b.exponent) := Nat.two_pow_pos _
    have hcmp : factor * lvalue other.bigits * 2 ^ (28 * (other.exponent - b.exponent))
        ≤ lvalue b.bigits := by
      rw [hov] at hge
      have : factor * lvalue other.bigits * 2 ^ (28 * (other.exponent - b.exponent))
          * 2 ^ (28 * b.exponent) ≤ lvalue b.bigits * 2 ^ (28 * b.exponent) := by
        have e : factor * (lvalue other.bigits * 2 ^ (28 * (other.exponent - b.exponent))
            * 2 ^ (28 * b.exponent)) = factor * lvalue other.bigits
              * 2 ^ (28 * (other.exponent - b.exponent)) * 2 ^ (28 * b.exponent) := by ring
        rw [e] at hge
        exact hge
      exact Nat.le_of_mul_le_mul_right this hpos
    have hge' := aligned_le b.bigits _ _ hb.1 hcmp
    have hdrop : ∀ d ∈ b.bigits.drop (other.exponent - b.exponent), d < 2 ^ 28 :=
      fun d hd => hb.1 d (List.mem_of_mem_drop hd)
    have htake : ∀ d ∈ b.bigits.take (other.exponent - b.exponent), d < 2 ^ 28 :=
      fun d hd => hb.1 d (List.mem_of_mem_take hd)
    obtain ⟨s1, s2, s3⟩ := SubtractTimes_loop_spec factor _ other.bigits 0 hdrop ho.1 hf
      (by norm_num) (by rw [add_zero]; exact hge')
    generalize SubtractTimes_loop factor (b.bigits.drop (other.exponent - b.exponent))
      other.bigits 0 = r at s1 s2 s3
    have hsplit := lvalue_split b.bigits (other.exponent - b.exponent)
    have hr0 : b.bigits.drop (other.exponent - b.exponent) = [] → lvalue r.1 = 0 := by
      intro h0
      rw [h0] at s1
      simp only [lvalue] at s1
      omega
    have happ := lvalue_take_append b.bigits r.1 _ hr0
    have hdig : ∀ d ∈ b.bigits.take (other.exponent - b.exponent) ++ r.1, d < 2 ^ 28 := by
      intro d hd
      rcases List.mem_append.1 hd with hd | hd
      · exact htake d hd
      · exact s2 d hd
    have hval : value { b with bigits := b.bigits.take (other.exponent - b.exponent) ++ r.1 }
        + factor * other.value = b.value := by
      rw [hov]
      simp only [value]
      rw [happ, hsplit]
      rw [add_zero] at s1
      rw [← s1]
      ring
    by_cases hr2 : r.2 = true
    · simp only [hr2, if_true]
      refine ⟨hval, ⟨hdig, ?_, ?_⟩, le_rfl⟩
      · obtain ⟨x, hx1, hx2⟩ := s3 hr2
        simp only []
        have hne : r.1 ≠ [] := by
          intro hn; rw [hn] at hx2; simp at hx2
        rw [List.getLast?_append_of_ne_nil _ hne, hx2, ← hx1, List.getLast?_drop]
        split_ifs with hl
        · simp
        · exact hb.2.1
      · intro hn
        obtain ⟨x, hx1, hx2⟩ := s3 hr2
        simp only [List.append_eq_nil] at hn
        rw [hn.2] at hx2
        simp at hx2
    · have hr2f : r.2 = false := by simpa using hr2
      simp only [hr2f, Bool.false_eq_true, if_false]
      refine ⟨?_, Clamp_wf _ hdig, ?_⟩
      · rw [Clamp_value]; exact hval
      · exact Clamp_exponent_le _

end univang.fmt.detail.Bignum

namespace univang.fmt.detail.Bignum

/-! ## Bigits as base `2^28` digits of the value -/

theorem lvalue_digit (l : List Nat) (j : Nat) (h : ∀ d ∈ l, d < 2 ^ 28) :
    (lvalue l / 2 ^ (28 * j)) % 2 ^ 28 = l.getD j 0 := by
  induction l generalizing j with
  | nil => simp [lvalue]
  | cons d ds ih =>
    have hd : d < 2 ^ 28 := h d (List.mem_cons_self _ _)
    have hds : ∀ x ∈ ds, x < 2 ^ 28 := fun x hx => h x (List.mem_cons_of_mem _ hx)
    cases j with
    | zero =>
      simp only [lvalue, Nat.mul_zero, pow_zero, Nat.div_one, List.getD_cons_zero]
      omega
    | succ j =>
      simp only [lvalue, List.getD_cons_succ]
      rw [← ih j hds]
      have e : 2 ^ (28 * (j + 1)) = 2 ^ 28 * 2 ^ (28 * j) := by rw [← pow_add]; congr 1; ring
      rw [e, ← Nat.div_div_eq_div_mul]
      have : (d + 2 ^ 28 * lvalue ds) / 2 ^ 28 = lvalue ds := by omega
      rw [this]

theorem BigitOrZero_eq (a : Bignum) (i : Nat) (h : a.wf) :
    a.BigitOrZero i = (a.value / 2 ^ (28 * i)) % 2 ^ 28 := by
  unfold BigitOrZero
  by_cases h1 : i ≥ a.BigitLength
  · simp only [h1, if_true]
    have hv := value_lt_of_wf a h
    have : a.value < 2 ^ (28 * i) :=
      lt_of_lt_of_le hv (Nat.pow_le_pow_right (by norm_num) (by omega))
    rw [Nat.div_eq_of_lt this]
    rfl
  · simp only [h1, if_false]
    by_cases h2 : i < a.exponent
    · simp only [h2, if_true]
      have e : a.value = lvalue a.bigits * 2 ^ (28 * (a.exponent - i - 1)) * 2 ^ 28 * 2 ^ (28 * i) := by
        unfold value
        rw [mul_assoc, mul_assoc, ← pow_add, ← pow_add]
        congr 2; omega
      rw [e, Nat.mul_div_cancel _ (Nat.two_pow_pos _), Nat.mul_mod_left]
    · simp only [h2, if_false]
      unfold RawBigit
      rw [← lvalue_digit a.bigits _ h.1]
      have e : 2 ^ (28 * i) = 2 ^ (28 * a.exponent) * 2 ^ (28 * (i - a.exponent)) := by
        rw [← pow_add]; congr 1; omega
      unfold value
      rw [e, ← Nat.div_div_eq_div_mul, Nat.mul_div_cancel _ (Nat.two_pow_pos _)]

theorem BigitOrZero_lt (a : Bignum) (i : Nat) (h : a.wf) : a.BigitOrZero i < 2 ^ 28 := by
  rw [BigitOrZero_eq a i h]
  exact Nat.mod_lt _ (by norm_num)

/-- The bigits at the indices `lo .. lo + n - 1` make up the value below `2^(28 (lo + n))`. -/
theorem window_value (a : Bignum) (lo n : Nat) (h : a.wf) (hlo : lo ≤ a.exponent) :
    lvalue ((List.range' lo n).map a.BigitOrZero) * 2 ^ (28 * lo) = a.value % 2 ^ (28 * (lo + n)) := by
  induction n with
  | zero =>
    simp only [List.range'_zero, List.map_nil, lvalue, zero_mul, add_zero]
    have e : a.value = lvalue a.bigits * 2 ^ (28 * (a.exponent - lo)) * 2 ^ (28 * lo) := by
      unfold value
      rw [mul_assoc, ← pow_add]
      congr 2; omega
    rw [e, Nat.mul_mod_left]
  | succ n ih =>
    rw [List.range'_concat, List.map_append, lvalue_append, add_mul, ih]
    simp only [List.map_cons, List.map_nil, lvalue, mul_zero, add_zero, List.length_map,
      List.length_range', mul_one]
    rw [BigitOrZero_eq a _ h]
    have e : 28 * (lo + (n + 1)) = 28 * (lo + n) + 28 := by ring
    rw [e, pow_add, Nat.mod_mul]
    have e2 : lo + 1 * n = lo + n := by ring
    have e3 : 2 ^ (28 * (lo + n)) = 2 ^ (28 * n) * 2 ^ (28 * lo) := by
      rw [← pow_add]; congr 1; ring
    rw [e2]
    generalize a.value / 2 ^ (28 * (lo + n)) % 2 ^ 28 = x
    rw [e3]
    ring

theorem window_lt (a : Bignum) (lo n : Nat) (h : a.wf) :
    lvalue ((List.range' lo n).map a.BigitOrZero) < 2 ^ (28 * n) := by
  have := lvalue_lt ((List.range' lo n).map a.BigitOrZero) (by
    intro d hd
    obtain ⟨i, -, rfl⟩ := List.mem_map.1 hd
    exact BigitOrZero_lt a i h)
  simpa using this

theorem window_succ (a : Bignum) (lo n : Nat) :
    lvalue ((List.range' lo (n + 1)).map a.BigitOrZero)
      = lvalue ((List.range' lo n).map a.BigitOrZero) + 2 ^ (28 * n) * a.BigitOrZero (lo + n) := by
  rw [List.range'_concat, List.map_append, lvalue_append]
  simp [lvalue]

theorem window_full (a : Bignum) (lo n : Nat) (h : a.wf) (hlo : lo ≤ a.exponent)
    (hn : a.BigitLength ≤ lo + n) :
    lvalue ((List.range' lo n).map a.BigitOrZero) * 2 ^ (28 * lo) = a.value := by
  rw [window_value a lo n h hlo]
  apply Nat.mod_eq_of_lt
  exact lt_of_lt_of_le (value_lt_of_wf a h) (Nat.pow_le_pow_right (by norm_num) (by omega))

end univang.fmt.detail.Bignum

namespace univang.fmt.detail.Bignum

/-! ## Compare and PlusCompare -/

theorem Compare_loop_spec (a b : Bignum) (lo n : Nat) (ha : a.wf) (hb : b.wf) :
    (lvalue ((List.range' lo n).map a.BigitOrZero) < lvalue ((List.range' lo n).map b.BigitOrZero)
      → Compare_loop a b lo n = -1) ∧
    (lvalue ((List.range' lo n).map a.BigitOrZero) = lvalue ((List.range' lo n).map b.BigitOrZero)
      → Compare_loop a b lo n = 0) ∧
    (lvalue ((List.range' lo n).map a.BigitOrZero) > lvalue ((List.range' lo n).map b.BigitOrZero)
      → Compare_loop a b lo n = 1) := by
  induction n with
  | zero => simp [Compare_loop, lvalue]
  | succ n ih =>
    rw [window_succ, window_succ]
    have h1 := window_lt a lo n ha
    have h2 := window_lt b lo n hb
    have hp : 0 < 2 ^ (28 * n) := Nat.two_pow_pos _
    generalize lvalue ((List.range' lo n).map a.BigitOrZero) = wa at ih h1 ⊢
    generalize lvalue ((List.range' lo n).map b.BigitOrZero) = wb at ih h2 ⊢
    simp only [Compare_loop]
    generalize a.BigitOrZero (lo + n) = da
    generalize b.BigitOrZero (lo + n) = db
    generalize 2 ^ (28 * n) = P at h1 h2 hp ⊢
    by_cases c1 : da < db
    · simp only [c1, if_true]
      have : P * (da + 1) ≤ P * db := Nat.mul_le_mul_left _ c1
      have e : P * (da + 1) = P * da + P := by ring
      refine ⟨fun _ => trivial, fun h => ?_, fun h => ?_⟩ <;> (exfalso; omega)
    · simp only [c1, if_false]
      by_cases c2 : da > db
      · simp only [c2, if_true]
        have : P * (db + 1) ≤ P * da := Nat.mul_le_mul_left _ c2
        have e : P * (db + 1) = P * db + P := by ring
        refine ⟨fun h => ?_, fun h => ?_, fun _ => trivial⟩ <;> (exfalso; omega)
      · simp only [c2, if_false]
        have e : da = db := by omega
        subst e
        obtain ⟨i1, i2, i3⟩ := ih
        exact ⟨fun h => i1 (by omega), fun h => i2 (by omega), fun h => i3 (by omega)⟩

theorem exponent_le_BigitLength (a : Bignum) : a.exponent ≤ a.BigitLength := by
  unfold BigitLength; omega

theorem value_lt_of_BigitLength_lt (a b : Bignum) (ha : a.wf) (hb : b.wf)
    (h : a.BigitLength < b.BigitLength) : a.value < b.value := by
  have hne : b.bigits ≠ [] := by
    intro hn
    have := hb.2.2 hn
    unfold BigitLength at h
    rw [hn] at h
    simp at h
    omega
  have h1 := value_lt_of_wf a ha
  have h2 := (value_bounds b hb hne).1
  have : 2 ^ (28 * a.BigitLength) ≤ 2 ^ (28 * (b.BigitLength - 1)) :=
    Nat.pow_le_pow_right (by norm_num) (by omega)
  omega

/-- Static member `Compare(a, b)` returns the sign of `a - b`. -/
theorem Compare_spec (a b : Bignum) (ha : a.wf) (hb : b.wf) :
    (a.value < b.value → Compare a b = -1) ∧ (a.value = b.value → Compare a b = 0) ∧
    (a.value > b.value → Compare a b = 1) := by
  unfold Compare
  simp only []
  by_cases c1 : a.BigitLength < b.BigitLength
  · simp only [c1, if_true]
    have := value_lt_of_BigitLength_lt a b ha hb c1
    refine ⟨fun _ => trivial, fun h => ?_, fun h => ?_⟩ <;> (exfalso; omega)
  · simp only [c1, if_false]
    by_cases c2 : a.BigitLength > b.BigitLength
    · simp only [c2, if_true]
      have := value_lt_of_BigitLength_lt b a hb ha c2
      refine ⟨fun h => ?_, fun h => ?_, fun _ => trivial⟩ <;> (exfalso; omega)
    · simp only [c2, if_false]
      have hl : a.BigitLength = b.BigitLength := by omega
      have ea := exponent_le_BigitLength a
      have eb := exponent_le_BigitLength b
      have wa := window_full a (min a.exponent b.exponent)
        (a.BigitLength - min a.exponent b.exponent) ha (Nat.min_le_left _ _) (by omega)
      have wb := window_full b (min a.exponent b.exponent)
        (a.BigitLength - min a.exponent b.exponent) hb (Nat.min_le_right _ _) (by omega)
      obtain ⟨i1, i2, i3⟩ := Compare_loop_spec a b (min a.exponent b.exponent)
        (a.BigitLength - min a.exponent b.exponent) ha hb
      have hp : 0 < 2 ^ (28 * min a.exponent b.exponent) := Nat.two_pow_pos _
      rw [← wa, ← wb]
      refine ⟨fun h => i1 (Nat.lt_of_mul_lt_mul_right h), fun h => i2 (Nat.eq_of_mul_eq_mul_right hp h),
        fun h => i3 (Nat.lt_of_mul_lt_mul_right h)⟩

theorem LessEqual_iff (a b : Bignum) (ha : a.wf) (hb : b.wf) :
    LessEqual a b = true ↔ a.value ≤ b.value := by
  obtain ⟨i1, i2, i3⟩ := Compare_spec a b ha hb
  unfold LessEqual
  rcases Nat.lt_trichotomy a.value b.value with h | h | h
  · rw [i1 h]; simp; omega
  · rw [i2 h]; simp; omega
  · rw [i3 h]; simp; omega

theorem Less_iff (a b : Bignum) (ha : a.wf) (hb : b.wf) :
    Less a b = true ↔ a.value < b.value := by
  obtain ⟨i1, i2, i3⟩ := Compare_spec a b ha hb
  unfold Less
  rcases Nat.lt_trichotomy a.value b.value with h | h | h
  · rw [i1 h]; simp; omega
  · rw [i2 h]; simp; omega
  · rw [i3 h]; simp; omega

theorem Equal_iff (a b : Bignum) (ha : a.wf) (hb : b.wf) :
    Equal a b = true ↔ a.value = b.value := by
  obtain ⟨i1, i2, i3⟩ := Compare_spec a b ha hb
  unfold Equal
  rcases Nat.lt_trichotomy a.value b.value with h | h | h
  · rw [i1 h]; simp; omega
  · rw [i2 h]; simp; omega
  · rw [i3 h]; simp; omega

end univang.fmt.detail.Bignum

namespace univang.fmt.detail.Bignum

theorem PlusCompare_loop_spec (a b c : Bignum) (lo n beta : Nat) (ha : a.wf) (hb : b.wf)
    (hc : c.wf) (hbeta : beta ≤ 1) :
    (lvalue ((List.range' lo n).map a.BigitOrZero) + lvalue ((List.range' lo n).map b.BigitOrZero)
        < lvalue ((List.range' lo n).map c.BigitOrZero) + beta * 2 ^ (28 * n)
      → PlusCompare_loop a b c lo n (beta * 2 ^ 28) = -1) ∧
    (lvalue ((List.range' lo n).map a.BigitOrZero) + lvalue ((List.range' lo n).map b.BigitOrZero)
        = lvalue ((List.range' lo n).map c.BigitOrZero) + beta * 2 ^ (28 * n)
      → PlusCompare_loop a b c lo n (beta * 2 ^ 28) = 0) ∧
    (lvalue ((List.range' lo n).map a.BigitOrZero) + lvalue ((List.range' lo n).map b.BigitOrZero)
        > lvalue ((List.range' lo n).map c.BigitOrZero) + beta * 2 ^ (28 * n)
      → PlusCompare_loop a b c lo n (beta * 2 ^ 28) = 1) := by
  induction n generalizing beta with
  | zero =>
    simp only [List.range'_zero, List.map_nil, lvalue, mul_zero, pow_zero, mul_one, zero_add,
      PlusCompare_loop]
    have : beta = 0 ∨ beta = 1 := by omega
    rcases this with h | h <;> subst h <;> simp
  | succ n ih =>
    rw [window_succ, window_succ, window_succ]
    have h1 := window_lt a lo n ha
    have h2 := window_lt b lo n hb
    have h3 := window_lt c lo n hc
    have hp : 0 < 2 ^ (28 * n) := Nat.two_pow_pos _
    have da := BigitOrZero_lt a (lo + n) ha
    have db := BigitOrZero_lt b (lo + n) hb
    have dc := BigitOrZero_lt c (lo + n) hc
    have e28 : 2 ^ (28 * (n + 1)) = 2 ^ (28 * n) * 2 ^ 28 := by rw [← pow_add]; congr 1
    rw [e28]
    simp only [PlusCompare_loop]
    generalize lvalue ((List.range' lo n).map a.BigitOrZero) = wa at ih h1 ⊢
    generalize lvalue ((List.range' lo n).map b.BigitOrZero) = wb at ih h2 ⊢
    generalize lvalue ((List.range' lo n).map c.BigitOrZero) = wc at ih h3 ⊢
    generalize a.BigitOrZero (lo + n) = xa at da ⊢
    generalize b.BigitOrZero (lo + n) = xb at db ⊢
    generalize c.BigitOrZero (lo + n) = xc at dc ⊢
    generalize hP : 2 ^ (28 * n) = P at h1 h2 h3 hp ih ⊢
    have hs : (xa + xb) % 2 ^ 32 = xa + xb := Nat.mod_eq_of_lt (by omega)
    have hcb : (xc + beta * 2 ^ 28) % 2 ^ 32 = xc + beta * 2 ^ 28 := Nat.mod_eq_of_lt (by omega)
    rw [hs, hcb]
    have ex : beta * (P * 2 ^ 28) = P * (beta * 2 ^ 28) := by ring
    rw [ex]
    by_cases c1 : xa + xb > xc + beta * 2 ^ 28
    · simp only [c1, if_true]
      have : P * (xc + beta * 2 ^ 28 + 1) ≤ P * (xa + xb) := Nat.mul_le_mul_left _ c1
      have e1 : P * (xc + beta * 2 ^ 28 + 1) = P * xc + P * (beta * 2 ^ 28) + P := by ring
      have e2 : P * (xa + xb) = P * xa + P * xb := by ring
      refine ⟨fun h => ?_, fun h => ?_, fun _ => trivial⟩ <;> (exfalso; omega)
    · simp only [c1, if_false]
      have hbw : (xc + beta * 2 ^ 28 + 2 ^ 32 - (xa + xb)) % 2 ^ 32 = xc + beta * 2 ^ 28 - (xa + xb) := by
        omega
      rw [hbw]
      by_cases c2 : xc + beta * 2 ^ 28 - (xa + xb) > 1
      · simp only [c2, if_true]
        have : P * (xa + xb + 2) ≤ P * (xc + beta * 2 ^ 28) := Nat.mul_le_mul_left _ (by omega)
        have e1 : P * (xa + xb + 2) = P * xa + P * xb + 2 * P := by ring
        have e2 : P * (xc + beta * 2 ^ 28) = P * xc + P * (beta * 2 ^ 28) := by ring
        refine ⟨fun _ => trivial, fun h => ?_, fun h => ?_⟩ <;> (exfalso; omega)
      · simp only [c2, if_false]
        obtain ⟨gam, hg⟩ : ∃ gam, gam = xc + beta * 2 ^ 28 - (xa + xb) := ⟨_, rfl⟩
        rw [← hg]
        have hg1 : gam ≤ 1 := by omega
        have hsh : (gam <<< 28) % 2 ^ 32 = gam * 2 ^ 28 := by
          rw [Nat.shiftLeft_eq]
          exact Nat.mod_eq_of_lt (by omega)
        rw [hsh]
        obtain ⟨i1, i2, i3⟩ := ih gam hg1
        have e0 : xc + beta * 2 ^ 28 = xa + xb + gam := by omega
        have e1 : P * (xc + beta * 2 ^ 28) = P * xa + P * xb + gam * P := by rw [e0]; ring
        have e2 : P * (xc + beta * 2 ^ 28) = P * xc + P * (beta * 2 ^ 28) := by ring
        exact ⟨fun h => i1 (by omega), fun h => i2 (by omega), fun h => i3 (by omega)⟩

theorem value_ge_of_BigitLength (a : Bignum) (ha : a.wf) (k : Nat) (h : k < a.BigitLength) :
    2 ^ (28 * k) ≤ a.value := by
  have hne : a.bigits ≠ [] := by
    intro hn
    have := ha.2.2 hn
    unfold BigitLength at h
    rw [hn] at h
    simp at h
    omega
  have h2 := (value_bounds a ha hne).1
  have : 2 ^ (28 * k) ≤ 2 ^ (28 * (a.BigitLength - 1)) :=
    Nat.pow_le_pow_right (by norm_num) (by omega)
  omega

theorem PlusCompare_ordered_spec (a b c : Bignum) (ha : a.wf) (hb : b.wf) (hc : c.wf)
    (hab : b.BigitLength ≤ a.BigitLength) :
    (a.value + b.value < c.value → PlusCompare_ordered a b c = -1) ∧
    (a.value + b.value = c.value → PlusCompare_ordered a b c = 0) ∧
    (a.value + b.value > c.value → PlusCompare_ordered a b c = 1) := by
  unfold PlusCompare_ordered
  have va := value_lt_of_wf a ha
  have vb := value_lt_of_wf b hb
  have vc := value_lt_of_wf c hc
  by_cases c1 : a.BigitLength + 1 < c.BigitLength
  · simp only [c1, if_true]
    have h1 := value_ge_of_BigitLength c hc (a.BigitLength + 1) c1
    have h2 : 2 ^ (28 * b.BigitLength) ≤ 2 ^ (28 * a.BigitLength) :=
      Nat.pow_le_pow_right (by norm_num) (by omega)
    have e : 2 ^ (28 * (a.BigitLength + 1)) = 2 ^ (28 * a.BigitLength) * 2 ^ 28 := by
      rw [← pow_add]; congr 1
    have hp : 0 < 2 ^ (28 * a.BigitLength) := Nat.two_pow_pos _
    refine ⟨fun _ => trivial, fun h => ?_, fun h => ?_⟩ <;> (exfalso; omega)
  · simp only [c1, if_false]
    by_cases c2 : a.BigitLength > c.BigitLength
    · simp only [c2, if_true]
      have h1 := value_ge_of_BigitLength a ha c.BigitLength c2
      refine ⟨fun h => ?_, fun h => ?_, fun _ => trivial⟩ <;> (exfalso; omega)
    · simp only [c2, if_false]
      by_cases c3 : a.exponent ≥ b.BigitLength ∧ a.BigitLength < c.BigitLength
      · simp only [c3, and_self, if_true]
        have h1 := value_ge_of_BigitLength c hc a.BigitLength c3.2
        have h2 : 2 ^ (28 * b.BigitLength) ≤ 2 ^ (28 * a.exponent) :=
          Nat.pow_le_pow_right (by norm_num) (by omega)
        have h3 := lvalue_lt a.bigits ha.1
        have h4 : a.value + 2 ^ (28 * a.exponent) ≤ 2 ^ (28 * a.BigitLength) := by
          unfold value BigitLength
          have e : 2 ^ (28 * (a.bigits.length + a.exponent))
              = 2 ^ (28 * a.bigits.length) * 2 ^ (28 * a.exponent) := by
            rw [← pow_add]; congr 1; ring
          rw [e]
          have : (lvalue a.bigits + 1) * 2 ^ (28 * a.exponent)
              ≤ 2 ^ (28 * a.bigits.length) * 2 ^ (28 * a.exponent) := Nat.mul_le_mul_right _ h3
          have e2 : (lvalue a.bigits + 1) * 2 ^ (28 * a.exponent)
              = lvalue a.bigits * 2 ^ (28 * a.exponent) + 2 ^ (28 * a.exponent) := by ring
          omega
        refine ⟨fun _ => trivial, fun h => ?_, fun h => ?_⟩ <;> (exfalso; omega)
      · simp only [c3, if_false]
        have ea := exponent_le_BigitLength a
        have eb := exponent_le_BigitLength b
        have ec := exponent_le_BigitLength c
        have hlo_a : min (min a.exponent b.exponent) c.exponent ≤ a.exponent := by omega
        have hlo_b : min (min a.exponent b.exponent) c.exponent ≤ b.exponent := by omega
        have hlo_c : min (min a.exponent b.exponent) c.exponent ≤ c.exponent := by omega
        generalize min (min a.exponent b.exponent) c.exponent = lo at hlo_a hlo_b hlo_c ⊢
        have wa := window_full a lo (c.BigitLength - lo) ha hlo_a (by omega)
        have wb := window_full b lo (c.BigitLength - lo) hb hlo_b (by omega)
        have wc := window_full c lo (c.BigitLength - lo) hc hlo_c (by omega)
        obtain ⟨i1, i2, i3⟩ := PlusCompare_loop_spec a b c lo (c.BigitLength - lo) 0 ha hb hc
          (by norm_num)
        simp only [zero_mul, add_zero] at i1 i2 i3
        have hp : 0 < 2 ^ (28 * lo) := Nat.two_pow_pos _
        rw [← wa, ← wb, ← wc, ← add_mul]
        refine ⟨fun h => i1 (Nat.lt_of_mul_lt_mul_right h),
          fun h => i2 (Nat.eq_of_mul_eq_mul_right hp h),
          fun h => i3 (Nat.lt_of_mul_lt_mul_right h)⟩

/-- Static member `PlusCompare(a, b, c)` returns the sign of `a + b - c`. -/
theorem PlusCompare_spec (a b c : Bignum) (ha : a.wf) (hb : b.wf) (hc : c.wf) :
    (a.value + b.value < c.value → PlusCompare a b c = -1) ∧
    (a.value + b.value = c.value → PlusCompare a b c = 0) ∧
    (a.value + b.value > c.value → PlusCompare a b c = 1) := by
  unfold PlusCompare
  by_cases h : a.BigitLength < b.BigitLength
  · simp only [h, if_true]
    have := PlusCompare_ordered_spec b a c hb ha hc (by omega)
    rw [add_comm b.value a.value] at this
    exact this
  · simp only [h, if_false]
    exact PlusCompare_ordered_spec a b c ha hb hc (by omega)

end univang.fmt.detail.Bignum

namespace univang.fmt.detail.Bignum

/-! ## DivideModuloIntBignum -/

theorem lvalue_top_bigit (l : List Nat) (h : ∀ d ∈ l, d < 2 ^ 28) (hne : l ≠ []) :
    l.getD (l.length - 1) 0 * 2 ^ (28 * (l.length - 1)) ≤ lvalue l ∧
    lvalue l < (l.getD (l.length - 1) 0 + 1) * 2 ^ (28 * (l.length - 1)) := by
  have h1 := lvalue_digit l (l.length - 1) h
  have h2 := lvalue_lt l h
  have hl : 1 ≤ l.length := Nat.one_le_iff_ne_zero.2 (fun h0 => hne (List.length_eq_zero.1 h0))
  have e : 2 ^ (28 * l.length) = 2 ^ (28 * (l.length - 1)) * 2 ^ 28 := by
    rw [← pow_add]; congr 1; omega
  have hp : 0 < 2 ^ (28 * (l.length - 1)) := Nat.two_pow_pos _
  have h3 : lvalue l / 2 ^ (28 * (l.length - 1)) < 2 ^ 28 := by
    rw [Nat.div_lt_iff_lt_mul hp, mul_comm, ← e]; exact h2
  rw [Nat.mod_eq_of_lt h3] at h1
  rw [← h1]
  constructor
  · exact Nat.div_mul_le_self _ _
  · rw [mul_comm]
    exact Nat.lt_mul_div_succ _ hp

theorem top_bigit_bounds (a : Bignum) (ha : a.wf) (hne : a.bigits ≠ []) :
    a.RawBigit (a.bigits.length - 1) * 2 ^ (28 * (a.BigitLength - 1)) ≤ a.value ∧
    a.value < (a.RawBigit (a.bigits.length - 1) + 1) * 2 ^ (28 * (a.BigitLength - 1)) ∧
    1 ≤ a.RawBigit (a.bigits.length - 1) ∧ a.RawBigit (a.bigits.length - 1) < 2 ^ 28 := by
  obtain ⟨h1, h2⟩ := lvalue_top_bigit a.bigits ha.1 hne
  have hl : 1 ≤ a.bigits.length := Nat.one_le_iff_ne_zero.2 (fun h0 => hne (List.length_eq_zero.1 h0))
  have e : 2 ^ (28 * (a.BigitLength - 1)) = 2 ^ (28 * (a.bigits.length - 1)) * 2 ^ (28 * a.exponent) := by
    rw [← pow_add]; congr 1; unfold BigitLength; omega
  unfold RawBigit value
  rw [e]
  have hlast : a.bigits.getLast? = some (a.bigits.getD (a.bigits.length - 1) 0) := by
    rw [List.getLast?_eq_getElem?, List.getD_eq_getElem?_getD]
    have : a.bigits.length - 1 < a.bigits.length := by omega
    rw [List.getElem?_eq_getElem this]
    rfl
  have hmem : a.bigits.getD (a.bigits.length - 1) 0 ∈ a.bigits := by
    rw [List.getD_eq_getElem?_getD]
    have : a.bigits.length - 1 < a.bigits.length := by omega
    rw [List.getElem?_eq_getElem this]
    exact List.getElem_mem _
  refine ⟨?_, ?_, ?_, ha.1 _ hmem⟩
  · rw [← mul_assoc]; exact Nat.mul_le_mul_right _ h1
  · rw [← mul_assoc]; exact Nat.mul_lt_mul_of_pos_right h2 (Nat.two_pow_pos _)
  · by_contra hc
    have h0 : a.bigits.getD (a.bigits.length - 1) 0 = 0 := by omega
    rw [h0] at hlast
    exact ha.2.1 hlast

theorem bigits_ne_nil_of_pos (a : Bignum) (h : 0 < a.value) : a.bigits ≠ [] := by
  intro hn
  unfold value at h
  rw [hn] at h
  simp [lvalue] at h

theorem value_lt_pow_of_BigitLength_le (a : Bignum) (ha : a.wf) (k : Nat) (h : a.BigitLength ≤ k) :
    a.value < 2 ^ (28 * k) :=
  lt_of_lt_of_le (value_lt_of_wf a ha) (Nat.pow_le_pow_right (by norm_num) (by omega))

theorem DivideModulo_loop1_spec (other : Bignum) (ho : other.wf) (hpos : 0 < other.value)
    (fuel : Nat) (b : Bignum) (acc : Nat) (hb : b.wf) (he : b.exponent ≤ other.exponent)
    (hfuel : b.value < fuel) (hq : acc + b.value / other.value < 2 ^ 16)
    (hinv : other.BigitLength ≤ b.BigitLength
      ∨ (2 ^ 28 - 1) * 2 ^ (28 * (other.BigitLength - 1)) < other.value) :
    ∃ r acc', DivideModulo_loop1 other fuel b acc = some (r, acc') ∧ r.wf ∧
      r.exponent ≤ other.exponent ∧ r.BigitLength ≤ other.BigitLength ∧
      acc' * other.value + r.value = acc * other.value + b.value ∧
      (other.BigitLength ≤ r.BigitLength
        ∨ (2 ^ 28 - 1) * 2 ^ (28 * (other.BigitLength - 1)) < other.value) := by
  induction fuel generalizing b acc with
  | zero => exact absurd hfuel (Nat.not_lt_zero _)
  | succ fuel ih =>
    rw [DivideModulo_loop1]
    by_cases hlen : b.BigitLength > other.BigitLength
    · simp only [hlen, if_true]
      have hone : other.bigits ≠ [] := bigits_ne_nil_of_pos other hpos
      have hbne : b.bigits ≠ [] := by
        intro hn
        have := hb.2.2 hn
        unfold BigitLength at hlen
        rw [hn] at hlen
        simp at hlen
        omega
      obtain ⟨t1, t2, t3, t4⟩ := top_bigit_bounds b hb hbne
      generalize b.RawBigit (b.bigits.length - 1) = t at t1 t2 t3 t4 ⊢
      have hov := value_lt_pow_of_BigitLength_le other ho (b.BigitLength - 1) (by omega)
      have hge : t * other.value ≤ b.value := by
        have : t * other.value ≤ t * 2 ^ (28 * (b.BigitLength - 1)) :=
          Nat.mul_le_mul_left _ (le_of_lt hov)
        omega
      obtain ⟨s1, s2, s3⟩ := SubtractTimes_spec b other t hb ho he t4 hge
      have hdec : (SubtractTimes b other t).value < fuel := by
        have : 1 * other.value ≤ t * other.value := Nat.mul_le_mul_right _ t3
        omega
      have hdiv : b.value / other.value = t + (SubtractTimes b other t).value / other.value := by
        rw [← s1, add_comm, mul_comm t, Nat.mul_add_div hpos]
      have hq0 : 0 ≤ (SubtractTimes b other t).value / other.value := Nat.zero_le _
      rw [hdiv] at hq
      generalize (SubtractTimes b other t).value / other.value = q1 at hq hq0 hdiv
      have ht16 : t % 2 ^ 16 = t := Nat.mod_eq_of_lt (by omega)
      have hacc : (acc + t % 2 ^ 16) % 2 ^ 16 = acc + t := by
        rw [ht16]; exact Nat.mod_eq_of_lt (by omega)
      rw [hacc]
      have hinv' : other.BigitLength ≤ (SubtractTimes b other t).BigitLength
          ∨ (2 ^ 28 - 1) * 2 ^ (28 * (other.BigitLength - 1)) < other.value := by
        by_cases hc : other.BigitLength ≤ (SubtractTimes b other t).BigitLength
        · exact Or.inl hc
        · right
          have hr := value_lt_pow_of_BigitLength_le _ s2 (other.BigitLength - 1) (by omega)
          have hL : 1 ≤ other.BigitLength := by
            unfold BigitLength
            have : 1 ≤ other.bigits.length :=
              Nat.one_le_iff_ne_zero.2 (fun h0 => hone (List.length_eq_zero.1 h0))
            omega
          have e1 : 2 ^ (28 * other.BigitLength) = 2 ^ 28 * 2 ^ (28 * (other.BigitLength - 1)) := by
            rw [← pow_add]; congr 1; omega
          have h5 : 2 ^ (28 * other.BigitLength) ≤ 2 ^ (28 * (b.BigitLength - 1)) :=
            Nat.pow_le_pow_right (by norm_num) (by omega)
          generalize 2 ^ (28 * (other.BigitLength - 1)) = P at hr e1 ⊢
          -- t * (other + P) > t * 2^28 * P
          have h6 : t * (2 ^ 28 * P) < t * (other.value + P) := by
            have a1 : t * (2 ^ 28 * P) ≤ t * 2 ^ (28 * (b.BigitLength - 1)) := by
              rw [← e1]; exact Nat.mul_le_mul_left _ h5
            have a2 : t * (other.value + P) = t * other.value + t * P := by ring
            have a3 : 1 * P ≤ t * P := Nat.mul_le_mul_right _ t3
            omega
          have h7 := Nat.lt_of_mul_lt_mul_left h6
          omega
      have hq' : acc + t + (SubtractTimes b other t).value / other.value < 2 ^ 16 := by
        have : b.value / other.value = t + (SubtractTimes b other t).value / other.value := by
          rw [← s1, add_comm, mul_comm t, Nat.mul_add_div hpos]
        rw [this] at hdiv
        omega
      obtain ⟨r, acc', i1, i2, i3, i4, i5, i6⟩ := ih (SubtractTimes b other t) (acc + t) s2
        (le_trans s3 he) hdec hq' hinv'
      refine ⟨r, acc', i1, i2, i3, i4, ?_, i6⟩
      rw [i5, ← s1]
      ring
    · simp only [hlen, if_false]
      refine ⟨b, acc, rfl, hb, he, by omega, rfl, hinv⟩

theorem DivideModulo_loop2_spec (other : Bignum) (ho : other.wf) (hpos : 0 < other.value)
    (fuel : Nat) (b : Bignum) (acc : Nat) (hb : b.wf)
    (hfuel : b.value < fuel) (hq : acc + b.value / other.value < 2 ^ 16) :
    ∃ r acc', DivideModulo_loop2 other fuel b acc = some (r, acc') ∧ r.wf ∧
      r.value < other.value ∧
      acc' * other.value + r.value = acc * other.value + b.value := by
  induction fuel generalizing b acc with
  | zero => exact absurd hfuel (Nat.not_lt_zero _)
  | succ fuel ih =>
    rw [DivideModulo_loop2]
    by_cases hle : LessEqual other b = true
    · simp only [hle, if_true]
      have hge : other.value ≤ b.value := (LessEqual_iff other b ho hb).1 hle
      obtain ⟨s1, s2⟩ := SubtractBignum_spec b other hb ho hge
      have hdiv : b.value / other.value = 1 + (b.SubtractBignum other).value / other.value := by
        rw [← s1, Nat.add_div_right _ hpos]
        omega
      rw [hdiv] at hq
      clear hdiv
      have hq' : acc + 1 + (b.SubtractBignum other).value / other.value < 2 ^ 16 := by omega
      generalize (b.SubtractBignum other).value / other.value = q1 at hq
      have hacc : (acc + 1) % 2 ^ 16 = acc + 1 := Nat.mod_eq_of_lt (by omega)
      rw [hacc]
      obtain ⟨r, acc', i1, i2, i3, i4⟩ := ih (b.SubtractBignum other) (acc + 1) s2 (by omega)
        hq'
      refine ⟨r, acc', i1, i2, i3, ?_⟩
      rw [i4, ← s1]
      ring
    · simp only [hle, if_false]
      have hlt : ¬ other.value ≤ b.value := fun h => hle ((LessEqual_iff other b ho hb).2 h)
      exact ⟨b, acc, rfl, hb, by omega, rfl⟩

end univang.fmt.detail.Bignum

namespace univang.fmt.detail.Bignum

theorem lvalue_set (l : List Nat) (j x : Nat) (hj : j < l.length) :
    lvalue (l.set j x) + 2 ^ (28 * j) * l.getD j 0 = lvalue l + 2 ^ (28 * j) * x := by
  induction l generalizing j with
  | nil => simp at hj
  | cons d ds ih =>
    cases j with
    | zero => simp [lvalue]; omega
    | succ j =>
      simp only [List.set_cons_succ, lvalue, List.getD_cons_succ]
      have := ih j (by simpa using hj)
      have e : 2 ^ (28 * (j + 1)) = 2 ^ 28 * 2 ^ (28 * j) := by rw [← pow_add]; congr 1; ring
      rw [e]
      generalize 2 ^ (28 * j) = P at this ⊢
      have e1 : 2 ^ 28 * P * ds.getD j 0 = 2 ^ 28 * (P * ds.getD j 0) := by ring
      have e2 : 2 ^ 28 * P * x = 2 ^ 28 * (P * x) := by ring
      rw [e1, e2]
      omega

theorem div_mod_of_eq (v o acc r : Nat) (h1 : acc * o + r = v) (h2 : r < o) :
    acc = v / o ∧ r = v % o := by
  have ho : 0 < o := by omega
  subst h1
  constructor
  · rw [mul_comm, Nat.mul_add_div ho, Nat.div_eq_of_lt h2]; rfl
  · rw [mul_comm, Nat.mul_add_mod, Nat.mod_eq_of_lt h2]

theorem quotient_le (v o acc r : Nat) (ho : 0 < o) (h1 : acc * o + r = v) : acc ≤ v / o := by
  subst h1
  rw [mul_comm, Nat.mul_add_div ho]
  exact Nat.le_add_right _ _

theorem BigitLength_pos_of_ne_nil (a : Bignum) (h : a.bigits ≠ []) : 1 ≤ a.BigitLength := by
  unfold BigitLength
  have : 1 ≤ a.bigits.length := Nat.one_le_iff_ne_zero.2 (fun h0 => h (List.length_eq_zero.1 h0))
  omega

theorem bigits_ne_nil_of_BigitLength (a : Bignum) (ha : a.wf) (h : 1 ≤ a.BigitLength) :
    a.bigits ≠ [] := by
  intro hn
  have := ha.2.2 hn
  unfold BigitLength at h
  rw [hn] at h
  simp at h
  omega

theorem RawBigit_top_lt (a : Bignum) (ha : a.wf) : a.RawBigit (a.bigits.length - 1) < 2 ^ 28 := by
  by_cases hne : a.bigits = []
  · unfold RawBigit; rw [hne]; simp
  · exact (top_bigit_bounds a ha hne).2.2.2

/-- The one-bigit branch of `DivideModuloIntBignum`. -/
theorem DivideModulo_single (r1 other : Bignum) (h1 : r1.wf) (ho : other.wf)
    (hpos : 0 < other.value) (hlen : other.bigits.length = 1)
    (hBL : r1.BigitLength = other.BigitLength) (top : Nat)
    (htopdef : top = (r1.RawBigit (r1.bigits.length - 1) + 2 ^ 32
          - (other.RawBigit (other.bigits.length - 1)
              * (r1.RawBigit (r1.bigits.length - 1) / other.RawBigit (other.bigits.length - 1)))
            % 2 ^ 32) % 2 ^ 32) :
    (Clamp { r1 with bigits := r1.bigits.set (r1.bigits.length - 1) top }).value
      + (r1.RawBigit (r1.bigits.length - 1) / other.RawBigit (other.bigits.length - 1))
          * other.value = r1.value ∧
    (Clamp { r1 with bigits := r1.bigits.set (r1.bigits.length - 1) top }).value < other.value ∧
    (Clamp { r1 with bigits := r1.bigits.set (r1.bigits.length - 1) top }).wf := by
  have hone : other.bigits ≠ [] := bigits_ne_nil_of_pos other hpos
  have hr1ne : r1.bigits ≠ [] :=
    bigits_ne_nil_of_BigitLength r1 h1 (by rw [hBL]; exact BigitLength_pos_of_ne_nil other hone)
  obtain ⟨t1, t2, t3, t4⟩ := top_bigit_bounds r1 h1 hr1ne
  obtain ⟨o1, o2, o3, o4⟩ := top_bigit_bounds other ho hone
  have hl1 : 1 ≤ r1.bigits.length :=
    Nat.one_le_iff_ne_zero.2 (fun h0 => hr1ne (List.length_eq_zero.1 h0))
  have hset := lvalue_set r1.bigits (r1.bigits.length - 1) top (by omega)
  -- the value of `other` is its only bigit, shifted
  have hov : other.value = other.RawBigit (other.bigits.length - 1)
      * 2 ^ (28 * (other.BigitLength - 1)) := by
    unfold value RawBigit BigitLength
    rw [hlen]
    obtain ⟨x, hx⟩ := List.length_eq_one.1 hlen
    rw [hx]
    simp [lvalue]
  have hdm := Nat.div_add_mod (r1.RawBigit (r1.bigits.length - 1))
    (other.RawBigit (other.bigits.length - 1))
  have hmlt := Nat.mod_lt (r1.RawBigit (r1.bigits.length - 1)) o3
  change lvalue _ + 2 ^ (28 * (r1.bigits.length - 1)) * r1.RawBigit (r1.bigits.length - 1) = _ at hset
  generalize r1.RawBigit (r1.bigits.length - 1) = t at *
  generalize other.RawBigit (other.bigits.length - 1) = ot at *
  generalize hqd : t / ot = q at *
  generalize hmd : t % ot = m at *
  have hqle : ot * q ≤ t := by omega
  have htop : (t + 2 ^ 32 - (ot * q) % 2 ^ 32) % 2 ^ 32 = m := by
    have : (ot * q) % 2 ^ 32 = ot * q := Nat.mod_eq_of_lt (by omega)
    rw [this]
    omega
  rw [htop] at htopdef
  subst htopdef
  have hdig : ∀ d ∈ r1.bigits.set (r1.bigits.length - 1) top, d < 2 ^ 28 := by
    intro d hd
    rcases List.mem_or_eq_of_mem_set hd with hd | hd
    · exact h1.1 d hd
    · rw [hd]; omega
  refine ⟨?_, ?_, Clamp_wf _ hdig⟩
  all_goals rw [Clamp_value]
  all_goals rw [hov]
  all_goals simp only [value] at t1 t2 ⊢
  all_goals rw [hBL] at t1 t2
  all_goals
    have e : 2 ^ (28 * (other.BigitLength - 1))
        = 2 ^ (28 * (r1.bigits.length - 1)) * 2 ^ (28 * r1.exponent) := by
      rw [← pow_add]; congr 1; rw [← hBL]; unfold BigitLength; omega
  all_goals rw [e] at t1 t2 ⊢
  all_goals
    have hpE : 0 < 2 ^ (28 * r1.exponent) := Nat.two_pow_pos _
  all_goals generalize 2 ^ (28 * r1.exponent) = E at *
  all_goals generalize 2 ^ (28 * (r1.bigits.length - 1)) = P at *
  all_goals generalize lvalue (r1.bigits.set (r1.bigits.length - 1) top) = ls at *
  all_goals generalize lvalue r1.bigits = lv at *
  · have e1 : q * (ot * (P * E)) = (P * (ot * q)) * E := by ring
    rw [e1, ← add_mul]
    congr 1
    have e2 : P * t = P * (ot * q) + P * top := by rw [← hdm]; ring
    omega
  · have e1 : ot * (P * E) = (P * ot) * E := by ring
    rw [e1]
    apply Nat.mul_lt_mul_of_pos_right _ hpE
    have h5 : lv < P * t + P := by
      have e5 : (t + 1) * (P * E) = (P * t + P) * E := by ring
      rw [e5] at t2
      exact Nat.lt_of_mul_lt_mul_right t2
    have h6 : P * (top + 1) ≤ P * ot := Nat.mul_le_mul_left _ hmlt
    have e4 : P * (top + 1) = P * top + P := by ring
    omega

end univang.fmt.detail.Bignum

namespace univang.fmt.detail.Bignum

/-- The estimate `this_bigit / (other_bigit + 1)` never exceeds the quotient, and the test
`other_bigit * (division_estimate + 1) > this_bigit` certifies that it is the quotient. -/
theorem DivideModulo_estimate (r1 other : Bignum) (h1 : r1.wf) (ho : other.wf)
    (hpos : 0 < other.value) (hle : r1.BigitLength ≤ other.BigitLength)
    (hinv : other.BigitLength ≤ r1.BigitLength
      ∨ (2 ^ 28 - 1) * 2 ^ (28 * (other.BigitLength - 1)) < other.value) :
    (r1.RawBigit (r1.bigits.length - 1) / (other.RawBigit (other.bigits.length - 1) + 1))
        * other.value ≤ r1.value ∧
    r1.RawBigit (r1.bigits.length - 1) / (other.RawBigit (other.bigits.length - 1) + 1) < 2 ^ 28 ∧
    ((other.RawBigit (other.bigits.length - 1)
        * (r1.RawBigit (r1.bigits.length - 1) / (other.RawBigit (other.bigits.length - 1) + 1) + 1))
          % 2 ^ 32 > r1.RawBigit (r1.bigits.length - 1) →
      r1.value < (r1.RawBigit (r1.bigits.length - 1)
        / (other.RawBigit (other.bigits.length - 1) + 1) + 1) * other.value) := by
  have hone : other.bigits ≠ [] := bigits_ne_nil_of_pos other hpos
  obtain ⟨o1, o2, o3, o4⟩ := top_bigit_bounds other ho hone
  have t4 := RawBigit_top_lt r1 h1
  have hdm := Nat.div_add_mod (r1.RawBigit (r1.bigits.length - 1))
    (other.RawBigit (other.bigits.length - 1) + 1)
  have hmlt := Nat.mod_lt (r1.RawBigit (r1.bigits.length - 1))
    (Nat.succ_pos (other.RawBigit (other.bigits.length - 1)))
  have hdle := Nat.div_le_self (r1.RawBigit (r1.bigits.length - 1))
    (other.RawBigit (other.bigits.length - 1) + 1)
  by_cases hc : other.BigitLength ≤ r1.BigitLength
  · have hBL : r1.BigitLength = other.BigitLength := by omega
    have hr1ne : r1.bigits ≠ [] :=
      bigits_ne_nil_of_BigitLength r1 h1 (by rw [hBL]; exact BigitLength_pos_of_ne_nil other hone)
    obtain ⟨t1, t2, t3, -⟩ := top_bigit_bounds r1 h1 hr1ne
    rw [hBL] at t1 t2
    generalize r1.RawBigit (r1.bigits.length - 1) = t at *
    generalize other.RawBigit (other.bigits.length - 1) = ot at *
    generalize t / (ot + 1) = e at *
    generalize t % (ot + 1) = m at *
    generalize 2 ^ (28 * (other.BigitLength - 1)) = P at *
    generalize other.value = ov at *
    generalize r1.value = rv at *
    have hem : (ot + 1) * e ≤ t := by omega
    refine ⟨?_, by omega, ?_⟩
    · have a1 : e * ov ≤ e * ((ot + 1) * P) := Nat.mul_le_mul_left _ (le_of_lt o2)
      have a2 : e * ((ot + 1) * P) = ((ot + 1) * e) * P := by ring
      have a3 : ((ot + 1) * e) * P ≤ t * P := Nat.mul_le_mul_right _ hem
      omega
    · intro hgt
      have hexp : (ot + 1) * e = ot * e + e := by ring
      have hexp2 : ot * (e + 1) = ot * e + ot := by ring
      have hw : (ot * (e + 1)) % 2 ^ 32 = ot * (e + 1) := Nat.mod_eq_of_lt (by omega)
      rw [hw] at hgt
      have a1 : (t + 1) * P ≤ (ot * (e + 1)) * P := Nat.mul_le_mul_right _ hgt
      have a2 : (e + 1) * (ot * P) ≤ (e + 1) * ov := Nat.mul_le_mul_left _ o1
      have a3 : (ot * (e + 1)) * P = (e + 1) * (ot * P) := by ring
      omega
  · have hlt : r1.value < other.value := value_lt_of_BigitLength_lt r1 other h1 ho (by omega)
    have hbig : (2 ^ 28 - 1) * 2 ^ (28 * (other.BigitLength - 1)) < other.value := by
      rcases hinv with h | h
      · exact absurd h hc
      · exact h
    have hot : other.RawBigit (other.bigits.length - 1) = 2 ^ 28 - 1 := by
      have := lt_trans hbig o2
      have := Nat.lt_of_mul_lt_mul_right this
      omega
    have he0 : r1.RawBigit (r1.bigits.length - 1) / (other.RawBigit (other.bigits.length - 1) + 1)
        = 0 := by
      rw [hot]
      exact Nat.div_eq_of_lt (by omega)
    rw [he0]
    refine ⟨by simp, by norm_num, fun _ => by simpa using hlt⟩

/-- Member `DivideModuloIntBignum(other)` returns `floor(this / other)` and leaves
`this mod other`, whenever the quotient fits the `uint16_t` result. -/
theorem DivideModuloIntBignum_spec (b other : Bignum) (hb : b.wf) (ho : other.wf)
    (hpos : 0 < other.value) (hq : b.value / other.value < 2 ^ 16) :
    ∃ r, DivideModuloIntBignum b other = some (r, b.value / other.value) ∧
      r.value = b.value % other.value ∧ r.wf := by
  unfold DivideModuloIntBignum
  by_cases hlen : b.BigitLength < other.BigitLength
  · simp only [hlen, if_true]
    have hlt := value_lt_of_BigitLength_lt b other hb ho hlen
    refine ⟨b, ?_, (Nat.mod_eq_of_lt hlt).symm, hb⟩
    rw [Nat.div_eq_of_lt hlt]
  · simp only [hlen, if_false]
    have hav := Align_value b other
    have hae := Align_exponent b other
    have haw := Align_wf b other hb
    have hal := Align_BigitLength b other
    generalize Align b other = a at hav hae haw hal
    obtain ⟨r1, acc1, l1, l2, l3, l4, l5, l6⟩ := DivideModulo_loop1_spec other ho hpos
      (a.value + 1) a 0 haw (by omega) (by omega) (by rw [hav]; omega) (Or.inl (by omega))
    rw [l1]
    simp only [zero_mul, zero_add, hav] at l5
    have hacc1 : acc1 ≤ b.value / other.value := quotient_le _ _ _ _ hpos l5
    by_cases hsingle : other.bigits.length = 1
    · simp only [hsingle, if_true]
      have hBL : r1.BigitLength = other.BigitLength := by
        rcases l6 with h | h
        · omega
        · exfalso
          have hone : other.bigits ≠ [] := bigits_ne_nil_of_pos other hpos
          obtain ⟨o1, o2, o3, o4⟩ := top_bigit_bounds other ho hone
          have hov : other.value = other.RawBigit (other.bigits.length - 1)
              * 2 ^ (28 * (other.BigitLength - 1)) := by
            unfold value RawBigit BigitLength
            rw [hsingle]
            obtain ⟨x, hx⟩ := List.length_eq_one.1 hsingle
            rw [hx]
            simp [lvalue]
          rw [hov] at h
          have := Nat.lt_of_mul_lt_mul_right h
          omega
      obtain ⟨s1, s2, s3⟩ := DivideModulo_single r1 other l2 ho hpos hsingle hBL _ rfl
      rw [hsingle] at s1 s2 s3
      obtain ⟨d1, d2⟩ := div_mod_of_eq b.value other.value
        (acc1 + r1.RawBigit (r1.bigits.length - 1) / other.RawBigit (1 - 1)) _
        (by rw [← l5, ← s1]; ring) s2
      refine ⟨_, ?_, d2, s3⟩
      generalize r1.RawBigit (r1.bigits.length - 1) / other.RawBigit (1 - 1) = q1 at d1 ⊢
      have hw : q1 % 2 ^ 16 = q1 := Nat.mod_eq_of_lt (by omega)
      rw [hw, Nat.mod_eq_of_lt (show acc1 + q1 < 2 ^ 16 by omega), d1]
    · simp only [hsingle, if_false]
      obtain ⟨e1, e2, e3⟩ := DivideModulo_estimate r1 other l2 ho hpos l4 l6
      obtain ⟨s1, s2, s3⟩ := SubtractTimes_spec r1 other _ l2 ho l3 e2 e1
      generalize r1.RawBigit (r1.bigits.length - 1) / (other.RawBigit (other.bigits.length - 1) + 1)
        = est at *
      have htot : (acc1 + est) * other.value + (SubtractTimes r1 other est).value = b.value := by
        rw [← l5, ← s1]; ring
      have hle2 : acc1 + est ≤ b.value / other.value := quotient_le _ _ _ _ hpos htot
      have hw : (acc1 + est % 2 ^ 16) % 2 ^ 16 = acc1 + est := by
        rw [Nat.mod_eq_of_lt (show est < 2 ^ 16 by omega)]
        exact Nat.mod_eq_of_lt (by omega)
      rw [hw]
      by_cases hret : (other.RawBigit (other.bigits.length - 1) * (est + 1)) % 2 ^ 32
          > r1.RawBigit (r1.bigits.length - 1)
      · simp only [hret, if_true]
        have hlt : (SubtractTimes r1 other est).value < other.value := by
          have := e3 hret
          have e : (est + 1) * other.value = est * other.value + other.value := by ring
          omega
        obtain ⟨d1, d2⟩ := div_mod_of_eq b.value other.value _ _ htot hlt
        exact ⟨_, by rw [d1], d2, s2⟩
      · simp only [hret, if_false]
        have hq2 : acc1 + est + (SubtractTimes r1 other est).value / other.value < 2 ^ 16 := by
          have : b.value / other.value
              = acc1 + est + (SubtractTimes r1 other est).value / other.value := by
            rw [← htot, mul_comm, Nat.mul_add_div hpos]
          omega
        obtain ⟨r, acc', m1, m2, m3, m4⟩ := DivideModulo_loop2_spec other ho hpos
          ((SubtractTimes r1 other est).value + 1) _ (acc1 + est) s2 (by omega) hq2
        rw [m1]
        obtain ⟨d1, d2⟩ := div_mod_of_eq b.value other.value acc' r.value (by rw [m4, htot]) m3
        exact ⟨r, by rw [d1], d2, m2⟩

end univang.fmt.detail.Bignum

namespace univang.fmt.detail

set_option maxRecDepth 100000 in
theorem estimate_check_0 : all_below (fun i => estimate_check i) 350 = true := by decide!

set_option maxRecDepth 100000 in
theorem estimate_check_1 : all_below (fun i => estimate_check (i + 350)) 350 = true := by decide!

set_option maxRecDepth 100000 in
theorem estimate_check_2 : all_below (fun i => estimate_check (i + 700)) 350 = true := by decide!

set_option maxRecDepth 100000 in
theorem estimate_check_3 : all_below (fun i => estimate_check (i + 1050)) 350 = true := by decide!

set_option maxRecDepth 100000 in
theorem estimate_check_4 : all_below (fun i => estimate_check (i + 1400)) 350 = true := by decide!

set_option maxRecDepth 100000 in
theorem estimate_check_5 : all_below (fun i => estimate_check (i + 1750)) 350 = true := by decide!

theorem estimate_check_all (i : Nat) (hi : i < 2100) : estimate_check i = true := by
  by_cases h0 : i < 350
  · exact Bignum.all_below_imp _ _ estimate_check_0 i h0
  by_cases h1 : i < 700
  · have := Bignum.all_below_imp _ _ estimate_check_1 (i - 350) (by omega)
    simpa [Nat.sub_add_cancel (show 350 ≤ i by omega)] using this
  by_cases h2 : i < 1050
  · have := Bignum.all_below_imp _ _ estimate_check_2 (i - 700) (by omega)
    simpa [Nat.sub_add_cancel (show 700 ≤ i by omega)] using this
  by_cases h3 : i < 1400
  · have := Bignum.all_below_imp _ _ estimate_check_3 (i - 1050) (by omega)
    simpa [Nat.sub_add_cancel (show 1050 ≤ i by omega)] using this
  by_cases h4 : i < 1750
  · have := Bignum.all_below_imp _ _ estimate_check_4 (i - 1400) (by omega)
    simpa [Nat.sub_add_cancel (show 1400 ≤ i by omega)] using this
  · have := Bignum.all_below_imp _ _ estimate_check_5 (i - 1750) (by omega)
    simpa [Nat.sub_add_cancel (show 1750 ≤ i by omega)] using this


/-! ## Powers with integer exponents as fractions of natural powers -/

theorem zpow_split (b : Nat) (x : Int) :
    ((b : ℚ)) ^ x = ((b ^ x.toNat : Nat) : ℚ) / ((b ^ (-x).toNat : Nat) : ℚ) := by
  obtain ⟨n, rfl | rfl⟩ := Int.eq_nat_or_neg x
  · rw [Int.toNat_neg_nat, Int.toNat_ofNat, zpow_natCast]
    simp
  · rw [neg_neg, Int.toNat_neg_nat, Int.toNat_ofNat, zpow_neg, zpow_natCast]
    simp

theorem zpow_le_of_cross (a b : Nat) (ha : 0 < a) (hb : 0 < b) (x y : Int)
    (h : a ^ x.toNat * b ^ (-y).toNat ≤ b ^ y.toNat * a ^ (-x).toNat) :
    ((a : ℚ)) ^ x ≤ ((b : ℚ)) ^ y := by
  rw [zpow_split a, zpow_split b]
  have p1 : (0 : ℚ) < ((a ^ (-x).toNat : Nat) : ℚ) := by exact_mod_cast pow_pos ha _
  have p2 : (0 : ℚ) < ((b ^ (-y).toNat : Nat) : ℚ) := by exact_mod_cast pow_pos hb _
  rw [div_le_div_iff₀ p1 p2]
  exact_mod_cast h

/-- The estimate brackets the binade of the normalized exponent. -/
theorem EstimatePower_bounds (ne : Int) (h1 : -1126 ≤ ne) (h2 : ne ≤ 973) :
    -324 ≤ EstimatePower ne ∧ EstimatePower ne ≤ 309 ∧ (0 ≤ ne → 0 ≤ EstimatePower ne) ∧
    (10 : ℚ) ^ (EstimatePower ne - 1) ≤ 2 ^ (ne + 52) ∧
    (2 : ℚ) ^ (ne + 53) ≤ 10 ^ (EstimatePower ne + 1) := by
  have hc := estimate_check_all (ne + 1126).toNat (by omega)
  unfold estimate_check at hc
  have hne : ((ne + 1126).toNat : Int) - 1126 = ne := by omega
  simp only [hne, Bool.and_eq_true, decide_eq_true_eq] at hc
  obtain ⟨⟨⟨⟨c1, c2⟩, c3⟩, c4⟩, c5⟩ := hc
  refine ⟨c1, c2, c3, ?_, ?_⟩
  · exact_mod_cast zpow_le_of_cross 10 2 (by norm_num) (by norm_num) _ _ c4
  · exact_mod_cast zpow_le_of_cross 2 10 (by norm_num) (by norm_num) _ _ c5

/-! ## The decomposition of a double -/

theorem and_two_pow_eq_zero (x i : Nat) : x &&& 2 ^ i = 0 ↔ x / 2 ^ i % 2 = 0 := by
  constructor
  · intro h
    have h1 : (x &&& 2 ^ i).testBit i = false := by rw [h]; simp
    rw [Nat.testBit_and, Nat.testBit_two_pow_self, Bool.and_true, Nat.testBit_to_div_mod] at h1
    simp only [decide_eq_false_iff_not] at h1
    omega
  · intro h
    apply Nat.eq_of_testBit_eq
    intro j
    rw [Nat.testBit_and, Nat.testBit_two_pow, Nat.zero_testBit]
    by_cases hij : i = j
    · subst hij
      rw [Nat.testBit_to_div_mod]
      simp [h]
    · simp [hij]

theorem of_double_spec (u : Nat) (h : finite_pos u) :
    0 < (double_format_context.of_double u).significand ∧
    (double_format_context.of_double u).significand < 2 ^ 53 ∧
    -1074 ≤ (double_format_context.of_double u).exponent ∧
    (double_format_context.of_double u).exponent ≤ 971 ∧
    ((double_format_context.of_double u).significand < 2 ^ 52 →
      (double_format_context.of_double u).exponent = -1074) ∧
    (double_format_context.of_double u).value = u ∧
    (double_format_context.of_double u).digits = [] ∧
    (double_format_context.of_double u).decimal_point = 0 := by
  obtain ⟨h1, h2, h3⟩ := h
  unfold double_format_context.of_double
  have hm : u % 2 ^ 52 < 2 ^ 52 := Nat.mod_lt _ (by norm_num)
  have he : (u / 2 ^ 52) % 2 ^ 11 < 2 ^ 11 := Nat.mod_lt _ (by norm_num)
  by_cases hz : (u / 2 ^ 52) % 2 ^ 11 ≠ 0
  · simp only [hz, ne_eq, not_false_eq_true, if_true]
    refine ⟨by omega, by omega, by omega, by omega, fun hh => by omega, trivial, trivial, trivial⟩
  · simp only [hz, if_false]
    refine ⟨by omega, by omega, by norm_num, by norm_num, fun _ => trivial, trivial, trivial, trivial⟩

theorem NormalizedExponent_loop_spec (fuel m : Nat) (e : Int) (hm : 0 < m) (hm2 : m < 2 ^ 53)
    (hf : 2 ^ 52 ≤ m * 2 ^ fuel) :
    ∃ j ≤ fuel, NormalizedExponent_loop fuel m e = e - j ∧ 2 ^ 52 ≤ m * 2 ^ j ∧ m * 2 ^ j < 2 ^ 53 := by
  induction fuel generalizing m e with
  | zero =>
    refine ⟨0, le_rfl, ?_, by simpa using hf, by simpa using hm2⟩
    simp [NormalizedExponent_loop]
  | succ fuel ih =>
    rw [NormalizedExponent_loop]
    by_cases hb : m &&& 2 ^ 52 = 0
    · simp only [hb, if_true]
      have hlt : m < 2 ^ 52 := by
        have := (and_two_pow_eq_zero m 52).1 hb
        omega
      have hs : (m <<< 1) % 2 ^ 64 = 2 * m := by
        rw [Nat.shiftLeft_eq]
        have : m * 2 ^ 1 = 2 * m := by ring
        rw [this]
        exact Nat.mod_eq_of_lt (by omega)
      rw [hs]
      have hf' : 2 ^ 52 ≤ 2 * m * 2 ^ fuel := by
        have : m * 2 ^ (fuel + 1) = 2 * m * 2 ^ fuel := by ring
        rw [← this]; exact hf
      obtain ⟨j, hj, i1, i2, i3⟩ := ih (2 * m) (e - 1) (by omega) (by omega) hf'
      refine ⟨j + 1, by omega, ?_, ?_, ?_⟩
      · rw [i1]; push_cast; ring
      · have : m * 2 ^ (j + 1) = 2 * m * 2 ^ j := by ring
        rw [this]; exact i2
      · have : m * 2 ^ (j + 1) = 2 * m * 2 ^ j := by ring
        rw [this]; exact i3
    · simp only [hb, if_false]
      have hge : 2 ^ 52 ≤ m := by
        by_contra hc
        apply hb
        apply (and_two_pow_eq_zero m 52).2
        have : m / 2 ^ 52 = 0 := Nat.div_eq_of_lt (by omega)
        rw [this]
      exact ⟨0, Nat.zero_le _, by simp, by simpa using hge, by simpa using hm2⟩


open Bignum

/-- The facts about a finite positive double used by the exact digit generation: the
normalized exponent is in range and the estimate brackets the value. -/
theorem estimate_of_double (m : Nat) (e : Int) (hm : 0 < m) (hm2 : m < 2 ^ 53)
    (he1 : -1074 ≤ e) (he2 : e ≤ 972) (hden : m < 2 ^ 52 → e = -1074) :
    -324 ≤ EstimatePower (NormalizedExponent m e) ∧
    EstimatePower (NormalizedExponent m e) ≤ 309 ∧
    (0 ≤ e → 0 ≤ EstimatePower (NormalizedExponent m e)) ∧
    (10 : ℚ) ^ (EstimatePower (NormalizedExponent m e) - 1) ≤ double_value m e ∧
    double_value m e < (10 : ℚ) ^ (EstimatePower (NormalizedExponent m e) + 1) := by
  have hf : 2 ^ 52 ≤ m * 2 ^ 64 := by
    have : 1 * 2 ^ 64 ≤ m * 2 ^ 64 := Nat.mul_le_mul_right _ hm
    omega
  obtain ⟨j, hj, n1, n2, n3⟩ := NormalizedExponent_loop_spec 64 m e hm hm2 hf
  have hj52 : j ≤ 52 := by
    by_contra hc
    have : 2 ^ 53 ≤ 2 ^ j := Nat.pow_le_pow_right (by norm_num) (by omega)
    have : 1 * 2 ^ j ≤ m * 2 ^ j := Nat.mul_le_mul_right _ hm
    omega
  have hj0 : 2 ^ 52 ≤ m → j = 0 := by
    intro h
    by_contra hc
    have : 2 ^ 1 ≤ 2 ^ j := Nat.pow_le_pow_right (by norm_num) (by omega)
    have : 2 ^ 52 * 2 ^ j ≤ m * 2 ^ j := Nat.mul_le_mul_right _ h
    omega
  unfold NormalizedExponent
  rw [n1]
  have hr1 : -1126 ≤ e - (j : Int) := by
    by_cases h : 2 ^ 52 ≤ m
    · have := hj0 h; omega
    · have := hden (by omega); omega
  have hr2 : e - (j : Int) ≤ 973 := by omega
  obtain ⟨b1, b2, b3, b4, b5⟩ := EstimatePower_bounds (e - j) hr1 hr2
  have hv : double_value m e = ((m * 2 ^ j : Nat) : ℚ) * 2 ^ (e - (j : Int)) := by
    unfold double_value
    push_cast
    rw [zpow_sub₀ (by norm_num : (2 : ℚ) ≠ 0), zpow_natCast]
    field_simp
    ring
  have hp : (0 : ℚ) < 2 ^ (e - (j : Int)) := zpow_pos (by norm_num) _
  refine ⟨b1, b2, ?_, ?_, ?_⟩
  · intro h0
    have hn : 2 ^ 52 ≤ m := by
      by_contra hc
      have := hden (by omega)
      omega
    have := hj0 hn
    exact b3 (by omega)
  · rw [hv]
    refine le_trans b4 ?_
    have e1 : (2 : ℚ) ^ (e - (j : Int) + 52) = 2 ^ 52 * 2 ^ (e - (j : Int)) := by
      rw [zpow_add₀ (by norm_num : (2 : ℚ) ≠ 0)]
      norm_num
      ring
    rw [e1]
    apply mul_le_mul_of_nonneg_right _ hp.le
    exact_mod_cast n2
  · rw [hv]
    refine lt_of_lt_of_le ?_ b5
    have e1 : (2 : ℚ) ^ (e - (j : Int) + 53) = 2 ^ 53 * 2 ^ (e - (j : Int)) := by
      rw [zpow_add₀ (by norm_num : (2 : ℚ) ≠ 0)]
      norm_num
      ring
    rw [e1]
    apply mul_lt_mul_of_pos_right _ hp
    exact_mod_cast n3

/-- The upper boundary `(2m + 1) * 2^(e - 1)` of a double lies below `10^(estimate + 1)`
as well. -/
theorem upper_boundary_of_double (m : Nat) (e : Int) (hm : 0 < m) (hm2 : m < 2 ^ 53)
    (he1 : -1074 ≤ e) (he2 : e ≤ 972) (hden : m < 2 ^ 52 → e = -1074) :
    ((2 * m + 1 : Nat) : ℚ) * 2 ^ (e - 1)
      < (10 : ℚ) ^ (EstimatePower (NormalizedExponent m e) + 1) := by
  have hf : 2 ^ 52 ≤ m * 2 ^ 64 := by
    have : 1 * 2 ^ 64 ≤ m * 2 ^ 64 := Nat.mul_le_mul_right _ hm
    omega
  obtain ⟨j, hj, n1, n2, n3⟩ := NormalizedExponent_loop_spec 64 m e hm hm2 hf
  have hj52 : j ≤ 52 := by
    by_contra hc
    have : 2 ^ 53 ≤ 2 ^ j := Nat.pow_le_pow_right (by norm_num) (by omega)
    have : 1 * 2 ^ j ≤ m * 2 ^ j := Nat.mul_le_mul_right _ hm
    omega
  have hj0 : 2 ^ 52 ≤ m → j = 0 := by
    intro h
    by_contra hc
    have : 2 ^ 1 ≤ 2 ^ j := Nat.pow_le_pow_right (by norm_num) (by omega)
    have : 2 ^ 52 * 2 ^ j ≤ m * 2 ^ j := Nat.mul_le_mul_right _ h
    omega
  unfold NormalizedExponent
  rw [n1]
  have hr1 : -1126 ≤ e - (j : Int) := by
    by_cases h : 2 ^ 52 ≤ m
    · have := hj0 h; omega
    · have := hden (by omega); omega
  have hr2 : e - (j : Int) ≤ 973 := by omega
  obtain ⟨-, -, -, -, b5⟩ := EstimatePower_bounds (e - j) hr1 hr2
  refine lt_of_lt_of_le ?_ b5
  have hpj : 0 < 2 ^ j := pow_pos (by norm_num) j
  have hsplit : (2 : Nat) ^ 53 = 2 ^ (53 - j) * 2 ^ j := by
    rw [← pow_add]; congr 1; omega
  have hm1 : (m + 1) * 2 ^ j ≤ 2 ^ 53 := by
    rw [hsplit] at n3 ⊢
    have := Nat.lt_of_mul_lt_mul_right n3
    exact Nat.mul_le_mul_right _ this
  have hnat : (2 * m + 1) * 2 ^ j < 2 ^ 54 := by
    have e1 : (2 * m + 1) * 2 ^ j + 2 ^ j = 2 * ((m + 1) * 2 ^ j) := by ring
    omega
  have hv : ((2 * m + 1 : Nat) : ℚ) * 2 ^ (e - 1)
      = (((2 * m + 1) * 2 ^ j : Nat) : ℚ) * 2 ^ (e - (j : Int) - 1) := by
    push_cast
    rw [zpow_sub₀ (by norm_num : (2 : ℚ) ≠ 0), zpow_sub₀ (by norm_num : (2 : ℚ) ≠ 0),
      zpow_sub₀ (by norm_num : (2 : ℚ) ≠ 0), zpow_natCast]
    field_simp
    ring
  rw [hv]
  have hp : (0 : ℚ) < 2 ^ (e - (j : Int) - 1) := zpow_pos (by norm_num) _
  have e1 : (2 : ℚ) ^ (e - (j : Int) + 53) = 2 ^ 54 * 2 ^ (e - (j : Int) - 1) := by
    have : e - (j : Int) + 53 = 54 + (e - (j : Int) - 1) := by ring
    rw [this, zpow_add₀ (by norm_num : (2 : ℚ) ≠ 0)]
    norm_num
  rw [e1]
  apply mul_lt_mul_of_pos_right _ hp
  exact_mod_cast hnat


open Bignum

theorem default_Bignum_wf : ({} : Bignum).wf := Zero_wf

theorem default_Bignum_value : ({} : Bignum).value = 0 := Zero_value

theorem one_wf : (AssignUInt16 1).wf := AssignUInt16_wf 1 (by norm_num)

theorem one_value : (AssignUInt16 1).value = 1 := AssignUInt16_value 1

/-- No power of ten has an odd 53-bit significand. -/
theorem odd_significand_ne_pow10 (m e est : Nat) (hodd : m % 2 = 1) (h1 : 2 ^ 52 ≤ m)
    (h2 : m < 2 ^ 53) : m * 2 ^ e ≠ 10 ^ est := by
  intro h
  have h10 : (10 : Nat) ^ est = 2 ^ est * 5 ^ est := by rw [← Nat.mul_pow]
  rw [h10] at h
  have hodd5 : ∀ k, (5 ^ k) % 2 = 1 := by
    intro k
    induction k with
    | zero => rfl
    | succ k ih => rw [pow_succ]; omega
  rcases Nat.lt_trichotomy e est with hlt | heq | hgt
  · -- m = 2^(est - e) * 5^est is even
    have e1 : 2 ^ est = 2 ^ e * 2 ^ (est - e) := by rw [← pow_add]; congr 1; omega
    rw [e1, mul_comm m, mul_assoc] at h
    have h3 := Nat.eq_of_mul_eq_mul_left (Nat.two_pow_pos e) h
    have e2 : 2 ^ (est - e) = 2 * 2 ^ (est - e - 1) := by
      rw [← pow_succ']; congr 1; omega
    rw [e2, mul_assoc] at h3
    omega
  · subst heq
    rw [mul_comm m] at h
    have h3 := Nat.eq_of_mul_eq_mul_left (Nat.two_pow_pos e) h
    by_cases hk : e ≤ 22
    · have : 5 ^ e ≤ 5 ^ 22 := Nat.pow_le_pow_right (by norm_num) hk
      have : (5 : Nat) ^ 22 < 2 ^ 52 := by norm_num
      omega
    · have : 5 ^ 23 ≤ 5 ^ e := Nat.pow_le_pow_right (by norm_num) (by omega)
      have : (2 : Nat) ^ 53 < 5 ^ 23 := by norm_num
      omega
  · have e1 : 2 ^ e = 2 ^ est * 2 ^ (e - est) := by rw [← pow_add]; congr 1; omega
    rw [e1, mul_comm m, mul_assoc] at h
    have h3 := Nat.eq_of_mul_eq_mul_left (Nat.two_pow_pos est) h
    have e2 : 2 ^ (e - est) = 2 * 2 ^ (e - est - 1) := by
      rw [← pow_succ']; congr 1; omega
    rw [e2, mul_assoc] at h3
    have := hodd5 est
    omega

theorem double_value_pos_exp (m : Nat) (e est : Int) (he : 0 ≤ e) (hest : 0 ≤ est) :
    ((m * 2 ^ e.toNat : Nat) : ℚ)
      = double_value m e * 10 ^ (-est) * ((10 ^ est.toNat : Nat) : ℚ) := by
  unfold double_value
  have h1 : e = (e.toNat : Int) := by omega
  have h2 : est = (est.toNat : Int) := by omega
  conv_rhs => rw [h1, h2]
  rw [zpow_neg, zpow_natCast, zpow_natCast]
  push_cast
  field_simp

theorem double_value_neg_exp_pos (m : Nat) (e est : Int) (he : e < 0) (hest : 0 ≤ est) :
    ((m : Nat) : ℚ)
      = double_value m e * 10 ^ (-est) * ((10 ^ est.toNat * 2 ^ (-e).toNat : Nat) : ℚ) := by
  unfold double_value
  have h1 : e = -((-e).toNat : Int) := by omega
  have h2 : est = (est.toNat : Int) := by omega
  conv_rhs => rw [h1, h2]
  rw [zpow_neg, zpow_neg, zpow_natCast, zpow_natCast]
  push_cast
  have h3 : (-(-((-e).toNat : Int))).toNat = (-e).toNat := by omega
  rw [h3]
  field_simp
  left
  ring

theorem double_value_neg_exp_neg (m : Nat) (e est : Int) (he : e < 0) (hest : est < 0) :
    ((10 ^ (-est).toNat * m : Nat) : ℚ)
      = double_value m e * 10 ^ (-est) * ((2 ^ (-e).toNat : Nat) : ℚ) := by
  unfold double_value
  have h1 : e = -((-e).toNat : Int) := by omega
  have h2 : -est = ((-est).toNat : Int) := by omega
  conv_rhs => rw [h1, h2]
  rw [zpow_neg, zpow_natCast, zpow_natCast]
  push_cast
  have h3 : (-(-((-e).toNat : Int))).toNat = (-e).toNat := by omega
  rw [h3]
  field_simp
  ring


open Bignum

/-- The start values of the counted modes: `numerator / denominator = v / 10^estimated_power`. -/
theorem InitialScaledStartValues_counted (m : Nat) (e est : Int) (lbc : Bool)
    (hm0 : 0 < m) (hm : m < 2 ^ 53) (h1 : -324 ≤ est) (h2 : est ≤ 309) (he0 : 0 ≤ e → 0 ≤ est)
    (hnorm : 0 ≤ e → 2 ^ 52 ≤ m) :
    (InitialScaledStartValues m e lbc est false {}).numerator.wf ∧
    (InitialScaledStartValues m e lbc est false {}).denominator.wf ∧
    0 < (InitialScaledStartValues m e lbc est false {}).denominator.value ∧
    (InitialScaledStartValues m e lbc est false {}).delta_plus = {} ∧
    (InitialScaledStartValues m e lbc est false {}).delta_minus = {} ∧
    (((InitialScaledStartValues m e lbc est false {}).numerator.value : Nat) : ℚ)
      = double_value m e * 10 ^ (-est)
        * (((InitialScaledStartValues m e lbc est false {}).denominator.value : Nat) : ℚ) ∧
    (m % 2 = 1 → (InitialScaledStartValues m e lbc est false {}).numerator.value
      ≠ (InitialScaledStartValues m e lbc est false {}).denominator.value) := by
  have hm64 : m < 2 ^ 64 := by omega
  have hmw := AssignUInt64_wf m
  have hmv := AssignUInt64_value m
  unfold InitialScaledStartValues
  simp only [Bool.false_eq_true, false_and, if_false]
  by_cases he : e ≥ 0
  · simp only [he, if_true]
    unfold InitialScaledStartValuesPositiveExponent
    simp only [Bool.false_eq_true, if_false]
    have hest := he0 he
    obtain ⟨p1, p2⟩ := AssignPowerUInt16_ten est.toNat (by omega)
    have nv : ((AssignUInt64 m).ShiftLeft e.toNat).value = m * 2 ^ e.toNat := by
      rw [ShiftLeft_value _ _ hmw, hmv]
    refine ⟨ShiftLeft_wf _ _ hmw, p2, ?_, trivial, trivial, ?_, ?_⟩
    · rw [p1]; exact pow_pos (by norm_num) _
    · rw [nv, p1]; exact double_value_pos_exp m e est he hest
    · intro hodd
      rw [nv, p1]
      exact odd_significand_ne_pow10 m _ _ hodd (hnorm he) hm
  · simp only [he, if_false]
    have hneg : e < 0 := by omega
    by_cases hest : est ≥ 0
    · simp only [hest, if_true]
      unfold InitialScaledStartValuesNegativeExponentPositivePower
      simp only [Bool.false_eq_true, if_false]
      obtain ⟨p1, p2⟩ := AssignPowerUInt16_ten est.toNat (by omega)
      have dv : ((AssignPowerUInt16 10 est.toNat).ShiftLeft (-e).toNat).value
          = 10 ^ est.toNat * 2 ^ (-e).toNat := by
        rw [ShiftLeft_value _ _ p2, p1]
      refine ⟨hmw, ShiftLeft_wf _ _ p2, ?_, trivial, trivial, ?_, ?_⟩
      · rw [dv]; exact Nat.mul_pos (pow_pos (by norm_num) _) (pow_pos (by norm_num) _)
      · rw [hmv, dv]; exact double_value_neg_exp_pos m e est hneg hest
      · intro hodd
        rw [hmv, dv]
        have e2 : 2 ^ (-e).toNat = 2 * 2 ^ ((-e).toNat - 1) := by
          rw [← pow_succ']; congr 1; omega
        rw [e2]
        intro hc
        have : m = 2 * (10 ^ est.toNat * 2 ^ ((-e).toNat - 1)) := by rw [hc]; ring
        omega
    · simp only [hest, if_false]
      have hestn : est < 0 := by omega
      unfold InitialScaledStartValuesNegativeExponentNegativePower
      simp only [Bool.false_eq_true, if_false]
      obtain ⟨p1, p2⟩ := AssignPowerUInt16_ten (-est).toNat (by omega)
      have nv : ((AssignPowerUInt16 10 (-est).toNat).MultiplyByUInt64 m).value
          = 10 ^ (-est).toNat * m := by
        rw [MultiplyByUInt64_value _ _ hm64 p2, p1]
      have dv : ((AssignUInt16 1).ShiftLeft (-e).toNat).value = 2 ^ (-e).toNat := by
        rw [ShiftLeft_value _ _ one_wf, one_value, one_mul]
      refine ⟨MultiplyByUInt64_wf _ _ hm64 p2, ShiftLeft_wf _ _ one_wf, ?_, trivial, trivial, ?_, ?_⟩
      · rw [dv]; exact pow_pos (by norm_num) _
      · rw [nv, dv]; exact double_value_neg_exp_neg m e est hneg hestn
      · intro _
        rw [nv, dv]
        intro hc
        have e2 : 10 ^ (-est).toNat = 5 * (2 * 10 ^ ((-est).toNat - 1)) := by
          have : (10 : Nat) ^ (-est).toNat = 10 * 10 ^ ((-est).toNat - 1) := by
            rw [← pow_succ']; congr 1; omega
          rw [this]; ring
        have h5 : (5 : Nat) ∣ 2 ^ (-e).toNat := by
          rw [← hc, e2, mul_assoc]
          exact Dvd.intro _ rfl
        have := (Nat.Prime.dvd_of_dvd_pow (by norm_num : Nat.Prime 5) h5)
        omega


open Bignum

theorem PlusCompare_ge_iff (a b c : Bignum) (ha : a.wf) (hb : b.wf) (hc : c.wf) :
    PlusCompare a b c ≥ 0 ↔ c.value ≤ a.value + b.value := by
  obtain ⟨i1, i2, i3⟩ := PlusCompare_spec a b c ha hb hc
  rcases Nat.lt_trichotomy (a.value + b.value) c.value with h | h | h
  · rw [i1 h]; constructor
    · intro h'; exact absurd h' (by decide)
    · intro h'; omega
  · rw [i2 h]; constructor
    · intro _; omega
    · intro _; decide
  · rw [i3 h]; constructor
    · intro _; omega
    · intro _; decide

theorem PlusCompare_gt_iff (a b c : Bignum) (ha : a.wf) (hb : b.wf) (hc : c.wf) :
    PlusCompare a b c > 0 ↔ c.value < a.value + b.value := by
  obtain ⟨i1, i2, i3⟩ := PlusCompare_spec a b c ha hb hc
  rcases Nat.lt_trichotomy (a.value + b.value) c.value with h | h | h
  · rw [i1 h]; constructor
    · intro h'; exact absurd h' (by decide)
    · intro h'; omega
  · rw [i2 h]; constructor
    · intro h'; exact absurd h' (by decide)
    · intro h'; omega
  · rw [i3 h]; constructor
    · intro _; omega
    · intro _; decide

theorem PlusCompare_lt_iff (a b c : Bignum) (ha : a.wf) (hb : b.wf) (hc : c.wf) :
    PlusCompare a b c < 0 ↔ a.value + b.value < c.value := by
  obtain ⟨i1, i2, i3⟩ := PlusCompare_spec a b c ha hb hc
  rcases Nat.lt_trichotomy (a.value + b.value) c.value with h | h | h
  · rw [i1 h]; constructor
    · intro _; omega
    · intro _; decide
  · rw [i2 h]; constructor
    · intro h'; exact absurd h' (by decide)
    · intro h'; omega
  · rw [i3 h]; constructor
    · intro h'; exact absurd h' (by decide)
    · intro h'; omega

/-- In the counted modes `FixupMultiply10` leaves `1 <= numerator / denominator < 10` and
`numerator / denominator = v / 10^(decimal_point - 1)`. -/
theorem FixupMultiply10_counted (est : Int) (is_even : Bool) (st : BignumState) (v : ℚ)
    (hn : st.numerator.wf) (hd : st.denominator.wf) (hpos : 0 < st.denominator.value)
    (hdp : st.delta_plus = {}) (hdm : st.delta_minus = {})
    (hv : ((st.numerator.value : Nat) : ℚ) = v * 10 ^ (-est) * ((st.denominator.value : Nat) : ℚ))
    (hlo : (10 : ℚ) ^ (est - 1) ≤ v) (hhi : v < (10 : ℚ) ^ (est + 1))
    (hodd : is_even = false → st.numerator.value ≠ st.denominator.value) :
    (FixupMultiply10 est is_even st).2.numerator.wf ∧
    (FixupMultiply10 est is_even st).2.denominator = st.denominator ∧
    (((FixupMultiply10 est is_even st).2.numerator.value : Nat) : ℚ)
      = v * 10 ^ (1 - (FixupMultiply10 est is_even st).1) * ((st.denominator.value : Nat) : ℚ) ∧
    st.denominator.value ≤ (FixupMultiply10 est is_even st).2.numerator.value ∧
    (FixupMultiply10 est is_even st).2.numerator.value < 10 * st.denominator.value ∧
    ((FixupMultiply10 est is_even st).1 = est ∨ (FixupMultiply10 est is_even st).1 = est + 1) := by
  have hdq : (0 : ℚ) < ((st.denominator.value : Nat) : ℚ) := by exact_mod_cast hpos
  have h10 : (10 : ℚ) ≠ 0 := by norm_num
  have hzw : ({} : Bignum).wf := default_Bignum_wf
  have hge := PlusCompare_ge_iff st.numerator {} st.denominator hn hzw hd
  have hgt := PlusCompare_gt_iff st.numerator {} st.denominator hn hzw hd
  rw [default_Bignum_value, add_zero] at hge hgt
  -- the two rational bounds as bounds on the numerator
  have hup : st.numerator.value < 10 * st.denominator.value := by
    have : ((st.numerator.value : Nat) : ℚ) < ((10 * st.denominator.value : Nat) : ℚ) := by
      rw [hv]; push_cast
      apply mul_lt_mul_of_pos_right _ hdq
      have : v * 10 ^ (-est) < 10 ^ (est + 1) * 10 ^ (-est) :=
        mul_lt_mul_of_pos_right hhi (zpow_pos (by norm_num) _)
      rw [← zpow_add₀ h10] at this
      simpa using this
    exact_mod_cast this
  have hdown : st.denominator.value ≤ 10 * st.numerator.value := by
    have : ((st.denominator.value : Nat) : ℚ) ≤ ((10 * st.numerator.value : Nat) : ℚ) := by
      push_cast
      rw [hv]
      have h1 : (10 : ℚ) ^ (est - 1) * 10 ^ (-est) ≤ v * 10 ^ (-est) :=
        mul_le_mul_of_nonneg_right hlo (zpow_pos (by norm_num) _).le
      rw [← zpow_add₀ h10] at h1
      have e1 : est - 1 + -est = -1 := by ring
      rw [e1] at h1
      have h2 : (1 : ℚ) ≤ 10 * (v * 10 ^ (-est)) := by
        have h3 : (10 : ℚ) * 10 ^ (-1 : Int) ≤ 10 * (v * 10 ^ (-est)) :=
          mul_le_mul_of_nonneg_left h1 (by norm_num)
        have e10 : (10 : ℚ) * 10 ^ (-1 : Int) = 1 := by norm_num
        rw [e10] at h3
        exact h3
      calc ((st.denominator.value : Nat) : ℚ) = 1 * ((st.denominator.value : Nat) : ℚ) := by ring
        _ ≤ 10 * (v * 10 ^ (-est)) * ((st.denominator.value : Nat) : ℚ) :=
            mul_le_mul_of_nonneg_right h2 hdq.le
        _ = 10 * (v * 10 ^ (-est) * ((st.denominator.value : Nat) : ℚ)) := by ring
    exact_mod_cast this
  unfold FixupMultiply10
  rw [hdp]
  generalize hc : (if is_even = true then decide (PlusCompare st.numerator {} st.denominator ≥ 0)
      else decide (PlusCompare st.numerator {} st.denominator > 0)) = c
  cases c
  · simp only [Bool.false_eq_true, if_false]
    have hlt : st.numerator.value < st.denominator.value := by
      rcases Bool.eq_false_or_eq_true is_even with hev | hev
      · simp only [hev, if_true, decide_eq_false_iff_not] at hc
        have := mt hge.2 hc
        omega
      · simp only [hev, Bool.false_eq_true, if_false, decide_eq_false_iff_not] at hc
        have h1 := mt hgt.2 hc
        have h2 := hodd hev
        omega
    have htv := Times10_value st.numerator hn
    have htw := Times10_wf st.numerator hn
    have hnum : ((st.numerator.Times10.value : Nat) : ℚ)
        = v * 10 ^ (1 - est) * ((st.denominator.value : Nat) : ℚ) := by
      rw [htv]; push_cast; rw [hv]
      have : (10 : ℚ) ^ (1 - est) = 10 * 10 ^ (-est) := by
        rw [sub_eq_add_neg, zpow_add₀ h10]; norm_num
      rw [this]; ring
    generalize Bignum.Equal st.delta_minus ({} : Bignum) = q
    cases q
    · simp only [Bool.false_eq_true, if_false]
      exact ⟨htw, trivial, hnum, by omega, by omega, Or.inl trivial⟩
    · simp only [if_true]
      exact ⟨htw, trivial, hnum, by omega, by omega, Or.inl trivial⟩
  · simp only [if_true]
    have hle : st.denominator.value ≤ st.numerator.value := by
      rcases Bool.eq_false_or_eq_true is_even with hev | hev
      · simp only [hev, if_true, decide_eq_true_eq] at hc
        exact hge.1 hc
      · simp only [hev, Bool.false_eq_true, if_false, decide_eq_true_eq] at hc
        exact le_of_lt (hgt.1 hc)
    refine ⟨hn, trivial, ?_, hle, hup, Or.inr trivial⟩
    rw [hv]
    congr 2
    ring


/-! ## Lists of ASCII decimal digits -/

theorem digits_value_nil : digits_value [] = 0 := rfl

theorem digits_value_append_single (l : List Nat) (c : Nat) :
    digits_value (l ++ [c]) = 10 * digits_value l + (c - 48) := by
  unfold digits_value
  rw [List.foldl_append]
  rfl

theorem digits_value_append (l t : List Nat) :
    digits_value (l ++ t) = digits_value l * 10 ^ t.length + digits_value t := by
  induction t using List.reverseRecOn with
  | nil => simp [digits_value_nil]
  | append_singleton t c ih =>
    rw [← List.append_assoc, digits_value_append_single, ih, digits_value_append_single]
    simp only [List.length_append, List.length_singleton, pow_succ]
    ring

theorem digits_value_cons (c : Nat) (l : List Nat) :
    digits_value (c :: l) = (c - 48) * 10 ^ l.length + digits_value l := by
  have := digits_value_append [c] l
  have h1 : digits_value [c] = c - 48 := by
    have := digits_value_append_single [] c
    simpa [digits_value_nil] using this
  rw [h1] at this
  simpa using this

theorem digits_value_lt (l : List Nat) (h : all_digits l) : digits_value l < 10 ^ l.length := by
  induction l using List.reverseRecOn with
  | nil => simp [digits_value_nil]
  | append_singleton l c ih =>
    rw [digits_value_append_single]
    have hc := h c (by simp)
    have hl := ih (fun x hx => h x (by simp [hx]))
    simp only [List.length_append, List.length_singleton, pow_succ]
    omega

theorem all_digits_append (l t : List Nat) : all_digits (l ++ t) ↔ all_digits l ∧ all_digits t := by
  unfold all_digits
  constructor
  · intro h
    exact ⟨fun c hc => h c (List.mem_append_left _ hc), fun c hc => h c (List.mem_append_right _ hc)⟩
  · intro h c hc
    rcases List.mem_append.1 hc with hc | hc
    · exact h.1 c hc
    · exact h.2 c hc

theorem all_digits_nil : all_digits [] := by
  intro c hc
  simp at hc

theorem all_digits_single (c : Nat) (h1 : 48 ≤ c) (h2 : c ≤ 57) : all_digits [c] := by
  intro x hx
  simp only [List.mem_singleton] at hx
  subst hx
  exact ⟨h1, h2⟩

theorem all_digits_cons (c : Nat) (l : List Nat) : all_digits (c :: l) ↔ (48 ≤ c ∧ c ≤ 57) ∧ all_digits l := by
  unfold all_digits
  simp only [List.mem_cons, forall_eq_or_imp]

theorem all_digits_replicate (n : Nat) : all_digits (List.replicate n 48) := by
  intro c hc
  have := List.eq_of_mem_replicate hc
  omega

theorem digits_value_replicate_zero (n : Nat) : digits_value (List.replicate n 48) = 0 := by
  induction n with
  | zero => rfl
  | succ n ih =>
    rw [List.replicate_succ, digits_value_cons, ih]
    simp

theorem nat_digits_length (n i : Nat) : (nat_digits n i).length = n := by
  induction n generalizing i with
  | zero => rfl
  | succ n ih => simp [nat_digits, ih]

theorem nat_digits_all (n i : Nat) : all_digits (nat_digits n i) := by
  induction n generalizing i with
  | zero => exact all_digits_nil
  | succ n ih =>
    rw [nat_digits, all_digits_append]
    refine ⟨ih _, all_digits_single _ (by omega) (by omega)⟩

theorem nat_digits_value (n i : Nat) : digits_value (nat_digits n i) = i % 10 ^ n := by
  induction n generalizing i with
  | zero => simp [nat_digits, digits_value_nil, Nat.mod_one]
  | succ n ih =>
    rw [nat_digits, digits_value_append_single, ih, pow_succ]
    have : 48 + i % 10 - 48 = i % 10 := by omega
    rw [this]
    have h2 : i % (10 ^ n * 10) = i % 10 + 10 * (i / 10 % 10 ^ n) := by
      rw [mul_comm, Nat.mod_mul]
    omega

/-- A list of digits is the digit string of its value. -/
theorem nat_digits_of_value (l : List Nat) (h : all_digits l) :
    nat_digits l.length (digits_value l) = l := by
  induction l using List.reverseRecOn with
  | nil => rfl
  | append_singleton l c ih =>
    have hc := h c (by simp)
    have hl : all_digits l := fun x hx => h x (by simp [hx])
    rw [digits_value_append_single]
    simp only [List.length_append, List.length_singleton, nat_digits]
    have h1 : (10 * digits_value l + (c - 48)) / 10 = digits_value l := by omega
    have h2 : 48 + (10 * digits_value l + (c - 48)) % 10 = c := by omega
    rw [h1, h2, ih hl]

theorem digits_eq_of_value (l t : List Nat) (hl : all_digits l) (ht : all_digits t)
    (hlen : l.length = t.length) (hv : digits_value l = digits_value t) : l = t := by
  rw [← nat_digits_of_value l hl, ← nat_digits_of_value t ht, hlen, hv]


open Bignum

theorem div_lt_ten (a b : Nat) (h : a < 10 * b) : a / b < 10 := by
  rcases Nat.eq_zero_or_pos b with hb | hb
  · subst hb; simp
  · rw [Nat.div_lt_iff_lt_mul hb]; omega

/-- The first loop of `GenerateCountedDigits` writes the next `n` decimal digits of
`numerator / denominator`. -/
theorem GenerateCountedDigits_loop_spec (den : Bignum) (hd : den.wf) (hpos : 0 < den.value)
    (n : Nat) (dbl : double_format_context) (num : Bignum) (hn : num.wf)
    (hlt : num.value < 10 * den.value) :
    ∃ ds num', GenerateCountedDigits_loop den n dbl num
        = some ({ dbl with digits := dbl.digits ++ ds }, num') ∧
      num'.wf ∧ num'.value < 10 * den.value ∧ ds.length = n ∧ all_digits ds ∧
      num.value * 10 ^ n = digits_value ds * (10 * den.value) + num'.value := by
  induction n generalizing dbl num with
  | zero =>
    refine ⟨[], num, ?_, hn, hlt, rfl, all_digits_nil, ?_⟩
    · simp [GenerateCountedDigits_loop]
    · simp [digits_value_nil]
  | succ n ih =>
    have hq := div_lt_ten _ _ hlt
    obtain ⟨r, hr1, hr2, hr3⟩ := DivideModuloIntBignum_spec num den hn hd hpos (by omega)
    rw [GenerateCountedDigits_loop, hr1]
    simp only []
    have hrlt : r.value < den.value := by rw [hr2]; exact Nat.mod_lt _ hpos
    have htv := Times10_value r hr3
    have htw := Times10_wf r hr3
    have hdm := Nat.div_add_mod num.value den.value
    rw [← hr2] at hdm
    generalize num.value / den.value = q at *
    obtain ⟨ds, num', i1, i2, i3, i4, i5, i6⟩ := ih
      (dbl.add_num_digit (q % 256)) r.Times10 htw (by omega)
    rw [i1]
    have hc : (q % 256 + 48) % 256 = q + 48 := by omega
    refine ⟨(q + 48) :: ds, num', ?_, i2, i3, by simp [i4], ?_, ?_⟩
    · simp only [double_format_context.add_num_digit, hc, List.append_assoc, List.singleton_append]
    · rw [all_digits_cons]
      exact ⟨⟨by omega, by omega⟩, i5⟩
    · rw [digits_value_cons, i4]
      rw [htv] at i6
      have e1 : q + 48 - 48 = q := by omega
      rw [e1, ← hdm, pow_succ]
      have : (den.value * q + r.value) * (10 ^ n * 10)
          = q * 10 ^ n * (10 * den.value) + r.value * 10 * 10 ^ n := by
        ring
      rw [this, i6]
      ring


open Bignum

theorem round_up_digit_append (l t : List Nat) (i : Nat) (h : i < l.length) :
    round_up_digit (l ++ t) i = round_up_digit l i ++ t := by
  unfold round_up_digit
  rw [List.getD_append _ _ _ _ h, List.set_append_left _ _ h]

theorem counted_carry_loop_append (i : Nat) (l t : List Nat) (h : i < l.length) :
    counted_carry_loop (l ++ t) i = counted_carry_loop l i ++ t := by
  induction i generalizing l with
  | zero => rfl
  | succ i ih =>
    rw [counted_carry_loop, counted_carry_loop, List.getD_append _ _ _ _ h]
    by_cases hc : l.getD (i + 1) 0 ≠ 58
    · simp only [hc, ne_eq, not_false_eq_true, if_true]
    · simp only [hc, if_false]
      rw [List.set_append_left _ _ h, round_up_digit_append _ _ _ (by simp; omega)]
      exact ih _ (by simp [round_up_digit]; omega)

theorem getD_snoc (l : List Nat) (c : Nat) : (l ++ [c]).getD l.length 0 = c := by
  rw [List.getD_append_right _ _ _ _ le_rfl]
  simp

theorem set_snoc (l : List Nat) (c x : Nat) : (l ++ [c]).set l.length x = l ++ [x] := by
  rw [List.set_append]
  simp

/-- The carry loop of `GenerateCountedDigits` keeps the number written and leaves a
`':'` at most in front. -/
theorem counted_carry_loop_spec (ds : List Nat) (c : Nat) (hds : all_digits ds)
    (hc1 : 48 ≤ c) (hc2 : c ≤ 58) :
    ∃ h r, counted_carry_loop (ds ++ [c]) ds.length = h :: r ∧ all_digits r ∧ 48 ≤ h ∧ h ≤ 58 ∧
      digits_value (h :: r) = digits_value (ds ++ [c]) ∧ r.length = ds.length := by
  induction ds using List.reverseRecOn generalizing c with
  | nil =>
    exact ⟨c, [], rfl, all_digits_nil, hc1, hc2, rfl, rfl⟩
  | append_singleton ds d ih =>
    have hd := hds d (by simp)
    have hds' : all_digits ds := fun x hx => hds x (by simp [hx])
    have hlen : (ds ++ [d]).length = ds.length + 1 := by simp
    rw [hlen, counted_carry_loop]
    have hg : (ds ++ [d] ++ [c]).getD (ds.length + 1) 0 = c := by
      rw [← hlen]; exact getD_snoc _ _
    rw [hg]
    by_cases hc : c ≠ 58
    · simp only [hc, ne_eq, not_false_eq_true, if_true]
      have hall : all_digits (ds ++ [d] ++ [c]) := by
        rw [all_digits_append]
        exact ⟨hds, all_digits_single c hc1 (by omega)⟩
      cases hds0 : ds with
      | nil =>
        subst hds0
        refine ⟨d, [c], rfl, all_digits_single c hc1 (by omega), hd.1, by omega, rfl, rfl⟩
      | cons x xs =>
        rw [hds0] at hall
        simp only [List.cons_append] at hall ⊢
        rw [all_digits_cons] at hall
        refine ⟨x, xs ++ [d] ++ [c], rfl, hall.2, hall.1.1, by omega, rfl, by simp⟩
    · simp only [hc, if_false]
      have hc58 : c = 58 := by omega
      subst hc58
      have hs : (ds ++ [d] ++ [58]).set (ds.length + 1) 48 = ds ++ [d] ++ [48] := by
        rw [← hlen]; exact set_snoc _ _ _
      rw [hs]
      have hr : round_up_digit (ds ++ [d] ++ [48]) ds.length = ds ++ [d + 1] ++ [48] := by
        rw [round_up_digit_append _ _ _ (by simp)]
        unfold round_up_digit
        rw [getD_snoc, set_snoc]
        have : (d + 1) % 256 = d + 1 := by omega
        rw [this]
      rw [hr, counted_carry_loop_append _ _ _ (by simp)]
      obtain ⟨h, r, i1, i2, i3, i4, i5, i6⟩ := ih (d + 1) hds' (by omega) (by omega)
      rw [i1]
      refine ⟨h, r ++ [48], List.cons_append _ _ _, ?_, i3, i4, ?_, by simp [i6]⟩
      · rw [all_digits_append]
        exact ⟨i2, all_digits_single 48 (by norm_num) (by norm_num)⟩
      · rw [← List.cons_append, digits_value_append_single, i5, digits_value_append_single,
          digits_value_append_single, digits_value_append_single]
        omega


open Bignum

theorem round_half_up_split (a b q r : Nat) (hb : 0 < b) (h : a = q * b + r) (hr : r < b) :
    round_half_up a b = if b ≤ 2 * r then q + 1 else q := by
  unfold round_half_up
  subst h
  by_cases hc : b ≤ 2 * r
  · simp only [hc, if_true]
    apply Nat.div_eq_of_lt_le
    · have : (q + 1) * (2 * b) = 2 * (q * b) + 2 * b := by ring
      rw [this]; omega
    · have : (q + 1 + 1) * (2 * b) = 2 * (q * b) + 4 * b := by ring
      rw [this]; omega
  · simp only [hc, if_false]
    apply Nat.div_eq_of_lt_le
    · have : q * (2 * b) = 2 * (q * b) := by ring
      rw [this]; omega
    · have : (q + 1) * (2 * b) = 2 * (q * b) + 2 * b := by ring
      rw [this]; omega

theorem round_half_up_bounds (a b n : Nat) (hb : 0 < b) (h1 : b ≤ a) (h2 : a < 10 * b) :
    10 ^ n ≤ round_half_up (a * 10 ^ n) b ∧ round_half_up (a * 10 ^ n) b ≤ 10 ^ (n + 1) := by
  unfold round_half_up
  have hp : 0 < 10 ^ n := pow_pos (by norm_num) _
  constructor
  · rw [Nat.le_div_iff_mul_le (by omega)]
    have : b * 10 ^ n ≤ a * 10 ^ n := Nat.mul_le_mul_right _ h1
    have e : 10 ^ n * (2 * b) = 2 * (b * 10 ^ n) := by ring
    rw [e]; omega
  · have h3 : (a + 1) * 10 ^ n ≤ 10 * b * 10 ^ n := Nat.mul_le_mul_right _ h2
    have e1 : (a + 1) * 10 ^ n = a * 10 ^ n + 10 ^ n := by ring
    have e2 : 10 * b * 10 ^ n = b * 10 ^ (n + 1) := by rw [pow_succ]; ring
    rw [e1, e2] at h3
    apply Nat.le_of_lt_succ
    rw [Nat.div_lt_iff_lt_mul (by omega)]
    have e3 : (10 ^ (n + 1)).succ * (2 * b) = 2 * (b * 10 ^ (n + 1)) + 2 * b := by
      rw [Nat.succ_eq_add_one]; ring
    rw [e3]
    omega

/-- Function `GenerateCountedDigits` writes the `count` digits of `numerator /
denominator * 10^(count - 1)` rounded to the nearest integer, a tie going up. -/
theorem GenerateCountedDigits_spec (dbl : double_format_context) (count : Int)
    (num den : Bignum) (hn : num.wf) (hd : den.wf) (hpos : 0 < den.value) (hc : 1 ≤ count)
    (hdig : dbl.digits = []) (hge : den.value ≤ num.value) (hlt : num.value < 10 * den.value) :
    ∃ ds k, GenerateCountedDigits dbl count num den
        = some { dbl with digits := ds, decimal_point := k } ∧
      ds.length = count.toNat ∧ all_digits ds ∧ 10 ^ (count.toNat - 1) ≤ digits_value ds ∧
      ((digits_value ds = round_half_up (num.value * 10 ^ (count.toNat - 1)) den.value
          ∧ k = dbl.decimal_point)
        ∨ (round_half_up (num.value * 10 ^ (count.toNat - 1)) den.value = 10 ^ count.toNat
          ∧ digits_value ds = 10 ^ (count.toNat - 1) ∧ k = dbl.decimal_point + 1)) := by
  have hcn : (count - 1).toNat = count.toNat - 1 := by omega
  obtain ⟨ds1, num1, l1, l2, l3, l4, l5, l6⟩ :=
    GenerateCountedDigits_loop_spec den hd hpos (count.toNat - 1) dbl num hn hlt
  have hq := div_lt_ten _ _ l3
  obtain ⟨r, hr1, hr2, hr3⟩ := DivideModuloIntBignum_spec num1 den l2 hd hpos (by omega)
  have hrlt : r.value < den.value := by rw [hr2]; exact Nat.mod_lt _ hpos
  have hdm := Nat.div_add_mod num1.value den.value
  rw [← hr2] at hdm
  have hpc := PlusCompare_ge_iff r r den hr3 hr3 hd
  obtain ⟨b1, b2⟩ := round_half_up_bounds num.value den.value (count.toNat - 1) hpos hge hlt
  have hn1 : count.toNat - 1 + 1 = count.toNat := by omega
  rw [hn1] at b2
  unfold GenerateCountedDigits
  rw [hcn, l1]
  simp only []
  rw [hr1]
  simp only []
  generalize num1.value / den.value = q at *
  -- the last digit, rounded
  have hsplit := round_half_up_split (num.value * 10 ^ (count.toNat - 1)) den.value
    (10 * digits_value ds1 + q) r.value hpos (by rw [l6, ← hdm]; ring) hrlt
  generalize hI : round_half_up (num.value * 10 ^ (count.toNat - 1)) den.value = I at *
  obtain ⟨dg, hdg⟩ : ∃ dg, dg = (if PlusCompare r r den ≥ 0 then (q + 1) % 2 ^ 16 else q) := ⟨_, rfl⟩
  rw [← hdg]
  have hdgv : dg = if den.value ≤ 2 * r.value then q + 1 else q := by
    rw [hdg]
    by_cases h2 : den.value ≤ 2 * r.value
    · have : PlusCompare r r den ≥ 0 := hpc.2 (by omega)
      simp only [this, h2, if_true]
      omega
    · have : ¬ PlusCompare r r den ≥ 0 := fun h => h2 (by have := hpc.1 h; omega)
      simp only [this, h2, if_false]
  have hdg10 : dg ≤ 10 := by rw [hdgv]; split_ifs <;> omega
  have hIv : I = 10 * digits_value ds1 + dg := by
    rw [hsplit, hdgv]; split_ifs <;> omega
  have hch : (dg % 256 + 48) % 256 = 48 + dg := by omega
  simp only [double_format_context.add_num_digit, hch, hdig, List.nil_append]
  obtain ⟨h, rs, c1, c2, c3, c4, c5, c6⟩ := counted_carry_loop_spec ds1 (48 + dg) l5 (by omega)
    (by omega)
  rw [l4] at c1
  rw [c1]
  rw [digits_value_append_single] at c5
  have e48 : 48 + dg - 48 = dg := by omega
  rw [e48, ← hIv] at c5
  rw [digits_value_cons, c6, l4] at c5
  have hrs := digits_value_lt rs c2
  rw [c6, l4] at hrs
  have hpw : 10 ^ count.toNat = 10 * 10 ^ (count.toNat - 1) := by
    rw [← pow_succ']; congr 1; omega
  by_cases h58 : h = 58
  · subst h58
    simp only [List.getD_cons_zero, if_true, List.set_cons_zero]
    have hrs0 : digits_value rs = 0 := by omega
    refine ⟨49 :: rs, dbl.decimal_point + 1, rfl, by simp [c6, l4]; omega, ?_, ?_, Or.inr ?_⟩
    · rw [all_digits_cons]; exact ⟨⟨by norm_num, by norm_num⟩, c2⟩
    · rw [digits_value_cons, c6, l4, hrs0]; omega
    · refine ⟨by omega, ?_, rfl⟩
      rw [digits_value_cons, c6, l4, hrs0]; omega
  · simp only [List.getD_cons_zero, h58, if_false]
    refine ⟨h :: rs, dbl.decimal_point, rfl, by simp [c6, l4]; omega, ?_, ?_, Or.inl ?_⟩
    · rw [all_digits_cons]; exact ⟨⟨c3, by omega⟩, c2⟩
    · rw [digits_value_cons, c6, l4, c5]; exact b1
    · refine ⟨?_, rfl⟩
      rw [digits_value_cons, c6, l4, c5]


open Bignum

theorem round_half_up_eq_floor (a b : Nat) (x : ℚ) (hb : 0 < b) (h : (a : ℚ) = x * (b : ℚ)) :
    round_half_up a b = ⌊x + 1 / 2⌋₊ := by
  unfold round_half_up
  have hbq : (b : ℚ) ≠ 0 := by exact_mod_cast hb.ne'
  have e : x + 1 / 2 = (((2 * a + b : Nat) : ℚ)) / ((2 * b : Nat) : ℚ) := by
    push_cast
    rw [h]
    field_simp
    ring
  rw [e, Nat.floor_div_eq_div]

theorem head_ne_zero_of_value (ds : List Nat) (h : all_digits ds)
    (hv : 10 ^ (ds.length - 1) ≤ digits_value ds) : ds.head? ≠ some 48 := by
  cases ds with
  | nil => simp
  | cons c rs =>
    simp only [List.head?_cons, ne_eq, Option.some.injEq]
    intro hc
    subst hc
    rw [all_digits_cons] at h
    have := digits_value_lt rs h.2
    rw [digits_value_cons] at hv
    simp at hv
    omega

theorem floor_zero_of_lt (x : ℚ) (h : x < 1 / 2) : ⌊x + 1 / 2⌋₊ = 0 := by
  rw [Nat.floor_eq_zero]
  linarith

theorem ctx_digits_nil (dbl : double_format_context) (k : Int) (h : dbl.digits = []) :
    { dbl with decimal_point := k } = { dbl with digits := [], decimal_point := k } := by
  cases dbl
  simp only at h
  subst h
  rfl

theorem encodes_fixed_zero (r : Nat) : encodes_fixed [] (-(r : Int)) r 0 := by
  refine ⟨all_digits_nil, by simp, by simp, fun _ => rfl, by simp [digits_value_nil]⟩

/-- Function `BignumToFixed` writes `v` rounded to `r` fractional digits, a tie going up. -/
theorem BignumToFixed_spec (dbl : double_format_context) (num den : Bignum) (v : ℚ) (r : Nat)
    (hn : num.wf) (hd : den.wf) (hpos : 0 < den.value) (hge : den.value ≤ num.value)
    (hlt : num.value < 10 * den.value)
    (hv : ((num.value : Nat) : ℚ) = v * 10 ^ (1 - dbl.decimal_point) * ((den.value : Nat) : ℚ))
    (hr : dbl.requested_digits = r) (hdig : dbl.digits = []) :
    ∃ ds k, BignumToFixed dbl num den = some { dbl with digits := ds, decimal_point := k } ∧
      encodes_fixed ds k r ⌊v * 10 ^ r + 1 / 2⌋₊ := by
  have hdq : (0 : ℚ) < ((den.value : Nat) : ℚ) := by exact_mod_cast hpos
  have h10 : (10 : ℚ) ≠ 0 := by norm_num
  have hp10 : ∀ z : Int, (0 : ℚ) < 10 ^ z := fun z => zpow_pos (by norm_num) z
  -- `v * 10^(1 - k) < 10`
  have hx10 : v * 10 ^ (1 - dbl.decimal_point) < 10 := by
    have : ((num.value : Nat) : ℚ) < ((10 * den.value : Nat) : ℚ) := by exact_mod_cast hlt
    rw [hv] at this
    push_cast at this
    exact lt_of_mul_lt_mul_right this hdq.le
  unfold BignumToFixed
  by_cases h1 : -dbl.decimal_point > dbl.requested_digits
  · simp only [h1, if_true]
    refine ⟨[], -dbl.requested_digits, by rw [ctx_digits_nil _ _ hdig], ?_⟩
    rw [hr] at h1 ⊢
    have hz : ⌊v * 10 ^ r + 1 / 2⌋₊ = 0 := by
      apply floor_zero_of_lt
      have e : v * 10 ^ r = v * 10 ^ (1 - dbl.decimal_point) * 10 ^ ((r : Int) + dbl.decimal_point - 1) := by
        rw [mul_assoc, ← zpow_add₀ h10, ← zpow_natCast]
        congr 2
        ring
      rw [e]
      have h2 : (10 : ℚ) ^ ((r : Int) + dbl.decimal_point - 1) ≤ 10 ^ (-2 : Int) :=
        zpow_le_zpow_right₀ (by norm_num) (by omega)
      have h3 : v * 10 ^ (1 - dbl.decimal_point) * 10 ^ ((r : Int) + dbl.decimal_point - 1)
          < 10 * 10 ^ ((r : Int) + dbl.decimal_point - 1) :=
        mul_lt_mul_of_pos_right hx10 (hp10 _)
      have h4 : (10 : ℚ) * 10 ^ ((r : Int) + dbl.decimal_point - 1) ≤ 1 / 10 := by
        have h5 : (10 : ℚ) * 10 ^ (-2 : Int) = 1 / 10 := by norm_num
        rw [← h5]
        exact mul_le_mul_of_nonneg_left h2 (by norm_num)
      generalize v * 10 ^ (1 - dbl.decimal_point) * 10 ^ ((r : Int) + dbl.decimal_point - 1) = A at *
      generalize (10 : ℚ) * 10 ^ ((r : Int) + dbl.decimal_point - 1) = B at *
      linarith
    rw [hz]
    exact encodes_fixed_zero r
  · simp only [h1, if_false]
    by_cases h2 : -dbl.decimal_point = dbl.requested_digits
    · simp only [h2, if_true]
      rw [hr] at h2 h1
      have htv := Times10_value den hd
      have htw := Times10_wf den hd
      have hpc := PlusCompare_ge_iff num num den.Times10 hn hn htw
      rw [htv] at hpc
      have hxr : ((num.value : Nat) : ℚ) = v * 10 ^ r * ((den.value * 10 : Nat) : ℚ) := by
        rw [hv]
        push_cast
        have : (10 : ℚ) ^ (1 - dbl.decimal_point) = 10 ^ r * 10 := by
          rw [← zpow_natCast, ← h2, sub_eq_add_neg, zpow_add₀ h10]
          norm_num
          ring
        rw [this]
        ring
      have hfl := round_half_up_eq_floor num.value (den.value * 10) (v * 10 ^ r) (by omega) hxr
      rw [← hfl]
      unfold round_half_up
      by_cases h3 : PlusCompare num num den.Times10 ≥ 0
      · simp only [h3, if_true]
        have h4 := hpc.1 h3
        refine ⟨[49], dbl.decimal_point + 1, ?_, ?_⟩
        · simp only [double_format_context.add_digit, hdig, List.nil_append]
        · have hq : (2 * num.value + den.value * 10) / (2 * (den.value * 10)) = 1 := by
            apply Nat.div_eq_of_lt_le <;> omega
          rw [hq]
          refine ⟨all_digits_single 49 (by norm_num) (by norm_num), by simp, ?_, by simp, ?_⟩
          · simp only [List.length_singleton]; omega
          · have : (dbl.decimal_point + 1 + (r : Int) - ([49] : List Nat).length).toNat = 0 := by
              simp only [List.length_singleton]; omega
            rw [this]
            rfl
      · simp only [h3, if_false]
        have h4 : ¬ den.value * 10 ≤ num.value + num.value := fun h => h3 (hpc.2 h)
        refine ⟨[], dbl.decimal_point, ?_, ?_⟩
        · rw [← ctx_digits_nil _ _ hdig]
        · have hq : (2 * num.value + den.value * 10) / (2 * (den.value * 10)) = 0 := by
            apply Nat.div_eq_of_lt; omega
          rw [hq]
          have : dbl.decimal_point = -(r : Int) := by omega
          rw [this]
          exact encodes_fixed_zero r
    · simp only [h2, if_false]
      rw [hr] at h2 h1
      have hc : 1 ≤ dbl.decimal_point + (r : Int) := by omega
      obtain ⟨ds, k, g1, g2, g3, g4, g5⟩ := GenerateCountedDigits_spec dbl
        (dbl.decimal_point + r) num den hn hd hpos hc hdig hge hlt
      have hcount : dbl.decimal_point + dbl.requested_digits = dbl.decimal_point + (r : Int) := by
        rw [hr]
      refine ⟨ds, k, by rw [hcount]; exact g1, ?_⟩
      have hxr : (((num.value * 10 ^ ((dbl.decimal_point + r).toNat - 1) : Nat)) : ℚ)
          = v * 10 ^ r * ((den.value : Nat) : ℚ) := by
        push_cast
        rw [hv]
        have e1 : (10 : ℚ) ^ r = 10 ^ (1 - dbl.decimal_point)
            * 10 ^ ((dbl.decimal_point + r).toNat - 1) := by
          rw [← zpow_natCast, ← zpow_natCast, ← zpow_add₀ h10]
          congr 1
          omega
        rw [e1]
        ring
      have hfl := round_half_up_eq_floor _ den.value (v * 10 ^ r) hpos hxr
      rw [hfl] at g5
      have hhead := head_ne_zero_of_value ds g3 (by rw [g2]; exact g4)
      rcases g5 with ⟨g5, g6⟩ | ⟨g5, g6, g7⟩
      · refine ⟨g3, hhead, by rw [g2, g6]; omega, ?_, ?_⟩
        · intro h0
          rw [h0] at g2
          simp at g2
          omega
        · have : (k + (r : Int) - ds.length).toNat = 0 := by rw [g2, g6]; omega
          rw [this, g5]
          simp
      · refine ⟨g3, hhead, by rw [g2, g7]; omega, ?_, ?_⟩
        · intro h0
          rw [h0] at g2
          simp at g2
          omega
        · have : (k + (r : Int) - ds.length).toNat = 1 := by rw [g2, g7]; omega
          rw [this, g6, g5]
          have : 10 ^ (dbl.decimal_point + r).toNat
              = 10 ^ ((dbl.decimal_point + r).toNat - 1) * 10 ^ 1 := by
            rw [← pow_add]; congr 1; omega
          rw [this]


open Bignum

/-- The state of the counted modes after `InitialScaledStartValues` and `FixupMultiply10`:
`1 <= numerator / denominator < 10` and `numerator / denominator = v / 10^(k - 1)`. -/
theorem counted_start (m : Nat) (e : Int) (lbc : Bool) (hm0 : 0 < m) (hm : m < 2 ^ 53)
    (he1 : -1074 ≤ e) (he2 : e ≤ 972) (hden : m < 2 ^ 52 → e = -1074)
    (r : Int × BignumState)
    (hr : r = FixupMultiply10 (EstimatePower (NormalizedExponent m e)) (decide (m &&& 1 = 0))
        (InitialScaledStartValues m e lbc (EstimatePower (NormalizedExponent m e)) false {})) :
    r.2.numerator.wf ∧ r.2.denominator.wf ∧ 0 < r.2.denominator.value ∧
    r.2.denominator.value ≤ r.2.numerator.value ∧
    r.2.numerator.value < 10 * r.2.denominator.value ∧
    ((r.2.numerator.value : Nat) : ℚ)
      = double_value m e * 10 ^ (1 - r.1) * ((r.2.denominator.value : Nat) : ℚ) ∧
    (r.1 = EstimatePower (NormalizedExponent m e)
      ∨ r.1 = EstimatePower (NormalizedExponent m e) + 1) := by
  obtain ⟨b1, b2, b3, b4, b5⟩ := estimate_of_double m e hm0 hm he1 he2 hden
  have hnorm : 0 ≤ e → 2 ^ 52 ≤ m := by
    intro h0
    by_contra hc
    have := hden (by omega)
    omega
  obtain ⟨s1, s2, s3, s4, s5, s6, s7⟩ := InitialScaledStartValues_counted m e
    (EstimatePower (NormalizedExponent m e)) lbc hm0 hm b1 b2 b3 hnorm
  have hodd : decide (m &&& 1 = 0) = false →
      (InitialScaledStartValues m e lbc (EstimatePower (NormalizedExponent m e)) false {}).numerator.value
      ≠ (InitialScaledStartValues m e lbc (EstimatePower (NormalizedExponent m e)) false
          {}).denominator.value := by
    intro h
    apply s7
    rw [decide_eq_false_iff_not, Nat.and_one_is_mod] at h
    omega
  obtain ⟨f1, f2, f3, f4, f5, f6⟩ := FixupMultiply10_counted
    (EstimatePower (NormalizedExponent m e)) (decide (m &&& 1 = 0)) _ (double_value m e)
    s1 s2 s3 s4 s5 s6 b4 b5 hodd
  subst hr
  refine ⟨f1, ?_, ?_, ?_, ?_, ?_, f6⟩
  · rw [f2]; exact s2
  · rw [f2]; exact s3
  · rw [f2]; exact f4
  · rw [f2]; exact f5
  · rw [f2]; exact f3


open Bignum

/-- In FIXED mode `bignum_dtoa` writes the value rounded to `r` fractional digits, a tie
going up. -/
theorem bignum_dtoa_fixed (dbl : double_format_context) (r : Nat)
    (hm0 : 0 < dbl.significand) (hm : dbl.significand < 2 ^ 53)
    (he1 : -1074 ≤ dbl.exponent) (he2 : dbl.exponent ≤ 972)
    (hden : dbl.significand < 2 ^ 52 → dbl.exponent = -1074)
    (hr : dbl.requested_digits = r) (hdig : dbl.digits = []) :
    ∃ ds k, bignum_dtoa dbl dtoa_mode.FIXED = some { dbl with digits := ds, decimal_point := k } ∧
      encodes_fixed ds k r (fixed_rounding dbl.significand dbl.exponent r) := by
  obtain ⟨b1, b2, b3, b4, b5⟩ := estimate_of_double dbl.significand dbl.exponent hm0 hm he1 he2 hden
  have hcs := counted_start dbl.significand dbl.exponent dbl.lower_boundary_is_closer hm0 hm he1
    he2 hden _ rfl
  unfold bignum_dtoa
  simp only [true_and, reduceCtorEq, decide_False]
  by_cases h1 : -EstimatePower (NormalizedExponent dbl.significand dbl.exponent) - 1
      > dbl.requested_digits
  · simp only [h1, if_true]
    refine ⟨[], -dbl.requested_digits, by rw [ctx_digits_nil _ _ hdig], ?_⟩
    rw [hr] at h1 ⊢
    have hz : fixed_rounding dbl.significand dbl.exponent r = 0 := by
      unfold fixed_rounding
      apply floor_zero_of_lt
      have h10 : (10 : ℚ) ≠ 0 := by norm_num
      have h2 : (10 : ℚ) ^ (EstimatePower (NormalizedExponent dbl.significand dbl.exponent) + 1)
          * 10 ^ (r : Int) ≤ 10 ^ (-1 : Int) := by
        rw [← zpow_add₀ h10]
        exact zpow_le_zpow_right₀ (by norm_num) (by omega)
      have h3 : double_value dbl.significand dbl.exponent * 10 ^ (r : Int)
          < 10 ^ (EstimatePower (NormalizedExponent dbl.significand dbl.exponent) + 1)
            * 10 ^ (r : Int) :=
        mul_lt_mul_of_pos_right b5 (zpow_pos (by norm_num) _)
      rw [zpow_natCast] at h3 h2
      have h5 : (10 : ℚ) ^ (-1 : Int) = 1 / 10 := by norm_num
      rw [h5] at h2
      generalize double_value dbl.significand dbl.exponent * 10 ^ r = A at *
      linarith
    rw [hz]
    exact encodes_fixed_zero r
  · simp only [h1, if_false]
    obtain ⟨c1, c2, c3, c4, c5, c6, c7⟩ := hcs
    generalize FixupMultiply10 (EstimatePower (NormalizedExponent dbl.significand dbl.exponent))
      (decide (dbl.significand &&& 1 = 0))
      (InitialScaledStartValues dbl.significand dbl.exponent dbl.lower_boundary_is_closer
        (EstimatePower (NormalizedExponent dbl.significand dbl.exponent)) false {}) = fx at *
    obtain ⟨ds, k, g1, g2⟩ := BignumToFixed_spec { dbl with decimal_point := fx.1 }
      fx.2.numerator fx.2.denominator (double_value dbl.significand dbl.exponent) r
      c1 c2 c3 c4 c5 c6 hr hdig
    exact ⟨ds, k, g1, g2⟩

/-- In PRECISION mode `bignum_dtoa` writes the `n` leading digits of the value, rounded to
the nearest, a tie going up; `kv` is the decimal exponent of the value. -/
theorem bignum_dtoa_precision (dbl : double_format_context) (n : Nat) (hn : 1 ≤ n)
    (hm0 : 0 < dbl.significand) (hm : dbl.significand < 2 ^ 53)
    (he1 : -1074 ≤ dbl.exponent) (he2 : dbl.exponent ≤ 972)
    (hden : dbl.significand < 2 ^ 52 → dbl.exponent = -1074)
    (hr : dbl.requested_digits = n) (hdig : dbl.digits = []) :
    ∃ ds k kv, bignum_dtoa dbl dtoa_mode.PRECISION
        = some { dbl with digits := ds, decimal_point := k } ∧
      ds.length = n ∧ all_digits ds ∧ 10 ^ (n - 1) ≤ digits_value ds ∧
      (10 : ℚ) ^ (kv - 1) ≤ double_value dbl.significand dbl.exponent ∧
      double_value dbl.significand dbl.exponent < (10 : ℚ) ^ kv ∧
      ((digits_value ds = ⌊double_value dbl.significand dbl.exponent * 10 ^ ((n : Int) - kv) + 1 / 2⌋₊
          ∧ k = kv)
        ∨ (⌊double_value dbl.significand dbl.exponent * 10 ^ ((n : Int) - kv) + 1 / 2⌋₊ = 10 ^ n
          ∧ digits_value ds = 10 ^ (n - 1) ∧ k = kv + 1)) := by
  have hcs := counted_start dbl.significand dbl.exponent dbl.lower_boundary_is_closer hm0 hm he1
    he2 hden _ rfl
  unfold bignum_dtoa
  simp only [false_and, reduceCtorEq, decide_False, if_false]
  obtain ⟨c1, c2, c3, c4, c5, c6, c7⟩ := hcs
  generalize FixupMultiply10 (EstimatePower (NormalizedExponent dbl.significand dbl.exponent))
    (decide (dbl.significand &&& 1 = 0))
    (InitialScaledStartValues dbl.significand dbl.exponent dbl.lower_boundary_is_closer
      (EstimatePower (NormalizedExponent dbl.significand dbl.exponent)) false {}) = fx at *
  have hdq : (0 : ℚ) < ((fx.2.denominator.value : Nat) : ℚ) := by exact_mod_cast c3
  have h10 : (10 : ℚ) ≠ 0 := by norm_num
  obtain ⟨ds, k, g1, g2, g3, g4, g5⟩ := GenerateCountedDigits_spec { dbl with decimal_point := fx.1 }
    dbl.requested_digits fx.2.numerator fx.2.denominator c1 c2 c3 (by omega) hdig c4 c5
  have hnn : dbl.requested_digits.toNat = n := by omega
  rw [hnn] at g2 g4 g5
  have hxr : (((fx.2.numerator.value * 10 ^ (n - 1) : Nat)) : ℚ)
      = double_value dbl.significand dbl.exponent * 10 ^ ((n : Int) - fx.1)
        * ((fx.2.denominator.value : Nat) : ℚ) := by
    push_cast
    rw [c6]
    have e1 : (10 : ℚ) ^ ((n : Int) - fx.1) = 10 ^ (1 - fx.1) * 10 ^ (n - 1) := by
      rw [← zpow_natCast, ← zpow_add₀ h10]
      congr 1
      omega
    rw [e1]
    ring
  have hfl := round_half_up_eq_floor _ fx.2.denominator.value _ c3 hxr
  rw [hfl] at g5
  refine ⟨ds, k, fx.1, g1, g2, g3, g4, ?_, ?_, g5⟩
  · -- 10^(k-1) <= v
    have h1 : ((fx.2.denominator.value : Nat) : ℚ) ≤ ((fx.2.numerator.value : Nat) : ℚ) := by
      exact_mod_cast c4
    rw [c6] at h1
    have h2 : (1 : ℚ) ≤ double_value dbl.significand dbl.exponent * 10 ^ (1 - fx.1) := by
      by_contra hc
      push_neg at hc
      have := mul_lt_mul_of_pos_right hc hdq
      linarith
    have h3 := mul_le_mul_of_nonneg_right h2 (zpow_pos (by norm_num : (0 : ℚ) < 10) (fx.1 - 1)).le
    rw [mul_assoc, ← zpow_add₀ h10, one_mul] at h3
    have : (1 - fx.1 + (fx.1 - 1)) = 0 := by ring
    rw [this, zpow_zero, mul_one] at h3
    exact h3
  · have h1 : ((fx.2.numerator.value : Nat) : ℚ) < ((10 * fx.2.denominator.value : Nat) : ℚ) := by
      exact_mod_cast c5
    rw [c6] at h1
    push_cast at h1
    have h2 : double_value dbl.significand dbl.exponent * 10 ^ (1 - fx.1) < 10 :=
      lt_of_mul_lt_mul_right h1 hdq.le
    have h3 := mul_lt_mul_of_pos_right h2 (zpow_pos (by norm_num : (0 : ℚ) < 10) (fx.1 - 1))
    rw [mul_assoc, ← zpow_add₀ h10] at h3
    have : (1 - fx.1 + (fx.1 - 1)) = 0 := by ring
    rw [this, zpow_zero, mul_one] at h3
    have e2 : (10 : ℚ) * 10 ^ (fx.1 - 1) = 10 ^ fx.1 := by
      rw [← zpow_one_add₀ h10]
      congr 1
      ring
    rw [e2] at h3
    exact h3


/-- C11 (code evaluation): `write_dec_with_sep` puts the separator after the first digit of
a three-digit number, `123` gives `"1,23"` (and `123456789` gives `"1,23,456,789"`), while
`1234`, `123456` and `1234567890` are grouped as claimed; `format_num` with type `'n'`
passes the text on unchanged. -/
theorem write_dec_with_sep_three_digits :
    write_dec_with_sep 123 44 = bytes "1,23" ∧
    write_dec_with_sep 123456789 44 = bytes "1,23,456,789" ∧
    write_dec_with_sep 1234 44 = bytes "1,234" ∧
    write_dec_with_sep 123456 44 = bytes "123,456" ∧
    write_dec_with_sep 1234567890 44 = bytes "1,234,567,890" ∧
    format_num [] { type := 110 } 123 false = some (bytes "1,23") := by
  decide


/-! ## Integer texts -/

theorem base_100_digits_spec :
    ∀ k < 100, base_100_digits.getD (k * 2) 0 = 48 + k / 10 ∧
      base_100_digits.getD (k * 2 + 1) 0 = 48 + k % 10 := by
  decide

theorem int_digits_spec :
    ∀ up : Bool, ∀ d < 16, char_digit ((int_digits up).getD d 0) = d ∧
      ((int_digits up).getD d 0 = 48 ↔ d = 0) ∧
      (d < 2 → (int_digits up).getD d 0 ∈ (int_digits up).take 2) ∧
      (d < 8 → (int_digits up).getD d 0 ∈ (int_digits up).take 8) ∧
      (int_digits up).getD d 0 ∈ (int_digits up).take 16 := by
  decide

theorem base_value_append_single (b : Nat) (l : List Nat) (c : Nat) :
    base_value b (l ++ [c]) = b * base_value b l + char_digit c := by
  unfold base_value
  rw [List.foldl_append]
  rfl

theorem base_value_append (b : Nat) (l t : List Nat) :
    base_value b (l ++ t) = base_value b l * b ^ t.length + base_value b t := by
  induction t using List.reverseRecOn with
  | nil => simp [base_value]
  | append_singleton t c ih =>
    rw [← List.append_assoc, base_value_append_single, ih, base_value_append_single]
    simp only [List.length_append, List.length_singleton, pow_succ]
    ring

theorem base_value_cons (b c : Nat) (l : List Nat) :
    base_value b (c :: l) = char_digit c * b ^ l.length + base_value b l := by
  have h := base_value_append b [c] l
  have h1 : base_value b [c] = char_digit c := by simp [base_value]
  rw [h1] at h
  simpa using h

theorem write_int_loop_spec (b : Nat) (up : Bool) (hb : 2 ≤ b) (fuel i : Nat) (acc : List Nat)
    (h : i ≤ fuel) :
    ∃ r ds, write_int_loop b up fuel i acc = (r, ds ++ acc) ∧ r < b ∧
      (∀ c ∈ ds, ∃ d < b, c = (int_digits up).getD d 0) ∧
      (∀ cd : Nat → Nat, (∀ d < b, cd ((int_digits up).getD d 0) = d) →
        i = r * b ^ ds.length + ds.foldl (fun a c => b * a + cd c) 0) ∧
      (0 < i → 0 < r) ∧ (i < b → ds = [] ∧ r = i) := by
  induction fuel generalizing i acc with
  | zero =>
    have hi : i = 0 := by omega
    subst hi
    exact ⟨0, [], rfl, by omega, by simp, fun _ _ => by simp, fun h0 => absurd h0 (by omega),
      fun _ => ⟨rfl, rfl⟩⟩
  | succ fuel ih =>
    rw [write_int_loop]
    by_cases hge : i ≥ b
    · simp only [hge, if_true]
      have hlt : i / b < i := Nat.div_lt_self (by omega) (by omega)
      obtain ⟨r, ds, e1, e2, e3, e4, e5, e6⟩ :=
        ih (i / b) ((int_digits up).getD (i % b) 0 :: acc) (by omega)
      have hmod : i % b < b := Nat.mod_lt _ (by omega)
      refine ⟨r, ds ++ [(int_digits up).getD (i % b) 0], ?_, e2, ?_, ?_, ?_, ?_⟩
      · rw [e1]; simp
      · intro c hc
        rcases List.mem_append.1 hc with hc | hc
        · exact e3 c hc
        · simp only [List.mem_singleton] at hc
          exact ⟨i % b, hmod, hc⟩
      · intro cd hcd
        have := e4 cd hcd
        rw [List.foldl_append]
        simp only [List.foldl_cons, List.foldl_nil, List.length_append, List.length_singleton]
        rw [hcd _ hmod, pow_succ]
        have hdm := Nat.div_add_mod i b
        generalize ds.foldl (fun a c => b * a + cd c) 0 = s at this ⊢
        generalize i / b = q at *
        generalize i % b = m at *
        rw [← hdm, this]
        ring
      · intro _
        have : 0 < i / b := Nat.div_pos hge (by omega)
        exact e5 this
      · intro hc; omega
    · simp only [hge, if_false]
      refine ⟨i, [], rfl, by omega, by simp, fun _ _ => by simp, fun h0 => h0, fun _ => ⟨rfl, rfl⟩⟩

theorem write_int_is_numeral (b : Nat) (up : Bool) (hb : b = 2 ∨ b = 8 ∨ b = 16) (v : Nat) :
    is_numeral (int_digits up) b v (write_int v b up) := by
  have hb2 : 2 ≤ b := by omega
  have hb16 : b ≤ 16 := by omega
  obtain ⟨r, ds, e1, e2, e3, e4, e5, e6⟩ := write_int_loop_spec b up hb2 v v [] le_rfl
  have hspec := int_digits_spec up
  unfold write_int
  rw [e1]
  simp only [List.append_nil]
  have hmem : ∀ d < b, (int_digits up).getD d 0 ∈ (int_digits up).take b := by
    intro d hd
    obtain ⟨-, -, s2, s8, s16⟩ := hspec d (by omega)
    rcases hb with h | h | h
    · subst h; exact s2 hd
    · subst h; exact s8 hd
    · subst h; exact s16
  refine ⟨?_, by simp, ?_, ?_⟩
  · intro c hc
    rcases List.mem_cons.1 hc with hc | hc
    · rw [hc]; exact hmem r e2
    · obtain ⟨d, hd, rfl⟩ := e3 c hc
      exact hmem d hd
  · intro hh
    simp only [List.head?_cons, Option.some.injEq] at hh
    have hr0 : r = 0 := ((hspec r (by omega)).2.1).1 hh
    have hv0 : v = 0 := by
      by_contra hc
      have := e5 (by omega)
      omega
    obtain ⟨hds, -⟩ := e6 (by omega)
    rw [hds, hh]
  · have h4 := e4 char_digit (fun d hd => (hspec d (by omega)).1)
    rw [base_value_cons, (hspec r (by omega)).1]
    unfold base_value
    omega

theorem write_dec_loop_spec (fuel i : Nat) (acc : List Nat) (h : i ≤ fuel) :
    ∃ r ds, write_dec_loop fuel i acc = (r, ds ++ acc) ∧ r < 100 ∧ all_digits ds ∧
      i = r * 10 ^ ds.length + digits_value ds ∧ (0 < i → 0 < r) ∧ (i < 100 → ds = [] ∧ r = i) := by
  induction fuel generalizing i acc with
  | zero =>
    have hi : i = 0 := by omega
    subst hi
    exact ⟨0, [], rfl, by omega, all_digits_nil, by simp [digits_value_nil],
      fun h0 => absurd h0 (by omega), fun _ => ⟨rfl, rfl⟩⟩
  | succ fuel ih =>
    rw [write_dec_loop]
    by_cases hge : i ≥ 100
    · simp only [hge, if_true]
      obtain ⟨r, ds, e1, e2, e3, e4, e5, e6⟩ :=
        ih (i / 100) (base_100_digits.getD (i % 100 * 2) 0
          :: base_100_digits.getD (i % 100 * 2 + 1) 0 :: acc) (by omega)
      have hmod : i % 100 < 100 := Nat.mod_lt _ (by omega)
      obtain ⟨t1, t2⟩ := base_100_digits_spec (i % 100) hmod
      refine ⟨r, ds ++ [48 + i % 100 / 10, 48 + i % 100 % 10], ?_, e2, ?_, ?_, ?_, ?_⟩
      · rw [e1, t1, t2]; simp
      · rw [all_digits_append]
        refine ⟨e3, ?_⟩
        intro c hc
        simp only [List.mem_cons, List.mem_singleton, List.not_mem_nil, or_false] at hc
        rcases hc with hc | hc <;> omega
      · rw [digits_value_append]
        have hv : digits_value [48 + i % 100 / 10, 48 + i % 100 % 10] = i % 100 := by
          rw [digits_value_cons, digits_value_cons, digits_value_nil]
          simp
          omega
        rw [hv]
        simp only [List.length_append, List.length_cons, List.length_nil]
        have hdm := Nat.div_add_mod i 100
        generalize digits_value ds = s at e4 ⊢
        generalize i / 100 = q at *
        generalize i % 100 = m at *
        rw [← hdm, e4, pow_add]
        ring
      · intro _
        exact e5 (by omega)
      · intro hc; omega
    · simp only [hge, if_false]
      exact ⟨i, [], rfl, by omega, all_digits_nil, by simp [digits_value_nil], fun h0 => h0,
        fun _ => ⟨rfl, rfl⟩⟩

/-- Function `write_dec` writes the decimal digits of `v`, with no leading zero. -/
theorem write_dec_spec (v : Nat) :
    all_digits (write_dec v) ∧ digits_value (write_dec v) = v ∧ write_dec v ≠ [] ∧
    ((write_dec v).head? = some 48 → write_dec v = [48]) ∧ (0 < v → (write_dec v).head? ≠ some 48) := by
  obtain ⟨r, ds, e1, e2, e3, e4, e5, e6⟩ := write_dec_loop_spec v v [] le_rfl
  unfold write_dec
  rw [e1]
  simp only [List.append_nil]
  by_cases hr : r ≥ 10
  · simp only [hr, if_true]
    obtain ⟨t1, t2⟩ := base_100_digits_spec r e2
    rw [t1, t2]
    have hq : r / 10 < 10 := by omega
    refine ⟨?_, ?_, by simp, ?_, ?_⟩
    · rw [all_digits_cons, all_digits_cons]
      exact ⟨⟨by omega, by omega⟩, ⟨by omega, by omega⟩, e3⟩
    · rw [digits_value_cons, digits_value_cons]
      simp only [List.length_cons]
      have e : 48 + r / 10 - 48 = r / 10 := by omega
      have e' : 48 + r % 10 - 48 = r % 10 := by omega
      rw [e, e', pow_succ]
      generalize digits_value ds = s at e4 ⊢
      have hdm := Nat.div_add_mod r 10
      generalize r / 10 = q at *
      generalize r % 10 = m at *
      rw [e4, ← hdm]
      ring
    · intro hh
      simp only [List.head?_cons, Option.some.injEq] at hh
      omega
    · intro _ hh
      simp only [List.head?_cons, Option.some.injEq] at hh
      omega
  · simp only [hr, if_false]
    refine ⟨?_, ?_, by simp, ?_, ?_⟩
    · rw [all_digits_cons]
      exact ⟨⟨by omega, by omega⟩, e3⟩
    · rw [digits_value_cons]
      have e : 48 + r - 48 = r := by omega
      rw [e, e4]
    · intro hh
      simp only [List.head?_cons, Option.some.injEq] at hh
      have hr0 : r = 0 := by omega
      have hv0 : v = 0 := by
        by_contra hc
        have := e5 (by omega)
        omega
      obtain ⟨hds, -⟩ := e6 (by omega)
      rw [hds, hr0]
    · intro hv hh
      simp only [List.head?_cons, Option.some.injEq] at hh
      have := e5 hv
      omega


theorem digit_mem_take_ten (c : Nat) (h1 : 48 ≤ c) (h2 : c ≤ 57) :
    c ∈ (bytes "0123456789").take 10 := by
  have h : ∀ d < 10, 48 + d ∈ (bytes "0123456789").take 10 := by decide
  have := h (c - 48) (by omega)
  rwa [show 48 + (c - 48) = c by omega] at this

theorem base_value_ten (l : List Nat) (h : all_digits l) : base_value 10 l = digits_value l := by
  induction l using List.reverseRecOn with
  | nil => rfl
  | append_singleton l c ih =>
    rw [all_digits_append] at h
    rw [base_value_append_single, digits_value_append_single, ih h.1]
    have hc := h.2 c (by simp)
    have : char_digit c = c - 48 := by
      unfold char_digit
      rw [if_pos hc]
    rw [this]

theorem write_dec_is_numeral (v : Nat) : is_numeral (bytes "0123456789") 10 v (write_dec v) := by
  obtain ⟨h1, h2, h3, h4, -⟩ := write_dec_spec v
  refine ⟨fun c hc => ?_, h3, h4, ?_⟩
  · exact digit_mem_take_ten c (h1 c hc).1 (h1 c hc).2
  · rw [base_value_ten _ h1, h2]

/-- C12: for every unsigned `v`, `write_dec` (types none and `'d'`) writes the decimal numeral
of `v`, and `write_int` with base 2 (types `'b'`, `'B'`), 8 (`'o'`) and 16 (`'x'` with the
lowercase alphabet, `'X'` with the uppercase one) writes the numeral of `v` in that base: the
characters are digits of the base, there is no leading zero (`0` is written `"0"`), and reading
the text back in the base gives `v`. -/
theorem base_conversion (v : Nat) :
    is_numeral (bytes "0123456789") 10 v (write_dec v) ∧
    is_numeral (bytes "0123456789abcdef") 2 v (write_int v 2 false) ∧
    is_numeral (bytes "0123456789abcdef") 8 v (write_int v 8 false) ∧
    is_numeral (bytes "0123456789abcdef") 16 v (write_int v 16 false) ∧
    is_numeral (bytes "0123456789ABCDEF") 16 v (write_int v 16 true) ∧
    write_dec 0 = bytes "0" ∧ write_int 0 2 false = bytes "0" ∧ write_int 0 8 false = bytes "0" ∧
    write_int 0 16 false = bytes "0" ∧ write_int 0 16 true = bytes "0" ∧
    (∀ spec : format_spec,
      format_num_digits { spec with type := 0 } v = some (0, write_dec v) ∧
      format_num_digits { spec with type := 100 } v = some (0, write_dec v) ∧
      format_num_digits { spec with type := 98 } v = some (spec.alt, write_int v 2 false) ∧
      format_num_digits { spec with type := 66 } v = some (spec.alt, write_int v 2 false) ∧
      format_num_digits { spec with type := 111 } v = some (spec.alt, write_int v 8 false) ∧
      format_num_digits { spec with type := 120 } v = some (spec.alt, write_int v 16 false) ∧
      format_num_digits { spec with type := 88 } v = some (spec.alt, write_int v 16 true)) := by
  refine ⟨write_dec_is_numeral v, write_int_is_numeral 2 false (by simp) v,
    write_int_is_numeral 8 false (by simp) v, write_int_is_numeral 16 false (by simp) v,
    write_int_is_numeral 16 true (by simp) v, by decide, by decide, by decide, by decide,
    by decide, fun spec => ?_⟩
  refine ⟨?_, ?_, ?_, ?_, ?_, ?_, ?_⟩ <;> simp [format_num_digits]

theorem format_num_head_eq (spec : format_spec) (negative : Bool)
    (ht : spec.type ∈ [0, 100, 110, 98, 111, 120, 88]) (hs : spec.sign ∈ [0, 43, 45, 32])
    (alt : Nat) (digits : List Nat) (arg : Nat)
    (hd : format_num_digits spec arg = some (alt, digits)) :
    format_num_head spec alt negative = sign_text spec.sign negative ++ alternate_text spec.alt spec.type := by
  simp only [List.mem_cons, List.mem_singleton, List.not_mem_nil, or_false] at ht hs
  unfold format_num_digits at hd
  unfold format_num_head sign_char sign_text alternate_text add
  by_cases ha : spec.alt = 0
  · rcases ht with h | h | h | h | h | h | h <;> simp [h] at hd <;> obtain ⟨rfl, -⟩ := hd <;>
      rcases hs with g | g | g | g <;> cases negative <;> simp [h, g, ha, bytes]
  · rcases ht with h | h | h | h | h | h | h <;> simp [h] at hd <;> obtain ⟨rfl, -⟩ := hd <;>
      rcases hs with g | g | g | g <;> cases negative <;> simp [h, g, ha, bytes]


/-- C13: for every integer magnitude and sign, every sign flag and each of the type chars
none, `'d'`, `'n'`, `'b'`, `'o'`, `'x'`, `'X'`, `format_num` writes, between the sign text and
the digits (and the `'='` padding, when there is some), the prefix `"0x"` for `'x'`, `"0X"` for
`'X'`, `"0b"` for `'b'`, `"0"` for `'o'` and nothing for the decimal types when the `'#'` flag
is set, and nothing at all when it is not; the digits are those written without the flag. -/
theorem format_num_alternate_form (out : List Nat) (spec : format_spec) (arg : Nat) (negative : Bool)
    (ht : spec.type ∈ [0, 100, 110, 98, 111, 120, 88]) (hs : spec.sign ∈ [0, 43, 45, 32]) :
    ∃ alt digits p f, format_num_digits spec arg = some (alt, digits) ∧
      (format_num_digits { spec with alt := 0 } arg).map Prod.snd = some digits ∧
      p = spec.width - ((sign_text spec.sign negative).length
            + (alternate_text spec.alt spec.type).length + digits.length) ∧
      f = (if spec.fill = 0 then 32 else spec.fill) ∧
      format_num out spec arg negative = some (
        out ++ List.replicate (if spec.align = 62 ∨ spec.align = 0 then p
                                else if spec.align = 94 then p / 2 else 0) f
          ++ sign_text spec.sign negative ++ alternate_text spec.alt spec.type
          ++ List.replicate (if spec.align = 61 then p else 0) f
          ++ digits
          ++ List.replicate (if spec.align = 60 then p
                              else if spec.align = 94 then p - p / 2 else 0) f) ∧
      (spec.alt = 0 → alternate_text spec.alt spec.type = []) ∧
      (spec.alt ≠ 0 → alternate_text spec.alt spec.type =
        if spec.type = 120 then bytes "0x" else if spec.type = 88 then bytes "0X"
        else if spec.type = 98 then bytes "0b" else if spec.type = 111 then bytes "0" else []) := by
  have ht2 : spec.type ∈ [0, 100, 110, 98, 66, 111, 120, 88] := by
    simp only [List.mem_cons, List.mem_singleton, List.not_mem_nil, or_false] at ht ⊢
    omega
  obtain ⟨alt, digits, hd⟩ := format_num_digits_isSome spec arg ht2
  have hh := format_num_head_eq spec negative ht hs alt digits arg hd
  have nf := format_num_normal_form out spec arg negative alt digits hd _ rfl _ rfl
  refine ⟨alt, digits, _, _, hd, ?_, rfl, rfl, ?_, ?_, ?_⟩
  · simp only [List.mem_cons, List.mem_singleton, List.not_mem_nil, or_false] at ht
    unfold format_num_digits at hd ⊢
    rcases ht with h | h | h | h | h | h | h <;> simp [h] at hd ⊢ <;> exact hd.2
  · rw [nf, hh]
    simp only [List.length_append, List.append_assoc, Nat.add_assoc]
  · intro h; simp [alternate_text, h]
  · intro h; simp [alternate_text, h]

/-- C13 witness: `"{:#x}"`, `"{:#X}"` style specs of 42 give `"0x2a"`. -/
theorem format_num_alternate_form_witness :
    format_num [] { type := 120, alt := 1 } 42 false = some (bytes "0x2a") := by
  obtain ⟨alt, digits, p, f, hd, -, hp, hf, h, -, -⟩ :=
    format_num_alternate_form [] { type := 120, alt := 1 } 42 false (by decide) (by decide)
  have e : format_num_digits { type := 120, alt := 1 } 42 = some (1, bytes "2a") := by decide
  rw [e] at hd
  obtain ⟨rfl, rfl⟩ : (1 : Nat) = alt ∧ bytes "2a" = digits := by
    simpa using hd
  rw [h, hp, hf]
  decide


/-! ## Special values and zero -/

theorem write_padded_fields (out : List Nat) (spec spec2 : format_spec) (text : List Nat)
    (hw : spec2.width = spec.width) (ha : spec2.align = spec.align) (hf : spec2.fill = spec.fill) :
    write_padded out spec2 text = write_padded out spec text := by
  unfold write_padded
  rw [hw, ha, hf]

theorem write_padded_narrow (out : List Nat) (spec : format_spec) (text : List Nat)
    (h : spec.width ≤ text.length) : write_padded out spec text = out ++ text := by
  unfold write_padded
  simp [h]

theorem do_format_double_nonfinite (out : List Nat) (spec : format_spec) (u : Nat)
    (h : (u / 2 ^ 52) % 2 ^ 11 = 2047) :
    do_format_double out spec u = some (write_padded out spec (
      (if sign_char spec (decide (u / 2 ^ 63 % 2 = 1)) ≠ 0 ∧ u % 2 ^ 52 = 0
        then [sign_char spec (decide (u / 2 ^ 63 % 2 = 1))] else []) ++
      (if u % 2 ^ 52 = 0 then (if type_is_upper spec.type then bytes "INF" else bytes "inf")
        else (if type_is_upper spec.type then bytes "NAN" else bytes "nan")))) := by
  have h2 : (u % 2 ^ 63 / 2 ^ 52) % 2 ^ 11 = 2047 := by omega
  have h3 : u % 2 ^ 63 % 2 ^ 52 = u % 2 ^ 52 := by omega
  have key : ∀ s text, write_padded out { spec with sign := s } text = write_padded out spec text :=
    fun s text => write_padded_fields out spec _ text rfl rfl rfl
  unfold do_format_double
  by_cases hn : u / 2 ^ 63 % 2 = 1
  · simp only [hn, decide_True, if_true, h2, h3]
    unfold format_nan_inf
    simp only
    simp only [key]
    by_cases hz : u % 2 ^ 52 = 0 <;> simp [hz]
  · simp only [hn, decide_False, if_false, h, Bool.false_eq_true]
    unfold format_nan_inf
    simp only
    simp only [key]
    by_cases hz : u % 2 ^ 52 = 0 <;> simp [hz]

/-- C15: for every spec with one of the sign flags (none, `'+'`, `'-'`, `' '`) and a type char
that is not taken as uppercase, `do_format_double` pads (with `write_padded`, so nothing is
added when the width does not exceed the text) the text `"inf"` preceded by the sign text of a
non-negative number for `+infinity`, the text `"-inf"` for `-infinity`, and the text `"nan"`,
without any sign character, for every NaN bit pattern of either sign bit. -/
theorem special_values (out : List Nat) (spec : format_spec)
    (hs : spec.sign ∈ [0, 43, 45, 32]) (ht : type_is_upper spec.type = false) :
    do_format_double out spec 0x7FF0000000000000
      = some (write_padded out spec (sign_text spec.sign false ++ bytes "inf")) ∧
    do_format_double out spec 0xFFF0000000000000
      = some (write_padded out spec (bytes "-inf")) ∧
    (∀ u, u < 2 ^ 64 → (u / 2 ^ 52) % 2 ^ 11 = 2047 → u % 2 ^ 52 ≠ 0 →
      do_format_double out spec u = some (write_padded out spec (bytes "nan"))) ∧
    (∀ text, spec.width ≤ text.length → write_padded out spec text = out ++ text) := by
  simp only [List.mem_cons, List.mem_singleton, List.not_mem_nil, or_false] at hs
  refine ⟨?_, ?_, ?_, fun text h => write_padded_narrow out spec text h⟩
  · rw [do_format_double_nonfinite out spec _ (by decide)]
    have e1 : (0x7FF0000000000000 % 2 ^ 52 = 0) := by decide
    have e2 : decide (0x7FF0000000000000 / 2 ^ 63 % 2 = 1) = false := by decide
    simp only [e1, e2, ht, sign_char, sign_text]
    rcases hs with g | g | g | g <;> simp [g, bytes]
  · rw [do_format_double_nonfinite out spec _ (by decide)]
    have e1 : (0xFFF0000000000000 % 2 ^ 52 = 0) := by decide
    have e2 : decide (0xFFF0000000000000 / 2 ^ 63 % 2 = 1) = true := by decide
    simp only [e1, e2, ht, sign_char]
    simp [bytes]
  · intro u _ h hz
    rw [do_format_double_nonfinite out spec _ h]
    rw [if_neg (fun hh => hz hh.2), if_neg hz, ht]
    simp

/-- C15 witness: with the flag `'+'`, the three special values give `"+inf"`, `"-inf"` and
`"nan"` (the quiet NaN with either sign bit). -/
theorem special_values_witness :
    do_format_double [] { sign := 43 } 0x7FF0000000000000 = some (bytes "+inf") ∧
    do_format_double [] { sign := 43 } 0xFFF0000000000000 = some (bytes "-inf") ∧
    do_format_double [] { sign := 43 } 0x7FF8000000000000 = some (bytes "nan") ∧
    do_format_double [] { sign := 43 } 0xFFF8000000000000 = some (bytes "nan") := by
  obtain ⟨h1, h2, h3, h4⟩ := special_values [] { sign := 43 } (by decide) (by decide)
  refine ⟨?_, ?_, ?_, ?_⟩
  · rw [h1, h4 _ (by decide)]; decide
  · rw [h2, h4 _ (by decide)]; decide
  · rw [h3 _ (by decide) (by decide) (by decide), h4 _ (by decide)]; decide
  · rw [h3 _ (by decide) (by decide) (by decide), h4 _ (by decide)]; decide

/-- C16 (code evaluation): with the type char `'%'` the special values are written in
uppercase, `"INF"` and `"NAN"`, because `'%'` is below `'a'`; the other valid types behave as
described, uppercase for `'E'`, `'F'`, `'G'` and lowercase for none, `'e'`, `'f'`, `'g'`. -/
theorem format_nan_inf_percent :
    do_format_double [] { type := 37 } 0x7FF0000000000000 = some (bytes "INF") ∧
    do_format_double [] { type := 37 } 0x7FF8000000000000 = some (bytes "NAN") ∧
    format_nan_inf [] { type := 37 } true = bytes "INF" ∧
    format_nan_inf [] { type := 37 } false = bytes "NAN" ∧
    (∀ t ∈ [69, 70, 71], format_nan_inf [] { type := t } true = bytes "INF" ∧
      format_nan_inf [] { type := t } false = bytes "NAN") ∧
    (∀ t ∈ [0, 101, 102, 103], format_nan_inf [] { type := t } true = bytes "inf" ∧
      format_nan_inf [] { type := t } false = bytes "nan") := by
  decide

/-- C18: with the default spec, `+0.0` (all bits clear) is rendered `"0"` and `-0.0` (only the
sign bit set) is rendered `"-0"`: the sign bit of the bit pattern decides the sign. -/
theorem zero_and_negative_zero :
    do_format_double [] {} 0 = some (bytes "0") ∧
    do_format_double [] {} 0x8000000000000000 = some (bytes "-0") := by
  decide

/-- C20 (code evaluation): the precision `2147483648` becomes a negative `int`, which the clamp
to `[0, 120]` turns into `0`, so that `"{:.2147483648e}"` of `1.5` is `"2e+0"`, one significant
digit instead of 121; the precisions `3` and `0` give 4 and 1 digits. -/
theorem generate_exponent_huge_precision :
    requested_of_spec { type := 101, has_precision := true, precision := 2147483648 }
      = -2147483648 ∧
    clamp (-2147483648) 0 120 = 0 ∧
    do_format_double [] { type := 101, has_precision := true, precision := 2147483648 }
      0x3FF8000000000000 = some (bytes "2e+0") ∧
    do_format_double [] { type := 101, has_precision := true, precision := 3 }
      0x3FF8000000000000 = some (bytes "1.500e+0") ∧
    do_format_double [] { type := 101, has_precision := true, precision := 0 }
      0x3FF8000000000000 = some (bytes "2e+0") := by
  decide!


/-! ## Exponential notation -/

theorem exponent_digits_loop_spec (fuel n : Nat) (acc : List Nat) (h : n ≤ fuel) :
    ∃ ds, exponent_digits_loop fuel n acc = ds ++ acc ∧ all_digits ds ∧ digits_value ds = n ∧
      (0 < n → ds ≠ [] ∧ ds.head? ≠ some 48) := by
  induction fuel generalizing n acc with
  | zero =>
    have hn : n = 0 := by omega
    subst hn
    exact ⟨[], rfl, all_digits_nil, rfl, fun h0 => absurd h0 (by omega)⟩
  | succ fuel ih =>
    rw [exponent_digits_loop]
    by_cases hpos : n > 0
    · simp only [hpos, if_true]
      have hlt : n / 10 < n := Nat.div_lt_self hpos (by omega)
      obtain ⟨ds, e1, e2, e3, e4⟩ := ih (n / 10) ((48 + n % 10) :: acc) (by omega)
      refine ⟨ds ++ [48 + n % 10], ?_, ?_, ?_, ?_⟩
      · rw [e1]; simp
      · rw [all_digits_append]
        exact ⟨e2, all_digits_single _ (by omega) (by omega)⟩
      · rw [digits_value_append_single, e3]
        omega
      · intro _
        refine ⟨by simp, ?_⟩
        by_cases hq : 0 < n / 10
        · obtain ⟨g1, g2⟩ := e4 hq
          cases ds with
          | nil => exact absurd rfl g1
          | cons c t => simpa using g2
        · have hq0 : n / 10 = 0 := by omega
          have hds : ds = [] := by
            cases ds with
            | nil => rfl
            | cons c t =>
              exfalso
              rw [digits_value_cons, hq0] at e3
              have hc := (all_digits_cons c t).1 e2
              have := e4
              have hcv : c - 48 = 0 := by
                have hp : 0 < 10 ^ t.length := pow_pos (by omega) _
                rcases Nat.eq_zero_or_pos (c - 48) with h0 | h0
                · exact h0
                · have : 0 < (c - 48) * 10 ^ t.length := Nat.mul_pos h0 hp
                  omega
              have e1b := e1
              -- a leading zero digit cannot be produced for the zero quotient
              clear this
              have hz : exponent_digits_loop fuel (n / 10) ((48 + n % 10) :: acc)
                  = (48 + n % 10) :: acc := by
                rw [hq0]
                cases fuel <;> simp [exponent_digits_loop]
              rw [hz] at e1b
              have hl := congrArg List.length e1b
              simp at hl
              omega
          subst hds
          have : n % 10 ≠ 0 := by omega
          simp
          omega
    · have hn : n = 0 := by omega
      subst hn
      simp only [gt_iff_lt, lt_self_iff_false, if_false]
      exact ⟨[], rfl, all_digits_nil, rfl, fun h0 => h0.elim⟩

theorem exponent_digits_numeral (n : Nat) (hn : 0 < n) :
    is_numeral (bytes "0123456789") 10 n (exponent_digits_loop n n []) := by
  obtain ⟨ds, e1, e2, e3, e4⟩ := exponent_digits_loop_spec n n [] (le_refl _)
  rw [e1, List.append_nil]
  obtain ⟨g1, g2⟩ := e4 hn
  refine ⟨fun c hc => digit_mem_take_ten c (e2 c hc).1 (e2 c hc).2, g1, fun h => absurd h g2, ?_⟩
  rw [base_value_ten _ e2, e3]

/-- C19: for a digit buffer `d1 :: rest` with decimal point `k`, `format_exponent` appends
`d1`, then `'.'` and `rest` when there are further digits, then `'e'` (`'E'` when uppercase),
then `'-'` when `k - 1 < 0` and `'+'` otherwise, then the decimal numeral of `|k - 1|`: digits
only, at least one, no leading zero, `"0"` when `k = 1`. (The source asserts
`|k - 1| < 10000`, the range its scratch buffer is made for.) -/
theorem format_exponent_text (out : List Nat) (dbl : double_format_context) (d1 : Nat)
    (rest : List Nat) (hd : dbl.digits = d1 :: rest) :
    ∃ et, is_numeral (bytes "0123456789") 10 (dbl.decimal_point - 1).natAbs et ∧
      (dbl.decimal_point = 1 → et = bytes "0") ∧
      format_exponent out dbl = out ++ [d1] ++ (if rest = [] then [] else 46 :: rest)
        ++ [if dbl.uppercase then 69 else 101]
        ++ [if dbl.decimal_point - 1 < 0 then 45 else 43] ++ et := by
  have hlen : (dbl.digits.length ≠ 1) ↔ rest ≠ [] := by
    rw [hd]; cases rest <;> simp
  have hfrac : (if dbl.digits.length ≠ 1 then add (add out (dbl.digits.getD 0 0)) 46 ++ dbl.digits.drop 1
      else add out (dbl.digits.getD 0 0)) = out ++ [d1] ++ (if rest = [] then [] else 46 :: rest) := by
    by_cases hr : rest = []
    · have : ¬ (dbl.digits.length ≠ 1) := by rw [hlen]; simpa using hr
      rw [if_neg this, if_pos hr, hd]
      simp [add]
    · have : dbl.digits.length ≠ 1 := by rw [hlen]; exact hr
      rw [if_pos this, if_neg hr, hd]
      simp [add]
  by_cases hz : dbl.decimal_point - 1 = 0
  · refine ⟨bytes "0", ?_, fun _ => rfl, ?_⟩
    · rw [hz]; exact write_dec_is_numeral 0
    · unfold format_exponent
      dsimp only
      rw [hfrac]
      simp only [hz, lt_self_iff_false, if_false, if_true, add]
      simp [bytes]
  · have hpos : 0 < (dbl.decimal_point - 1).natAbs := Int.natAbs_pos.2 hz
    refine ⟨_, exponent_digits_numeral _ hpos, fun h1 => absurd (by omega) hz, ?_⟩
    unfold format_exponent
    dsimp only
    rw [hfrac]
    simp only [add]
    by_cases hneg : dbl.decimal_point - 1 < 0
    · have e : (-(dbl.decimal_point - 1)).toNat = (dbl.decimal_point - 1).natAbs := by omega
      have hne : ¬ (-(dbl.decimal_point - 1) = 0) := by omega
      simp only [hneg, if_true, hne, if_false, e]
    · have e : (dbl.decimal_point - 1).toNat = (dbl.decimal_point - 1).natAbs := by omega
      simp only [hneg, if_false, hz, e]

/-- C19 witness: the digits `"125"` with decimal point `-6` are written `"1.25e-"` followed by
the numeral of 7. -/
theorem format_exponent_text_witness :
    ∃ et, is_numeral (bytes "0123456789") 10 7 et ∧
      format_exponent []
        { value := 0, significand := 0, exponent := 0, digits := bytes "125", decimal_point := -6 }
        = bytes "1.25e-" ++ et := by
  obtain ⟨et, h1, -, h2⟩ := format_exponent_text []
    { value := 0, significand := 0, exponent := 0, digits := bytes "125", decimal_point := -6 }
    49 (bytes "25") rfl
  exact ⟨et, h1, by rw [h2]; rfl⟩


open Bignum

/-! ## The exact digit generation in SHORTEST mode -/

/-- The start values of the shortest mode: the four bignums are well formed, the deltas are
positive, `numerator = c * 2 * m * delta_minus` and `delta_plus = c * delta_minus` with `c = 2`
when the lower boundary is closer and `c = 1` otherwise, and
`numerator / denominator = v / 10^estimated_power`. -/
theorem InitialScaledStartValues_shortest (m : Nat) (e est : Int) (lbc : Bool)
    (hm : m < 2 ^ 53) (h1 : -324 ≤ est) (h2 : est ≤ 309) (he0 : 0 ≤ e → 0 ≤ est)
    (st : BignumState) (hst : st = InitialScaledStartValues m e lbc est true {}) :
    st.numerator.wf ∧ st.denominator.wf ∧ st.delta_minus.wf ∧ st.delta_plus.wf ∧
    0 < st.delta_minus.value ∧ 0 < st.denominator.value ∧
    st.numerator.value = (if lbc then 2 else 1) * (2 * m * st.delta_minus.value) ∧
    st.delta_plus.value = (if lbc then 2 else 1) * st.delta_minus.value ∧
    ((st.numerator.value : Nat) : ℚ)
      = double_value m e * 10 ^ (-est) * ((st.denominator.value : Nat) : ℚ) := by
  have hm64 : m < 2 ^ 64 := by omega
  have hmw := AssignUInt64_wf m
  have hmv := AssignUInt64_value m
  have two_pos : ∀ k : Nat, 0 < 2 ^ k := fun k => pow_pos (by norm_num) k
  have ten_pos : ∀ k : Nat, 0 < 10 ^ k := fun k => pow_pos (by norm_num) k
  -- the three cases before the adjustment for the closer lower boundary
  have key : ∃ n d dm : Bignum, n.wf ∧ d.wf ∧ dm.wf ∧ 0 < dm.value ∧ 0 < d.value ∧
      n.value = 2 * m * dm.value ∧
      ((n.value : Nat) : ℚ) = double_value m e * 10 ^ (-est) * ((d.value : Nat) : ℚ) ∧
      (if e ≥ 0 then InitialScaledStartValuesPositiveExponent m e est true {}
        else if est ≥ 0 then InitialScaledStartValuesNegativeExponentPositivePower m e est true {}
        else InitialScaledStartValuesNegativeExponentNegativePower m e est true {})
      = BignumState.mk n d dm dm := by
    by_cases he : e ≥ 0
    · simp only [he, if_true]
      have hest := he0 he
      obtain ⟨p1, p2⟩ := AssignPowerUInt16_ten est.toNat (by omega)
      have w1 := ShiftLeft_wf _ e.toNat hmw
      have w2 := ShiftLeft_wf _ 1 w1
      have w3 := ShiftLeft_wf _ 1 p2
      have w4 := ShiftLeft_wf _ e.toNat one_wf
      refine ⟨_, _, _, w2, w3, w4, ?_, ?_, ?_, ?_, rfl⟩
      · rw [ShiftLeft_value _ _ one_wf, one_value]; have := two_pos e.toNat; omega
      · rw [ShiftLeft_value _ _ p2, p1]; have := ten_pos est.toNat; omega
      · rw [ShiftLeft_value _ _ w1, ShiftLeft_value _ _ hmw, hmv, ShiftLeft_value _ _ one_wf,
          one_value]
        ring
      · rw [ShiftLeft_value _ _ w1, ShiftLeft_value _ _ hmw, hmv, ShiftLeft_value _ _ p2, p1]
        have := double_value_pos_exp m e est he hest
        push_cast at this ⊢
        rw [this]; ring
    · simp only [he, if_false]
      have hneg : e < 0 := by omega
      by_cases hest : est ≥ 0
      · simp only [hest, if_true]
        obtain ⟨p1, p2⟩ := AssignPowerUInt16_ten est.toNat (by omega)
        have w1 := ShiftLeft_wf _ (-e).toNat p2
        have w2 := ShiftLeft_wf _ 1 w1
        have w3 := ShiftLeft_wf _ 1 hmw
        refine ⟨_, _, _, w3, w2, one_wf, ?_, ?_, ?_, ?_, rfl⟩
        · rw [one_value]; omega
        · rw [ShiftLeft_value _ _ w1, ShiftLeft_value _ _ p2, p1]
          have := ten_pos est.toNat
          have := two_pos (-e).toNat
          positivity
        · rw [ShiftLeft_value _ _ hmw, hmv, one_value]; ring
        · rw [ShiftLeft_value _ _ hmw, hmv, ShiftLeft_value _ _ w1, ShiftLeft_value _ _ p2, p1]
          have := double_value_neg_exp_pos m e est hneg hest
          push_cast at this ⊢
          rw [this]; ring
      · simp only [hest, if_false]
        have hestn : est < 0 := by omega
        obtain ⟨p1, p2⟩ := AssignPowerUInt16_ten (-est).toNat (by omega)
        have w1 := MultiplyByUInt64_wf _ m hm64 p2
        have w2 := ShiftLeft_wf _ 1 w1
        have w3 := ShiftLeft_wf _ (-e).toNat one_wf
        have w4 := ShiftLeft_wf _ 1 w3
        refine ⟨_, _, _, w2, w4, p2, ?_, ?_, ?_, ?_, rfl⟩
        · rw [p1]; exact ten_pos _
        · rw [ShiftLeft_value _ _ w3, ShiftLeft_value _ _ one_wf, one_value]
          have := two_pos (-e).toNat
          omega
        · rw [ShiftLeft_value _ _ w1, MultiplyByUInt64_value _ _ hm64 p2]; ring
        · rw [ShiftLeft_value _ _ w1, MultiplyByUInt64_value _ _ hm64 p2, p1,
            ShiftLeft_value _ _ w3, ShiftLeft_value _ _ one_wf, one_value]
          have := double_value_neg_exp_neg m e est hneg hestn
          push_cast at this ⊢
          rw [this]; ring
  obtain ⟨n, d, dm, wn, wd, wdm, pdm, pd, hn, hq, hcase⟩ := key
  have hst2 : st = if lbc then BignumState.mk (n.ShiftLeft 1) (d.ShiftLeft 1) dm (dm.ShiftLeft 1)
      else BignumState.mk n d dm dm := by
    rw [hst]
    unfold InitialScaledStartValues
    simp only []
    rw [hcase]
    cases lbc <;> simp
  cases lbc
  · simp only [Bool.false_eq_true, if_false] at hst2 ⊢
    subst hst2
    exact ⟨wn, wd, wdm, wdm, pdm, pd, by simpa using hn, by simp, hq⟩
  · simp only [if_true] at hst2 ⊢
    subst hst2
    refine ⟨ShiftLeft_wf _ _ wn, ShiftLeft_wf _ _ wd, wdm, ShiftLeft_wf _ _ wdm, pdm, ?_, ?_, ?_, ?_⟩
    · show 0 < (d.ShiftLeft 1).value
      rw [ShiftLeft_value _ _ wd]; omega
    · show (n.ShiftLeft 1).value = 2 * (2 * m * dm.value)
      rw [ShiftLeft_value _ _ wn, hn]; ring
    · show (dm.ShiftLeft 1).value = 2 * dm.value
      rw [ShiftLeft_value _ _ wdm]; ring
    · show (((n.ShiftLeft 1).value : Nat) : ℚ)
        = double_value m e * 10 ^ (-est) * (((d.ShiftLeft 1).value : Nat) : ℚ)
      rw [ShiftLeft_value _ _ wn, ShiftLeft_value _ _ wd]
      push_cast
      rw [hq]; ring


open Bignum

theorem add_num_digit_eq (dbl : double_format_context) (d : Nat) (hd : d < 10) :
    dbl.add_num_digit d = { dbl with digits := dbl.digits ++ [d + 48] } := by
  unfold double_format_context.add_num_digit
  rw [Nat.mod_eq_of_lt (show d + 48 < 256 by omega)]

theorem round_up_last_digit_snoc (dbl : double_format_context) (l : List Nat) (c : Nat)
    (hc : c < 255) (h : dbl.digits = l ++ [c]) :
    dbl.round_up_last_digit = { dbl with digits := l ++ [c + 1] } := by
  unfold double_format_context.round_up_last_digit round_up_digit
  rw [h]
  simp [Nat.mod_eq_of_lt (show c + 1 < 256 by omega)]

/-- The digit loop of the shortest mode ends and appends decimal digits of which the last is
not `'0'`, nor is the first when the loop starts on an empty buffer. The loop is entered with
`numerator < 10 * denominator`, with a numerator that is not in the room of `delta_minus`, with
`numerator + delta_plus` below `10 * denominator` and, on an empty buffer, in the room of
`delta_plus` (the test `in_range` of `FixupMultiply10`), and with enough fuel for `delta_minus`
to reach the denominator. -/
theorem GenerateShortestDigits_loop_spec (is_even same : Bool) (D : Bignum) (hD : D.wf)
    (hDpos : 0 < D.value) (fuel : Nat) (dbl : double_format_context) (N dm dp : Bignum)
    (hN : N.wf) (hdm : dm.wf) (hdp : dp.wf) (hlt : N.value < 10 * D.value)
    (hroom : dm.value < N.value ∨ (is_even = false ∧ dm.value ≤ N.value))
    (hplus : N.value + (if same = true then dm else dp).value < 10 * D.value
      ∨ (is_even = false ∧ N.value + (if same = true then dm else dp).value ≤ 10 * D.value))
    (hin : dbl.digits = [] → D.value < N.value + (if same = true then dm else dp).value
      ∨ (is_even = true ∧ D.value ≤ N.value + (if same = true then dm else dp).value))
    (b : Nat) (hfuel : b + 1 ≤ fuel) (hterm : D.value ≤ 10 ^ b * dm.value) :
    ∃ ds c, GenerateShortestDigits_loop is_even same D fuel dbl N dm dp
        = some { dbl with digits := dbl.digits ++ ds ++ [c] } ∧
      all_digits ds ∧ 49 ≤ c ∧ c ≤ 57 ∧ ds.length ≤ b ∧
      (dbl.digits = [] → (ds ++ [c]).head? ≠ some 48) := by
  induction fuel generalizing dbl N dm dp b with
  | zero => omega
  | succ fuel ih =>
    have hq : N.value / D.value < 10 := by
      rw [Nat.div_lt_iff_lt_mul hDpos]; omega
    obtain ⟨R, hdiv, hRv, hRw⟩ := DivideModuloIntBignum_spec N D hN hD hDpos (by omega)
    have hRlt : R.value < D.value := by rw [hRv]; exact Nat.mod_lt _ hDpos
    rw [GenerateShortestDigits_loop, hdiv]
    simp only []
    rw [add_num_digit_eq dbl _ hq]
    generalize hd : N.value / D.value = d at hq
    -- the two room tests
    generalize hbm : (if is_even = true then LessEqual R dm else Less R dm) = bm
    generalize hbp : (if is_even = true then decide (PlusCompare R (if same = true then dm else dp) D ≥ 0)
      else decide (PlusCompare R (if same = true then dm else dp) D > 0)) = bp
    have hbm1 : bm = true → R.value ≤ dm.value := by
      intro h
      rw [h] at hbm
      rcases Bool.eq_false_or_eq_true is_even with hev | hev
      · rw [hev] at hbm; simp only [if_true] at hbm
        exact (LessEqual_iff R dm hRw hdm).1 hbm
      · rw [hev] at hbm; simp only [Bool.false_eq_true, if_false] at hbm
        exact le_of_lt ((Less_iff R dm hRw hdm).1 hbm)
    have hbm2 : bm = true → is_even = false → R.value < dm.value := by
      intro h hev
      rw [h, hev] at hbm; simp only [Bool.false_eq_true, if_false] at hbm
      exact (Less_iff R dm hRw hdm).1 hbm
    have hbm3 : bm = false → dm.value < R.value ∨ (is_even = false ∧ dm.value ≤ R.value) := by
      intro h
      rw [h] at hbm
      rcases Bool.eq_false_or_eq_true is_even with hev | hev
      · rw [hev] at hbm; simp only [if_true] at hbm
        left
        by_contra hc
        have := (LessEqual_iff R dm hRw hdm).2 (by omega)
        rw [this] at hbm; exact absurd hbm (by decide)
      · rw [hev] at hbm; simp only [Bool.false_eq_true, if_false] at hbm
        right
        refine ⟨hev, ?_⟩
        by_contra hc
        have := (Less_iff R dm hRw hdm).2 (by omega)
        rw [this] at hbm; exact absurd hbm (by decide)
    have hdecomp : N.value = D.value * d + R.value := by
      rw [hRv, ← hd]; exact (Nat.div_add_mod _ _).symm
    -- the room of `delta_plus`
    have hpw : (if same = true then dm else dp).wf := by
      cases same
      · exact hdp
      · exact hdm
    have hge := PlusCompare_ge_iff R (if same = true then dm else dp) D hRw hpw hD
    have hgt := PlusCompare_gt_iff R (if same = true then dm else dp) D hRw hpw hD
    generalize hPv : (if same = true then dm else dp).value = P at hplus hin hge hgt
    have hbp1 : bp = true → D.value < R.value + P ∨ (is_even = true ∧ D.value ≤ R.value + P) := by
      intro h
      rw [h] at hbp
      rcases Bool.eq_false_or_eq_true is_even with hev | hev
      · rw [hev] at hbp; simp only [if_true, decide_eq_true_eq] at hbp
        exact Or.inr ⟨hev, hge.1 hbp⟩
      · rw [hev] at hbp; simp only [Bool.false_eq_true, if_false, decide_eq_true_eq] at hbp
        exact Or.inl (hgt.1 hbp)
    have hbp0 : bp = false → R.value + P < D.value ∨ (is_even = false ∧ R.value + P ≤ D.value) := by
      intro h
      rw [h] at hbp
      rcases Bool.eq_false_or_eq_true is_even with hev | hev
      · rw [hev] at hbp; simp only [if_true, decide_eq_false_iff_not] at hbp
        left
        by_contra hc
        exact hbp (hge.2 (by omega))
      · rw [hev] at hbp; simp only [Bool.false_eq_true, if_false, decide_eq_false_iff_not] at hbp
        right
        refine ⟨hev, ?_⟩
        by_contra hc
        exact hbp (hgt.2 (by omega))
    -- a digit that is rounded up is not nine
    have hd8 : bp = true → d ≤ 8 := by
      intro h
      by_contra hc
      have hd9 : d = 9 := by omega
      rw [hd9] at hdecomp
      rcases hbp1 h with g | ⟨g1, g2⟩
      · rcases hplus with p | ⟨-, p⟩ <;> omega
      · rcases hplus with p | ⟨p1, -⟩
        · omega
        · rw [g1] at p1; exact absurd p1 (by decide)
    -- the digit is not zero when the remainder is in the room of `delta_minus`
    have hd0 : bm = true → d ≠ 0 := by
      intro h hz
      rw [hz] at hdecomp
      have h1 := hbm1 h
      rcases hroom with g | ⟨g1, g2⟩
      · omega
      · have := hbm2 h g1; omega
    have F1 : bm = true → ∃ ds c, some { dbl with digits := dbl.digits ++ [d + 48] }
        = some { dbl with digits := dbl.digits ++ ds ++ [c] } ∧ all_digits ds ∧ 49 ≤ c ∧ c ≤ 57 ∧
          ds.length ≤ b ∧ (dbl.digits = [] → (ds ++ [c]).head? ≠ some 48) := by
      intro h
      have := hd0 h
      refine ⟨[], d + 48, by simp, all_digits_nil, by omega, by omega, by simp, ?_⟩
      intro _
      simp only [List.nil_append, List.head?_cons, ne_eq, Option.some.injEq]
      omega
    have F2 : bp = true → ∃ ds c,
        some (double_format_context.round_up_last_digit { dbl with digits := dbl.digits ++ [d + 48] })
        = some { dbl with digits := dbl.digits ++ ds ++ [c] } ∧ all_digits ds ∧ 49 ≤ c ∧ c ≤ 57 ∧
          ds.length ≤ b ∧ (dbl.digits = [] → (ds ++ [c]).head? ≠ some 48) := by
      intro h
      have := hd8 h
      refine ⟨[], d + 49, ?_, all_digits_nil, by omega, by omega, by simp, ?_⟩
      · rw [round_up_last_digit_snoc _ dbl.digits (d + 48) (by omega) rfl]
        simp
      · intro _
        simp only [List.nil_append, List.head?_cons, ne_eq, Option.some.injEq]
        omega
    cases bm
    · cases bp
      · simp only [Bool.not_false, Bool.and_self, if_true]
        have hr := hbm3 rfl
        have hb1 : 1 ≤ b := by
          by_contra hc
          have hf0 : b = 0 := by omega
          rw [hf0] at hterm
          simp at hterm
          rcases hr with g | ⟨_, g⟩ <;> omega
        have hdpw : (if same = true then dp else dp.Times10).wf := by
          cases same
          · exact Times10_wf dp hdp
          · exact hdp
        have hP10 : (if same = true then dm.Times10
            else (if same = true then dp else dp.Times10)).value = 10 * P := by
          rw [← hPv]
          cases same
          · simp only [Bool.false_eq_true, if_false]; rw [Times10_value dp hdp]; ring
          · simp only [if_true]; rw [Times10_value dm hdm]; ring
        have hp0 := hbp0 rfl
        obtain ⟨ds, c, e1, e2, e3, e4, e5, -⟩ := ih { dbl with digits := dbl.digits ++ [d + 48] }
          R.Times10 dm.Times10 (if same = true then dp else dp.Times10)
          (Times10_wf R hRw) (Times10_wf dm hdm) hdpw
          (by rw [Times10_value R hRw]; omega)
          (by rw [Times10_value R hRw, Times10_value dm hdm]
              rcases hr with g | ⟨g1, g2⟩
              · left; omega
              · right; exact ⟨g1, by omega⟩)
          (by rw [Times10_value R hRw, hP10]
              rcases hp0 with g | ⟨g1, g2⟩
              · left; omega
              · right; exact ⟨g1, by omega⟩)
          (by intro hnil; exact absurd hnil (by simp))
          (b - 1) (by omega)
          (by rw [Times10_value dm hdm]
              have : 10 ^ b = 10 ^ (b - 1) * 10 := by
                rw [← pow_succ, Nat.sub_add_cancel hb1]
              rw [this] at hterm
              calc D.value ≤ 10 ^ (b - 1) * 10 * dm.value := hterm
                _ = 10 ^ (b - 1) * (dm.value * 10) := by ring)
        refine ⟨(d + 48) :: ds, c, ?_, ?_, e3, e4, by simp; omega, ?_⟩
        · rw [e1]; simp
        · rw [all_digits_cons]
          exact ⟨⟨by omega, by omega⟩, e2⟩
        · intro hnil
          simp only [List.cons_append, List.head?_cons, ne_eq, Option.some.injEq]
          intro hz
          have hd0' : d = 0 := by omega
          rw [hd0'] at hdecomp
          rcases hin hnil with g | ⟨g1, g2⟩
          · rcases hp0 with p | ⟨-, p⟩ <;> omega
          · rcases hp0 with p | ⟨p1, -⟩
            · omega
            · rw [g1] at p1; exact absurd p1 (by decide)
      · simp only [Bool.not_false, Bool.not_true, Bool.and_false, Bool.false_and,
          Bool.false_eq_true, if_false]
        exact F2 rfl
    · cases bp
      · simp only [Bool.not_true, Bool.not_false, Bool.and_true, Bool.false_and, Bool.true_and,
          Bool.and_false, Bool.false_eq_true, if_false, if_true]
        exact F1 rfl
      · simp only [Bool.not_true, Bool.and_self, Bool.false_eq_true, if_false, if_true]
        split_ifs
        · exact F1 rfl
        · exact F2 rfl
        · exact F1 rfl
        · exact F2 rfl


open Bignum

/-- The state of the shortest mode after `FixupMultiply10`: well-formed bignums with
`numerator < 10 * denominator` and `delta_minus < numerator`, and with `numerator + delta_plus`
in the room of `delta_plus` and below `10 * denominator`. -/
theorem FixupMultiply10_shortest (est : Int) (is_even : Bool) (st : BignumState) (v : ℚ) (c m : Nat)
    (hn : st.numerator.wf) (hd : st.denominator.wf) (hdm : st.delta_minus.wf)
    (hdp : st.delta_plus.wf) (pdm : 0 < st.delta_minus.value) (pd : 0 < st.denominator.value)
    (hc : 1 ≤ c) (hc2 : c ≤ 2) (hm : 1 ≤ m) (hm2 : m < 2 ^ 53)
    (hnv : st.numerator.value = c * (2 * m * st.delta_minus.value))
    (hdpv : st.delta_plus.value = c * st.delta_minus.value)
    (hv : ((st.numerator.value : Nat) : ℚ) = v * 10 ^ (-est) * ((st.denominator.value : Nat) : ℚ))
    (hlo : (10 : ℚ) ^ (est - 1) ≤ v) (hhi : v < (10 : ℚ) ^ (est + 1))
    (hbnd : st.numerator.value + st.delta_plus.value < 10 * st.denominator.value)
    (r : Int × BignumState) (hr : r = FixupMultiply10 est is_even st) :
    r.2.numerator.wf ∧ r.2.denominator.wf ∧ r.2.delta_minus.wf ∧ r.2.delta_plus.wf ∧
    0 < r.2.delta_minus.value ∧ 0 < r.2.denominator.value ∧
    r.2.numerator.value < 10 * r.2.denominator.value ∧
    r.2.delta_minus.value < r.2.numerator.value ∧
    (r.1 = est ∨ r.1 = est + 1) ∧
    r.2.denominator.value ≤ 10 ^ 17 * r.2.delta_minus.value ∧
    (r.2.numerator.value + r.2.delta_plus.value < 10 * r.2.denominator.value
      ∨ (is_even = false
        ∧ r.2.numerator.value + r.2.delta_plus.value ≤ 10 * r.2.denominator.value)) ∧
    (r.2.denominator.value < r.2.numerator.value + r.2.delta_plus.value
      ∨ (is_even = true
        ∧ r.2.denominator.value ≤ r.2.numerator.value + r.2.delta_plus.value)) := by
  have hdq : (0 : ℚ) < ((st.denominator.value : Nat) : ℚ) := by exact_mod_cast pd
  have h10 : (10 : ℚ) ≠ 0 := by norm_num
  have hge := PlusCompare_ge_iff st.numerator st.delta_plus st.denominator hn hdp hd
  have hgt := PlusCompare_gt_iff st.numerator st.delta_plus st.denominator hn hdp hd
  have hup : st.numerator.value < 10 * st.denominator.value := by
    have : ((st.numerator.value : Nat) : ℚ) < ((10 * st.denominator.value : Nat) : ℚ) := by
      rw [hv]; push_cast
      apply mul_lt_mul_of_pos_right _ hdq
      have : v * 10 ^ (-est) < 10 ^ (est + 1) * 10 ^ (-est) :=
        mul_lt_mul_of_pos_right hhi (zpow_pos (by norm_num) _)
      rw [← zpow_add₀ h10] at this
      simpa using this
    exact_mod_cast this
  have hroom : st.delta_minus.value < st.numerator.value := by
    rw [hnv]
    have h1 : 1 * (2 * 1 * st.delta_minus.value) ≤ c * (2 * m * st.delta_minus.value) :=
      Nat.mul_le_mul hc (Nat.mul_le_mul_right _ (Nat.mul_le_mul_left 2 hm))
    omega
  have pdp : 0 < st.delta_plus.value := by
    rw [hdpv]; exact Nat.mul_pos (by omega) pdm
  have hdown : st.denominator.value ≤ 10 * st.numerator.value := by
    have : ((st.denominator.value : Nat) : ℚ) ≤ ((10 * st.numerator.value : Nat) : ℚ) := by
      push_cast
      rw [hv]
      have h1 : (10 : ℚ) ^ (est - 1) * 10 ^ (-est) ≤ v * 10 ^ (-est) :=
        mul_le_mul_of_nonneg_right hlo (zpow_pos (by norm_num) _).le
      rw [← zpow_add₀ h10] at h1
      have e1 : est - 1 + -est = -1 := by ring
      rw [e1] at h1
      have h2 : (1 : ℚ) ≤ 10 * (v * 10 ^ (-est)) := by
        have h3 : (10 : ℚ) * 10 ^ (-1 : Int) ≤ 10 * (v * 10 ^ (-est)) :=
          mul_le_mul_of_nonneg_left h1 (by norm_num)
        have e10 : (10 : ℚ) * 10 ^ (-1 : Int) = 1 := by norm_num
        rw [e10] at h3
        exact h3
      calc ((st.denominator.value : Nat) : ℚ) = 1 * ((st.denominator.value : Nat) : ℚ) := by ring
        _ ≤ 10 * (v * 10 ^ (-est)) * ((st.denominator.value : Nat) : ℚ) :=
            mul_le_mul_of_nonneg_right h2 hdq.le
        _ = 10 * (v * 10 ^ (-est) * ((st.denominator.value : Nat) : ℚ)) := by ring
    exact_mod_cast this
  have hcm : c * (2 * m + 1) ≤ 2 ^ 55 := by
    have : c * (2 * m + 1) ≤ 2 * 2 ^ 54 := Nat.mul_le_mul hc2 (by omega)
    omega
  have hbig : st.numerator.value + st.delta_plus.value ≤ 10 ^ 17 * st.delta_minus.value := by
    have e1 : st.numerator.value + st.delta_plus.value = c * (2 * m + 1) * st.delta_minus.value := by
      rw [hnv, hdpv]; ring
    rw [e1]
    exact Nat.mul_le_mul_right _ (by omega)
  subst hr
  unfold FixupMultiply10
  generalize hcnd : (if is_even = true
      then decide (PlusCompare st.numerator st.delta_plus st.denominator ≥ 0)
      else decide (PlusCompare st.numerator st.delta_plus st.denominator > 0)) = cnd
  cases cnd
  · simp only [Bool.false_eq_true, if_false]
    have hlt : st.numerator.value < st.denominator.value := by
      rcases Bool.eq_false_or_eq_true is_even with hev | hev
      · simp only [hev, if_true, decide_eq_false_iff_not] at hcnd
        have := mt hge.2 hcnd
        omega
      · simp only [hev, Bool.false_eq_true, if_false, decide_eq_false_iff_not] at hcnd
        have h1 := mt hgt.2 hcnd
        omega
    have hnr : st.numerator.value + st.delta_plus.value < st.denominator.value
        ∨ (is_even = false
          ∧ st.numerator.value + st.delta_plus.value ≤ st.denominator.value) := by
      rcases Bool.eq_false_or_eq_true is_even with hev | hev
      · simp only [hev, if_true, decide_eq_false_iff_not] at hcnd
        have := mt hge.2 hcnd
        left; omega
      · simp only [hev, Bool.false_eq_true, if_false, decide_eq_false_iff_not] at hcnd
        have h1 := mt hgt.2 hcnd
        right; exact ⟨hev, by omega⟩
    have htv := Times10_value st.numerator hn
    have htw := Times10_wf st.numerator hn
    have hmv := Times10_value st.delta_minus hdm
    have hmw := Times10_wf st.delta_minus hdm
    have hpv := Times10_value st.delta_plus hdp
    have heq := Equal_iff st.delta_minus st.delta_plus hdm hdp
    generalize Bignum.Equal st.delta_minus st.delta_plus = q at heq
    cases q
    · simp only [Bool.false_eq_true, if_false]
      refine ⟨htw, hd, hmw, Times10_wf _ hdp, by omega, pd, by omega, by omega, Or.inl trivial,
        by omega, ?_, ?_⟩
      · rcases hnr with g | ⟨g1, g2⟩
        · left; show st.numerator.Times10.value + st.delta_plus.Times10.value < _; omega
        · right
          exact ⟨g1, by show st.numerator.Times10.value + st.delta_plus.Times10.value ≤ _; omega⟩
      · left; show _ < st.numerator.Times10.value + st.delta_plus.Times10.value; omega
    · simp only [if_true]
      have hval := heq.1 rfl
      refine ⟨htw, hd, hmw, hmw, by omega, pd, by omega, by omega, Or.inl trivial, by omega,
        ?_, ?_⟩
      · rcases hnr with g | ⟨g1, g2⟩
        · left; show st.numerator.Times10.value + st.delta_minus.Times10.value < _; omega
        · right
          exact ⟨g1, by show st.numerator.Times10.value + st.delta_minus.Times10.value ≤ _; omega⟩
      · left; show _ < st.numerator.Times10.value + st.delta_minus.Times10.value; omega
  · simp only [if_true]
    have hle : st.denominator.value ≤ st.numerator.value + st.delta_plus.value := by
      rcases Bool.eq_false_or_eq_true is_even with hev | hev
      · simp only [hev, if_true, decide_eq_true_eq] at hcnd
        exact hge.1 hcnd
      · simp only [hev, Bool.false_eq_true, if_false, decide_eq_true_eq] at hcnd
        exact le_of_lt (hgt.1 hcnd)
    refine ⟨hn, hd, hdm, hdp, pdm, pd, hup, hroom, Or.inr trivial, by omega, Or.inl hbnd, ?_⟩
    rcases Bool.eq_false_or_eq_true is_even with hev | hev
    · simp only [hev, if_true, decide_eq_true_eq] at hcnd
      exact Or.inr ⟨hev, hge.1 hcnd⟩
    · simp only [hev, Bool.false_eq_true, if_false, decide_eq_true_eq] at hcnd
      exact Or.inl (hgt.1 hcnd)

/-- In SHORTEST mode `bignum_dtoa` returns: it appends decimal digits, the last of which is not
`'0'` (nor the first, on an empty buffer), and sets the decimal point to the estimated power or
one more. -/
theorem bignum_dtoa_shortest (dbl : double_format_context)
    (hm0 : 0 < dbl.significand) (hm : dbl.significand < 2 ^ 53)
    (he1 : -1074 ≤ dbl.exponent) (he2 : dbl.exponent ≤ 972)
    (hden : dbl.significand < 2 ^ 52 → dbl.exponent = -1074) :
    ∃ ds c k, bignum_dtoa dbl dtoa_mode.SHORTEST
        = some { dbl with digits := dbl.digits ++ ds ++ [c], decimal_point := k } ∧
      all_digits ds ∧ 49 ≤ c ∧ c ≤ 57 ∧ ds.length ≤ 17 ∧
      (k = EstimatePower (NormalizedExponent dbl.significand dbl.exponent) ∨
        k = EstimatePower (NormalizedExponent dbl.significand dbl.exponent) + 1) ∧
      (dbl.digits = [] → (ds ++ [c]).head? ≠ some 48) := by
  obtain ⟨b1, b2, b3, b4, b5⟩ := estimate_of_double dbl.significand dbl.exponent hm0 hm he1 he2 hden
  obtain ⟨s1, s2, s3, s4, s5, s6, s7, s8, s9⟩ := InitialScaledStartValues_shortest dbl.significand
    dbl.exponent (EstimatePower (NormalizedExponent dbl.significand dbl.exponent))
    dbl.lower_boundary_is_closer hm b1 b2 b3 _ rfl
  have hub := upper_boundary_of_double dbl.significand dbl.exponent hm0 hm he1 he2 hden
  have hbnd : (InitialScaledStartValues dbl.significand dbl.exponent dbl.lower_boundary_is_closer
        (EstimatePower (NormalizedExponent dbl.significand dbl.exponent)) true {}).numerator.value
      + (InitialScaledStartValues dbl.significand dbl.exponent dbl.lower_boundary_is_closer
        (EstimatePower (NormalizedExponent dbl.significand dbl.exponent)) true {}).delta_plus.value
      < 10 * (InitialScaledStartValues dbl.significand dbl.exponent dbl.lower_boundary_is_closer
        (EstimatePower (NormalizedExponent dbl.significand dbl.exponent)) true
          {}).denominator.value := by
    generalize InitialScaledStartValues dbl.significand dbl.exponent dbl.lower_boundary_is_closer
      (EstimatePower (NormalizedExponent dbl.significand dbl.exponent)) true {} = st at *
    generalize EstimatePower (NormalizedExponent dbl.significand dbl.exponent) = est at *
    generalize (if dbl.lower_boundary_is_closer = true then 2 else 1) = c at *
    have hdq : (0 : ℚ) < ((st.denominator.value : Nat) : ℚ) := by exact_mod_cast s6
    have h10 : (10 : ℚ) ≠ 0 := by norm_num
    have hmq : (0 : ℚ) < ((dbl.significand : Nat) : ℚ) := by exact_mod_cast hm0
    have hsum : 2 * dbl.significand * (st.numerator.value + st.delta_plus.value)
        = (2 * dbl.significand + 1) * st.numerator.value := by
      rw [s7, s8]; ring
    have hsumq : (2 : ℚ) * (dbl.significand : ℚ)
          * (((st.numerator.value + st.delta_plus.value : Nat)) : ℚ)
        = ((2 * dbl.significand + 1 : Nat) : ℚ) * ((st.numerator.value : Nat) : ℚ) := by
      exact_mod_cast hsum
    have hhalf : double_value dbl.significand dbl.exponent
        = 2 * (dbl.significand : ℚ) * 2 ^ (dbl.exponent - 1) := by
      unfold double_value
      rw [zpow_sub₀ (by norm_num : (2 : ℚ) ≠ 0)]
      field_simp
      ring
    have key : (2 : ℚ) * (dbl.significand : ℚ)
          * (((st.numerator.value + st.delta_plus.value : Nat)) : ℚ)
        < 2 * (dbl.significand : ℚ) * ((10 * st.denominator.value : Nat) : ℚ) := by
      rw [hsumq, s9, hhalf]
      have h1 : ((2 * dbl.significand + 1 : Nat) : ℚ) * 2 ^ (dbl.exponent - 1) * 10 ^ (-est)
          < 10 ^ (est + 1) * 10 ^ (-est) :=
        mul_lt_mul_of_pos_right hub (zpow_pos (by norm_num) _)
      rw [← zpow_add₀ h10] at h1
      have e1 : est + 1 + -est = 1 := by ring
      rw [e1, zpow_one] at h1
      have h2 := mul_lt_mul_of_pos_right h1 hdq
      have h3 := mul_lt_mul_of_pos_left h2 (by positivity : (0 : ℚ) < 2 * (dbl.significand : ℚ))
      push_cast
      calc ((2 : ℚ) * (dbl.significand : ℚ) + 1)
            * (2 * (dbl.significand : ℚ) * 2 ^ (dbl.exponent - 1) * 10 ^ (-est)
              * (st.denominator.value : ℚ))
          = 2 * (dbl.significand : ℚ) * (((2 : ℚ) * (dbl.significand : ℚ) + 1)
              * 2 ^ (dbl.exponent - 1) * 10 ^ (-est) * (st.denominator.value : ℚ)) := by ring
        _ < 2 * (dbl.significand : ℚ) * (10 * (st.denominator.value : ℚ)) := by
            have := h3
            push_cast at this
            exact this
    have key2 := lt_of_mul_lt_mul_left key (by positivity)
    exact_mod_cast key2
  obtain ⟨f1, f2, f3, f4, f5, f6, f7, f8, f9, f10, f11, f12⟩ := FixupMultiply10_shortest
    (EstimatePower (NormalizedExponent dbl.significand dbl.exponent))
    (decide (dbl.significand &&& 1 = 0)) _ (double_value dbl.significand dbl.exponent)
    (if dbl.lower_boundary_is_closer then 2 else 1) dbl.significand
    s1 s2 s3 s4 s5 s6 (by split_ifs <;> omega) (by split_ifs <;> omega) hm0 hm s7 s8 s9 b4 b5
    hbnd _ rfl
  unfold bignum_dtoa
  simp only [reduceCtorEq, false_and, if_false, decide_True]
  generalize FixupMultiply10 (EstimatePower (NormalizedExponent dbl.significand dbl.exponent))
    (decide (dbl.significand &&& 1 = 0))
    (InitialScaledStartValues dbl.significand dbl.exponent dbl.lower_boundary_is_closer
      (EstimatePower (NormalizedExponent dbl.significand dbl.exponent)) true {}) = fx at *
  unfold GenerateShortestDigits
  have hterm : fx.2.denominator.value
      ≤ 10 ^ (min 17 fx.2.denominator.value) * fx.2.delta_minus.value := by
    rcases Nat.le_total 17 fx.2.denominator.value with h | h
    · rw [Nat.min_eq_left h]; exact f10
    · rw [Nat.min_eq_right h]
      have h1 : fx.2.denominator.value < 10 ^ fx.2.denominator.value :=
        Nat.lt_pow_self (by norm_num) _
      have h2 : 10 ^ fx.2.denominator.value * 1
          ≤ 10 ^ fx.2.denominator.value * fx.2.delta_minus.value :=
        Nat.mul_le_mul_left _ f5
      omega
  have hsame : (if Bignum.Equal fx.2.delta_minus fx.2.delta_plus = true then fx.2.delta_minus
      else fx.2.delta_plus).value = fx.2.delta_plus.value := by
    by_cases hq : Bignum.Equal fx.2.delta_minus fx.2.delta_plus = true
    · rw [if_pos hq]; exact (Equal_iff _ _ f3 f4).1 hq
    · rw [if_neg hq]
  obtain ⟨ds, c, g1, g2, g3, g4, g5, g6⟩ := GenerateShortestDigits_loop_spec
    (decide (dbl.significand &&& 1 = 0)) (Bignum.Equal fx.2.delta_minus fx.2.delta_plus)
    fx.2.denominator f2 f6 (fx.2.denominator.value + 1) { dbl with decimal_point := fx.1 }
    fx.2.numerator fx.2.delta_minus fx.2.delta_plus f1 f3 f4 f7 (Or.inl f8)
    (by rw [hsame]; exact f11) (by intro _; rw [hsame]; exact f12)
    (min 17 fx.2.denominator.value) (by omega) hterm
  exact ⟨ds, c, fx.1, g1, g2, g3, g4, by omega, f9, g6⟩


/-! ## Grisu: normalisation of the significand -/

theorem shl64_eq (a s : Nat) (h : a * 2 ^ s < 2 ^ 64) : shl64 a s = a * 2 ^ s := by
  unfold shl64
  rw [Nat.shiftLeft_eq]
  exact Nat.mod_eq_of_lt h

theorem and_mask10_eq_zero (f : Nat) (hf : f < 2 ^ 64) :
    f &&& 0xFFC0000000000000 = 0 ↔ f < 2 ^ 54 := by
  have hM : (0xFFC0000000000000 : Nat) = 2 ^ 54 * (2 ^ 10 - 1) := by norm_num
  have hbit : ∀ j, Nat.testBit 0xFFC0000000000000 j = (decide (j ≥ 54) && decide (j - 54 < 10)) := by
    intro j
    rw [hM, Nat.testBit_mul_pow_two, Nat.testBit_two_pow_sub_one]
  constructor
  · intro h
    apply Nat.lt_pow_two_of_testBit
    intro i hi
    by_cases h64 : i < 64
    · have h1 : Nat.testBit (f &&& 0xFFC0000000000000) i = false := by rw [h]; simp
      rw [Nat.testBit_and, hbit] at h1
      have h2 : (decide (i ≥ 54) && decide (i - 54 < 10)) = true := by
        simp only [Bool.and_eq_true, decide_eq_true_eq]; omega
      rw [h2, Bool.and_true] at h1
      exact h1
    · apply Nat.testBit_lt_two_pow
      calc f < 2 ^ 64 := hf
        _ ≤ 2 ^ i := Nat.pow_le_pow_right (by norm_num) (by omega)
  · intro h
    apply Nat.eq_of_testBit_eq
    intro i
    rw [Nat.testBit_and, Nat.zero_testBit]
    by_cases h54 : i < 54
    · rw [hbit]
      have : decide (i ≥ 54) = false := by simp; omega
      rw [this]; simp
    · have : Nat.testBit f i = false := by
        apply Nat.testBit_lt_two_pow
        calc f < 2 ^ 54 := h
          _ ≤ 2 ^ i := Nat.pow_le_pow_right (by norm_num) (by omega)
      rw [this]; simp

theorem and_msb_eq_zero (f : Nat) (hf : f < 2 ^ 64) :
    f &&& 0x8000000000000000 = 0 ↔ f < 2 ^ 63 := by
  have hM : (0x8000000000000000 : Nat) = 2 ^ 63 := by norm_num
  rw [hM, and_two_pow_eq_zero]
  constructor
  · intro h
    by_contra hc
    have : f / 2 ^ 63 = 1 := by omega
    omega
  · intro h
    have : f / 2 ^ 63 = 0 := Nat.div_eq_of_lt h
    rw [this]

/-- The loop of `MakeNormalized` shifts a non-zero 53-bit significand up to bit 52. -/
theorem MakeNormalized_loop_spec (fuel m : Nat) (e : Int) (hm : 0 < m) (hm2 : m < 2 ^ 53)
    (hf : 2 ^ 52 ≤ m * 2 ^ fuel) :
    ∃ j ≤ fuel, DiyFp.MakeNormalized_loop fuel m e = (m * 2 ^ j, e - j) ∧
      2 ^ 52 ≤ m * 2 ^ j ∧ m * 2 ^ j < 2 ^ 53 := by
  induction fuel generalizing m e with
  | zero =>
    refine ⟨0, le_rfl, ?_, by simpa using hf, by simpa using hm2⟩
    simp [DiyFp.MakeNormalized_loop]
  | succ fuel ih =>
    rw [DiyFp.MakeNormalized_loop]
    by_cases hb : m &&& 2 ^ 52 = 0
    · simp only [hb, if_true]
      have hlt : m < 2 ^ 52 := by
        have := (and_two_pow_eq_zero m 52).1 hb
        omega
      have hs : shl64 m 1 = 2 * m := by
        rw [shl64_eq m 1 (by omega)]; ring
      rw [hs]
      have hf' : 2 ^ 52 ≤ 2 * m * 2 ^ fuel := by
        have : m * 2 ^ (fuel + 1) = 2 * m * 2 ^ fuel := by ring
        rw [← this]; exact hf
      obtain ⟨j, hj, i1, i2, i3⟩ := ih (2 * m) (e - 1) (by omega) (by omega) hf'
      have e2 : m * 2 ^ (j + 1) = 2 * m * 2 ^ j := by ring
      refine ⟨j + 1, by omega, ?_, by rw [e2]; exact i2, by rw [e2]; exact i3⟩
      rw [i1, e2]; congr 1; push_cast; ring
    · simp only [hb, if_false]
      have hge : 2 ^ 52 ≤ m := by
        by_contra hc
        apply hb
        apply (and_two_pow_eq_zero m 52).2
        have : m / 2 ^ 52 = 0 := Nat.div_eq_of_lt (by omega)
        rw [this]
      exact ⟨0, Nat.zero_le _, by simp, by simpa using hge, by simpa using hm2⟩

/-- Function `MakeNormalized`: the significand is moved to the top of the 64 bits. -/
theorem MakeNormalized_spec (dbl : double_format_context) (hm : 0 < dbl.significand)
    (hm2 : dbl.significand < 2 ^ 53) :
    ∃ j : Nat, j ≤ 52 ∧ DiyFp.MakeNormalized dbl
        = DiyFp.mk (dbl.significand * 2 ^ (j + 11)) (dbl.exponent - (j : Int) - 11) ∧
      2 ^ 63 ≤ dbl.significand * 2 ^ (j + 11) ∧ dbl.significand * 2 ^ (j + 11) < 2 ^ 64 ∧
      (2 ^ 52 ≤ dbl.significand → j = 0) := by
  have hf : 2 ^ 52 ≤ dbl.significand * 2 ^ 64 := by
    have : 1 * 2 ^ 64 ≤ dbl.significand * 2 ^ 64 := Nat.mul_le_mul_right _ hm
    omega
  obtain ⟨j, hj, n1, n2, n3⟩ :=
    MakeNormalized_loop_spec 64 dbl.significand dbl.exponent hm hm2 hf
  have hj52 : j ≤ 52 := by
    by_contra hc
    have : 2 ^ 53 ≤ 2 ^ j := Nat.pow_le_pow_right (by norm_num) (by omega)
    have : 1 * 2 ^ j ≤ dbl.significand * 2 ^ j := Nat.mul_le_mul_right _ hm
    omega
  have hj0 : 2 ^ 52 ≤ dbl.significand → j = 0 := by
    intro h
    by_contra hc
    have : 2 ^ 1 ≤ 2 ^ j := Nat.pow_le_pow_right (by norm_num) (by omega)
    have : 2 ^ 52 * 2 ^ j ≤ dbl.significand * 2 ^ j := Nat.mul_le_mul_right _ h
    omega
  have e1 : dbl.significand * 2 ^ (j + 11) = dbl.significand * 2 ^ j * 2 ^ 11 := by
    rw [pow_add]; ring
  refine ⟨j, hj52, ?_, by rw [e1]; omega, by rw [e1]; omega, hj0⟩
  unfold DiyFp.MakeNormalized
  rw [n1]
  simp only []
  rw [shl64_eq _ _ (by omega), e1]
  rfl


theorem Normalize_loop10_spec (fuel f : Nat) (e : Int) (hf0 : 0 < f) (hf : f < 2 ^ 64) :
    ∃ j : Nat, DiyFp.Normalize_loop10 fuel f e = (f * 2 ^ j, e - (j : Int)) ∧
      0 < f * 2 ^ j ∧ f * 2 ^ j < 2 ^ 64 := by
  induction fuel generalizing f e with
  | zero => exact ⟨0, by simp [DiyFp.Normalize_loop10], by simpa using hf0, by simpa using hf⟩
  | succ fuel ih =>
    rw [DiyFp.Normalize_loop10]
    by_cases hb : f &&& 0xFFC0000000000000 = 0
    · simp only [hb, if_true]
      have hlt := (and_mask10_eq_zero f hf).1 hb
      have hs : shl64 f 10 = f * 2 ^ 10 := shl64_eq f 10 (by omega)
      rw [hs]
      obtain ⟨j, i1, i2, i3⟩ := ih (f * 2 ^ 10) (e - 10) (by omega) (by omega)
      have e2 : f * 2 ^ (j + 10) = f * 2 ^ 10 * 2 ^ j := by rw [pow_add]; ring
      refine ⟨j + 10, ?_, by rw [e2]; exact i2, by rw [e2]; exact i3⟩
      rw [i1, e2]; congr 1; push_cast; ring
    · simp only [hb, if_false]
      exact ⟨0, by simp, by simpa using hf0, by simpa using hf⟩

theorem Normalize_loop1_spec (fuel f : Nat) (e : Int) (hf0 : 0 < f) (hf : f < 2 ^ 64)
    (hfuel : 2 ^ 63 ≤ f * 2 ^ fuel) :
    ∃ j : Nat, DiyFp.Normalize_loop1 fuel f e = (f * 2 ^ j, e - (j : Int)) ∧
      2 ^ 63 ≤ f * 2 ^ j ∧ f * 2 ^ j < 2 ^ 64 := by
  induction fuel generalizing f e with
  | zero => exact ⟨0, by simp [DiyFp.Normalize_loop1], by simpa using hfuel, by simpa using hf⟩
  | succ fuel ih =>
    rw [DiyFp.Normalize_loop1]
    by_cases hb : f &&& 0x8000000000000000 = 0
    · simp only [hb, if_true]
      have hlt := (and_msb_eq_zero f hf).1 hb
      have hs : shl64 f 1 = f * 2 ^ 1 := shl64_eq f 1 (by omega)
      rw [hs]
      obtain ⟨j, i1, i2, i3⟩ := ih (f * 2 ^ 1) (e - 1) (by omega) (by omega)
        (by have : f * 2 ^ (fuel + 1) = f * 2 ^ 1 * 2 ^ fuel := by rw [pow_add]; ring
            rw [← this]; exact hfuel)
      have e2 : f * 2 ^ (j + 1) = f * 2 ^ 1 * 2 ^ j := by rw [pow_add]; ring
      refine ⟨j + 1, ?_, by rw [e2]; exact i2, by rw [e2]; exact i3⟩
      rw [i1, e2]; congr 1; push_cast; ring
    · simp only [hb, if_false]
      have hge : 2 ^ 63 ≤ f := by
        by_contra hc
        exact hb ((and_msb_eq_zero f hf).2 (by omega))
      exact ⟨0, by simp, by simpa using hge, by simpa using hf⟩

/-- Member `Normalize`: a non-zero significand is shifted up to bit 63. -/
theorem Normalize_spec (a : DiyFp) (hf0 : 0 < a.f) (hf : a.f < 2 ^ 64) :
    ∃ k : Nat, DiyFp.Normalize a = DiyFp.mk (a.f * 2 ^ k) (a.e - (k : Int)) ∧
      2 ^ 63 ≤ a.f * 2 ^ k ∧ a.f * 2 ^ k < 2 ^ 64 := by
  obtain ⟨j, i1, i2, i3⟩ := Normalize_loop10_spec 64 a.f a.e hf0 hf
  have h2 : 2 ^ 63 ≤ a.f * 2 ^ j * 2 ^ 64 := by
    have : 1 * 2 ^ 64 ≤ a.f * 2 ^ j * 2 ^ 64 := Nat.mul_le_mul_right _ i2
    omega
  obtain ⟨j2, k1, k2, k3⟩ := Normalize_loop1_spec 64 (a.f * 2 ^ j) (a.e - j) i2 i3 h2
  have e1 : a.f * 2 ^ (j + j2) = a.f * 2 ^ j * 2 ^ j2 := by rw [pow_add]; ring
  refine ⟨j + j2, ?_, by rw [e1]; exact k2, by rw [e1]; exact k3⟩
  unfold DiyFp.Normalize
  rw [i1]
  simp only []
  rw [k1, e1]
  simp only []
  congr 1
  push_cast; ring

/-- Static member `NormalizedBoundaries` for a non-zero significand `m < 2^53`: the upper
boundary is `(2m + 1) * 2^k` with bit 63 set, and the lower boundary, at the same exponent, is
`(2m - 1) * 2^k`, or `(4m - 1) * 2^(k-1)` when the lower boundary is closer. -/
theorem NormalizedBoundaries_spec (dbl : double_format_context) (hm0 : 0 < dbl.significand)
    (hm : dbl.significand < 2 ^ 53) :
    ∃ k : Nat, 10 ≤ k ∧
      (DiyFp.NormalizedBoundaries dbl).2.f = (2 * dbl.significand + 1) * 2 ^ k ∧
      2 ^ 63 ≤ (2 * dbl.significand + 1) * 2 ^ k ∧ (2 * dbl.significand + 1) * 2 ^ k < 2 ^ 64 ∧
      (DiyFp.NormalizedBoundaries dbl).1.f
        = (if dbl.lower_boundary_is_closer then (4 * dbl.significand - 1) * 2 ^ (k - 1)
            else (2 * dbl.significand - 1) * 2 ^ k) := by
  have hs1 : shl64 dbl.significand 1 = 2 * dbl.significand := by
    rw [shl64_eq _ 1 (by omega)]; ring
  have hs2 : shl64 dbl.significand 2 = 4 * dbl.significand := by
    rw [shl64_eq _ 2 (by omega)]; ring
  have ha1 : add64 (2 * dbl.significand) 1 = 2 * dbl.significand + 1 := by
    unfold add64; exact Nat.mod_eq_of_lt (by omega)
  have hb1 : sub64 (2 * dbl.significand) 1 = 2 * dbl.significand - 1 := by
    unfold sub64; omega
  have hb2 : sub64 (4 * dbl.significand) 1 = 4 * dbl.significand - 1 := by
    unfold sub64; omega
  obtain ⟨k, n1, n2, n3⟩ := Normalize_spec
    (DiyFp.mk (2 * dbl.significand + 1) (dbl.exponent - 1)) (by show 0 < 2 * dbl.significand + 1; omega)
    (by show 2 * dbl.significand + 1 < 2 ^ 64; omega)
  have n2' : 2 ^ 63 ≤ (2 * dbl.significand + 1) * 2 ^ k := n2
  have n3' : (2 * dbl.significand + 1) * 2 ^ k < 2 ^ 64 := n3
  have hk : 10 ≤ k := by
    by_contra hc
    have h1 : 2 ^ k ≤ 2 ^ 9 := Nat.pow_le_pow_right (by norm_num) (by omega)
    have h2 : (2 * dbl.significand + 1) * 2 ^ k ≤ (2 * dbl.significand + 1) * 2 ^ 9 :=
      Nat.mul_le_mul_left _ h1
    omega
  refine ⟨k, hk, ?_, n2', n3', ?_⟩
  · unfold DiyFp.NormalizedBoundaries
    simp only [hs1, ha1]
    rw [n1]
  · unfold DiyFp.NormalizedBoundaries
    simp only [hs1, hs2, ha1, hb1, hb2]
    rw [n1]
    cases hl : dbl.lower_boundary_is_closer
    · simp only [Bool.false_eq_true, if_false]
      have : (dbl.exponent - 1 - (dbl.exponent - 1 - (k : Int))).toNat = k := by omega
      rw [this]
      apply shl64_eq
      have : (2 * dbl.significand - 1) * 2 ^ k ≤ (2 * dbl.significand + 1) * 2 ^ k :=
        Nat.mul_le_mul_right _ (by omega)
      omega
    · simp only [if_true]
      have : (dbl.exponent - 2 - (dbl.exponent - 1 - (k : Int))).toNat = k - 1 := by omega
      rw [this]
      apply shl64_eq
      have e2 : (2 * dbl.significand + 1) * 2 ^ k = (4 * dbl.significand + 2) * 2 ^ (k - 1) := by
        have : (2 : Nat) ^ k = 2 * 2 ^ (k - 1) := by
          rw [← pow_succ', Nat.sub_add_cancel (by omega)]
        rw [this]; ring
      have : (4 * dbl.significand - 1) * 2 ^ (k - 1) ≤ (4 * dbl.significand + 2) * 2 ^ (k - 1) :=
        Nat.mul_le_mul_right _ (by omega)
      omega


theorem and_mask32 (z : Nat) : z &&& 0xFFFFFFFF = z % 2 ^ 32 :=
  Nat.and_pow_two_sub_one_eq_mod z 32

theorem mul_lt_two_pow_64 (a b : Nat) (ha : a < 2 ^ 32) (hb : b < 2 ^ 32) : a * b < 2 ^ 64 := by
  have h1 : a * b ≤ (2 ^ 32 - 1) * (2 ^ 32 - 1) := Nat.mul_le_mul (by omega) (by omega)
  have h2 : (2 ^ 32 - 1) * (2 ^ 32 - 1) < 2 ^ 64 := by norm_num
  omega

/-- Static member `Times`: the exponent is the sum plus 64 and the significand is the product
divided by `2^64`, rounded to nearest up to the dropped low half of the lowest partial
product. -/
theorem Times_bounds (x y : DiyFp) (hx : x.f < 2 ^ 64) (hy : y.f < 2 ^ 64) :
    (DiyFp.Times x y).e = x.e + (y.e + 64) ∧
    (x.f * y.f + 2 ^ 63 - 2 ^ 32) / 2 ^ 64 ≤ (DiyFp.Times x y).f ∧
    (DiyFp.Times x y).f ≤ (x.f * y.f + 2 ^ 63) / 2 ^ 64 := by
  refine ⟨rfl, ?_⟩
  unfold DiyFp.Times
  simp only [and_mask32, Nat.shiftRight_eq_div_pow]
  have ha : x.f / 2 ^ 32 < 2 ^ 32 := by omega
  have hb : x.f % 2 ^ 32 < 2 ^ 32 := Nat.mod_lt _ (by norm_num)
  have hc : y.f / 2 ^ 32 < 2 ^ 32 := by omega
  have hd : y.f % 2 ^ 32 < 2 ^ 32 := Nat.mod_lt _ (by norm_num)
  have hX : x.f = x.f / 2 ^ 32 * 2 ^ 32 + x.f % 2 ^ 32 := (Nat.div_add_mod' _ _).symm
  have hY : y.f = y.f / 2 ^ 32 * 2 ^ 32 + y.f % 2 ^ 32 := (Nat.div_add_mod' _ _).symm
  generalize x.f / 2 ^ 32 = a at *
  generalize x.f % 2 ^ 32 = b at *
  generalize y.f / 2 ^ 32 = c at *
  generalize y.f % 2 ^ 32 = d at *
  generalize x.f = X at *
  generalize y.f = Y at *
  have mac : mul64 a c = a * c := Nat.mod_eq_of_lt (mul_lt_two_pow_64 a c ha hc)
  have mbc : mul64 b c = b * c := Nat.mod_eq_of_lt (mul_lt_two_pow_64 b c hb hc)
  have mad : mul64 a d = a * d := Nat.mod_eq_of_lt (mul_lt_two_pow_64 a d ha hd)
  have mbd : mul64 b d = b * d := Nat.mod_eq_of_lt (mul_lt_two_pow_64 b d hb hd)
  rw [mac, mbc, mad, mbd]
  have hP : a * d = a * d / 2 ^ 32 * 2 ^ 32 + a * d % 2 ^ 32 := (Nat.div_add_mod' _ _).symm
  have hQ : b * c = b * c / 2 ^ 32 * 2 ^ 32 + b * c % 2 ^ 32 := (Nat.div_add_mod' _ _).symm
  have hB : b * d = b * d / 2 ^ 32 * 2 ^ 32 + b * d % 2 ^ 32 := (Nat.div_add_mod' _ _).symm
  have hPl : a * d % 2 ^ 32 < 2 ^ 32 := Nat.mod_lt _ (by norm_num)
  have hQl : b * c % 2 ^ 32 < 2 ^ 32 := Nat.mod_lt _ (by norm_num)
  have hBl : b * d % 2 ^ 32 < 2 ^ 32 := Nat.mod_lt _ (by norm_num)
  have hBh : b * d / 2 ^ 32 < 2 ^ 32 := by
    have := mul_lt_two_pow_64 b d hb hd
    omega
  have hPh : a * d / 2 ^ 32 < 2 ^ 32 := by
    have := mul_lt_two_pow_64 a d ha hd
    omega
  have hQh : b * c / 2 ^ 32 < 2 ^ 32 := by
    have := mul_lt_two_pow_64 b c hb hc
    omega
  have hac := mul_lt_two_pow_64 a c ha hc
  generalize a * d / 2 ^ 32 = Ph at *
  generalize a * d % 2 ^ 32 = Pl at *
  generalize b * c / 2 ^ 32 = Qh at *
  generalize b * c % 2 ^ 32 = Ql at *
  generalize b * d / 2 ^ 32 = Bh at *
  generalize b * d % 2 ^ 32 = Bl at *
  -- the product in terms of the partial products
  have hXY : X * Y + 2 ^ 63 = (a * c + Ph + Qh) * 2 ^ 64 + (Bh + Pl + Ql + 2 ^ 31) * 2 ^ 32 + Bl := by
    have e1 : X * Y = a * c * 2 ^ 64 + (a * d + b * c) * 2 ^ 32 + b * d := by
      rw [hX, hY]; ring
    rw [e1, hP, hQ, hB]; ring
  have htmp : add64 (add64 (add64 Bh Pl) Ql) (2 ^ 31) = Bh + Pl + Ql + 2 ^ 31 := by
    unfold add64; omega
  rw [htmp]
  generalize htv : (Bh + Pl + Ql + 2 ^ 31) / 2 ^ 32 = T
  have hT : T ≤ 3 := by omega
  have hdiv : (X * Y + 2 ^ 63 - Bl) / 2 ^ 64 = a * c + Ph + Qh + T := by
    have e2 : X * Y + 2 ^ 63 - Bl
        = (Bh + Pl + Ql + 2 ^ 31) * 2 ^ 32 + (a * c + Ph + Qh) * 2 ^ 64 := by omega
    rw [e2, Nat.add_mul_div_right _ _ (by norm_num : 0 < 2 ^ 64)]
    have e3 : (Bh + Pl + Ql + 2 ^ 31) * 2 ^ 32 / 2 ^ 64 = T := by
      rw [← htv]
      have : (2 : Nat) ^ 64 = 2 ^ 32 * 2 ^ 32 := by norm_num
      rw [this, Nat.mul_div_mul_right _ _ (by norm_num : 0 < 2 ^ 32)]
    rw [e3]; ring
  have hup : (X * Y + 2 ^ 63 - Bl) / 2 ^ 64 ≤ (X * Y + 2 ^ 63) / 2 ^ 64 :=
    Nat.div_le_div_right (by omega)
  have hlo : (X * Y + 2 ^ 63 - 2 ^ 32) / 2 ^ 64 ≤ (X * Y + 2 ^ 63 - Bl) / 2 ^ 64 :=
    Nat.div_le_div_right (by omega)
  have hmax : (X * Y + 2 ^ 63) / 2 ^ 64 < 2 ^ 64 := by
    rw [Nat.div_lt_iff_lt_mul (by norm_num)]
    have h1 : X * Y ≤ (2 ^ 64 - 1) * (2 ^ 64 - 1) := Nat.mul_le_mul (by omega) (by omega)
    have h2 : (2 ^ 64 - 1) * (2 ^ 64 - 1) + 2 ^ 63 < 2 ^ 64 * 2 ^ 64 := by norm_num
    omega
  have hsum : add64 (add64 (add64 (a * c) Ph) Qh) T = a * c + Ph + Qh + T := by
    unfold add64; omega
  rw [hsum, ← hdiv]
  exact ⟨hlo, hup⟩


/-! ## Grisu: the cached power -/

set_option maxRecDepth 100000 in
theorem cached_check_0 : all_below (fun i => cached_check i) 350 = true := by decide!

set_option maxRecDepth 100000 in
theorem cached_check_1 : all_below (fun i => cached_check (i + 350)) 350 = true := by decide!

set_option maxRecDepth 100000 in
theorem cached_check_2 : all_below (fun i => cached_check (i + 700)) 350 = true := by decide!

set_option maxRecDepth 100000 in
theorem cached_check_3 : all_below (fun i => cached_check (i + 1050)) 350 = true := by decide!

set_option maxRecDepth 100000 in
theorem cached_check_4 : all_below (fun i => cached_check (i + 1400)) 350 = true := by decide!

set_option maxRecDepth 100000 in
theorem cached_check_5 : all_below (fun i => cached_check (i + 1750)) 350 = true := by decide!

theorem cached_check_all (i : Nat) (hi : i < 2100) : cached_check i = true := by
  by_cases h0 : i < 350
  · exact Bignum.all_below_imp _ _ cached_check_0 i h0
  by_cases h1 : i < 700
  · have := Bignum.all_below_imp _ _ cached_check_1 (i - 350) (by omega)
    simpa [Nat.sub_add_cancel (show 350 ≤ i by omega)] using this
  by_cases h2 : i < 1050
  · have := Bignum.all_below_imp _ _ cached_check_2 (i - 700) (by omega)
    simpa [Nat.sub_add_cancel (show 700 ≤ i by omega)] using this
  by_cases h3 : i < 1400
  · have := Bignum.all_below_imp _ _ cached_check_3 (i - 1050) (by omega)
    simpa [Nat.sub_add_cancel (show 1050 ≤ i by omega)] using this
  by_cases h4 : i < 1750
  · have := Bignum.all_below_imp _ _ cached_check_4 (i - 1400) (by omega)
    simpa [Nat.sub_add_cancel (show 1400 ≤ i by omega)] using this
  · have := Bignum.all_below_imp _ _ cached_check_5 (i - 1750) (by omega)
    simpa [Nat.sub_add_cancel (show 1750 ≤ i by omega)] using this

/-- The cached power chosen for the exponent `we` of a normalized significand of a double has
bit 63 set and scales the exponent into `[-60, -32]`. -/
theorem cached_power_spec (we : Int) (h1 : -1137 ≤ we) (h2 : we ≤ 962) :
    2 ^ 63 ≤ (GetCachedPowerForBinaryExponentRange (-60 - (we + 64)) (-32 - (we + 64))).1.f ∧
    (GetCachedPowerForBinaryExponentRange (-60 - (we + 64)) (-32 - (we + 64))).1.f < 2 ^ 64 ∧
    -60 ≤ we + ((GetCachedPowerForBinaryExponentRange (-60 - (we + 64)) (-32 - (we + 64))).1.e + 64) ∧
    we + ((GetCachedPowerForBinaryExponentRange (-60 - (we + 64)) (-32 - (we + 64))).1.e + 64) ≤ -32 := by
  have hc := cached_check_all (we + 1137).toNat (by omega)
  unfold cached_check at hc
  have hwe : ((we + 1137).toNat : Int) - 1137 = we := by omega
  simp only [hwe, Bool.and_eq_true, decide_eq_true_eq] at hc
  obtain ⟨⟨⟨c1, c2⟩, c3⟩, c4⟩ := hc
  exact ⟨c1, c2, c3, c4⟩


/-! ## Grisu: `RoundWeed` -/

theorem round_down_last_digit_snoc (dbl : double_format_context) (l : List Nat) (c : Nat)
    (hc1 : 1 ≤ c) (hc : c < 256) (h : dbl.digits = l ++ [c]) :
    dbl.round_down_last_digit = { dbl with digits := l ++ [c - 1] } := by
  unfold double_format_context.round_down_last_digit round_down_digit
  rw [h]
  have : (c + 255) % 256 = c - 1 := by omega
  simp [this]

theorem sub64_eq (a b : Nat) (ha : a < 2 ^ 64) (hb : b ≤ a) : sub64 a b = a - b := by
  unfold sub64; omega

theorem add64_eq (a b : Nat) (h : a + b < 2 ^ 64) : add64 a b = a + b := by
  unfold add64; exact Nat.mod_eq_of_lt h

theorem mul64_eq (a b : Nat) (h : a * b < 2 ^ 64) : mul64 a b = a * b := by
  unfold mul64; exact Nat.mod_eq_of_lt h

/-- The decrementing loop of `RoundWeed` ends: it lowers the last digit `k` times, moving
`rest` up by `k * ten_kappa` inside the unsafe interval. -/
theorem RoundWeed_loop_spec (small ui tk : Nat) (htk : 1 ≤ tk) (hui : ui < 2 ^ 64)
    (fuel : Nat) (dbl : double_format_context) (rest : Nat) (l : List Nat) (d : Nat)
    (hd : d ≤ 9) (hdig : dbl.digits = l ++ [48 + d]) (hrest : rest ≤ ui)
    (hprev : ui ≤ rest + d * tk) (hfuel : ui - rest + 1 ≤ fuel) :
    ∃ k rest2, RoundWeed_loop small ui tk fuel dbl rest
        = some ({ dbl with digits := l ++ [48 + d - k] }, rest2) ∧
      rest2 = rest + k * tk ∧ rest2 ≤ ui ∧ k ≤ d := by
  induction fuel generalizing dbl rest d with
  | zero => omega
  | succ fuel ih =>
    rw [RoundWeed_loop]
    by_cases hg : rest < small ∧ sub64 ui rest ≥ tk ∧
        (add64 rest tk < small ∨ sub64 small rest ≥ sub64 (add64 rest tk) small)
    · rw [if_pos hg]
      have h1 : rest + tk ≤ ui := by
        have := hg.2.1
        rw [sub64_eq ui rest hui hrest] at this
        omega
      rw [add64_eq rest tk (by omega)]
      have hd1 : 1 ≤ d := by
        by_contra hc
        have : d = 0 := by omega
        rw [this] at hprev
        omega
      obtain ⟨d', rfl⟩ : ∃ d', d = d' + 1 := ⟨d - 1, by omega⟩
      have hmul : (d' + 1) * tk = d' * tk + tk := Nat.succ_mul d' tk
      rw [round_down_last_digit_snoc dbl l (48 + (d' + 1)) (by omega) (by omega) hdig]
      obtain ⟨k, rest2, e1, e2, e3, e4⟩ := ih { dbl with digits := l ++ [48 + (d' + 1) - 1] }
        (rest + tk) d' (by omega) (by simp) h1 (by omega) (by omega)
      refine ⟨k + 1, rest2, ?_, ?_, e3, by omega⟩
      · rw [e1]
        have : 48 + d' - k = 48 + (d' + 1) - (k + 1) := by omega
        rw [this]
      · rw [e2, Nat.succ_mul]; omega
    · rw [if_neg hg]
      refine ⟨0, rest, ?_, by simp, hrest, by omega⟩
      have : dbl = { dbl with digits := l ++ [48 + d - 0] } := by
        rw [Nat.sub_zero, ← hdig]
      rw [← this]

/-- Function `RoundWeed` returns; the last digit is lowered, never below `'0'`, and it is not
`'0'` when the result is accepted. -/
theorem RoundWeed_spec (dbl : double_format_context) (dist ui rest tk unit : Nat)
    (htk : 1 ≤ tk) (hui : ui < 2 ^ 64) (hunit : 1 ≤ unit) (hu4 : 4 * unit ≤ ui)
    (l : List Nat) (d : Nat) (hd : d ≤ 9) (hdig : dbl.digits = l ++ [48 + d])
    (hrest : rest < ui) (hprev : ui ≤ rest + d * tk) :
    ∃ ok c, RoundWeed dbl dist ui rest tk unit = some (ok, { dbl with digits := l ++ [c] }) ∧
      48 ≤ c ∧ c ≤ 57 ∧ (ok = true → 49 ≤ c) := by
  obtain ⟨k, rest2, e1, e2, e3, e4⟩ := RoundWeed_loop_spec (sub64 dist unit) ui tk htk hui
    (ui + 1) dbl rest l d hd hdig (by omega) hprev (by omega)
  unfold RoundWeed
  simp only []
  rw [e1]
  simp only []
  split_ifs with hc
  · exact ⟨false, 48 + d - k, rfl, by omega, by omega, fun h => absurd h (by decide)⟩
  · refine ⟨_, 48 + d - k, rfl, by omega, by omega, ?_⟩
    intro hok
    rw [decide_eq_true_eq] at hok
    have h4 : mul64 4 unit = 4 * unit := mul64_eq 4 unit (by omega)
    rw [h4, sub64_eq ui (4 * unit) hui hu4] at hok
    have hlt : k * tk < d * tk := by omega
    have := Nat.lt_of_mul_lt_mul_right hlt
    omega


/-! ## Grisu: `DigitGen` -/

theorem kSmallPowersOfTen_spec : ∀ n < 10, kSmallPowersOfTen.getD (n + 1) 0 = 10 ^ n := by
  decide

theorem add_digit_eq (dbl : double_format_context) (d : Nat) (hd : d < 10) :
    dbl.add_digit ((48 + d) % 256) = { dbl with digits := dbl.digits ++ [48 + d] } := by
  unfold double_format_context.add_digit
  rw [Nat.mod_eq_of_lt (show 48 + d < 256 by omega)]

/-- The integral-digit loop of `DigitGen`: it either hands over to `RoundWeed`, which
returns, or leaves with all `n` integral digits written and the fractionals not yet inside
the unsafe interval. -/
theorem DigitGen_loop1_spec (s sig too_high ui F : Nat)
    (hui4 : 4 ≤ ui) (hui : ui < 2 ^ 64) (n : Nat) (hn : n ≤ 10) (dbl : double_format_context)
    (I : Nat) (hI : I < 10 ^ n) (hwrap : I * 2 ^ s + F < 2 ^ 64) (hprev : ui ≤ I * 2 ^ s + F)
    (hfirst : dbl.digits = [] → 1 ≤ n → 10 ^ (n - 1) ≤ I) :
    (∃ ok ds c k, DigitGen_loop1 s sig too_high ui F n dbl I
        = Sum.inl (some (ok, { dbl with digits := dbl.digits ++ ds ++ [c], decimal_point := k })) ∧
      all_digits ds ∧ 48 ≤ c ∧ c ≤ 57 ∧ (ok = true → 49 ≤ c) ∧ ds.length + 1 ≤ n ∧
      (ok = true → dbl.digits = [] → (ds ++ [c]).head? ≠ some 48)) ∨
    (∃ ds I2, DigitGen_loop1 s sig too_high ui F n dbl I
        = Sum.inr ({ dbl with digits := dbl.digits ++ ds,
                              decimal_point := dbl.decimal_point - (n : Int) }, I2) ∧
      all_digits ds ∧ ui ≤ F ∧ ds.length = n ∧
      (dbl.digits = [] → 1 ≤ n → ds.head? ≠ some 48)) := by
  induction n generalizing dbl I with
  | zero =>
    right
    refine ⟨[], I, ?_, all_digits_nil, ?_, rfl, fun _ h => absurd h (by omega)⟩
    · rw [DigitGen_loop1]; simp
    · have : I = 0 := by simpa using hI
      rw [this] at hprev
      simpa using hprev
  | succ n ih =>
    rw [DigitGen_loop1]
    rw [kSmallPowersOfTen_spec n (by omega)]
    have hp : 0 < 10 ^ n := pow_pos (by norm_num) n
    have hdig : I / 10 ^ n < 10 := by
      rw [Nat.div_lt_iff_lt_mul hp]
      calc I < 10 ^ (n + 1) := hI
        _ = 10 * 10 ^ n := by ring
    have hmod : I % 10 ^ n < 10 ^ n := Nat.mod_lt _ hp
    have hdec : I = 10 ^ n * (I / 10 ^ n) + I % 10 ^ n := (Nat.div_add_mod _ _).symm
    rw [add_digit_eq dbl _ hdig]
    generalize hdv : I / 10 ^ n = d at *
    generalize hrv : I % 10 ^ n = r at *
    have hIs : I * 2 ^ s = d * (10 ^ n * 2 ^ s) + r * 2 ^ s := by rw [hdec]; ring
    have hrs : shl64 r s = r * 2 ^ s := shl64_eq r s (by omega)
    rw [hrs, add64_eq _ _ (by omega)]
    have hdf : dbl.digits = [] → 1 ≤ d := by
      intro hnil
      have h1 := hfirst hnil (by omega)
      simp only [Nat.add_sub_cancel] at h1
      by_contra hc
      have hd0 : d = 0 := by omega
      rw [hd0] at hdec
      omega
    by_cases hlt : r * 2 ^ s + F < ui
    · rw [if_pos hlt]
      left
      have hd1 : 1 ≤ d := by
        by_contra hc
        have hd0 : d = 0 := by omega
        rw [hd0] at hIs
        omega
      have htk : 10 ^ n * 2 ^ s ≤ d * (10 ^ n * 2 ^ s) := Nat.le_mul_of_pos_left _ hd1
      have hts : shl64 (10 ^ n) s = 10 ^ n * 2 ^ s := shl64_eq _ s (by omega)
      rw [hts]
      obtain ⟨ok, c, e1, e2, e3, e4⟩ := RoundWeed_spec
        { dbl with digits := dbl.digits ++ [48 + d], decimal_point := dbl.decimal_point - 1 }
        (sub64 too_high sig) ui (r * 2 ^ s + F) (10 ^ n * 2 ^ s) 1
        (Nat.mul_pos hp (pow_pos (by norm_num) s)) hui (le_refl 1) (by omega)
        dbl.digits d (by omega) rfl hlt (by omega)
      refine ⟨ok, [], c, dbl.decimal_point - 1, by rw [e1]; simp, all_digits_nil, e2, e3, e4,
        by simp, ?_⟩
      intro hok _
      have := e4 hok
      simp only [List.nil_append, List.head?_cons, ne_eq, Option.some.injEq]
      omega
    · rw [if_neg hlt]
      have hrI : r * 2 ^ s ≤ I * 2 ^ s := by omega
      rcases ih (by omega)
        { dbl with digits := dbl.digits ++ [48 + d], decimal_point := dbl.decimal_point - 1 }
        r hmod (by omega) (by omega) (fun hnil => absurd hnil (by simp)) with
        ⟨ok, ds, c, k, e1, e2, e3, e4, e5, e6, -⟩ | ⟨ds, I2, e1, e2, e3, e4, -⟩
      · left
        refine ⟨ok, (48 + d) :: ds, c, k, by rw [e1]; simp, ?_, e3, e4, e5, by simp; omega, ?_⟩
        · rw [all_digits_cons]
          exact ⟨⟨by omega, by omega⟩, e2⟩
        · intro _ hnil
          have := hdf hnil
          simp only [List.cons_append, List.head?_cons, ne_eq, Option.some.injEq]
          omega
      · right
        refine ⟨(48 + d) :: ds, I2, ?_, ?_, e3, by simp; omega, ?_⟩
        · rw [e1]
          simp only [List.append_assoc, List.singleton_append]
          congr 3
          push_cast; ring
        · rw [all_digits_cons]
          exact ⟨⟨by omega, by omega⟩, e2⟩
        · intro hnil _
          have := hdf hnil
          simp only [List.head?_cons, ne_eq, Option.some.injEq]
          omega


/-- The fractional-digit loop of `DigitGen` ends within the fuel: the unsafe interval grows
tenfold per digit and the fractionals stay below `2^60`. -/
theorem DigitGen_loop2_spec (s sig too_high : Nat) (hs : s ≤ 60) (fuel : Nat)
    (dbl : double_format_context) (F U V : Nat) (hF : F < 2 ^ s) (hV : V ≤ F) (hU : 1 ≤ U)
    (hU4 : 4 * U ≤ V) (hfuel : 2 ^ 60 ≤ V * 10 ^ fuel) :
    ∃ ok ds c k, DigitGen_loop2 s sig too_high (2 ^ s) fuel dbl F U V
        = some (ok, { dbl with digits := dbl.digits ++ ds ++ [c], decimal_point := k }) ∧
      all_digits ds ∧ 48 ≤ c ∧ c ≤ 57 ∧ (ok = true → 49 ≤ c) ∧ ds.length + 1 ≤ fuel := by
  have hs60 : (2 : Nat) ^ s ≤ 2 ^ 60 := Nat.pow_le_pow_right (by norm_num) hs
  have hsp : 0 < 2 ^ s := pow_pos (by norm_num) s
  induction fuel generalizing dbl F U V with
  | zero =>
    simp only [pow_zero, mul_one] at hfuel
    omega
  | succ fuel ih =>
    rw [DigitGen_loop2]
    rw [mul64_eq F 10 (by omega), mul64_eq U 10 (by omega), mul64_eq V 10 (by omega),
      Nat.shiftRight_eq_div_pow, Nat.and_pow_two_sub_one_eq_mod]
    have hdig : F * 10 / 2 ^ s < 10 := by
      rw [Nat.div_lt_iff_lt_mul hsp]; omega
    have hmod : F * 10 % 2 ^ s < 2 ^ s := Nat.mod_lt _ hsp
    have hdec : F * 10 = 2 ^ s * (F * 10 / 2 ^ s) + F * 10 % 2 ^ s := (Nat.div_add_mod _ _).symm
    rw [add_digit_eq dbl _ hdig]
    generalize hdv : F * 10 / 2 ^ s = d at *
    generalize hrv : F * 10 % 2 ^ s = r at *
    by_cases hlt : r < V * 10
    · rw [if_pos hlt]
      obtain ⟨ok, c, e1, e2, e3, e4⟩ := RoundWeed_spec
        { dbl with digits := dbl.digits ++ [48 + d], decimal_point := dbl.decimal_point - 1 }
        (mul64 (sub64 too_high sig) (U * 10)) (V * 10) r (2 ^ s) (U * 10)
        hsp (by omega) (by omega) (by omega) dbl.digits d (by omega) rfl hlt
        (by rw [Nat.mul_comm d]; omega)
      exact ⟨ok, [], c, dbl.decimal_point - 1, by rw [e1]; simp, all_digits_nil, e2, e3, e4,
        by simp⟩
    · rw [if_neg hlt]
      obtain ⟨ok, ds, c, k, e1, e2, e3, e4, e5, e6⟩ := ih
        { dbl with digits := dbl.digits ++ [48 + d], decimal_point := dbl.decimal_point - 1 }
        r (U * 10) (V * 10) hmod (by omega) (by omega) (by omega)
        (by have : V * 10 ^ (fuel + 1) = V * 10 * 10 ^ fuel := by rw [pow_succ]; ring
            rw [← this]; exact hfuel)
      refine ⟨ok, (48 + d) :: ds, c, k, by rw [e1]; simp, ?_, e3, e4, e5, by simp; omega⟩
      rw [all_digits_cons]
      exact ⟨⟨by omega, by omega⟩, e2⟩

theorem greater_power_of_ten_spec (number bits : Nat) (hb1 : 4 ≤ bits) (hb2 : bits ≤ 32)
    (hn : number < 2 ^ bits) :
    greater_power_of_ten number bits ≤ 10 ∧ number < 10 ^ greater_power_of_ten number bits := by
  have key : ∀ b < 33, 4 ≤ b →
      ((b + 1) * 1233) >>> 12 + 1 ≤ 10 ∧ 2 ^ b ≤ 10 ^ (((b + 1) * 1233) >>> 12 + 1) ∧
      1 ≤ ((b + 1) * 1233) >>> 12 ∧
      kSmallPowersOfTen.getD (((b + 1) * 1233) >>> 12 + 1) 0 = 10 ^ (((b + 1) * 1233) >>> 12) := by
    decide
  obtain ⟨k1, k2, k3, k4⟩ := key bits (by omega) hb1
  unfold greater_power_of_ten
  simp only []
  rw [k4]
  generalize ((bits + 1) * 1233) >>> 12 = g at *
  by_cases h : number < 10 ^ g
  · rw [if_pos h]
    exact ⟨by omega, by simpa using h⟩
  · rw [if_neg h]
    exact ⟨k1, by omega⟩

/-- The power of ten found by `greater_power_of_ten` is tight for a number with one of its
three top bits set. -/
theorem greater_power_of_ten_lower (number bits : Nat) (hb1 : 4 ≤ bits) (hb2 : bits ≤ 32)
    (hn : 2 ^ (bits - 2) ≤ number) :
    1 ≤ greater_power_of_ten number bits ∧
    10 ^ (greater_power_of_ten number bits - 1) ≤ number := by
  have key : ∀ b < 33, 4 ≤ b →
      1 ≤ ((b + 1) * 1233) >>> 12 ∧ 10 ^ (((b + 1) * 1233) >>> 12 - 1) ≤ 2 ^ (b - 2) ∧
      kSmallPowersOfTen.getD (((b + 1) * 1233) >>> 12 + 1) 0 = 10 ^ (((b + 1) * 1233) >>> 12) := by
    decide
  obtain ⟨k1, k2, k4⟩ := key bits (by omega) hb1
  unfold greater_power_of_ten
  simp only []
  rw [k4]
  generalize ((bits + 1) * 1233) >>> 12 = g at *
  by_cases h : number < 10 ^ g
  · rw [if_pos h]
    simp only [Nat.add_sub_cancel]
    exact ⟨k1, by omega⟩
  · rw [if_neg h]
    simp only [Nat.add_sub_cancel]
    exact ⟨by omega, by omega⟩

/-- Function `DigitGen` returns for boundaries `low + 2 <= high` at an exponent in
`[-60, -32]`: digits are appended, the last of them not `'0'` when the result is accepted, nor
the first when `high` has one of its two top bits set and the buffer was empty. -/
theorem DigitGen_spec (dbl : double_format_context) (e : Int) (sig low high : Nat)
    (he1 : -60 ≤ e) (he2 : e ≤ -32) (hlow : 1 ≤ low) (hlh : low + 2 ≤ high)
    (hhigh : high + 1 < 2 ^ 64) (hbig : 2 ^ 62 ≤ high + 1) :
    ∃ ok ds c k, DigitGen dbl e sig low high
        = some (ok, { dbl with digits := dbl.digits ++ ds ++ [c], decimal_point := k }) ∧
      all_digits ds ∧ 48 ≤ c ∧ c ≤ 57 ∧ (ok = true → 49 ≤ c) ∧ ds.length ≤ 73 ∧
      (ok = true → dbl.digits = [] → (ds ++ [c]).head? ≠ some 48) := by
  obtain ⟨s, hs⟩ : ∃ s : Nat, (-e).toNat = s := ⟨_, rfl⟩
  have hs1 : 32 ≤ s := by omega
  have hs2 : s ≤ 60 := by omega
  have hsp : 0 < 2 ^ s := pow_pos (by norm_num) s
  have h32 : (2 : Nat) ^ 32 ≤ 2 ^ s := Nat.pow_le_pow_right (by norm_num) hs1
  have hpw : (2 : Nat) ^ s * 2 ^ (64 - s) = 2 ^ 64 := by
    rw [← pow_add]; congr 1; omega
  have h60 : (2 : Nat) ^ s ≤ 2 ^ 60 := Nat.pow_le_pow_right (by norm_num) hs2
  have hone : shl64 1 s = 2 ^ s := by
    rw [shl64_eq 1 s (by omega), one_mul]
  have hth : add64 high 1 = high + 1 := add64_eq _ _ hhigh
  have htl : sub64 low 1 = low - 1 := sub64_eq _ _ (by omega) hlow
  have hui : sub64 (high + 1) (low - 1) = high + 1 - (low - 1) := sub64_eq _ _ hhigh (by omega)
  have hIlt : (high + 1) / 2 ^ s < 2 ^ (64 - s) := by
    rw [Nat.div_lt_iff_lt_mul hsp, Nat.mul_comm, hpw]; exact hhigh
  have hIb : (2 : Nat) ^ (64 - s) ≤ 2 ^ 32 := Nat.pow_le_pow_right (by norm_num) (by omega)
  have hI32 : (high + 1) / 2 ^ s % 2 ^ 32 = (high + 1) / 2 ^ s := Nat.mod_eq_of_lt (by omega)
  obtain ⟨g1, g2⟩ := greater_power_of_ten_spec ((high + 1) / 2 ^ s) (64 - s) (by omega) (by omega) hIlt
  have hIge : 2 ^ (64 - s - 2) ≤ (high + 1) / 2 ^ s := by
    rw [Nat.le_div_iff_mul_le hsp, ← pow_add]
    have : 64 - s - 2 + s = 62 := by omega
    rw [this]; exact hbig
  obtain ⟨g3, g4⟩ := greater_power_of_ten_lower ((high + 1) / 2 ^ s) (64 - s) (by omega) (by omega)
    hIge
  have hdec : high + 1 = 2 ^ s * ((high + 1) / 2 ^ s) + (high + 1) % 2 ^ s :=
    (Nat.div_add_mod _ _).symm
  have hmod : (high + 1) % 2 ^ s < 2 ^ s := Nat.mod_lt _ hsp
  unfold DigitGen
  simp only []
  rw [hs, hone, hth, htl, hui, Nat.shiftRight_eq_div_pow, Nat.and_pow_two_sub_one_eq_mod, hI32]
  generalize hpv : greater_power_of_ten ((high + 1) / 2 ^ s) (64 - s) = p at *
  generalize hIv : (high + 1) / 2 ^ s = I at *
  generalize hFv : (high + 1) % 2 ^ s = F at *
  have hsum : I * 2 ^ s + F = high + 1 := by rw [hdec]; ring
  rcases DigitGen_loop1_spec s sig (high + 1) (high + 1 - (low - 1)) F (by omega) (by omega)
    p g1 { dbl with decimal_point := (p : Int) } I g2 (by omega) (by omega) (fun _ _ => g4)
    with ⟨ok, ds, c, k, e1, e2, e3, e4, e5, e6, e7⟩ | ⟨ds, I2, e1, e2, e3, e4, e7⟩
  · rw [e1]
    exact ⟨ok, ds, c, k, rfl, e2, e3, e4, e5, by omega, e7⟩
  · rw [e1]
    simp only []
    obtain ⟨ok, ds2, c, k, f1, f2, f3, f4, f5, f6⟩ := DigitGen_loop2_spec s sig (high + 1) hs2 64
      { dbl with digits := dbl.digits ++ ds, decimal_point := (p : Int) - p }
      F 1 (high + 1 - (low - 1)) hmod e3 (le_refl 1) (by omega)
      (by have : 2 ^ 60 * 1 ≤ 10 ^ 64 * (high + 1 - (low - 1)) :=
            Nat.mul_le_mul (by norm_num) (by omega)
          rw [Nat.mul_comm _ (10 ^ 64)]; omega)
    rw [f1]
    refine ⟨ok, ds ++ ds2, c, k, by simp, ?_, f3, f4, f5, by simp; omega, ?_⟩
    · rw [all_digits_append]
      exact ⟨e2, f2⟩
    · intro _ hnil
      have h1 := e7 hnil g3
      have hne : ds ≠ [] := by
        intro hds
        rw [hds] at e4
        simp at e4
        omega
      rw [List.append_assoc, List.head?_append_of_ne_nil _ hne]
      exact h1


/-- Function `grisu3_dtoa` returns for every finite non-zero double; it only changes the digits
and the decimal point, and when it accepts its result the digits appended end with a digit
other than `'0'` and, on an empty buffer, start with one. -/
theorem grisu3_dtoa_spec (dbl : double_format_context)
    (hm0 : 0 < dbl.significand) (hm : dbl.significand < 2 ^ 53)
    (he1 : -1074 ≤ dbl.exponent) (he2 : dbl.exponent ≤ 972)
    (hv0 : 0 < (double_format_context.of_double dbl.value).significand)
    (hv : (double_format_context.of_double dbl.value).significand < 2 ^ 53) :
    ∃ ok ds k, grisu3_dtoa dbl = some (ok, { dbl with digits := ds, decimal_point := k }) ∧
      (ok = true → ∃ ds0 c, ds = dbl.digits ++ ds0 ++ [c] ∧ all_digits ds0 ∧ 49 ≤ c ∧ c ≤ 57 ∧
        ds0.length ≤ 73 ∧ (dbl.digits = [] → (ds0 ++ [c]).head? ≠ some 48)) := by
  obtain ⟨j, hj, w1, w2, w3, -⟩ := MakeNormalized_spec dbl hm0 hm
  obtain ⟨k, hk, b1, b2, b3, b4⟩ :=
    NormalizedBoundaries_spec (double_format_context.of_double dbl.value) hv0 hv
  have hwe : (DiyFp.MakeNormalized dbl).e = dbl.exponent - (j : Int) - 11 := by rw [w1]
  have hwf : (DiyFp.MakeNormalized dbl).f < 2 ^ 64 := by rw [w1]; exact w3
  obtain ⟨c1, c2, c3, c4⟩ := cached_power_spec (DiyFp.MakeNormalized dbl).e
    (by rw [hwe]; omega) (by rw [hwe]; omega)
  unfold grisu3_dtoa
  simp only []
  generalize hcp : GetCachedPowerForBinaryExponentRange (-60 - ((DiyFp.MakeNormalized dbl).e + 64))
    (-32 - ((DiyFp.MakeNormalized dbl).e + 64)) = cp at *
  obtain ⟨t1, -, -⟩ := Times_bounds (DiyFp.MakeNormalized dbl) cp.1 hwf c2
  generalize hbs : DiyFp.NormalizedBoundaries (double_format_context.of_double dbl.value) = bs at *
  generalize hsig : (double_format_context.of_double dbl.value).significand = m at *
  -- the boundaries differ by at least 8 and the lower one is at least 2
  have hk1 : (2 : Nat) ^ k = 2 * 2 ^ (k - 1) := by
    rw [← pow_succ', Nat.sub_add_cancel (by omega)]
  have hk9 : (2 : Nat) ^ 9 ≤ 2 ^ (k - 1) := Nat.pow_le_pow_right (by norm_num) (by omega)
  have hgap : bs.1.f + 8 ≤ bs.2.f ∧ 2 ≤ bs.1.f := by
    rw [b1, b4]
    generalize hL : (2 : Nat) ^ (k - 1) = P at *
    split_ifs
    · have e1 : (4 * m - 1) * P + 3 * P = (2 * m + 1) * (2 * P) := by
        have : 4 * m - 1 + 3 = (2 * m + 1) * 2 := by omega
        calc (4 * m - 1) * P + 3 * P = (4 * m - 1 + 3) * P := by ring
          _ = (2 * m + 1) * (2 * P) := by rw [this]; ring
      have e2 : 1 * P ≤ (4 * m - 1) * P := Nat.mul_le_mul_right _ (by omega)
      rw [hk1]
      omega
    · have e1 : (2 * m - 1) * (2 * P) + 2 * (2 * P) = (2 * m + 1) * (2 * P) := by
        have : 2 * m - 1 + 2 = 2 * m + 1 := by omega
        calc (2 * m - 1) * (2 * P) + 2 * (2 * P) = (2 * m - 1 + 2) * (2 * P) := by ring
          _ = (2 * m + 1) * (2 * P) := by rw [this]
      have e2 : 1 * (2 * P) ≤ (2 * m - 1) * (2 * P) := Nat.mul_le_mul_right _ (by omega)
      rw [hk1]
      omega
  have hbp : bs.2.f < 2 ^ 64 := by rw [b1]; exact b3
  have hbm : bs.1.f < 2 ^ 64 := by omega
  obtain ⟨-, l1, l2⟩ := Times_bounds bs.1 cp.1 hbm c2
  obtain ⟨-, u1, u2⟩ := Times_bounds bs.2 cp.1 hbp c2
  have hprodL : 2 * 2 ^ 63 ≤ bs.1.f * cp.1.f := Nat.mul_le_mul hgap.2 c1
  have hprodU : bs.2.f * cp.1.f ≤ (2 ^ 64 - 1) * (2 ^ 64 - 1) :=
    Nat.mul_le_mul (by omega) (by omega)
  have hprodG : bs.1.f * cp.1.f + 8 * 2 ^ 63 ≤ bs.2.f * cp.1.f := by
    have h1 : (bs.1.f + 8) * cp.1.f ≤ bs.2.f * cp.1.f := Nat.mul_le_mul_right _ hgap.1
    have h2 : 8 * 2 ^ 63 ≤ 8 * cp.1.f := Nat.mul_le_mul_left _ c1
    have h3 : (bs.1.f + 8) * cp.1.f = bs.1.f * cp.1.f + 8 * cp.1.f := by ring
    omega
  have hmax : (2 ^ 64 - 1) * (2 ^ 64 - 1) + 2 ^ 63 < (2 ^ 64 - 1) * 2 ^ 64 := by norm_num
  have hprodB : 2 ^ 63 * 2 ^ 63 ≤ bs.2.f * cp.1.f := Nat.mul_le_mul (by rw [b1]; exact b2) c1
  generalize bs.1.f * cp.1.f = A at *
  generalize bs.2.f * cp.1.f = B at *
  obtain ⟨ok, ds, c, kk, g1, g2, g3, g4, g5, g6, g7⟩ := DigitGen_spec dbl
    (DiyFp.Times (DiyFp.MakeNormalized dbl) cp.1).e (DiyFp.Times (DiyFp.MakeNormalized dbl) cp.1).f
    (DiyFp.Times bs.1 cp.1).f (DiyFp.Times bs.2 cp.1).f
    (by rw [t1]; exact c3) (by rw [t1]; exact c4) (by omega) (by omega) (by omega) (by omega)
  rw [g1]
  cases ok
  · exact ⟨false, [], kk, rfl, fun h => absurd h (by decide)⟩
  · exact ⟨true, dbl.digits ++ ds ++ [c], _, rfl,
      fun _ => ⟨ds, c, rfl, g2, g5 rfl, g4, g6, g7 rfl⟩⟩


/-! ## What the digit generators change -/

theorem digits_updated_refl (a : double_format_context) : digits_updated a a :=
  ⟨a.digits, a.decimal_point, rfl⟩

theorem digits_updated_trans (a b c : double_format_context) (h1 : digits_updated a b)
    (h2 : digits_updated b c) : digits_updated a c := by
  obtain ⟨ds, k, rfl⟩ := h1
  obtain ⟨ds2, k2, rfl⟩ := h2
  exact ⟨ds2, k2, rfl⟩

theorem digits_updated_digits (a b : double_format_context) (ds : List Nat)
    (h : digits_updated a b) : digits_updated a { b with digits := ds } := by
  obtain ⟨ds0, k, rfl⟩ := h
  exact ⟨ds, k, rfl⟩

theorem digits_updated_point (a b : double_format_context) (k : Int)
    (h : digits_updated a b) : digits_updated a { b with decimal_point := k } := by
  obtain ⟨ds0, k0, rfl⟩ := h
  exact ⟨ds0, k, rfl⟩

theorem digits_updated_add_digit (a b : double_format_context) (c : Nat)
    (h : digits_updated a b) : digits_updated a (b.add_digit c) :=
  digits_updated_digits a b _ h

theorem digits_updated_cleared (a b : double_format_context) (h : digits_updated a b) :
    { b with digits := [], decimal_point := 0 } = { a with digits := [], decimal_point := 0 } := by
  obtain ⟨ds0, k0, rfl⟩ := h
  rfl

theorem DigitGenCounted_loop1_updated (fuel : Nat) (dbl0 dbl : double_format_context)
    (digits_last integrals kappa divisor : Nat) (h : digits_updated dbl0 dbl) :
    digits_updated dbl0 (DigitGenCounted_loop1 fuel dbl digits_last integrals kappa divisor).1 := by
  induction fuel generalizing dbl digits_last integrals kappa divisor with
  | zero => exact h
  | succ fuel ih =>
    simp only [DigitGenCounted_loop1]
    by_cases h1 : kappa > 0
    · rw [if_pos h1]
      by_cases h2 : (digits_last + 2 ^ 32 - 1) % 2 ^ 32 = 0
      · rw [if_pos h2]
        exact digits_updated_add_digit _ _ _ h
      · rw [if_neg h2]
        exact ih _ _ _ _ _ (digits_updated_add_digit _ _ _ h)
    · rw [if_neg h1]
      exact h

theorem DigitGenCounted_loop2_updated (shift one fuel : Nat) (dbl0 dbl : double_format_context)
    (digits_last fractionals w_error : Nat) (kappa : Int) (h : digits_updated dbl0 dbl) :
    digits_updated dbl0
      (DigitGenCounted_loop2 shift one fuel dbl digits_last fractionals w_error kappa).1 := by
  induction fuel generalizing dbl digits_last fractionals w_error kappa with
  | zero => exact h
  | succ fuel ih =>
    simp only [DigitGenCounted_loop2]
    by_cases h1 : digits_last ≠ 0 ∧ fractionals > w_error
    · rw [if_pos h1]
      exact ih _ _ _ _ _ (digits_updated_add_digit _ _ _ h)
    · rw [if_neg h1]
      exact h

theorem RoundWeedCounted_updated (dbl0 dbl : double_format_context) (rest ten_kappa unit : Nat)
    (kappa : Int) (h : digits_updated dbl0 dbl) :
    digits_updated dbl0 (RoundWeedCounted dbl rest ten_kappa unit kappa).2.1 := by
  unfold RoundWeedCounted
  split_ifs
  · exact h
  · exact h
  · exact h
  · exact digits_updated_digits _ _ _ h
  · exact h

theorem DigitGenCounted_updated (dbl : double_format_context) (w : DiyFp) :
    digits_updated dbl (DigitGenCounted dbl w).2.1 := by
  simp only [DigitGenCounted]
  have h1 : ∀ a b c d e, digits_updated dbl (DigitGenCounted_loop1 a dbl b c d e).1 :=
    fun a b c d e => DigitGenCounted_loop1_updated a dbl dbl b c d e (digits_updated_refl dbl)
  by_cases c1 : (DigitGenCounted_loop1
      (BiggestPowerTen ((w.f >>> (-w.e).toNat) % 2 ^ 32) (64 - (-w.e).toNat)).2 dbl
      (dbl.requested_digits.toNat % 2 ^ 32) ((w.f >>> (-w.e).toNat) % 2 ^ 32)
      (BiggestPowerTen ((w.f >>> (-w.e).toNat) % 2 ^ 32) (64 - (-w.e).toNat)).2
      (BiggestPowerTen ((w.f >>> (-w.e).toNat) % 2 ^ 32) (64 - (-w.e).toNat)).1).2.1 = 0
  · rw [if_pos c1]
    exact RoundWeedCounted_updated _ _ _ _ _ _ (h1 _ _ _ _ _)
  · rw [if_neg c1]
    have h2 := fun a b c d e f g => DigitGenCounted_loop2_updated a b c dbl
      (DigitGenCounted_loop1
        (BiggestPowerTen ((w.f >>> (-w.e).toNat) % 2 ^ 32) (64 - (-w.e).toNat)).2 dbl
        (dbl.requested_digits.toNat % 2 ^ 32) ((w.f >>> (-w.e).toNat) % 2 ^ 32)
        (BiggestPowerTen ((w.f >>> (-w.e).toNat) % 2 ^ 32) (64 - (-w.e).toNat)).2
        (BiggestPowerTen ((w.f >>> (-w.e).toNat) % 2 ^ 32) (64 - (-w.e).toNat)).1).1
      d e f g (h1 _ _ _ _ _)
    split_ifs
    · exact h2 _ _ _ _ _ _ _
    · exact RoundWeedCounted_updated _ _ _ _ _ _ (h2 _ _ _ _ _ _ _)

/-- Function `grisu3_fixed_dtoa` only changes the digits and the decimal point. -/
theorem grisu3_fixed_dtoa_updated (dbl : double_format_context) :
    digits_updated dbl (grisu3_fixed_dtoa dbl).2 := by
  simp only [grisu3_fixed_dtoa]
  split_ifs
  · exact digits_updated_digits _ _ _ (DigitGenCounted_updated _ _)
  · exact digits_updated_point _ _ _ (DigitGenCounted_updated _ _)


/-! ## The decoded double -/

theorem bit_length_up_spec (fuel k n : Nat) (h : n < 2 ^ (2 ^ (k + fuel))) :
    n < 2 ^ (2 ^ (bit_length_up fuel k n)) := by
  induction fuel generalizing k with
  | zero => simpa [bit_length_up] using h
  | succ fuel ih =>
    rw [bit_length_up]
    by_cases hc : n < 2 ^ (2 ^ k)
    · rw [if_pos hc]; exact hc
    · rw [if_neg hc]
      apply ih
      rw [show k + 1 + fuel = k + (fuel + 1) by omega]
      exact h

theorem bit_length_down_spec (k n acc : Nat) (h : n < 2 ^ (2 ^ k)) :
    ∃ L, bit_length_down k n acc = acc + L ∧ n < 2 ^ L := by
  induction k generalizing n acc with
  | zero =>
    rw [bit_length_down]
    have hn : n < 2 := by simpa using h
    by_cases h0 : n = 0
    · rw [if_pos h0]; exact ⟨0, rfl, by omega⟩
    · rw [if_neg h0]; exact ⟨1, rfl, by omega⟩
  | succ k ih =>
    rw [bit_length_down]
    have hp : 0 < 2 ^ (2 ^ k) := pow_pos (by norm_num) _
    have hsq : (2 : Nat) ^ (2 ^ (k + 1)) = 2 ^ (2 ^ k) * 2 ^ (2 ^ k) := by
      rw [← pow_add]; congr 1; rw [pow_succ]; ring
    by_cases hc : n ≥ 2 ^ (2 ^ k)
    · rw [if_pos hc]
      have hq : n >>> (2 ^ k) < 2 ^ (2 ^ k) := by
        rw [Nat.shiftRight_eq_div_pow, Nat.div_lt_iff_lt_mul hp, ← hsq]
        exact h
      obtain ⟨L, e1, e2⟩ := ih (n >>> (2 ^ k)) (acc + 2 ^ k) hq
      refine ⟨2 ^ k + L, by rw [e1]; ring, ?_⟩
      rw [Nat.shiftRight_eq_div_pow, Nat.div_lt_iff_lt_mul hp] at e2
      rw [pow_add, Nat.mul_comm]
      exact e2
    · rw [if_neg hc]
      exact ih n acc (by omega)

/-- The model `bit_length` bounds its argument: `n < 2^(bit_length n)`. -/
theorem lt_two_pow_bit_length (n : Nat) : n < 2 ^ bit_length n := by
  have h1 : n < 2 ^ (2 ^ (0 + n)) := by
    have a : n < 2 ^ n := Nat.lt_pow_self (by norm_num) n
    have b : (2 : Nat) ^ n ≤ 2 ^ (2 ^ (0 + n)) := by
      rw [Nat.zero_add]
      exact Nat.pow_le_pow_right (by norm_num) (le_of_lt a)
    omega
  obtain ⟨L, e1, e2⟩ := bit_length_down_spec _ n 0 (bit_length_up_spec n 0 n h1)
  unfold bit_length
  rw [e1, Nat.zero_add]
  exact e2

/-- The bit pattern produced by the rounding of a product is that of a non-negative double or
of `+infinity`. -/
theorem double_of_scaled_lt (m : Nat) (e : Int) : double_of_scaled m e < 2 ^ 63 := by
  unfold double_of_scaled
  by_cases hm : m = 0
  · rw [if_pos hm]; norm_num
  rw [if_neg hm]
  simp only []
  have hlen := lt_two_pow_bit_length m
  generalize bit_length m = len at *
  generalize hq0 : max (e + (len : Int) - 53) (-1074) = q0
  have hq1 : e + (len : Int) - 53 ≤ q0 := by rw [← hq0]; exact le_max_left _ _
  -- the rounded significand is at most 2^53
  have hmant : (if q0 ≤ e then m * 2 ^ (e - q0).toNat
      else if m % 2 ^ (q0 - e).toNat > 2 ^ ((q0 - e).toNat - 1) ∨
          (m % 2 ^ (q0 - e).toNat = 2 ^ ((q0 - e).toNat - 1) ∧ m >>> (q0 - e).toNat % 2 = 1)
        then m >>> (q0 - e).toNat + 1 else m >>> (q0 - e).toNat) ≤ 2 ^ 53 := by
    by_cases hc : q0 ≤ e
    · rw [if_pos hc]
      obtain ⟨x, hx⟩ : ∃ x : Nat, (e - q0).toNat = x := ⟨_, rfl⟩
      rw [hx]
      have h1 : len + x ≤ 53 := by omega
      have h2 : m * 2 ^ x < 2 ^ len * 2 ^ x := Nat.mul_lt_mul_of_pos_right hlen (pow_pos (by norm_num) _)
      have h3 : (2 : Nat) ^ len * 2 ^ x ≤ 2 ^ 53 := by
        rw [← pow_add]; exact Nat.pow_le_pow_right (by norm_num) h1
      omega
    · rw [if_neg hc]
      obtain ⟨s, hs⟩ : ∃ s : Nat, (q0 - e).toNat = s := ⟨_, rfl⟩
      rw [hs]
      have hsp : 0 < 2 ^ s := pow_pos (by norm_num) s
      have ht : m >>> s < 2 ^ 53 := by
        rw [Nat.shiftRight_eq_div_pow, Nat.div_lt_iff_lt_mul hsp]
        have h1 : len ≤ 53 + s := by omega
        have h3 : (2 : Nat) ^ len ≤ 2 ^ 53 * 2 ^ s := by
          rw [← pow_add]; exact Nat.pow_le_pow_right (by norm_num) h1
        omega
      split_ifs <;> omega
  generalize (if q0 ≤ e then m * 2 ^ (e - q0).toNat
      else if m % 2 ^ (q0 - e).toNat > 2 ^ ((q0 - e).toNat - 1) ∨
          (m % 2 ^ (q0 - e).toNat = 2 ^ ((q0 - e).toNat - 1) ∧ m >>> (q0 - e).toNat % 2 = 1)
        then m >>> (q0 - e).toNat + 1 else m >>> (q0 - e).toNat) = mant0 at *
  by_cases h53 : mant0 = 2 ^ 53
  · simp only [h53, if_true]
    norm_num
    split_ifs <;> omega
  · simp only [h53, if_false]
    split_ifs <;> omega

/-- The decoding of a bit pattern below `2^63`: a significand below `2^53`, an exponent in
`[-1074, 972]`, sub-normal only at the least exponent, and a non-zero significand unless the
pattern is zero. -/
theorem of_double_lt (u : Nat) (hu : u < 2 ^ 63) :
    (double_format_context.of_double u).value = u ∧
    (double_format_context.of_double u).significand < 2 ^ 53 ∧
    -1074 ≤ (double_format_context.of_double u).exponent ∧
    (double_format_context.of_double u).exponent ≤ 972 ∧
    ((double_format_context.of_double u).significand < 2 ^ 52 →
      (double_format_context.of_double u).exponent = -1074) ∧
    (u ≠ 0 → 0 < (double_format_context.of_double u).significand) ∧
    (double_format_context.of_double u).digits = [] := by
  unfold double_format_context.of_double
  simp only []
  by_cases h : u / 2 ^ 52 % 2 ^ 11 ≠ 0
  · rw [if_pos h]
    refine ⟨rfl, ?_, ?_, ?_, ?_, ?_, rfl⟩
    · show u % 2 ^ 52 + 2 ^ 52 < 2 ^ 53; omega
    · show -1074 ≤ ((u / 2 ^ 52 % 2 ^ 11 : Nat) : Int) - 1075; omega
    · show ((u / 2 ^ 52 % 2 ^ 11 : Nat) : Int) - 1075 ≤ 972; omega
    · intro hc
      have : u % 2 ^ 52 + 2 ^ 52 < 2 ^ 52 := hc
      omega
    · intro _; show 0 < u % 2 ^ 52 + 2 ^ 52; omega
  · rw [if_neg h]
    refine ⟨rfl, ?_, ?_, ?_, ?_, ?_, rfl⟩
    · show u % 2 ^ 52 < 2 ^ 53; omega
    · show (-1074 : Int) ≤ -1074; omega
    · show (-1074 : Int) ≤ 972; omega
    · intro _; rfl
    · intro h0; show 0 < u % 2 ^ 52; omega


/-! ## The digit generation returns -/

theorem clamp_bounds (v lo hi : Int) (h : lo ≤ hi) : lo ≤ clamp v lo hi ∧ clamp v lo hi ≤ hi := by
  unfold clamp
  split_ifs <;> omega

theorem decoded_of_double (u : Nat) (hu : u < 2 ^ 63) (up hp : Bool) (req : Int) :
    decoded { double_format_context.of_double u with
      uppercase := up, has_requested_digits := hp, requested_digits := req } := by
  obtain ⟨h1, h2, h3, h4, h5, h6, h7⟩ := of_double_lt u hu
  refine ⟨h2, h3, h4, h5, ?_, ?_, h7⟩
  · intro hv
    apply h6
    intro h0
    apply hv
    show (double_format_context.of_double u).value = 0
    rw [h1, h0]
  · show (double_format_context.of_double (double_format_context.of_double u).value).significand
      = (double_format_context.of_double u).significand
    rw [h1]

theorem decoded_requested (dbl : double_format_context) (req : Int) (h : decoded dbl) :
    decoded { dbl with requested_digits := req } := h

/-- In SHORTEST mode the digit generation returns: it writes decimal digits of which neither
the first nor the last is `'0'` (a single `'0'` with decimal point 1 for the value zero). -/
theorem generate_decimal_digits_shortest (dbl : double_format_context) (h : decoded dbl) :
    ∃ ds c k, generate_decimal_digits dbl dtoa_mode.SHORTEST
        = some { dbl with digits := ds ++ [c], decimal_point := k } ∧
      all_digits ds ∧ 48 ≤ c ∧ c ≤ 57 ∧ (dbl.value ≠ 0 → 49 ≤ c) ∧
      (dbl.value = 0 → ds = [] ∧ k = 1) ∧ ds.length ≤ 73 ∧
      (dbl.value ≠ 0 → (ds ++ [c]).head? ≠ some 48) := by
  obtain ⟨h1, h2, h3, h4, h5, h6, h7⟩ := h
  unfold generate_decimal_digits
  simp only [reduceCtorEq, false_and, if_false]
  by_cases hz : dbl.value = 0
  · rw [if_pos hz]
    refine ⟨[], 48, 1, ?_, all_digits_nil, by omega, by omega, fun hc => absurd hz hc,
      fun _ => ⟨rfl, rfl⟩, by simp, fun hc => absurd hz hc⟩
    unfold double_format_context.add_digit
    rw [h7]
  · rw [if_neg hz]
    have hm0 := h5 hz
    obtain ⟨ok, ds, k, g1, g2⟩ := grisu3_dtoa_spec dbl hm0 h1 h2 h3 (by rw [h6]; exact hm0)
      (by rw [h6]; exact h1)
    rw [g1]
    cases ok
    · simp only []
      obtain ⟨ds2, c, k2, f1, f2, f3, f4, f5, -, f7⟩ := bignum_dtoa_shortest
        { dbl with digits := [], decimal_point := 0 } hm0 h1 h2 h3 h4
      rw [f1]
      exact ⟨ds2, c, k2, by simp, f2, by omega, f4, fun _ => f3, fun hc => absurd hc hz,
        by omega, fun _ => f7 rfl⟩
    · simp only []
      obtain ⟨ds0, c, e1, e2, e3, e4, e5, e6⟩ := g2 rfl
      rw [h7, List.nil_append] at e1
      exact ⟨ds0, c, k, by rw [e1], e2, by omega, by omega, fun _ => e3, fun hc => absurd hc hz,
        e5, fun _ => e6 h7⟩

/-- In FIXED mode the digit generation returns for every non-negative count. -/
theorem generate_decimal_digits_fixed (dbl : double_format_context) (h : decoded dbl)
    (hr : 0 ≤ dbl.requested_digits) :
    ∃ d, generate_decimal_digits dbl dtoa_mode.FIXED = some d := by
  obtain ⟨h1, h2, h3, h4, h5, h6, h7⟩ := h
  unfold generate_decimal_digits
  simp only [reduceCtorEq, false_and, if_false]
  by_cases hz : dbl.value = 0
  · rw [if_pos hz]; exact ⟨_, rfl⟩
  · rw [if_neg hz]
    have hm0 := h5 hz
    have hshape : (fast_fixed_dtoa dbl).1 = false → (fast_fixed_dtoa dbl).2 = dbl := by
      unfold fast_fixed_dtoa
      split_ifs <;> simp
    rcases hb : fast_fixed_dtoa dbl with ⟨ok, d⟩
    cases ok
    · simp only []
      have hd : d = dbl := by
        have := hshape (by rw [hb])
        rw [hb] at this
        exact this
      rw [hd]
      obtain ⟨ds, k, g1, -⟩ := bignum_dtoa_fixed { dbl with digits := [], decimal_point := 0 }
        dbl.requested_digits.toNat hm0 h1 h2 h3 h4 (by show dbl.requested_digits = _; omega) rfl
      rw [g1]
      exact ⟨_, rfl⟩
    · exact ⟨d, rfl⟩

/-- In PRECISION mode the digit generation returns for every non-negative count; it only
changes the digits and the decimal point. -/
theorem generate_decimal_digits_precision (dbl : double_format_context) (h : decoded dbl)
    (hr : 0 ≤ dbl.requested_digits) :
    ∃ d, generate_decimal_digits dbl dtoa_mode.PRECISION = some d ∧ digits_updated dbl d := by
  obtain ⟨h1, h2, h3, h4, h5, h6, h7⟩ := h
  unfold generate_decimal_digits
  simp only [true_and]
  by_cases hr0 : dbl.requested_digits = 0
  · rw [if_pos hr0]; exact ⟨_, rfl, digits_updated_refl _⟩
  rw [if_neg hr0]
  by_cases hz : dbl.value = 0
  · rw [if_pos hz]
    exact ⟨_, rfl, digits_updated_point _ _ _ (digits_updated_add_digit _ _ _ (digits_updated_refl _))⟩
  · rw [if_neg hz]
    have hm0 := h5 hz
    have hsh := grisu3_fixed_dtoa_updated dbl
    rcases hb : grisu3_fixed_dtoa dbl with ⟨ok, d⟩
    rw [hb] at hsh
    cases ok
    · simp only []
      rw [digits_updated_cleared dbl d hsh]
      obtain ⟨ds, k, kv, g1, -⟩ := bignum_dtoa_precision { dbl with digits := [], decimal_point := 0 }
        dbl.requested_digits.toNat (by omega) hm0 h1 h2 h3 h4
        (by show dbl.requested_digits = _; omega) rfl
      rw [g1]
      exact ⟨_, rfl, ⟨ds, k, rfl⟩⟩
    · exact ⟨d, rfl, hsh⟩


theorem generate_shortest_total (dbl : double_format_context) (h : decoded dbl) :
    ∃ d, generate_shortest dbl = some d := by
  obtain ⟨ds, c, k, e1, -⟩ := generate_decimal_digits_shortest dbl h
  unfold generate_shortest
  rw [e1]
  simp only []
  split_ifs <;> exact ⟨_, rfl⟩

theorem generate_precision_total (dbl : double_format_context) (h : decoded dbl) :
    ∃ d, generate_precision dbl = some d := by
  have hc := clamp_bounds dbl.requested_digits 1 120 (by norm_num)
  obtain ⟨d, e1, -⟩ := generate_decimal_digits_precision
    { dbl with requested_digits := clamp dbl.requested_digits 1 120 }
    (decoded_requested dbl _ h) (by show 0 ≤ clamp dbl.requested_digits 1 120; omega)
  unfold generate_precision
  simp only []
  rw [e1]
  simp only []
  split_ifs <;> exact ⟨_, rfl⟩

theorem generate_exponent_total (dbl : double_format_context) (h : decoded dbl) :
    ∃ d, generate_exponent dbl = some d := by
  have hc := clamp_bounds dbl.requested_digits 0 120 (by norm_num)
  obtain ⟨ds, c, k, e1, -⟩ := generate_decimal_digits_shortest
    { dbl with requested_digits := clamp dbl.requested_digits 0 120 } (decoded_requested dbl _ h)
  obtain ⟨d, e2, -⟩ := generate_decimal_digits_precision
    { dbl with requested_digits := clamp dbl.requested_digits 0 120 + 1 }
    (decoded_requested dbl _ h) (by show 0 ≤ clamp dbl.requested_digits 0 120 + 1; omega)
  unfold generate_exponent
  simp only []
  rw [e1, e2]
  split_ifs <;> exact ⟨_, rfl⟩

theorem generate_fixed_total (dbl : double_format_context) (h : decoded dbl) :
    ∃ r, generate_fixed dbl = some r := by
  have hc := clamp_bounds dbl.requested_digits 0 60 (by norm_num)
  unfold generate_fixed
  split_ifs
  · exact ⟨_, rfl⟩
  · simp only []
    obtain ⟨d, e1⟩ := generate_decimal_digits_fixed
      { dbl with requested_digits := clamp dbl.requested_digits 0 60 }
      (decoded_requested dbl _ h) (by show 0 ≤ clamp dbl.requested_digits 0 60; omega)
    rw [e1]
    exact ⟨_, rfl⟩

/-- The digit generation selected by the type char returns for every decoded double. -/
theorem generate_for_type_total (spec : format_spec) (dbl : double_format_context)
    (h : decoded dbl) : ∃ d, generate_for_type spec dbl = some d := by
  unfold generate_for_type
  split_ifs
  · exact generate_exponent_total dbl h
  · obtain ⟨r, e1⟩ := generate_fixed_total dbl h
    rw [e1]
    cases r with
    | none => exact generate_precision_total dbl h
    | some d => exact ⟨d, rfl⟩
  · exact generate_precision_total dbl h
  · exact generate_shortest_total dbl h
  · exact ⟨dbl, rfl⟩

theorem format_exponent_append (out : List Nat) (dbl : double_format_context) :
    format_exponent out dbl = out ++ format_exponent [] dbl := by
  unfold format_exponent add
  simp only []
  split_ifs <;> simp

theorem format_decimal_append (out : List Nat) (dbl : double_format_context) :
    format_decimal out dbl = out ++ format_decimal [] dbl := by
  unfold format_decimal add add_padding
  simp only []
  split_ifs <;> simp

theorem format_append (out : List Nat) (dbl : double_format_context) :
    format out dbl = out ++ format [] dbl := by
  unfold format
  split_ifs
  · exact format_exponent_append out dbl
  · exact format_decimal_append out dbl


/-! ## The text of a finite double -/

/-- The context `do_format_double` builds for the magnitude bits `mag`. -/
theorem do_format_double_finite (out : List Nat) (spec : format_spec) (u : Nat) (hu : u < 2 ^ 64)
    (hfin : (u / 2 ^ 52) % 2 ^ 11 ≠ 2047) :
    ∃ d, generate_for_type spec
        { double_format_context.of_double
            (if spec.type = 37 then double_times_100 (u % 2 ^ 63) else u % 2 ^ 63) with
          uppercase := type_is_upper spec.type, has_requested_digits := spec.has_precision,
          requested_digits := requested_of_spec spec } = some d ∧
      do_format_double out spec u = some (out
        ++ (if sign_char spec (decide (u / 2 ^ 63 % 2 = 1)) ≠ 0
            then [sign_char spec (decide (u / 2 ^ 63 % 2 = 1))] else [])
        ++ format [] d ++ (if spec.type = 37 then [37] else [])) := by
  have hmag : (if decide (u / 2 ^ 63 % 2 = 1) = true then u % 2 ^ 63 else u) = u % 2 ^ 63 := by
    split_ifs with h
    · rfl
    · simp only [decide_eq_true_eq] at h
      omega
  have hfin2 : ¬ (u % 2 ^ 63 / 2 ^ 52 % 2 ^ 11 = 2047) := by omega
  have hlt : (if spec.type = 37 then double_times_100 (u % 2 ^ 63) else u % 2 ^ 63) < 2 ^ 63 := by
    split_ifs
    · exact double_of_scaled_lt _ _
    · omega
  obtain ⟨d, hd⟩ := generate_for_type_total spec _
    (decoded_of_double _ hlt (type_is_upper spec.type) spec.has_precision (requested_of_spec spec))
  refine ⟨d, hd, ?_⟩
  unfold do_format_double
  simp only []
  rw [hmag, if_neg hfin2]
  have hg : ∀ s x, generate_for_type { spec with sign := s } x = generate_for_type spec x :=
    fun s x => rfl
  have hr : ∀ s, requested_of_spec { spec with sign := s } = requested_of_spec spec := fun s => rfl
  rw [hg, hr, hd]
  simp only []
  have hz : to_unsigned ((spec.width : Int) - spec.width) = 0 := by
    unfold to_unsigned; simp
  rw [hz]
  simp only [Nat.zero_div, ite_self, ne_eq, not_true_eq_false, if_false]
  rw [format_append]
  unfold add
  split_ifs <;> simp


theorem sign_char_text (spec : format_spec) (negative : Bool) (hs : spec.sign ∈ [0, 43, 45, 32]) :
    (if sign_char spec negative ≠ 0 then [sign_char spec negative] else [])
      = sign_text spec.sign negative := by
  simp only [List.mem_cons, List.mem_singleton, List.not_mem_nil, or_false] at hs
  unfold sign_char sign_text
  rcases hs with g | g | g | g <;> cases negative <;> simp [g, bytes]

theorem format_num_head_sign (spec : format_spec) (alt : Nat) (negative : Bool)
    (hs : spec.sign ∈ [0, 43, 45, 32]) :
    format_num_head spec alt negative
      = sign_text spec.sign negative ++ format_num_head { spec with sign := 0 } alt false := by
  have h := sign_char_text spec negative hs
  unfold format_num_head add
  simp only [] at h ⊢
  have h0 : sign_char { spec with sign := 0 } false = 0 := by simp [sign_char]
  rw [h0]
  simp only [ne_eq, not_true_eq_false, if_false]
  split_ifs at h ⊢ <;> simp_all

/-- C14: the sign of a rendered number. For an integer of any of the eight integer types and a
finite double of any type and precision, with any of the sign flags (none, `'+'`, `'-'`,
`' '`), the text is the text of the magnitude rendered without sign flag, preceded by `"-"`
when the value is negative (the `negative` flag of `format_num`, the sign bit of the double),
and otherwise by `"+"` for the flag `'+'`, by a space for the flag `' '` and by nothing for the
flag `'-'` or no flag. For the integer the padding of the field is shown around it; a double is
never padded. -/
theorem sign_rendering (out : List Nat) (ispec : format_spec) (arg : Nat) (negative : Bool)
    (dspec : format_spec) (u : Nat)
    (hti : ispec.type ∈ [0, 100, 110, 98, 66, 111, 120, 88])
    (hsi : ispec.sign ∈ [0, 43, 45, 32]) (hsd : dspec.sign ∈ [0, 43, 45, 32])
    (hu : u < 2 ^ 64) (hfin : (u / 2 ^ 52) % 2 ^ 11 ≠ 2047) :
    (∃ alt digits p f, format_num_digits ispec arg = some (alt, digits) ∧
      format_num [] { ispec with sign := 0, width := 0 } arg false
        = some (format_num_head { ispec with sign := 0 } alt false ++ digits) ∧
      p = ispec.width - ((sign_text ispec.sign negative).length
            + (format_num_head { ispec with sign := 0 } alt false).length + digits.length) ∧
      f = (if ispec.fill = 0 then 32 else ispec.fill) ∧
      format_num out ispec arg negative = some (
        out ++ List.replicate (if ispec.align = 62 ∨ ispec.align = 0 then p
                                else if ispec.align = 94 then p / 2 else 0) f
          ++ sign_text ispec.sign negative ++ format_num_head { ispec with sign := 0 } alt false
          ++ List.replicate (if ispec.align = 61 then p else 0) f
          ++ digits
          ++ List.replicate (if ispec.align = 60 then p
                              else if ispec.align = 94 then p - p / 2 else 0) f)) ∧
    (∃ body, do_format_double [] { dspec with sign := 0 } (u % 2 ^ 63) = some body ∧
      do_format_double out dspec u
        = some (out ++ sign_text dspec.sign (decide (u / 2 ^ 63 % 2 = 1)) ++ body)) := by
  constructor
  · obtain ⟨alt, digits, hd⟩ := format_num_digits_isSome ispec arg hti
    have hh := format_num_head_sign ispec alt negative hsi
    have nf := format_num_normal_form out ispec arg negative alt digits hd _ rfl _ rfl
    have hd0 : format_num_digits { ispec with sign := 0, width := 0 } arg = some (alt, digits) := by
      rw [← hd]; rfl
    have nf0 := format_num_normal_form [] { ispec with sign := 0, width := 0 } arg false alt digits
      hd0 _ rfl _ rfl
    refine ⟨alt, digits, _, _, hd, ?_, rfl, rfl, ?_⟩
    · rw [nf0]
      have : format_num_head { ispec with sign := 0, width := 0 } alt false
          = format_num_head { ispec with sign := 0 } alt false := rfl
      rw [this]
      simp
    · rw [nf, hh]
      simp only [List.length_append, List.append_assoc, Nat.add_assoc]
  · have hu2 : u % 2 ^ 63 < 2 ^ 64 := by omega
    have hfin2 : (u % 2 ^ 63 / 2 ^ 52) % 2 ^ 11 ≠ 2047 := by omega
    obtain ⟨d, g1, g2⟩ := do_format_double_finite out dspec u hu hfin
    obtain ⟨d2, f1, f2⟩ := do_format_double_finite [] { dspec with sign := 0 } (u % 2 ^ 63) hu2 hfin2
    have hmm : u % 2 ^ 63 % 2 ^ 63 = u % 2 ^ 63 := Nat.mod_mod _ _
    rw [hmm] at f1
    have hsame : d2 = d := by
      have : some d2 = some d := by rw [← f1, ← g1]; rfl
      exact Option.some.inj this
    subst hsame
    have hneg : decide (u % 2 ^ 63 / 2 ^ 63 % 2 = 1) = false := by
      rw [decide_eq_false_iff_not]; omega
    have hs0 : sign_char { dspec with sign := 0 } false = 0 := by simp [sign_char]
    rw [hneg, hs0] at f2
    simp only [ne_eq, not_true_eq_false, if_false, List.nil_append] at f2
    refine ⟨_, f2, ?_⟩
    rw [g2, sign_char_text dspec _ hsd]
    simp [List.append_assoc]

/-- C14 witness: `"{:+}"` of `42` is `"+42"`, of `-42` is `"-42"`, of `1.5` is `"+1.5"` and
of `-1.5` is `"-1.5"`. -/
theorem sign_rendering_witness :
    format_num [] { sign := 43 } 42 false = some (bytes "+42") ∧
    format_num [] { sign := 43 } 42 true = some (bytes "-42") ∧
    do_format_double [] { sign := 43 } 0x3FF8000000000000 = some (bytes "+1.5") ∧
    do_format_double [] { sign := 43 } 0xBFF8000000000000 = some (bytes "-1.5") := by
  obtain ⟨⟨alt, digits, p, f, hd, -, hp, hf, h1⟩, body, hb, h2⟩ :=
    sign_rendering [] { sign := 43 } 42 false { sign := 43 } 0x3FF8000000000000
      (by decide) (by decide) (by decide) (by decide) (by decide)
  obtain ⟨⟨alt2, digits2, p2, f2, hd2, -, hp2, hf2, h3⟩, body2, hb2, h4⟩ :=
    sign_rendering [] { sign := 43 } 42 true { sign := 43 } 0xBFF8000000000000
      (by decide) (by decide) (by decide) (by decide) (by decide)
  have e : format_num_digits { sign := 43 } 42 = some (0, bytes "42") := by decide
  have eb : do_format_double [] { sign := 0 } (0x3FF8000000000000 % 2 ^ 63)
      = some (bytes "1.5") := by decide!
  have eb2 : do_format_double [] { sign := 0 } (0xBFF8000000000000 % 2 ^ 63)
      = some (bytes "1.5") := by decide!
  rw [e] at hd hd2
  obtain ⟨rfl, rfl⟩ : (0 : Nat) = alt ∧ bytes "42" = digits := by simpa using hd
  obtain ⟨rfl, rfl⟩ : (0 : Nat) = alt2 ∧ bytes "42" = digits2 := by simpa using hd2
  have hbody : body = bytes "1.5" := Option.some.inj (hb.symm.trans eb)
  have hbody2 : body2 = bytes "1.5" := Option.some.inj (hb2.symm.trans eb2)
  refine ⟨?_, ?_, ?_, ?_⟩
  · rw [h1, hp, hf]; decide
  · rw [h3, hp2, hf2]; decide
  · rw [h2, hbody]; decide
  · rw [h4, hbody2]; decide


/-! ## The notation chosen in SHORTEST mode -/

theorem format_decimal_shortest (dbl : double_format_context)
    (hlen : 1 ≤ dbl.digits.length) (hlen2 : dbl.digits.length ≤ 74)
    (hk1 : -5 ≤ dbl.decimal_point) (hk2 : dbl.decimal_point ≤ 22)
    (hdap : dbl.digits_after_point
      = to_unsigned (max 0 ((dbl.digits.length : Int) - dbl.decimal_point))) :
    format_decimal [] dbl = decimal_text dbl.digits dbl.decimal_point := by
  unfold format_decimal decimal_text add add_padding
  unfold to_unsigned at hdap ⊢
  by_cases h1 : dbl.decimal_point ≤ 0
  · have hm : max 0 ((dbl.digits.length : Int) - dbl.decimal_point)
        = (dbl.digits.length : Int) - dbl.decimal_point := by omega
    rw [hm] at hdap
    have hne : dbl.digits_after_point ≠ 0 := by omega
    have hrem : (((dbl.digits_after_point : Int) - ((-dbl.decimal_point % 2 ^ 32).toNat : Int)
        - (dbl.digits.length : Int)) % 2 ^ 32).toNat = 0 := by omega
    simp only [h1, if_true, hne, ne_eq, not_false_eq_true, hrem, List.replicate_zero,
      List.append_nil, List.nil_append]
    simp [bytes]
  · have h1' : ¬ dbl.decimal_point ≤ 0 := h1
    by_cases h2 : dbl.decimal_point ≥ (dbl.digits.length : Int)
    · have hm : max 0 ((dbl.digits.length : Int) - dbl.decimal_point) = 0 := by omega
      rw [hm] at hdap
      have hz : dbl.digits_after_point = 0 := by simpa using hdap
      have hpad : ((((dbl.decimal_point % 2 ^ 32).toNat : Int) - (dbl.digits.length : Int))
          % 2 ^ 32).toNat = (dbl.decimal_point - (dbl.digits.length : Int)).toNat := by omega
      simp only [h1', if_false, h2, if_true, hz, gt_iff_lt, lt_self_iff_false, hpad,
        List.nil_append]
    · have hm : max 0 ((dbl.digits.length : Int) - dbl.decimal_point)
          = (dbl.digits.length : Int) - dbl.decimal_point := by omega
      rw [hm] at hdap
      have hrem : (((dbl.digits_after_point : Int)
          - ((((dbl.digits.length : Int) - dbl.decimal_point) % 2 ^ 32).toNat : Int)) % 2 ^ 32).toNat
          = 0 := by omega
      simp only [h1', if_false, h2, hrem, List.replicate_zero, List.append_nil, List.nil_append]

theorem decimal_text_last (ds : List Nat) (c : Nat) (k : Int) (hds : all_digits ds)
    (hc1 : 48 ≤ c) (hc0 : c = 48 → ds = [] ∧ k = 1)
    (h : 46 ∈ decimal_text (ds ++ [c]) k) :
    (decimal_text (ds ++ [c]) k).getLast? = some c ∧ c ≠ 48 := by
  unfold decimal_text at h ⊢
  by_cases h1 : k ≤ 0
  · rw [if_pos h1]
    refine ⟨?_, fun hc => ?_⟩
    · rw [← List.append_assoc, List.getLast?_append]
      simp
    · have := (hc0 hc).2; omega
  · rw [if_neg h1] at h ⊢
    by_cases h2 : k ≥ ((ds ++ [c]).length : Int)
    · rw [if_pos h2] at h
      exfalso
      simp only [List.mem_append, List.mem_singleton, List.mem_replicate] at h
      rcases h with (h | h) | h
      · have := hds 46 h; omega
      · omega
      · omega
    · rw [if_neg h2]
      have hlt : k.toNat < (ds ++ [c]).length := by omega
      refine ⟨?_, fun hc => ?_⟩
      · rw [List.getLast?_append]
        have hd : (List.drop k.toNat (ds ++ [c])).getLast? = some c := by
          rw [List.getLast?_drop]
          simp only [List.length_append, List.length_singleton] at hlt ⊢
          rw [if_neg (by omega)]
          simp
        rw [hd]; rfl
      · obtain ⟨e1, e2⟩ := hc0 hc
        rw [e1] at h2
        simp at h2
        omega


theorem of_double_not_exponent (x : Nat) :
    (double_format_context.of_double x).format_as_exponent = false := by
  unfold double_format_context.of_double
  simp only []
  split_ifs <;> rfl

/-- C17: the notation of a finite double formatted without precision and with type none,
`'g'` or `'G'`. The shortest digits `ds ++ [c]` with decimal point `k` are generated; when
the decimal exponent `k - 1` lies in `[-6, 21]` the text is the decimal notation of these digits
(after the sign text), otherwise it is what `format_exponent` writes for them. The decimal
notation shows exactly the generated digits: if it has a point, its last character is the last
generated digit, which is not `'0'`. -/
theorem shortest_notation (out : List Nat) (spec : format_spec) (u : Nat)
    (hu : u < 2 ^ 64) (hfin : (u / 2 ^ 52) % 2 ^ 11 ≠ 2047)
    (ht : spec.type ∈ [0, 103, 71]) (hp : spec.has_precision = false)
    (hs : spec.sign ∈ [0, 43, 45, 32])
    (ctx : double_format_context)
    (hctx : ctx = { double_format_context.of_double (u % 2 ^ 63) with
      uppercase := type_is_upper spec.type, has_requested_digits := spec.has_precision,
      requested_digits := requested_of_spec spec }) :
    ∃ ds c k, generate_decimal_digits ctx dtoa_mode.SHORTEST
        = some { ctx with digits := ds ++ [c], decimal_point := k } ∧
      all_digits ds ∧ 48 ≤ c ∧ c ≤ 58 ∧
      (-6 ≤ k - 1 ∧ k - 1 ≤ 21 → do_format_double out spec u
        = some (out ++ sign_text spec.sign (decide (u / 2 ^ 63 % 2 = 1))
            ++ decimal_text (ds ++ [c]) k)) ∧
      (¬ (-6 ≤ k - 1 ∧ k - 1 ≤ 21) → do_format_double out spec u
        = some (out ++ sign_text spec.sign (decide (u / 2 ^ 63 % 2 = 1))
            ++ format_exponent [] { ctx with digits := ds ++ [c], decimal_point := k })) ∧
      (46 ∈ decimal_text (ds ++ [c]) k →
        (decimal_text (ds ++ [c]) k).getLast? = some c ∧ c ≠ 48) := by
  simp only [List.mem_cons, List.mem_singleton, List.not_mem_nil, or_false] at ht
  have h37 : spec.type ≠ 37 := by omega
  have hdec : decoded ctx := by
    rw [hctx]
    exact decoded_of_double _ (by omega) _ _ _
  obtain ⟨ds, c, k, e1, e2, e3, e4, e5, e6, e7, -⟩ := generate_decimal_digits_shortest ctx hdec
  obtain ⟨d, g1, g2⟩ := do_format_double_finite out spec u hu hfin
  rw [if_neg h37, ← hctx] at g1
  rw [if_neg h37, sign_char_text spec _ hs] at g2
  have hval : ctx.value = u % 2 ^ 63 := by
    rw [hctx]
    exact (of_double_lt _ (by omega)).1
  have hfe : ctx.format_as_exponent = false := by
    rw [hctx]
    exact of_double_not_exponent _
  have hgen : generate_for_type spec ctx = generate_shortest ctx := by
    unfold generate_for_type
    rw [if_neg (by omega), if_neg (by omega), if_pos (by omega), hp]
    simp
  rw [hgen] at g1
  unfold generate_shortest at g1
  rw [e1] at g1
  simp only [] at g1
  have hc0 : c = 48 → ds = [] ∧ k = 1 := by
    intro hc
    apply e6
    by_contra hv
    have := e5 hv
    omega
  refine ⟨ds, c, k, e1, e2, e3, by omega, ?_, ?_, decimal_text_last ds c k e2 e3 hc0⟩
  · intro hr
    rw [if_pos hr] at g1
    have hd := Option.some.inj g1
    have d1 : d.format_as_exponent = false := by rw [← hd]; exact hfe
    have d2 : d.digits = ds ++ [c] := by rw [← hd]
    have d3 : d.decimal_point = k := by rw [← hd]
    have d4 : d.digits_after_point
        = to_unsigned (max 0 ((d.digits.length : Int) - d.decimal_point)) := by rw [← hd]
    have hfmt : format [] d = format_decimal [] d := by
      unfold format
      rw [d1]; simp
    rw [g2, hfmt, format_decimal_shortest d (by rw [d2]; simp) (by rw [d2]; simp; omega)
      (by rw [d3]; omega) (by rw [d3]; omega) d4, d2, d3]
    simp
  · intro hr
    rw [if_neg hr] at g1
    have hd := Option.some.inj g1
    have hfmt : format [] d = format_exponent [] d := by
      unfold format
      rw [← hd]; simp
    rw [g2, hfmt, ← hd]
    simp only [List.append_nil]
    rfl

/-- C17 witness: the texts of `1e-6`, `1e-7`, `1e10`, `12.34` and `1e21`, `1e22`; for `12.34`
the digits and the decimal point exist as described. -/
theorem shortest_notation_witness :
    (∃ ds c k, generate_decimal_digits
        { double_format_context.of_double (0x4028AE147AE147AE % 2 ^ 63) with
          uppercase := type_is_upper 0, has_requested_digits := false,
          requested_digits := requested_of_spec {} } dtoa_mode.SHORTEST
        = some { double_format_context.of_double (0x4028AE147AE147AE % 2 ^ 63) with
          uppercase := type_is_upper 0, has_requested_digits := false,
          requested_digits := requested_of_spec {}, digits := ds ++ [c], decimal_point := k } ∧
      (-6 ≤ k - 1 ∧ k - 1 ≤ 21 → do_format_double [] {} 0x4028AE147AE147AE
        = some ([] ++ sign_text 0 false ++ decimal_text (ds ++ [c]) k))) ∧
    do_format_double [] {} 0x4028AE147AE147AE = some (bytes "12.34") ∧
    do_format_double [] {} 0x3EB0C6F7A0B5ED8D = some (bytes "0.000001") ∧
    do_format_double [] {} 0x3E7AD7F29ABCAF48 = some (bytes "1e-7") ∧
    do_format_double [] {} 0x4202A05F20000000 = some (bytes "10000000000") ∧
    do_format_double [] {} 0x444B1AE4D6E2EF50 = some (bytes "1000000000000000000000") ∧
    do_format_double [] {} 0x4480F0CF064DD592 = some (bytes "1e+22") := by
  refine ⟨?_, by decide!, by decide!, by decide!, by decide!, by decide!, by decide!⟩
  obtain ⟨ds, c, k, h1, -, -, -, h2, -, -⟩ := shortest_notation [] {} 0x4028AE147AE147AE
    (by decide) (by decide) (by decide) rfl (by decide) _ rfl
  exact ⟨ds, c, k, h1, h2⟩


/-- The `switch` of `format_num` rejects every other type char. -/
theorem format_num_digits_eq_none (spec : format_spec) (arg : Nat) :
    format_num_digits spec arg = none ↔ spec.type ∉ [0, 100, 110, 98, 66, 111, 120, 88] := by
  constructor
  · intro h ht
    obtain ⟨a, d, e⟩ := format_num_digits_isSome spec arg ht
    rw [e] at h
    exact Option.noConfusion h
  · intro ht
    simp only [List.mem_cons, List.mem_singleton, List.not_mem_nil, or_false, not_or] at ht
    obtain ⟨h1, h2, h3, h4, h5, h6, h7, h8⟩ := ht
    unfold format_num_digits
    simp [h1, h2, h3, h4, h5, h6, h7, h8]

/-- Function `format_num` returns `false` exactly when its `switch` does. -/
theorem format_num_eq_none (out : List Nat) (spec : format_spec) (arg : Nat) (negative : Bool) :
    format_num out spec arg negative = none ↔ format_num_digits spec arg = none := by
  unfold format_num
  cases h : format_num_digits spec arg with
  | none => simp
  | some r => obtain ⟨a, d⟩ := r; simp

/-- Claim C21: `validate_float_spec` returns true exactly for the type chars none, `'e'`,
`'E'`, `'f'`, `'F'`, `'g'`, `'G'` and `'%'`; with any other type char the handler of a double
argument reports the error "invalid floating type" and leaves the sink as it was. -/
theorem validate_float_spec_types (out : List Nat) (fmt : format_parse_context)
    (spec : format_spec) (v : Nat) :
    (validate_float_spec spec = true ↔ spec.type ∈ [0, 101, 69, 102, 70, 103, 71, 37]) ∧
    (spec.type ∉ [0, 101, 69, 102, 70, 103, 71, 37] →
      format_handler out fmt spec (format_arg.double v)
        = some (out, fmt.on_error (bytes "invalid floating type"))) := by
  have key : validate_float_spec spec = true ↔ spec.type ∈ [0, 101, 69, 102, 70, 103, 71, 37] := by
    unfold validate_float_spec
    simp only [List.mem_cons, List.mem_singleton, List.not_mem_nil, or_false]
    constructor
    · intro h
      by_contra hc
      simp only [not_or] at hc
      obtain ⟨h1, h2, h3, h4, h5, h6, h7, h8⟩ := hc
      simp [h1, h2, h3, h4, h5, h6, h7, h8] at h
    · intro h
      rcases h with h | h | h | h | h | h | h | h <;> simp [h]
  refine ⟨key, ?_⟩
  intro ht
  have hv : validate_float_spec spec = false := by
    cases hb : validate_float_spec spec with
    | false => rfl
    | true => exact absurd (key.1 hb) ht
  simp [format_handler, hv]

/-- The handler of a double argument rejects the type char `'d'`. -/
theorem validate_float_spec_types_witness :
    (100 : Nat) ∉ [0, 101, 69, 102, 70, 103, 71, 37] ∧
    format_handler (bytes "x=") (format_parse_context.init [] []) { type := 100 }
        (format_arg.double 0x3FF8000000000000)
      = some (bytes "x=",
          (format_parse_context.init [] []).on_error (bytes "invalid floating type")) :=
  ⟨by decide, (validate_float_spec_types (bytes "x=") (format_parse_context.init [] [])
    { type := 100 } 0x3FF8000000000000).2 (by decide)⟩

/-- Claim C22: `format_num` returns false exactly when the type char is none of none, `'d'`,
`'n'`, `'b'`, `'B'`, `'o'`, `'x'`, `'X'`, and then `format_int` reports "invalid numeric type"
with the sink as it was; for every supported type char `format_num` returns true. -/
theorem format_num_type_validation (out : List Nat) (fmt : format_parse_context)
    (spec : format_spec) (arg : Nat) (negative : Bool) :
    (format_num out spec arg negative = none ↔
      spec.type ∉ [0, 100, 110, 98, 66, 111, 120, 88]) ∧
    (spec.type ∉ [0, 100, 110, 98, 66, 111, 120, 88] →
      format_int out fmt (format_num out spec arg negative)
        = (out, fmt.on_error (bytes "invalid numeric type"))) ∧
    (spec.type ∈ [0, 100, 110, 98, 66, 111, 120, 88] →
      ∃ out1, format_num out spec arg negative = some out1 ∧
        format_int out fmt (format_num out spec arg negative) = (out1, fmt)) := by
  have key := (format_num_eq_none out spec arg negative).trans (format_num_digits_eq_none spec arg)
  refine ⟨key, ?_, ?_⟩
  · intro ht
    rw [key.2 ht]
    rfl
  · intro ht
    cases h : format_num out spec arg negative with
    | none => exact absurd ht (key.1 h)
    | some o => exact ⟨o, rfl, rfl⟩

/-- The type char `'f'` is rejected for an integer, the type char `'x'` is accepted. -/
theorem format_num_type_validation_witness :
    format_int (bytes "x=") (format_parse_context.init [] [])
        (format_num (bytes "x=") { type := 102 } 42 false)
      = (bytes "x=", (format_parse_context.init [] []).on_error (bytes "invalid numeric type")) ∧
    ∃ out1, format_num (bytes "x=") { type := 120 } 42 false = some out1 ∧
      format_int (bytes "x=") (format_parse_context.init [] [])
        (format_num (bytes "x=") { type := 120 } 42 false)
        = (out1, format_parse_context.init [] []) :=
  ⟨(format_num_type_validation (bytes "x=") (format_parse_context.init [] [])
      { type := 102 } 42 false).2.1 (by decide),
   (format_num_type_validation (bytes "x=") (format_parse_context.init [] [])
      { type := 120 } 42 false).2.2 (by decide)⟩

end univang.fmt.detail

namespace univang.fmt

/-- Searching a byte that the text before its first occurrence does not hold. -/
theorem find_char_append (c : Nat) (lit rest : List Nat) (h : c ∉ lit) :
    format_parse_context.find_char c (lit ++ c :: rest) = some lit.length := by
  induction lit with
  | nil => simp [format_parse_context.find_char]
  | cons x xs ih =>
    have hx : ¬ x = c := fun e => h (by simp [e])
    have hxs : c ∉ xs := fun e => h (by simp [e])
    simp [format_parse_context.find_char, hx, ih hxs]

/-- Searching a byte that the text does not hold. -/
theorem find_char_none (c : Nat) (lit : List Nat) (h : c ∉ lit) :
    format_parse_context.find_char c lit = none := by
  induction lit with
  | nil => simp [format_parse_context.find_char]
  | cons x xs ih =>
    have hx : ¬ x = c := fun e => h (by simp [e])
    have hxs : c ∉ xs := fun e => h (by simp [e])
    simp [format_parse_context.find_char, hx, ih hxs]

/-- The loop body on a text without `'\x7b'`: the text is written and `vformat_to` returns. -/
theorem vformat_to_body_literal (out lit : List Nat) (fmt : format_parse_context)
    (h : 123 ∉ lit) (hr : fmt.rest = lit) :
    vformat_to_body out fmt = some (loop_exit.done, out ++ lit, fmt) := by
  unfold vformat_to_body format_parse_context.find
  by_cases he : fmt.eof = true
  · simp [he, hr]
  · simp [he, hr, find_char_none 123 lit h]

/-- The loop body on a text whose first `'\x7b'` is doubled. -/
theorem vformat_to_body_escape (out lit rest : List Nat) (fmt : format_parse_context)
    (h : 123 ∉ lit) (hr : fmt.rest = lit ++ 123 :: 123 :: rest) (he : fmt.eof = false) :
    vformat_to_body out fmt
      = some (loop_exit.next, out ++ lit ++ [123], fmt.at_rest rest) := by
  unfold vformat_to_body format_parse_context.find
  simp only [he, hr, find_char_append 123 lit (123 :: rest) h, Bool.false_eq_true, if_false]
  have ha : format_parse_context.advance fmt (lit.length + 1)
      = some { fmt with rest := 123 :: rest, eof := false } := by
    unfold format_parse_context.advance
    simp [hr]
  rw [ha]
  simp [format_parse_context.consume, format_parse_context.at_rest]

/-- The whole of `vformat_to` on a text without `'\x7b'`. -/
theorem vformat_to_literal (out lit : List Nat) (args : List format_arg) (h : 123 ∉ lit) :
    (vformat_to out lit args).map Prod.fst = some (out ++ lit) := by
  unfold vformat_to
  rw [vformat_to_loop]
  cases lit with
  | nil => simp [format_parse_context.init, vformat_to_end, format_parse_context.fail]
  | cons x xs =>
    have he : (format_parse_context.init (x :: xs) args).eof = false := by
      simp [format_parse_context.init]
    rw [vformat_to_body_literal out (x :: xs) _ h rfl]
    simp [he]

/-- Claim C30, as the code has it: `"a\x7d\x7db"` is rendered as it stands, not as
`"a\x7db"`. -/
theorem closing_brace_counterexample :
    (vformat_to [] (bytes "a\x7d\x7db") []).map Prod.fst = some (bytes "a\x7d\x7db") ∧
    (vformat_to [] (bytes "a\x7d\x7db") []).map Prod.fst ≠ some (bytes "a\x7db") := by
  constructor <;> decide

/-- Claim C30, amended: a `'\x7d'` outside a replacement field is ordinary text; a template
without `'\x7b'` that holds `"\x7d\x7d"` is rendered unchanged, both braces included, and so is
such a text at the end of a template, whatever the loop has rendered before. -/
theorem closing_brace_literal (fuel : Nat) (out a b : List Nat) (fmt : format_parse_context)
    (args : List format_arg) (ha : 123 ∉ a) (hb : 123 ∉ b) :
    (vformat_to out (a ++ 125 :: 125 :: b) args).map Prod.fst
      = some (out ++ a ++ 125 :: 125 :: b) ∧
    (vformat_to_loop (fuel + 1) out { fmt with rest := a ++ 125 :: 125 :: b, eof := false }).map
        (fun r => r.2.1)
      = some (out ++ a ++ 125 :: 125 :: b) := by
  have h : 123 ∉ a ++ 125 :: 125 :: b := by
    simp only [List.mem_append, List.mem_cons, not_or]
    exact ⟨ha, by decide, by decide, hb⟩
  constructor
  · rw [vformat_to_literal out _ args h, List.append_assoc]
  · rw [vformat_to_loop, vformat_to_body_literal out _ _ h rfl]
    simp

/-- The template `"a\x7d\x7db"` and the same text at the end of a longer template. -/
theorem closing_brace_literal_witness :
    (vformat_to [] (bytes "a" ++ 125 :: 125 :: bytes "b") []).map Prod.fst
      = some ([] ++ bytes "a" ++ 125 :: 125 :: bytes "b") ∧
    (vformat_to_loop 1 [] { rest := bytes "a" ++ 125 :: 125 :: bytes "b", eof := false }).map
        (fun r => r.2.1)
      = some ([] ++ bytes "a" ++ 125 :: 125 :: bytes "b") :=
  closing_brace_literal 0 [] (bytes "a") (bytes "b") { rest := [], eof := true } []
    (by decide) (by decide)

end univang.fmt

namespace univang.fmt

open format_parse_context

/-! ### The parser members on a parser that views a known text -/

theorem at_rest_rest (p : format_parse_context) (r : List Nat) : (p.at_rest r).rest = r := rfl

theorem at_rest_err (p : format_parse_context) (r : List Nat) : (p.at_rest r).err = p.err := rfl

theorem at_rest_args (p : format_parse_context) (r : List Nat) :
    (p.at_rest r).args = p.args := rfl

theorem at_rest_last_arg_pos (p : format_parse_context) (r : List Nat) :
    (p.at_rest r).last_arg_pos = p.last_arg_pos := rfl

theorem at_rest_eof_cons (p : format_parse_context) (x : Nat) (t : List Nat) :
    (p.at_rest (x :: t)).eof = false := by
  simp [at_rest]

theorem at_rest_eof_nil (p : format_parse_context) : (p.at_rest []).eof = true := by
  simp [at_rest]

theorem at_rest_at_rest (p : format_parse_context) (r s : List Nat) :
    (p.at_rest r).at_rest s = p.at_rest s := rfl

/-- A running parser is the parser at its own view. -/
theorem running_eq_at_rest (p : format_parse_context) (h : p.running) :
    p = p.at_rest p.rest := by
  obtain ⟨r, e, er, a, l⟩ := p
  simp only [running] at h
  simp only [at_rest, format_parse_context.mk.injEq, true_and, and_true]
  exact h.1

theorem running_at_rest (p : format_parse_context) (r : List Nat) (h : p.err = none) :
    (p.at_rest r).running := ⟨rfl, h⟩

theorem fail_at_rest (p : format_parse_context) (r : List Nat) :
    (p.at_rest r).fail = p.fail := rfl

theorem front_char_cons (p : format_parse_context) (x : Nat) (t : List Nat) :
    (p.at_rest (x :: t)).front_char = some x := by
  simp [front_char, at_rest]

theorem advance_one (p : format_parse_context) (x : Nat) (t : List Nat) :
    (p.at_rest (x :: t)).advance 1 = some (p.at_rest t) := by
  simp [advance, at_rest]

theorem advance_two (p : format_parse_context) (x y : Nat) (t : List Nat) :
    (p.at_rest (x :: y :: t)).advance 2 = some (p.at_rest t) := by
  simp [advance, at_rest]

theorem advance_nil (p : format_parse_context) (n : Nat) :
    (p.at_rest []).advance (n + 1) = none := by
  simp [advance, at_rest]

theorem consume_char_cons (p : format_parse_context) (x : Nat) (t : List Nat) :
    (p.at_rest (x :: t)).consume_char = some (x, p.at_rest t) := by
  simp [consume_char, at_rest]

theorem consume_cons_eq (p : format_parse_context) (x : Nat) (t : List Nat) :
    (p.at_rest (x :: t)).consume x = (true, p.at_rest t) := by
  simp [consume, at_rest]

theorem consume_cons_ne (p : format_parse_context) (x c : Nat) (t : List Nat) (h : x ≠ c) :
    (p.at_rest (x :: t)).consume c = (false, p.at_rest (x :: t)) := by
  simp [consume, at_rest, h]

theorem consume_nil (p : format_parse_context) (c : Nat) :
    (p.at_rest []).consume c = (false, p.at_rest []) := by
  simp [consume, at_rest]

theorem is_decimal_digit_cons (p : format_parse_context) (x : Nat) (t : List Nat) :
    (p.at_rest (x :: t)).is_decimal_digit = (decide (48 ≤ x) && decide (x ≤ 57)) := by
  simp [is_decimal_digit, at_rest]

theorem is_decimal_digit_nil (p : format_parse_context) :
    (p.at_rest []).is_decimal_digit = false := by
  simp [is_decimal_digit, at_rest]

theorem is_char_cons (p : format_parse_context) (x c : Nat) (t : List Nat) :
    (p.at_rest (x :: t)).is_char c = decide (x = c) := by
  simp [is_char, at_rest]

theorem is_char_nil (p : format_parse_context) (c : Nat) :
    (p.at_rest []).is_char c = false := by
  simp [is_char, at_rest]

namespace detail

theorem front_or_zero_cons (p : format_parse_context) (x : Nat) (t : List Nat) :
    front_or_zero (p.at_rest (x :: t)) = some x := by
  simp [front_or_zero, front_char, at_rest]

theorem front_or_zero_nil (p : format_parse_context) :
    front_or_zero (p.at_rest []) = some 0 := by
  simp [front_or_zero, at_rest]

theorem advance_front_one (p : format_parse_context) (x y : Nat) (t : List Nat) :
    advance_front (p.at_rest (x :: y :: t)) 1 = some (p.at_rest (y :: t), y) := by
  simp [advance_front, advance_one, front_or_zero_cons]

theorem advance_front_two (p : format_parse_context) (x y z : Nat) (t : List Nat) :
    advance_front (p.at_rest (x :: y :: z :: t)) 2 = some (p.at_rest (z :: t), z) := by
  simp [advance_front, advance_two, front_or_zero_cons]

/-! ### `parse_uint` on a decimal literal -/

/-- A decimal digit character. -/
theorem char_digit_of_digit (c : Nat) (h1 : 48 ≤ c) (h2 : c ≤ 57) : char_digit c = c - 48 := by
  simp [char_digit, h1, h2]

/-- The loop of `parse_uint` reads the digits up to the first other byte. -/
theorem parse_uint_loop_digits (p : format_parse_context) (ds t : List Nat)
    (hd : ∀ c ∈ ds, 48 ≤ c ∧ c ≤ 57) (ht : ∀ c, t.head? = some c → ¬ (48 ≤ c ∧ c ≤ 57)) :
    ∀ (fuel result : Nat), ds.length ≤ fuel →
      parse_uint_loop fuel (p.at_rest (ds ++ t)) result
        = some (ds.foldl (fun acc c => (acc * 10 + (c - 48)) % 2 ^ 32) result, p.at_rest t) := by
  have hstop : ∀ fuel result, parse_uint_loop fuel (p.at_rest t) result
      = some (result, p.at_rest t) := by
    intro fuel result
    have hnd : (p.at_rest t).is_decimal_digit = false := by
      cases t with
      | nil => exact is_decimal_digit_nil p
      | cons x xs =>
        rw [is_decimal_digit_cons]
        have := ht x rfl
        by_cases h1 : 48 ≤ x
        · have h2 : ¬ x ≤ 57 := fun h => this ⟨h1, h⟩
          simp [h1, h2]
        · simp [h1]
    cases fuel with
    | zero => simp [parse_uint_loop, hnd]
    | succ n => simp [parse_uint_loop, hnd]
  induction ds with
  | nil =>
    intro fuel result _
    simpa using hstop fuel result
  | cons d ds ih =>
    intro fuel result hf
    cases fuel with
    | zero => simp at hf
    | succ n =>
      have hdd := hd d (by simp)
      have hdig : (p.at_rest (d :: ds ++ t)).is_decimal_digit = true := by
        rw [List.cons_append, is_decimal_digit_cons]
        simp [hdd.1, hdd.2]
      rw [parse_uint_loop, if_pos hdig]
      rw [List.cons_append, consume_char_cons]
      simp only []
      rw [ih (fun c hc => hd c (by simp [hc])) n _ (by simpa using hf)]
      simp

/-- Reading a decimal literal modulo `2^32` digit by digit. -/
theorem foldl_digits_mod (ds : List Nat) (hd : ∀ c ∈ ds, 48 ≤ c ∧ c ≤ 57) :
    ∀ a : Nat, ds.foldl (fun acc c => (acc * 10 + (c - 48)) % 2 ^ 32) (a % 2 ^ 32)
      = (ds.foldl (fun acc c => 10 * acc + char_digit c) a) % 2 ^ 32 := by
  induction ds with
  | nil => intro a; simp
  | cons d ds ih =>
    intro a
    have hdd := hd d (by simp)
    simp only [List.foldl_cons]
    rw [char_digit_of_digit d hdd.1 hdd.2]
    have e : (a % 2 ^ 32 * 10 + (d - 48)) % 2 ^ 32 = (10 * a + (d - 48)) % 2 ^ 32 := by
      omega
    rw [e, ih (fun c hc => hd c (by simp [hc]))]

/-- Function `parse_uint` on a decimal literal followed by another byte or by the end. -/
theorem parse_uint_digits (p : format_parse_context) (d : Nat) (ds t : List Nat)
    (hd : ∀ c ∈ d :: ds, 48 ≤ c ∧ c ≤ 57)
    (ht : ∀ c, t.head? = some c → ¬ (48 ≤ c ∧ c ≤ 57)) :
    parse_uint (p.at_rest (d :: ds ++ t))
      = some (base_value 10 (d :: ds) % 2 ^ 32, p.at_rest t) := by
  have hdd := hd d (by simp)
  unfold parse_uint
  rw [List.cons_append, consume_char_cons]
  simp only [at_rest_rest]
  rw [parse_uint_loop_digits p ds t (fun c hc => hd c (by simp [hc])) ht _ _ (by simp)]
  have e : (d + 2 ^ 32 - 48) % 2 ^ 32 = (d - 48) % 2 ^ 32 := by omega
  rw [e, foldl_digits_mod ds (fun c hc => hd c (by simp [hc]))]
  simp [base_value, char_digit_of_digit d hdd.1 hdd.2]

end detail

end univang.fmt

namespace univang.fmt.detail

open format_parse_context

/-! ### The blocks of `parse_format_spec` on a known text -/

/-- The align characters. -/
theorem is_align_iff (c : Nat) : is_align c = true ↔ c = 60 ∨ c = 61 ∨ c = 62 ∨ c = 94 := by
  unfold is_align
  simp only [Bool.or_eq_true, Bool.and_eq_true, decide_eq_true_eq]
  omega

theorem align_fill (p : format_parse_context) (spec : format_spec) (f al y : Nat) (t : List Nat)
    (hal : is_align al = true) (hf : f ≠ 123) :
    parse_format_spec_align (p.at_rest (f :: al :: y :: t)) spec
      = some (true, { spec with fill := f, align := al }, p.at_rest (y :: t), y) := by
  unfold parse_format_spec_align
  rw [front_char_cons]
  simp [at_rest_rest, hal, hf, advance_front_two]

theorem align_only (p : format_parse_context) (spec : format_spec) (al y : Nat) (t : List Nat)
    (hal : is_align al = true) (hy : is_align y = false) :
    parse_format_spec_align (p.at_rest (al :: y :: t)) spec
      = some (true, { spec with align := al }, p.at_rest (y :: t), y) := by
  unfold parse_format_spec_align
  rw [front_char_cons]
  simp [at_rest_rest, hal, hy, advance_front_one]

theorem align_absent (p : format_parse_context) (spec : format_spec) (x y : Nat) (t : List Nat)
    (hx : is_align x = false) (hy : is_align y = false) :
    parse_format_spec_align (p.at_rest (x :: y :: t)) spec
      = some (true, spec, p.at_rest (x :: y :: t), x) := by
  unfold parse_format_spec_align
  rw [front_char_cons]
  simp [at_rest_rest, hx, hy]

theorem sign_present (p : format_parse_context) (spec : format_spec) (c y : Nat) (t : List Nat)
    (hc : c = 43 ∨ c = 45 ∨ c = 32) :
    parse_format_spec_sign spec (p.at_rest (c :: y :: t)) c
      = some ({ spec with sign := c }, p.at_rest (y :: t), y) := by
  unfold parse_format_spec_sign
  rw [if_pos hc, advance_front_one]

theorem sign_absent (p : format_parse_context) (spec : format_spec) (c : Nat)
    (hc : ¬ (c = 43 ∨ c = 45 ∨ c = 32)) :
    parse_format_spec_sign spec p c = some (spec, p, c) := by
  unfold parse_format_spec_sign
  rw [if_neg hc]

theorem alt_present (p : format_parse_context) (spec : format_spec) (y : Nat) (t : List Nat) :
    parse_format_spec_alt spec (p.at_rest (35 :: y :: t)) 35
      = some ({ spec with alt := 35 }, p.at_rest (y :: t), y) := by
  unfold parse_format_spec_alt
  rw [if_pos rfl, advance_front_one]

theorem alt_absent (p : format_parse_context) (spec : format_spec) (c : Nat) (hc : c ≠ 35) :
    parse_format_spec_alt spec p c = some (spec, p, c) := by
  unfold parse_format_spec_alt
  rw [if_neg hc]

theorem zero_present (p : format_parse_context) (spec : format_spec) (y : Nat) (t : List Nat) :
    parse_format_spec_zero spec (p.at_rest (48 :: y :: t)) 48
      = some ({ spec with fill := 48, align := 61 }, p.at_rest (y :: t), y) := by
  unfold parse_format_spec_zero
  rw [if_pos rfl, advance_front_one]

theorem zero_absent (p : format_parse_context) (spec : format_spec) (c : Nat) (hc : c ≠ 48) :
    parse_format_spec_zero spec p c = some (spec, p, c) := by
  unfold parse_format_spec_zero
  rw [if_neg hc]

/-- Function `parse_uint_spec_arg` on a decimal literal. -/
theorem parse_uint_spec_arg_literal (p : format_parse_context) (result d y : Nat)
    (ds t : List Nat) (hp : p.err = none) (hd : ∀ c ∈ d :: ds, 48 ≤ c ∧ c ≤ 57)
    (hy : ¬ (48 ≤ y ∧ y ≤ 57)) :
    parse_uint_spec_arg (p.at_rest (d :: ds ++ y :: t)) result
      = some (true, base_value 10 (d :: ds) % 2 ^ 32, p.at_rest (y :: t)) := by
  have hdd := hd d (by simp)
  have hne : d ≠ 123 := by omega
  unfold parse_uint_spec_arg
  rw [List.cons_append, consume_cons_ne _ _ _ _ hne]
  simp only [Bool.not_false, if_true]
  rw [← List.cons_append,
    parse_uint_digits p d ds (y :: t) hd (fun c hc => by
      simp only [List.head?_cons, Option.some.injEq] at hc
      subst hc
      exact hy)]
  simp [format_parse_context.fail, at_rest_err, hp]

theorem width_present (p : format_parse_context) (spec : format_spec) (d y : Nat)
    (ds t : List Nat) (hp : p.err = none) (hd : ∀ c ∈ d :: ds, 48 ≤ c ∧ c ≤ 57)
    (hy : ¬ (48 ≤ y ∧ y ≤ 57)) :
    parse_format_spec_width spec (p.at_rest (d :: ds ++ y :: t)) d
      = some (true, { spec with width := base_value 10 (d :: ds) % 2 ^ 32 },
          p.at_rest (y :: t), y) := by
  have hdd := hd d (by simp)
  unfold parse_format_spec_width
  rw [if_pos (Or.inr hdd), parse_uint_spec_arg_literal p _ d y ds t hp hd hy]
  simp [front_or_zero_cons]

theorem width_absent (p : format_parse_context) (spec : format_spec) (c : Nat)
    (hc : ¬ (c = 123 ∨ (48 ≤ c ∧ c ≤ 57))) :
    parse_format_spec_width spec p c = some (true, spec, p, c) := by
  unfold parse_format_spec_width
  rw [if_neg hc]

theorem precision_present (p : format_parse_context) (spec : format_spec) (d y : Nat)
    (ds t : List Nat) (hp : p.err = none) (hd : ∀ c ∈ d :: ds, 48 ≤ c ∧ c ≤ 57)
    (hy : ¬ (48 ≤ y ∧ y ≤ 57)) :
    parse_format_spec_precision spec (p.at_rest (46 :: (d :: ds ++ y :: t))) 46
      = some (true,
          { spec with has_precision := true, precision := base_value 10 (d :: ds) % 2 ^ 32 },
          p.at_rest (y :: t), y) := by
  have hdd := hd d (by simp)
  unfold parse_format_spec_precision
  rw [if_pos rfl, List.cons_append, advance_front_one]
  simp only []
  rw [if_pos (Or.inr hdd), ← List.cons_append,
    parse_uint_spec_arg_literal p _ d y ds t hp hd hy]
  simp [front_char_cons]

theorem precision_absent (p : format_parse_context) (spec : format_spec) (c : Nat)
    (hc : c ≠ 46) :
    parse_format_spec_precision spec p c = some (true, spec, p, c) := by
  unfold parse_format_spec_precision
  rw [if_neg hc]

theorem type_present (p : format_parse_context) (spec : format_spec) (c y : Nat) (t : List Nat)
    (hc : c ≠ 125) :
    parse_format_spec_type spec (p.at_rest (c :: y :: t)) c
      = some ({ spec with type := c }, p.at_rest (y :: t), y) := by
  unfold parse_format_spec_type
  rw [if_pos hc, advance_front_one]

theorem type_absent (p : format_parse_context) (spec : format_spec) :
    parse_format_spec_type spec p 125 = some (spec, p, 125) := by
  unfold parse_format_spec_type
  simp

theorem close_brace (p : format_parse_context) (spec : format_spec) (t : List Nat) :
    parse_format_spec_close spec (p.at_rest (125 :: t)) 125
      = some (true, spec, p.at_rest t) := by
  unfold parse_format_spec_close
  simp [advance_one]

/-- The first byte of a text made of parts and closed by a byte `z`: it has every property
that `z` and the first byte of every part have. -/
theorem head_of_parts (Q : Nat → Prop) (z : Nat) (tail : List Nat) (hz : Q z) :
    ∀ parts : List (List Nat), (∀ l ∈ parts, ∀ c, l.head? = some c → Q c) →
      ∃ y t, parts.flatten ++ z :: tail = y :: t ∧ Q y := by
  intro parts
  induction parts with
  | nil => intro _; exact ⟨z, tail, rfl, hz⟩
  | cons l ls ih =>
    intro h
    cases l with
    | nil =>
      obtain ⟨y, t, e, hy⟩ := ih (fun l hl => h l (by simp [hl]))
      exact ⟨y, t, by simpa using e, hy⟩
    | cons x xs =>
      exact ⟨x, xs ++ ls.flatten ++ z :: tail, by simp, h (x :: xs) (by simp) x rfl⟩


open format_parse_context

/-! ### `parse_format_spec` on the text of a format spec -/

/-- The text that begins with the type char. -/
theorem from_type_text (p : format_parse_context) (spec : format_spec) (ty : Option Nat)
    (tail : List Nat) (hty : ∀ t, ty = some t → type_char t) :
    ∃ y t, ty.toList ++ 125 :: tail = y :: t ∧ (ty = some y ∨ (ty = none ∧ y = 125)) ∧
      parse_format_spec_from_type spec (p.at_rest (y :: t)) y
        = some (true, { spec with type := ty.getD spec.type }, p.at_rest tail) := by
  cases ty with
  | none =>
    refine ⟨125, tail, rfl, Or.inr ⟨rfl, rfl⟩, ?_⟩
    unfold parse_format_spec_from_type
    rw [type_absent]
    simp only []
    rw [close_brace]
    rfl
  | some t0 =>
    have h := hty t0 rfl
    have hne : t0 ≠ 125 := fun e => h.1 (by simp [e])
    refine ⟨t0, 125 :: tail, rfl, Or.inl rfl, ?_⟩
    unfold parse_format_spec_from_type
    rw [type_present p spec t0 125 tail hne]
    simp only []
    rw [close_brace]
    rfl

/-- A type char is no decimal digit, no `'.'` and no opening brace. -/
theorem type_char_facts (t : Nat) (h : type_char t) :
    ¬ (48 ≤ t ∧ t ≤ 57) ∧ t ≠ 46 ∧ t ≠ 123 ∧ t ≠ 35 ∧ t ≠ 125 ∧
      ¬ (t = 43 ∨ t = 45 ∨ t = 32) ∧ is_align t = false := by
  obtain ⟨h1, h2⟩ := h
  simp only [List.mem_cons, List.mem_singleton, List.not_mem_nil, or_false, not_or] at h1
  obtain ⟨a1, a2, a3, a4, a5, a6, a7, a8, a9, a10, a11⟩ := h1
  refine ⟨h2, a3, a2, a4, a1, by omega, ?_⟩
  cases hb : is_align t with
  | false => rfl
  | true => rcases (is_align_iff t).1 hb with e | e | e | e <;> omega

/-- The text that begins with the precision. -/
theorem from_precision_text (p : format_parse_context) (hp : p.err = none) (spec : format_spec)
    (pr : Option (List Nat)) (ty : Option Nat) (tail : List Nat)
    (hpr : ∀ ds, pr = some ds → ds ≠ [] ∧ (∀ c ∈ ds, 48 ≤ c ∧ c ≤ 57) ∧
      base_value 10 ds < 2 ^ 32)
    (hty : ∀ t, ty = some t → type_char t) :
    ∃ y t, (spec_fields.mk none none none false false none pr ty).text ++ 125 :: tail = y :: t ∧
      ((pr ≠ none ∧ y = 46) ∨ (pr = none ∧ (ty = some y ∨ (ty = none ∧ y = 125)))) ∧
      parse_format_spec_from_precision spec (p.at_rest (y :: t)) y
        = some (true, (spec_fields.mk none none none false false none pr ty).store spec,
            p.at_rest tail) := by
  obtain ⟨y, t, e, hy, h7⟩ := from_type_text p spec ty tail hty
  cases pr with
  | none =>
    refine ⟨y, t, by simpa [spec_fields.text] using e, Or.inr ⟨rfl, hy⟩, ?_⟩
    have hne : y ≠ 46 := by
      rcases hy with h | h
      · exact (type_char_facts y (hty y h)).2.1
      · rw [h.2]; decide
    unfold parse_format_spec_from_precision
    rw [precision_absent _ spec y hne]
    simp only []
    rw [h7]
    rfl
  | some ds =>
    obtain ⟨hne, hd, hv⟩ := hpr ds rfl
    obtain ⟨d, ds', rfl⟩ := List.exists_cons_of_ne_nil hne
    obtain ⟨y, t, e, hy, h7⟩ := from_type_text p
      { spec with has_precision := true, precision := base_value 10 (d :: ds') % 2 ^ 32 }
      ty tail hty
    have hnd : ¬ (48 ≤ y ∧ y ≤ 57) := by
      rcases hy with h | h
      · exact (type_char_facts y (hty y h)).1
      · rw [h.2]; omega
    refine ⟨46, d :: ds' ++ y :: t, by simp [spec_fields.text, e], Or.inl ⟨by simp, rfl⟩, ?_⟩
    unfold parse_format_spec_from_precision
    rw [precision_present p spec d y ds' t hp hd hnd]
    simp only []
    rw [h7, Nat.mod_eq_of_lt hv]
    rfl

/-- The text that begins with the width. -/
theorem from_width_text (p : format_parse_context) (hp : p.err = none) (spec : format_spec)
    (w pr : Option (List Nat)) (ty : Option Nat) (tail : List Nat)
    (hw : ∀ ds, w = some ds → ds ≠ [] ∧ (∀ c ∈ ds, 48 ≤ c ∧ c ≤ 57) ∧
      base_value 10 ds < 2 ^ 32)
    (hpr : ∀ ds, pr = some ds → ds ≠ [] ∧ (∀ c ∈ ds, 48 ≤ c ∧ c ≤ 57) ∧
      base_value 10 ds < 2 ^ 32)
    (hty : ∀ t, ty = some t → type_char t) :
    ∃ y t, (spec_fields.mk none none none false false w pr ty).text ++ 125 :: tail = y :: t ∧
      ((∃ ds, w = some ds ∧ ds.head? = some y) ∨
        (w = none ∧ ((pr ≠ none ∧ y = 46) ∨
          (pr = none ∧ (ty = some y ∨ (ty = none ∧ y = 125)))))) ∧
      parse_format_spec_from_width spec (p.at_rest (y :: t)) y
        = some (true, (spec_fields.mk none none none false false w pr ty).store spec,
            p.at_rest tail) := by
  cases w with
  | none =>
    obtain ⟨y, t, e, hy, h6⟩ := from_precision_text p hp spec pr ty tail hpr hty
    refine ⟨y, t, by simpa [spec_fields.text] using e, Or.inr ⟨rfl, hy⟩, ?_⟩
    have hne : ¬ (y = 123 ∨ (48 ≤ y ∧ y ≤ 57)) := by
      rcases hy with h | ⟨_, h | h⟩
      · rw [h.2]; omega
      · have := type_char_facts y (hty y h)
        exact fun hc => hc.elim this.2.2.1 this.1
      · rw [h.2]; omega
    unfold parse_format_spec_from_width
    rw [width_absent _ spec y hne]
    simp only []
    rw [h6]
  | some ds =>
    obtain ⟨hne, hd, hv⟩ := hw ds rfl
    obtain ⟨d, ds', rfl⟩ := List.exists_cons_of_ne_nil hne
    obtain ⟨y, t, e, hy, h6⟩ := from_precision_text p hp
      { spec with width := base_value 10 (d :: ds') % 2 ^ 32 } pr ty tail hpr hty
    have hnd : ¬ (48 ≤ y ∧ y ≤ 57) := by
      rcases hy with h | ⟨_, h | h⟩
      · rw [h.2]; omega
      · exact (type_char_facts y (hty y h)).1
      · rw [h.2]; omega
    refine ⟨d, ds' ++ y :: t, ?_, Or.inl ⟨_, rfl, rfl⟩, ?_⟩
    · simp only [spec_fields.text] at e ⊢
      simp only [Option.toList, List.nil_append, Option.getD, List.append_nil, if_false,
        Bool.false_eq_true, List.append_assoc, List.cons_append] at e ⊢
      rw [e]
    · unfold parse_format_spec_from_width
      rw [← List.cons_append, width_present p spec d y ds' t hp hd hnd]
      simp only []
      rw [h6, Nat.mod_eq_of_lt hv]
      rfl

/-- The text that begins with the flag `'0'`. -/
theorem from_zero_text (p : format_parse_context) (hp : p.err = none) (spec : format_spec)
    (z : Bool) (w pr : Option (List Nat)) (ty : Option Nat) (tail : List Nat)
    (hw : ∀ ds, w = some ds → ds ≠ [] ∧ (∀ c ∈ ds, 48 ≤ c ∧ c ≤ 57) ∧
      base_value 10 ds < 2 ^ 32 ∧ (z = false → ds.head? ≠ some 48))
    (hpr : ∀ ds, pr = some ds → ds ≠ [] ∧ (∀ c ∈ ds, 48 ≤ c ∧ c ≤ 57) ∧
      base_value 10 ds < 2 ^ 32)
    (hty : ∀ t, ty = some t → type_char t) :
    ∃ y t, (spec_fields.mk none none none false z w pr ty).text ++ 125 :: tail = y :: t ∧
      ((48 ≤ y ∧ y ≤ 57) ∨ y = 46 ∨ type_char y ∨ y = 125) ∧
      parse_format_spec_from_zero spec (p.at_rest (y :: t)) y
        = some (true, (spec_fields.mk none none none false z w pr ty).store spec,
            p.at_rest tail) := by
  have hw1 : ∀ ds, w = some ds → ds ≠ [] ∧ (∀ c ∈ ds, 48 ≤ c ∧ c ≤ 57) ∧
      base_value 10 ds < 2 ^ 32 := fun ds h => ⟨(hw ds h).1, (hw ds h).2.1, (hw ds h).2.2.1⟩
  have hcls : ∀ y, ((∃ ds, w = some ds ∧ ds.head? = some y) ∨
        (w = none ∧ ((pr ≠ none ∧ y = 46) ∨
          (pr = none ∧ (ty = some y ∨ (ty = none ∧ y = 125)))))) →
      ((48 ≤ y ∧ y ≤ 57) ∨ y = 46 ∨ type_char y ∨ y = 125) := by
    intro y hy
    rcases hy with ⟨ds, h1, h2⟩ | ⟨_, h | ⟨_, h | h⟩⟩
    · exact Or.inl ((hw ds h1).2.1 y (List.mem_of_mem_head? h2))
    · exact Or.inr (Or.inl h.2)
    · exact Or.inr (Or.inr (Or.inl (hty y h)))
    · exact Or.inr (Or.inr (Or.inr h.2))
  cases z with
  | false =>
    obtain ⟨y, t, e, hy, h5⟩ := from_width_text p hp spec w pr ty tail hw1 hpr hty
    refine ⟨y, t, e, hcls y hy, ?_⟩
    have hne : y ≠ 48 := by
      rcases hy with ⟨ds, h1, h2⟩ | ⟨_, h | ⟨_, h | h⟩⟩
      · intro e48
        exact (hw ds h1).2.2.2 rfl (e48 ▸ h2)
      · rw [h.2]; decide
      · have := (type_char_facts y (hty y h)).1
        omega
      · rw [h.2]; decide
    unfold parse_format_spec_from_zero
    rw [zero_absent _ spec y hne]
    simp only []
    rw [h5]
  | true =>
    obtain ⟨y, t, e, hy, h5⟩ := from_width_text p hp { spec with fill := 48, align := 61 }
      w pr ty tail hw1 hpr hty
    refine ⟨48, y :: t, ?_, Or.inl (by omega), ?_⟩
    · simp only [spec_fields.text] at e ⊢
      simp only [Option.toList, List.nil_append, if_false, if_true,
        Bool.false_eq_true, List.append_assoc, List.cons_append] at e ⊢
      rw [e]
    · unfold parse_format_spec_from_zero
      rw [zero_present p spec y t]
      simp only []
      rw [h5]
      rfl

/-- The text that begins with the flag `'#'`. -/
theorem from_alt_text (p : format_parse_context) (hp : p.err = none) (spec : format_spec)
    (al z : Bool) (w pr : Option (List Nat)) (ty : Option Nat) (tail : List Nat)
    (hw : ∀ ds, w = some ds → ds ≠ [] ∧ (∀ c ∈ ds, 48 ≤ c ∧ c ≤ 57) ∧
      base_value 10 ds < 2 ^ 32 ∧ (z = false → ds.head? ≠ some 48))
    (hpr : ∀ ds, pr = some ds → ds ≠ [] ∧ (∀ c ∈ ds, 48 ≤ c ∧ c ≤ 57) ∧
      base_value 10 ds < 2 ^ 32)
    (hty : ∀ t, ty = some t → type_char t) :
    ∃ y t, (spec_fields.mk none none none al z w pr ty).text ++ 125 :: tail = y :: t ∧
      (y = 35 ∨ (48 ≤ y ∧ y ≤ 57) ∨ y = 46 ∨ type_char y ∨ y = 125) ∧
      parse_format_spec_from_alt spec (p.at_rest (y :: t)) y
        = some (true, (spec_fields.mk none none none al z w pr ty).store spec,
            p.at_rest tail) := by
  cases al with
  | false =>
    obtain ⟨y, t, e, hy, h4⟩ := from_zero_text p hp spec z w pr ty tail hw hpr hty
    refine ⟨y, t, e, Or.inr hy, ?_⟩
    have hne : y ≠ 35 := by
      rcases hy with h | h | h | h
      · omega
      · omega
      · exact (type_char_facts y h).2.2.2.1
      · omega
    unfold parse_format_spec_from_alt
    rw [alt_absent _ spec y hne]
    simp only []
    rw [h4]
  | true =>
    obtain ⟨y, t, e, hy, h4⟩ := from_zero_text p hp { spec with alt := 35 } z w pr ty tail
      hw hpr hty
    refine ⟨35, y :: t, ?_, Or.inl rfl, ?_⟩
    · simp only [spec_fields.text] at e ⊢
      simp only [Option.toList, List.nil_append, if_false, if_true,
        Bool.false_eq_true, List.append_assoc, List.cons_append] at e ⊢
      rw [e]
    · unfold parse_format_spec_from_alt
      rw [alt_present p spec y t]
      simp only []
      rw [h4]
      rfl

/-- The text that begins with the sign. -/
theorem from_sign_text (p : format_parse_context) (hp : p.err = none) (spec : format_spec)
    (sg : Option Nat) (al z : Bool) (w pr : Option (List Nat)) (ty : Option Nat)
    (tail : List Nat)
    (hs : ∀ c, sg = some c → c = 43 ∨ c = 45 ∨ c = 32)
    (hw : ∀ ds, w = some ds → ds ≠ [] ∧ (∀ c ∈ ds, 48 ≤ c ∧ c ≤ 57) ∧
      base_value 10 ds < 2 ^ 32 ∧ (z = false → ds.head? ≠ some 48))
    (hpr : ∀ ds, pr = some ds → ds ≠ [] ∧ (∀ c ∈ ds, 48 ≤ c ∧ c ≤ 57) ∧
      base_value 10 ds < 2 ^ 32)
    (hty : ∀ t, ty = some t → type_char t) :
    ∃ y t, (spec_fields.mk none none sg al z w pr ty).text ++ 125 :: tail = y :: t ∧
      is_align y = false ∧
      parse_format_spec_from_sign spec (p.at_rest (y :: t)) y
        = some (true, (spec_fields.mk none none sg al z w pr ty).store spec,
            p.at_rest tail) := by
  have hna : ∀ y, (y = 35 ∨ (48 ≤ y ∧ y ≤ 57) ∨ y = 46 ∨ type_char y ∨ y = 125) →
      is_align y = false := by
    intro y hy
    cases hb : is_align y with
    | false => rfl
    | true =>
      rcases hy with h | h | h | h | h
      · rcases (is_align_iff y).1 hb with e | e | e | e <;> omega
      · rcases (is_align_iff y).1 hb with e | e | e | e <;> omega
      · rcases (is_align_iff y).1 hb with e | e | e | e <;> omega
      · rw [(type_char_facts y h).2.2.2.2.2.2] at hb; exact hb.symm
      · rcases (is_align_iff y).1 hb with e | e | e | e <;> omega
  cases sg with
  | none =>
    obtain ⟨y, t, e, hy, h3⟩ := from_alt_text p hp spec al z w pr ty tail hw hpr hty
    refine ⟨y, t, e, hna y hy, ?_⟩
    have hne : ¬ (y = 43 ∨ y = 45 ∨ y = 32) := by
      rcases hy with h | h | h | h | h
      · omega
      · omega
      · omega
      · exact (type_char_facts y h).2.2.2.2.2.1
      · omega
    unfold parse_format_spec_from_sign
    rw [sign_absent _ spec y hne]
    simp only []
    rw [h3]
  | some c =>
    have hc := hs c rfl
    obtain ⟨y, t, e, hy, h3⟩ := from_alt_text p hp { spec with sign := c } al z w pr ty tail
      hw hpr hty
    refine ⟨c, y :: t, ?_, ?_, ?_⟩
    · simp only [spec_fields.text] at e ⊢
      simp only [Option.toList, List.nil_append, if_false, if_true,
        Bool.false_eq_true, List.append_assoc, List.cons_append] at e ⊢
      rw [e]
    · cases hb : is_align c with
      | false => rfl
      | true => rcases (is_align_iff c).1 hb with e | e | e | e <;> omega
    · unfold parse_format_spec_from_sign
      rw [sign_present p spec c y t hc]
      simp only []
      rw [h3]
      rfl


open format_parse_context

/-- No byte of a format spec without fill and align is an align char, nor is the closing
brace. -/
theorem text_no_align (sg : Option Nat) (al z : Bool) (w pr : Option (List Nat))
    (ty : Option Nat)
    (hs : ∀ c, sg = some c → c = 43 ∨ c = 45 ∨ c = 32)
    (hw : ∀ ds, w = some ds → ds ≠ [] ∧ (∀ c ∈ ds, 48 ≤ c ∧ c ≤ 57) ∧
      base_value 10 ds < 2 ^ 32 ∧ (z = false → ds.head? ≠ some 48))
    (hpr : ∀ ds, pr = some ds → ds ≠ [] ∧ (∀ c ∈ ds, 48 ≤ c ∧ c ≤ 57) ∧
      base_value 10 ds < 2 ^ 32)
    (hty : ∀ t, ty = some t → type_char t) :
    ∀ c ∈ (spec_fields.mk none none sg al z w pr ty).text ++ [125], is_align c = false := by
  have hna : ∀ y, ((y = 43 ∨ y = 45 ∨ y = 32) ∨ y = 35 ∨ (48 ≤ y ∧ y ≤ 57) ∨ y = 46 ∨
      type_char y ∨ y = 125) → is_align y = false := by
    intro y hy
    cases hb : is_align y with
    | false => rfl
    | true =>
      rcases hy with h | h | h | h | h | h
      · rcases (is_align_iff y).1 hb with e | e | e | e <;> omega
      · rcases (is_align_iff y).1 hb with e | e | e | e <;> omega
      · rcases (is_align_iff y).1 hb with e | e | e | e <;> omega
      · rcases (is_align_iff y).1 hb with e | e | e | e <;> omega
      · rw [(type_char_facts y h).2.2.2.2.2.2] at hb; exact hb.symm
      · rcases (is_align_iff y).1 hb with e | e | e | e <;> omega
  intro c hc
  apply hna
  simp only [spec_fields.text, List.mem_append, List.mem_singleton, Option.mem_toList,
    Option.mem_def, List.nil_append] at hc
  rcases hc with (((((h | h) | h) | h) | h) | h) | h
  · exact Or.inl (hs c h)
  · cases al with
    | false => simp at h
    | true => simp at h; exact Or.inr (Or.inl h)
  · cases z with
    | false => simp at h
    | true => simp at h; exact Or.inr (Or.inr (Or.inl (by omega)))
  · cases w with
    | none => simp at h
    | some ds => exact Or.inr (Or.inr (Or.inl ((hw ds rfl).2.1 c (by simpa using h))))
  · cases pr with
    | none => simp at h
    | some ds =>
      simp only [List.mem_cons] at h
      rcases h with h | h
      · exact Or.inr (Or.inr (Or.inr (Or.inl h)))
      · exact Or.inr (Or.inr (Or.inl ((hpr ds rfl).2.1 c h)))
  · exact Or.inr (Or.inr (Or.inr (Or.inr (Or.inl (hty c h)))))
  · exact Or.inr (Or.inr (Or.inr (Or.inr (Or.inr h))))

/-- Function `parse_format_spec` on the text of a well-formed format spec, from any spec. -/
theorem parse_format_spec_text (a : spec_fields) (tail : List Nat) (p : format_parse_context)
    (spec : format_spec) (hwf : a.well_formed) (hne : a.text ≠ []) (hp : p.err = none) :
    parse_format_spec (p.at_rest (a.text ++ 125 :: tail)) spec
      = some (true, a.store spec, p.at_rest tail) := by
  obtain ⟨fl, an, sg, al, z, w, pr, ty⟩ := a
  obtain ⟨han, hfl, hs, hw, hpr, hty⟩ := hwf
  simp only at han hfl hs hw hpr hty
  have hnil : ∀ x : List Nat, x ≠ [] → (p.at_rest (x ++ 125 :: tail)).eof = false := by
    intro x hx
    obtain ⟨d, ds, rfl⟩ := List.exists_cons_of_ne_nil hx
    exact at_rest_eof_cons p d _
  unfold parse_format_spec
  rw [hnil _ hne]
  simp only [Bool.false_eq_true, if_false]
  cases an with
  | none =>
    have hfn : fl = none := by
      cases fl with
      | none => rfl
      | some f => exact absurd rfl (hfl f rfl).2
    subst hfn
    obtain ⟨y, t, e, hy, h2⟩ := from_sign_text p hp spec sg al z w pr ty tail hs hw hpr hty
    have hall := text_no_align sg al z w pr ty hs hw hpr hty
    obtain ⟨x, xs, ex⟩ := List.exists_cons_of_ne_nil hne
    rw [ex] at e hall
    obtain ⟨y2, t2, e2⟩ : ∃ y2 t2, xs ++ 125 :: tail = y2 :: t2 := by
      cases xs with
      | nil => exact ⟨125, tail, rfl⟩
      | cons u us => exact ⟨u, us ++ 125 :: tail, rfl⟩
    have hy2 : is_align y2 = false := by
      apply hall
      cases xs with
      | nil =>
        simp only [List.nil_append, List.cons.injEq] at e2
        simp [e2.1]
      | cons u us =>
        simp only [List.cons_append, List.cons.injEq] at e2
        simp [e2.1]
    have exy : x = y := by
      simp only [List.cons_append, List.cons.injEq] at e
      exact e.1
    have et : t = y2 :: t2 := by
      simp only [List.cons_append, List.cons.injEq] at e
      rw [← e.2, e2]
    rw [ex, List.cons_append, e2, exy, align_absent p spec y y2 t2 hy hy2]
    simp only []
    rw [← et, h2]
  | some c =>
    have hc := han c rfl
    have hca : is_align c = true := (is_align_iff c).2 (by omega)
    cases fl with
    | none =>
      obtain ⟨y, t, e, hy, h2⟩ := from_sign_text p hp { spec with align := c } sg al z w pr ty
        tail hs hw hpr hty
      have e1 : (spec_fields.mk none (some c) sg al z w pr ty).text ++ 125 :: tail
          = c :: y :: t := by
        simp only [spec_fields.text] at e ⊢
        simp only [Option.toList, List.nil_append, List.append_assoc, List.cons_append] at e ⊢
        rw [e]
      rw [e1, align_only p spec c y t hca hy]
      simp only []
      rw [h2]
      rfl
    | some f =>
      obtain ⟨y, t, e, hy, h2⟩ := from_sign_text p hp { spec with fill := f, align := c }
        sg al z w pr ty tail hs hw hpr hty
      have e1 : (spec_fields.mk (some f) (some c) sg al z w pr ty).text ++ 125 :: tail
          = f :: c :: y :: t := by
        simp only [spec_fields.text] at e ⊢
        simp only [Option.toList, List.nil_append, List.append_assoc, List.cons_append] at e ⊢
        rw [e]
      rw [e1, align_fill p spec f c y t hca (hfl f rfl).1]
      simp only []
      rw [h2]
      rfl

/-- Claim C24, as the code has it: the input `".\x7d"` is of the form of the claim with the
type char `'.'` as its only attribute, and the input `"\x7b\x7d"` with the type char
`'\x7b'`; on the first `parse_format_spec` returns true with `has_precision` set and no type,
on the second it returns false. -/
theorem parse_format_spec_counterexample :
    (parse_format_spec (format_parse_context.init (bytes ".\x7d") []) {}).map
        (fun r => (r.1, r.2.1)) = some (true, { has_precision := true }) ∧
    (parse_format_spec (format_parse_context.init (bytes "\x7b\x7d") []) {}).map
        (fun r => r.1) = some false := by
  constructor <;> decide

/-- Claim C24, amended: for every non-empty input of the form
`[[fill]align][sign]['#']['0'][width]['.'precision][type]` followed by the closing brace, with
align among `'<'`, `'>'`, `'^'`, a fill other than the opening brace, a sign among `'+'`, `'-'`,
`' '`, width and precision decimal literals below `2^32`, the width not beginning with `'0'`
unless the flag `'0'` stands before it, and a type char that is no brace, no `'.'`, no `'#'`,
no sign, no align char and no digit, `parse_format_spec` returns true, stores exactly the
attributes present in a default spec, the flag `'0'` standing for the fill `'0'` and the align
`'='` whatever fill and align are given, and leaves the parser behind the closing brace. -/
theorem parse_format_spec_grammar (a : spec_fields) (tail : List Nat)
    (p : format_parse_context) (hwf : a.well_formed) (hne : a.text ≠ []) (hp : p.running)
    (hr : p.rest = a.text ++ 125 :: tail) :
    parse_format_spec p {} = some (true, a.spec, p.at_rest tail) := by
  have e := running_eq_at_rest p hp
  rw [hr] at e
  rw [e, at_rest_at_rest]
  exact parse_format_spec_text a tail p {} hwf hne hp.2


open format_parse_context

/-- The spec `"*<+#12.3x"` followed by the closing brace and by `" and"`. -/
theorem parse_format_spec_grammar_witness :
    parse_format_spec (format_parse_context.init (bytes "*<+#12.3x\x7d and") []) {}
      = some (true,
          format_spec.mk 12 3 true 42 60 43 35 120,
          (format_parse_context.init (bytes "*<+#12.3x\x7d and") []).at_rest (bytes " and")) :=
  parse_format_spec_grammar
    (spec_fields.mk (some 42) (some 60) (some 43) true false (some (bytes "12"))
      (some (bytes "3")) (some 120))
    (bytes " and") (format_parse_context.init (bytes "*<+#12.3x\x7d and") [])
    (by
      refine ⟨?_, ?_, ?_, ?_, ?_, ?_⟩
      · intro c h; simp only [Option.some.injEq] at h; omega
      · intro f h; simp only [Option.some.injEq] at h; exact ⟨by omega, by simp⟩
      · intro c h; simp only [Option.some.injEq] at h; omega
      · intro ds h
        simp only [Option.some.injEq] at h
        subst h
        refine ⟨by decide, by decide, by decide, fun _ => by decide⟩
      · intro ds h
        simp only [Option.some.injEq] at h
        subst h
        refine ⟨by decide, by decide, by decide⟩
      · intro t h
        simp only [Option.some.injEq] at h
        subst h
        exact ⟨by decide, by omega⟩)
    (by decide) ⟨rfl, rfl⟩ rfl


open format_parse_context

/-! ### What `parse_format_spec` does to fill and align, on any input -/

/-- The step `parser.advance(); c = parser.eof() ? 0 : parser.front_char();`: the view loses
`count` bytes and `c`, unless it is 0, is the first byte left. -/
theorem advance_front_spec (p p1 : format_parse_context) (count c : Nat)
    (h : advance_front p count = some (p1, c)) :
    count ≤ p.rest.length ∧ p1.rest = p.rest.drop count ∧ (c ≠ 0 → p1.rest.head? = some c) := by
  unfold advance_front at h
  cases ha : p.advance count with
  | none => rw [ha] at h; exact Option.noConfusion h
  | some q =>
    rw [ha] at h
    simp only [] at h
    unfold format_parse_context.advance at ha
    by_cases hc : count ≤ p.rest.length
    · rw [if_pos hc] at ha
      have hq := Option.some.inj ha
      cases hf : front_or_zero q with
      | none => rw [hf] at h; exact Option.noConfusion h
      | some c1 =>
        rw [hf] at h
        simp only [Option.some.injEq, Prod.mk.injEq] at h
        obtain ⟨h1, h2⟩ := h
        subst h1 h2
        refine ⟨hc, by rw [← hq], ?_⟩
        intro hne
        unfold front_or_zero format_parse_context.front_char at hf
        by_cases he : q.eof = true
        · rw [if_pos he] at hf
          exact absurd (Option.some.inj hf).symm hne
        · rw [if_neg he, if_neg he] at hf
          exact hf
    · rw [if_neg hc] at ha
      exact Option.noConfusion ha

/-- The blocks of `parse_format_spec` after the `'0'` block leave fill and align alone. -/
theorem from_width_frame (spec spec1 : format_spec) (p p1 : format_parse_context) (c : Nat)
    (b : Bool) (h : parse_format_spec_from_width spec p c = some (b, spec1, p1)) :
    spec1.fill = spec.fill ∧ spec1.align = spec.align := by
  have htype : ∀ (s s1 : format_spec) (q q1 : format_parse_context) (c : Nat) (b : Bool),
      parse_format_spec_from_type s q c = some (b, s1, q1) →
      s1.fill = s.fill ∧ s1.align = s.align := by
    intro s s1 q q1 c b h
    unfold parse_format_spec_from_type parse_format_spec_type parse_format_spec_close at h
    by_cases hc : c ≠ 125
    · rw [if_pos hc] at h
      cases ha : advance_front q 1 with
      | none => rw [ha] at h; exact Option.noConfusion h
      | some r =>
        obtain ⟨q2, c2⟩ := r
        rw [ha] at h
        simp only [] at h
        by_cases hc2 : c2 ≠ 125
        · rw [if_pos hc2] at h
          simp only [Option.some.injEq, Prod.mk.injEq] at h
          rw [← h.2.1]
          exact ⟨rfl, rfl⟩
        · rw [if_neg hc2] at h
          cases hb : q2.advance 1 with
          | none => rw [hb] at h; exact Option.noConfusion h
          | some q3 =>
            rw [hb] at h
            simp only [Option.some.injEq, Prod.mk.injEq] at h
            rw [← h.2.1]
            exact ⟨rfl, rfl⟩
    · rw [if_neg hc] at h
      simp only [] at h
      rw [if_neg hc] at h
      cases hb : q.advance 1 with
      | none => rw [hb] at h; exact Option.noConfusion h
      | some q3 =>
        rw [hb] at h
        simp only [Option.some.injEq, Prod.mk.injEq] at h
        rw [← h.2.1]
        exact ⟨rfl, rfl⟩
  have hprec : ∀ (s s1 : format_spec) (q q1 : format_parse_context) (c : Nat) (b : Bool),
      parse_format_spec_from_precision s q c = some (b, s1, q1) →
      s1.fill = s.fill ∧ s1.align = s.align := by
    intro s s1 q q1 c b h
    unfold parse_format_spec_from_precision at h
    cases hs : parse_format_spec_precision s q c with
    | none => rw [hs] at h; exact Option.noConfusion h
    | some r =>
      obtain ⟨b2, s2, q2, c2⟩ := r
      rw [hs] at h
      have hfr : s2.fill = s.fill ∧ s2.align = s.align := by
        unfold parse_format_spec_precision at hs
        by_cases hc : c = 46
        · rw [if_pos hc] at hs
          cases ha : advance_front q 1 with
          | none => rw [ha] at hs; exact Option.noConfusion hs
          | some r =>
            obtain ⟨q3, c3⟩ := r
            rw [ha] at hs
            simp only [] at hs
            by_cases hd : c3 = 123 ∨ (48 ≤ c3 ∧ c3 ≤ 57)
            · rw [if_pos hd] at hs
              cases hu : parse_uint_spec_arg q3 s.precision with
              | none => rw [hu] at hs; exact Option.noConfusion hs
              | some r =>
                obtain ⟨ok, v, q4⟩ := r
                rw [hu] at hs
                simp only [] at hs
                cases ok with
                | false =>
                  simp only [Bool.not_false, if_true, Option.some.injEq, Prod.mk.injEq] at hs
                  rw [← hs.2.1]
                  exact ⟨rfl, rfl⟩
                | true =>
                  simp only [Bool.not_true, Bool.false_eq_true, if_false] at hs
                  cases hf : q4.front_char with
                  | none => rw [hf] at hs; exact Option.noConfusion hs
                  | some c4 =>
                    rw [hf] at hs
                    simp only [Option.some.injEq, Prod.mk.injEq] at hs
                    rw [← hs.2.1]
                    exact ⟨rfl, rfl⟩
            · rw [if_neg hd] at hs
              simp only [Option.some.injEq, Prod.mk.injEq] at hs
              rw [← hs.2.1]
              exact ⟨rfl, rfl⟩
        · rw [if_neg hc] at hs
          simp only [Option.some.injEq, Prod.mk.injEq] at hs
          rw [← hs.2.1]
          exact ⟨rfl, rfl⟩
      cases b2 with
      | false =>
        simp only [Option.some.injEq, Prod.mk.injEq] at h
        rw [← h.2.1]
        exact hfr
      | true =>
        simp only [] at h
        have := htype s2 s1 q2 q1 c2 b h
        exact ⟨this.1.trans hfr.1, this.2.trans hfr.2⟩
  unfold parse_format_spec_from_width at h
  cases hs : parse_format_spec_width spec p c with
  | none => rw [hs] at h; exact Option.noConfusion h
  | some r =>
    obtain ⟨b2, s2, q2, c2⟩ := r
    rw [hs] at h
    have hfr : s2.fill = spec.fill ∧ s2.align = spec.align := by
      unfold parse_format_spec_width at hs
      by_cases hd : c = 123 ∨ (48 ≤ c ∧ c ≤ 57)
      · rw [if_pos hd] at hs
        cases hu : parse_uint_spec_arg p spec.width with
        | none => rw [hu] at hs; exact Option.noConfusion hs
        | some r =>
          obtain ⟨ok, v, q4⟩ := r
          rw [hu] at hs
          simp only [] at hs
          cases ok with
          | false =>
            simp only [Bool.not_false, if_true, Option.some.injEq, Prod.mk.injEq] at hs
            rw [← hs.2.1]
            exact ⟨rfl, rfl⟩
          | true =>
            simp only [Bool.not_true, Bool.false_eq_true, if_false] at hs
            cases hf : front_or_zero q4 with
            | none => rw [hf] at hs; exact Option.noConfusion hs
            | some c4 =>
              rw [hf] at hs
              simp only [Option.some.injEq, Prod.mk.injEq] at hs
              rw [← hs.2.1]
              exact ⟨rfl, rfl⟩
      · rw [if_neg hd] at hs
        simp only [Option.some.injEq, Prod.mk.injEq] at hs
        rw [← hs.2.1]
        exact ⟨rfl, rfl⟩
    cases b2 with
    | false =>
      simp only [Option.some.injEq, Prod.mk.injEq] at h
      rw [← h.2.1]
      exact hfr
    | true =>
      simp only [] at h
      have := hprec s2 spec1 q2 p1 c2 b h
      exact ⟨this.1.trans hfr.1, this.2.trans hfr.2⟩


open format_parse_context

/-- The sign block: fill and align stay, at most one byte is taken, and `c` stays the first
byte of the view unless it is 0. -/
theorem sign_stage (s s1 : format_spec) (q q1 : format_parse_context) (c c1 : Nat)
    (h : parse_format_spec_sign s q c = some (s1, q1, c1))
    (hc : c ≠ 0 → q.rest.head? = some c) :
    s1.fill = s.fill ∧ s1.align = s.align ∧ (c1 ≠ 0 → q1.rest.head? = some c1) ∧
      ∃ k, k ≤ 1 ∧ k ≤ q.rest.length ∧ q1.rest = q.rest.drop k := by
  unfold parse_format_spec_sign at h
  by_cases hs : c = 43 ∨ c = 45 ∨ c = 32
  · rw [if_pos hs] at h
    cases ha : advance_front q 1 with
    | none => rw [ha] at h; exact Option.noConfusion h
    | some r =>
      obtain ⟨q2, c2⟩ := r
      rw [ha] at h
      simp only [Option.some.injEq, Prod.mk.injEq] at h
      obtain ⟨h1, h2, h3⟩ := h
      subst h1 h2 h3
      obtain ⟨a1, a2, a3⟩ := advance_front_spec q q2 1 c2 ha
      exact ⟨rfl, rfl, a3, 1, le_refl 1, a1, a2⟩
  · rw [if_neg hs] at h
    simp only [Option.some.injEq, Prod.mk.injEq] at h
    obtain ⟨h1, h2, h3⟩ := h
    subst h1 h2 h3
    exact ⟨rfl, rfl, hc, 0, Nat.zero_le 1, Nat.zero_le _, rfl⟩

/-- The `'#'` block: fill and align stay, at most one byte is taken, and `c` stays the first
byte of the view unless it is 0. -/
theorem alt_stage (s s1 : format_spec) (q q1 : format_parse_context) (c c1 : Nat)
    (h : parse_format_spec_alt s q c = some (s1, q1, c1))
    (hc : c ≠ 0 → q.rest.head? = some c) :
    s1.fill = s.fill ∧ s1.align = s.align ∧ (c1 ≠ 0 → q1.rest.head? = some c1) ∧
      ∃ k, k ≤ 1 ∧ k ≤ q.rest.length ∧ q1.rest = q.rest.drop k := by
  unfold parse_format_spec_alt at h
  by_cases hs : c = 35
  · rw [if_pos hs] at h
    cases ha : advance_front q 1 with
    | none => rw [ha] at h; exact Option.noConfusion h
    | some r =>
      obtain ⟨q2, c2⟩ := r
      rw [ha] at h
      simp only [Option.some.injEq, Prod.mk.injEq] at h
      obtain ⟨h1, h2, h3⟩ := h
      subst h1 h2 h3
      obtain ⟨a1, a2, a3⟩ := advance_front_spec q q2 1 c2 ha
      exact ⟨rfl, rfl, a3, 1, le_refl 1, a1, a2⟩
  · rw [if_neg hs] at h
    simp only [Option.some.injEq, Prod.mk.injEq] at h
    obtain ⟨h1, h2, h3⟩ := h
    subst h1 h2 h3
    exact ⟨rfl, rfl, hc, 0, Nat.zero_le 1, Nat.zero_le _, rfl⟩

/-- The `'0'` block: either nothing changes, or the view begins with `'0'` and fill and align
become `'0'` and `'='`. -/
theorem zero_stage (s s1 : format_spec) (q q1 : format_parse_context) (c c1 : Nat)
    (h : parse_format_spec_zero s q c = some (s1, q1, c1))
    (hc : c ≠ 0 → q.rest.head? = some c) :
    (s1.fill = s.fill ∧ s1.align = s.align) ∨
      (s1.fill = 48 ∧ s1.align = 61 ∧ q.rest.head? = some 48) := by
  unfold parse_format_spec_zero at h
  by_cases hs : c = 48
  · rw [if_pos hs] at h
    cases ha : advance_front q 1 with
    | none => rw [ha] at h; exact Option.noConfusion h
    | some r =>
      obtain ⟨q2, c2⟩ := r
      rw [ha] at h
      simp only [Option.some.injEq, Prod.mk.injEq] at h
      obtain ⟨h1, h2, h3⟩ := h
      subst h1 h2 h3
      exact Or.inr ⟨rfl, rfl, hs ▸ hc (by omega)⟩
  · rw [if_neg hs] at h
    simp only [Option.some.injEq, Prod.mk.injEq] at h
    obtain ⟨h1, h2, h3⟩ := h
    subst h1 h2 h3
    exact Or.inl ⟨rfl, rfl⟩

/-- The fill and align block on a default spec: the align stays absent or becomes an align
char of the input, at most two bytes are taken, and `c` stays the first byte of the view
unless it is 0. -/
theorem align_stage (p q1 : format_parse_context) (s1 : format_spec) (c1 : Nat)
    (h : parse_format_spec_align p {} = some (true, s1, q1, c1)) :
    (s1.align = 0 ∨ (is_align s1.align = true ∧
        (p.rest.head? = some s1.align ∨ p.rest.get? 1 = some s1.align))) ∧
      (c1 ≠ 0 → q1.rest.head? = some c1) ∧
      ∃ k, k ≤ 2 ∧ k ≤ p.rest.length ∧ q1.rest = p.rest.drop k := by
  unfold parse_format_spec_align at h
  cases hf : p.front_char with
  | none => rw [hf] at h; exact Option.noConfusion h
  | some c =>
    rw [hf] at h
    simp only [] at h
    have hhead : p.rest.head? = some c := by
      unfold format_parse_context.front_char at hf
      by_cases he : p.eof = true
      · rw [if_pos he] at hf; exact Option.noConfusion hf
      · rw [if_neg he] at hf; exact hf
    cases hn : p.rest.get? 1 with
    | none =>
      rw [hn] at h
      simp only [Bool.false_eq_true, if_false] at h
      by_cases hal : is_align c = true
      · rw [if_pos hal] at h
        cases ha : advance_front p 1 with
        | none => rw [ha] at h; exact Option.noConfusion h
        | some r =>
          obtain ⟨q2, c2⟩ := r
          rw [ha] at h
          simp only [Option.some.injEq, Prod.mk.injEq, true_and] at h
          obtain ⟨h1, h2, h3⟩ := h
          subst h1 h2 h3
          obtain ⟨a1, a2, a3⟩ := advance_front_spec p q2 1 c2 ha
          exact ⟨Or.inr ⟨hal, Or.inl hhead⟩, a3, 1, by omega, a1, a2⟩
      · rw [if_neg hal] at h
        simp only [Option.some.injEq, Prod.mk.injEq, true_and] at h
        obtain ⟨h1, h2, h3⟩ := h
        subst h1 h2 h3
        exact ⟨Or.inl rfl, fun _ => hhead, 0, by omega, Nat.zero_le _, rfl⟩
    | some n =>
      rw [hn] at h
      simp only [] at h
      by_cases hna : is_align n = true
      · rw [if_pos hna] at h
        by_cases hc : c = 123
        · rw [if_pos hc] at h
          simp only [Option.some.injEq, Prod.mk.injEq] at h
          exact absurd h.1 (by decide)
        · rw [if_neg hc] at h
          cases ha : advance_front p 2 with
          | none => rw [ha] at h; exact Option.noConfusion h
          | some r =>
            obtain ⟨q2, c2⟩ := r
            rw [ha] at h
            simp only [Option.some.injEq, Prod.mk.injEq, true_and, Option.getD_some] at h
            obtain ⟨h1, h2, h3⟩ := h
            subst h1 h2 h3
            obtain ⟨a1, a2, a3⟩ := advance_front_spec p q2 2 c2 ha
            exact ⟨Or.inr ⟨hna, Or.inr rfl⟩, a3, 2, le_refl 2, a1, a2⟩
      · rw [if_neg hna] at h
        by_cases hal : is_align c = true
        · rw [if_pos hal] at h
          cases ha : advance_front p 1 with
          | none => rw [ha] at h; exact Option.noConfusion h
          | some r =>
            obtain ⟨q2, c2⟩ := r
            rw [ha] at h
            simp only [Option.some.injEq, Prod.mk.injEq, true_and] at h
            obtain ⟨h1, h2, h3⟩ := h
            subst h1 h2 h3
            obtain ⟨a1, a2, a3⟩ := advance_front_spec p q2 1 c2 ha
            exact ⟨Or.inr ⟨hal, Or.inl hhead⟩, a3, 1, by omega, a1, a2⟩
        · rw [if_neg hal] at h
          simp only [Option.some.injEq, Prod.mk.injEq, true_and] at h
          obtain ⟨h1, h2, h3⟩ := h
          subst h1 h2 h3
          exact ⟨Or.inl rfl, fun _ => hhead, 0, by omega, Nat.zero_le _, rfl⟩


open format_parse_context

/-- Claim C25, as the code has it: `'='` is accepted as an align char; on `"=5\x7d"`
`parse_format_spec` succeeds with the align `'='`, no fill and the width 5, and on
`"*=5\x7d"` with the align `'='` and the fill `'*'`, though neither input holds a `'0'`. -/
theorem align_after_sign_counterexample :
    is_align 61 = true ∧
    (parse_format_spec (format_parse_context.init (bytes "=5\x7d") []) {}).map
        (fun r => (r.1, r.2.1)) = some (true, format_spec.mk 5 0 false 0 61 0 0 0) ∧
    (parse_format_spec (format_parse_context.init (bytes "*=5\x7d") []) {}).map
        (fun r => (r.1, r.2.1)) = some (true, format_spec.mk 5 0 false 42 61 0 0 0) ∧
    48 ∉ bytes "=5\x7d" ∧ 48 ∉ bytes "*=5\x7d" := by
  refine ⟨by decide, by decide, by decide, by decide, by decide⟩

/-- Claim C25, amended: the align characters accepted in the fill and align position are
`'<'`, `'='`, `'>'` and `'^'`; for every input on which `parse_format_spec` succeeds the
resulting align is absent or one of these four, and if it is `'='` then either the fill is
`'0'` and the input holds the flag `'0'` after at most four bytes, or `'='` is the first byte
of the input or its second, as its align char. -/
theorem align_after_sign (p p1 : format_parse_context) (spec1 : format_spec)
    (h : parse_format_spec p {} = some (true, spec1, p1)) :
    (∀ c, is_align c = true ↔ c = 60 ∨ c = 61 ∨ c = 62 ∨ c = 94) ∧
    (spec1.align = 0 ∨ is_align spec1.align = true) ∧
    (spec1.align = 61 →
      (spec1.fill = 48 ∧ ∃ pre post, p.rest = pre ++ 48 :: post ∧ pre.length ≤ 4) ∨
      p.rest.head? = some 61 ∨ p.rest.get? 1 = some 61) := by
  refine ⟨is_align_iff, ?_⟩
  unfold parse_format_spec at h
  by_cases he : p.eof = true
  · rw [if_pos he] at h
    simp only [Option.some.injEq, Prod.mk.injEq] at h
    exact absurd h.1 (by decide)
  rw [if_neg he] at h
  cases ha : parse_format_spec_align p {} with
  | none => rw [ha] at h; exact Option.noConfusion h
  | some r =>
    obtain ⟨b, s1, q1, c1⟩ := r
    rw [ha] at h
    cases b with
    | false =>
      simp only [Option.some.injEq, Prod.mk.injEq] at h
      exact absurd h.1 (by decide)
    | true =>
      simp only [] at h
      obtain ⟨hal, hc1, k1, hk1, hk1l, hr1⟩ := align_stage p q1 s1 c1 ha
      unfold parse_format_spec_from_sign at h
      cases hs : parse_format_spec_sign s1 q1 c1 with
      | none => rw [hs] at h; exact Option.noConfusion h
      | some r =>
        obtain ⟨s2, q2, c2⟩ := r
        rw [hs] at h
        simp only [] at h
        obtain ⟨hf2, ha2, hc2, k2, hk2, hk2l, hr2⟩ := sign_stage s1 s2 q1 q2 c1 c2 hs hc1
        unfold parse_format_spec_from_alt at h
        cases hs3 : parse_format_spec_alt s2 q2 c2 with
        | none => rw [hs3] at h; exact Option.noConfusion h
        | some r =>
          obtain ⟨s3, q3, c3⟩ := r
          rw [hs3] at h
          simp only [] at h
          obtain ⟨hf3, ha3, hc3, k3, hk3, hk3l, hr3⟩ := alt_stage s2 s3 q2 q3 c2 c3 hs3 hc2
          unfold parse_format_spec_from_zero at h
          cases hs4 : parse_format_spec_zero s3 q3 c3 with
          | none => rw [hs4] at h; exact Option.noConfusion h
          | some r =>
            obtain ⟨s4, q4, c4⟩ := r
            rw [hs4] at h
            simp only [] at h
            obtain ⟨hf5, ha5⟩ := from_width_frame s4 spec1 q4 p1 c4 true h
            have hq3 : q3.rest = p.rest.drop (k1 + k2 + k3) := by
              rw [hr3, hr2, hr1, List.drop_drop, List.drop_drop]
              congr 1
              omega
            rcases zero_stage s3 s4 q3 q4 c3 c4 hs4 hc3 with hz | hz
            · have e1 : spec1.align = s1.align := by
                rw [ha5, hz.2, ha3, ha2]
              rw [e1]
              constructor
              · rcases hal with h0 | h1
                · exact Or.inl h0
                · exact Or.inr h1.1
              · intro h61
                rcases hal with h0 | h1
                · rw [h0] at h61; exact absurd h61 (by decide)
                · rw [h61] at h1
                  exact Or.inr h1.2
            · have e1 : spec1.align = 61 := by rw [ha5, hz.2.1]
              have e2 : spec1.fill = 48 := by rw [hf5, hz.1]
              rw [e1]
              refine ⟨Or.inr (by decide), fun _ => Or.inl ⟨e2, ?_⟩⟩
              have h48 := hz.2.2
              rw [hq3] at h48
              obtain ⟨post, hpost⟩ : ∃ post, p.rest.drop (k1 + k2 + k3) = 48 :: post := by
                cases hd : p.rest.drop (k1 + k2 + k3) with
                | nil => rw [hd] at h48; exact Option.noConfusion h48
                | cons x xs =>
                  rw [hd] at h48
                  simp only [List.head?_cons, Option.some.injEq] at h48
                  exact ⟨xs, by rw [h48]⟩
              refine ⟨p.rest.take (k1 + k2 + k3), post, ?_, ?_⟩
              · rw [← hpost, List.take_append_drop]
              · rw [List.length_take]
                omega

/-- The inputs `"=5\x7d"`, with `'='` as its first byte, and `"+05\x7d"`, with the flag
`'0'`. -/
theorem align_after_sign_witness :
    (((format_spec.mk 5 0 false 0 61 0 0 0).fill = 48 ∧
        ∃ pre post, (format_parse_context.init (bytes "=5\x7d") []).rest = pre ++ 48 :: post ∧
          pre.length ≤ 4) ∨
      (format_parse_context.init (bytes "=5\x7d") []).rest.head? = some 61 ∨
      (format_parse_context.init (bytes "=5\x7d") []).rest.get? 1 = some 61) ∧
    (((format_spec.mk 5 0 false 48 61 43 0 0).fill = 48 ∧
        ∃ pre post, (format_parse_context.init (bytes "+05\x7d") []).rest = pre ++ 48 :: post ∧
          pre.length ≤ 4) ∨
      (format_parse_context.init (bytes "+05\x7d") []).rest.head? = some 61 ∨
      (format_parse_context.init (bytes "+05\x7d") []).rest.get? 1 = some 61) :=
  ⟨(align_after_sign (format_parse_context.init (bytes "=5\x7d") [])
      ((format_parse_context.init (bytes "=5\x7d") []).at_rest [])
      (format_spec.mk 5 0 false 0 61 0 0 0) rfl).2.2 rfl,
   (align_after_sign (format_parse_context.init (bytes "+05\x7d") [])
      ((format_parse_context.init (bytes "+05\x7d") []).at_rest [])
      (format_spec.mk 5 0 false 48 61 43 0 0) rfl).2.2 rfl⟩


open format_parse_context

/-! ### Argument references -/

/-- A view that does not begin with a decimal digit. -/
theorem is_decimal_digit_not (p : format_parse_context) (t : List Nat)
    (ht : ∀ c, t.head? = some c → ¬ (48 ≤ c ∧ c ≤ 57)) :
    (p.at_rest t).is_decimal_digit = false := by
  cases t with
  | nil => exact is_decimal_digit_nil p
  | cons x xs =>
    rw [is_decimal_digit_cons]
    have := ht x rfl
    by_cases h1 : 48 ≤ x
    · have h2 : ¬ x ≤ 57 := fun h => this ⟨h1, h⟩
      simp [h1, h2]
    · simp [h1]

/-- Function `parse_arg_ref` on an argument reference, explicit or automatic. -/
theorem parse_arg_ref_text (p : format_parse_context) (hp : p.err = none) (ds tail : List Nat)
    (hd : ∀ c ∈ ds, 48 ≤ c ∧ c ≤ 57) (ht : ∀ c, tail.head? = some c → ¬ (48 ≤ c ∧ c ≤ 57)) :
    parse_arg_ref (p.at_rest (ds ++ tail))
      = some (arg_ref_index p ds,
          if p.args.length ≤ arg_ref_index p ds then
            ((arg_ref_state p ds).at_rest tail).on_error (bytes "arg num out of range")
          else (arg_ref_state p ds).at_rest tail) := by
  unfold parse_arg_ref
  cases ds with
  | nil =>
    rw [List.nil_append, is_decimal_digit_not p tail ht]
    simp only [Bool.false_eq_true, if_false, arg_ref_index, arg_ref_state, if_true]
    have e : (p.at_rest tail).next_arg
        = (p.last_arg_pos,
            ({ p with last_arg_pos := (p.last_arg_pos + 1) % 2 ^ 32 } :
              format_parse_context).at_rest tail) := rfl
    rw [e]
    simp only [format_parse_context.fail, at_rest_err, hp, Option.isSome_none, Bool.not_false,
      Bool.true_and, format_parse_context.arg_count, at_rest_args, ge_iff_le, decide_eq_true_eq]
    split_ifs <;> rfl
  | cons d ds =>
    have hdd := hd d (by simp)
    have hdig : (p.at_rest (d :: ds ++ tail)).is_decimal_digit = true := by
      rw [List.cons_append, is_decimal_digit_cons]
      simp [hdd.1, hdd.2]
    rw [hdig]
    simp only [if_true]
    rw [parse_uint_digits p d ds tail hd ht]
    simp only [format_parse_context.fail, at_rest_err, hp, Option.isSome_none, Bool.not_false,
      Bool.true_and, format_parse_context.arg_count, at_rest_args, ge_iff_le, decide_eq_true_eq,
      arg_ref_index, arg_ref_state, if_false, reduceCtorEq]
    split_ifs <;> rfl


open format_parse_context

theorem arg_ref_state_err (p : format_parse_context) (ds : List Nat) :
    (arg_ref_state p ds).err = p.err := by
  unfold arg_ref_state
  split_ifs <;> rfl

theorem arg_ref_state_args (p : format_parse_context) (ds : List Nat) :
    (arg_ref_state p ds).args = p.args := by
  unfold arg_ref_state
  split_ifs <;> rfl

open format_parse_context

open format_parse_context

/-- Claim C27, as the code has it: on `"\x7b:.5"` the precision is read up to the end of the
template, `parse_uint_spec_arg` leaves the parser at `eof`, and `parse_format_spec` then calls
`front_char`, whose assertion fails; on `"\x7b:5"` the type block advances the parser beyond
the end of the template and reads the byte there: in both cases the result of `vformat_to` is
undefined. The templates `"\x7b"`, `"\x7b0"` and `"\x7b:x"` end with the parser failed. -/
theorem unterminated_field_undefined :
    (parse_uint_spec_arg (format_parse_context.init (bytes "5") [format_arg.int 42]) 0).map
        (fun r => (r.1, r.2.1, r.2.2.eof, r.2.2.rest)) = some (true, 5, true, []) ∧
    (∀ p : format_parse_context, p.eof = true → p.front_char = none) ∧
    (parse_format_spec (format_parse_context.init (bytes ".5") [format_arg.int 42]) {}).isNone
      = true ∧
    (vformat_to [] (bytes "\x7b:.5") [format_arg.int 42]).isNone = true ∧
    (∀ p : format_parse_context, p.rest = [] → p.advance 1 = none) ∧
    (parse_format_spec (format_parse_context.init (bytes "5") [format_arg.int 42]) {}).isNone
      = true ∧
    (vformat_to [] (bytes "\x7b:5") [format_arg.int 42]).isNone = true ∧
    (vformat_to [] (bytes "\x7b") [format_arg.int 42]).map (fun r => r.2.fail) = some true ∧
    (vformat_to [] (bytes "\x7b0") [format_arg.int 42]).map (fun r => r.2.fail) = some true ∧
    (vformat_to [] (bytes "\x7b:x") [format_arg.int 42]).map (fun r => r.2.fail) = some true := by
  refine ⟨by decide, ?_, by decide, by decide, ?_, by decide, by decide, by decide, by decide,
    by decide⟩
  · intro p h
    simp [format_parse_context.front_char, h]
  · intro p h
    simp [format_parse_context.advance, h]


open format_parse_context

/-- A well-formed format spec whose fill is not the closing brace does not begin with the
closing brace. -/
theorem text_head_ne_close (a : spec_fields) (hwf : a.well_formed) (hne : a.text ≠ [])
    (hf : a.fill ≠ some 125) : ∃ x xs, a.text = x :: xs ∧ x ≠ 125 := by
  obtain ⟨x, xs, e⟩ := List.exists_cons_of_ne_nil hne
  refine ⟨x, xs, e, ?_⟩
  obtain ⟨fl, an, sg, al, z, w, pr, ty⟩ := a
  obtain ⟨han, hfl, hs, hw, hpr, hty⟩ := hwf
  simp only at han hfl hs hw hpr hty hf
  cases an with
  | some c =>
    have hc := han c rfl
    cases fl with
    | none =>
      simp only [spec_fields.text, Option.toList, List.nil_append, List.append_assoc,
        List.singleton_append, List.cons_append, List.cons.injEq] at e
      omega
    | some f =>
      simp only [spec_fields.text, Option.toList, List.append_assoc,
        List.singleton_append, List.cons_append, List.cons.injEq] at e
      intro h
      exact hf (by rw [e.1, h])
  | none =>
    have hfn : fl = none := by
      cases fl with
      | none => rfl
      | some f => exact absurd rfl (hfl f rfl).2
    subst hfn
    have hall := text_no_align sg al z w pr ty hs hw hpr hty
    have hx : x ∈ (spec_fields.mk none none sg al z w pr ty).text := by rw [e]; simp
    intro h125
    -- every byte of the text is a sign, `'#'`, a digit, `'.'` or a type char
    simp only [spec_fields.text, List.mem_append, Option.mem_toList, Option.mem_def,
      List.nil_append] at hx
    rcases hx with ((((h | h) | h) | h) | h) | h
    · have := hs x h; omega
    · cases al with
      | false => simp at h
      | true => simp at h; omega
    · cases z with
      | false => simp at h
      | true => simp at h; omega
    · cases w with
      | none => simp at h
      | some ds => have := (hw ds rfl).2.1 x (by simpa using h); omega
    · cases pr with
      | none => simp at h
      | some ds =>
        simp only [List.mem_cons] at h
        rcases h with h | h
        · omega
        · have := (hpr ds rfl).2.1 x h; omega
    · exact (type_char_facts x (hty x h)).2.2.2.2.1 h125

/-- The visitor `format_handler` leaves the parser as it was or reports an error. -/
theorem format_handler_state (out o : List Nat) (fmt q : format_parse_context)
    (spec : format_spec) (arg : format_arg) (h : format_handler out fmt spec arg = some (o, q)) :
    q = fmt ∨ ∃ msg, q = fmt.on_error msg := by
  have hint : ∀ r : Option (List Nat), format_int out fmt r = (o, q) →
      q = fmt ∨ ∃ msg, q = fmt.on_error msg := by
    intro r hr
    cases r with
    | none =>
      simp only [format_int, Prod.mk.injEq] at hr
      exact Or.inr ⟨_, hr.2.symm⟩
    | some x =>
      simp only [format_int, Prod.mk.injEq] at hr
      exact Or.inl hr.2.symm
  cases arg with
  | handle f =>
    simp only [format_handler, Option.some.injEq, Prod.mk.injEq] at h
    exact Or.inl h.2.symm
  | bool v =>
    simp only [format_handler, Option.some.injEq, Prod.mk.injEq] at h
    exact Or.inl h.2.symm
  | char v =>
    simp only [format_handler] at h
    by_cases hc : spec.type ≠ 0 ∧ spec.type ≠ 115 ∧ spec.type ≠ 99
    · rw [if_pos hc] at h
      exact hint _ (Option.some.inj h)
    · rw [if_neg hc] at h
      simp only [Option.some.injEq, Prod.mk.injEq] at h
      exact Or.inl h.2.symm
  | int v => exact hint _ (Option.some.inj h)
  | unsigned v => exact hint _ (Option.some.inj h)
  | long_long v => exact hint _ (Option.some.inj h)
  | unsigned_long_long v => exact hint _ (Option.some.inj h)
  | double v =>
    simp only [format_handler] at h
    split_ifs at h
    · simp only [Option.some.injEq, Prod.mk.injEq] at h
      exact Or.inr ⟨_, h.2.symm⟩
    · cases hd : do_format_double out spec v with
      | none => rw [hd] at h; exact Option.noConfusion h
      | some x =>
        rw [hd] at h
        simp only [Option.some.injEq, Prod.mk.injEq] at h
        exact Or.inl h.2.symm
  | c_str a v =>
    simp only [format_handler] at h
    split_ifs at h
    · simp only [Option.some.injEq, Prod.mk.injEq] at h
      exact Or.inl h.2.symm
    · simp only [Option.some.injEq, Prod.mk.injEq] at h
      exact Or.inl h.2.symm
  | string_view v =>
    simp only [format_handler, Option.some.injEq, Prod.mk.injEq] at h
    exact Or.inl h.2.symm
  | pointer v =>
    simp only [format_handler, Option.some.injEq, Prod.mk.injEq] at h
    exact Or.inl h.2.symm

/-- Function `vformat_to` on a template that is one replacement field with a well-formed
format spec, for one argument that is no `handle`: the argument is handed to `format_handler`
with the spec that the attributes describe. -/
theorem vformat_to_single_field (out : List Nat) (a : spec_fields) (arg : format_arg)
    (hwf : a.well_formed) (hne : a.text ≠ []) (hf : a.fill ≠ some 125)
    (harg : ∀ f, arg ≠ format_arg.handle f) :
    vformat_to out (123 :: 58 :: a.text ++ [125]) [arg]
      = (format_handler out
          ((format_parse_context.mk [] true none [arg] 1).at_rest []) a.spec arg).map
          (fun r => vformat_to_end r.1 r.2) := by
  obtain ⟨x, xs, ex, hx⟩ := text_head_ne_close a hwf hne hf
  unfold vformat_to
  have hinit : format_parse_context.init (123 :: 58 :: a.text ++ [125]) [arg]
      = (format_parse_context.mk [] true none [arg] 0).at_rest
          (123 :: 58 :: a.text ++ [125]) := by
    simp [format_parse_context.init, at_rest]
  rw [hinit]
  have hlen : (123 :: 58 :: a.text ++ [125]).length + 1 = (a.text.length + 2) + 1 + 1 := by
    simp
  rw [hlen, vformat_to_loop]
  have he : ((format_parse_context.mk [] true none [arg] 0).at_rest
      (123 :: 58 :: a.text ++ [125])).eof = false := by
    rw [List.cons_append]; exact at_rest_eof_cons _ _ _
  rw [if_neg (by rw [he]; decide)]
  have hbody : vformat_to_body out ((format_parse_context.mk [] true none [arg] 0).at_rest
      (123 :: 58 :: a.text ++ [125]))
      = (format_handler out
          ((format_parse_context.mk [] true none [arg] 1).at_rest []) a.spec arg).map
          (fun r => (loop_exit.next, r.1, r.2)) := by
    unfold vformat_to_body format_parse_context.find
    rw [he]
    simp only [Bool.false_eq_true, if_false, at_rest_rest, List.cons_append,
      format_parse_context.find_char, if_true, List.take_zero, List.append_nil, Nat.zero_add]
    rw [advance_one]
    simp only [at_rest_eof_cons, Bool.false_eq_true, if_false]
    rw [consume_cons_ne _ 58 123 _ (by decide)]
    simp only [Bool.false_eq_true, if_false]
    have href := parse_arg_ref_text (format_parse_context.mk [] true none [arg] 0) rfl []
      (58 :: (a.text ++ [125])) (by simp) (by
        intro c hc
        simp only [List.head?_cons, Option.some.injEq] at hc
        omega)
    rw [List.nil_append] at href
    rw [href]
    unfold vformat_to_ref
    simp only [arg_ref_index, arg_ref_state, if_true, List.length_singleton,
      Nat.one_le_iff_ne_zero, ne_eq, not_true_eq_false, if_false, Nat.zero_add, Nat.reducePow,
      Nat.one_mod, format_parse_context.fail, at_rest_err, Option.isSome_none,
      Bool.false_eq_true, is_char_cons]
    simp only [show decide ((58 : Nat) = 125) = false from rfl, Bool.false_eq_true, if_false]
    rw [consume_cons_eq]
    have he2 : ((format_parse_context.mk [] true none [arg] 1).at_rest (a.text ++ [125])).eof
        = false := by
      rw [ex, List.cons_append]; exact at_rest_eof_cons _ _ _
    simp only [Bool.not_true, he2, Bool.or_false, Bool.false_eq_true, if_false]
    unfold vformat_to_field format_parse_context.get_arg
    simp only [at_rest_args, List.get?_cons_zero]
    unfold vformat_to_arg
    rw [ex, List.cons_append, consume_cons_ne _ x 125 _ hx]
    simp only [Bool.false_eq_true, if_false]
    have hps := parse_format_spec_text a [] (format_parse_context.mk [] true none [arg] 1) {}
      hwf hne rfl
    rw [ex, List.cons_append] at hps
    cases arg with
    | handle f => exact absurd rfl (harg f)
    | bool v =>
      simp only [hps, spec_fields.spec]
      cases format_handler out _ _ _ <;> rfl
    | char v =>
      simp only [hps, spec_fields.spec]
      cases format_handler out _ _ _ <;> rfl
    | int v =>
      simp only [hps, spec_fields.spec]
      cases format_handler out _ _ _ <;> rfl
    | unsigned v =>
      simp only [hps, spec_fields.spec]
      cases format_handler out _ _ _ <;> rfl
    | long_long v =>
      simp only [hps, spec_fields.spec]
      cases format_handler out _ _ _ <;> rfl
    | unsigned_long_long v =>
      simp only [hps, spec_fields.spec]
      cases format_handler out _ _ _ <;> rfl
    | double v =>
      simp only [hps, spec_fields.spec]
      cases format_handler out _ _ _ <;> rfl
    | c_str q v =>
      simp only [hps, spec_fields.spec]
      cases format_handler out _ _ _ <;> rfl
    | string_view v =>
      simp only [hps, spec_fields.spec]
      cases format_handler out _ _ _ <;> rfl
    | pointer v =>
      simp only [hps, spec_fields.spec]
      cases format_handler out _ _ _ <;> rfl
  rw [hbody]
  cases hh : format_handler out
      ((format_parse_context.mk [] true none [arg] 1).at_rest []) a.spec arg with
  | none => rfl
  | some r =>
    obtain ⟨o, q⟩ := r
    simp only [Option.map_some']
    have hq : q.eof = true := by
      rcases format_handler_state out o _ q a.spec arg hh with e | ⟨msg, e⟩
      · rw [e]; rfl
      · rw [e]; rfl
    rw [vformat_to_loop, if_pos hq]


open format_parse_context

/-- Claim C23, as the code has it: the template `"\x7b:f\x7d"` renders the string `"abc"` as
it is, and the template `"\x7b:d\x7d"` renders the bool `true` as `"true"`; the parser does
not fail and no diagnostic is written. -/
theorem string_type_counterexample :
    (vformat_to [] (bytes "\x7b:f\x7d") [format_arg.string_view (bytes "abc")]).map
      (fun r => (r.1, r.2.fail)) = some (bytes "abc", false) ∧
    (vformat_to [] (bytes "\x7b:d\x7d") [format_arg.bool true]).map
      (fun r => (r.1, r.2.fail)) = some (bytes "true", false) := by
  constructor <;> decide

/-- Strings are written without a look at the type char. -/
theorem format_str_type (out : List Nat) (spec : format_spec) (t : Nat) (v : List Nat) :
    format_str out { spec with type := t } v = format_str out spec v := by
  unfold format_str write_padded
  by_cases h : spec.align = 0 <;> simp [h]

/-- Claim C23, amended: no type char is invalid for a string or a bool. For every template
that is one replacement field with a well-formed format spec, whatever its type char, a string
argument is rendered by `format_str` under the spec without its type, as is the text `"true"`
or `"false"` of a bool argument and, unless the type char is `'p'`, a C string; the parser does
not fail and nothing else is written. -/
theorem string_type_ignored (out s : List Nat) (a : spec_fields) (b : Bool) (ptr : Nat)
    (hwf : a.well_formed) (hne : a.text ≠ []) (hf : a.fill ≠ some 125) :
    (vformat_to out (123 :: 58 :: a.text ++ [125]) [format_arg.string_view s]).map
        (fun r => (r.1, r.2.fail))
      = some (format_str out { a.spec with type := 0 } s, false) ∧
    (vformat_to out (123 :: 58 :: a.text ++ [125]) [format_arg.bool b]).map
        (fun r => (r.1, r.2.fail))
      = some (format_str out { a.spec with type := 0 }
          (if b then bytes "true" else bytes "false"), false) ∧
    (a.type ≠ some 112 →
      (vformat_to out (123 :: 58 :: a.text ++ [125]) [format_arg.c_str ptr s]).map
          (fun r => (r.1, r.2.fail))
        = some (format_str out { a.spec with type := 0 } s, false)) := by
  refine ⟨?_, ?_, ?_⟩
  · rw [vformat_to_single_field out a _ hwf hne hf (fun f h => format_arg.noConfusion h)]
    simp only [format_handler, Option.map_some', vformat_to_end, format_str_type]
    rfl
  · rw [vformat_to_single_field out a _ hwf hne hf (fun f h => format_arg.noConfusion h)]
    simp only [format_handler, Option.map_some', vformat_to_end, format_str_type]
    rfl
  · intro hp
    have ht : a.spec.type ≠ 112 := by
      obtain ⟨h1, h2, h3, h4, h5, h6⟩ := hwf
      simp only [spec_fields.spec, spec_fields.store]
      cases hty : a.type with
      | none => simp
      | some t =>
        simp only [Option.getD_some]
        intro e
        exact hp (by rw [hty, e])
    rw [vformat_to_single_field out a _ hwf hne hf (fun f h => format_arg.noConfusion h)]
    simp only [format_handler, if_neg ht, Option.map_some', vformat_to_end, format_str_type]
    rfl

/-- The template `"\x7b:*^7q\x7d"` for the string `"abc"`, the bool `true` and the C string
`"abc"`. -/
theorem string_type_ignored_witness :
    (vformat_to [] (123 :: 58 :: bytes "*^7q" ++ [125])
        [format_arg.string_view (bytes "abc")]).map (fun r => (r.1, r.2.fail))
      = some (bytes "**abc**", false) ∧
    (vformat_to [] (123 :: 58 :: bytes "*^7q" ++ [125]) [format_arg.bool true]).map
        (fun r => (r.1, r.2.fail))
      = some (bytes "*true**", false) ∧
    (vformat_to [] (123 :: 58 :: bytes "*^7q" ++ [125])
        [format_arg.c_str 4096 (bytes "abc")]).map (fun r => (r.1, r.2.fail))
      = some (bytes "**abc**", false) :=
  have hwf : (spec_fields.mk (some 42) (some 94) none false false (some (bytes "7")) none
      (some 113)).well_formed := by
    refine ⟨?_, ?_, ?_, ?_, ?_, ?_⟩
    · intro c h; simp only [Option.some.injEq] at h; omega
    · intro f h; simp only [Option.some.injEq] at h; exact ⟨by omega, by simp⟩
    · intro c h; exact Option.noConfusion h
    · intro ds h
      simp only [Option.some.injEq] at h
      subst h
      refine ⟨by decide, by decide, by decide, fun _ => by decide⟩
    · intro ds h; exact Option.noConfusion h
    · intro t h
      simp only [Option.some.injEq] at h
      subst h
      exact ⟨by decide, by omega⟩
  ⟨(string_type_ignored [] (bytes "abc") _ true 4096 hwf (by decide) (by decide)).1,
   (string_type_ignored [] (bytes "abc") _ true 4096 hwf (by decide) (by decide)).2.1,
   (string_type_ignored [] (bytes "abc") _ true 4096 hwf (by decide) (by decide)).2.2
     (by decide)⟩

end univang.fmt.detail

namespace univang.fmt

open format_parse_context

/-! ### Replaying the parser on another continuation of the consumed text

Every function of the parser depends on the bytes it consumes and on at most one byte behind
them: on a view that begins with the same bytes and goes on with the same byte, it does the
same. -/

theorem running_cons (q : format_parse_context) (h : q.running) (x : Nat) (xs : List Nat)
    (e : q.rest = x :: xs) : q = q.at_rest (x :: xs) := by
  rw [← e]; exact running_eq_at_rest q h

theorem running_nil (q : format_parse_context) (h : q.running) (e : q.rest = []) :
    q = q.at_rest [] := by
  rw [← e]; exact running_eq_at_rest q h

theorem running_eof (q : format_parse_context) (h : q.running) :
    q.eof = decide (q.rest.length = 0) := h.1

namespace detail

/-- The expression `parser.eof() ? 0 : parser.front_char()` on a parser at a known view. -/
theorem front_or_zero_at_rest (p : format_parse_context) (t : List Nat) :
    front_or_zero (p.at_rest t) = some (t.head?.getD 0) := by
  cases t with
  | nil => exact front_or_zero_nil p
  | cons x xs => exact front_or_zero_cons p x xs

/-- The step `parser.advance(); c = ...` over the first byte of a known view. -/
theorem advance_front_at_rest (p : format_parse_context) (x : Nat) (t : List Nat) :
    advance_front (p.at_rest (x :: t)) 1 = some (p.at_rest t, t.head?.getD 0) := by
  unfold advance_front
  rw [advance_one]
  simp only []
  rw [front_or_zero_at_rest]

/-- The step `parser.advance_to(next + 1); c = ...` over the first two bytes of a known
view. -/
theorem advance_front_two_at_rest (p : format_parse_context) (x y : Nat) (t : List Nat) :
    advance_front (p.at_rest (x :: y :: t)) 2 = some (p.at_rest t, t.head?.getD 0) := by
  unfold advance_front
  rw [advance_two]
  simp only []
  rw [front_or_zero_at_rest]

/-- The digits that `parse_uint` reads behind the first byte. -/
theorem takeWhile_digits (r : List Nat) :
    (∀ c ∈ r.takeWhile (fun c => decide (48 ≤ c) && decide (c ≤ 57)), 48 ≤ c ∧ c ≤ 57) ∧
    (∀ c, (r.dropWhile (fun c => decide (48 ≤ c) && decide (c ≤ 57))).head? = some c →
        ¬ (48 ≤ c ∧ c ≤ 57)) := by
  constructor
  · intro c hc
    have := List.mem_takeWhile_imp hc
    simpa using this
  · intro c hc
    have := List.head?_dropWhile_not (fun c => decide (48 ≤ c) && decide (c ≤ 57)) r
    rw [hc] at this
    simpa using this

/-- Function `parse_uint` on a first byte followed by decimal digits and then by another byte
or by the end. -/
theorem parse_uint_text (p : format_parse_context) (d : Nat) (ds t : List Nat)
    (hd : ∀ c ∈ ds, 48 ≤ c ∧ c ≤ 57) (ht : ∀ c, t.head? = some c → ¬ (48 ≤ c ∧ c ≤ 57)) :
    parse_uint (p.at_rest (d :: ds ++ t))
      = some (ds.foldl (fun acc c => (acc * 10 + (c - 48)) % 2 ^ 32)
          ((d + 2 ^ 32 - 48) % 2 ^ 32), p.at_rest t) := by
  unfold parse_uint
  rw [List.cons_append, consume_char_cons]
  simp only [at_rest_rest]
  rw [parse_uint_loop_digits p ds t hd ht _ _ (by simp)]

/-- Function `parse_uint` on a running parser: it fails at the end of the view only, and
elsewhere it can be replayed. -/
theorem parse_uint_local (q q1 : format_parse_context) (v : Nat) (hq : q.running)
    (h : parse_uint q = some (v, q1)) :
    ∃ k t, k ≠ [] ∧ q.rest = k ++ t ∧ q1 = q.at_rest t ∧
      ∀ (p : format_parse_context) (T : List Nat), T.head? = t.head? →
        parse_uint (p.at_rest (k ++ T)) = some (v, p.at_rest T) := by
  cases hr : q.rest with
  | nil =>
    rw [running_nil q hq hr] at h
    simp [parse_uint, consume_char, at_rest] at h
  | cons d r =>
    obtain ⟨hd, ht⟩ := takeWhile_digits r
    have e := parse_uint_text q d _ _ hd ht
    rw [List.cons_append, List.takeWhile_append_dropWhile, ← running_cons q hq d r hr, h] at e
    simp only [Option.some.injEq, Prod.mk.injEq] at e
    refine ⟨d :: r.takeWhile (fun c => decide (48 ≤ c) && decide (c ≤ 57)),
      r.dropWhile (fun c => decide (48 ≤ c) && decide (c ≤ 57)), by simp, ?_, e.2, ?_⟩
    · rw [List.cons_append, List.takeWhile_append_dropWhile]
    · intro p T hT
      rw [parse_uint_text p d _ T hd (fun c hc => ht c (by rw [← hT]; exact hc)), e.1]

end detail

end univang.fmt

namespace univang.fmt

open format_parse_context

/-- Member `is_decimal_digit()` looks at the first byte of the view only. -/
theorem is_decimal_digit_head (p p1 : format_parse_context) (l l1 : List Nat)
    (h : l.head? = l1.head?) :
    (p.at_rest l).is_decimal_digit = (p1.at_rest l1).is_decimal_digit := by
  cases l with
  | nil =>
    cases l1 with
    | nil => rw [is_decimal_digit_nil, is_decimal_digit_nil]
    | cons y ys => exact Option.noConfusion h
  | cons x xs =>
    cases l1 with
    | nil => exact Option.noConfusion h
    | cons y ys =>
      simp only [List.head?_cons, Option.some.injEq] at h
      rw [is_decimal_digit_cons, is_decimal_digit_cons, h]

/-- Member `consume(c)` on a running parser. -/
theorem consume_running (q : format_parse_context) (hq : q.running) (c : Nat) :
    (∃ t, q.rest = c :: t ∧ q.consume c = (true, q.at_rest t)) ∨
      (q.rest.head? ≠ some c ∧ q.consume c = (false, q)) := by
  cases hr : q.rest with
  | nil =>
    refine Or.inr ⟨by simp, ?_⟩
    simp [format_parse_context.consume, hr]
  | cons x xs =>
    by_cases hx : x = c
    · refine Or.inl ⟨xs, by rw [hx], ?_⟩
      rw [running_cons q hq x xs hr, hx, consume_cons_eq]
      rfl
    · refine Or.inr ⟨by simpa using hx, ?_⟩
      have := consume_cons_ne q x c xs hx
      rw [← running_cons q hq x xs hr] at this
      exact this

/-- Member `consume(c)` fails on every view that does not begin with `c`. -/
theorem consume_head_ne (p : format_parse_context) (l : List Nat) (c : Nat)
    (h : l.head? ≠ some c) : (p.at_rest l).consume c = (false, p.at_rest l) := by
  cases l with
  | nil => exact consume_nil p c
  | cons x xs => exact consume_cons_ne p x c xs (fun e => h (by simp [e]))

namespace detail

/-- Function `parse_arg_ref` can be replayed. -/
theorem parse_arg_ref_local (q q1 : format_parse_context) (i : Nat) (hq : q.running)
    (h : parse_arg_ref q = some (i, q1)) (he : q1.err = none) :
    q1.running ∧ q1.args = q.args ∧ ∃ k, q.rest = k ++ q1.rest ∧
      ∀ T, T.head? = q1.rest.head? →
        parse_arg_ref (q.at_rest (k ++ T)) = some (i, q1.at_rest T) := by
  unfold parse_arg_ref at h
  by_cases hdg : q.is_decimal_digit = true
  · rw [if_pos hdg] at h
    cases hu : parse_uint q with
    | none => rw [hu] at h; exact Option.noConfusion h
    | some r =>
      obtain ⟨v, q2⟩ := r
      rw [hu] at h
      simp only [] at h
      obtain ⟨k, t, hk, hr, hq2, hrep⟩ := parse_uint_local q q2 v hq hu
      by_cases hc : (!q2.fail && decide (v ≥ q2.arg_count)) = true
      · rw [if_pos hc] at h
        simp only [Option.some.injEq, Prod.mk.injEq] at h
        rw [← h.2] at he
        exact Option.noConfusion he
      · rw [if_neg hc] at h
        simp only [Option.some.injEq, Prod.mk.injEq] at h
        obtain ⟨h1, h2⟩ := h
        subst h1 h2
        rw [hq2] at hc ⊢
        refine ⟨running_at_rest q t hq.2, rfl, k, hr, ?_⟩
        intro T hT
        rw [at_rest_rest] at hT
        unfold parse_arg_ref
        have hdg2 : (q.at_rest (k ++ T)).is_decimal_digit = true := by
          rw [← hdg, running_eq_at_rest q hq, at_rest_at_rest]
          apply is_decimal_digit_head
          rw [hr]
          obtain ⟨d, ds, rfl⟩ := List.exists_cons_of_ne_nil hk
          rfl
        rw [if_pos hdg2, hrep q T hT]
        simp only []
        have hc2 : ¬ ((!(q.at_rest T).fail && decide (v ≥ (q.at_rest T).arg_count)) = true) := hc
        rw [if_neg hc2]
        rfl
  · rw [if_neg hdg] at h
    simp only [] at h
    by_cases hc : (!q.next_arg.2.fail && decide (q.next_arg.1 ≥ q.next_arg.2.arg_count)) = true
    · rw [if_pos hc] at h
      simp only [Option.some.injEq, Prod.mk.injEq] at h
      rw [← h.2] at he
      exact Option.noConfusion he
    · rw [if_neg hc] at h
      simp only [Option.some.injEq, Prod.mk.injEq] at h
      obtain ⟨h1, h2⟩ := h
      subst h1 h2
      refine ⟨⟨hq.1, hq.2⟩, rfl, [], rfl, ?_⟩
      intro T hT
      unfold parse_arg_ref
      have hdg2 : (q.at_rest ([] ++ T)).is_decimal_digit = q.is_decimal_digit := by
        conv_rhs => rw [running_eq_at_rest q hq]
        apply is_decimal_digit_head
        exact hT
      rw [hdg2, if_neg hdg]
      simp only []
      have hc2 : ¬ ((!(q.at_rest ([] ++ T)).next_arg.2.fail &&
          decide ((q.at_rest ([] ++ T)).next_arg.1 ≥ (q.at_rest ([] ++ T)).next_arg.2.arg_count))
          = true) := hc
      rw [if_neg hc2]
      rfl

end detail

end univang.fmt

namespace univang.fmt.detail

open format_parse_context

/-- Function `parse_uint_spec_arg`, when it returns true, can be replayed. -/
theorem parse_uint_spec_arg_local (q q1 : format_parse_context) (result v : Nat)
    (hq : q.running) (h : parse_uint_spec_arg q result = some (true, v, q1)) :
    q1.running ∧ q1.args = q.args ∧ ∃ k, k ≠ [] ∧ q.rest = k ++ q1.rest ∧
      ∀ T, T.head? = q1.rest.head? →
        parse_uint_spec_arg (q.at_rest (k ++ T)) result = some (true, v, q1.at_rest T) := by
  unfold parse_uint_spec_arg at h
  rcases consume_running q hq 123 with ⟨t, hr, hcons⟩ | ⟨hne, hcons⟩
  · rw [hcons] at h
    simp only [Bool.not_true, Bool.false_eq_true, if_false] at h
    cases hp : parse_arg_ref (q.at_rest t) with
    | none => rw [hp] at h; exact Option.noConfusion h
    | some r =>
      obtain ⟨i, q2⟩ := r
      rw [hp] at h
      simp only [] at h
      by_cases hf : (!q2.fail) = true
      · rw [if_pos hf] at h
        have he2 : q2.err = none := by
          simp only [format_parse_context.fail, Bool.not_eq_true'] at hf
          cases he : q2.err with
          | none => rfl
          | some m => rw [he] at hf; exact Bool.noConfusion hf
        obtain ⟨hq2, ha2, k2, hk2, hrep2⟩ :=
          parse_arg_ref_local (q.at_rest t) q2 i (running_at_rest q t hq.2) hp he2
        rw [at_rest_rest] at hk2
        rcases consume_running q2 hq2 125 with ⟨t3, hr3, hcons3⟩ | ⟨hne3, hcons3⟩
        · rw [hcons3] at h
          simp only [Bool.not_true, Bool.false_eq_true, if_false] at h
          cases hg : (q2.at_rest t3).get_arg i with
          | none => rw [hg] at h; exact Option.noConfusion h
          | some arg =>
            rw [hg] at h
            simp only [] at h
            cases hi : int_handler arg with
            | none => rw [hi] at h; exact Option.noConfusion h
            | some iv =>
              rw [hi] at h
              simp only [] at h
              by_cases hneg : iv < 0
              · rw [if_pos hneg] at h
                simp only [format_parse_context.fail, format_parse_context.on_error,
                  Option.isSome_some, Bool.not_true, Option.some.injEq, Prod.mk.injEq] at h
                exact absurd h.1 (by decide)
              · rw [if_neg hneg] at h
                simp only [Option.some.injEq, Prod.mk.injEq] at h
                obtain ⟨_, h2, h3⟩ := h
                subst h2 h3
                refine ⟨running_at_rest q2 t3 he2, ha2, 123 :: k2 ++ [125], by simp, ?_, ?_⟩
                · rw [hr, hk2, hr3, at_rest_rest]
                  simp
                · intro T _
                  have e1 : q.at_rest (123 :: k2 ++ [125] ++ T)
                      = q.at_rest (123 :: (k2 ++ 125 :: T)) := by simp
                  unfold parse_uint_spec_arg
                  rw [e1, consume_cons_eq]
                  simp only [Bool.not_true, Bool.false_eq_true, if_false]
                  have e2 := hrep2 (125 :: T) (by rw [hr3]; rfl)
                  rw [at_rest_at_rest] at e2
                  rw [e2]
                  simp only []
                  have hf2 : (!(q2.at_rest (125 :: T)).fail) = true := hf
                  rw [if_pos hf2, consume_cons_eq]
                  simp only [Bool.not_true, Bool.false_eq_true, if_false]
                  have hg2 : (q2.at_rest T).get_arg i = some arg := hg
                  rw [hg2]
                  simp only []
                  rw [hi]
                  simp only []
                  rw [if_neg hneg]
                  have hf3 : (!(q2.at_rest T).fail) = true := hf
                  rw [hf3]
                  rfl
        · rw [hcons3] at h
          simp only [Bool.not_false, if_true, format_parse_context.fail,
            format_parse_context.on_error, Option.isSome_some, Bool.not_true,
            Option.some.injEq, Prod.mk.injEq] at h
          exact absurd h.1 (by decide)
      · rw [if_neg hf] at h
        simp only [Option.some.injEq, Prod.mk.injEq] at h
        exact absurd h.1 hf
  · rw [hcons] at h
    simp only [Bool.not_false, if_true] at h
    cases hu : parse_uint q with
    | none => rw [hu] at h; exact Option.noConfusion h
    | some r =>
      obtain ⟨v2, q2⟩ := r
      rw [hu] at h
      simp only [Option.some.injEq, Prod.mk.injEq] at h
      obtain ⟨h1, h2, h3⟩ := h
      subst h2 h3
      obtain ⟨k, t, hk, hr, hq2, hrep⟩ := parse_uint_local q q2 v2 hq hu
      subst hq2
      refine ⟨running_at_rest q t hq.2, rfl, k, hk, hr, ?_⟩
      intro T hT
      rw [at_rest_rest] at hT
      unfold parse_uint_spec_arg
      have hne2 : (k ++ T).head? ≠ some 123 := by
        rw [hr] at hne
        obtain ⟨d, ds, rfl⟩ := List.exists_cons_of_ne_nil hk
        exact hne
      rw [consume_head_ne q (k ++ T) 123 hne2]
      simp only [Bool.not_false, if_true]
      rw [hrep q T hT]
      simp only []
      have hf3 : (!(q.at_rest T).fail) = true := h1
      rw [hf3]
      rfl


open format_parse_context

/-- A block of `parse_format_spec` that takes one byte when `c` has a property `P` can be
replayed on every view that goes on with the same byte. -/
theorem flag_local (P : Nat → Prop) [DecidablePred P] (upd : format_spec → Nat → format_spec)
    (S : format_spec → format_parse_context → Nat →
      Option (format_spec × format_parse_context × Nat))
    (hS : ∀ spec q c, S spec q c
      = if P c then
          (match advance_front q 1 with
           | none => none
           | some (parser, c1) => some (upd spec c, parser, c1))
        else some (spec, q, c))
    (spec spec1 : format_spec) (q q1 : format_parse_context) (c c1 : Nat) (hq : q.running)
    (hc : c = q.rest.head?.getD 0) (h : S spec q c = some (spec1, q1, c1)) :
    q1.running ∧ c1 = q1.rest.head?.getD 0 ∧ ∃ k, q.rest = k ++ q1.rest ∧
      ∀ T, T.head? = q1.rest.head? →
        S spec (q.at_rest (k ++ T)) ((k ++ T).head?.getD 0)
          = some (spec1, q1.at_rest T, T.head?.getD 0) := by
  rw [hS] at h
  by_cases hP : P c
  · rw [if_pos hP] at h
    cases hr : q.rest with
    | nil =>
      rw [running_nil q hq hr] at h
      simp [advance_front, advance_nil] at h
    | cons x xs =>
      rw [running_cons q hq x xs hr, advance_front_at_rest] at h
      simp only [Option.some.injEq, Prod.mk.injEq] at h
      obtain ⟨h1, h2, h3⟩ := h
      subst h1 h2 h3
      have hcx : c = x := by rw [hc, hr]; rfl
      refine ⟨running_at_rest q xs hq.2, rfl, [x], rfl, ?_⟩
      intro T _
      rw [hS]
      have e : ([x] ++ T).head?.getD 0 = c := by rw [hcx]; rfl
      rw [e, if_pos hP]
      have e2 : q.at_rest ([x] ++ T) = q.at_rest (x :: T) := rfl
      rw [e2, advance_front_at_rest]
      rfl
  · rw [if_neg hP] at h
    simp only [Option.some.injEq, Prod.mk.injEq] at h
    obtain ⟨h1, h2, h3⟩ := h
    subst h1 h2 h3
    refine ⟨hq, hc, [], rfl, ?_⟩
    intro T hT
    rw [hS]
    have e : ([] ++ T).head?.getD 0 = c := by rw [hc, ← hT]; rfl
    rw [e, if_neg hP]
    simp only [List.nil_append] at e ⊢
    rw [e]

/-- A block that can be replayed, followed by a rest of `parse_format_spec` that can be
replayed whatever follows, can be replayed whatever follows. -/
theorem compose_local
    (S : format_spec → format_parse_context → Nat →
      Option (format_spec × format_parse_context × Nat))
    (F G : format_spec → format_parse_context → Nat →
      Option (Bool × format_spec × format_parse_context))
    (hG : ∀ spec q c, G spec q c
      = match S spec q c with
        | none => none
        | some (s, p, c) => F s p c)
    (hS : ∀ (spec spec1 : format_spec) (q q1 : format_parse_context) (c c1 : Nat),
      q.running → c = q.rest.head?.getD 0 → S spec q c = some (spec1, q1, c1) →
      q1.running ∧ c1 = q1.rest.head?.getD 0 ∧ ∃ k, q.rest = k ++ q1.rest ∧
        ∀ T, T.head? = q1.rest.head? →
          S spec (q.at_rest (k ++ T)) ((k ++ T).head?.getD 0)
            = some (spec1, q1.at_rest T, T.head?.getD 0))
    (hF : ∀ (spec spec1 : format_spec) (q q1 : format_parse_context) (c : Nat),
      q.running → c = q.rest.head?.getD 0 → F spec q c = some (true, spec1, q1) →
      q1.running ∧ ∃ k, k ≠ [] ∧ k.getLast? = some 125 ∧ q.rest = k ++ q1.rest ∧
        ∀ T, F spec (q.at_rest (k ++ T)) c = some (true, spec1, q1.at_rest T))
    (spec spec1 : format_spec) (q q1 : format_parse_context) (c : Nat)
    (hq : q.running) (hc : c = q.rest.head?.getD 0) (h : G spec q c = some (true, spec1, q1)) :
    q1.running ∧ ∃ k, k ≠ [] ∧ k.getLast? = some 125 ∧ q.rest = k ++ q1.rest ∧
      ∀ T, G spec (q.at_rest (k ++ T)) c = some (true, spec1, q1.at_rest T) := by
  rw [hG] at h
  cases hs : S spec q c with
  | none => rw [hs] at h; exact Option.noConfusion h
  | some r =>
    obtain ⟨s2, q2, c2⟩ := r
    rw [hs] at h
    simp only [] at h
    obtain ⟨hq2, hc2, k1, hk1, hrep1⟩ := hS spec s2 q q2 c c2 hq hc hs
    obtain ⟨hq1, k2, hk2, hl2, hr2, hrep2⟩ := hF s2 spec1 q2 q1 c2 hq2 hc2 h
    obtain ⟨d, ds, hd⟩ := List.exists_cons_of_ne_nil hk2
    refine ⟨hq1, k1 ++ k2, by simp [hk2], by rw [List.getLast?_append_of_ne_nil k1 hk2, hl2],
      by rw [hk1, hr2, List.append_assoc], ?_⟩
    intro T
    rw [hG]
    have e1 := hrep1 (k2 ++ T) (by rw [hr2, hd]; rfl)
    have e2 : ((k1 ++ (k2 ++ T)).head?.getD 0) = c := by
      rw [hc, hk1, hr2, hd]
      cases k1 <;> rfl
    have e3 : (k2 ++ T).head?.getD 0 = c2 := by
      rw [hc2, hr2, hd]; rfl
    rw [e2, e3] at e1
    rw [List.append_assoc, e1]
    simp only []
    exact hrep2 T


open format_parse_context

/-- The expression `parser.eof() ? 0 : parser.front_char()` on a running parser. -/
theorem front_or_zero_running (q : format_parse_context) (hq : q.running) :
    front_or_zero q = some (q.rest.head?.getD 0) := by
  have := front_or_zero_at_rest q q.rest
  rw [← running_eq_at_rest q hq] at this
  exact this

/-- Member `front_char()` on a running parser. -/
theorem front_char_running (q : format_parse_context) (hq : q.running) (c : Nat)
    (h : q.front_char = some c) : q.rest.head? = some c := by
  unfold format_parse_context.front_char at h
  by_cases he : q.eof = true
  · rw [if_pos he] at h; exact Option.noConfusion h
  · rw [if_neg he] at h; exact h

/-- The end of `parse_format_spec`, when it returns true, can be replayed whatever follows. -/
theorem close_local (spec spec1 : format_spec) (q q1 : format_parse_context) (c : Nat)
    (hq : q.running) (hc : c = q.rest.head?.getD 0)
    (h : parse_format_spec_close spec q c = some (true, spec1, q1)) :
    q1.running ∧ ∃ k, k ≠ [] ∧ k.getLast? = some 125 ∧ q.rest = k ++ q1.rest ∧
      ∀ T, parse_format_spec_close spec (q.at_rest (k ++ T)) c
        = some (true, spec1, q1.at_rest T) := by
  unfold parse_format_spec_close at h
  by_cases h125 : c ≠ 125
  · rw [if_pos h125] at h
    simp only [Option.some.injEq, Prod.mk.injEq] at h
    exact absurd h.1 (by decide)
  · rw [if_neg h125] at h
    cases hr : q.rest with
    | nil =>
      rw [running_nil q hq hr, advance_nil] at h
      exact Option.noConfusion h
    | cons x xs =>
      rw [running_cons q hq x xs hr, advance_one] at h
      simp only [Option.some.injEq, Prod.mk.injEq, true_and] at h
      obtain ⟨h1, h2⟩ := h
      subst h1 h2
      have hx : x = 125 := by
        have : c = x := by rw [hc, hr]; rfl
        rw [← this]
        exact not_not.1 h125
      refine ⟨running_at_rest q xs hq.2, [x], by simp, by rw [hx]; rfl, rfl, ?_⟩
      intro T
      unfold parse_format_spec_close
      rw [if_neg h125]
      have e2 : q.at_rest ([x] ++ T) = q.at_rest (x :: T) := rfl
      rw [e2, advance_one]
      rfl

/-- The type block can be replayed. -/
theorem type_local (spec spec1 : format_spec) (q q1 : format_parse_context) (c c1 : Nat)
    (hq : q.running) (hc : c = q.rest.head?.getD 0)
    (h : parse_format_spec_type spec q c = some (spec1, q1, c1)) :
    q1.running ∧ c1 = q1.rest.head?.getD 0 ∧ ∃ k, q.rest = k ++ q1.rest ∧
      ∀ T, T.head? = q1.rest.head? →
        parse_format_spec_type spec (q.at_rest (k ++ T)) ((k ++ T).head?.getD 0)
          = some (spec1, q1.at_rest T, T.head?.getD 0) :=
  flag_local (fun c => c ≠ 125) (fun spec c => { spec with type := c }) parse_format_spec_type
    (fun _ _ _ => rfl) spec spec1 q q1 c c1 hq hc h

/-- The sign block can be replayed. -/
theorem sign_local (spec spec1 : format_spec) (q q1 : format_parse_context) (c c1 : Nat)
    (hq : q.running) (hc : c = q.rest.head?.getD 0)
    (h : parse_format_spec_sign spec q c = some (spec1, q1, c1)) :
    q1.running ∧ c1 = q1.rest.head?.getD 0 ∧ ∃ k, q.rest = k ++ q1.rest ∧
      ∀ T, T.head? = q1.rest.head? →
        parse_format_spec_sign spec (q.at_rest (k ++ T)) ((k ++ T).head?.getD 0)
          = some (spec1, q1.at_rest T, T.head?.getD 0) :=
  flag_local (fun c => c = 43 ∨ c = 45 ∨ c = 32) (fun spec c => { spec with sign := c })
    parse_format_spec_sign (fun _ _ _ => rfl) spec spec1 q q1 c c1 hq hc h

/-- The `'#'` block can be replayed. -/
theorem alt_local (spec spec1 : format_spec) (q q1 : format_parse_context) (c c1 : Nat)
    (hq : q.running) (hc : c = q.rest.head?.getD 0)
    (h : parse_format_spec_alt spec q c = some (spec1, q1, c1)) :
    q1.running ∧ c1 = q1.rest.head?.getD 0 ∧ ∃ k, q.rest = k ++ q1.rest ∧
      ∀ T, T.head? = q1.rest.head? →
        parse_format_spec_alt spec (q.at_rest (k ++ T)) ((k ++ T).head?.getD 0)
          = some (spec1, q1.at_rest T, T.head?.getD 0) :=
  flag_local (fun c => c = 35) (fun spec c => { spec with alt := c })
    parse_format_spec_alt (fun _ _ _ => rfl) spec spec1 q q1 c c1 hq hc h

/-- The `'0'` block can be replayed. -/
theorem zero_local (spec spec1 : format_spec) (q q1 : format_parse_context) (c c1 : Nat)
    (hq : q.running) (hc : c = q.rest.head?.getD 0)
    (h : parse_format_spec_zero spec q c = some (spec1, q1, c1)) :
    q1.running ∧ c1 = q1.rest.head?.getD 0 ∧ ∃ k, q.rest = k ++ q1.rest ∧
      ∀ T, T.head? = q1.rest.head? →
        parse_format_spec_zero spec (q.at_rest (k ++ T)) ((k ++ T).head?.getD 0)
          = some (spec1, q1.at_rest T, T.head?.getD 0) :=
  flag_local (fun c => c = 48) (fun spec _ => { spec with fill := 48, align := 61 })
    parse_format_spec_zero (fun _ _ _ => rfl) spec spec1 q q1 c c1 hq hc h

/-- The part of `parse_format_spec` from the type block on, when it returns true, can be
replayed whatever follows. -/
theorem from_type_local (spec spec1 : format_spec) (q q1 : format_parse_context) (c : Nat)
    (hq : q.running) (hc : c = q.rest.head?.getD 0)
    (h : parse_format_spec_from_type spec q c = some (true, spec1, q1)) :
    q1.running ∧ ∃ k, k ≠ [] ∧ k.getLast? = some 125 ∧ q.rest = k ++ q1.rest ∧
      ∀ T, parse_format_spec_from_type spec (q.at_rest (k ++ T)) c
        = some (true, spec1, q1.at_rest T) :=
  compose_local parse_format_spec_type parse_format_spec_close parse_format_spec_from_type
    (fun _ _ _ => rfl) type_local close_local spec spec1 q q1 c hq hc h


open format_parse_context

/-- A block that may return false and can be replayed when it does not, followed by a rest of
`parse_format_spec` that can be replayed whatever follows, can be replayed whatever
follows. -/
theorem compose_ok_local
    (S : format_spec → format_parse_context → Nat →
      Option (Bool × format_spec × format_parse_context × Nat))
    (F G : format_spec → format_parse_context → Nat →
      Option (Bool × format_spec × format_parse_context))
    (hG : ∀ spec q c, G spec q c
      = match S spec q c with
        | none => none
        | some (false, s, p, _) => some (false, s, p)
        | some (true, s, p, c) => F s p c)
    (hS : ∀ (spec spec1 : format_spec) (q q1 : format_parse_context) (c c1 : Nat),
      q.running → c = q.rest.head?.getD 0 → S spec q c = some (true, spec1, q1, c1) →
      q1.running ∧ c1 = q1.rest.head?.getD 0 ∧ ∃ k, q.rest = k ++ q1.rest ∧
        ∀ T, T.head? = q1.rest.head? →
          S spec (q.at_rest (k ++ T)) ((k ++ T).head?.getD 0)
            = some (true, spec1, q1.at_rest T, T.head?.getD 0))
    (hF : ∀ (spec spec1 : format_spec) (q q1 : format_parse_context) (c : Nat),
      q.running → c = q.rest.head?.getD 0 → F spec q c = some (true, spec1, q1) →
      q1.running ∧ ∃ k, k ≠ [] ∧ k.getLast? = some 125 ∧ q.rest = k ++ q1.rest ∧
        ∀ T, F spec (q.at_rest (k ++ T)) c = some (true, spec1, q1.at_rest T))
    (spec spec1 : format_spec) (q q1 : format_parse_context) (c : Nat)
    (hq : q.running) (hc : c = q.rest.head?.getD 0) (h : G spec q c = some (true, spec1, q1)) :
    q1.running ∧ ∃ k, k ≠ [] ∧ k.getLast? = some 125 ∧ q.rest = k ++ q1.rest ∧
      ∀ T, G spec (q.at_rest (k ++ T)) c = some (true, spec1, q1.at_rest T) := by
  rw [hG] at h
  cases hs : S spec q c with
  | none => rw [hs] at h; exact Option.noConfusion h
  | some r =>
    obtain ⟨b, s2, q2, c2⟩ := r
    rw [hs] at h
    cases b with
    | false =>
      simp only [Option.some.injEq, Prod.mk.injEq] at h
      exact absurd h.1 (by decide)
    | true =>
      simp only [] at h
      obtain ⟨hq2, hc2, k1, hk1, hrep1⟩ := hS spec s2 q q2 c c2 hq hc hs
      obtain ⟨hq1, k2, hk2, hl2, hr2, hrep2⟩ := hF s2 spec1 q2 q1 c2 hq2 hc2 h
      obtain ⟨d, ds, hd⟩ := List.exists_cons_of_ne_nil hk2
      refine ⟨hq1, k1 ++ k2, by simp [hk2], by rw [List.getLast?_append_of_ne_nil k1 hk2, hl2],
      by rw [hk1, hr2, List.append_assoc], ?_⟩
      intro T
      rw [hG]
      have e1 := hrep1 (k2 ++ T) (by rw [hr2, hd]; rfl)
      have e2 : ((k1 ++ (k2 ++ T)).head?.getD 0) = c := by
        rw [hc, hk1, hr2, hd]
        cases k1 <;> rfl
      have e3 : (k2 ++ T).head?.getD 0 = c2 := by
        rw [hc2, hr2, hd]; rfl
      rw [e2, e3] at e1
      rw [List.append_assoc, e1]
      simp only []
      exact hrep2 T

/-- The width block, when it does not return false, can be replayed. -/
theorem width_local (spec spec1 : format_spec) (q q1 : format_parse_context) (c c1 : Nat)
    (hq : q.running) (hc : c = q.rest.head?.getD 0)
    (h : parse_format_spec_width spec q c = some (true, spec1, q1, c1)) :
    q1.running ∧ c1 = q1.rest.head?.getD 0 ∧ ∃ k, q.rest = k ++ q1.rest ∧
      ∀ T, T.head? = q1.rest.head? →
        parse_format_spec_width spec (q.at_rest (k ++ T)) ((k ++ T).head?.getD 0)
          = some (true, spec1, q1.at_rest T, T.head?.getD 0) := by
  unfold parse_format_spec_width at h
  by_cases ht : c = 123 ∨ (48 ≤ c ∧ c ≤ 57)
  · rw [if_pos ht] at h
    cases hu : parse_uint_spec_arg q spec.width with
    | none => rw [hu] at h; exact Option.noConfusion h
    | some r =>
      obtain ⟨ok, w, q2⟩ := r
      rw [hu] at h
      simp only [] at h
      cases ok with
      | false =>
        simp only [Bool.not_false, if_true, Option.some.injEq, Prod.mk.injEq] at h
        exact absurd h.1 (by decide)
      | true =>
        simp only [Bool.not_true, Bool.false_eq_true, if_false] at h
        obtain ⟨hq2, _, k, hk, hr, hrep⟩ := parse_uint_spec_arg_local q q2 spec.width w hq hu
        rw [front_or_zero_running q2 hq2] at h
        simp only [Option.some.injEq, Prod.mk.injEq, true_and] at h
        obtain ⟨h1, h2, h3⟩ := h
        subst h1 h2 h3
        refine ⟨hq2, rfl, k, hr, ?_⟩
        intro T hT
        have e : (k ++ T).head?.getD 0 = c := by
          rw [hc, hr]
          obtain ⟨d, ds, rfl⟩ := List.exists_cons_of_ne_nil hk
          rfl
        unfold parse_format_spec_width
        rw [e, if_pos ht, hrep T hT]
        simp only [Bool.not_true, Bool.false_eq_true, if_false]
        rw [front_or_zero_at_rest]
  · rw [if_neg ht] at h
    simp only [Option.some.injEq, Prod.mk.injEq, true_and] at h
    obtain ⟨h1, h2, h3⟩ := h
    subst h1 h2 h3
    refine ⟨hq, hc, [], rfl, ?_⟩
    intro T hT
    have e : ([] ++ T).head?.getD 0 = c := by rw [hc, ← hT]; rfl
    unfold parse_format_spec_width
    rw [e, if_neg ht]
    simp only [List.nil_append] at e ⊢
    rw [e]

/-- The precision block, when it does not return false, can be replayed. -/
theorem precision_local (spec spec1 : format_spec) (q q1 : format_parse_context) (c c1 : Nat)
    (hq : q.running) (hc : c = q.rest.head?.getD 0)
    (h : parse_format_spec_precision spec q c = some (true, spec1, q1, c1)) :
    q1.running ∧ c1 = q1.rest.head?.getD 0 ∧ ∃ k, q.rest = k ++ q1.rest ∧
      ∀ T, T.head? = q1.rest.head? →
        parse_format_spec_precision spec (q.at_rest (k ++ T)) ((k ++ T).head?.getD 0)
          = some (true, spec1, q1.at_rest T, T.head?.getD 0) := by
  unfold parse_format_spec_precision at h
  by_cases ht : c = 46
  · rw [if_pos ht] at h
    cases hr : q.rest with
    | nil =>
      rw [running_nil q hq hr] at h
      simp [advance_front, advance_nil] at h
    | cons x xs =>
      have hx : x = 46 := by rw [← ht, hc, hr]; rfl
      rw [running_cons q hq x xs hr, advance_front_at_rest] at h
      simp only [] at h
      by_cases hd : xs.head?.getD 0 = 123 ∨ (48 ≤ xs.head?.getD 0 ∧ xs.head?.getD 0 ≤ 57)
      · rw [if_pos hd] at h
        cases hu : parse_uint_spec_arg (q.at_rest xs) spec.precision with
        | none => rw [hu] at h; exact Option.noConfusion h
        | some r =>
          obtain ⟨ok, w, q2⟩ := r
          rw [hu] at h
          simp only [] at h
          cases ok with
          | false =>
            simp only [Bool.not_false, if_true, Option.some.injEq, Prod.mk.injEq] at h
            exact absurd h.1 (by decide)
          | true =>
            simp only [Bool.not_true, Bool.false_eq_true, if_false] at h
            obtain ⟨hq2, _, k, hk, hr2, hrep⟩ :=
              parse_uint_spec_arg_local (q.at_rest xs) q2 spec.precision w
                (running_at_rest q xs hq.2) hu
            rw [at_rest_rest] at hr2
            cases hf : q2.front_char with
            | none => rw [hf] at h; exact Option.noConfusion h
            | some c2 =>
              rw [hf] at h
              simp only [Option.some.injEq, Prod.mk.injEq, true_and] at h
              obtain ⟨h1, h2, h3⟩ := h
              subst h1 h2 h3
              have hhead := front_char_running q2 hq2 c2 hf
              refine ⟨hq2, by rw [hhead]; rfl, x :: k, by rw [hr2]; rfl, ?_⟩
              intro T hT
              have e : (x :: k ++ T).head?.getD 0 = c := by rw [ht, hx]; rfl
              unfold parse_format_spec_precision
              rw [e, if_pos ht, List.cons_append, advance_front_at_rest]
              simp only []
              have e3 : (k ++ T).head?.getD 0 = xs.head?.getD 0 := by
                rw [hr2]
                obtain ⟨d, ds, rfl⟩ := List.exists_cons_of_ne_nil hk
                rfl
              rw [e3, if_pos hd]
              have e4 := hrep T hT
              rw [at_rest_at_rest] at e4
              rw [e4]
              simp only [Bool.not_true, Bool.false_eq_true, if_false]
              have hf2 : (q2.at_rest T).front_char = some c2 := by
                rw [hhead] at hT
                obtain ⟨y, ys, rfl⟩ : ∃ y ys, T = y :: ys := by
                  cases T with
                  | nil => exact Option.noConfusion hT
                  | cons y ys => exact ⟨y, ys, rfl⟩
                simp only [List.head?_cons, Option.some.injEq] at hT
                rw [front_char_cons, hT]
              rw [hf2, hT, hhead]
              rfl
      · rw [if_neg hd] at h
        simp only [Option.some.injEq, Prod.mk.injEq, true_and] at h
        obtain ⟨h1, h2, h3⟩ := h
        subst h1 h2 h3
        refine ⟨running_at_rest q xs hq.2, rfl, [x], rfl, ?_⟩
        intro T hT
        rw [at_rest_rest] at hT
        have e : ([x] ++ T).head?.getD 0 = c := by rw [ht, hx]; rfl
        unfold parse_format_spec_precision
        rw [e, if_pos ht]
        have e2 : q.at_rest ([x] ++ T) = q.at_rest (x :: T) := rfl
        rw [e2, advance_front_at_rest]
        simp only []
        rw [hT, if_neg hd]
        rfl
  · rw [if_neg ht] at h
    simp only [Option.some.injEq, Prod.mk.injEq, true_and] at h
    obtain ⟨h1, h2, h3⟩ := h
    subst h1 h2 h3
    refine ⟨hq, hc, [], rfl, ?_⟩
    intro T hT
    have e : ([] ++ T).head?.getD 0 = c := by rw [hc, ← hT]; rfl
    unfold parse_format_spec_precision
    rw [e, if_neg ht]
    simp only [List.nil_append] at e ⊢
    rw [e]

/-- The part of `parse_format_spec` from the sign block on, when it returns true, can be
replayed whatever follows. -/
theorem from_sign_local (spec spec1 : format_spec) (q q1 : format_parse_context) (c : Nat)
    (hq : q.running) (hc : c = q.rest.head?.getD 0)
    (h : parse_format_spec_from_sign spec q c = some (true, spec1, q1)) :
    q1.running ∧ ∃ k, k ≠ [] ∧ k.getLast? = some 125 ∧ q.rest = k ++ q1.rest ∧
      ∀ T, parse_format_spec_from_sign spec (q.at_rest (k ++ T)) c
        = some (true, spec1, q1.at_rest T) :=
  compose_local parse_format_spec_sign parse_format_spec_from_alt parse_format_spec_from_sign
    (fun _ _ _ => rfl) sign_local
    (compose_local parse_format_spec_alt parse_format_spec_from_zero parse_format_spec_from_alt
      (fun _ _ _ => rfl) alt_local
      (compose_local parse_format_spec_zero parse_format_spec_from_width
        parse_format_spec_from_zero (fun _ _ _ => rfl) zero_local
        (compose_ok_local parse_format_spec_width parse_format_spec_from_precision
          parse_format_spec_from_width (fun _ _ _ => rfl) width_local
          (compose_ok_local parse_format_spec_precision parse_format_spec_from_type
            parse_format_spec_from_precision (fun _ _ _ => rfl) precision_local
            from_type_local))))
    spec spec1 q q1 c hq hc h


open format_parse_context

/-- Function `parse_format_spec`, when it returns true on a view that does not begin with the
closing brace, can be replayed whatever follows the bytes it has consumed. -/
theorem parse_format_spec_local (spec spec1 : format_spec) (q q1 : format_parse_context)
    (hq : q.running) (hne : q.rest.head? ≠ some 125)
    (h : parse_format_spec q spec = some (true, spec1, q1)) :
    q1.running ∧ ∃ k, k ≠ [] ∧ q.rest = k ++ q1.rest ∧
      ∀ T, parse_format_spec (q.at_rest (k ++ T)) spec = some (true, spec1, q1.at_rest T) := by
  cases hr : q.rest with
  | nil =>
    rw [running_nil q hq hr] at h
    unfold parse_format_spec at h
    rw [at_rest_eof_nil] at h
    simp only [if_true, Option.some.injEq, Prod.mk.injEq] at h
    exact absurd h.1 (by decide)
  | cons x xs =>
    have hx : x ≠ 125 := fun e => hne (by rw [hr, e]; rfl)
    rw [running_cons q hq x xs hr] at h
    unfold parse_format_spec at h
    rw [at_rest_eof_cons] at h
    simp only [Bool.false_eq_true, if_false] at h
    -- the replay of the whole function from the replay of its two parts
    have hfin : ∀ (s2 : format_spec) (k0 rest2 : List Nat) (c2 : Nat),
        x :: xs = k0 ++ rest2 → c2 = rest2.head?.getD 0 →
        parse_format_spec_from_sign s2 (q.at_rest rest2) c2 = some (true, spec1, q1) →
        (∀ t, t ≠ [] → t.head? = rest2.head? → (k0 = [] → t.get? 1 = rest2.get? 1) →
          parse_format_spec_align (q.at_rest (k0 ++ t)) spec
            = some (true, s2, q.at_rest t, c2)) →
        q1.running ∧ ∃ k, k ≠ [] ∧ x :: xs = k ++ q1.rest ∧
          ∀ T, parse_format_spec (q.at_rest (k ++ T)) spec
            = some (true, spec1, q1.at_rest T) := by
      intro s2 k0 rest2 c2 hk0 hc2 hfs hal
      obtain ⟨hq1, k2, hk2, hl2, hr2, hrep2⟩ :=
        from_sign_local s2 spec1 (q.at_rest rest2) q1 c2 (running_at_rest q rest2 hq.2) hc2 hfs
      rw [at_rest_rest] at hr2
      obtain ⟨d, ds, hd⟩ := List.exists_cons_of_ne_nil hk2
      refine ⟨hq1, k0 ++ k2, by simp [hk2], by rw [hk0, hr2, List.append_assoc], ?_⟩
      intro T
      have hget : k0 = [] → (k2 ++ T).get? 1 = rest2.get? 1 := by
        intro hk0e
        rw [hk0e, List.nil_append] at hk0
        rw [hr2, hd]
        cases ds with
        | nil =>
          exfalso
          rw [hd] at hl2 hr2
          simp only [List.getLast?_singleton, Option.some.injEq] at hl2
          rw [hr2, hl2] at hk0
          simp only [List.singleton_append, List.cons.injEq] at hk0
          exact hx hk0.1
        | cons y ys => rfl
      have e1 := hal (k2 ++ T) (by simp [hk2]) (by rw [hr2, hd]; rfl) hget
      unfold parse_format_spec
      have hne2 : (q.at_rest (k0 ++ k2 ++ T)).eof = false := by
        cases k0 with
        | nil => rw [hd]; exact at_rest_eof_cons _ _ _
        | cons z zs => exact at_rest_eof_cons _ _ _
      rw [hne2]
      simp only [Bool.false_eq_true, if_false]
      rw [List.append_assoc, e1]
      simp only []
      have e2 := hrep2 T
      rw [at_rest_at_rest] at e2
      exact e2
    unfold parse_format_spec_align at h
    rw [front_char_cons, at_rest_rest] at h
    simp only [] at h
    cases xs with
    | nil =>
      simp only [List.get?_cons_succ, List.get?_nil, Bool.false_eq_true, if_false] at h
      by_cases hal : is_align x = true
      · rw [if_pos hal] at h
        simp only [advance_front_at_rest] at h
        have := (from_sign_local _ spec1 (q.at_rest []) q1 _ (running_at_rest q [] hq.2) rfl h)
        obtain ⟨_, k2, hk2, _, hr2, _⟩ := this
        rw [at_rest_rest] at hr2
        exact absurd (List.append_eq_nil.1 hr2.symm).1 hk2
      · rw [if_neg hal] at h
        simp only [] at h
        have := (from_sign_local _ spec1 (q.at_rest [x]) q1 _ (running_at_rest q [x] hq.2) rfl h)
        obtain ⟨_, k2, hk2, hl2, hr2, _⟩ := this
        rw [at_rest_rest] at hr2
        exfalso
        obtain ⟨d, ds, hd⟩ := List.exists_cons_of_ne_nil hk2
        rw [hd] at hr2 hl2
        simp only [List.cons_append, List.cons.injEq] at hr2
        have hds : ds = [] := (List.append_eq_nil.1 hr2.2.symm).1
        rw [hds] at hl2
        simp only [List.getLast?_singleton, Option.some.injEq] at hl2
        exact hx (by rw [hr2.1, hl2])
    | cons n ys =>
      simp only [List.get?_cons_succ, List.get?_cons_zero] at h
      by_cases hna : is_align n = true
      · rw [if_pos hna] at h
        by_cases hc : x = 123
        · rw [if_pos hc] at h
          simp only [Option.some.injEq, Prod.mk.injEq] at h
          exact absurd h.1 (by decide)
        · rw [if_neg hc] at h
          simp only [advance_front_two_at_rest, Option.getD_some] at h
          refine hfin _ [x, n] ys _ rfl rfl h ?_
          intro t ht hth _
          obtain ⟨y, t', rfl⟩ := List.exists_cons_of_ne_nil ht
          have e := align_fill q spec x n y t' hna hc
          have ey : ys.head?.getD 0 = y := by rw [← hth]; rfl
          rw [ey]
          exact e
      · rw [if_neg hna] at h
        by_cases hal : is_align x = true
        · rw [if_pos hal] at h
          simp only [advance_front_at_rest] at h
          refine hfin _ [x] (n :: ys) _ rfl rfl h ?_
          intro t ht hth _
          obtain ⟨y, t', rfl⟩ := List.exists_cons_of_ne_nil ht
          simp only [List.head?_cons, Option.some.injEq] at hth
          subst hth
          have hy : is_align y = false := by
            cases hb : is_align y with
            | false => rfl
            | true => exact absurd hb hna
          exact align_only q spec x y t' hal hy
        · rw [if_neg hal] at h
          simp only [] at h
          refine hfin _ [] (x :: n :: ys) _ rfl rfl h ?_
          intro t ht hth hget
          obtain ⟨y, t', rfl⟩ := List.exists_cons_of_ne_nil ht
          simp only [List.head?_cons, Option.some.injEq] at hth
          subst hth
          have hget2 := hget rfl
          simp only [List.get?_cons_succ, List.get?_cons_zero] at hget2
          obtain ⟨y2, t2, rfl⟩ : ∃ y2 t2, t' = y2 :: t2 := by
            cases t' with
            | nil => simp at hget2
            | cons y2 t2 => exact ⟨y2, t2, rfl⟩
          simp only [List.get?_cons_zero, Option.some.injEq] at hget2
          subst hget2
          have hy : is_align y = false := by
            cases hb : is_align y with
            | false => rfl
            | true => exact absurd hb hal
          have hy2 : is_align y2 = false := by
            cases hb : is_align y2 with
            | false => rfl
            | true => exact absurd hb hna
          exact align_absent q spec y y2 t2 hy hy2

end univang.fmt.detail

namespace univang.fmt

open format_parse_context

/-- Where `memchr` finds a byte, the byte stands, and it does not stand before. -/
theorem find_char_some (c : Nat) :
    ∀ (l : List Nat) (p : Nat), find_char c l = some p →
      ∃ lit r, l = lit ++ c :: r ∧ c ∉ lit ∧ lit.length = p := by
  intro l
  induction l with
  | nil => intro p h; exact Option.noConfusion h
  | cons x xs ih =>
    intro p h
    unfold find_char at h
    by_cases hx : x = c
    · rw [if_pos hx] at h
      simp only [Option.some.injEq] at h
      exact ⟨[], xs, by rw [hx]; rfl, by simp, by rw [← h]; rfl⟩
    · rw [if_neg hx] at h
      cases hf : find_char c xs with
      | none => rw [hf] at h; exact Option.noConfusion h
      | some p1 =>
        rw [hf] at h
        simp only [Option.map_some', Option.some.injEq] at h
        obtain ⟨lit, r, e, hn, hl⟩ := ih p1 hf
        refine ⟨x :: lit, r, by rw [e]; rfl, ?_, by rw [← h]; simp [hl]⟩
        intro hm
        simp only [List.mem_cons] at hm
        rcases hm with hm | hm
        · exact hx hm.symm
        · exact hn hm

/-- Where `memchr` finds nothing, the byte does not stand. -/
theorem find_char_eq_none (c : Nat) : ∀ l : List Nat, find_char c l = none → c ∉ l := by
  intro l
  induction l with
  | nil => intro _; simp
  | cons x xs ih =>
    intro h
    unfold find_char at h
    by_cases hx : x = c
    · rw [if_pos hx] at h; exact Option.noConfusion h
    · rw [if_neg hx] at h
      cases hf : find_char c xs with
      | none =>
        intro hm
        simp only [List.mem_cons] at hm
        rcases hm with hm | hm
        · exact hx hm.symm
        · exact ih hf hm
      | some p1 => rw [hf] at h; exact Option.noConfusion h

namespace detail

/-- The visitor `format_handler`, when it reports an error, has written nothing and leaves
the parser at `eof`. -/
theorem format_handler_error (out o : List Nat) (fmt q : format_parse_context)
    (spec : format_spec) (arg : format_arg) (h : format_handler out fmt spec arg = some (o, q))
    (hf : fmt.err = none) (hq : q.err ≠ none) : o = out ∧ q.eof = true := by
  have hint : ∀ r : Option (List Nat), format_int out fmt r = (o, q) → o = out ∧ q.eof = true := by
    intro r hr
    cases r with
    | none =>
      simp only [format_int, Prod.mk.injEq] at hr
      exact ⟨hr.1.symm, by rw [← hr.2]; rfl⟩
    | some x =>
      simp only [format_int, Prod.mk.injEq] at hr
      rw [← hr.2] at hq
      exact absurd hf hq
  have hsame : ∀ o1 : List Nat, some (o1, fmt) = some (o, q) → o = out ∧ q.eof = true := by
    intro o1 e
    simp only [Option.some.injEq, Prod.mk.injEq] at e
    rw [← e.2] at hq
    exact absurd hf hq
  cases arg with
  | handle f => exact hsame _ h
  | bool v => exact hsame _ h
  | char v =>
    simp only [format_handler] at h
    by_cases hc : spec.type ≠ 0 ∧ spec.type ≠ 115 ∧ spec.type ≠ 99
    · rw [if_pos hc] at h
      exact hint _ (Option.some.inj h)
    · rw [if_neg hc] at h
      exact hsame _ h
  | int v => exact hint _ (Option.some.inj h)
  | unsigned v => exact hint _ (Option.some.inj h)
  | long_long v => exact hint _ (Option.some.inj h)
  | unsigned_long_long v => exact hint _ (Option.some.inj h)
  | double v =>
    simp only [format_handler] at h
    by_cases hv : (!validate_float_spec spec) = true
    · rw [if_pos hv] at h
      simp only [Option.some.injEq, Prod.mk.injEq] at h
      exact ⟨h.1.symm, by rw [← h.2]; rfl⟩
    · rw [if_neg hv] at h
      cases hd : do_format_double out spec v with
      | none => rw [hd] at h; exact Option.noConfusion h
      | some x =>
        rw [hd] at h
        exact hsame _ h
  | c_str a v =>
    simp only [format_handler] at h
    by_cases hp : spec.type = 112
    · rw [if_pos hp] at h; exact hsame _ h
    · rw [if_neg hp] at h; exact hsame _ h
  | string_view v => exact hsame _ h
  | pointer v => exact hsame _ h

/-- The visitor `format_handler`, when it reports no error, leaves the parser as it was and
does the same with every other parser. -/
theorem format_handler_indep (out o : List Nat) (fmt q : format_parse_context)
    (spec : format_spec) (arg : format_arg) (h : format_handler out fmt spec arg = some (o, q))
    (hq : q.err = none) :
    q = fmt ∧ ∀ fmt1 : format_parse_context, format_handler out fmt1 spec arg = some (o, fmt1) := by
  have hint : ∀ r : Option (List Nat), format_int out fmt r = (o, q) →
      q = fmt ∧ ∀ fmt1 : format_parse_context, format_int out fmt1 r = (o, fmt1) := by
    intro r hr
    cases r with
    | none =>
      simp only [format_int, Prod.mk.injEq] at hr
      rw [← hr.2] at hq
      exact Option.noConfusion hq
    | some x =>
      simp only [format_int, Prod.mk.injEq] at hr
      exact ⟨hr.2.symm, fun fmt1 => by simp only [format_int, hr.1]⟩
  cases arg with
  | handle f =>
    simp only [format_handler, Option.some.injEq, Prod.mk.injEq] at h
    exact ⟨h.2.symm, fun fmt1 => by simp only [format_handler, h.1]⟩
  | bool v =>
    simp only [format_handler, Option.some.injEq, Prod.mk.injEq] at h
    exact ⟨h.2.symm, fun fmt1 => by simp only [format_handler, h.1]⟩
  | char v =>
    simp only [format_handler] at h
    by_cases hc : spec.type ≠ 0 ∧ spec.type ≠ 115 ∧ spec.type ≠ 99
    · rw [if_pos hc] at h
      obtain ⟨h1, h2⟩ := hint _ (Option.some.inj h)
      exact ⟨h1, fun fmt1 => by simp only [format_handler, if_pos hc, h2 fmt1]⟩
    · rw [if_neg hc] at h
      simp only [Option.some.injEq, Prod.mk.injEq] at h
      exact ⟨h.2.symm, fun fmt1 => by simp only [format_handler, if_neg hc, h.1]⟩
  | int v =>
    obtain ⟨h1, h2⟩ := hint _ (Option.some.inj h)
    exact ⟨h1, fun fmt1 => by simp only [format_handler, h2 fmt1]⟩
  | unsigned v =>
    obtain ⟨h1, h2⟩ := hint _ (Option.some.inj h)
    exact ⟨h1, fun fmt1 => by simp only [format_handler, h2 fmt1]⟩
  | long_long v =>
    obtain ⟨h1, h2⟩ := hint _ (Option.some.inj h)
    exact ⟨h1, fun fmt1 => by simp only [format_handler, h2 fmt1]⟩
  | unsigned_long_long v =>
    obtain ⟨h1, h2⟩ := hint _ (Option.some.inj h)
    exact ⟨h1, fun fmt1 => by simp only [format_handler, h2 fmt1]⟩
  | double v =>
    simp only [format_handler] at h
    by_cases hv : (!validate_float_spec spec) = true
    · rw [if_pos hv] at h
      simp only [Option.some.injEq, Prod.mk.injEq] at h
      rw [← h.2] at hq
      exact Option.noConfusion hq
    · rw [if_neg hv] at h
      cases hd : do_format_double out spec v with
      | none => rw [hd] at h; exact Option.noConfusion h
      | some x =>
        rw [hd] at h
        simp only [Option.some.injEq, Prod.mk.injEq] at h
        exact ⟨h.2.symm, fun fmt1 => by simp only [format_handler, if_neg hv, hd, h.1]⟩
  | c_str a v =>
    simp only [format_handler] at h
    by_cases hp : spec.type = 112
    · rw [if_pos hp] at h
      simp only [Option.some.injEq, Prod.mk.injEq] at h
      exact ⟨h.2.symm, fun fmt1 => by simp only [format_handler, if_pos hp, h.1]⟩
    · rw [if_neg hp] at h
      simp only [Option.some.injEq, Prod.mk.injEq] at h
      exact ⟨h.2.symm, fun fmt1 => by simp only [format_handler, if_neg hp, h.1]⟩
  | string_view v =>
    simp only [format_handler, Option.some.injEq, Prod.mk.injEq] at h
    exact ⟨h.2.symm, fun fmt1 => by simp only [format_handler, h.1]⟩
  | pointer v =>
    simp only [format_handler, Option.some.injEq, Prod.mk.injEq] at h
    exact ⟨h.2.symm, fun fmt1 => by simp only [format_handler, h.1]⟩

end detail

end univang.fmt

namespace univang.fmt

open format_parse_context detail

/-- The part of the loop body of `vformat_to` behind `fmt.get_arg(arg_pos)`, for an argument
that is no `handle`. -/
theorem vformat_to_arg_other (out : List Nat) (q : format_parse_context) (arg : format_arg)
    (harg : ∀ f, arg ≠ format_arg.handle f) :
    vformat_to_arg out q arg
      = if (q.consume 125).1 then
          (match append_handler out arg with
           | none => none
           | some out => some (loop_exit.next, out, (q.consume 125).2))
        else
          (match parse_format_spec (q.consume 125).2 {} with
           | none => none
           | some (false, _, fmt) => some (loop_exit.stop, out, fmt)
           | some (true, spec, fmt) =>
             match format_handler out fmt spec arg with
             | none => none
             | some (out, fmt) => some (loop_exit.next, out, fmt)) := by
  cases arg with
  | handle f => exact absurd rfl (harg f)
  | _ => rfl

/-- The part of the loop body of `vformat_to` behind `fmt.get_arg(arg_pos)` for an argument
that is no `handle`, in a field that is not closed at once. -/
theorem vformat_to_arg_spec_other (out out1 : List Nat) (q q1 : format_parse_context)
    (arg : format_arg) (kind : loop_exit) (hq : q.running)
    (harg : ∀ f, arg ≠ format_arg.handle f) (hne : q.rest.head? ≠ some 125)
    (hcons : q.consume 125 = (false, q))
    (h : vformat_to_arg out q arg = some (kind, out1, q1)) :
    kind ≠ loop_exit.done ∧
    (kind = loop_exit.stop → out1 = out) ∧
    (kind = loop_exit.next →
      (q1.err ≠ none → out1 = out ∧ q1.eof = true) ∧
      (q1.err = none → q1.running ∧ ∃ k, k ≠ [] ∧ q.rest = k ++ q1.rest ∧
        ∀ T, vformat_to_arg out (q.at_rest (k ++ T)) arg
          = some (loop_exit.next, out1, q1.at_rest T))) := by
  rw [vformat_to_arg_other out q arg harg, hcons] at h
  simp only [Bool.false_eq_true, if_false] at h
  cases hp : parse_format_spec q {} with
  | none => rw [hp] at h; exact Option.noConfusion h
  | some r =>
    obtain ⟨b, spec, q2⟩ := r
    rw [hp] at h
    cases b with
    | false =>
      simp only [Option.some.injEq, Prod.mk.injEq] at h
      obtain ⟨h1, h2, h3⟩ := h
      subst h1 h2 h3
      exact ⟨fun e => loop_exit.noConfusion e, fun _ => rfl, fun e => loop_exit.noConfusion e⟩
    | true =>
      simp only [] at h
      obtain ⟨hq2, k, hk, hr, hrep⟩ := parse_format_spec_local {} spec q q2 hq hne hp
      cases hh : format_handler out q2 spec arg with
      | none => rw [hh] at h; exact Option.noConfusion h
      | some r2 =>
        obtain ⟨o, q3⟩ := r2
        rw [hh] at h
        simp only [Option.some.injEq, Prod.mk.injEq] at h
        obtain ⟨h1, h2, h3⟩ := h
        subst h1 h2 h3
        refine ⟨fun e => loop_exit.noConfusion e, fun e => loop_exit.noConfusion e,
          fun _ => ⟨?_, ?_⟩⟩
        · intro he
          exact format_handler_error out o q2 q3 spec arg hh hq2.2 he
        · intro he
          obtain ⟨e3, hind⟩ := format_handler_indep out o q2 q3 spec arg hh he
          subst e3
          refine ⟨hq2, k, hk, hr, ?_⟩
          intro T
          rw [vformat_to_arg_other out _ arg harg]
          have hne2 : (k ++ T).head? ≠ some 125 := by
            obtain ⟨d, ds, hd⟩ := List.exists_cons_of_ne_nil hk
            rw [hr, hd] at hne
            rw [hd]
            exact hne
          rw [consume_head_ne q _ 125 hne2]
          simp only [Bool.false_eq_true, if_false]
          rw [hrep T]
          simp only []
          rw [hind (q3.at_rest T)]

/-- The part of the loop body of `vformat_to` behind `fmt.get_arg(arg_pos)`: it does not
return; when it breaks or reports an error it has written nothing; and when it goes on
without an error it can be replayed whatever follows. -/
theorem vformat_to_arg_spec (out out1 : List Nat) (q q1 : format_parse_context)
    (arg : format_arg) (kind : loop_exit) (hq : q.running)
    (h : vformat_to_arg out q arg = some (kind, out1, q1)) :
    kind ≠ loop_exit.done ∧
    (kind = loop_exit.stop → out1 = out) ∧
    (kind = loop_exit.next →
      (q1.err ≠ none → out1 = out ∧ q1.eof = true) ∧
      (q1.err = none → q1.running ∧ ∃ k, k ≠ [] ∧ q.rest = k ++ q1.rest ∧
        ∀ T, vformat_to_arg out (q.at_rest (k ++ T)) arg
          = some (loop_exit.next, out1, q1.at_rest T))) := by
  rcases consume_running q hq 125 with ⟨t, hr, hcons⟩ | ⟨hne, hcons⟩
  · -- the field is closed at once: `append_handler`
    have h0 : vformat_to_arg out q arg
        = match append_handler out arg with
          | none => none
          | some out => some (loop_exit.next, out, q.at_rest t) := by
      unfold vformat_to_arg
      rw [hcons]
      rfl
    rw [h0] at h
    cases ha : append_handler out arg with
    | none => rw [ha] at h; exact Option.noConfusion h
    | some o =>
      rw [ha] at h
      simp only [Option.some.injEq, Prod.mk.injEq] at h
      obtain ⟨h1, h2, h3⟩ := h
      subst h1 h2 h3
      refine ⟨fun e => loop_exit.noConfusion e, fun e => loop_exit.noConfusion e, fun _ => ⟨?_, ?_⟩⟩
      · intro he
        exact absurd hq.2 he
      · intro _
        refine ⟨running_at_rest q t hq.2, [125], by simp, hr, ?_⟩
        intro T
        unfold vformat_to_arg
        have e : q.at_rest ([125] ++ T) = q.at_rest (125 :: T) := rfl
        rw [e, consume_cons_eq]
        simp only [if_true]
        rw [ha]
        rfl
  · cases arg with
    | handle f =>
      unfold vformat_to_arg at h
      rw [hcons] at h
      simp only [Bool.false_eq_true, if_false] at h
      cases hf : q.find 125 with
      | none =>
        rw [hf] at h
        simp only [Option.some.injEq, Prod.mk.injEq] at h
        obtain ⟨h1, h2, h3⟩ := h
        subst h1 h2 h3
        exact ⟨fun e => loop_exit.noConfusion e, fun _ => rfl, fun e => loop_exit.noConfusion e⟩
      | some p =>
        rw [hf] at h
        simp only [] at h
        unfold format_parse_context.find at hf
        by_cases he : q.eof = true
        · rw [if_pos he] at hf; exact Option.noConfusion hf
        rw [if_neg he] at hf
        obtain ⟨a, r, hr, hna, hl⟩ := find_char_some 125 q.rest p hf
        have hadv : q.advance (p + 1) = some (q.at_rest r) := by
          rw [running_eq_at_rest q hq, hr, ← hl]
          simp [format_parse_context.advance, at_rest]
        rw [hadv] at h
        simp only [Option.some.injEq, Prod.mk.injEq] at h
        obtain ⟨h1, h2, h3⟩ := h
        subst h1 h2 h3
        refine ⟨fun e => loop_exit.noConfusion e, fun e => loop_exit.noConfusion e,
          fun _ => ⟨?_, ?_⟩⟩
        · intro he2
          exact absurd hq.2 he2
        · intro _
          refine ⟨running_at_rest q r hq.2, a ++ [125], by simp, by rw [hr, at_rest_rest]; simp, ?_⟩
          intro T
          have ha : a ≠ [] := by
            intro e
            rw [hr, e] at hne
            exact hne rfl
          have e1 : a ++ [125] ++ T = a ++ 125 :: T := by simp
          have hne2 : (a ++ 125 :: T).head? ≠ some 125 := by
            obtain ⟨d, ds, hd⟩ := List.exists_cons_of_ne_nil ha
            rw [hr, hd] at hne
            rw [hd]
            exact hne
          unfold vformat_to_arg
          rw [e1, consume_head_ne q _ 125 hne2]
          simp only [Bool.false_eq_true, if_false]
          have hf2 : (q.at_rest (a ++ 125 :: T)).find 125 = some p := by
            unfold format_parse_context.find
            obtain ⟨d, ds, hd⟩ := List.exists_cons_of_ne_nil ha
            have : (q.at_rest (a ++ 125 :: T)).eof = false := by
              rw [hd]; exact at_rest_eof_cons _ _ _
            rw [this, at_rest_rest, find_char_append 125 a T hna, hl]
            rfl
          rw [hf2]
          simp only []
          have hadv2 : (q.at_rest (a ++ 125 :: T)).advance (p + 1) = some (q.at_rest T) := by
            rw [← hl]
            simp [format_parse_context.advance, at_rest]
          rw [hadv2]
          simp only [at_rest_rest]
          rw [hr, ← hl]
          simp [at_rest_at_rest]
    | bool v =>
      exact vformat_to_arg_spec_other out out1 q q1 _ kind hq
        (fun f hf => format_arg.noConfusion hf) hne hcons h
    | char v =>
      exact vformat_to_arg_spec_other out out1 q q1 _ kind hq
        (fun f hf => format_arg.noConfusion hf) hne hcons h
    | int v =>
      exact vformat_to_arg_spec_other out out1 q q1 _ kind hq
        (fun f hf => format_arg.noConfusion hf) hne hcons h
    | unsigned v =>
      exact vformat_to_arg_spec_other out out1 q q1 _ kind hq
        (fun f hf => format_arg.noConfusion hf) hne hcons h
    | long_long v =>
      exact vformat_to_arg_spec_other out out1 q q1 _ kind hq
        (fun f hf => format_arg.noConfusion hf) hne hcons h
    | unsigned_long_long v =>
      exact vformat_to_arg_spec_other out out1 q q1 _ kind hq
        (fun f hf => format_arg.noConfusion hf) hne hcons h
    | double v =>
      exact vformat_to_arg_spec_other out out1 q q1 _ kind hq
        (fun f hf => format_arg.noConfusion hf) hne hcons h
    | c_str a v =>
      exact vformat_to_arg_spec_other out out1 q q1 _ kind hq
        (fun f hf => format_arg.noConfusion hf) hne hcons h
    | string_view v =>
      exact vformat_to_arg_spec_other out out1 q q1 _ kind hq
        (fun f hf => format_arg.noConfusion hf) hne hcons h
    | pointer v =>
      exact vformat_to_arg_spec_other out out1 q q1 _ kind hq
        (fun f hf => format_arg.noConfusion hf) hne hcons h

end univang.fmt

namespace univang.fmt

open format_parse_context detail

/-- The part of the loop body of `vformat_to` from `fmt.get_arg(arg_pos)` on: it does not
return; when it breaks or reports an error it has written nothing; and when it goes on
without an error it can be replayed whatever follows. -/
theorem vformat_to_field_spec (out out1 : List Nat) (q q1 : format_parse_context)
    (i : Nat) (kind : loop_exit) (hq : q.running)
    (h : vformat_to_field out q i = some (kind, out1, q1)) :
    kind ≠ loop_exit.done ∧
    (kind = loop_exit.stop → out1 = out) ∧
    (kind = loop_exit.next →
      (q1.err ≠ none → out1 = out ∧ q1.eof = true) ∧
      (q1.err = none → q1.running ∧ ∃ k, k ≠ [] ∧ q.rest = k ++ q1.rest ∧
        ∀ T, vformat_to_field out (q.at_rest (k ++ T)) i
          = some (loop_exit.next, out1, q1.at_rest T))) := by
  unfold vformat_to_field at h
  cases hg : q.get_arg i with
  | none => rw [hg] at h; exact Option.noConfusion h
  | some arg =>
    rw [hg] at h
    simp only [] at h
    obtain ⟨h1, h2, h3⟩ := vformat_to_arg_spec out out1 q q1 arg kind hq h
    refine ⟨h1, h2, fun hk => ⟨(h3 hk).1, fun he => ?_⟩⟩
    obtain ⟨hq1, k, hk1, hr, hrep⟩ := (h3 hk).2 he
    refine ⟨hq1, k, hk1, hr, ?_⟩
    intro T
    unfold vformat_to_field
    have hg2 : (q.at_rest (k ++ T)).get_arg i = some arg := hg
    rw [hg2]
    exact hrep T

/-- Member `is_char(c)` looks at the first byte of the view only. -/
theorem is_char_head (p p1 : format_parse_context) (l l1 : List Nat) (c : Nat)
    (h : l.head? = l1.head?) : (p.at_rest l).is_char c = (p1.at_rest l1).is_char c := by
  cases l with
  | nil =>
    cases l1 with
    | nil => rw [is_char_nil, is_char_nil]
    | cons y ys => exact Option.noConfusion h
  | cons x xs =>
    cases l1 with
    | nil => exact Option.noConfusion h
    | cons y ys =>
      simp only [List.head?_cons, Option.some.injEq] at h
      rw [is_char_cons, is_char_cons, h]

/-- The part of the loop body of `vformat_to` behind `parse_arg_ref(fmt)`: it does not
return; when it breaks or reports an error it has written nothing; and when it goes on
without an error it can be replayed whatever follows. -/
theorem vformat_to_ref_spec (out out1 : List Nat) (q q1 : format_parse_context)
    (i : Nat) (kind : loop_exit) (hq : q.err = none → q.running)
    (h : vformat_to_ref out q i = some (kind, out1, q1)) :
    kind ≠ loop_exit.done ∧
    (kind = loop_exit.stop → out1 = out) ∧
    (kind = loop_exit.next →
      (q1.err ≠ none → out1 = out ∧ q1.eof = true) ∧
      (q1.err = none → q1.running ∧ q.running ∧ ∃ k, k ≠ [] ∧ q.rest = k ++ q1.rest ∧
        ∀ T, vformat_to_ref out (q.at_rest (k ++ T)) i
          = some (loop_exit.next, out1, q1.at_rest T))) := by
  unfold vformat_to_ref at h
  by_cases hf : q.fail = true
  · rw [if_pos hf] at h
    simp only [Option.some.injEq, Prod.mk.injEq] at h
    obtain ⟨h1, h2, h3⟩ := h
    subst h1 h2 h3
    exact ⟨fun e => loop_exit.noConfusion e, fun _ => rfl, fun e => loop_exit.noConfusion e⟩
  · rw [if_neg hf] at h
    have he : q.err = none := by
      cases he : q.err with
      | none => rfl
      | some m =>
        exfalso
        apply hf
        simp [format_parse_context.fail, he]
    have hrun := hq he
    by_cases hc : q.is_char 125 = true
    · rw [if_pos hc] at h
      obtain ⟨h1, h2, h3⟩ := vformat_to_field_spec out out1 q q1 i kind hrun h
      refine ⟨h1, h2, fun hk => ⟨(h3 hk).1, fun he1 => ?_⟩⟩
      obtain ⟨hq1, k, hk1, hr, hrep⟩ := (h3 hk).2 he1
      refine ⟨hq1, hrun, k, hk1, hr, ?_⟩
      intro T
      unfold vformat_to_ref
      have hf2 : ¬ ((q.at_rest (k ++ T)).fail = true) := hf
      rw [if_neg hf2]
      have hc2 : (q.at_rest (k ++ T)).is_char 125 = true := by
        rw [← hc]
        conv_rhs => rw [running_eq_at_rest q hrun]
        apply is_char_head
        rw [hr]
        obtain ⟨d, ds, rfl⟩ := List.exists_cons_of_ne_nil hk1
        rfl
      rw [if_pos hc2]
      exact hrep T
    · rw [if_neg hc] at h
      simp only [] at h
      rcases consume_running q hrun 58 with ⟨t, hr, hcons⟩ | ⟨hne, hcons⟩
      · rw [hcons] at h
        simp only [Bool.not_true, Bool.false_or] at h
        cases t with
        | nil =>
          rw [at_rest_eof_nil] at h
          simp only [if_true, Option.some.injEq, Prod.mk.injEq] at h
          obtain ⟨h1, h2, h3⟩ := h
          subst h1 h2 h3
          exact ⟨fun e => loop_exit.noConfusion e, fun _ => rfl,
            fun e => loop_exit.noConfusion e⟩
        | cons y ys =>
          rw [at_rest_eof_cons] at h
          simp only [Bool.false_eq_true, if_false] at h
          obtain ⟨h1, h2, h3⟩ := vformat_to_field_spec out out1 (q.at_rest (y :: ys)) q1 i kind
            (running_at_rest q _ he) h
          refine ⟨h1, h2, fun hk => ⟨(h3 hk).1, fun he1 => ?_⟩⟩
          obtain ⟨hq1, k, hk1, hr1, hrep⟩ := (h3 hk).2 he1
          rw [at_rest_rest] at hr1
          refine ⟨hq1, hrun, 58 :: k, by simp, by rw [hr, hr1]; rfl, ?_⟩
          intro T
          unfold vformat_to_ref
          have hf2 : ¬ ((q.at_rest (58 :: k ++ T)).fail = true) := hf
          rw [if_neg hf2]
          have hc2 : ¬ ((q.at_rest (58 :: k ++ T)).is_char 125 = true) := by
            rw [List.cons_append, is_char_cons]
            decide
          rw [if_neg hc2]
          simp only []
          rw [List.cons_append, consume_cons_eq]
          obtain ⟨d, ds, hd⟩ := List.exists_cons_of_ne_nil hk1
          have hne2 : (q.at_rest (k ++ T)).eof = false := by
            rw [hd]; exact at_rest_eof_cons _ _ _
          rw [hne2]
          simp only [Bool.not_true, Bool.or_false, Bool.false_eq_true, if_false]
          have e := hrep T
          rw [at_rest_at_rest] at e
          exact e
      · rw [hcons] at h
        simp only [Bool.not_false, Bool.true_or, if_true, Option.some.injEq,
          Prod.mk.injEq] at h
        obtain ⟨h1, h2, h3⟩ := h
        subst h1 h2 h3
        exact ⟨fun e => loop_exit.noConfusion e, fun _ => rfl, fun e => loop_exit.noConfusion e⟩

end univang.fmt

namespace univang.fmt

open format_parse_context detail

/-- The body of the loop of `vformat_to` on a running parser: when it returns, it has
written the whole view; when it breaks or reports an error, it has written the text before
the first opening brace and nothing else; and when it goes on without an error, it can be
replayed whatever follows the bytes it has consumed. -/
theorem vformat_to_body_spec (out out1 : List Nat) (fmt fmt1 : format_parse_context)
    (kind : loop_exit) (hq : fmt.running)
    (h : vformat_to_body out fmt = some (kind, out1, fmt1)) :
    (kind = loop_exit.done → out1 = out ++ fmt.rest ∧ fmt1 = fmt) ∧
    (kind = loop_exit.stop →
      ∃ lit suf, fmt.rest = lit ++ 123 :: suf ∧ 123 ∉ lit ∧ out1 = out ++ lit) ∧
    (kind = loop_exit.next →
      (fmt1.err ≠ none → fmt1.eof = true ∧
        ∃ lit suf, fmt.rest = lit ++ 123 :: suf ∧ 123 ∉ lit ∧ out1 = out ++ lit) ∧
      (fmt1.err = none → fmt1.running ∧ ∃ k, k ≠ [] ∧ fmt.rest = k ++ fmt1.rest ∧
        ∀ T, vformat_to_body out (fmt.at_rest (k ++ T))
          = some (loop_exit.next, out1, fmt1.at_rest T))) := by
  unfold vformat_to_body at h
  cases hf : fmt.find 123 with
  | none =>
    rw [hf] at h
    simp only [Option.some.injEq, Prod.mk.injEq] at h
    obtain ⟨h1, h2, h3⟩ := h
    subst h1 h2 h3
    exact ⟨fun _ => ⟨rfl, rfl⟩, fun e => loop_exit.noConfusion e,
      fun e => loop_exit.noConfusion e⟩
  | some p =>
    rw [hf] at h
    simp only [] at h
    unfold format_parse_context.find at hf
    by_cases he : fmt.eof = true
    · rw [if_pos he] at hf; exact Option.noConfusion hf
    rw [if_neg he] at hf
    obtain ⟨lit, r1, hr, hnl, hl⟩ := find_char_some 123 fmt.rest p hf
    have htake : fmt.rest.take p = lit := by
      rw [hr, ← hl]; simp
    have hadv : fmt.advance (p + 1) = some (fmt.at_rest r1) := by
      rw [running_eq_at_rest fmt hq, hr, ← hl]
      simp [format_parse_context.advance, at_rest]
    rw [hadv, htake] at h
    simp only [] at h
    -- the replay up to `parse_arg_ref`, for a view that goes on with `r`
    have hfront : ∀ r : List Nat,
        (fmt.at_rest (lit ++ 123 :: r)).find 123 = some p ∧
        (fmt.at_rest (lit ++ 123 :: r)).rest.take p = lit ∧
        (fmt.at_rest (lit ++ 123 :: r)).advance (p + 1) = some (fmt.at_rest r) := by
      intro r
      refine ⟨?_, ?_, ?_⟩
      · unfold format_parse_context.find
        have : (fmt.at_rest (lit ++ 123 :: r)).eof = false := by
          cases lit <;> exact at_rest_eof_cons _ _ _
        rw [this, at_rest_rest, find_char_append 123 lit r hnl, hl]
        rfl
      · rw [at_rest_rest, ← hl]; simp
      · rw [← hl]
        simp [format_parse_context.advance, at_rest]
    cases r1 with
    | nil =>
      rw [at_rest_eof_nil] at h
      simp only [if_true, Option.some.injEq, Prod.mk.injEq] at h
      obtain ⟨h1, h2, h3⟩ := h
      subst h1 h2 h3
      exact ⟨fun e => loop_exit.noConfusion e, fun _ => ⟨lit, [], hr, hnl, rfl⟩,
        fun e => loop_exit.noConfusion e⟩
    | cons y ys =>
      rw [at_rest_eof_cons] at h
      simp only [Bool.false_eq_true, if_false] at h
      by_cases hy : y = 123
      · subst hy
        rw [consume_cons_eq] at h
        simp only [if_true, Option.some.injEq, Prod.mk.injEq] at h
        obtain ⟨h1, h2, h3⟩ := h
        subst h1 h2 h3
        refine ⟨fun e => loop_exit.noConfusion e, fun e => loop_exit.noConfusion e,
          fun _ => ⟨fun hne => absurd hq.2 hne, fun _ => ?_⟩⟩
        refine ⟨running_at_rest fmt ys hq.2, lit ++ [123, 123], by simp,
          by rw [hr, at_rest_rest]; simp, ?_⟩
        intro T
        have e := vformat_to_body_escape out lit T (fmt.at_rest (lit ++ [123, 123] ++ T)) hnl
          (by rw [at_rest_rest]; simp) (by cases lit <;> exact at_rest_eof_cons _ _ _)
        rw [e]
        rfl
      · rw [consume_cons_ne _ y 123 ys hy] at h
        simp only [Bool.false_eq_true, if_false] at h
        cases hp : parse_arg_ref (fmt.at_rest (y :: ys)) with
        | none => rw [hp] at h; exact Option.noConfusion h
        | some r =>
          obtain ⟨i, q2⟩ := r
          rw [hp] at h
          simp only [] at h
          have hrun2 : q2.err = none → q2.running := fun he2 =>
            (parse_arg_ref_local (fmt.at_rest (y :: ys)) q2 i
              (running_at_rest fmt _ hq.2) hp he2).1
          obtain ⟨h1, h2, h3⟩ := vformat_to_ref_spec (out ++ lit) out1 q2 fmt1 i kind hrun2 h
          refine ⟨fun hk => absurd hk h1, fun hk => ⟨lit, y :: ys, hr, hnl, h2 hk⟩,
            fun hk => ⟨fun hne => ?_, fun he1 => ?_⟩⟩
          · obtain ⟨e1, e2⟩ := (h3 hk).1 hne
            exact ⟨e2, lit, y :: ys, hr, hnl, e1⟩
          · obtain ⟨hq1, hq2, k3, hk3, hr3, hrep3⟩ := (h3 hk).2 he1
            obtain ⟨_, _, k2, hr2, hrep2⟩ := parse_arg_ref_local (fmt.at_rest (y :: ys)) q2 i
              (running_at_rest fmt _ hq.2) hp hq2.2
            rw [at_rest_rest] at hr2
            obtain ⟨d, ds, hd⟩ := List.exists_cons_of_ne_nil hk3
            refine ⟨hq1, lit ++ 123 :: (k2 ++ k3), by simp, ?_, ?_⟩
            · rw [hr, hr2, hr3]; simp
            · intro T
              have e0 : lit ++ 123 :: (k2 ++ k3) ++ T = lit ++ 123 :: (k2 ++ (k3 ++ T)) := by
                simp
              obtain ⟨f1, f2, f3⟩ := hfront (k2 ++ (k3 ++ T))
              unfold vformat_to_body
              rw [e0, f1]
              simp only []
              rw [f2, f3]
              simp only []
              have hyk : ∃ zs, k2 ++ (k3 ++ T) = y :: zs := by
                cases k2 with
                | nil =>
                  rw [List.nil_append] at hr2 ⊢
                  rw [hr3, hd] at hr2
                  simp only [List.cons_append, List.cons.injEq] at hr2
                  exact ⟨ds ++ T, by rw [hd, hr2.1]; rfl⟩
                | cons z zs =>
                  simp only [List.cons_append, List.cons.injEq] at hr2
                  exact ⟨zs ++ (k3 ++ T), by rw [hr2.1]; rfl⟩
              obtain ⟨zs, hzs⟩ := hyk
              have hne2 : (fmt.at_rest (k2 ++ (k3 ++ T))).eof = false := by
                rw [hzs]; exact at_rest_eof_cons _ _ _
              rw [hne2]
              simp only [Bool.false_eq_true, if_false]
              have hcons2 : (fmt.at_rest (k2 ++ (k3 ++ T))).consume 123
                  = (false, fmt.at_rest (k2 ++ (k3 ++ T))) := by
                rw [hzs]; exact consume_cons_ne _ y 123 zs hy
              rw [hcons2]
              simp only [Bool.false_eq_true, if_false]
              have e2 := hrep2 (k3 ++ T) (by rw [hr3, hd]; rfl)
              rw [at_rest_at_rest] at e2
              rw [e2]
              simp only []
              exact hrep3 T

end univang.fmt

namespace univang.fmt

open format_parse_context detail

/-- The loop of `vformat_to` on a view without opening brace. -/
theorem vformat_to_loop_literal (fuel : Nat) (out lit : List Nat) (fmt : format_parse_context)
    (h : 123 ∉ lit) :
    ∃ kind, vformat_to_loop (fuel + 1) out (fmt.at_rest lit)
      = some (kind, out ++ lit, fmt.at_rest lit) := by
  rw [vformat_to_loop]
  cases lit with
  | nil =>
    rw [at_rest_eof_nil]
    exact ⟨loop_exit.stop, by simp⟩
  | cons x xs =>
    rw [at_rest_eof_cons]
    simp only [Bool.false_eq_true, if_false]
    rw [vformat_to_body_literal out (x :: xs) _ h rfl]
    exact ⟨loop_exit.done, rfl⟩

/-- The loop of `vformat_to` does not depend on its fuel once the fuel exceeds the length of
the view. -/
theorem vformat_to_loop_fuel :
    ∀ (fuel fuel1 : Nat) (out : List Nat) (fmt : format_parse_context), fmt.running →
      fmt.rest.length < fuel → fmt.rest.length < fuel1 →
      vformat_to_loop fuel out fmt = vformat_to_loop fuel1 out fmt := by
  intro fuel
  induction fuel with
  | zero => intro fuel1 out fmt _ h; exact absurd h (Nat.not_lt_zero _)
  | succ n ih =>
    intro fuel1 out fmt hq h1 h2
    cases fuel1 with
    | zero => exact absurd h2 (Nat.not_lt_zero _)
    | succ m =>
      rw [vformat_to_loop, vformat_to_loop]
      by_cases he : fmt.eof = true
      · rw [if_pos he, if_pos he]
      · rw [if_neg he, if_neg he]
        cases hb : vformat_to_body out fmt with
        | none => rfl
        | some r =>
          obtain ⟨kind, out1, fmt1⟩ := r
          cases kind with
          | stop => rfl
          | done => rfl
          | next =>
            simp only []
            obtain ⟨_, _, h3⟩ := vformat_to_body_spec out out1 fmt fmt1 loop_exit.next hq hb
            by_cases he1 : fmt1.err = none
            · obtain ⟨hq1, k, hk, hr, _⟩ := (h3 rfl).2 he1
              have hlen : fmt1.rest.length < fmt.rest.length := by
                rw [hr, List.length_append]
                have : 0 < k.length := List.length_pos.2 hk
                omega
              exact ih m out1 fmt1 hq1 (by omega) (by omega)
            · obtain ⟨heof, _⟩ := (h3 rfl).1 he1
              have hpos : 0 < fmt.rest.length := by
                have := hq.1
                rw [this] at he
                simp only [decide_eq_true_eq] at he
                omega
              obtain ⟨n1, rfl⟩ : ∃ n1, n = n1 + 1 := ⟨n - 1, by omega⟩
              obtain ⟨m1, rfl⟩ : ∃ m1, m = m1 + 1 := ⟨m - 1, by omega⟩
              rw [vformat_to_loop, vformat_to_loop, if_pos heof, if_pos heof]

/-- When the loop of `vformat_to` ends with the parser failed, it has been left by `break`
or at its condition, and what it has written is what it writes on the part of the view before
some opening brace, on which it ends without an error. -/
theorem vformat_to_loop_failure :
    ∀ (fuel : Nat) (out : List Nat) (fmt : format_parse_context) (kind : loop_exit)
      (o : List Nat) (fin : format_parse_context), fmt.running →
      vformat_to_loop fuel out fmt = some (kind, o, fin) → fin.err ≠ none →
      kind = loop_exit.stop ∧ ∃ pre suf kind1 fin1, fmt.rest = pre ++ 123 :: suf ∧
        vformat_to_loop fuel out (fmt.at_rest pre) = some (kind1, o, fin1) ∧
        fin1.err = none := by
  intro fuel
  induction fuel with
  | zero => intro out fmt kind o fin _ h; exact Option.noConfusion h
  | succ n ih =>
    intro out fmt kind o fin hq h hfin
    rw [vformat_to_loop] at h
    by_cases he : fmt.eof = true
    · rw [if_pos he] at h
      simp only [Option.some.injEq, Prod.mk.injEq] at h
      rw [← h.2.2] at hfin
      exact absurd hq.2 hfin
    · rw [if_neg he] at h
      cases hb : vformat_to_body out fmt with
      | none => rw [hb] at h; exact Option.noConfusion h
      | some r =>
        obtain ⟨kind1, out1, fmt1⟩ := r
        rw [hb] at h
        obtain ⟨h1, h2, h3⟩ := vformat_to_body_spec out out1 fmt fmt1 kind1 hq hb
        cases kind1 with
        | done =>
          simp only [Option.some.injEq, Prod.mk.injEq] at h
          rw [← h.2.2, (h1 rfl).2] at hfin
          exact absurd hq.2 hfin
        | stop =>
          simp only [Option.some.injEq, Prod.mk.injEq] at h
          obtain ⟨e1, e2, e3⟩ := h
          obtain ⟨lit, suf, hr, hnl, ho⟩ := h2 rfl
          obtain ⟨kind2, hlit⟩ := vformat_to_loop_literal n out lit fmt hnl
          exact ⟨e1.symm, lit, suf, kind2, fmt.at_rest lit, hr, by rw [hlit, ← e2, ho], hq.2⟩
        | next =>
          simp only [] at h
          by_cases he1 : fmt1.err = none
          · obtain ⟨hq1, k, hk, hr, hrep⟩ := (h3 rfl).2 he1
            obtain ⟨hkind, pre1, suf, kind2, fin1, hr1, hl1, hf1⟩ :=
              ih out1 fmt1 kind o fin hq1 h hfin
            refine ⟨hkind, k ++ pre1, suf, kind2, fin1, by rw [hr, hr1, List.append_assoc], ?_,
              hf1⟩
            rw [vformat_to_loop]
            have hne : (fmt.at_rest (k ++ pre1)).eof = false := by
              obtain ⟨d, ds, rfl⟩ := List.exists_cons_of_ne_nil hk
              exact at_rest_eof_cons _ _ _
            rw [hne]
            simp only [Bool.false_eq_true, if_false]
            rw [hrep pre1]
            simp only []
            exact hl1
          · obtain ⟨heof, lit, suf, hr, hnl, ho⟩ := (h3 rfl).1 he1
            cases n with
            | zero => exact Option.noConfusion h
            | succ n1 =>
              rw [vformat_to_loop, if_pos heof] at h
              simp only [Option.some.injEq, Prod.mk.injEq] at h
              obtain ⟨e1, e2, e3⟩ := h
              obtain ⟨kind2, hlit⟩ := vformat_to_loop_literal (n1 + 1) out lit fmt hnl
              exact ⟨e1.symm, lit, suf, kind2, fmt.at_rest lit, hr, by rw [hlit, ← e2, ho],
                hq.2⟩

end univang.fmt

namespace univang.fmt

open format_parse_context detail

/-- Claim C28: when the loop of `vformat_to` ends with the parser failed, the final output is
what the loop has written followed by the diagnostic message, and what the loop has written is
exactly the rendering of the template before the opening brace of some replacement field, a
rendering that ends without an error: nothing of the failing field and nothing behind it is
rendered. When the loop ends with the parser not failed, the final output is what the loop
has written, without any diagnostic text. -/
theorem error_recovery (out tmpl : List Nat) (args : List format_arg) (kind : loop_exit)
    (o : List Nat) (fin : format_parse_context)
    (h : vformat_to_loop (tmpl.length + 1) out (format_parse_context.init tmpl args)
      = some (kind, o, fin)) :
    (fin.fail = false → vformat_to out tmpl args = some (o, fin)) ∧
    (fin.fail = true →
      vformat_to out tmpl args = some (o ++ fin.error, fin) ∧
      ∃ pre suf fin1, tmpl = pre ++ 123 :: suf ∧ vformat_to out pre args = some (o, fin1) ∧
        fin1.fail = false) := by
  constructor
  · intro hf
    unfold vformat_to
    rw [h]
    cases kind <;> simp [vformat_to_end, hf]
  · intro hf
    have hne : fin.err ≠ none := by
      intro e
      simp [format_parse_context.fail, e] at hf
    have hrun : (format_parse_context.init tmpl args).running := ⟨rfl, rfl⟩
    obtain ⟨hk, pre, suf, kind1, fin1, hr, hl, hf1⟩ :=
      vformat_to_loop_failure _ out _ kind o fin hrun h hne
    subst hk
    constructor
    · unfold vformat_to
      rw [h]
      simp [vformat_to_end, hf]
    · have hr1 : tmpl = pre ++ 123 :: suf := hr
      have hinit : (format_parse_context.init tmpl args).at_rest pre
          = format_parse_context.init pre args := rfl
      have hrun1 : (format_parse_context.init pre args).running := ⟨rfl, rfl⟩
      rw [hinit] at hl
      have hfuel := vformat_to_loop_fuel (pre.length + 1) (tmpl.length + 1) out
        (format_parse_context.init pre args) hrun1
        (by simp [format_parse_context.init])
        (by rw [hr1]; simp [format_parse_context.init]; omega)
      refine ⟨pre, suf, fin1, hr1, ?_, by simp [format_parse_context.fail, hf1]⟩
      unfold vformat_to
      rw [hfuel, hl]
      cases kind1 <;> simp [vformat_to_end, format_parse_context.fail, hf1]

/-- The template `"ab\x7b\x7dcd\x7b:q\x7dgh"` with the arguments 42 and 6: the second field has
an invalid type char, and the output is the rendering `"ab42cd"` of the template before it
followed by the message. -/
theorem error_recovery_witness :
    vformat_to [] (bytes "ab\x7b\x7dcd\x7b:q\x7dgh") [format_arg.int 42, format_arg.int 6]
      = some (bytes "ab42cd" ++
          (format_parse_context.mk (bytes "gh") true (some (bytes "invalid numeric type"))
            [format_arg.int 42, format_arg.int 6] 2).error,
          format_parse_context.mk (bytes "gh") true (some (bytes "invalid numeric type"))
            [format_arg.int 42, format_arg.int 6] 2) ∧
    ∃ pre suf fin1, bytes "ab\x7b\x7dcd\x7b:q\x7dgh" = pre ++ 123 :: suf ∧
      vformat_to [] pre [format_arg.int 42, format_arg.int 6] = some (bytes "ab42cd", fin1) ∧
      fin1.fail = false :=
  (error_recovery [] (bytes "ab\x7b\x7dcd\x7b:q\x7dgh") [format_arg.int 42, format_arg.int 6]
    loop_exit.stop (bytes "ab42cd")
    (format_parse_context.mk (bytes "gh") true (some (bytes "invalid numeric type"))
      [format_arg.int 42, format_arg.int 6] 2) rfl).2 rfl

end univang.fmt

namespace univang.fmt

open format_parse_context detail

/-- A template that begins with a text without opening brace followed by two opening braces
is rendered as that text, one opening brace and the rendering of the rest of the template. -/
theorem vformat_to_escape (out lit rest : List Nat) (args : List format_arg) (h : 123 ∉ lit) :
    vformat_to out (lit ++ 123 :: 123 :: rest) args
      = vformat_to (out ++ lit ++ [123]) rest args := by
  unfold vformat_to
  have hinit : format_parse_context.init (lit ++ 123 :: 123 :: rest) args
      = (format_parse_context.init rest args).at_rest (lit ++ 123 :: 123 :: rest) := by
    simp [format_parse_context.init, at_rest]
  have hbody := vformat_to_body_escape out lit rest
    ((format_parse_context.init rest args).at_rest (lit ++ 123 :: 123 :: rest)) h rfl
    (by cases lit <;> exact at_rest_eof_cons _ _ _)
  have hrest : ((format_parse_context.init rest args).at_rest
      (lit ++ 123 :: 123 :: rest)).at_rest rest = format_parse_context.init rest args := rfl
  rw [hinit, vformat_to_loop, hbody, hrest]
  have he : ((format_parse_context.init rest args).at_rest (lit ++ 123 :: 123 :: rest)).eof
      = false := by cases lit <;> exact at_rest_eof_cons _ _ _
  rw [he]
  simp only [Bool.false_eq_true, if_false]
  rw [vformat_to_loop_fuel (lit ++ 123 :: 123 :: rest).length (rest.length + 1)
    (out ++ lit ++ [123]) (format_parse_context.init rest args) ⟨rfl, rfl⟩
    (by simp [format_parse_context.init]; omega) (by simp [format_parse_context.init])]

/-- Claim C29: a template that begins with a text without `'\x7b'` followed by `"\x7b\x7b"` is
rendered as that text, a single `'\x7b'` and the rendering of the rest of the template with
the same arguments, none of them consumed; the same holds at every turn of the loop of
`vformat_to`, the parser moving behind the pair with its arguments and its argument counter as
they were; a template without `'\x7b'` is copied unchanged; and `"\x7b0\x7d-\x7b\x7b"` with the
argument 8 gives `"8-\x7b"`. -/
theorem opening_brace_escape (fuel : Nat) (out lit rest : List Nat) (fmt : format_parse_context)
    (args : List format_arg) (h : 123 ∉ lit) :
    vformat_to out (lit ++ 123 :: 123 :: rest) args
      = vformat_to (out ++ lit ++ [123]) rest args ∧
    vformat_to_loop (fuel + 1) out { fmt with rest := lit ++ 123 :: 123 :: rest, eof := false }
      = vformat_to_loop fuel (out ++ lit ++ [123])
          { fmt with rest := rest, eof := decide (rest.length = 0) } ∧
    (vformat_to out lit args).map Prod.fst = some (out ++ lit) ∧
    (vformat_to [] (bytes "\x7b0\x7d-\x7b\x7b") [format_arg.int 8]).map Prod.fst
      = some (bytes "8-\x7b") := by
  refine ⟨vformat_to_escape out lit rest args h, ?_, vformat_to_literal out lit args h,
    by decide⟩
  rw [vformat_to_loop]
  rw [vformat_to_body_escape out lit rest _ h rfl rfl]
  simp [format_parse_context.at_rest]

/-- The pair `"\x7b\x7b"` after `"a-"` and before `"b"`. -/
theorem opening_brace_escape_witness :
    (123 : Nat) ∉ bytes "a-" ∧
    vformat_to [] (bytes "a-" ++ 123 :: 123 :: bytes "b") []
      = vformat_to ([] ++ bytes "a-" ++ [123]) (bytes "b") [] ∧
    vformat_to_loop 3 [] { rest := bytes "a-\x7b\x7bb", eof := false }
      = vformat_to_loop 2 (bytes "a-\x7b") { rest := bytes "b", eof := false } ∧
    (vformat_to [] (bytes "a-") []).map Prod.fst = some (bytes "a-") :=
  ⟨by decide,
   (opening_brace_escape 2 [] (bytes "a-") (bytes "b") { rest := [], eof := true } []
      (by decide)).1,
   (opening_brace_escape 2 [] (bytes "a-") (bytes "b") { rest := [], eof := true } []
      (by decide)).2.1,
   (opening_brace_escape 2 [] (bytes "a-") (bytes "b") { rest := [], eof := true } []
      (by decide)).2.2.1⟩

end univang.fmt

namespace univang.fmt.detail

/-! ## Evaluations of the double renderer at further inputs -/

/-- C35 (code evaluation): the smallest normal double `2^-1022` (bits `0x0010000000000000`) is
decoded as `2^52 * 2^-1074`, its predecessor (the largest denormal) as `(2^52 - 1) * 2^-1074`
and its successor as `(2^52 + 1) * 2^-1074`, so both neighbours are at the same distance and
both midpoints are half a unit away: `(2^53 - 1) * 2^-1075` and `(2^53 + 1) * 2^-1075`, that is
`(2^53 - 1) * 2^10` and `(2^53 + 1) * 2^10` at the exponent `-1085`. `lower_boundary_is_closer`
is `true` all the same, and `NormalizedBoundaries` returns `m_minus = (2^54 - 1) * 2^9` at that
exponent, a quarter of a unit below the value instead of half a unit. -/
theorem NormalizedBoundaries_smallest_normal :
    (double_format_context.of_double 0x0010000000000000).significand = 2 ^ 52 ∧
    (double_format_context.of_double 0x0010000000000000).exponent = -1074 ∧
    (double_format_context.of_double 0x000fffffffffffff).significand = 2 ^ 52 - 1 ∧
    (double_format_context.of_double 0x000fffffffffffff).exponent = -1074 ∧
    (double_format_context.of_double 0x0010000000000001).significand = 2 ^ 52 + 1 ∧
    (double_format_context.of_double 0x0010000000000001).exponent = -1074 ∧
    (double_format_context.of_double 0x0010000000000000).lower_boundary_is_closer = true ∧
    DiyFp.NormalizedBoundaries (double_format_context.of_double 0x0010000000000000)
      = (DiyFp.mk ((2 ^ 54 - 1) * 2 ^ 9) (-1085), DiyFp.mk ((2 ^ 53 + 1) * 2 ^ 10) (-1085)) ∧
    (2 ^ 54 - 1) * 2 ^ 9 ≠ (2 ^ 53 - 1) * 2 ^ 10 ∧
    2 ^ 52 * 2 ^ 11 - (2 ^ 54 - 1) * 2 ^ 9 = 2 ^ 9 ∧
    (2 ^ 53 + 1) * 2 ^ 10 - 2 ^ 52 * 2 ^ 11 = 2 ^ 10 := by
  decide

/-- C36 (code evaluation): the block commented `x *= 5` of `write_fraction_digits` stores the
constant `5` in the low 32 bits of the low word (`part = static_cast<uint32_t>(5 & mask)`), not
the low 32 bits of the product: `x = 2` becomes `5` instead of `10`, `x = 2^64 + 2^63` becomes
`7 * 2^64 + 2^63 + 5` instead of `7 * 2^64 + 2^63`, and `x = 3 * 2^64 + 0x123456789` becomes
`15 * 2^64 + 0x500000005` instead of `15 * 2^64 + 0x5B05B05AD`; every `x` below 64 becomes `5`,
which is the product for `x = 1` only. -/
theorem f128_times5_low_bits :
    f128_times5 0 2 = (0, 5) ∧
    f128_times5 1 (2 ^ 63) = (7, 2 ^ 63 + 5) ∧ 5 * (2 ^ 64 + 2 ^ 63) = 7 * 2 ^ 64 + 2 ^ 63 ∧
    f128_times5 3 0x123456789 = (15, 0x500000005) ∧
    5 * (3 * 2 ^ 64 + 0x123456789) = 15 * 2 ^ 64 + 0x5B05B05AD ∧
    f128_times5 0 1 = (0, 5) ∧
    (∀ lo ∈ List.range 64, f128_times5 0 lo = (0, 5)) := by
  decide

/-- C37 (code evaluation): for `1.0` with type `'e'` the digits are `"1"` with the decimal
point at 1; `format_exponent` appends the four bytes `"1e+0"`, while `exponent_format_size`
returns 3, its loop `while(exponent > 0)` counting no digit for the exponent `0`. The same for
`5.5` (`"5.5e+0"`, 6 bytes, size 5) and for `1.5` with precision 3 (`"1.500e+0"`, 8 bytes,
size 7). For `10.0` (`"1e+1"`) the size is the length, 4. -/
theorem exponent_format_size_zero_exponent :
    (generate_for_type { type := 101 } (double_format_context.of_double 0x3FF0000000000000)).map
      (fun d => (d.digits, d.decimal_point, format [] d, exponent_format_size d))
      = some (bytes "1", (1 : Int), bytes "1e+0", 3) ∧
    do_format_double [] { type := 101 } 0x3FF0000000000000 = some (bytes "1e+0") ∧
    (generate_for_type { type := 101 } (double_format_context.of_double 0x4016000000000000)).map
      (fun d => (d.digits, d.decimal_point, format [] d, exponent_format_size d))
      = some (bytes "55", (1 : Int), bytes "5.5e+0", 5) ∧
    (generate_for_type { type := 101 }
        { double_format_context.of_double 0x3FF8000000000000 with
          has_requested_digits := true, requested_digits := 3 }).map
      (fun d => (d.digits, d.decimal_point, format [] d, exponent_format_size d))
      = some (bytes "1500", (1 : Int), bytes "1.500e+0", 7) ∧
    (generate_for_type { type := 101 } (double_format_context.of_double 0x4024000000000000)).map
      (fun d => (d.digits, d.decimal_point, format [] d, exponent_format_size d))
      = some (bytes "1", (2 : Int), bytes "1e+1", 4) := by
  refine ⟨by decide!, by decide!, by decide!, by decide!, by decide!⟩


open Bignum

/-- C34: for clamped bignums `a`, `b` and `c` with any bigit exponents, `PlusCompare(a, b, c)`
is `-1`, `0` or `+1` as the integer `a + b` is less than, equal to or greater than `c` (the sign
of `a + b - c`), and `Compare(a, b)` is the sign of `a - b`. -/
theorem PlusCompare_three_way (a b c : Bignum) (ha : a.wf) (hb : b.wf) (hc : c.wf) :
    PlusCompare a b c = Int.sign ((a.value : Int) + (b.value : Int) - (c.value : Int)) ∧
    Compare a b = Int.sign ((a.value : Int) - (b.value : Int)) ∧
    (a.value + b.value < c.value → PlusCompare a b c = -1) ∧
    (a.value + b.value = c.value → PlusCompare a b c = 0) ∧
    (c.value < a.value + b.value → PlusCompare a b c = 1) := by
  obtain ⟨p1, p2, p3⟩ := PlusCompare_spec a b c ha hb hc
  obtain ⟨c1, c2, c3⟩ := Compare_spec a b ha hb
  refine ⟨?_, ?_, p1, p2, p3⟩
  · rcases Nat.lt_trichotomy (a.value + b.value) c.value with h | h | h
    · rw [p1 h, Int.sign_eq_neg_one_of_neg (by omega)]
    · rw [p2 h]
      have : (a.value : Int) + (b.value : Int) - (c.value : Int) = 0 := by omega
      rw [this]; rfl
    · rw [p3 h, Int.sign_eq_one_of_pos (by omega)]
  · rcases Nat.lt_trichotomy a.value b.value with h | h | h
    · rw [c1 h, Int.sign_eq_neg_one_of_neg (by omega)]
    · rw [c2 h]
      have : (a.value : Int) - (b.value : Int) = 0 := by omega
      rw [this]; rfl
    · rw [c3 h, Int.sign_eq_one_of_pos (by omega)]

/-- C34 at `a = 5 * 2^56` (one bigit, exponent 2), `b = 1 + 2 * 2^28` and
`c = 3 + 5 * 2^56`: `a + b > c` and `a > b`. -/
theorem PlusCompare_three_way_witness :
    PlusCompare (Bignum.mk [5] 2) (Bignum.mk [1, 2] 0) (Bignum.mk [3, 0, 5] 0)
      = Int.sign (((Bignum.mk [5] 2).value : Int) + ((Bignum.mk [1, 2] 0).value : Int)
          - ((Bignum.mk [3, 0, 5] 0).value : Int)) ∧
    Compare (Bignum.mk [5] 2) (Bignum.mk [1, 2] 0)
      = Int.sign (((Bignum.mk [5] 2).value : Int) - ((Bignum.mk [1, 2] 0).value : Int)) ∧
    PlusCompare (Bignum.mk [5] 2) (Bignum.mk [1, 2] 0) (Bignum.mk [3, 0, 5] 0) = 1 :=
  have h := PlusCompare_three_way (Bignum.mk [5] 2) (Bignum.mk [1, 2] 0) (Bignum.mk [3, 0, 5] 0)
    (wf_of_check _ (by decide)) (wf_of_check _ (by decide)) (wf_of_check _ (by decide))
  ⟨h.1, h.2.1, h.2.2.2.2 (by decide)⟩

/-- C32: for bignums with `1 <= numerator / denominator < 10`, a count of at least 1 and an
empty digit buffer, `GenerateCountedDigits` returns with exactly `count` characters in the
buffer, each in `'0'..'9'`. With `R` the integer nearest to
`numerator / denominator * 10^(count - 1)`, a remainder of one half going up, `R` lies in
`[10^(count - 1), 10^count]`; below `10^count` the characters are the decimal digits of `R` and
the decimal point is unchanged; for `R = 10^count` (the carry has run through all the nines and
out of the first digit) they are `'1'` followed by zeros and the decimal point is one more. -/
theorem GenerateCountedDigits_rounding (dbl : double_format_context) (count : Int)
    (num den : Bignum) (hn : num.wf) (hd : den.wf) (hc : 1 ≤ count) (hdig : dbl.digits = [])
    (hge : den.value ≤ num.value) (hlt : num.value < 10 * den.value) :
    ∃ ds k, GenerateCountedDigits dbl count num den
        = some { dbl with digits := ds, decimal_point := k } ∧
      ds.length = count.toNat ∧ all_digits ds ∧
      10 ^ (count.toNat - 1) ≤ round_half_up (num.value * 10 ^ (count.toNat - 1)) den.value ∧
      round_half_up (num.value * 10 ^ (count.toNat - 1)) den.value ≤ 10 ^ count.toNat ∧
      (round_half_up (num.value * 10 ^ (count.toNat - 1)) den.value < 10 ^ count.toNat →
        digits_value ds = round_half_up (num.value * 10 ^ (count.toNat - 1)) den.value ∧
        k = dbl.decimal_point) ∧
      (round_half_up (num.value * 10 ^ (count.toNat - 1)) den.value = 10 ^ count.toNat →
        ds = 49 :: List.replicate (count.toNat - 1) 48 ∧ k = dbl.decimal_point + 1) := by
  have hpos : 0 < den.value := by omega
  obtain ⟨ds, k, e, hlen, hall, hlow, hcase⟩ :=
    GenerateCountedDigits_spec dbl count num den hn hd hpos hc hdig hge hlt
  obtain ⟨b1, b2⟩ := round_half_up_bounds num.value den.value (count.toNat - 1) hpos hge hlt
  have hn1 : count.toNat - 1 + 1 = count.toNat := by omega
  rw [hn1] at b2
  have hvlt := digits_value_lt ds hall
  rw [hlen] at hvlt
  refine ⟨ds, k, e, hlen, hall, b1, b2, ?_, ?_⟩
  · intro hR
    rcases hcase with ⟨h1, h2⟩ | ⟨h1, -, -⟩
    · exact ⟨h1, h2⟩
    · omega
  · intro hR
    rcases hcase with ⟨h1, -⟩ | ⟨-, h2, h3⟩
    · omega
    · refine ⟨?_, h3⟩
      apply digits_eq_of_value ds _ hall
      · exact (all_digits_cons _ _).2 ⟨⟨by omega, by omega⟩, all_digits_replicate _⟩
      · simp only [List.length_cons, List.length_replicate]; omega
      · rw [h2, digits_value_cons, digits_value_replicate_zero, List.length_replicate]
        omega

/-- C32 at `999 / 100` with two digits: `9.99` is rounded to `10`, the carry leaves the
first digit, and the buffer holds `"10"` with the decimal point moved from 0 to 1. -/
theorem GenerateCountedDigits_rounding_witness :
    ∃ ds k, GenerateCountedDigits (double_format_context.of_double 0) 2
        (Bignum.mk [999] 0) (Bignum.mk [100] 0)
        = some { double_format_context.of_double 0 with digits := ds, decimal_point := k } ∧
      ds.length = (2 : Int).toNat ∧ all_digits ds ∧
      10 ^ ((2 : Int).toNat - 1)
        ≤ round_half_up ((Bignum.mk [999] 0).value * 10 ^ ((2 : Int).toNat - 1))
            (Bignum.mk [100] 0).value ∧
      round_half_up ((Bignum.mk [999] 0).value * 10 ^ ((2 : Int).toNat - 1))
          (Bignum.mk [100] 0).value ≤ 10 ^ (2 : Int).toNat ∧
      (round_half_up ((Bignum.mk [999] 0).value * 10 ^ ((2 : Int).toNat - 1))
          (Bignum.mk [100] 0).value < 10 ^ (2 : Int).toNat →
        digits_value ds = round_half_up ((Bignum.mk [999] 0).value * 10 ^ ((2 : Int).toNat - 1))
            (Bignum.mk [100] 0).value ∧
        k = (double_format_context.of_double 0).decimal_point) ∧
      (round_half_up ((Bignum.mk [999] 0).value * 10 ^ ((2 : Int).toNat - 1))
          (Bignum.mk [100] 0).value = 10 ^ (2 : Int).toNat →
        ds = 49 :: List.replicate ((2 : Int).toNat - 1) 48 ∧
        k = (double_format_context.of_double 0).decimal_point + 1) :=
  GenerateCountedDigits_rounding (double_format_context.of_double 0) 2
    (Bignum.mk [999] 0) (Bignum.mk [100] 0) (wf_of_check _ (by decide))
    (wf_of_check _ (by decide)) (by decide) rfl (by decide) (by decide)


/-- The magnitude `neg ? (U)~i + 1u : i` of a signed integer of `w` bits is its absolute
value, also for the minimum `-2^(w-1)`. -/
theorem signed_magnitude_eq (w : Nat) (x : Int) (hw : 1 ≤ w)
    (hlo : -(2 : Int) ^ (w - 1) ≤ x) (hhi : x < 2 ^ (w - 1)) :
    (if decide (x < 0) = true then Int.toNat ((-x) % 2 ^ w) else Int.toNat x) = x.natAbs := by
  have hp : (2 : Int) ^ w = 2 * 2 ^ (w - 1) := by
    obtain ⟨k, rfl⟩ : ∃ k, w = k + 1 := ⟨w - 1, by omega⟩
    simp only [Nat.add_sub_cancel]
    ring
  have hpos : (0 : Int) < 2 ^ (w - 1) := by positivity
  by_cases hx : x < 0
  · simp only [hx, decide_True, if_true]
    rw [Int.emod_eq_of_lt (by omega) (by omega)]
    omega
  · simp only [hx, decide_False, Bool.false_eq_true, if_false]
    omega

/-- Reading back a decimal text written by `write_dec`, with or without a `'-'` in front. -/
theorem signed_value_write_dec (n : Nat) :
    signed_value (45 :: write_dec n) = -(n : Int) ∧ signed_value (write_dec n) = (n : Int) := by
  obtain ⟨h1, h2, h3, -, -⟩ := write_dec_spec n
  constructor
  · show -(digits_value (write_dec n) : Int) = _
    rw [h2]
  · cases hw : write_dec n with
    | nil => exact absurd hw h3
    | cons c t =>
      have hc := h1 c (by rw [hw]; simp)
      rw [hw] at h2
      have hne : c ≠ 45 := by omega
      unfold signed_value
      split
      · rename_i heq
        simp only [List.cons.injEq] at heq
        exact absurd heq.1 hne
      · rw [h2]

/-- C40: for a signed integer `x` of width `w`, the minimum `-2^(w-1)` included, `append_dec`
and `do_format_int` take the magnitude `|x|` (the two's-complement negation modulo `2^w` of a
negative `x`) as the unsigned value to render: `append_dec` appends `'-'`, if `x < 0`, and the
decimal digits of `|x|`; `do_format_int` hands `|x|` and the flag `x < 0` to `format_num` and
with the default spec appends the same text; the text read back as a signed decimal is `x`. -/
theorem signed_magnitude (w : Nat) (x : Int) (out : List Nat) (hw : 1 ≤ w)
    (hlo : -(2 : Int) ^ (w - 1) ≤ x) (hhi : x < 2 ^ (w - 1)) :
    append_dec_signed w out x = out ++ ((if x < 0 then [45] else []) ++ write_dec x.natAbs) ∧
    (∀ spec, do_format_int_signed w out spec x
      = format_num out spec x.natAbs (decide (x < 0))) ∧
    do_format_int_signed w out {} x
      = some (out ++ ((if x < 0 then [45] else []) ++ write_dec x.natAbs)) ∧
    all_digits (write_dec x.natAbs) ∧ digits_value (write_dec x.natAbs) = x.natAbs ∧
    signed_value ((if x < 0 then [45] else []) ++ write_dec x.natAbs) = x := by
  have hm := signed_magnitude_eq w x hw hlo hhi
  obtain ⟨d1, d2, -, -, -⟩ := write_dec_spec x.natAbs
  obtain ⟨s1, s2⟩ := signed_value_write_dec x.natAbs
  refine ⟨?_, ?_, ?_, d1, d2, ?_⟩
  · unfold append_dec_signed
    simp only [hm]
    by_cases hx : x < 0 <;> simp [hx]
  · intro spec
    unfold do_format_int_signed
    simp only [hm]
  · unfold do_format_int_signed
    simp only [hm]
    by_cases hx : x < 0 <;>
      simp [hx, format_num, format_num_digits, sign_char, add, add_padding]
  · by_cases hx : x < 0
    · simp only [hx, if_true, List.singleton_append]
      rw [s1]; omega
    · simp only [hx, if_false, List.nil_append]
      rw [s2]; omega

/-- C40 at the minimum `int`, `-2147483648`: the text is `"-2147483648"`. -/
theorem signed_magnitude_witness :
    append_dec_signed 32 [] (-2147483648)
      = [] ++ ((if (-2147483648 : Int) < 0 then [45] else [])
          ++ write_dec (-2147483648 : Int).natAbs) ∧
    (∀ spec, do_format_int_signed 32 [] spec (-2147483648)
      = format_num [] spec (-2147483648 : Int).natAbs (decide ((-2147483648 : Int) < 0))) ∧
    do_format_int_signed 32 [] {} (-2147483648)
      = some ([] ++ ((if (-2147483648 : Int) < 0 then [45] else [])
          ++ write_dec (-2147483648 : Int).natAbs)) ∧
    all_digits (write_dec (-2147483648 : Int).natAbs) ∧
    digits_value (write_dec (-2147483648 : Int).natAbs) = (-2147483648 : Int).natAbs ∧
    signed_value ((if (-2147483648 : Int) < 0 then [45] else [])
      ++ write_dec (-2147483648 : Int).natAbs) = -2147483648 :=
  signed_magnitude 32 (-2147483648) [] (by decide) (by decide) (by decide)

end univang.fmt.detail

namespace univang.fmt

open format_parse_context detail

/-- After `parse_arg_ref` the index is below the argument count unless the parser has failed:
the `get_arg` that follows in `vformat_to` and in `parse_uint_spec_arg`, both behind a test of
`fail()`, reads inside the array. -/
theorem detail.parse_arg_ref_in_range (p q : format_parse_context) (i : Nat)
    (h : parse_arg_ref p = some (i, q)) (hf : q.fail = false) :
    i < q.arg_count ∧ ∃ arg, q.get_arg i = some arg := by
  unfold parse_arg_ref at h
  have key : i < q.arg_count := by
    split at h
    · exact absurd h (by simp)
    · rename_i a r _
      by_cases hc : (!r.fail && decide (a ≥ r.arg_count)) = true
      · rw [if_pos hc] at h
        simp only [Option.some.injEq, Prod.mk.injEq] at h
        obtain ⟨-, rfl⟩ := h
        simp [fail, on_error] at hf
      · rw [if_neg hc] at h
        simp only [Option.some.injEq, Prod.mk.injEq] at h
        obtain ⟨rfl, rfl⟩ := h
        simp only [Bool.and_eq_true, Bool.not_eq_true', decide_eq_true_eq, not_and, not_le] at hc
        exact hc hf
  refine ⟨key, ?_⟩
  unfold get_arg
  unfold arg_count at key
  exact ⟨q.args.get ⟨i, key⟩, List.get?_eq_get key⟩

/-- C31 (code evaluation): with the arguments `"a"` and `"b"` the four templates of the test
give `"a to b"`, `"b to a"`, `"a to a"` and `"a to b"`, and `"{1} {} {0} {}"` gives `"b a a b"`:
an explicit index does not move the automatic counter. `"{2}"` and the third field of
`"{}{}{}"` fail with `"arg num out of range"`. But `parse_uint` reduces the index modulo `2^32`
without a test (`// TODO: check overflow`): `"{4294967296}"` with the one argument `"a"`
refers to index `2^32`, not below the count 1, and renders argument 0 without an error, and
`"{4294967297}"` with two arguments renders argument 1. -/
theorem explicit_index_wraps :
    (vformat_to [] (bytes "{} to {}")
        [format_arg.c_str 1000 (bytes "a"), format_arg.c_str 2000 (bytes "b")]).map
      (fun r => (r.1, r.2.err)) = some (bytes "a to b", none) ∧
    (vformat_to [] (bytes "{1} to {0}")
        [format_arg.c_str 1000 (bytes "a"), format_arg.c_str 2000 (bytes "b")]).map
      (fun r => (r.1, r.2.err)) = some (bytes "b to a", none) ∧
    (vformat_to [] (bytes "{0} to {}")
        [format_arg.c_str 1000 (bytes "a"), format_arg.c_str 2000 (bytes "b")]).map
      (fun r => (r.1, r.2.err)) = some (bytes "a to a", none) ∧
    (vformat_to [] (bytes "{} to {1}")
        [format_arg.c_str 1000 (bytes "a"), format_arg.c_str 2000 (bytes "b")]).map
      (fun r => (r.1, r.2.err)) = some (bytes "a to b", none) ∧
    (vformat_to [] (bytes "{1} {} {0} {}")
        [format_arg.c_str 1000 (bytes "a"), format_arg.c_str 2000 (bytes "b")]).map
      (fun r => (r.1, r.2.err)) = some (bytes "b a a b", none) ∧
    (vformat_to [] (bytes "{2}")
        [format_arg.c_str 1000 (bytes "a"), format_arg.c_str 2000 (bytes "b")]).map
      (fun r => (r.1, r.2.err))
      = some (bytes "arg num out of range", some (bytes "arg num out of range")) ∧
    (vformat_to [] (bytes "{}{}{}")
        [format_arg.c_str 1000 (bytes "a"), format_arg.c_str 2000 (bytes "b")]).map
      (fun r => (r.1, r.2.err))
      = some (bytes "abarg num out of range", some (bytes "arg num out of range")) ∧
    (parse_arg_ref (format_parse_context.init (bytes "4294967296\x7d")
        [format_arg.c_str 1000 (bytes "a")])).map (fun r => (r.1, r.2.err, r.2.rest))
      = some (0, none, bytes "\x7d") ∧
    (vformat_to [] (bytes "{4294967296}") [format_arg.c_str 1000 (bytes "a")]).map
      (fun r => (r.1, r.2.err)) = some (bytes "a", none) ∧
    (vformat_to [] (bytes "{4294967297}")
        [format_arg.c_str 1000 (bytes "a"), format_arg.c_str 2000 (bytes "b")]).map
      (fun r => (r.1, r.2.err)) = some (bytes "b", none) := by
  refine ⟨by decide, by decide, by decide, by decide, by decide, by decide, by decide, by decide,
    by decide, by decide⟩

end univang.fmt

namespace univang.fmt.detail.Bignum

/-! ## The number of used bigits in `DivideModuloIntBignum` -/

theorem Clamp_length_le (b : Bignum) : (Clamp b).bigits.length ≤ b.bigits.length := by
  unfold Clamp
  have := (drop_top_zeros_spec b.bigits).2.2.2
  simp only []
  split_ifs <;> simp <;> omega

theorem Align_length (b other : Bignum) :
    (Align b other).bigits.length = b.bigits.length + (b.exponent - other.exponent) := by
  unfold Align
  by_cases h : b.exponent > other.exponent
  · simp only [h, if_true, List.length_append, List.length_replicate]; omega
  · simp only [h, if_false]; omega

theorem Align_of_le (b other : Bignum) (h : b.exponent ≤ other.exponent) : Align b other = b := by
  unfold Align
  rw [if_neg (by omega)]

theorem SubtractBignum_loop_length (as os : List Nat) (borrow : Nat) :
    (SubtractBignum_loop as os borrow).length = as.length := by
  induction as generalizing os borrow with
  | nil => simp [SubtractBignum_loop]
  | cons a as ih =>
    cases os with
    | nil =>
      rw [SubtractBignum_loop]
      split_ifs
      · simp [ih]
      · rfl
    | cons o os =>
      rw [SubtractBignum_loop]
      simp [ih]

theorem SubtractBignum_length_le (b other : Bignum) (h : b.exponent ≤ other.exponent) :
    (b.SubtractBignum other).bigits.length ≤ b.bigits.length := by
  unfold SubtractBignum
  rw [Align_of_le b other h]
  refine le_trans (Clamp_length_le _) ?_
  simp only [List.length_append, List.length_take, List.length_drop, SubtractBignum_loop_length]
  omega

theorem SubtractTimes_small_length_le (n : Nat) (b other : Bignum)
    (h : b.exponent ≤ other.exponent) :
    (SubtractTimes_small n b other).bigits.length ≤ b.bigits.length ∧
    (SubtractTimes_small n b other).exponent ≤ other.exponent := by
  induction n generalizing b with
  | zero => exact ⟨le_rfl, h⟩
  | succ n ih =>
    simp only [SubtractTimes_small]
    have h1 := SubtractBignum_exponent_le b other
    have h2 := SubtractBignum_length_le b other h
    obtain ⟨i1, i2⟩ := ih (b.SubtractBignum other) (by omega)
    exact ⟨by omega, i2⟩

theorem SubtractTimes_loop_length (factor : Nat) (as os : List Nat) (borrow : Nat) :
    (SubtractTimes_loop factor as os borrow).1.length = as.length := by
  induction as generalizing os borrow with
  | nil => simp [SubtractTimes_loop]
  | cons a as ih =>
    cases os with
    | nil =>
      rw [SubtractTimes_loop]
      split_ifs
      · rfl
      · simp [ih]
    | cons o os =>
      rw [SubtractTimes_loop]
      simp [ih]

theorem SubtractTimes_length_le (b other : Bignum) (factor : Nat)
    (h : b.exponent ≤ other.exponent) :
    (SubtractTimes b other factor).bigits.length ≤ b.bigits.length ∧
    (SubtractTimes b other factor).exponent ≤ other.exponent := by
  unfold SubtractTimes
  by_cases h3 : factor < 3
  · simp only [h3, if_true]
    exact SubtractTimes_small_length_le factor b other h
  · simp only [h3, if_false]
    have hl : (List.take (other.exponent - b.exponent) b.bigits
        ++ (SubtractTimes_loop factor (List.drop (other.exponent - b.exponent) b.bigits)
            other.bigits 0).1).length ≤ b.bigits.length := by
      simp only [List.length_append, List.length_take, List.length_drop,
        SubtractTimes_loop_length]
      omega
    split_ifs
    · exact ⟨hl, h⟩
    · exact ⟨le_trans (Clamp_length_le _) hl, le_trans (Clamp_exponent_le _) h⟩

theorem DivideModulo_loop1_length (other : Bignum) (fuel : Nat) (b : Bignum) (acc : Nat)
    (r : Bignum) (acc' : Nat) (he : b.exponent ≤ other.exponent)
    (h : DivideModulo_loop1 other fuel b acc = some (r, acc')) :
    r.bigits.length ≤ b.bigits.length ∧ r.exponent ≤ other.exponent := by
  induction fuel generalizing b acc with
  | zero => simp [DivideModulo_loop1] at h
  | succ fuel ih =>
    rw [DivideModulo_loop1] at h
    by_cases hlen : b.BigitLength > other.BigitLength
    · simp only [hlen, if_true] at h
      obtain ⟨s1, s2⟩ := SubtractTimes_length_le b other (b.RawBigit (b.bigits.length - 1)) he
      obtain ⟨i1, i2⟩ := ih _ _ s2 h
      exact ⟨by omega, i2⟩
    · simp only [hlen, if_false, Option.some.injEq, Prod.mk.injEq] at h
      obtain ⟨rfl, -⟩ := h
      exact ⟨le_rfl, he⟩

theorem DivideModulo_loop2_length (other : Bignum) (fuel : Nat) (b : Bignum) (acc : Nat)
    (r : Bignum) (acc' : Nat) (he : b.exponent ≤ other.exponent)
    (h : DivideModulo_loop2 other fuel b acc = some (r, acc')) :
    r.bigits.length ≤ b.bigits.length := by
  induction fuel generalizing b acc with
  | zero => simp [DivideModulo_loop2] at h
  | succ fuel ih =>
    rw [DivideModulo_loop2] at h
    by_cases hle : LessEqual other b = true
    · simp only [hle, if_true] at h
      have s1 := SubtractBignum_length_le b other he
      have s2 := SubtractBignum_exponent_le b other
      have := ih _ _ (by omega) h
      omega
    · simp only [hle, Bool.false_eq_true, if_false, Option.some.injEq, Prod.mk.injEq] at h
      obtain ⟨rfl, -⟩ := h
      exact le_rfl

/-- After `Align(other)` the number of used bigits never grows in `DivideModuloIntBignum`:
every later step is a `SubtractTimes`, a `SubtractBignum` or a `Clamp`. -/
theorem DivideModuloIntBignum_length (b other r : Bignum) (q : Nat)
    (h : DivideModuloIntBignum b other = some (r, q)) :
    r.bigits.length ≤ (if b.BigitLength < other.BigitLength then b.bigits.length
      else b.bigits.length + (b.exponent - other.exponent)) := by
  unfold DivideModuloIntBignum at h
  by_cases hlen : b.BigitLength < other.BigitLength
  · simp only [hlen, if_true, Option.some.injEq, Prod.mk.injEq] at h ⊢
    obtain ⟨rfl, -⟩ := h
    exact le_rfl
  · simp only [hlen, if_false] at h ⊢
    have hal := Align_length b other
    have hae : (Align b other).exponent ≤ other.exponent := by
      rw [Align_exponent]; omega
    generalize Align b other = a at h hal hae
    cases h1 : DivideModulo_loop1 other (a.value + 1) a 0 with
    | none => rw [h1] at h; simp at h
    | some p =>
      obtain ⟨r1, acc1⟩ := p
      rw [h1] at h
      simp only [] at h
      obtain ⟨l1, l2⟩ := DivideModulo_loop1_length other _ a 0 r1 acc1 hae h1
      by_cases hsingle : other.bigits.length = 1
      · simp only [hsingle, if_true, Option.some.injEq, Prod.mk.injEq] at h
        obtain ⟨rfl, -⟩ := h
        refine le_trans (Clamp_length_le _) ?_
        simp only [List.length_set]
        omega
      · simp only [hsingle, if_false] at h
        obtain ⟨s1, s2⟩ := SubtractTimes_length_le r1 other
          (r1.RawBigit (r1.bigits.length - 1) / (other.RawBigit (other.bigits.length - 1) + 1)) l2
        split_ifs at h
        · simp only [Option.some.injEq, Prod.mk.injEq] at h
          obtain ⟨rfl, -⟩ := h
          omega
        · have := DivideModulo_loop2_length other _ _ _ r q s2 h
          omega

end univang.fmt.detail.Bignum

namespace univang.fmt.detail.Bignum

end univang.fmt.detail.Bignum

namespace univang.fmt.detail

/-! ## Member `round_up()` of the digit buffer -/

theorem round_up_digit_getD_zero (l : List Nat) (i : Nat) (hi : 1 ≤ i) :
    (round_up_digit l i).getD 0 0 = l.getD 0 0 := by
  unfold round_up_digit
  cases l with
  | nil => simp
  | cons a t =>
    obtain ⟨j, rfl⟩ : ∃ j, i = j + 1 := ⟨i - 1, by omega⟩
    simp

theorem set_getD_zero (l : List Nat) (i x : Nat) (hi : 1 ≤ i) :
    (l.set i x).getD 0 0 = l.getD 0 0 := by
  cases l with
  | nil => simp
  | cons a t =>
    obtain ⟨j, rfl⟩ : ∃ j, i = j + 1 := ⟨i - 1, by omega⟩
    simp

/-- The carry loop of `round_up()` is the carry loop of `GenerateCountedDigits` followed by
the test of the first digit, as long as the first digit is not `':'` before the carry reaches
it. -/
theorem round_up_loop_eq (i : Nat) (l : List Nat) (h0 : 1 ≤ i → l.getD 0 0 ≠ 58) :
    round_up_loop l i
      = (if (counted_carry_loop l i).getD 0 0 ≠ 58 then (counted_carry_loop l i, false)
          else ((counted_carry_loop l i).set 0 49, true)) := by
  induction i generalizing l with
  | zero =>
    rw [round_up_loop, counted_carry_loop]
  | succ i ih =>
    rw [round_up_loop, counted_carry_loop]
    by_cases hc : l.getD (i + 1) 0 ≠ 58
    · rw [if_pos hc, if_pos hc, if_pos (h0 (by omega))]
    · rw [if_neg hc, if_neg hc]
      apply ih
      intro hi
      rw [round_up_digit_getD_zero _ _ hi, set_getD_zero _ _ _ (by omega)]
      exact h0 (by omega)

/-- A number written without a leading zero has a leading digit. -/
theorem value_ge_of_head (l : List Nat) (hall : all_digits l) (hne : l ≠ [])
    (hh : l.head? ≠ some 48) : 10 ^ (l.length - 1) ≤ digits_value l := by
  cases l with
  | nil => exact absurd rfl hne
  | cons a t =>
    simp only [List.head?_cons, ne_eq, Option.some.injEq] at hh
    have ha := hall a (by simp)
    rw [digits_value_cons]
    simp only [List.length_cons, Nat.add_sub_cancel]
    have : 1 * 10 ^ t.length ≤ (a - 48) * 10 ^ t.length := Nat.mul_le_mul_right _ (by omega)
    omega

/-- Member `round_up()` on a buffer of decimal digits: the buffer keeps its length and holds
decimal digits again, a first digit other than `'0'` stays one, and the number written is one
more, or the buffer was all nines and is now `'1'` followed by zeros, with the flag set. -/
theorem round_up_spec (dbl : double_format_context) (ds0 : List Nat) (c0 : Nat)
    (hd : dbl.digits = ds0 ++ [c0]) (hall : all_digits (ds0 ++ [c0])) :
    all_digits dbl.round_up.1 ∧ dbl.round_up.1.length = ds0.length + 1 ∧
    ((ds0 ++ [c0]).head? ≠ some 48 → dbl.round_up.1.head? ≠ some 48) ∧
    (dbl.round_up.2 = false → digits_value dbl.round_up.1 = digits_value (ds0 ++ [c0]) + 1) ∧
    (dbl.round_up.2 = true → dbl.round_up.1 = 49 :: List.replicate ds0.length 48 ∧
      digits_value (ds0 ++ [c0]) + 1 = 10 ^ (ds0.length + 1)) := by
  obtain ⟨h1, h2⟩ := (all_digits_append _ _).1 hall
  have hc0 := h2 c0 (by simp)
  have hlen : (ds0 ++ [c0]).length - 1 = ds0.length := by simp
  have hup : round_up_digit (ds0 ++ [c0]) ds0.length = ds0 ++ [c0 + 1] := by
    unfold round_up_digit
    rw [getD_snoc, set_snoc, Nat.mod_eq_of_lt (by omega)]
  have hfirst : 1 ≤ ds0.length → (ds0 ++ [c0 + 1]).getD 0 0 ≠ 58 := by
    intro hl
    cases ds0 with
    | nil => simp at hl
    | cons a t =>
      have := h1 a (by simp)
      simp only [List.cons_append, List.getD_cons_zero]
      omega
  have hru : dbl.round_up = round_up_loop (ds0 ++ [c0 + 1]) ds0.length := by
    unfold double_format_context.round_up
    rw [hd, hlen, hup]
  rw [hru, round_up_loop_eq _ _ hfirst]
  obtain ⟨h, r, e1, e2, e3, e4, e5, e6⟩ := counted_carry_loop_spec ds0 (c0 + 1) h1 (by omega)
    (by omega)
  rw [e1]
  have hval : digits_value (ds0 ++ [c0 + 1]) = digits_value (ds0 ++ [c0]) + 1 := by
    rw [digits_value_append_single, digits_value_append_single]; omega
  have hvlt := digits_value_lt (ds0 ++ [c0]) hall
  have hrlt := digits_value_lt r e2
  rw [e6] at hrlt
  simp only [List.length_append, List.length_singleton] at hvlt
  rw [digits_value_cons, e6, hval] at e5
  simp only [List.getD_cons_zero]
  by_cases h58 : h ≠ 58
  · rw [if_pos h58]
    refine ⟨?_, by simp [e6], ?_, ?_, fun hc => absurd hc (by simp)⟩
    · exact (all_digits_cons _ _).2 ⟨⟨e3, by omega⟩, e2⟩
    · intro hne
      simp only [List.head?_cons, ne_eq, Option.some.injEq]
      intro h48
      rw [h48] at e5
      simp only [Nat.sub_self, zero_mul, zero_add] at e5
      -- the number written has a first digit other than zero
      have hge := value_ge_of_head (ds0 ++ [c0]) hall (by simp) hne
      rw [hlen] at hge
      omega
    · intro _
      show digits_value (h :: r) = _
      rw [digits_value_cons, e6]
      exact e5
  · rw [if_neg h58]
    have h58' : h = 58 := by omega
    rw [h58'] at e5
    have hp : (58 - 48) * 10 ^ ds0.length = 10 ^ (ds0.length + 1) := by
      rw [pow_succ]; ring
    rw [hp] at e5
    have hr0 : digits_value r = 0 := by omega
    have hreq : r = List.replicate ds0.length 48 := by
      apply digits_eq_of_value r _ e2 (all_digits_replicate _)
      · simp [e6]
      · rw [hr0, digits_value_replicate_zero]
    simp only [List.set_cons_zero]
    refine ⟨?_, by simp [e6], ?_, fun hc => absurd hc (by simp), fun _ => ⟨by rw [hreq], ?_⟩⟩
    · exact (all_digits_cons _ _).2 ⟨⟨by omega, by omega⟩, e2⟩
    · intro _
      simp
    · omega


/-! ## format_double_fixed.cpp: the 64-bit loop of `write_fraction_digits` -/

/-- The 64-bit digit loop of `write_fraction_digits` appends at most `count` decimal digits.
It is entered with `fractionals < 2^point`, `point <= 64`, and with `fractionals` small enough
for the first three multiplications by five (the source has `fractionals < 2^56` there). -/
theorem write_fraction_loop64_spec (count : Nat) (f point : Nat) (digits : List Nat)
    (hf : f < 2 ^ point) (hp : point ≤ 64)
    (h64 : point = 64 → f < 2 ^ 53) (h63 : point = 63 → f < 2 ^ 56) (h62 : point = 62 → f < 2 ^ 59) :
    ∃ ds f2 point2, write_fraction_loop64 count f point digits = (f2, point2, digits ++ ds) ∧
      all_digits ds ∧ ds.length ≤ count ∧ f2 < 2 ^ point2 ∧ point2 ≤ point ∧
      point2 + ds.length = point ∧ f * 5 ^ ds.length = digits_value ds * 2 ^ point2 + f2 ∧
      (ds.length < count → f2 = 0) := by
  induction count generalizing f point digits with
  | zero =>
    exact ⟨[], f, point, by simp [write_fraction_loop64], all_digits_nil, by simp, hf, le_rfl,
      by simp, by simp [digits_value_nil], by simp⟩
  | succ count ih =>
    rw [write_fraction_loop64]
    by_cases hz : f = 0
    · rw [if_pos hz]
      exact ⟨[], f, point, by simp, all_digits_nil, by simp, hf, le_rfl, by simp,
        by simp [digits_value_nil], fun _ => hz⟩
    · rw [if_neg hz]
      have hp1 : 1 ≤ point := by
        by_contra hc
        have : point = 0 := by omega
        rw [this] at hf
        simp at hf
        omega
      obtain ⟨q, rfl⟩ : ∃ q, point = q + 1 := ⟨point - 1, by omega⟩
      have hq : 0 < 2 ^ q := pow_pos (by norm_num) q
      have hpow : (2 : Nat) ^ (q + 1) = 2 * 2 ^ q := by rw [pow_succ]; ring
      -- no overflow in `fractionals *= 5`
      have h5 : f * 5 < 2 ^ 64 := by
        by_cases hq61 : q + 1 ≤ 61
        · have : (2 : Nat) ^ (q + 1) ≤ 2 ^ 61 := Nat.pow_le_pow_right (by norm_num) hq61
          omega
        · have : q + 1 = 62 ∨ q + 1 = 63 ∨ q + 1 = 64 := by omega
          rcases this with h | h | h
          · have := h62 h; omega
          · have := h63 h; omega
          · have := h64 h; omega
      simp only [Nat.add_sub_cancel]
      rw [Nat.mod_eq_of_lt h5, Nat.shiftRight_eq_div_pow]
      have hdig : f * 5 / 2 ^ q < 10 := by
        rw [Nat.div_lt_iff_lt_mul hq]; omega
      rw [Nat.mod_eq_of_lt (show f * 5 / 2 ^ q < 256 by omega),
        Nat.mod_eq_of_lt (show f * 5 / 2 ^ q + 48 < 256 by omega), Nat.shiftLeft_eq]
      have hdm := Nat.div_add_mod (f * 5) (2 ^ q)
      have hmod : f * 5 % 2 ^ q < 2 ^ q := Nat.mod_lt _ hq
      generalize hdv : f * 5 / 2 ^ q = d at *
      generalize hrv : f * 5 % 2 ^ q = r at *
      have hdq : d * 2 ^ q ≤ f * 5 := by rw [← hdm, Nat.mul_comm]; omega
      have hsub : (f * 5 + 2 ^ 64 - d * 2 ^ q % 2 ^ 64) % 2 ^ 64 = r := by
        rw [Nat.mod_eq_of_lt (show d * 2 ^ q < 2 ^ 64 by omega)]
        have : f * 5 + 2 ^ 64 - d * 2 ^ q = r + 2 ^ 64 := by
          rw [← hdm, Nat.mul_comm]; omega
        rw [this]
        omega
      rw [hsub]
      obtain ⟨ds, f2, p2, e1, e2, e3, e4, e5, e6, e7, e8⟩ := ih r q (digits ++ [d + 48]) hmod (by omega)
        (fun h => absurd h (by omega))
        (fun h => by
          have := h64 (by omega)
          have : r ≤ f * 5 := by omega
          omega)
        (fun h => by
          have := h63 (by omega)
          have : r ≤ f * 5 := by omega
          omega)
      refine ⟨(d + 48) :: ds, f2, p2, ?_, ?_, by simp; omega, e4, by omega, by simp; omega, ?_,
        fun h => e8 (by simpa using h)⟩
      · rw [e1]; simp
      · exact (all_digits_cons _ _).2 ⟨⟨by omega, by omega⟩, e2⟩
      · rw [digits_value_cons, List.length_cons, Nat.add_sub_cancel]
        have h2q : (2 : Nat) ^ q = 2 ^ p2 * 2 ^ ds.length := by rw [← pow_add, e6]
        have h10 : (10 : Nat) ^ ds.length = 2 ^ ds.length * 5 ^ ds.length := by
          rw [← Nat.mul_pow]
        calc f * 5 ^ (ds.length + 1) = (f * 5) * 5 ^ ds.length := by ring
          _ = (2 ^ q * d + r) * 5 ^ ds.length := by rw [hdm]
          _ = d * (2 ^ ds.length * 5 ^ ds.length) * 2 ^ p2 + r * 5 ^ ds.length := by
            rw [h2q]; ring
          _ = (d * 10 ^ ds.length + digits_value ds) * 2 ^ p2 + f2 := by
            rw [e7, h10]; ring


/-! ## format_double_fixed.cpp: the 128-bit loop of `write_fraction_digits` -/

/-- The block `x *= 5` on `(hi, lo)`: the high word is the high word of the exact product
whenever that fits; the low word stays below `2^64`. -/
theorem f128_times5_spec (hi lo : Nat) (hlo : lo < 2 ^ 64) (hhi : 5 * hi + 4 < 2 ^ 64) :
    (f128_times5 hi lo).1 = 5 * hi + 5 * lo / 2 ^ 64 ∧ (f128_times5 hi lo).2 < 2 ^ 64 := by
  unfold f128_times5
  simp only [and_mask32, Nat.shiftRight_eq_div_pow, Nat.shiftLeft_eq]
  have e0 : lo % 2 ^ 32 * 5 % 2 ^ 64 = lo % 2 ^ 32 * 5 := Nat.mod_eq_of_lt (by omega)
  rw [e0]
  have ha1 : lo % 2 ^ 32 * 5 / 2 ^ 32 ≤ 4 := by omega
  have hc3 : (lo % 2 ^ 32 * 5 / 2 ^ 32 + lo / 2 ^ 32 * 5) / 2 ^ 32 = 5 * lo / 2 ^ 64 := by omega
  generalize lo % 2 ^ 32 * 5 / 2 ^ 32 = a1 at *
  have e2 : (a1 + lo / 2 ^ 32 * 5) % 2 ^ 64 = a1 + lo / 2 ^ 32 * 5 := Nat.mod_eq_of_lt (by omega)
  rw [e2, hc3]
  have hcar : 5 * lo / 2 ^ 64 ≤ 4 := by omega
  generalize 5 * lo / 2 ^ 64 = a3 at *
  have e4 : (a3 + hi % 2 ^ 32 * 5) % 2 ^ 64 = a3 + hi % 2 ^ 32 * 5 := Nat.mod_eq_of_lt (by omega)
  rw [e4]
  have e5 : (a3 + hi % 2 ^ 32 * 5) % 2 ^ 32 % 2 ^ 32 = (a3 + hi % 2 ^ 32 * 5) % 2 ^ 32 := by omega
  rw [e5]
  have e6 : ((a3 + hi % 2 ^ 32 * 5) / 2 ^ 32 + hi / 2 ^ 32 * 5) % 2 ^ 64 =
      (a3 + hi % 2 ^ 32 * 5) / 2 ^ 32 + hi / 2 ^ 32 * 5 := Nat.mod_eq_of_lt (by omega)
  rw [e6]
  constructor
  · have e7 : ((a3 + hi % 2 ^ 32 * 5) / 2 ^ 32 + hi / 2 ^ 32 * 5) * 2 ^ 32 +
        (a3 + hi % 2 ^ 32 * 5) % 2 ^ 32 = 5 * hi + a3 := by omega
    rw [e7]
    exact Nat.mod_eq_of_lt (by omega)
  · exact Nat.mod_lt _ (by norm_num)

/-- The block `x *= 5` on `(hi, lo)` when the low 32 bits of `lo` are small enough to give no
carry (they are `0` at the start and `5` after each step): the upper 96 bits become the exact
product by five of the upper 96 bits, and the low 32 bits become `5`. -/
theorem f128_times5_upper (hi lo : Nat) (hlo : lo < 2 ^ 64) (hhi : 5 * hi + 4 < 2 ^ 64)
    (hlow : lo % 2 ^ 32 * 5 < 2 ^ 32) :
    (f128_times5 hi lo).2 % 2 ^ 32 = 5 ∧
    (f128_times5 hi lo).1 * 2 ^ 32 + (f128_times5 hi lo).2 / 2 ^ 32
      = 5 * (hi * 2 ^ 32 + lo / 2 ^ 32) := by
  obtain ⟨t1, -⟩ := f128_times5_spec hi lo hlo hhi
  rw [t1]
  unfold f128_times5
  simp only [and_mask32, Nat.shiftRight_eq_div_pow, Nat.shiftLeft_eq]
  have e0 : lo % 2 ^ 32 * 5 % 2 ^ 64 = lo % 2 ^ 32 * 5 := Nat.mod_eq_of_lt (by omega)
  rw [e0]
  have ha1 : lo % 2 ^ 32 * 5 / 2 ^ 32 = 0 := Nat.div_eq_of_lt hlow
  rw [ha1, Nat.zero_add]
  have e2 : lo / 2 ^ 32 * 5 % 2 ^ 64 = lo / 2 ^ 32 * 5 := Nat.mod_eq_of_lt (by omega)
  rw [e2]
  have e5 : (5 : Nat) % 2 ^ 32 % 2 ^ 32 = 5 := by norm_num
  rw [e5]
  have hcar : 5 * lo / 2 ^ 64 = lo / 2 ^ 32 * 5 / 2 ^ 32 := by omega
  rw [hcar]
  have hy1 : lo / 2 ^ 32 * 5 < 5 * 2 ^ 32 := by omega
  generalize hy : lo / 2 ^ 32 * 5 = y at *
  constructor
  · omega
  · omega

/-- The 128-bit digit loop of `write_fraction_digits` appends at most `count` decimal digits,
when it starts high enough (`count + 64 <= point`) for the branch `point >= 64` to be the only
one taken. -/
theorem write_fraction_loop128_spec (count : Nat) (hi lo point : Nat) (digits : List Nat)
    (hhi : hi < 2 ^ (point - 64)) (hlo : lo < 2 ^ 64) (hp : point ≤ 128)
    (hc : count + 64 ≤ point)
    (h128 : point = 128 → hi < 2 ^ 52) (h127 : point = 127 → hi < 2 ^ 55)
    (h126 : point = 126 → hi < 2 ^ 58) :
    ∃ ds hi2 lo2 point2, write_fraction_loop128 count hi lo point digits =
        (hi2, lo2, point2, digits ++ ds) ∧
      all_digits ds ∧ ds.length ≤ count ∧ point2 + ds.length = point ∧
      hi2 < 2 ^ (point2 - 64) ∧ lo2 < 2 ^ 64 ∧
      (lo % 2 ^ 32 * 5 < 2 ^ 32 →
        (hi * 2 ^ 32 + lo / 2 ^ 32) * 5 ^ ds.length
          = digits_value ds * 2 ^ (point2 - 32) + (hi2 * 2 ^ 32 + lo2 / 2 ^ 32) ∧
        (ds.length < count → hi2 = 0 ∧ lo2 = 0)) := by
  induction count generalizing hi lo point digits with
  | zero =>
    exact ⟨[], hi, lo, point, by simp [write_fraction_loop128], all_digits_nil, by simp, by simp,
      hhi, hlo, fun _ => ⟨by simp [digits_value_nil], by simp⟩⟩
  | succ count ih =>
    rw [write_fraction_loop128]
    by_cases hz : hi = 0 ∧ lo = 0
    · rw [if_pos hz]
      exact ⟨[], hi, lo, point, by simp, all_digits_nil, by simp, by simp, hhi, hlo,
        fun _ => ⟨by simp [digits_value_nil], fun _ => hz⟩⟩
    · rw [if_neg hz]
      obtain ⟨q, rfl⟩ : ∃ q, point = q + 65 := ⟨point - 65, by omega⟩
      have hq : 0 < 2 ^ q := pow_pos (by norm_num) q
      have hpow : (2 : Nat) ^ (q + 65 - 64) = 2 * 2 ^ q := by
        rw [show q + 65 - 64 = q + 1 by omega, pow_succ]; ring
      rw [hpow] at hhi
      have h5 : 5 * hi + 4 < 2 ^ 64 := by
        by_cases hq61 : q + 65 ≤ 125
        · have : (2 : Nat) ^ q ≤ 2 ^ 60 := Nat.pow_le_pow_right (by norm_num) (by omega)
          omega
        · have : q + 65 = 126 ∨ q + 65 = 127 ∨ q + 65 = 128 := by omega
          rcases this with h | h | h
          · have := h126 h; omega
          · have := h127 h; omega
          · have := h128 h; omega
      obtain ⟨t1, t2⟩ := f128_times5_spec hi lo hlo h5
      have hup : lo % 2 ^ 32 * 5 < 2 ^ 32 → (f128_times5 hi lo).2 % 2 ^ 32 = 5 ∧
          (f128_times5 hi lo).1 * 2 ^ 32 + (f128_times5 hi lo).2 / 2 ^ 32
            = 5 * (hi * 2 ^ 32 + lo / 2 ^ 32) := fun h => f128_times5_upper hi lo hlo h5 h
      have hpt : q + 65 - 1 ≥ 64 := by omega
      simp only [if_pos hpt]
      rw [show q + 65 - 1 - 64 = q by omega, show q + 65 - 1 = q + 64 by omega]
      generalize (f128_times5 hi lo).1 = h1 at *
      generalize (f128_times5 hi lo).2 = l1 at *
      have hcar : 5 * lo / 2 ^ 64 ≤ 4 := by omega
      generalize 5 * lo / 2 ^ 64 = car at *
      rw [Nat.shiftRight_eq_div_pow]
      have hdig : h1 / 2 ^ q < 10 := by
        rw [Nat.div_lt_iff_lt_mul hq]; omega
      rw [Nat.mod_eq_of_lt (show h1 / 2 ^ q < 256 by omega),
        Nat.mod_eq_of_lt (show h1 / 2 ^ q + 48 < 256 by omega), Nat.shiftLeft_eq]
      have hdm := Nat.div_add_mod h1 (2 ^ q)
      have hmod : h1 % 2 ^ q < 2 ^ q := Nat.mod_lt _ hq
      generalize hdv : h1 / 2 ^ q = d at *
      generalize hrv : h1 % 2 ^ q = r at *
      have hdq : d * 2 ^ q ≤ h1 := by rw [← hdm, Nat.mul_comm]; omega
      have hsub : (h1 + 2 ^ 64 - d * 2 ^ q % 2 ^ 64) % 2 ^ 64 = r := by
        rw [Nat.mod_eq_of_lt (show d * 2 ^ q < 2 ^ 64 by omega)]
        have : h1 + 2 ^ 64 - d * 2 ^ q = r + 2 ^ 64 := by
          rw [← hdm, Nat.mul_comm]; omega
        rw [this]
        omega
      rw [hsub]
      obtain ⟨ds, hi2, lo2, p2, e1, e2, e3, e4, e5, e6, e7⟩ := ih r l1 (q + 64) (digits ++ [d + 48])
        (by rw [show q + 64 - 64 = q by omega]; exact hmod) t2 (by omega) (by omega)
        (fun h => absurd h (by omega))
        (fun h => by
          have := h128 (by omega)
          have : r ≤ h1 := by omega
          omega)
        (fun h => by
          have := h127 (by omega)
          have : r ≤ h1 := by omega
          omega)
      refine ⟨(d + 48) :: ds, hi2, lo2, p2, ?_, ?_, by simp; omega, by simp; omega, e5, e6,
        fun hlow => ?_⟩
      · rw [e1]; simp
      · exact (all_digits_cons _ _).2 ⟨⟨by omega, by omega⟩, e2⟩
      · obtain ⟨u1, u2⟩ := hup hlow
        obtain ⟨v1, v2⟩ := e7 (by rw [u1]; norm_num)
        refine ⟨?_, fun h => v2 (by simpa using h)⟩
        rw [digits_value_cons, List.length_cons, Nat.add_sub_cancel]
        have hp2 : 64 ≤ p2 := by omega
        have h2q : (2 : Nat) ^ q * 2 ^ 32 = 2 ^ (p2 - 32) * 2 ^ ds.length := by
          rw [← pow_add, ← pow_add]; congr 1; omega
        have h10 : (10 : Nat) ^ ds.length = 2 ^ ds.length * 5 ^ ds.length := by
          rw [← Nat.mul_pow]
        calc (hi * 2 ^ 32 + lo / 2 ^ 32) * 5 ^ (ds.length + 1)
            = (5 * (hi * 2 ^ 32 + lo / 2 ^ 32)) * 5 ^ ds.length := by ring
          _ = ((2 ^ q * d + r) * 2 ^ 32 + l1 / 2 ^ 32) * 5 ^ ds.length := by rw [← u2, hdm]
          _ = d * 5 ^ ds.length * (2 ^ q * 2 ^ 32) + (r * 2 ^ 32 + l1 / 2 ^ 32) * 5 ^ ds.length := by
            ring
          _ = (d * 10 ^ ds.length + digits_value ds) * 2 ^ (p2 - 32)
              + (hi2 * 2 ^ 32 + lo2 / 2 ^ 32) := by
            rw [v1, h2q, h10]; ring


/-! ## format_double_fixed.cpp: rounding up and trimming -/

theorem write_dec_length (v n : Nat) (hn : 1 ≤ n) (hv : v < 10 ^ n) : (write_dec v).length ≤ n := by
  obtain ⟨h1, h2, h3, h4, h5⟩ := write_dec_spec v
  by_cases h0 : 0 < v
  · have hge := value_ge_of_head _ h1 h3 (h5 h0)
    rw [h2] at hge
    by_contra hc
    have : (10 : Nat) ^ n ≤ 10 ^ ((write_dec v).length - 1) :=
      Nat.pow_le_pow_right (by norm_num) (by omega)
    omega
  · have hv0 : v = 0 := by omega
    have hhead : (write_dec v).head? = some 48 := by
      rcases hl : write_dec v with _ | ⟨c, t⟩
      · exact absurd hl h3
      · rw [hl] at h1 h2
        rw [digits_value_cons] at h2
        have hc := ((all_digits_cons _ _).1 h1).1
        have hp : 0 < 10 ^ t.length := pow_pos (by norm_num) _
        have : (c - 48) * 10 ^ t.length = 0 := by omega
        rcases Nat.mul_eq_zero.1 this with h | h
        · simp only [List.head?_cons, Option.some.injEq]; omega
        · omega
    rw [h4 hhead]
    simpa using hn

theorem drop_length_takeWhile (p : Nat → Bool) (l : List Nat) :
    l.drop (l.takeWhile p).length = l.dropWhile p := by
  induction l with
  | nil => rfl
  | cons a t ih =>
    by_cases h : p a = true
    · simp [List.takeWhile_cons, List.dropWhile_cons, h, ih]
    · simp [List.takeWhile_cons, List.dropWhile_cons, h]

theorem head_dropWhile_ne (l : List Nat) :
    (l.dropWhile (fun d => decide (d = 48))).head? ≠ some 48 := by
  induction l with
  | nil => simp
  | cons a t ih =>
    by_cases h : a = 48
    · simpa [List.dropWhile_cons, h] using ih
    · simp [List.dropWhile_cons, h]

theorem all_digits_of_sublist (l t : List Nat) (h : List.Sublist t l) (hl : all_digits l) :
    all_digits t := fun c hc => hl c (h.subset hc)

/-- The trailing zeros trimmed leave a prefix of the digits. -/
theorem trim_trailing_zeros_prefix (l : List Nat) :
    ∃ z, l = trim_trailing_zeros l ++ z := by
  refine ⟨(l.reverse.takeWhile (fun d => decide (d = 48))).reverse, ?_⟩
  unfold trim_trailing_zeros
  rw [← List.reverse_append, List.takeWhile_append_dropWhile, List.reverse_reverse]

/-- Function `round_up(dbl)` of format_double_fixed.cpp keeps the digits decimal: an empty
buffer becomes `"1"` with decimal point 1, any other keeps its length and its decimal point
moves by at most one. -/
theorem fixed_round_up_spec (dbl : double_format_context) (hall : all_digits dbl.digits) :
    ∃ ds k, fixed_round_up dbl = { dbl with digits := ds, decimal_point := k } ∧
      all_digits ds ∧
      (dbl.digits = [] → ds = [49] ∧ k = 1) ∧
      (dbl.digits ≠ [] → ds.length = dbl.digits.length ∧ dbl.decimal_point ≤ k ∧
        k ≤ dbl.decimal_point + 1) := by
  unfold fixed_round_up
  by_cases h0 : dbl.digits.length = 0
  · rw [if_pos h0]
    have hnil : dbl.digits = [] := List.length_eq_zero.1 h0
    refine ⟨[49], 1, by rw [hnil]; rfl, all_digits_single _ (by omega) (by omega),
      fun _ => ⟨rfl, rfl⟩, fun h => absurd hnil h⟩
  · rw [if_neg h0]
    have hne : dbl.digits ≠ [] := fun h => h0 (by rw [h]; rfl)
    obtain ⟨ds0, c0, hd⟩ : ∃ ds0 c0, dbl.digits = ds0 ++ [c0] :=
      ⟨dbl.digits.dropLast, dbl.digits.getLast hne, (List.dropLast_append_getLast hne).symm⟩
    obtain ⟨r1, r2, -, -, -⟩ := round_up_spec dbl ds0 c0 hd (by rw [← hd]; exact hall)
    have hlen : dbl.round_up.1.length = dbl.digits.length := by rw [r2, hd]; simp
    simp only []
    by_cases hr : dbl.round_up.2 = true
    · rw [if_pos hr]
      exact ⟨_, _, rfl, r1, fun h => absurd h hne, fun _ => ⟨hlen, by omega, by omega⟩⟩
    · rw [if_neg hr]
      exact ⟨dbl.round_up.1, dbl.decimal_point, rfl, r1, fun h => absurd h hne,
        fun _ => ⟨hlen, by omega, by omega⟩⟩

/-- The trimming tail of `fast_fixed_dtoa` leaves decimal digits that do not start with `'0'`;
digits that fitted the requested fraction still fit it. -/
theorem fixed_trim_zeros_spec (dbl : double_format_context) (hall : all_digits dbl.digits)
    (hfit : (dbl.digits.length : Int) - dbl.decimal_point ≤ dbl.requested_digits) :
    ∃ ds k, fixed_trim_zeros dbl = { dbl with digits := ds, decimal_point := k } ∧
      all_digits ds ∧ ds.head? ≠ some 48 ∧ ds.length ≤ dbl.digits.length ∧
      (ds.length : Int) - k ≤ dbl.requested_digits ∧
      (k ≤ dbl.decimal_point ∨ k = -dbl.requested_digits) := by
  obtain ⟨z, hz⟩ := trim_trailing_zeros_prefix dbl.digits
  have hallt : all_digits (trim_trailing_zeros dbl.digits) := by
    rw [hz] at hall
    exact ((all_digits_append _ _).1 hall).1
  have hlent : (trim_trailing_zeros dbl.digits).length ≤ dbl.digits.length := by
    have := congrArg List.length hz
    rw [List.length_append] at this
    omega
  unfold fixed_trim_zeros
  simp only []
  generalize trim_trailing_zeros dbl.digits = t at *
  by_cases h0 : t.length = 0
  · rw [if_pos h0]
    have hnil : t = [] := List.length_eq_zero.1 h0
    subst hnil
    exact ⟨[], -dbl.requested_digits, rfl, all_digits_nil, by simp, by simp, by simp, Or.inr rfl⟩
  · rw [if_neg h0]
    by_cases h48 : t.getD 0 0 = 48
    · rw [if_pos h48]
      rw [drop_length_takeWhile]
      have hsub : List.Sublist (t.dropWhile (fun d => decide (d = 48))) t :=
        List.dropWhile_sublist _
      have hle : (t.takeWhile (fun d => decide (d = 48))).length ≤ t.length :=
        (List.takeWhile_sublist _).length_le
      have hlen : (t.dropWhile (fun d => decide (d = 48))).length
          = t.length - (t.takeWhile (fun d => decide (d = 48))).length := by
        rw [← drop_length_takeWhile, List.length_drop]
      refine ⟨_, _, rfl, all_digits_of_sublist _ _ hsub hallt, head_dropWhile_ne t, by omega,
        ?_, Or.inl (by omega)⟩
      rw [hlen]
      omega
    · rw [if_neg h48]
      refine ⟨t, dbl.decimal_point, rfl, hallt, ?_, hlent, by omega, Or.inl le_rfl⟩
      cases t with
      | nil => simp
      | cons a r =>
        simp only [List.getD_cons_zero] at h48
        simpa using h48


/-! ## format_double_fixed.cpp: `write_fraction_digits` and `fast_fixed_dtoa` -/

/-- Function `write_fraction_digits` appends at most `requested_digits` decimal digits and may
then round up: the digits stay decimal and at most `requested_digits` more of them lie behind
the decimal point than before. -/
theorem write_fraction_digits_spec (dbl : double_format_context) (f : Nat)
    (hall : all_digits dbl.digits) (h0 : dbl.digits = [] → dbl.decimal_point = 0)
    (hr0 : 0 ≤ dbl.requested_digits) (hr1 : dbl.requested_digits ≤ 20)
    (he0 : dbl.exponent < 0) (he1 : -128 ≤ dbl.exponent) (hf : f < 2 ^ 53)
    (hfe : -dbl.exponent ≤ 64 → f < 2 ^ (-dbl.exponent).toNat) :
    ∃ ds k, write_fraction_digits dbl f = { dbl with digits := ds, decimal_point := k } ∧
      all_digits ds ∧
      (ds.length : Int) - k ≤ (dbl.digits.length : Int) - dbl.decimal_point
        + dbl.requested_digits ∧
      ds.length ≤ dbl.digits.length + dbl.requested_digits.toNat + 1 ∧
      k ≤ dbl.decimal_point + 1 := by
  -- what is left to do once the digit loop has appended `ds1`
  have key : ∀ ds1 : List Nat, all_digits ds1 → ds1.length ≤ dbl.requested_digits.toNat →
      ∀ b : Bool, ∃ ds k,
        (if b = true then fixed_round_up { dbl with digits := dbl.digits ++ ds1 }
          else { dbl with digits := dbl.digits ++ ds1 })
          = { dbl with digits := ds, decimal_point := k } ∧
        all_digits ds ∧
        (ds.length : Int) - k ≤ (dbl.digits.length : Int) - dbl.decimal_point
          + dbl.requested_digits ∧
        ds.length ≤ dbl.digits.length + dbl.requested_digits.toNat + 1 ∧
        k ≤ dbl.decimal_point + 1 := by
    intro ds1 a1 a2 b
    have hall1 : all_digits (dbl.digits ++ ds1) := (all_digits_append _ _).2 ⟨hall, a1⟩
    have hlen1 : (dbl.digits ++ ds1).length = dbl.digits.length + ds1.length :=
      List.length_append _ _
    cases b
    · refine ⟨dbl.digits ++ ds1, dbl.decimal_point, by simp, hall1, ?_, by omega, by omega⟩
      rw [hlen1]
      push_cast
      omega
    · obtain ⟨ds, k, r1, r2, r3, r4⟩ := fixed_round_up_spec
        { dbl with digits := dbl.digits ++ ds1 } hall1
      simp only [if_true]
      rw [r1]
      refine ⟨ds, k, rfl, r2, ?_, ?_, ?_⟩
      · by_cases hn : dbl.digits ++ ds1 = []
        · obtain ⟨q1, q2⟩ := r3 hn
          have hd : dbl.digits = [] := (List.append_eq_nil.1 hn).1
          have := h0 hd
          rw [q1, q2, hd, this]
          simp only [List.length_singleton, List.length_nil]
          omega
        · obtain ⟨q1, q2, q3⟩ := r4 hn
          rw [q1, hlen1]
          simp only [] at q2
          push_cast
          omega
      · by_cases hn : dbl.digits ++ ds1 = []
        · rw [(r3 hn).1]; simp
        · rw [(r4 hn).1, hlen1]; omega
      · by_cases hn : dbl.digits ++ ds1 = []
        · have hd : dbl.digits = [] := (List.append_eq_nil.1 hn).1
          rw [(r3 hn).2, h0 hd]; omega
        · exact (r4 hn).2.2
  simp only [write_fraction_digits]
  by_cases hb : -dbl.exponent ≤ 64
  · rw [if_pos hb]
    have hfp := hfe hb
    have h53 : (2 : Nat) ^ 53 < 2 ^ 56 ∧ (2 : Nat) ^ 53 < 2 ^ 59 := by norm_num
    obtain ⟨ds1, f2, p2, e1, e2, e3, -⟩ := write_fraction_loop64_spec
      dbl.requested_digits.toNat f (-dbl.exponent).toNat dbl.digits hfp (by omega)
      (fun _ => hf) (fun _ => by omega) (fun _ => by omega)
    rw [e1]
    simp only []
    obtain ⟨ds, k, q⟩ := key ds1 e2 e3 (decide (f2 ≠ 0 ∧ (f2 >>> (p2 - 1)) &&& 1 = 1))
    refine ⟨ds, k, ?_⟩
    simpa only [decide_eq_true_eq] using q
  · rw [if_neg hb]
    have hs : 1 ≤ (-dbl.exponent).toNat - 64 := by omega
    have hhi : f >>> ((-dbl.exponent).toNat - 64) < 2 ^ 52 := by
      rw [Nat.shiftRight_eq_div_pow]
      have h2 : (2 : Nat) ^ 1 ≤ 2 ^ ((-dbl.exponent).toNat - 64) :=
        Nat.pow_le_pow_right (by norm_num) hs
      have : f / 2 ^ ((-dbl.exponent).toNat - 64) ≤ f / 2 ^ 1 := Nat.div_le_div_left h2 (by norm_num)
      omega
    have h52 : (2 : Nat) ^ 52 < 2 ^ 55 ∧ (2 : Nat) ^ 52 < 2 ^ 58 ∧ (2 : Nat) ^ 52 < 2 ^ (128 - 64) := by
      norm_num
    obtain ⟨ds1, hi2, lo2, p2, e1, e2, e3, -⟩ := write_fraction_loop128_spec
      dbl.requested_digits.toNat (f >>> ((-dbl.exponent).toNat - 64))
      ((f <<< (128 + dbl.exponent).toNat) % 2 ^ 64) 128 dbl.digits (by omega)
      (Nat.mod_lt _ (by norm_num)) le_rfl (by omega) (fun _ => hhi) (fun h => absurd h (by omega))
      (fun h => absurd h (by omega))
    rw [e1]
    simp only []
    obtain ⟨ds, k, q⟩ := key ds1 e2 e3
      (decide (((if p2 - 1 ≥ 64 then hi2 else lo2) >>>
        (if p2 - 1 ≥ 64 then p2 - 1 - 64 else p2 - 1)) &&& 1 ≠ 0))
    refine ⟨ds, k, ?_⟩
    simpa only [decide_eq_true_eq] using q


theorem ite_fst_lt (c : Prop) [Decidable c] (a b : Nat × Nat) (n : Nat) (ha : a.1 < n)
    (hb : b.1 < n) : (if c then a else b).1 < n := by
  split_ifs
  · exact ha
  · exact hb

theorem ite_snd_lt (c : Prop) [Decidable c] (a b : Nat × Nat) (n : Nat) (ha : a.2 < n)
    (hb : b.2 < n) : (if c then a else b).2 < n := by
  split_ifs
  · exact ha
  · exact hb

theorem write_17_digits_digits (dbl : double_format_context) (q1 q2 : Nat) (hdig : dbl.digits = []) :
    (write_17_digits (write_digits dbl q1) q2).digits
      = write_dec q1 ++ List.replicate (17 - (write_dec q2).length) 48 ++ write_dec q2 := by
  simp [write_17_digits, write_digits, hdig]

theorem write_digits_digits (dbl : double_format_context) (q : Nat) (hdig : dbl.digits = []) :
    (write_digits dbl q).digits = write_dec q := by
  simp [write_digits, hdig]

/-- The state of `fast_fixed_dtoa` before its trimming tail: decimal digits that fit the
requested fraction. -/
theorem fast_fixed_dtoa_untrimmed (dbl : double_format_context) (hm : dbl.significand < 2 ^ 53)
    (he1 : -1074 ≤ dbl.exponent) (hr0 : 0 ≤ dbl.requested_digits) (hdig : dbl.digits = [])
    (h20 : ¬ dbl.exponent > 20) (hr20 : ¬ dbl.requested_digits > 20) :
    ∃ ds k, fast_fixed_dtoa dbl
        = (true, fixed_trim_zeros { dbl with digits := ds, decimal_point := k }) ∧
      all_digits ds ∧ (ds.length : Int) - k ≤ dbl.requested_digits ∧ ds.length ≤ 40 ∧
      k ≤ 40 := by
  have p32 : (2 : Nat) ^ 32 < 10 ^ 10 := by norm_num
  have p64 : (2 : Nat) ^ 64 < 10 ^ 20 := by norm_num
  have p53 : (2 : Nat) ^ 53 < 10 ^ 16 := by norm_num
  simp only [fast_fixed_dtoa]
  rw [if_neg h20, if_neg hr20]
  by_cases hA : dbl.exponent + 53 > 64
  · rw [if_pos hA]
    refine ⟨_, _, rfl, ?_⟩
    rw [write_17_digits_digits _ _ _ hdig]
    have hq1 := ite_fst_lt (dbl.exponent > 17)
      (dbl.significand <<< (dbl.exponent - 17).toNat % 2 ^ 64 / 762939453125 % 2 ^ 32,
        (dbl.significand <<< (dbl.exponent - 17).toNat % 2 ^ 64 % 762939453125) <<< 17 % 2 ^ 64)
      (dbl.significand / (762939453125 <<< (17 - dbl.exponent).toNat % 2 ^ 64) % 2 ^ 32,
        (dbl.significand % (762939453125 <<< (17 - dbl.exponent).toNat % 2 ^ 64)) <<<
          dbl.exponent.toNat % 2 ^ 64) (2 ^ 32)
      (Nat.mod_lt _ (by norm_num)) (Nat.mod_lt _ (by norm_num))
    have hq2 := ite_snd_lt (dbl.exponent > 17)
      (dbl.significand <<< (dbl.exponent - 17).toNat % 2 ^ 64 / 762939453125 % 2 ^ 32,
        (dbl.significand <<< (dbl.exponent - 17).toNat % 2 ^ 64 % 762939453125) <<< 17 % 2 ^ 64)
      (dbl.significand / (762939453125 <<< (17 - dbl.exponent).toNat % 2 ^ 64) % 2 ^ 32,
        (dbl.significand % (762939453125 <<< (17 - dbl.exponent).toNat % 2 ^ 64)) <<<
          dbl.exponent.toNat % 2 ^ 64) (2 ^ 64)
      (Nat.mod_lt _ (by norm_num)) (Nat.mod_lt _ (by norm_num))
    generalize (if dbl.exponent > 17 then
      (dbl.significand <<< (dbl.exponent - 17).toNat % 2 ^ 64 / 762939453125 % 2 ^ 32,
        (dbl.significand <<< (dbl.exponent - 17).toNat % 2 ^ 64 % 762939453125) <<< 17 % 2 ^ 64)
      else (dbl.significand / (762939453125 <<< (17 - dbl.exponent).toNat % 2 ^ 64) % 2 ^ 32,
        (dbl.significand % (762939453125 <<< (17 - dbl.exponent).toNat % 2 ^ 64)) <<<
          dbl.exponent.toNat % 2 ^ 64)) = qr at *
    have l1 := write_dec_length qr.1 10 (by norm_num) (by omega)
    have l2 := write_dec_length qr.2 20 (by norm_num) (by omega)
    have hlen : (write_dec qr.1 ++ List.replicate (17 - (write_dec qr.2).length) 48
        ++ write_dec qr.2).length
        = (write_dec qr.1).length + (17 - (write_dec qr.2).length) + (write_dec qr.2).length := by
      simp only [List.length_append, List.length_replicate]
    refine ⟨?_, by omega, by omega, by omega⟩
    exact (all_digits_append _ _).2 ⟨(all_digits_append _ _).2
      ⟨(write_dec_spec _).1, all_digits_replicate _⟩, (write_dec_spec _).1⟩
  · rw [if_neg hA]
    by_cases hB : dbl.exponent ≥ 0
    · rw [if_pos hB]
      refine ⟨_, _, rfl, ?_⟩
      rw [write_digits_digits _ _ hdig]
      have l1 := write_dec_length (dbl.significand <<< dbl.exponent.toNat % 2 ^ 64) 20
        (by norm_num) (by
          have := Nat.mod_lt (dbl.significand <<< dbl.exponent.toNat) (show 0 < 2 ^ 64 by norm_num)
          omega)
      exact ⟨(write_dec_spec _).1, by omega, by omega, by omega⟩
    · rw [if_neg hB]
      by_cases hC : dbl.exponent > -53
      · rw [if_pos hC]
        obtain ⟨s, hs⟩ : ∃ s : Nat, (-dbl.exponent).toNat = s := ⟨_, rfl⟩
        rw [hs]
        have hs1 : s ≤ 52 := by omega
        have hpos : 0 < 2 ^ s := pow_pos (by norm_num) s
        have hI : dbl.significand >>> s < 2 ^ 53 := by
          rw [Nat.shiftRight_eq_div_pow]
          exact lt_of_le_of_lt (Nat.div_le_self _ _) hm
        have hF : (dbl.significand + 2 ^ 64 - ((dbl.significand >>> s) <<< s) % 2 ^ 64) % 2 ^ 64
            = dbl.significand % 2 ^ s := by
          rw [Nat.shiftRight_eq_div_pow, Nat.shiftLeft_eq]
          have hdm := Nat.div_add_mod dbl.significand (2 ^ s)
          have hml := Nat.mod_lt dbl.significand hpos
          generalize dbl.significand / 2 ^ s = d at *
          generalize dbl.significand % 2 ^ s = r at *
          have hd : d * 2 ^ s ≤ dbl.significand := by rw [← hdm, Nat.mul_comm]; omega
          rw [Nat.mod_eq_of_lt (show d * 2 ^ s < 2 ^ 64 by omega)]
          have : dbl.significand + 2 ^ 64 - d * 2 ^ s = r + 2 ^ 64 := by
            rw [← hdm, Nat.mul_comm]; omega
          rw [this]
          omega
        rw [hF]
        have hFs : dbl.significand % 2 ^ s < 2 ^ s := Nat.mod_lt _ hpos
        have l1 := write_dec_length (dbl.significand >>> s) 16 (by norm_num) (by omega)
        have hd0 := write_digits_digits dbl (dbl.significand >>> s) hdig
        obtain ⟨ds, k, w1, w2, w3, w4, w5⟩ := write_fraction_digits_spec
          { write_digits dbl (dbl.significand >>> s) with
            decimal_point := (write_digits dbl (dbl.significand >>> s)).digits.length }
          (dbl.significand % 2 ^ s)
          (by show all_digits (write_digits dbl (dbl.significand >>> s)).digits
              rw [hd0]; exact (write_dec_spec _).1)
          (fun h => by
            have h2 : (write_digits dbl (dbl.significand >>> s)).digits = [] := h
            rw [hd0] at h2
            exact absurd h2 (write_dec_spec _).2.2.1)
          hr0 (by show dbl.requested_digits ≤ 20; omega) (by show dbl.exponent < 0; omega)
          (by show -128 ≤ dbl.exponent; omega)
          (lt_of_le_of_lt (Nat.mod_le _ _) hm)
          (fun _ => by
            show dbl.significand % 2 ^ s < 2 ^ (-dbl.exponent).toNat
            rw [hs]; exact hFs)
        rw [w1]
        refine ⟨ds, k, rfl, w2, ?_, ?_, ?_⟩
        · have : (ds.length : Int) - k ≤ dbl.requested_digits := by
            simpa using w3
          exact this
        · have h1 : ds.length ≤ (write_digits dbl (dbl.significand >>> s)).digits.length
              + dbl.requested_digits.toNat + 1 := w4
          rw [hd0] at h1
          omega
        · have h1 : k ≤ ((write_digits dbl (dbl.significand >>> s)).digits.length : Int) + 1 := w5
          rw [hd0] at h1
          omega
      · rw [if_neg hC]
        by_cases hD : dbl.exponent < -128
        · rw [if_pos hD]
          exact ⟨[], -dbl.requested_digits, rfl, all_digits_nil, by simp, by simp, by omega⟩
        · rw [if_neg hD]
          obtain ⟨ds, k, w1, w2, w3, w4, w5⟩ := write_fraction_digits_spec
            { dbl with decimal_point := 0 } dbl.significand
            (by show all_digits dbl.digits; rw [hdig]; exact all_digits_nil)
            (fun _ => rfl) hr0 (by show dbl.requested_digits ≤ 20; omega)
            (by show dbl.exponent < 0; omega) (by show -128 ≤ dbl.exponent; omega) hm
            (fun _ => by
              show dbl.significand < 2 ^ (-dbl.exponent).toNat
              have : (2 : Nat) ^ 53 ≤ 2 ^ (-dbl.exponent).toNat :=
                Nat.pow_le_pow_right (by norm_num) (by omega)
              omega)
          rw [w1]
          refine ⟨ds, k, rfl, w2, ?_, ?_, ?_⟩
          · have h1 : (ds.length : Int) - k ≤ (dbl.digits.length : Int) - 0
                + dbl.requested_digits := w3
            rw [hdig] at h1
            simpa using h1
          · have h1 : ds.length ≤ dbl.digits.length + dbl.requested_digits.toNat + 1 := w4
            rw [hdig] at h1
            simp only [List.length_nil] at h1
            omega
          · have h1 : k ≤ (0 : Int) + 1 := w5
            omega

/-- Function `fast_fixed_dtoa`: when it declines, the context is unchanged; otherwise it leaves
decimal digits without a leading `'0'`, none of them beyond the requested fractional place. -/
theorem fast_fixed_dtoa_spec (dbl : double_format_context) (hm : dbl.significand < 2 ^ 53)
    (he1 : -1074 ≤ dbl.exponent) (hr0 : 0 ≤ dbl.requested_digits) (hdig : dbl.digits = []) :
    ((fast_fixed_dtoa dbl).1 = false → (fast_fixed_dtoa dbl).2 = dbl) ∧
    ((fast_fixed_dtoa dbl).1 = true → ∃ ds k,
      (fast_fixed_dtoa dbl).2 = { dbl with digits := ds, decimal_point := k } ∧
      all_digits ds ∧ ds.head? ≠ some 48 ∧ (ds.length : Int) - k ≤ dbl.requested_digits ∧
      ds.length ≤ 40 ∧ k ≤ 40) := by
  by_cases h20 : dbl.exponent > 20
  · have : fast_fixed_dtoa dbl = (false, dbl) := by
      simp only [fast_fixed_dtoa]; rw [if_pos h20]
    rw [this]
    exact ⟨fun _ => rfl, fun h => absurd h (by simp)⟩
  by_cases hr20 : dbl.requested_digits > 20
  · have : fast_fixed_dtoa dbl = (false, dbl) := by
      simp only [fast_fixed_dtoa]; rw [if_neg h20, if_pos hr20]
    rw [this]
    exact ⟨fun _ => rfl, fun h => absurd h (by simp)⟩
  obtain ⟨ds, k, e1, e2, e3, e4, e5⟩ := fast_fixed_dtoa_untrimmed dbl hm he1 hr0 hdig h20 hr20
  rw [e1]
  refine ⟨fun h => absurd h (by simp), fun _ => ?_⟩
  obtain ⟨ds2, k2, t1, t2, t3, t4, t5, t6⟩ := fixed_trim_zeros_spec
    { dbl with digits := ds, decimal_point := k } e2 e3
  refine ⟨ds2, k2, t1, t2, t3, t5, ?_, ?_⟩
  · have : ds2.length ≤ ds.length := t4
    omega
  · rcases t6 with h | h
    · have : k2 ≤ k := h
      omega
    · have : k2 = -dbl.requested_digits := h
      omega


/-! ## Grisu: `DigitGenCounted` -/

/-- The integral-digit loop of `DigitGenCounted` writes decimal digits, as many as it takes
from `digits_last`; the first of them is not `'0'` when `divisor <= integrals`. -/
theorem DigitGenCounted_loop1_spec (fuel : Nat) (dbl : double_format_context)
    (dl I kappa divisor : Nat) (hk : kappa ≤ fuel) (hdiv : 1 ≤ kappa → divisor = 10 ^ (kappa - 1))
    (hI : I < 10 ^ kappa) (hdl1 : 1 ≤ dl) (hdl2 : dl < 2 ^ 32) :
    ∃ ds dl2 I2 k2 div2, DigitGenCounted_loop1 fuel dbl dl I kappa divisor
        = ({ dbl with digits := dbl.digits ++ ds }, dl2, I2, k2, div2) ∧
      all_digits ds ∧ ds.length + dl2 = dl ∧
      (1 ≤ kappa → ds ≠ [] ∧ (10 ^ (kappa - 1) ≤ I → ds.head? ≠ some 48)) := by
  induction fuel generalizing dbl dl I kappa divisor with
  | zero =>
    have h0 : kappa = 0 := by omega
    exact ⟨[], dl, I, kappa, divisor, by simp [DigitGenCounted_loop1], all_digits_nil, by simp,
      fun h => absurd h (by omega)⟩
  | succ fuel ih =>
    simp only [DigitGenCounted_loop1]
    by_cases h1 : kappa > 0
    · rw [if_pos h1]
      have hd := hdiv h1
      have hpos : 0 < 10 ^ (kappa - 1) := pow_pos (by norm_num) _
      have hpow : (10 : Nat) ^ kappa = 10 * 10 ^ (kappa - 1) := by
        rw [← pow_succ', Nat.sub_add_cancel h1]
      rw [hd]
      have hdig : I / 10 ^ (kappa - 1) < 10 := by
        rw [Nat.div_lt_iff_lt_mul hpos]; omega
      have hmod : I % 10 ^ (kappa - 1) < 10 ^ (kappa - 1) := Nat.mod_lt _ hpos
      have hfirst : 10 ^ (kappa - 1) ≤ I → 1 ≤ I / 10 ^ (kappa - 1) := fun h =>
        (Nat.one_le_div_iff hpos).2 h
      rw [add_digit_eq dbl _ hdig]
      generalize I / 10 ^ (kappa - 1) = d at *
      have hdl : (dl + 2 ^ 32 - 1) % 2 ^ 32 = dl - 1 := by omega
      rw [hdl]
      by_cases h2 : dl - 1 = 0
      · rw [if_pos h2]
        refine ⟨[48 + d], dl - 1, _, _, _, rfl, all_digits_single _ (by omega) (by omega),
          by simp; omega, fun _ => ⟨by simp, fun h => ?_⟩⟩
        have := hfirst h
        simp only [List.head?_cons, ne_eq, Option.some.injEq]
        omega
      · rw [if_neg h2]
        obtain ⟨ds, dl2, I2, k2, div2, e1, e2, e3, -⟩ := ih
          { dbl with digits := dbl.digits ++ [48 + d] } (dl - 1) (I % 10 ^ (kappa - 1))
          (kappa - 1) (10 ^ (kappa - 1) / 10) (by omega)
          (fun h => by
            have : (10 : Nat) ^ (kappa - 1) = 10 * 10 ^ (kappa - 1 - 1) := by
              rw [← pow_succ', Nat.sub_add_cancel h]
            rw [this]
            exact Nat.mul_div_cancel_left _ (by norm_num))
          hmod (by omega) (by omega)
        refine ⟨(48 + d) :: ds, dl2, I2, k2, div2, by rw [e1]; simp, ?_, by simp; omega,
          fun _ => ⟨by simp, fun h => ?_⟩⟩
        · exact (all_digits_cons _ _).2 ⟨⟨by omega, by omega⟩, e2⟩
        · have := hfirst h
          simp only [List.head?_cons, ne_eq, Option.some.injEq]
          omega
    · rw [if_neg h1]
      exact ⟨[], dl, I, kappa, divisor, by simp, all_digits_nil, by simp,
        fun h => absurd h (by omega)⟩

/-- The fractional-digit loop of `DigitGenCounted` writes decimal digits, as many as it takes
from `digits_last`. -/
theorem DigitGenCounted_loop2_spec (s : Nat) (hs : s ≤ 60) (fuel : Nat)
    (dbl : double_format_context) (dl F we : Nat) (kappa : Int) (hF : F < 2 ^ s)
    (hdl2 : dl < 2 ^ 32) :
    ∃ ds dl2 F2 we2 k2, DigitGenCounted_loop2 s (2 ^ s) fuel dbl dl F we kappa
        = ({ dbl with digits := dbl.digits ++ ds }, dl2, F2, we2, k2) ∧
      all_digits ds ∧ ds.length + dl2 = dl := by
  have hs60 : (2 : Nat) ^ s ≤ 2 ^ 60 := Nat.pow_le_pow_right (by norm_num) hs
  have hsp : 0 < 2 ^ s := pow_pos (by norm_num) s
  induction fuel generalizing dbl dl F we kappa with
  | zero =>
    exact ⟨[], dl, F, we, kappa, by simp [DigitGenCounted_loop2], all_digits_nil, by simp⟩
  | succ fuel ih =>
    simp only [DigitGenCounted_loop2]
    by_cases h1 : dl ≠ 0 ∧ F > we
    · rw [if_pos h1]
      rw [mul64_eq F 10 (by omega), Nat.shiftRight_eq_div_pow, Nat.and_pow_two_sub_one_eq_mod]
      have hdig : F * 10 / 2 ^ s < 10 := by
        rw [Nat.div_lt_iff_lt_mul hsp]; omega
      have hmod : F * 10 % 2 ^ s < 2 ^ s := Nat.mod_lt _ hsp
      rw [add_digit_eq dbl _ hdig]
      generalize F * 10 / 2 ^ s = d at *
      have hdl : (dl + 2 ^ 32 - 1) % 2 ^ 32 = dl - 1 := by omega
      rw [hdl]
      obtain ⟨ds, dl2, F2, we2, k2, e1, e2, e3⟩ := ih
        { dbl with digits := dbl.digits ++ [48 + d] } (dl - 1) (F * 10 % 2 ^ s) (mul64 we 10)
        (kappa - 1) hmod (by omega)
      refine ⟨(48 + d) :: ds, dl2, F2, we2, k2, by rw [e1]; simp, ?_, by simp; omega⟩
      exact (all_digits_cons _ _).2 ⟨⟨by omega, by omega⟩, e2⟩
    · rw [if_neg h1]
      exact ⟨[], dl, F, we, kappa, by simp, all_digits_nil, by simp⟩

/-- Function `RoundWeedCounted` keeps the number of digits, keeps them decimal and keeps a
first digit other than `'0'`. -/
theorem RoundWeedCounted_spec (dbl : double_format_context) (rest ten_kappa unit : Nat)
    (kappa : Int) (hall : all_digits dbl.digits) (hne : dbl.digits ≠ []) :
    ∃ ok ds k, RoundWeedCounted dbl rest ten_kappa unit kappa = (ok, { dbl with digits := ds }, k) ∧
      all_digits ds ∧ ds.length = dbl.digits.length ∧
      (dbl.digits.head? ≠ some 48 → ds.head? ≠ some 48) := by
  have hsame : ∀ (ok : Bool) (k : Int), ∃ ok2 ds k2,
      (ok, dbl, k) = (ok2, { dbl with digits := ds }, k2) ∧
      all_digits ds ∧ ds.length = dbl.digits.length ∧
      (dbl.digits.head? ≠ some 48 → ds.head? ≠ some 48) :=
    fun ok k => ⟨ok, dbl.digits, k, rfl, hall, rfl, fun h => h⟩
  unfold RoundWeedCounted
  by_cases c1 : unit ≥ ten_kappa
  · rw [if_pos c1]; exact hsame _ _
  rw [if_neg c1]
  by_cases c2 : sub64 ten_kappa unit ≤ unit
  · rw [if_pos c2]; exact hsame _ _
  rw [if_neg c2]
  by_cases c3 : sub64 ten_kappa rest > rest ∧ sub64 ten_kappa (mul64 2 rest) ≥ mul64 2 unit
  · rw [if_pos c3]; exact hsame _ _
  rw [if_neg c3]
  by_cases c4 : rest > unit ∧ sub64 ten_kappa (sub64 rest unit) ≤ sub64 rest unit
  · rw [if_pos c4]
    obtain ⟨ds0, c0, hd⟩ : ∃ ds0 c0, dbl.digits = ds0 ++ [c0] :=
      ⟨dbl.digits.dropLast, dbl.digits.getLast hne, (List.dropLast_append_getLast hne).symm⟩
    obtain ⟨r1, r2, r3, -, -⟩ := round_up_spec dbl ds0 c0 hd (by rw [← hd]; exact hall)
    refine ⟨true, dbl.round_up.1, _, rfl, r1, by rw [r2, hd]; simp, fun h => r3 (by rw [← hd]; exact h)⟩
  · rw [if_neg c4]; exact hsame _ _

theorem BiggestPowerTen_eq (number bits : Nat) :
    BiggestPowerTen number bits
      = (kSmallPowersOfTen.getD (greater_power_of_ten number bits) 0,
          greater_power_of_ten number bits) := rfl


/-- Function `DigitGenCounted` on a scaled `w` (`2^62 <= w.f < 2^64`, `-60 <= w.e <= -32`) and
an empty buffer: the digits written are decimal and at most `requested_digits`; when it
accepts its result there are exactly `requested_digits` of them and the first is not `'0'`. -/
theorem DigitGenCounted_spec (dbl : double_format_context) (w : DiyFp)
    (hs1 : -60 ≤ w.e) (hs2 : w.e ≤ -32) (hf1 : 2 ^ 62 ≤ w.f) (hf2 : w.f < 2 ^ 64)
    (hdig : dbl.digits = []) (hr1 : 1 ≤ dbl.requested_digits)
    (hr2 : dbl.requested_digits < 2 ^ 32) :
    ∃ ok ds k, DigitGenCounted dbl w = (ok, { dbl with digits := ds }, k) ∧
      all_digits ds ∧ ds.length ≤ dbl.requested_digits.toNat ∧
      (ok = true → ds.length = dbl.requested_digits.toNat ∧ ds.head? ≠ some 48) := by
  obtain ⟨s, hs⟩ : ∃ s : Nat, (-w.e).toNat = s := ⟨_, rfl⟩
  have hs32 : 32 ≤ s := by omega
  have hs60 : s ≤ 60 := by omega
  have hsp : 0 < 2 ^ s := pow_pos (by norm_num) s
  have hp60 : (2 : Nat) ^ s ≤ 2 ^ 60 := Nat.pow_le_pow_right (by norm_num) hs60
  have hone : shl64 1 s = 2 ^ s := by rw [shl64_eq 1 s (by omega)]; simp
  have hsplit : (2 : Nat) ^ 64 = 2 ^ (64 - s) * 2 ^ s := by
    rw [← pow_add]; congr 1; omega
  have hsplit2 : (2 : Nat) ^ 62 = 2 ^ (64 - s - 2) * 2 ^ s := by
    rw [← pow_add]; congr 1; omega
  have hIlt : w.f / 2 ^ s < 2 ^ (64 - s) := by
    rw [Nat.div_lt_iff_lt_mul hsp, ← hsplit]; exact hf2
  have hIge : 2 ^ (64 - s - 2) ≤ w.f / 2 ^ s := by
    rw [Nat.le_div_iff_mul_le hsp, ← hsplit2]; exact hf1
  have hb32 : (2 : Nat) ^ (64 - s) ≤ 2 ^ 32 := Nat.pow_le_pow_right (by norm_num) (by omega)
  have hint : (w.f >>> s) % 2 ^ 32 = w.f / 2 ^ s := by
    rw [Nat.shiftRight_eq_div_pow]; exact Nat.mod_eq_of_lt (by omega)
  have hfrac : w.f &&& (2 ^ s - 1) = w.f % 2 ^ s := Nat.and_pow_two_sub_one_eq_mod _ _
  obtain ⟨g1, g2⟩ := greater_power_of_ten_spec (w.f / 2 ^ s) (64 - s) (by omega) (by omega) hIlt
  obtain ⟨g3, g4⟩ := greater_power_of_ten_lower (w.f / 2 ^ s) (64 - s) (by omega) (by omega) hIge
  have hdl : dbl.requested_digits.toNat % 2 ^ 32 = dbl.requested_digits.toNat := by omega
  simp only [DigitGenCounted]
  rw [hs, hone, hint, hfrac, hdl, BiggestPowerTen_eq]
  simp only []
  have hk := kSmallPowersOfTen_spec (greater_power_of_ten (w.f / 2 ^ s) (64 - s) - 1) (by omega)
  rw [Nat.sub_add_cancel g3] at hk
  rw [hk]
  generalize greater_power_of_ten (w.f / 2 ^ s) (64 - s) = kap at *
  generalize w.f / 2 ^ s = I at *
  obtain ⟨ds, dl2, I2, k2, div2, e1, e2, e3, e4⟩ := DigitGenCounted_loop1_spec kap dbl
    dbl.requested_digits.toNat I kap (10 ^ (kap - 1)) le_rfl (fun _ => rfl) g2 (by omega) (by omega)
  obtain ⟨e5, e6⟩ := e4 g3
  rw [e1, hdig, List.nil_append]
  simp only []
  by_cases c1 : dl2 = 0
  · rw [if_pos c1]
    obtain ⟨ok, ds2, k, r1, r2, r3, r4⟩ := RoundWeedCounted_spec { dbl with digits := ds }
      (add64 (shl64 I2 s) (w.f % 2 ^ s)) (shl64 div2 s) 1 k2 e2 e5
    rw [r1]
    have hl : ds2.length = ds.length := r3
    exact ⟨ok, ds2, k, rfl, r2, by omega, fun _ => ⟨by omega, r4 (e6 g4)⟩⟩
  · rw [if_neg c1]
    obtain ⟨ds2, dl3, F3, we3, k3, q1, q2, q3⟩ := DigitGenCounted_loop2_spec s hs60 dl2
      { dbl with digits := ds } dl2 (w.f % 2 ^ s) 1 k2 (Nat.mod_lt _ hsp) (by omega)
    rw [q1]
    simp only []
    have hlen : (ds ++ ds2).length = ds.length + ds2.length := List.length_append _ _
    have hall : all_digits (ds ++ ds2) := (all_digits_append _ _).2 ⟨e2, q2⟩
    by_cases c2 : dl3 ≠ 0
    · rw [if_pos c2]
      exact ⟨false, ds ++ ds2, k3, rfl, hall, by omega, fun h => absurd h (by simp)⟩
    · rw [if_neg c2]
      have hne : ds ++ ds2 ≠ [] := by
        intro h
        exact e5 (List.append_eq_nil.1 h).1
      have hhead : (ds ++ ds2).head? ≠ some 48 := by
        cases ds with
        | nil => exact absurd rfl e5
        | cons a t => simpa using e6 g4
      obtain ⟨ok, ds4, k, r1, r2, r3, r4⟩ := RoundWeedCounted_spec
        { dbl with digits := ds ++ ds2 } F3 (2 ^ s) we3 k3 hall hne
      rw [r1]
      have hl : ds4.length = (ds ++ ds2).length := r3
      exact ⟨ok, ds4, k, rfl, r2, by omega, fun _ => ⟨by omega, r4 hhead⟩⟩

/-- Function `grisu3_fixed_dtoa` on a finite non-zero double and an empty buffer: it only
changes the digits and the decimal point, and when it accepts its result it has written exactly
`requested_digits` decimal digits, the first of them not `'0'`. -/
theorem grisu3_fixed_dtoa_spec (dbl : double_format_context)
    (hm0 : 0 < dbl.significand) (hm : dbl.significand < 2 ^ 53)
    (he1 : -1074 ≤ dbl.exponent) (he2 : dbl.exponent ≤ 972)
    (hdig : dbl.digits = []) (hr1 : 1 ≤ dbl.requested_digits)
    (hr2 : dbl.requested_digits < 2 ^ 32) :
    ∃ ok ds k, grisu3_fixed_dtoa dbl = (ok, { dbl with digits := ds, decimal_point := k }) ∧
      (ok = true → ds.length = dbl.requested_digits.toNat ∧ all_digits ds ∧
        ds.head? ≠ some 48) := by
  obtain ⟨j, hj, w1, w2, w3, -⟩ := MakeNormalized_spec dbl hm0 hm
  have hwe : (DiyFp.MakeNormalized dbl).e = dbl.exponent - (j : Int) - 11 := by rw [w1]
  have hwf : (DiyFp.MakeNormalized dbl).f < 2 ^ 64 := by rw [w1]; exact w3
  have hwf2 : 2 ^ 63 ≤ (DiyFp.MakeNormalized dbl).f := by rw [w1]; exact w2
  obtain ⟨c1, c2, c3, c4⟩ := cached_power_spec (DiyFp.MakeNormalized dbl).e
    (by rw [hwe]; omega) (by rw [hwe]; omega)
  simp only [grisu3_fixed_dtoa]
  generalize hcp : GetCachedPowerForBinaryExponentRange (-60 - ((DiyFp.MakeNormalized dbl).e + 64))
    (-32 - ((DiyFp.MakeNormalized dbl).e + 64)) = cp at *
  obtain ⟨t1, t2, t3⟩ := Times_bounds (DiyFp.MakeNormalized dbl) cp.1 hwf c2
  have hprodL : 2 ^ 63 * 2 ^ 63 ≤ (DiyFp.MakeNormalized dbl).f * cp.1.f := Nat.mul_le_mul hwf2 c1
  have hprodU : (DiyFp.MakeNormalized dbl).f * cp.1.f ≤ (2 ^ 64 - 1) * (2 ^ 64 - 1) :=
    Nat.mul_le_mul (by omega) (by omega)
  generalize (DiyFp.MakeNormalized dbl).f * cp.1.f = P at *
  obtain ⟨ok, ds, k, d1, d2, d3, d4⟩ := DigitGenCounted_spec dbl
    (DiyFp.Times (DiyFp.MakeNormalized dbl) cp.1) (by rw [t1]; exact c3) (by rw [t1]; exact c4)
    (by omega) (by omega) hdig hr1 hr2
  rw [d1]
  cases ok
  · exact ⟨false, [], dbl.decimal_point, rfl, fun h => absurd h (by simp)⟩
  · exact ⟨true, ds, _, rfl, fun _ => ⟨(d4 rfl).1, d2, (d4 rfl).2⟩⟩


/-! ## format_double.cpp: what the digit generation leaves in the buffer -/

/-- A fixed-point encoding of a value below `10^B` has its decimal point at `B + 1` at most. -/
theorem encodes_fixed_point_le (ds : List Nat) (k : Int) (r B : Nat) (m : Nat) (e : Int)
    (h : encodes_fixed ds k r (fixed_rounding m e r)) (hv : double_value m e < 10 ^ B) :
    k ≤ B + 1 ∧ (ds.length : Int) ≤ k + r := by
  obtain ⟨h1, h2, h3, h4, h5⟩ := h
  refine ⟨?_, h3⟩
  by_cases hn : ds = []
  · have := h4 hn
    omega
  · have hge := value_ge_of_head ds h1 hn h2
    have hlen : 1 ≤ ds.length := List.length_pos.2 hn
    have hv0 : 0 ≤ double_value m e := by
      unfold double_value
      positivity
    -- the rounding is at most `10^(B + r)`
    have hR : fixed_rounding m e r ≤ 10 ^ (B + r) := by
      unfold fixed_rounding
      have hlt : double_value m e * 10 ^ r + 1 / 2 < ((10 ^ (B + r) + 1 : Nat) : ℚ) := by
        have h10 : (0 : ℚ) < 10 ^ r := by positivity
        have := mul_lt_mul_of_pos_right hv h10
        push_cast
        rw [pow_add]
        linarith
      have := (Nat.floor_lt (by positivity)).2 hlt
      omega
    by_contra hc
    have hexp : B + r + 1 ≤ ds.length - 1 + (k + r - ds.length).toNat := by omega
    have hpow : (10 : Nat) ^ (B + r + 1) ≤ 10 ^ (ds.length - 1 + (k + r - ds.length).toNat) :=
      Nat.pow_le_pow_right (by norm_num) hexp
    have hpow2 : (10 : Nat) ^ (B + r + 1)
        ≤ 10 ^ (ds.length - 1) * 10 ^ (k + r - ds.length).toNat := by
      rw [← pow_add]; exact hpow
    have hmul : 10 ^ (ds.length - 1) * 10 ^ (k + r - ds.length).toNat
        ≤ digits_value ds * 10 ^ (k + r - ds.length).toNat := Nat.mul_le_mul_right _ hge
    have hlt : (10 : Nat) ^ (B + r) < 10 ^ (B + r + 1) := Nat.pow_lt_pow_right (by norm_num) (by omega)
    rw [h5] at hmul
    exact absurd (lt_of_lt_of_le hlt (le_trans hpow2 (le_trans hmul hR))) (lt_irrefl _)

/-- In FIXED mode the digit generation leaves decimal digits that fit the requested fraction:
none lies beyond the `requested_digits`-th fractional place. The first digit is `'0'` only for
the value zero. -/
theorem generate_decimal_digits_fixed_spec (dbl : double_format_context) (h : decoded dbl)
    (hr : 0 ≤ dbl.requested_digits) (B : Nat)
    (hv : double_value dbl.significand dbl.exponent < 10 ^ B) :
    ∃ ds k, generate_decimal_digits dbl dtoa_mode.FIXED
        = some { dbl with digits := ds, decimal_point := k } ∧
      all_digits ds ∧ (dbl.value ≠ 0 → ds.head? ≠ some 48) ∧
      (dbl.value = 0 → ds = [48] ∧ k = 1) ∧
      (ds.length : Int) - k ≤ dbl.requested_digits ∧
      k ≤ max 40 ((B : Int) + 1) ∧
      (ds.length : Int) ≤ max 40 ((B : Int) + 1 + dbl.requested_digits) := by
  obtain ⟨h1, h2, h3, h4, h5, h6, h7⟩ := h
  unfold generate_decimal_digits
  simp only [reduceCtorEq, false_and, if_false]
  by_cases hz : dbl.value = 0
  · rw [if_pos hz]
    refine ⟨[48], 1, ?_, all_digits_single _ (by omega) (by omega), fun hc => absurd hz hc,
      fun _ => ⟨rfl, rfl⟩, by simp; omega, by omega, by simp⟩
    unfold double_format_context.add_digit
    rw [h7]
    rfl
  · rw [if_neg hz]
    have hm0 := h5 hz
    obtain ⟨f1, f2⟩ := fast_fixed_dtoa_spec dbl h1 h2 hr h7
    rcases hb : fast_fixed_dtoa dbl with ⟨ok, d⟩
    rw [hb] at f1 f2
    cases ok
    · simp only []
      have hd : d = dbl := f1 rfl
      rw [hd]
      obtain ⟨ds, k, g1, g2⟩ := bignum_dtoa_fixed { dbl with digits := [], decimal_point := 0 }
        dbl.requested_digits.toNat hm0 h1 h2 h3 h4 (by show dbl.requested_digits = _; omega) rfl
      rw [g1]
      obtain ⟨b1, b2⟩ := encodes_fixed_point_le ds k _ B _ _ g2 hv
      refine ⟨ds, k, rfl, g2.1, fun _ => g2.2.1, fun hc => absurd hc hz, ?_, by omega, ?_⟩
      · have : ((dbl.requested_digits.toNat : Nat) : Int) = dbl.requested_digits := by omega
        omega
      · have : ((dbl.requested_digits.toNat : Nat) : Int) = dbl.requested_digits := by omega
        omega
    · obtain ⟨ds, k, e1, e2, e3, e4, e5, e6⟩ := f2 rfl
      have hd : d = { dbl with digits := ds, decimal_point := k } := e1
      rw [hd]
      exact ⟨ds, k, rfl, e2, fun _ => e3, fun hc => absurd hc hz, e4, by omega, by omega⟩

/-- In PRECISION mode with a count of at least one the digit generation leaves exactly
`requested_digits` decimal digits, the first of them not `'0'` (the single digit `'0'` with
decimal point 1 for the value zero). -/
theorem generate_decimal_digits_precision_spec (dbl : double_format_context) (h : decoded dbl)
    (hr1 : 1 ≤ dbl.requested_digits) (hr2 : dbl.requested_digits < 2 ^ 32) :
    ∃ ds k, generate_decimal_digits dbl dtoa_mode.PRECISION
        = some { dbl with digits := ds, decimal_point := k } ∧
      all_digits ds ∧
      (dbl.value ≠ 0 → ds.length = dbl.requested_digits.toNat ∧ ds.head? ≠ some 48) ∧
      (dbl.value = 0 → ds = [48] ∧ k = 1) := by
  obtain ⟨h1, h2, h3, h4, h5, h6, h7⟩ := h
  unfold generate_decimal_digits
  simp only [true_and]
  rw [if_neg (show ¬ dbl.requested_digits = 0 by omega)]
  by_cases hz : dbl.value = 0
  · rw [if_pos hz]
    refine ⟨[48], 1, ?_, all_digits_single _ (by omega) (by omega), fun hc => absurd hz hc,
      fun _ => ⟨rfl, rfl⟩⟩
    unfold double_format_context.add_digit
    rw [h7]
    rfl
  · rw [if_neg hz]
    have hm0 := h5 hz
    obtain ⟨ok, ds, k, g1, g2⟩ := grisu3_fixed_dtoa_spec dbl hm0 h1 h2 h3 h7 hr1 hr2
    rw [g1]
    cases ok
    · simp only []
      obtain ⟨ds2, k2, kv, b1, b2, b3, b4, -⟩ := bignum_dtoa_precision
        { dbl with digits := [], decimal_point := 0 }
        dbl.requested_digits.toNat (by omega) hm0 h1 h2 h3 h4
        (by show dbl.requested_digits = _; omega) rfl
      have hb : bignum_dtoa { dbl with digits := [], decimal_point := 0 } dtoa_mode.PRECISION
          = some { dbl with digits := ds2, decimal_point := k2 } := b1
      refine ⟨ds2, k2, hb, b3, fun _ => ⟨b2, ?_⟩, fun hc => absurd hc hz⟩
      exact head_ne_zero_of_value ds2 b3 (by rw [b2]; exact b4)
    · obtain ⟨q1, q2, q3⟩ := g2 rfl
      exact ⟨ds, k, rfl, q2, fun _ => ⟨q1, q3⟩, fun hc => absurd hc hz⟩


/-! ## format_double.cpp: the size and the text of the decimal notation -/

theorem to_unsigned_cast (i : Int) (h0 : 0 ≤ i) (h1 : i < 2 ^ 32) : (to_unsigned i : Int) = i := by
  unfold to_unsigned
  omega

/-- On a context whose digits fit its fraction no `unsigned` difference of `format_decimal`
wraps around, and `decimal_format_size` is the number of bytes `format_decimal` appends. -/
theorem decimal_layout_of_fit (d : double_format_context)
    (hfit : (d.digits.length : Int) - d.decimal_point ≤ d.digits_after_point)
    (hdap : d.digits_after_point < 2 ^ 31) (hdp : d.decimal_point < 2 ^ 31)
    (hlen : d.digits.length < 2 ^ 31) :
    decimal_layout_ok d ∧
    ∀ out, (format_decimal out d).length = out.length + decimal_format_size d := by
  constructor
  · refine ⟨hfit, fun h1 h2 => ?_, fun h1 h2 => ?_, fun h1 h2 => ?_⟩
    · have e1 := to_unsigned_cast (-d.decimal_point) (by omega) (by omega)
      rw [e1]
      exact ⟨rfl, to_unsigned_cast _ (by omega) (by omega)⟩
    · have e1 := to_unsigned_cast d.decimal_point (by omega) (by omega)
      rw [e1]
      exact to_unsigned_cast _ (by omega) (by omega)
    · have e1 := to_unsigned_cast ((d.digits.length : Int) - d.decimal_point) (by omega) (by omega)
      rw [e1]
      exact ⟨by omega, rfl, to_unsigned_cast _ (by omega) (by omega)⟩
  · intro out
    unfold format_decimal decimal_format_size add add_padding
    by_cases h1 : d.decimal_point ≤ 0
    · simp only [h1, if_true]
      by_cases h2 : d.digits_after_point = 0
      · simp [h2]
      · have e1 := to_unsigned_cast (-d.decimal_point) (by omega) (by omega)
        have e2 := to_unsigned_cast ((d.digits_after_point : Int) - (-d.decimal_point)
          - d.digits.length) (by omega) (by omega)
        simp only [h2, ne_eq, not_false_eq_true, if_true, if_false, e1, List.length_append,
          List.length_replicate, List.length_singleton]
        omega
    · simp only [h1, if_false]
      by_cases h3 : d.decimal_point ≥ (d.digits.length : Int)
      · have e1 := to_unsigned_cast d.decimal_point (by omega) (by omega)
        have e2 := to_unsigned_cast (d.decimal_point - d.digits.length) (by omega) (by omega)
        simp only [h3, if_true, e1]
        by_cases h2 : d.digits_after_point = 0
        · simp only [h2, gt_iff_lt, lt_self_iff_false, if_false, ne_eq, not_true_eq_false,
            List.length_append, List.length_replicate]
          omega
        · have h2' : d.digits_after_point > 0 := by omega
          simp only [h2', if_true, h2, ne_eq, not_false_eq_true, List.length_append,
            List.length_replicate, List.length_singleton]
          omega
      · have e1 := to_unsigned_cast ((d.digits.length : Int) - d.decimal_point) (by omega)
          (by omega)
        have e2 := to_unsigned_cast ((d.digits_after_point : Int)
          - ((d.digits.length : Int) - d.decimal_point)) (by omega) (by omega)
        have e3 := to_unsigned_cast ((d.digits.length : Int) + 1 + d.digits_after_point
          - ((d.digits.length : Int) - d.decimal_point)) (by omega) (by omega)
        simp only [h3, if_false, e1, List.length_append, List.length_replicate,
          List.length_singleton, List.length_take, List.length_drop]
        omega


/-! ## format_double.cpp: the states left by the digit generators -/

theorem double_value_lt_of_exponent (m : Nat) (e : Int) (hm : m < 2 ^ 53) (he : e ≤ 147) :
    double_value m e < 10 ^ 61 := by
  unfold double_value
  have h1 : (m : ℚ) < 2 ^ 53 := by exact_mod_cast hm
  have h2 : (2 : ℚ) ^ e ≤ 2 ^ (147 : Int) := zpow_le_zpow_right₀ (by norm_num) he
  have h3 : (0 : ℚ) < 2 ^ e := by positivity
  have h4 : (m : ℚ) * 2 ^ e < 2 ^ 53 * 2 ^ (147 : Int) := by
    calc (m : ℚ) * 2 ^ e < 2 ^ 53 * 2 ^ e := mul_lt_mul_of_pos_right h1 h3
      _ ≤ 2 ^ 53 * 2 ^ (147 : Int) := mul_le_mul_of_nonneg_left h2 (by positivity)
  have h5 : (2 : ℚ) ^ 53 * 2 ^ (147 : Int) < 10 ^ 61 := by norm_num
  linarith

theorem of_double_exponent_le (u : Nat) (h : u < max_fixed_value) :
    (double_format_context.of_double u).exponent ≤ 147 := by
  unfold max_fixed_value at h
  unfold double_format_context.of_double
  simp only []
  split_ifs
  · show ((u / 2 ^ 52 % 2 ^ 11 : Nat) : Int) - 1075 ≤ 147
    omega
  · show (-1074 : Int) ≤ 147
    omega

/-- Function `generate_shortest` returns; it leaves at most 74 decimal digits, the first of
them `'0'` only for the value zero, and in decimal notation the digits fit the fraction. -/
theorem generate_shortest_spec (dbl : double_format_context) (h : decoded dbl) :
    ∃ d, generate_shortest dbl = some d ∧
      d.digits.length ≤ 74 ∧ all_digits d.digits ∧ (d.digits.head? = some 48 → dbl.value = 0) ∧
      (d.format_as_exponent = false → decimal_layout_ok d ∧
        ∀ out, (format_decimal out d).length = out.length + decimal_format_size d) := by
  obtain ⟨ds, c, k, e1, e2, e3, e4, e5, e6, e7, e8⟩ := generate_decimal_digits_shortest dbl h
  have hall : all_digits (ds ++ [c]) :=
    (all_digits_append _ _).2 ⟨e2, all_digits_single _ e3 e4⟩
  have hlen : (ds ++ [c]).length = ds.length + 1 := by simp
  have hhead : (ds ++ [c]).head? = some 48 → dbl.value = 0 := by
    intro hh
    by_contra hc
    exact e8 hc hh
  unfold generate_shortest
  rw [e1]
  simp only []
  by_cases hb : -6 ≤ k - 1 ∧ k - 1 ≤ 21
  · rw [if_pos hb]
    refine ⟨_, rfl, by show (ds ++ [c]).length ≤ 74; omega, hall, hhead, fun _ => ?_⟩
    have hu := to_unsigned_cast (max 0 (((ds ++ [c]).length : Int) - k)) (by omega) (by omega)
    apply decimal_layout_of_fit
    · show ((ds ++ [c]).length : Int) - k
        ≤ (to_unsigned (max 0 (((ds ++ [c]).length : Int) - k)) : Int)
      rw [hu]; omega
    · show to_unsigned (max 0 (((ds ++ [c]).length : Int) - k)) < 2 ^ 31
      omega
    · show k < 2 ^ 31
      omega
    · show (ds ++ [c]).length < 2 ^ 31
      omega
  · rw [if_neg hb]
    exact ⟨_, rfl, by show (ds ++ [c]).length ≤ 74; omega, hall, hhead,
      fun hf => absurd hf (by simp)⟩

/-- Function `generate_fixed` returns; when it does not decline it leaves at most 122 decimal
digits, the first of them `'0'` only for the value zero, and the digits fit the fraction. -/
theorem generate_fixed_spec (dbl : double_format_context) (h : decoded dbl)
    (hexp : dbl.value < max_fixed_value → dbl.exponent ≤ 147) :
    ∃ r, generate_fixed dbl = some r ∧ ∀ d, r = some d →
      d.digits.length ≤ 122 ∧ all_digits d.digits ∧ (d.digits.head? = some 48 → dbl.value = 0) ∧
      d.format_as_exponent = dbl.format_as_exponent ∧
      d.digits_after_point = (clamp dbl.requested_digits 0 60).toNat ∧
      (d.digits.length : Int) - d.decimal_point ≤ d.digits_after_point ∧
      d.decimal_point ≤ 62 ∧ decimal_layout_ok d ∧
      ∀ out, (format_decimal out d).length = out.length + decimal_format_size d := by
  have hc := clamp_bounds dbl.requested_digits 0 60 (by norm_num)
  unfold generate_fixed
  by_cases hbig : dbl.value ≥ max_fixed_value
  · rw [if_pos hbig]
    exact ⟨none, rfl, fun d hd => absurd hd (by simp)⟩
  · rw [if_neg hbig]
    simp only []
    have hv := double_value_lt_of_exponent dbl.significand dbl.exponent h.1 (hexp (by omega))
    obtain ⟨ds, k, e1, e2, e3, e4, e5, e6, e7⟩ := generate_decimal_digits_fixed_spec
      { dbl with requested_digits := clamp dbl.requested_digits 0 60 }
      (decoded_requested dbl _ h) (by show 0 ≤ clamp dbl.requested_digits 0 60; omega) 61 hv
    rw [e1]
    refine ⟨_, rfl, fun d hd => ?_⟩
    obtain rfl := Option.some.inj hd
    have e5b : (ds.length : Int) - k ≤ clamp dbl.requested_digits 0 60 := e5
    have e7b : (ds.length : Int) ≤ max 40 (((61 : Nat) : Int) + 1 + clamp dbl.requested_digits 0 60) := e7
    have hu := to_unsigned_cast (clamp dbl.requested_digits 0 60) (by omega) (by omega)
    have hhead : ds.head? = some 48 → dbl.value = 0 := by
      intro hh
      by_contra hc2
      exact e3 hc2 hh
    have hu2 : to_unsigned (clamp dbl.requested_digits 0 60)
        = (clamp dbl.requested_digits 0 60).toNat := by omega
    refine ⟨by show ds.length ≤ 122; omega, e2, hhead, rfl, hu2, ?_, by show k ≤ 62; omega, ?_⟩
    · show (ds.length : Int) - k ≤ (to_unsigned (clamp dbl.requested_digits 0 60) : Int)
      rw [hu]; exact e5b
    apply decimal_layout_of_fit
    · show (ds.length : Int) - k ≤ (to_unsigned (clamp dbl.requested_digits 0 60) : Int)
      rw [hu]; exact e5b
    · show to_unsigned (clamp dbl.requested_digits 0 60) < 2 ^ 31
      omega
    · show k < 2 ^ 31
      omega
    · show ds.length < 2 ^ 31
      omega

theorem pad_zero_digits_eq (dbl : double_format_context) :
    pad_zero_digits dbl = { dbl with
      digits := dbl.digits ++ List.replicate (to_unsigned dbl.requested_digits - dbl.digits.length) 48 } :=
  rfl

/-- The digits left by PRECISION mode, padded or not: at most `requested_digits` decimal
digits, the first `'0'` only for the value zero. -/
theorem precision_digits_spec (dbl : double_format_context) (h : decoded dbl)
    (hr1 : 1 ≤ dbl.requested_digits) (hr2 : dbl.requested_digits ≤ 121) :
    ∃ ds k, generate_decimal_digits dbl dtoa_mode.PRECISION
        = some { dbl with digits := ds, decimal_point := k } ∧
      all_digits ds ∧ 1 ≤ ds.length ∧ (ds.length : Int) ≤ dbl.requested_digits ∧
      (ds.head? = some 48 → dbl.value = 0) ∧
      (dbl.value = 0 → k = 1) ∧
      all_digits (ds ++ List.replicate (to_unsigned dbl.requested_digits - ds.length) 48) ∧
      (ds ++ List.replicate (to_unsigned dbl.requested_digits - ds.length) 48).length ≤ 121 ∧
      ((ds ++ List.replicate (to_unsigned dbl.requested_digits - ds.length) 48).head? = some 48
        → dbl.value = 0) := by
  obtain ⟨ds, k, e1, e2, e3, e4⟩ := generate_decimal_digits_precision_spec dbl h hr1 (by omega)
  have hu := to_unsigned_cast dbl.requested_digits (by omega) (by omega)
  have hlen : 1 ≤ ds.length ∧ (ds.length : Int) ≤ dbl.requested_digits := by
    by_cases hz : dbl.value = 0
    · rw [(e4 hz).1]; simp; omega
    · rw [(e3 hz).1]; omega
  have hhead : ds.head? = some 48 → dbl.value = 0 := by
    intro hh
    by_contra hc
    exact (e3 hc).2 hh
  refine ⟨ds, k, e1, e2, hlen.1, hlen.2, hhead, fun hz => (e4 hz).2,
    (all_digits_append _ _).2 ⟨e2, all_digits_replicate _⟩, ?_, ?_⟩
  · rw [List.length_append, List.length_replicate]
    omega
  · intro hh
    apply hhead
    cases ds with
    | nil => simp at hlen
    | cons a t => simpa using hh

/-- Function `generate_precision` returns; it leaves at most 120 decimal digits, the first of
them `'0'` only for the value zero, and in decimal notation the digits fit the fraction. -/
theorem generate_precision_spec (dbl : double_format_context) (h : decoded dbl) :
    ∃ d, generate_precision dbl = some d ∧
      d.digits.length ≤ 121 ∧ all_digits d.digits ∧ (d.digits.head? = some 48 → dbl.value = 0) ∧
      (d.format_as_exponent = false → decimal_layout_ok d ∧
        ∀ out, (format_decimal out d).length = out.length + decimal_format_size d) := by
  have hc := clamp_bounds dbl.requested_digits 1 120 (by norm_num)
  obtain ⟨ds, k, e1, e2, e3, e4, e5, e6, e7, e8, e9⟩ := precision_digits_spec
    { dbl with requested_digits := clamp dbl.requested_digits 1 120 }
    (decoded_requested dbl _ h) (by show 1 ≤ clamp dbl.requested_digits 1 120; omega)
    (by show clamp dbl.requested_digits 1 120 ≤ 121; omega)
  have e4b : (ds.length : Int) ≤ clamp dbl.requested_digits 1 120 := e4
  unfold generate_precision
  simp only []
  rw [e1]
  simp only []
  by_cases hb : -k + 1 > 6 ∨ k - clamp dbl.requested_digits 1 120 + 0 > 0
  · rw [if_pos hb]
    rw [pad_zero_digits_eq]
    exact ⟨_, rfl, e8, e7, e9, fun hf => absurd hf (by simp)⟩
  · rw [if_neg hb]
    have hu := to_unsigned_cast (max 0 (clamp dbl.requested_digits 1 120 - k)) (by omega)
      (by omega)
    refine ⟨_, rfl, by show ds.length ≤ 121; omega, e2, e5, fun _ => ?_⟩
    apply decimal_layout_of_fit
    · show (ds.length : Int) - k
        ≤ (to_unsigned (max 0 (clamp dbl.requested_digits 1 120 - k)) : Int)
      rw [hu]; omega
    · show to_unsigned (max 0 (clamp dbl.requested_digits 1 120 - k)) < 2 ^ 31
      omega
    · show k < 2 ^ 31
      omega
    · show ds.length < 2 ^ 31
      omega

/-- Function `generate_exponent` returns; it leaves at most 121 decimal digits, the first of
them `'0'` only for the value zero. -/
theorem generate_exponent_spec (dbl : double_format_context) (h : decoded dbl) :
    ∃ d, generate_exponent dbl = some d ∧
      d.digits.length ≤ 121 ∧ all_digits d.digits ∧
      (d.digits.head? = some 48 → dbl.value = 0) := by
  have hc := clamp_bounds dbl.requested_digits 0 120 (by norm_num)
  unfold generate_exponent
  simp only []
  by_cases hp : dbl.has_requested_digits = true
  · have hneg : (!dbl.has_requested_digits) = false := by rw [hp]; rfl
    simp only [hneg, Bool.false_eq_true, if_false]
    obtain ⟨ds, k, e1, e2, e3, e4, e5, e6, e7, e8, e9⟩ := precision_digits_spec
      { dbl with requested_digits := clamp dbl.requested_digits 0 120 + 1 }
      (decoded_requested dbl _ h) (by show 1 ≤ clamp dbl.requested_digits 0 120 + 1; omega)
      (by show clamp dbl.requested_digits 0 120 + 1 ≤ 121; omega)
    rw [e1]
    simp only []
    rw [pad_zero_digits_eq]
    exact ⟨_, rfl, e8, e7, e9⟩
  · have hneg : (!dbl.has_requested_digits) = true := by
      cases hh : dbl.has_requested_digits
      · rfl
      · exact absurd hh hp
    simp only [hneg, if_true]
    obtain ⟨ds, c, k, e1, e2, e3, e4, e5, e6, e7, e8⟩ := generate_decimal_digits_shortest
      { dbl with requested_digits := clamp dbl.requested_digits 0 120 } (decoded_requested dbl _ h)
    rw [e1]
    refine ⟨_, rfl, by show (ds ++ [c]).length ≤ 121; simp; omega,
      (all_digits_append _ _).2 ⟨e2, all_digits_single _ e3 e4⟩, fun hh => ?_⟩
    by_contra hc2
    exact e8 hc2 hh

/-- The digit generation selected by the type char returns; it leaves at most 122 decimal
digits in the buffer, the first of them `'0'` only for the value zero. -/
theorem generate_for_type_spec (spec : format_spec) (dbl : double_format_context)
    (h : decoded dbl) (hexp : dbl.value < max_fixed_value → dbl.exponent ≤ 147) :
    ∃ d, generate_for_type spec dbl = some d ∧
      d.digits.length ≤ 122 ∧ all_digits d.digits ∧
      (d.digits.head? = some 48 → dbl.value = 0) := by
  obtain ⟨d1, a1, a2, a3, a4⟩ := generate_exponent_spec dbl h
  obtain ⟨r2, b1, b2⟩ := generate_fixed_spec dbl h hexp
  obtain ⟨d3, c1, c2, c3, c4, -⟩ := generate_precision_spec dbl h
  obtain ⟨d4, f1, f2, f3, f4, -⟩ := generate_shortest_spec dbl h
  unfold generate_for_type
  split_ifs
  · exact ⟨d1, a1, by omega, a3, a4⟩
  · rw [b1]
    cases r2 with
    | none => exact ⟨d3, c1, by omega, c3, c4⟩
    | some d =>
      obtain ⟨g1, g2, g3, -⟩ := b2 d rfl
      exact ⟨d, rfl, g1, g2, g3⟩
  · exact ⟨d3, c1, by omega, c3, c4⟩
  · exact ⟨d4, f1, by omega, f3, f4⟩
  · refine ⟨dbl, rfl, ?_, ?_, ?_⟩
    · rw [h.2.2.2.2.2.2]; simp
    · rw [h.2.2.2.2.2.2]; exact all_digits_nil
    · rw [h.2.2.2.2.2.2]; simp


/-! ## The product by 100 of a non-zero double is not zero -/

theorem bit_length_down_lower (k n acc : Nat) (h : n < 2 ^ (2 ^ k)) :
    ∃ L, bit_length_down k n acc = acc + L ∧ (0 < n → 1 ≤ L ∧ 2 ^ (L - 1) ≤ n) := by
  induction k generalizing n acc with
  | zero =>
    rw [bit_length_down]
    have hn : n < 2 := by simpa using h
    by_cases h0 : n = 0
    · rw [if_pos h0]; exact ⟨0, rfl, fun hp => absurd h0 (by omega)⟩
    · rw [if_neg h0]; exact ⟨1, rfl, fun _ => ⟨le_rfl, by simp; omega⟩⟩
  | succ k ih =>
    rw [bit_length_down]
    have hp : 0 < 2 ^ (2 ^ k) := pow_pos (by norm_num) _
    have hsq : (2 : Nat) ^ (2 ^ (k + 1)) = 2 ^ (2 ^ k) * 2 ^ (2 ^ k) := by
      rw [← pow_add]; congr 1; rw [pow_succ]; ring
    by_cases hc : n ≥ 2 ^ (2 ^ k)
    · rw [if_pos hc]
      have hq : n >>> (2 ^ k) < 2 ^ (2 ^ k) := by
        rw [Nat.shiftRight_eq_div_pow, Nat.div_lt_iff_lt_mul hp, ← hsq]
        exact h
      have hq0 : 0 < n >>> (2 ^ k) := by
        rw [Nat.shiftRight_eq_div_pow]
        exact Nat.div_pos hc hp
      obtain ⟨L, e1, e2⟩ := ih (n >>> (2 ^ k)) (acc + 2 ^ k) hq
      obtain ⟨e3, e4⟩ := e2 hq0
      have hk : 0 < 2 ^ k := pow_pos (by norm_num) k
      refine ⟨2 ^ k + L, by rw [e1]; ring, fun _ => ⟨by omega, ?_⟩⟩
      rw [Nat.shiftRight_eq_div_pow, Nat.le_div_iff_mul_le hp] at e4
      have hx : 2 ^ k + L - 1 = L - 1 + 2 ^ k := by omega
      rw [hx, pow_add]
      exact e4
    · rw [if_neg hc]
      exact ih n acc (by omega)

/-- The model `bit_length` is exact on positive numbers: `2^(bit_length n - 1) <= n`. -/
theorem two_pow_bit_length_le (n : Nat) (hn : 0 < n) :
    1 ≤ bit_length n ∧ 2 ^ (bit_length n - 1) ≤ n := by
  have h1 : n < 2 ^ (2 ^ (0 + n)) := by
    have a : n < 2 ^ n := Nat.lt_pow_self (by norm_num) n
    have b : (2 : Nat) ^ n ≤ 2 ^ (2 ^ (0 + n)) := by
      rw [Nat.zero_add]
      exact Nat.pow_le_pow_right (by norm_num) (le_of_lt a)
    omega
  obtain ⟨L, e1, e2⟩ := bit_length_down_lower _ n 0 (bit_length_up_spec n 0 n h1)
  unfold bit_length
  rw [e1, Nat.zero_add]
  exact e2 hn

/-- The rounding of a positive product is not the pattern of zero. -/
theorem double_of_scaled_ne_zero (m : Nat) (e : Int) (hm : 0 < m) (he : -1074 ≤ e) :
    double_of_scaled m e ≠ 0 := by
  unfold double_of_scaled
  rw [if_neg (show ¬ m = 0 by omega)]
  simp only []
  obtain ⟨hl1, hl2⟩ := two_pow_bit_length_le m hm
  generalize bit_length m = len at *
  generalize hq0 : max (e + (len : Int) - 53) (-1074) = q0
  have hq1 : e + (len : Int) - 53 ≤ q0 := by rw [← hq0]; exact le_max_left _ _
  have hq2 : -1074 ≤ q0 := by rw [← hq0]; exact le_max_right _ _
  have hq3 : q0 = e + (len : Int) - 53 ∨ q0 = -1074 := by
    rw [← hq0]; rcases max_choice (e + (len : Int) - 53) (-1074) with h | h <;> omega
  have hmant : 1 ≤ (if q0 ≤ e then m * 2 ^ (e - q0).toNat
      else if m % 2 ^ (q0 - e).toNat > 2 ^ ((q0 - e).toNat - 1) ∨
          (m % 2 ^ (q0 - e).toNat = 2 ^ ((q0 - e).toNat - 1) ∧ m >>> (q0 - e).toNat % 2 = 1)
        then m >>> (q0 - e).toNat + 1 else m >>> (q0 - e).toNat) := by
    by_cases hc : q0 ≤ e
    · rw [if_pos hc]
      exact Nat.mul_pos hm (pow_pos (by norm_num) _)
    · rw [if_neg hc]
      obtain ⟨s, hs⟩ : ∃ s : Nat, (q0 - e).toNat = s := ⟨_, rfl⟩
      rw [hs]
      have hsp : 0 < 2 ^ s := pow_pos (by norm_num) s
      have hle : s ≤ len - 1 := by omega
      have ht : 1 ≤ m >>> s := by
        rw [Nat.shiftRight_eq_div_pow, Nat.le_div_iff_mul_le hsp, Nat.one_mul]
        exact le_trans (Nat.pow_le_pow_right (by norm_num) hle) hl2
      split_ifs <;> omega
  generalize (if q0 ≤ e then m * 2 ^ (e - q0).toNat
      else if m % 2 ^ (q0 - e).toNat > 2 ^ ((q0 - e).toNat - 1) ∨
          (m % 2 ^ (q0 - e).toNat = 2 ^ ((q0 - e).toNat - 1) ∧ m >>> (q0 - e).toNat % 2 = 1)
        then m >>> (q0 - e).toNat + 1 else m >>> (q0 - e).toNat) = mant0 at *
  by_cases h53 : mant0 = 2 ^ 53
  · simp only [h53, if_true]
    rw [if_neg (by norm_num)]
    by_cases hinf : q0 + 1 + 1075 ≥ 2047
    · rw [if_pos hinf]; norm_num
    · rw [if_neg hinf]
      have : 1 ≤ (q0 + 1 + 1075).toNat := by omega
      omega
  · simp only [h53, if_false]
    by_cases hsub : mant0 < 2 ^ 52
    · rw [if_pos hsub]; omega
    · rw [if_neg hsub]
      by_cases hinf : q0 + 1075 ≥ 2047
      · rw [if_pos hinf]; norm_num
      · rw [if_neg hinf]
        have : 1 ≤ (q0 + 1075).toNat := by omega
        omega

/-- The statement `value *= 100` gives zero only for zero. -/
theorem double_times_100_eq_zero (v : Nat) (hv : v < 2 ^ 63) (h : double_times_100 v = 0) :
    v = 0 := by
  by_contra hc
  obtain ⟨-, -, h3, -, -, h6, -⟩ := of_double_lt v hv
  exact double_of_scaled_ne_zero _ _ (Nat.mul_pos (h6 hc) (by norm_num)) h3 h


/-! ## The decimal notation: size and text; the digit buffer -/

theorem fraction_length_of_point (ip fp : List Nat) (h : 46 ∉ ip) :
    fraction_length (ip ++ 46 :: fp) = fp.length := by
  unfold fraction_length
  induction ip with
  | nil => simp
  | cons a t ih =>
    have ha : a ≠ 46 := fun hc => h (by simp [hc])
    have ht : 46 ∉ t := fun hc => h (by simp [hc])
    simpa [List.dropWhile_cons, ha] using ih ht

theorem fraction_length_no_point (t : List Nat) (h : 46 ∉ t) : fraction_length t = 0 := by
  unfold fraction_length
  induction t with
  | nil => simp
  | cons a t ih =>
    have ha : a ≠ 46 := fun hc => h (by simp [hc])
    have ht : 46 ∉ t := fun hc => h (by simp [hc])
    simpa [List.dropWhile_cons, ha] using ih ht

theorem point_not_mem_digits (l : List Nat) (h : all_digits l) : 46 ∉ l := by
  intro hc
  have := h 46 hc
  omega

theorem digits_value_append_zeros (l : List Nat) (n : Nat) :
    digits_value (l ++ List.replicate n 48) = digits_value l * 10 ^ n := by
  rw [digits_value_append, digits_value_replicate_zero, List.length_replicate, Nat.add_zero]

theorem digits_value_zeros_append (l : List Nat) (n : Nat) :
    digits_value (List.replicate n 48 ++ l) = digits_value l := by
  rw [digits_value_append, digits_value_replicate_zero, Nat.zero_mul, Nat.zero_add]

/-- The decimal notation of a context whose digits fit its fraction is an integral part of
decimal digits, followed, unless `digits_after_point` is 0, by a point and exactly
`digits_after_point` decimal digits; read without the point, the text is the number
`digits * 10^(decimal_point + digits_after_point - digit_count)`. -/
theorem format_decimal_parts (d : double_format_context) (hall : all_digits d.digits)
    (hfit : (d.digits.length : Int) - d.decimal_point ≤ d.digits_after_point)
    (hdap : d.digits_after_point < 2 ^ 31) (hdp : d.decimal_point < 2 ^ 31)
    (hlen : d.digits.length < 2 ^ 31) :
    ∃ ip fp, format_decimal [] d
        = ip ++ (if d.digits_after_point ≠ 0 then 46 :: fp else []) ∧
      all_digits ip ∧ ip ≠ [] ∧ all_digits fp ∧ fp.length = d.digits_after_point ∧
      digits_value (ip ++ fp) = digits_value d.digits
        * 10 ^ (d.decimal_point + d.digits_after_point - d.digits.length).toNat := by
  unfold format_decimal add add_padding
  by_cases h1 : d.decimal_point ≤ 0
  · simp only [h1, if_true]
    by_cases h2 : d.digits_after_point = 0
    · have hnil : d.digits = [] := List.length_eq_zero.1 (by omega)
      refine ⟨[48], List.replicate d.digits_after_point 48, by simp [h2],
        all_digits_single _ (by omega) (by omega), by simp, all_digits_replicate _, by simp, ?_⟩
      rw [hnil, h2]
      simp [digits_value_nil, digits_value]
    · have e1 := to_unsigned_cast (-d.decimal_point) (by omega) (by omega)
      have e2 := to_unsigned_cast ((d.digits_after_point : Int) - (-d.decimal_point)
        - d.digits.length) (by omega) (by omega)
      refine ⟨[48], List.replicate (-d.decimal_point).toNat 48 ++ d.digits
        ++ List.replicate (to_unsigned ((d.digits_after_point : Int)
            - to_unsigned (-d.decimal_point) - d.digits.length)) 48, by simp [h2],
        all_digits_single _ (by omega) (by omega), by simp, ?_, ?_, ?_⟩
      · exact (all_digits_append _ _).2 ⟨(all_digits_append _ _).2
          ⟨all_digits_replicate _, hall⟩, all_digits_replicate _⟩
      · simp only [List.length_append, List.length_replicate, e1]
        omega
      · have hz : [48] ++ (List.replicate (-d.decimal_point).toNat 48 ++ d.digits
            ++ List.replicate (to_unsigned ((d.digits_after_point : Int)
              - to_unsigned (-d.decimal_point) - d.digits.length)) 48)
            = List.replicate ((-d.decimal_point).toNat + 1) 48 ++ (d.digits
            ++ List.replicate (to_unsigned ((d.digits_after_point : Int)
              - to_unsigned (-d.decimal_point) - d.digits.length)) 48) := by
          rw [List.replicate_succ]
          simp
        rw [hz, digits_value_zeros_append, digits_value_append_zeros, e1]
        congr 2
        omega
  · simp only [h1, if_false]
    by_cases h3 : d.decimal_point ≥ (d.digits.length : Int)
    · have e1 := to_unsigned_cast d.decimal_point (by omega) (by omega)
      have e2 := to_unsigned_cast (d.decimal_point - d.digits.length) (by omega) (by omega)
      simp only [h3, if_true, e1]
      refine ⟨d.digits ++ List.replicate (to_unsigned (d.decimal_point - d.digits.length)) 48,
        List.replicate d.digits_after_point 48, ?_,
        (all_digits_append _ _).2 ⟨hall, all_digits_replicate _⟩, ?_, all_digits_replicate _,
        by simp, ?_⟩
      · by_cases h2 : d.digits_after_point = 0
        · simp [h2]
        · have h2b : d.digits_after_point > 0 := by omega
          simp [h2, h2b]
      · intro hn
        have := congrArg List.length hn
        simp only [List.length_append, List.length_replicate, List.length_nil] at this
        omega
      · rw [digits_value_append_zeros, digits_value_append_zeros, Nat.mul_assoc, ← pow_add]
        congr 2
        omega
    · have e1 := to_unsigned_cast ((d.digits.length : Int) - d.decimal_point) (by omega)
        (by omega)
      have e2 := to_unsigned_cast ((d.digits_after_point : Int)
        - ((d.digits.length : Int) - d.decimal_point)) (by omega) (by omega)
      have h2 : d.digits_after_point ≠ 0 := by omega
      simp only [h3, if_false, e1]
      have hsplit : all_digits (d.digits.take d.decimal_point.toNat)
          ∧ all_digits (d.digits.drop d.decimal_point.toNat) := by
        have := hall
        rw [← List.take_append_drop d.decimal_point.toNat d.digits] at this
        exact (all_digits_append _ _).1 this
      refine ⟨d.digits.take d.decimal_point.toNat,
        d.digits.drop d.decimal_point.toNat ++ List.replicate (to_unsigned
          ((d.digits_after_point : Int) - ((d.digits.length : Int) - d.decimal_point))) 48,
        by simp [h2], hsplit.1, ?_,
        (all_digits_append _ _).2 ⟨hsplit.2, all_digits_replicate _⟩, ?_, ?_⟩
      · intro hn
        have := congrArg List.length hn
        simp only [List.length_take, List.length_nil] at this
        omega
      · simp only [List.length_append, List.length_drop, List.length_replicate]
        omega
      · rw [← List.append_assoc, List.take_append_drop, digits_value_append_zeros]
        congr 2
        omega


/-! ## Types `'f'` and `'F'`: the number of digits after the point -/

theorem generate_fixed_some (dbl : double_format_context) (h : decoded dbl)
    (hexp : dbl.value < max_fixed_value → dbl.exponent ≤ 147)
    (hv : dbl.value < max_fixed_value) :
    ∃ d, generate_fixed dbl = some (some d) := by
  obtain ⟨r, e1, -⟩ := generate_fixed_spec dbl h hexp
  cases r with
  | some d => exact ⟨d, e1⟩
  | none =>
    exfalso
    unfold generate_fixed at e1
    rw [if_neg (show ¬ dbl.value ≥ max_fixed_value by omega)] at e1
    simp only [] at e1
    cases hg : generate_decimal_digits
        { dbl with requested_digits := clamp dbl.requested_digits 0 60 } dtoa_mode.FIXED with
    | none => rw [hg] at e1; simp at e1
    | some x => rw [hg] at e1; simp at e1

theorem requested_of_spec_small (spec : format_spec) :
    (spec.has_precision = true → spec.precision ≤ 60 →
      (clamp (requested_of_spec spec) 0 60).toNat = spec.precision) ∧
    (spec.has_precision = false → (clamp (requested_of_spec spec) 0 60).toNat = 6) := by
  unfold requested_of_spec clamp
  constructor
  · intro h1 h2
    simp only [h1, if_true]
    have : spec.precision % 2 ^ 32 = spec.precision := Nat.mod_eq_of_lt (by omega)
    rw [this]
    split_ifs <;> omega
  · intro h1
    simp only [h1, Bool.false_eq_true, if_false]
    norm_num
    rfl

theorem round_half_up_scale (a b m : Nat) (hm : 0 < m) :
    round_half_up (a * m) (b * m) = round_half_up a b := by
  unfold round_half_up
  have h1 : 2 * (a * m) + b * m = (2 * a + b) * m := by ring
  have h2 : 2 * (b * m) = 2 * b * m := by ring
  rw [h1, h2]
  exact Nat.mul_div_mul_right _ _ hm

theorem round_half_up_add_mul (q a b : Nat) (hb : 0 < b) :
    round_half_up (q * b + a) b = q + round_half_up a b := by
  unfold round_half_up
  have h1 : 2 * (q * b + a) + b = 2 * a + b + q * (2 * b) := by ring
  rw [h1, Nat.add_mul_div_right _ _ (by omega : 0 < 2 * b)]
  omega

theorem digits_value_one_zeros (n : Nat) : digits_value (49 :: List.replicate n 48) = 10 ^ n := by
  rw [digits_value_cons, digits_value_replicate_zero, List.length_replicate]
  norm_num

/-- Function `round_up(dbl)` of format_double_fixed.cpp adds one unit in the last place: an
empty buffer becomes `"1"` with decimal point 1; a carry out of the first digit leaves `1`
followed by zeros, the same number of digits, and moves the decimal point by one. -/
theorem fixed_round_up_value (dbl : double_format_context) (hall : all_digits dbl.digits) :
    ∃ ds k, fixed_round_up dbl = { dbl with digits := ds, decimal_point := k } ∧
      all_digits ds ∧
      ((dbl.digits = [] ∧ ds = [49] ∧ k = 1) ∨
        (dbl.digits ≠ [] ∧ ds.length = dbl.digits.length ∧
          ((k = dbl.decimal_point ∧ digits_value ds = digits_value dbl.digits + 1) ∨
            (k = dbl.decimal_point + 1 ∧ digits_value ds * 10 = digits_value dbl.digits + 1)))) := by
  unfold fixed_round_up
  by_cases h0 : dbl.digits.length = 0
  · rw [if_pos h0]
    have hnil : dbl.digits = [] := List.length_eq_zero.1 h0
    exact ⟨[49], 1, by rw [hnil]; rfl, all_digits_single _ (by omega) (by omega),
      Or.inl ⟨hnil, rfl, rfl⟩⟩
  · rw [if_neg h0]
    have hne : dbl.digits ≠ [] := fun h => h0 (by rw [h]; rfl)
    obtain ⟨ds0, c0, hd⟩ : ∃ ds0 c0, dbl.digits = ds0 ++ [c0] :=
      ⟨dbl.digits.dropLast, dbl.digits.getLast hne, (List.dropLast_append_getLast hne).symm⟩
    obtain ⟨r1, r2, -, r4, r5⟩ := round_up_spec dbl ds0 c0 hd (by rw [← hd]; exact hall)
    have hlen : dbl.round_up.1.length = dbl.digits.length := by rw [r2, hd]; simp
    simp only []
    by_cases hr : dbl.round_up.2 = true
    · rw [if_pos hr]
      obtain ⟨q1, q2⟩ := r5 hr
      refine ⟨_, _, rfl, r1, Or.inr ⟨hne, hlen, Or.inr ⟨rfl, ?_⟩⟩⟩
      rw [q1, digits_value_one_zeros, hd, q2, pow_succ]
    · rw [if_neg hr]
      have hr2 : dbl.round_up.2 = false := by
        cases h : dbl.round_up.2
        · rfl
        · exact absurd h hr
      refine ⟨dbl.round_up.1, dbl.decimal_point, rfl, r1, Or.inr ⟨hne, hlen, Or.inl ⟨rfl, ?_⟩⟩⟩
      rw [r4 hr2, hd]

/-- The end of `write_fraction_digits`: the digit loop has appended `ds1`, the digits of
`floor(F * 10^c / 2^P)` for `c` places, with the remainder `X2 / 2^P2`; rounding up when the
remainder is one half or more leaves the rounding of `F * 10^r / 2^P`, a tie going up, behind
the integral digits. -/
theorem fraction_finish (dbl : double_format_context) (ds1 : List Nat) (F P P2 X2 r : Nat)
    (b : Bool) (hall : all_digits dbl.digits) (hall1 : all_digits ds1)
    (hdp : dbl.decimal_point = dbl.digits.length) (hc : ds1.length ≤ r)
    (hP : P2 + ds1.length = P) (hX : X2 < 2 ^ P2)
    (hrel : F * 5 ^ ds1.length = digits_value ds1 * 2 ^ P2 + X2)
    (hearly : ds1.length < r → X2 = 0) (hb : b = true ↔ 2 ^ P2 ≤ 2 * X2) :
    ∃ ds k, (if b = true then fixed_round_up { dbl with digits := dbl.digits ++ ds1 }
        else { dbl with digits := dbl.digits ++ ds1 })
        = { dbl with digits := ds, decimal_point := k } ∧
      all_digits ds ∧ (ds.length : Int) ≤ k + r ∧
      digits_value ds * 10 ^ (k + r - ds.length).toNat
        = digits_value dbl.digits * 10 ^ r + round_half_up (F * 10 ^ r) (2 ^ P) := by
  have hallc : all_digits (dbl.digits ++ ds1) := (all_digits_append _ _).2 ⟨hall, hall1⟩
  have hlen : (dbl.digits ++ ds1).length = dbl.digits.length + ds1.length :=
    List.length_append _ _
  have hval : digits_value (dbl.digits ++ ds1)
      = digits_value dbl.digits * 10 ^ ds1.length + digits_value ds1 := digits_value_append _ _
  have hP2 : 0 < 2 ^ P2 := pow_pos (by norm_num) _
  have hPp : 0 < 2 ^ P := pow_pos (by norm_num) _
  have h2P : (2 : Nat) ^ P = 2 ^ P2 * 2 ^ ds1.length := by rw [← pow_add, hP]
  have h10c : (10 : Nat) ^ ds1.length = 2 ^ ds1.length * 5 ^ ds1.length := by rw [← Nat.mul_pow]
  have h10r : (10 : Nat) ^ r = 10 ^ ds1.length * 10 ^ (r - ds1.length) := by
    rw [← pow_add]; congr 1; omega
  have hF : F * 10 ^ r = digits_value ds1 * 10 ^ (r - ds1.length) * 2 ^ P
      + X2 * 2 ^ ds1.length * 10 ^ (r - ds1.length) := by
    calc F * 10 ^ r = (F * 5 ^ ds1.length) * 2 ^ ds1.length * 10 ^ (r - ds1.length) := by
          rw [h10r, h10c]; ring
      _ = digits_value ds1 * 10 ^ (r - ds1.length) * 2 ^ P
          + X2 * 2 ^ ds1.length * 10 ^ (r - ds1.length) := by rw [hrel, h2P]; ring
  -- the rounding in terms of the digits written
  have hR : round_half_up (F * 10 ^ r) (2 ^ P)
      = digits_value ds1 * 10 ^ (r - ds1.length) + (if b = true then 1 else 0) := by
    by_cases hcr : ds1.length < r
    · have hx0 := hearly hcr
      have hbf : b = false := by
        cases hbb : b
        · rfl
        · have := hb.1 hbb
          omega
      rw [hF, hx0, hbf]
      simp only [Nat.zero_mul, Nat.add_zero, Bool.false_eq_true, if_false]
      rw [round_half_up_split _ (2 ^ P) (digits_value ds1 * 10 ^ (r - ds1.length)) 0 hPp
        (by ring) hPp]
      rw [if_neg (by omega)]
    · have hcr2 : r - ds1.length = 0 := by omega
      rw [hF, hcr2]
      simp only [pow_zero, Nat.mul_one]
      have hlt : X2 * 2 ^ ds1.length < 2 ^ P := by
        rw [h2P]
        exact Nat.mul_lt_mul_of_pos_right hX (pow_pos (by norm_num) _)
      rw [round_half_up_split _ (2 ^ P) (digits_value ds1) (X2 * 2 ^ ds1.length) hPp rfl hlt]
      have hiff : 2 ^ P ≤ 2 * (X2 * 2 ^ ds1.length) ↔ 2 ^ P2 ≤ 2 * X2 := by
        rw [h2P, show 2 * (X2 * 2 ^ ds1.length) = 2 * X2 * 2 ^ ds1.length by ring]
        constructor
        · intro h
          exact Nat.le_of_mul_le_mul_right h (pow_pos (by norm_num) _)
        · intro h
          exact Nat.mul_le_mul_right _ h
      cases hbb : b
      · have : ¬ 2 ^ P2 ≤ 2 * X2 := fun h => by
          have := hb.2 h
          rw [hbb] at this
          exact absurd this (by simp)
        rw [if_neg (fun h => this (hiff.1 h))]
        simp
      · rw [if_pos (hiff.2 (hb.1 hbb))]
        simp
  rw [hR]
  cases hbb : b
  · simp only [Bool.false_eq_true, if_false, Nat.add_zero]
    refine ⟨dbl.digits ++ ds1, dbl.decimal_point, rfl, hallc, by rw [hlen, hdp]; push_cast; omega,
      ?_⟩
    rw [hval, hlen, hdp]
    have : ((dbl.digits.length : Int) + (r : Int)
        - ((dbl.digits.length + ds1.length : Nat) : Int)).toNat = r - ds1.length := by
      push_cast; omega
    rw [this, h10r]
    ring
  · simp only [if_true]
    have hx : X2 ≠ 0 := by
      have := hb.1 hbb
      omega
    have hcr : ds1.length = r := by
      by_contra hne
      exact hx (hearly (by omega))
    obtain ⟨ds, k, q1, q2, q3⟩ := fixed_round_up_value { dbl with digits := dbl.digits ++ ds1 } hallc
    rw [q1]
    refine ⟨ds, k, rfl, q2, ?_, ?_⟩
    · rcases q3 with ⟨a1, a2, a3⟩ | ⟨a1, a2, a3⟩
      · rw [a2, a3]; simp
      · have a2b : ds.length = (dbl.digits ++ ds1).length := a2
        rw [a2b, hlen]
        rcases a3 with ⟨a4, -⟩ | ⟨a4, -⟩
        · have a4b : k = dbl.decimal_point := a4
          rw [a4b, hdp]; push_cast; omega
        · have a4b : k = dbl.decimal_point + 1 := a4
          rw [a4b, hdp]; push_cast; omega
    · rw [hcr, Nat.sub_self, pow_zero, Nat.mul_one]
      rcases q3 with ⟨a1, a2, a3⟩ | ⟨a1, a2, a3⟩
      · have a1b : dbl.digits ++ ds1 = [] := a1
        obtain ⟨n1, n2⟩ := List.append_eq_nil.1 a1b
        have hr0 : r = 0 := by rw [← hcr, n2]; rfl
        rw [a2, a3, n1, n2, hr0]
        simp [digits_value_nil, digits_value]
      · have a2b : ds.length = (dbl.digits ++ ds1).length := a2
        rcases a3 with ⟨a4, a5⟩ | ⟨a4, a5⟩
        · have a4b : k = dbl.decimal_point := a4
          have a5b : digits_value ds = digits_value (dbl.digits ++ ds1) + 1 := a5
          have : (k + (r : Int) - (ds.length : Int)).toNat = 0 := by
            rw [a4b, a2b, hlen, hdp, hcr]; push_cast; omega
          rw [this, a5b, hval, hcr]
          ring
        · have a4b : k = dbl.decimal_point + 1 := a4
          have a5b : digits_value ds * 10 = digits_value (dbl.digits ++ ds1) + 1 := a5
          have : (k + (r : Int) - (ds.length : Int)).toNat = 1 := by
            rw [a4b, a2b, hlen, hdp, hcr]; push_cast; omega
          rw [this, pow_one, a5b, hval, hcr]
          ring


theorem round_bit_iff (x p : Nat) (hx : x < 2 ^ p) (hp : 1 ≤ p) :
    (x >>> (p - 1)) &&& 1 = 1 ↔ 2 ^ p ≤ 2 * x := by
  have hpow : (2 : Nat) ^ p = 2 * 2 ^ (p - 1) := by
    rw [← pow_succ', Nat.sub_add_cancel hp]
  have hq : 0 < 2 ^ (p - 1) := pow_pos (by norm_num) _
  rw [Nat.shiftRight_eq_div_pow, Nat.and_one_is_mod]
  have hlt : x / 2 ^ (p - 1) < 2 := by
    rw [Nat.div_lt_iff_lt_mul hq]; omega
  have hdm := Nat.div_add_mod x (2 ^ (p - 1))
  have hml := Nat.mod_lt x hq
  generalize x / 2 ^ (p - 1) = d at *
  generalize x % 2 ^ (p - 1) = r at *
  generalize (2 : Nat) ^ (p - 1) = Q at *
  have hd : d = 0 ∨ d = 1 := by omega
  rcases hd with h | h
  · subst h
    simp only [Nat.mul_zero, Nat.zero_add] at hdm
    constructor
    · intro hc; simp at hc
    · intro hc; omega
  · subst h
    simp only [Nat.mul_one] at hdm
    constructor
    · intro _; omega
    · intro _; rfl

/-- Function `write_fraction_digits` for an exponent in `[-96, -1]`, on integral digits that
end at the decimal point: the buffer then holds the rounding of
`integrals + fractionals / 2^-exponent` to `requested_digits` fractional places, a tie going
up. -/
theorem write_fraction_digits_value (dbl : double_format_context) (f : Nat)
    (hall : all_digits dbl.digits) (hdp : dbl.decimal_point = dbl.digits.length)
    (hr0 : 0 ≤ dbl.requested_digits) (hr1 : dbl.requested_digits ≤ 20)
    (he0 : dbl.exponent < 0) (he1 : -96 ≤ dbl.exponent) (hf : f < 2 ^ 53)
    (hfe : -dbl.exponent ≤ 64 → f < 2 ^ (-dbl.exponent).toNat) :
    ∃ ds k, write_fraction_digits dbl f = { dbl with digits := ds, decimal_point := k } ∧
      all_digits ds ∧ (ds.length : Int) ≤ k + dbl.requested_digits.toNat ∧
      digits_value ds * 10 ^ (k + dbl.requested_digits.toNat - ds.length).toNat
        = digits_value dbl.digits * 10 ^ dbl.requested_digits.toNat
          + round_half_up (f * 10 ^ dbl.requested_digits.toNat) (2 ^ (-dbl.exponent).toNat) := by
  simp only [write_fraction_digits]
  by_cases hb : -dbl.exponent ≤ 64
  · rw [if_pos hb]
    have hfp := hfe hb
    have h53 : (2 : Nat) ^ 53 < 2 ^ 56 ∧ (2 : Nat) ^ 53 < 2 ^ 59 := by norm_num
    obtain ⟨ds1, f2, p2, e1, e2, e3, e4, -, e6, e7, e8⟩ := write_fraction_loop64_spec
      dbl.requested_digits.toNat f (-dbl.exponent).toNat dbl.digits hfp (by omega)
      (fun _ => hf) (fun _ => by omega) (fun _ => by omega)
    rw [e1]
    simp only []
    have hbit : decide (f2 ≠ 0 ∧ (f2 >>> (p2 - 1)) &&& 1 = 1) = true ↔ 2 ^ p2 ≤ 2 * f2 := by
      rw [decide_eq_true_eq]
      have hp2 : 0 < 2 ^ p2 := pow_pos (by norm_num) _
      by_cases hz : f2 = 0
      · subst hz
        constructor
        · intro h; exact absurd rfl h.1
        · intro h; omega
      · have hp1 : 1 ≤ p2 := by
          by_contra hc
          have : p2 = 0 := by omega
          rw [this] at e4
          simp at e4
          exact hz e4
        rw [← round_bit_iff f2 p2 e4 hp1]
        exact ⟨fun h => h.2, fun h => ⟨hz, h⟩⟩
    obtain ⟨ds, k, q⟩ := fraction_finish dbl ds1 f (-dbl.exponent).toNat p2 f2
      dbl.requested_digits.toNat (decide (f2 ≠ 0 ∧ (f2 >>> (p2 - 1)) &&& 1 = 1))
      hall e2 hdp e3 e6 e4 e7 e8 hbit
    refine ⟨ds, k, ?_⟩
    simpa only [decide_eq_true_eq] using q
  · rw [if_neg hb]
    obtain ⟨s, hs⟩ : ∃ s : Nat, (-dbl.exponent).toNat - 64 = s := ⟨_, rfl⟩
    obtain ⟨t, ht⟩ : ∃ t : Nat, (128 + dbl.exponent).toNat = t := ⟨_, rfl⟩
    have hst : s + t = 64 := by omega
    have hs1 : 1 ≤ s := by omega
    have ht32 : 32 ≤ t := by omega
    have hpe : (-dbl.exponent).toNat = s + 64 := by omega
    rw [hs, ht]
    have hsp : 0 < 2 ^ s := pow_pos (by norm_num) _
    have htp : 0 < 2 ^ t := pow_pos (by norm_num) _
    have h64 : (2 : Nat) ^ 64 = 2 ^ s * 2 ^ t := by rw [← pow_add, hst]
    have h32 : (2 : Nat) ^ 32 = 2 ^ s * 2 ^ (t - 32) := by
      rw [← pow_add]; congr 1; omega
    have ht2 : (2 : Nat) ^ t = 2 ^ (t - 32) * 2 ^ 32 := by
      rw [← pow_add]; congr 1; omega
    have hhi : f >>> s < 2 ^ 52 := by
      rw [Nat.shiftRight_eq_div_pow]
      have h2 : (2 : Nat) ^ 1 ≤ 2 ^ s := Nat.pow_le_pow_right (by norm_num) hs1
      have : f / 2 ^ s ≤ f / 2 ^ 1 := Nat.div_le_div_left h2 (by norm_num)
      omega
    -- the low word
    have hdm := Nat.div_add_mod f (2 ^ s)
    have hml := Nat.mod_lt f hsp
    have hlo : (f <<< t) % 2 ^ 64 = f % 2 ^ s * 2 ^ t := by
      rw [Nat.shiftLeft_eq]
      have e1 : f * 2 ^ t = f % 2 ^ s * 2 ^ t + f / 2 ^ s * 2 ^ 64 := by
        rw [h64]
        calc f * 2 ^ t = (2 ^ s * (f / 2 ^ s) + f % 2 ^ s) * 2 ^ t := by rw [hdm]
          _ = f % 2 ^ s * 2 ^ t + f / 2 ^ s * (2 ^ s * 2 ^ t) := by ring
      rw [e1, Nat.add_mul_mod_self_right]
      apply Nat.mod_eq_of_lt
      rw [h64]
      exact Nat.mul_lt_mul_of_pos_right hml htp
    rw [hlo]
    have hlow : f % 2 ^ s * 2 ^ t % 2 ^ 32 * 5 < 2 ^ 32 := by
      have : f % 2 ^ s * 2 ^ t % 2 ^ 32 = 0 := by
        rw [ht2, ← Nat.mul_assoc]
        exact Nat.mul_mod_left _ _
      rw [this]; norm_num
    have hlodiv : f % 2 ^ s * 2 ^ t / 2 ^ 32 = f % 2 ^ s * 2 ^ (t - 32) := by
      rw [ht2, ← Nat.mul_assoc]
      exact Nat.mul_div_cancel _ (by norm_num)
    have hX0 : (f >>> s) * 2 ^ 32 + f % 2 ^ s * 2 ^ t / 2 ^ 32 = f * 2 ^ (t - 32) := by
      rw [hlodiv, Nat.shiftRight_eq_div_pow, h32]
      calc f / 2 ^ s * (2 ^ s * 2 ^ (t - 32)) + f % 2 ^ s * 2 ^ (t - 32)
          = (2 ^ s * (f / 2 ^ s) + f % 2 ^ s) * 2 ^ (t - 32) := by ring
        _ = f * 2 ^ (t - 32) := by rw [hdm]
    have hlolt : f % 2 ^ s * 2 ^ t < 2 ^ 64 := by
      rw [h64]
      exact Nat.mul_lt_mul_of_pos_right hml htp
    have h52 : (2 : Nat) ^ 52 < 2 ^ (128 - 64) := by norm_num
    obtain ⟨ds1, hi2, lo2, p2, e1, e2, e3, e4, e5, e6, e7⟩ := write_fraction_loop128_spec
      dbl.requested_digits.toNat (f >>> s) (f % 2 ^ s * 2 ^ t) 128 dbl.digits (by omega)
      hlolt le_rfl (by omega) (fun _ => hhi) (fun h => absurd h (by omega))
      (fun h => absurd h (by omega))
    obtain ⟨e8, e9⟩ := e7 hlow
    rw [hX0] at e8
    rw [e1]
    simp only []
    have hp2 : 108 ≤ p2 := by omega
    rw [if_pos (show p2 - 1 ≥ 64 by omega), if_pos (show p2 - 1 ≥ 64 by omega)]
    have hq65 : (2 : Nat) ^ (p2 - 64) = 2 * 2 ^ (p2 - 65) := by
      rw [← pow_succ']; congr 1; omega
    have hq32 : (2 : Nat) ^ (p2 - 32) = 2 ^ (p2 - 64) * 2 ^ 32 := by
      rw [← pow_add]; congr 1; omega
    have hX2 : hi2 * 2 ^ 32 + lo2 / 2 ^ 32 < 2 ^ (p2 - 32) := by
      rw [hq32]
      have : lo2 / 2 ^ 32 < 2 ^ 32 := by omega
      have h1 : (hi2 + 1) * 2 ^ 32 ≤ 2 ^ (p2 - 64) * 2 ^ 32 := Nat.mul_le_mul_right _ e5
      omega
    have hbit : decide ((hi2 >>> (p2 - 1 - 64)) &&& 1 ≠ 0) = true
        ↔ 2 ^ (p2 - 32) ≤ 2 * (hi2 * 2 ^ 32 + lo2 / 2 ^ 32) := by
      rw [decide_eq_true_eq, show p2 - 1 - 64 = (p2 - 64) - 1 by omega]
      have hrb := round_bit_iff hi2 (p2 - 64) e5 (by omega)
      have hlt2 : (hi2 >>> (p2 - 64 - 1)) &&& 1 < 2 := by
        rw [Nat.and_one_is_mod]; exact Nat.mod_lt _ (by norm_num)
      have hne : (hi2 >>> (p2 - 64 - 1)) &&& 1 ≠ 0 ↔ (hi2 >>> (p2 - 64 - 1)) &&& 1 = 1 := by
        omega
      rw [hne, hrb, hq32]
      have hl : lo2 / 2 ^ 32 < 2 ^ 32 := by omega
      generalize (2 : Nat) ^ (p2 - 64) = Q at *
      generalize lo2 / 2 ^ 32 = l at *
      constructor
      · intro h
        have : Q * 2 ^ 32 ≤ 2 * hi2 * 2 ^ 32 := Nat.mul_le_mul_right _ h
        omega
      · intro h
        by_contra hc
        have : (2 * hi2 + 1) * 2 ^ 32 ≤ Q * 2 ^ 32 := Nat.mul_le_mul_right _ (by omega)
        omega
    obtain ⟨ds, k, q1, q2, q3, q4⟩ := fraction_finish dbl ds1 (f * 2 ^ (t - 32)) 96 (p2 - 32)
      (hi2 * 2 ^ 32 + lo2 / 2 ^ 32) dbl.requested_digits.toNat
      (decide ((hi2 >>> (p2 - 1 - 64)) &&& 1 ≠ 0))
      hall e2 hdp e3 (by omega) hX2 e8
      (fun h => by
        obtain ⟨z1, z2⟩ := e9 h
        rw [z1, z2]
        norm_num)
      hbit
    have hround : round_half_up (f * 2 ^ (t - 32) * 10 ^ dbl.requested_digits.toNat) (2 ^ 96)
        = round_half_up (f * 10 ^ dbl.requested_digits.toNat) (2 ^ (s + 64)) := by
      have h96 : (2 : Nat) ^ 96 = 2 ^ (s + 64) * 2 ^ (t - 32) := by
        rw [← pow_add]; congr 1; omega
      have hmul : f * 2 ^ (t - 32) * 10 ^ dbl.requested_digits.toNat
          = f * 10 ^ dbl.requested_digits.toNat * 2 ^ (t - 32) := by ring
      rw [h96, hmul]
      exact round_half_up_scale _ _ _ (pow_pos (by norm_num) _)
    rw [hround, ← hpe] at q4
    refine ⟨ds, k, ?_, q2, q3, q4⟩
    simpa only [decide_eq_true_eq] using q1


/-! ## format_double_fixed.cpp: the value left by the trimming tail -/

theorem takeWhile_eq_replicate (l : List Nat) :
    l.takeWhile (fun d => decide (d = 48))
      = List.replicate (l.takeWhile (fun d => decide (d = 48))).length 48 := by
  induction l with
  | nil => rfl
  | cons a t ih =>
    by_cases h : a = 48
    · subst h
      simp only [List.takeWhile_cons, decide_True, if_true, List.length_cons,
        List.replicate_succ]
      rw [← ih]
    · simp [List.takeWhile_cons, h]

/-- The trailing zeros trimmed: what is cut are zeros and what is left does not end in `'0'`. -/
theorem trim_trailing_zeros_spec (l : List Nat) :
    ∃ n, l = trim_trailing_zeros l ++ List.replicate n 48 ∧
      (trim_trailing_zeros l).getLast? ≠ some 48 := by
  refine ⟨(l.reverse.takeWhile (fun d => decide (d = 48))).length, ?_, ?_⟩
  · unfold trim_trailing_zeros
    have h1 := List.takeWhile_append_dropWhile (fun d => decide (d = 48)) l.reverse
    have h2 := congrArg List.reverse h1
    rw [List.reverse_append, List.reverse_reverse] at h2
    rw [takeWhile_eq_replicate, List.reverse_replicate] at h2
    exact h2.symm
  · unfold trim_trailing_zeros
    rw [List.getLast?_reverse]
    exact head_dropWhile_ne _

/-- The trimming tail of `fast_fixed_dtoa` keeps the value: digits that stand for `V / 10^r`,
leading and trailing zeros allowed, become the fixed-point encoding of `V`. -/
theorem fixed_trim_zeros_value (dbl : double_format_context) (r V : Nat)
    (hall : all_digits dbl.digits) (hr : dbl.requested_digits = r)
    (hfit : (dbl.digits.length : Int) ≤ dbl.decimal_point + r)
    (hval : digits_value dbl.digits * 10 ^ (dbl.decimal_point + r - dbl.digits.length).toNat = V) :
    ∃ ds k, fixed_trim_zeros dbl = { dbl with digits := ds, decimal_point := k } ∧
      encodes_fixed ds k r V := by
  obtain ⟨n, hn1, hn2⟩ := trim_trailing_zeros_spec dbl.digits
  have hallt : all_digits (trim_trailing_zeros dbl.digits) := by
    rw [hn1] at hall
    exact ((all_digits_append _ _).1 hall).1
  have hlen : dbl.digits.length = (trim_trailing_zeros dbl.digits).length + n := by
    have := congrArg List.length hn1
    rw [List.length_append, List.length_replicate] at this
    exact this
  have hv : digits_value dbl.digits = digits_value (trim_trailing_zeros dbl.digits) * 10 ^ n := by
    have := congrArg digits_value hn1
    rw [digits_value_append_zeros] at this
    exact this
  unfold fixed_trim_zeros
  simp only []
  generalize trim_trailing_zeros dbl.digits = t at *
  by_cases h0 : t.length = 0
  · rw [if_pos h0]
    have hnil : t = [] := List.length_eq_zero.1 h0
    subst hnil
    refine ⟨[], -dbl.requested_digits, rfl, all_digits_nil, by simp, by rw [hr]; simp,
      fun _ => by rw [hr], ?_⟩
    rw [← hval, hv]
    simp [digits_value_nil]
  · rw [if_neg h0]
    have hne : t ≠ [] := fun h => h0 (by rw [h]; rfl)
    have hexp : (dbl.decimal_point + (r : Int) - (dbl.digits.length : Int)).toNat + n
        = (dbl.decimal_point + (r : Int) - (t.length : Int)).toNat := by
      rw [hlen]; push_cast; omega
    have hvt : digits_value t * 10 ^ (dbl.decimal_point + (r : Int) - (t.length : Int)).toNat
        = V := by
      rw [← hval, hv, ← hexp, pow_add]; ring
    by_cases h48 : t.getD 0 0 = 48
    · rw [if_pos h48]
      rw [drop_length_takeWhile]
      have hsplit := List.takeWhile_append_dropWhile (fun d => decide (d = 48)) t
      rw [takeWhile_eq_replicate] at hsplit
      generalize hz : (t.takeWhile (fun d => decide (d = 48))).length = z at *
      generalize hd : t.dropWhile (fun d => decide (d = 48)) = d at *
      have hhead : d.head? ≠ some 48 := by rw [← hd]; exact head_dropWhile_ne t
      have halld : all_digits d := by
        rw [← hsplit] at hallt
        exact ((all_digits_append _ _).1 hallt).2
      have hlt : t.length = z + d.length := by
        rw [← hsplit, List.length_append, List.length_replicate]
      have hdne : d ≠ [] := by
        intro hdn
        rw [hdn, List.append_nil] at hsplit
        rw [← hsplit] at hn2 hne
        apply hn2
        cases z with
        | zero => exact absurd rfl hne
        | succ z =>
          rw [List.getLast?_eq_getLast _ hne]
          congr 1
          exact List.getLast_replicate_succ z 48
      refine ⟨d, dbl.decimal_point - z, rfl, halld, hhead, by omega,
        fun h => absurd h hdne, ?_⟩
      rw [← hvt, ← hsplit, digits_value_zeros_append]
      congr 2
      rw [hsplit, hlt]
      push_cast
      omega
    · rw [if_neg h48]
      refine ⟨t, dbl.decimal_point, rfl, hallt, ?_, by omega, fun h => absurd h hne, hvt⟩
      cases t with
      | nil => simp
      | cons a r =>
        simp only [List.getD_cons_zero] at h48
        simpa using h48


/-! ## format_double_fixed.cpp: `fast_fixed_dtoa` is exact for exponents from `-96` on -/

theorem fixed_rounding_nonneg (m : Nat) (e : Int) (r : Nat) (he : 0 ≤ e) :
    fixed_rounding m e r = m * 2 ^ e.toNat * 10 ^ r := by
  unfold fixed_rounding double_value
  have h1 : (2 : ℚ) ^ e = ((2 ^ e.toNat : Nat) : ℚ) := by
    push_cast
    rw [← zpow_natCast]
    congr 1
    omega
  rw [h1]
  have h2 : (m : ℚ) * ((2 ^ e.toNat : Nat) : ℚ) * 10 ^ r + 1 / 2
      = ((m * 2 ^ e.toNat * 10 ^ r : Nat) : ℚ) + 1 / 2 := by
    push_cast; ring
  rw [h2]
  rw [Nat.floor_eq_iff (by positivity)]
  constructor
  · linarith
  · linarith

theorem fixed_rounding_neg (m : Nat) (e : Int) (r : Nat) (he : e < 0) :
    fixed_rounding m e r = round_half_up (m * 10 ^ r) (2 ^ (-e).toNat) := by
  unfold fixed_rounding
  symm
  apply round_half_up_eq_floor _ _ _ (pow_pos (by norm_num) _)
  unfold double_value
  have h1 : (2 : ℚ) ^ e * ((2 ^ (-e).toNat : Nat) : ℚ) = 1 := by
    push_cast
    rw [← zpow_natCast, ← zpow_add₀ (by norm_num : (2 : ℚ) ≠ 0)]
    have : e + ((-e).toNat : Int) = 0 := by omega
    rw [this, zpow_zero]
  have h2 : (m : ℚ) * 2 ^ e * 10 ^ r * ((2 ^ (-e).toNat : Nat) : ℚ)
      = (m : ℚ) * 10 ^ r * ((2 : ℚ) ^ e * ((2 ^ (-e).toNat : Nat) : ℚ)) := by ring
  rw [h2, h1]
  push_cast
  ring

theorem split_high (x : Nat) (hx : x < 2 ^ 56) :
    (x % 2 ^ 64 / 762939453125 % 2 ^ 32) * 10 ^ 17 + (x % 2 ^ 64 % 762939453125) <<< 17 % 2 ^ 64
      = x * 2 ^ 17 ∧
    (x % 2 ^ 64 % 762939453125) <<< 17 % 2 ^ 64 < 10 ^ 17 ∧
    x % 2 ^ 64 / 762939453125 % 2 ^ 32 < 2 ^ 32 := by
  have h1 : x % 2 ^ 64 = x := Nat.mod_eq_of_lt (by omega)
  rw [h1, Nat.shiftLeft_eq]
  have h2 : x / 762939453125 % 2 ^ 32 = x / 762939453125 := Nat.mod_eq_of_lt (by omega)
  have h3 : x % 762939453125 * 2 ^ 17 % 2 ^ 64 = x % 762939453125 * 2 ^ 17 :=
    Nat.mod_eq_of_lt (by omega)
  rw [h2, h3]
  refine ⟨by omega, by omega, by omega⟩

/-- The division by `5^17` (scaled by a power of two) that `fast_fixed_dtoa` uses for
`exponent` in `[12, 20]` splits `significand * 2^exponent` at `10^17`. -/
theorem fast_fixed_split (m : Nat) (e : Int) (hm : m < 2 ^ 53) (h12 : 12 ≤ e) (h20 : e ≤ 20)
    (qr : Nat × Nat)
    (hqr : qr = (if e > 17 then
      (m <<< (e - 17).toNat % 2 ^ 64 / 762939453125 % 2 ^ 32,
        (m <<< (e - 17).toNat % 2 ^ 64 % 762939453125) <<< 17 % 2 ^ 64)
      else (m / (762939453125 <<< (17 - e).toNat % 2 ^ 64) % 2 ^ 32,
        (m % (762939453125 <<< (17 - e).toNat % 2 ^ 64)) <<< e.toNat % 2 ^ 64))) :
    qr.1 * 10 ^ 17 + qr.2 = m * 2 ^ e.toNat ∧ qr.2 < 10 ^ 17 ∧ qr.1 < 2 ^ 32 := by
  by_cases h17 : e > 17
  · rw [if_pos h17] at hqr
    have hle : (2 : Nat) ^ (e - 17).toNat ≤ 2 ^ 3 := Nat.pow_le_pow_right (by norm_num) (by omega)
    have hx : m <<< (e - 17).toNat < 2 ^ 56 := by
      rw [Nat.shiftLeft_eq]
      have : m * 2 ^ (e - 17).toNat ≤ m * 2 ^ 3 := Nat.mul_le_mul_left _ hle
      omega
    have hxv : m <<< (e - 17).toNat * 2 ^ 17 = m * 2 ^ e.toNat := by
      rw [Nat.shiftLeft_eq, Nat.mul_assoc, ← pow_add]
      congr 2
      omega
    generalize m <<< (e - 17).toNat = x at *
    obtain ⟨a1, a2, a3⟩ := split_high x hx
    have hq1 := congrArg Prod.fst hqr
    have hq2 := congrArg Prod.snd hqr
    simp only [] at hq1 hq2
    rw [hq1, hq2, a1]
    exact ⟨hxv, a2, a3⟩
  · have hcases : e = 12 ∨ e = 13 ∨ e = 14 ∨ e = 15 ∨ e = 16 ∨ e = 17 := by omega
    rcases hcases with h | h | h | h | h | h <;> subst h <;> subst hqr <;>
      simp only [Nat.shiftLeft_eq, Int.reduceSub, Int.reduceToNat] <;> norm_num <;> omega

theorem digits_value_write_17 (q rem : Nat) (hrem : rem < 10 ^ 17) :
    digits_value (write_dec q ++ List.replicate (17 - (write_dec rem).length) 48 ++ write_dec rem)
      = q * 10 ^ 17 + rem := by
  have hl := write_dec_length rem 17 (by norm_num) hrem
  rw [digits_value_append, digits_value_append_zeros, (write_dec_spec q).2.1,
    (write_dec_spec rem).2.1, Nat.mul_assoc, ← pow_add]
  congr 3
  omega

/-- The state of `fast_fixed_dtoa` before its trimming tail, for an exponent from `-96` on:
the digits stand for the rounding of `significand * 2^exponent` to `requested_digits`
fractional places, a tie going up. -/
theorem fast_fixed_dtoa_untrimmed_value (dbl : double_format_context)
    (hm : dbl.significand < 2 ^ 53) (he1 : -96 ≤ dbl.exponent)
    (hr0 : 0 ≤ dbl.requested_digits) (hdig : dbl.digits = [])
    (h20 : ¬ dbl.exponent > 20) (hr20 : ¬ dbl.requested_digits > 20) :
    ∃ ds k, fast_fixed_dtoa dbl
        = (true, fixed_trim_zeros { dbl with digits := ds, decimal_point := k }) ∧
      all_digits ds ∧ (ds.length : Int) ≤ k + dbl.requested_digits.toNat ∧
      digits_value ds * 10 ^ (k + dbl.requested_digits.toNat - ds.length).toNat
        = fixed_rounding dbl.significand dbl.exponent dbl.requested_digits.toNat := by
  simp only [fast_fixed_dtoa]
  rw [if_neg h20, if_neg hr20]
  by_cases hA : dbl.exponent + 53 > 64
  · rw [if_pos hA]
    refine ⟨_, _, rfl, ?_⟩
    rw [write_17_digits_digits _ _ _ hdig, fixed_rounding_nonneg _ _ _ (by omega)]
    obtain ⟨s1, s2, s3⟩ := fast_fixed_split dbl.significand dbl.exponent hm (by omega) (by omega)
      _ rfl
    generalize (if dbl.exponent > 17 then
      (dbl.significand <<< (dbl.exponent - 17).toNat % 2 ^ 64 / 762939453125 % 2 ^ 32,
        (dbl.significand <<< (dbl.exponent - 17).toNat % 2 ^ 64 % 762939453125) <<< 17 % 2 ^ 64)
      else (dbl.significand / (762939453125 <<< (17 - dbl.exponent).toNat % 2 ^ 64) % 2 ^ 32,
        (dbl.significand % (762939453125 <<< (17 - dbl.exponent).toNat % 2 ^ 64)) <<<
          dbl.exponent.toNat % 2 ^ 64)) = qr at *
    have hv := digits_value_write_17 qr.1 qr.2 s2
    refine ⟨?_, by omega, ?_⟩
    · exact (all_digits_append _ _).2 ⟨(all_digits_append _ _).2
        ⟨(write_dec_spec _).1, all_digits_replicate _⟩, (write_dec_spec _).1⟩
    · rw [hv, s1]
      congr 2
      omega
  · rw [if_neg hA]
    by_cases hB : dbl.exponent ≥ 0
    · rw [if_pos hB]
      refine ⟨_, _, rfl, ?_⟩
      rw [write_digits_digits _ _ hdig, fixed_rounding_nonneg _ _ _ hB]
      have hle : (2 : Nat) ^ dbl.exponent.toNat ≤ 2 ^ 11 :=
        Nat.pow_le_pow_right (by norm_num) (by omega)
      have hx : dbl.significand <<< dbl.exponent.toNat % 2 ^ 64
          = dbl.significand * 2 ^ dbl.exponent.toNat := by
        rw [Nat.shiftLeft_eq]
        apply Nat.mod_eq_of_lt
        have : dbl.significand * 2 ^ dbl.exponent.toNat ≤ dbl.significand * 2 ^ 11 :=
          Nat.mul_le_mul_left _ hle
        omega
      rw [hx]
      refine ⟨(write_dec_spec _).1, by omega, ?_⟩
      rw [(write_dec_spec _).2.1]
      congr 2
      omega
    · rw [if_neg hB]
      by_cases hC : dbl.exponent > -53
      · rw [if_pos hC]
        obtain ⟨s, hs⟩ : ∃ s : Nat, (-dbl.exponent).toNat = s := ⟨_, rfl⟩
        rw [hs]
        have hs1 : s ≤ 52 := by omega
        have hpos : 0 < 2 ^ s := pow_pos (by norm_num) s
        have hI : dbl.significand >>> s < 2 ^ 53 := by
          rw [Nat.shiftRight_eq_div_pow]
          exact lt_of_le_of_lt (Nat.div_le_self _ _) hm
        have hdm := Nat.div_add_mod dbl.significand (2 ^ s)
        have hF : (dbl.significand + 2 ^ 64 - ((dbl.significand >>> s) <<< s) % 2 ^ 64) % 2 ^ 64
            = dbl.significand % 2 ^ s := by
          rw [Nat.shiftRight_eq_div_pow, Nat.shiftLeft_eq]
          have hml := Nat.mod_lt dbl.significand hpos
          generalize dbl.significand / 2 ^ s = d at *
          generalize dbl.significand % 2 ^ s = r at *
          have hd : d * 2 ^ s ≤ dbl.significand := by rw [← hdm, Nat.mul_comm]; omega
          rw [Nat.mod_eq_of_lt (show d * 2 ^ s < 2 ^ 64 by omega)]
          have : dbl.significand + 2 ^ 64 - d * 2 ^ s = r + 2 ^ 64 := by
            rw [← hdm, Nat.mul_comm]; omega
          rw [this]
          omega
        rw [hF]
        have hFs : dbl.significand % 2 ^ s < 2 ^ s := Nat.mod_lt _ hpos
        have hd0 := write_digits_digits dbl (dbl.significand >>> s) hdig
        obtain ⟨ds, k, w1, w2, w3, w4⟩ := write_fraction_digits_value
          { write_digits dbl (dbl.significand >>> s) with
            decimal_point := (write_digits dbl (dbl.significand >>> s)).digits.length }
          (dbl.significand % 2 ^ s)
          (by show all_digits (write_digits dbl (dbl.significand >>> s)).digits
              rw [hd0]; exact (write_dec_spec _).1)
          rfl hr0 (by show dbl.requested_digits ≤ 20; omega) (by show dbl.exponent < 0; omega)
          (by show -96 ≤ dbl.exponent; omega)
          (lt_of_le_of_lt (Nat.mod_le _ _) hm)
          (fun _ => by
            show dbl.significand % 2 ^ s < 2 ^ (-dbl.exponent).toNat
            rw [hs]; exact hFs)
        rw [w1]
        refine ⟨ds, k, rfl, w2, w3, ?_⟩
        have w4b : digits_value ds * 10 ^ (k + dbl.requested_digits.toNat - ds.length).toNat
            = digits_value (write_digits dbl (dbl.significand >>> s)).digits
                * 10 ^ dbl.requested_digits.toNat
              + round_half_up (dbl.significand % 2 ^ s * 10 ^ dbl.requested_digits.toNat)
                  (2 ^ (-dbl.exponent).toNat) := w4
        rw [w4b, hd0, (write_dec_spec _).2.1, hs, fixed_rounding_neg _ _ _ (by omega), hs,
          Nat.shiftRight_eq_div_pow, ← round_half_up_add_mul _ _ _ hpos]
        congr 1
        generalize dbl.significand / 2 ^ s = d at *
        generalize dbl.significand % 2 ^ s = md at *
        rw [← hdm]
        ring
      · rw [if_neg hC]
        rw [if_neg (show ¬ dbl.exponent < -128 by omega)]
        obtain ⟨ds, k, w1, w2, w3, w4⟩ := write_fraction_digits_value
          { dbl with decimal_point := 0 } dbl.significand
          (by show all_digits dbl.digits; rw [hdig]; exact all_digits_nil)
          (by show (0 : Int) = (dbl.digits.length : Int); rw [hdig]; rfl)
          hr0 (by show dbl.requested_digits ≤ 20; omega)
          (by show dbl.exponent < 0; omega) (by show -96 ≤ dbl.exponent; omega) hm
          (fun _ => by
            show dbl.significand < 2 ^ (-dbl.exponent).toNat
            have : (2 : Nat) ^ 53 ≤ 2 ^ (-dbl.exponent).toNat :=
              Nat.pow_le_pow_right (by norm_num) (by omega)
            omega)
        rw [w1]
        refine ⟨ds, k, rfl, w2, w3, ?_⟩
        have w4b : digits_value ds * 10 ^ (k + dbl.requested_digits.toNat - ds.length).toNat
            = digits_value dbl.digits * 10 ^ dbl.requested_digits.toNat
              + round_half_up (dbl.significand * 10 ^ dbl.requested_digits.toNat)
                  (2 ^ (-dbl.exponent).toNat) := w4
        rw [w4b, hdig, digits_value_nil, Nat.zero_mul, Nat.zero_add,
          fixed_rounding_neg _ _ _ (by omega)]

/-- Function `fast_fixed_dtoa` is exact for an exponent from `-96` on: when it accepts, the
buffer holds the fixed-point encoding of `significand * 2^exponent` rounded to
`requested_digits` fractional places, a tie going up. -/
theorem fast_fixed_dtoa_exact (dbl : double_format_context) (hm : dbl.significand < 2 ^ 53)
    (he1 : -96 ≤ dbl.exponent) (hr0 : 0 ≤ dbl.requested_digits) (hdig : dbl.digits = [])
    (hok : (fast_fixed_dtoa dbl).1 = true) :
    ∃ ds k, (fast_fixed_dtoa dbl).2 = { dbl with digits := ds, decimal_point := k } ∧
      encodes_fixed ds k dbl.requested_digits.toNat
        (fixed_rounding dbl.significand dbl.exponent dbl.requested_digits.toNat) := by
  by_cases h20 : dbl.exponent > 20
  · have : fast_fixed_dtoa dbl = (false, dbl) := by
      simp only [fast_fixed_dtoa]; rw [if_pos h20]
    rw [this] at hok
    exact absurd hok (by simp)
  by_cases hr20 : dbl.requested_digits > 20
  · have : fast_fixed_dtoa dbl = (false, dbl) := by
      simp only [fast_fixed_dtoa]; rw [if_neg h20, if_pos hr20]
    rw [this] at hok
    exact absurd hok (by simp)
  obtain ⟨ds, k, e1, e2, e3, e4⟩ := fast_fixed_dtoa_untrimmed_value dbl hm he1 hr0 hdig h20 hr20
  rw [e1]
  obtain ⟨ds2, k2, t1, t2⟩ := fixed_trim_zeros_value
    { dbl with digits := ds, decimal_point := k } dbl.requested_digits.toNat _ e2
    (by show dbl.requested_digits = _; omega) e3 e4
  exact ⟨ds2, k2, t1, t2⟩


/-! ## FIXED mode: the digits are the rounding of the value, a tie going up -/

/-- In FIXED mode the digit generation is exact for a non-zero double, unless the fast path
is taken with an exponent below `-96`: the buffer holds the fixed-point encoding of
`significand * 2^exponent` rounded to `requested_digits` fractional places, a tie going up. -/
theorem generate_decimal_digits_fixed_exact (dbl : double_format_context) (h : decoded dbl)
    (hz : dbl.value ≠ 0) (hr : 0 ≤ dbl.requested_digits)
    (hsafe : dbl.requested_digits ≤ 20 → -96 ≤ dbl.exponent) :
    ∃ ds k, generate_decimal_digits dbl dtoa_mode.FIXED
        = some { dbl with digits := ds, decimal_point := k } ∧
      encodes_fixed ds k dbl.requested_digits.toNat
        (fixed_rounding dbl.significand dbl.exponent dbl.requested_digits.toNat) := by
  obtain ⟨h1, h2, h3, h4, h5, h6, h7⟩ := h
  unfold generate_decimal_digits
  simp only [reduceCtorEq, false_and, if_false]
  rw [if_neg hz]
  have hm0 := h5 hz
  have hbig : (fast_fixed_dtoa dbl).1 = true → dbl.requested_digits ≤ 20 := by
    intro hok
    by_contra hc
    have : fast_fixed_dtoa dbl = (false, dbl) := by
      simp only [fast_fixed_dtoa]
      by_cases h20 : dbl.exponent > 20
      · rw [if_pos h20]
      · rw [if_neg h20, if_pos (by omega)]
    rw [this] at hok
    exact absurd hok (by simp)
  obtain ⟨f1, -⟩ := fast_fixed_dtoa_spec dbl h1 h2 hr h7
  rcases hb : fast_fixed_dtoa dbl with ⟨ok, d⟩
  rw [hb] at f1 hbig
  cases ok
  · simp only []
    have hd : d = dbl := f1 rfl
    rw [hd]
    obtain ⟨ds, k, g1, g2⟩ := bignum_dtoa_fixed { dbl with digits := [], decimal_point := 0 }
      dbl.requested_digits.toNat hm0 h1 h2 h3 h4 (by show dbl.requested_digits = _; omega) rfl
    rw [g1]
    exact ⟨ds, k, rfl, g2⟩
  · obtain ⟨ds, k, e1, e2⟩ := fast_fixed_dtoa_exact dbl h1 (hsafe (hbig rfl)) hr h7
      (by rw [hb])
    rw [hb] at e1
    have hd : d = { dbl with digits := ds, decimal_point := k } := e1
    rw [hd]
    exact ⟨ds, k, rfl, e2⟩

/-- A double that is a tie at `n <= 20` fractional places has a binary exponent of `-73` at
least: its significand is a multiple of `2^(-exponent - n - 1)`. -/
theorem tie_exponent_ge (m : Nat) (e : Int) (n N : Nat) (hm0 : 0 < m) (hm : m < 2 ^ 53)
    (hn : n ≤ 20) (htie : double_value m e * 10 ^ n = (N : ℚ) + 1 / 2) : -96 ≤ e := by
  by_contra hc
  obtain ⟨p, hp⟩ : ∃ p : Nat, (-e).toNat = p := ⟨_, rfl⟩
  have hp97 : 97 ≤ p := by omega
  unfold double_value at htie
  have h1 : (2 : ℚ) ^ e * ((2 ^ p : Nat) : ℚ) = 1 := by
    push_cast
    rw [← zpow_natCast, ← zpow_add₀ (by norm_num : (2 : ℚ) ≠ 0)]
    have : e + (p : Int) = 0 := by omega
    rw [this, zpow_zero]
  have h2 : ((2 * m * 10 ^ n : Nat) : ℚ) = (((2 * N + 1) * 2 ^ p : Nat) : ℚ) := by
    have h3 : (m : ℚ) * 10 ^ n = ((N : ℚ) + 1 / 2) * ((2 ^ p : Nat) : ℚ) := by
      rw [← htie]
      have : (m : ℚ) * 2 ^ e * 10 ^ n * ((2 ^ p : Nat) : ℚ)
          = (m : ℚ) * 10 ^ n * ((2 : ℚ) ^ e * ((2 ^ p : Nat) : ℚ)) := by ring
      rw [this, h1, mul_one]
    push_cast
    push_cast at h3
    linarith
  have h4 : 2 * m * 10 ^ n = (2 * N + 1) * 2 ^ p := by exact_mod_cast h2
  have h10 : (10 : Nat) ^ n = 2 ^ n * 5 ^ n := by rw [← Nat.mul_pow]
  have hpp : (2 : Nat) ^ p = 2 ^ (p - n - 1) * 2 ^ (n + 1) := by
    rw [← pow_add]; congr 1; omega
  have h5 : m * 5 ^ n * 2 ^ (n + 1) = (2 * N + 1) * 2 ^ (p - n - 1) * 2 ^ (n + 1) := by
    calc m * 5 ^ n * 2 ^ (n + 1) = 2 * m * (2 ^ n * 5 ^ n) := by rw [pow_succ]; ring
      _ = (2 * N + 1) * 2 ^ p := by rw [← h10, h4]
      _ = (2 * N + 1) * 2 ^ (p - n - 1) * 2 ^ (n + 1) := by rw [hpp]; ring
  have h6 : m * 5 ^ n = (2 * N + 1) * 2 ^ (p - n - 1) :=
    Nat.eq_of_mul_eq_mul_right (pow_pos (by norm_num) _) h5
  have hdvd : 2 ^ (p - n - 1) ∣ m * 5 ^ n := ⟨2 * N + 1, by rw [h6]; ring⟩
  have hcop : Nat.Coprime (2 ^ (p - n - 1)) (5 ^ n) :=
    Nat.Coprime.pow _ _ (by norm_num)
  have hdm : 2 ^ (p - n - 1) ∣ m := hcop.dvd_of_dvd_mul_right hdvd
  have hle := Nat.le_of_dvd hm0 hdm
  have hbig : (2 : Nat) ^ 76 ≤ 2 ^ (p - n - 1) := Nat.pow_le_pow_right (by norm_num) (by omega)
  have : (2 : Nat) ^ 53 < 2 ^ 76 := by norm_num
  omega

/-- A double with a negative binary exponent is below `1e60`, the limit of the fixed
notation. -/
theorem of_double_lt_max_fixed (u : Nat) (hu : u < 2 ^ 63)
    (he : (double_format_context.of_double u).exponent < 0) : u < max_fixed_value := by
  unfold max_fixed_value
  unfold double_format_context.of_double at he
  simp only [] at he
  by_cases h : u / 2 ^ 52 % 2 ^ 11 ≠ 0
  · rw [if_pos h] at he
    have he2 : ((u / 2 ^ 52 % 2 ^ 11 : Nat) : Int) - 1075 < 0 := he
    omega
  · omega

/-- A tie has a negative binary exponent and a non-zero significand. -/
theorem tie_exponent_neg (m : Nat) (e : Int) (n N : Nat)
    (htie : double_value m e * 10 ^ n = (N : ℚ) + 1 / 2) : e < 0 ∧ 0 < m := by
  constructor
  · by_contra hc
    obtain ⟨p, hp⟩ : ∃ p : Nat, e = (p : Int) := ⟨e.toNat, by omega⟩
    subst hp
    unfold double_value at htie
    rw [zpow_natCast] at htie
    have h2 : ((2 * (m * 2 ^ p * 10 ^ n) : Nat) : ℚ) = ((2 * N + 1 : Nat) : ℚ) := by
      push_cast
      linarith
    have h3 : 2 * (m * 2 ^ p * 10 ^ n) = 2 * N + 1 := by exact_mod_cast h2
    omega
  · rcases Nat.eq_zero_or_pos m with h0 | h0
    · subst h0
      unfold double_value at htie
      simp at htie
      have : (0 : ℚ) ≤ (N : ℚ) := Nat.cast_nonneg N
      linarith
    · exact h0

/-- At a tie the rounding of FIXED mode is the upper neighbour. -/
theorem fixed_rounding_tie (m : Nat) (e : Int) (n N : Nat)
    (htie : double_value m e * 10 ^ n = (N : ℚ) + 1 / 2) : fixed_rounding m e n = N + 1 := by
  unfold fixed_rounding
  rw [htie]
  have : (N : ℚ) + 1 / 2 + 1 / 2 = ((N + 1 : Nat) : ℚ) := by push_cast; ring
  rw [this, Nat.floor_natCast]

/-- Function `generate_fixed` is exact for a non-zero double below `1e60`, unless the fast
path is taken with an exponent below `-96`: the digits, the decimal point and the count of
fractional digits stand for the value rounded to that count, a tie going up. -/
theorem generate_fixed_exact (dbl : double_format_context) (h : decoded dbl)
    (hz : dbl.value ≠ 0) (hv : dbl.value < max_fixed_value)
    (hsafe : clamp dbl.requested_digits 0 60 ≤ 20 → -96 ≤ dbl.exponent) :
    ∃ d, generate_fixed dbl = some (some d) ∧
      digits_value d.digits
          * 10 ^ (d.decimal_point + d.digits_after_point - d.digits.length).toNat
        = fixed_rounding dbl.significand dbl.exponent (clamp dbl.requested_digits 0 60).toNat := by
  have hc := clamp_bounds dbl.requested_digits 0 60 (by norm_num)
  unfold generate_fixed
  rw [if_neg (show ¬ dbl.value ≥ max_fixed_value by omega)]
  simp only []
  obtain ⟨ds, k, e1, e2⟩ := generate_decimal_digits_fixed_exact
    { dbl with requested_digits := clamp dbl.requested_digits 0 60 }
    (decoded_requested dbl _ h) hz (by show 0 ≤ clamp dbl.requested_digits 0 60; omega) hsafe
  rw [e1]
  refine ⟨_, rfl, ?_⟩
  obtain ⟨-, -, -, -, e3⟩ := e2
  have e4 : digits_value ds * 10 ^ (k + ((clamp dbl.requested_digits 0 60).toNat : Int)
      - ds.length).toNat
      = fixed_rounding dbl.significand dbl.exponent (clamp dbl.requested_digits 0 60).toNat := e3
  have hu := to_unsigned_cast (clamp dbl.requested_digits 0 60) (by omega) (by omega)
  show digits_value ds * 10 ^ (k + ((to_unsigned (clamp dbl.requested_digits 0 60) : Nat) : Int)
      - ds.length).toNat = _
  rw [hu, ← e4]
  congr 3
  omega

/-- Types `'f'` and `'F'` on a non-zero finite double below `1e60` whose exponent is `-96` at
least when at most 20 digits are requested: the digits of the text, without the point, write
the value scaled by `10^count` and rounded, a tie going up. -/
theorem fixed_text_exact (out : List Nat) (spec : format_spec) (u : Nat)
    (hu : u < 2 ^ 64) (hfin : (u / 2 ^ 52) % 2 ^ 11 ≠ 2047)
    (ht : spec.type = 102 ∨ spec.type = 70) (hmax : u % 2 ^ 63 < max_fixed_value)
    (hnz : u % 2 ^ 63 ≠ 0)
    (hsafe : clamp (requested_of_spec spec) 0 60 ≤ 20 →
      -96 ≤ (double_format_context.of_double (u % 2 ^ 63)).exponent) :
    ∃ ip fp, do_format_double out spec u = some (out
        ++ (if sign_char spec (decide (u / 2 ^ 63 % 2 = 1)) ≠ 0
            then [sign_char spec (decide (u / 2 ^ 63 % 2 = 1))] else [])
        ++ (ip ++ (if (clamp (requested_of_spec spec) 0 60).toNat ≠ 0 then 46 :: fp else []))) ∧
      all_digits ip ∧ ip ≠ [] ∧ all_digits fp ∧
      fp.length = (clamp (requested_of_spec spec) 0 60).toNat ∧
      digits_value (ip ++ fp)
        = fixed_rounding (double_format_context.of_double (u % 2 ^ 63)).significand
            (double_format_context.of_double (u % 2 ^ 63)).exponent
            (clamp (requested_of_spec spec) 0 60).toNat := by
  have h37 : spec.type ≠ 37 := by omega
  obtain ⟨d, g1, g2⟩ := do_format_double_finite out spec u hu hfin
  rw [if_neg h37] at g1 g2
  generalize hctx : ({ double_format_context.of_double (u % 2 ^ 63) with
    uppercase := type_is_upper spec.type, has_requested_digits := spec.has_precision,
    requested_digits := requested_of_spec spec } : double_format_context) = ctx at g1
  have hdec : decoded ctx := by
    rw [← hctx]
    exact decoded_of_double _ (by omega) _ _ _
  have hval : ctx.value = u % 2 ^ 63 := by
    rw [← hctx]
    exact (of_double_lt _ (by omega)).1
  have hfe : ctx.format_as_exponent = false := by
    rw [← hctx]
    exact of_double_not_exponent _
  have hreq : ctx.requested_digits = requested_of_spec spec := by
    rw [← hctx]
  have hsig : ctx.significand = (double_format_context.of_double (u % 2 ^ 63)).significand := by
    rw [← hctx]
  have hex : ctx.exponent = (double_format_context.of_double (u % 2 ^ 63)).exponent := by
    rw [← hctx]
  have hexp : ctx.value < max_fixed_value → ctx.exponent ≤ 147 := by
    intro h
    rw [hval] at h
    rw [← hctx]
    exact of_double_exponent_le _ h
  obtain ⟨d2, f1, f4⟩ := generate_fixed_exact ctx hdec (by rw [hval]; exact hnz)
    (by rw [hval]; exact hmax) (by rw [hreq, hex]; exact hsafe)
  obtain ⟨r, f2, f3⟩ := generate_fixed_spec ctx hdec hexp
  have hr : r = some d2 := by
    rw [f1] at f2
    exact (Option.some.inj f2).symm
  obtain ⟨q1, q2, -, q4, q5, q6, q7, -, -⟩ := f3 d2 hr
  have hgen : generate_for_type spec ctx = some d2 := by
    unfold generate_for_type
    rw [if_neg (by omega), if_pos (show spec.type = 70 ∨ spec.type = 102 by omega), f1]
  have hd : d = d2 := by
    rw [hgen] at g1
    exact (Option.some.inj g1).symm
  subst hd
  rw [hreq] at q5
  rw [hreq, hsig, hex] at f4
  have hc := clamp_bounds (requested_of_spec spec) 0 60 (by norm_num)
  obtain ⟨ip, fp, p1, p2, p3, p4, p5, p6⟩ := format_decimal_parts d q2 q6 (by omega) (by omega)
    (by omega)
  have hfmt : format [] d = format_decimal [] d := by
    unfold format
    rw [q4, hfe]
    simp
  rw [hfmt, p1, q5] at g2
  rw [q5] at p5
  refine ⟨ip, fp, ?_, p2, p3, p4, p5, ?_⟩
  · rw [g2]
    simp
  · rw [p6, f4]

/-- C6 (amended): for every finite double `v` that is a tie at `n <= 60` fractional places,
`|v| * 10^n = N + 1/2`, the text of `do_format_double` with type `'f'` or `'F'` and precision
`n` is the sign text, an integral part and, unless `n` is 0, a point with `n` digits, and its
digits write `N + 1`: the tie is rounded up (away from zero), whether `N + 1` is even or odd,
on the fast fixed-point path and on the bignum path alike. -/
theorem fixed_tie_rounds_up (out : List Nat) (spec : format_spec) (u : Nat)
    (hu : u < 2 ^ 64) (hfin : (u / 2 ^ 52) % 2 ^ 11 ≠ 2047)
    (ht : spec.type = 102 ∨ spec.type = 70)
    (hp : spec.has_precision = true) (hn : spec.precision ≤ 60) (N : Nat)
    (htie : double_value (double_format_context.of_double (u % 2 ^ 63)).significand
        (double_format_context.of_double (u % 2 ^ 63)).exponent * 10 ^ spec.precision
      = (N : ℚ) + 1 / 2) :
    ∃ ip fp, do_format_double out spec u = some (out
        ++ (if sign_char spec (decide (u / 2 ^ 63 % 2 = 1)) ≠ 0
            then [sign_char spec (decide (u / 2 ^ 63 % 2 = 1))] else [])
        ++ (ip ++ (if spec.precision ≠ 0 then 46 :: fp else []))) ∧
      all_digits ip ∧ ip ≠ [] ∧ all_digits fp ∧ fp.length = spec.precision ∧
      digits_value (ip ++ fp) = N + 1 := by
  have hcl := (requested_of_spec_small spec).1 hp hn
  obtain ⟨hneg, hm0⟩ := tie_exponent_neg _ _ _ _ htie
  have hlt := of_double_lt (u % 2 ^ 63) (Nat.mod_lt _ (by norm_num))
  have hnz : u % 2 ^ 63 ≠ 0 := by
    intro h0
    rw [h0] at hm0
    exact absurd hm0 (by decide)
  have hmax := of_double_lt_max_fixed (u % 2 ^ 63) (Nat.mod_lt _ (by norm_num)) hneg
  have hc := clamp_bounds (requested_of_spec spec) 0 60 (by norm_num)
  have hsafe : clamp (requested_of_spec spec) 0 60 ≤ 20 →
      -96 ≤ (double_format_context.of_double (u % 2 ^ 63)).exponent := by
    intro h20
    exact tie_exponent_ge _ _ spec.precision N hm0 hlt.2.1 (by omega) htie
  obtain ⟨ip, fp, p1, p2, p3, p4, p5, p6⟩ := fixed_text_exact out spec u hu hfin ht hmax hnz hsafe
  rw [hcl] at p1 p5 p6
  exact ⟨ip, fp, p1, p2, p3, p4, p5, by rw [p6]; exact fixed_rounding_tie _ _ _ _ htie⟩

/-- C6 (amended) at the tie `0.125` with type `'f'` and precision 2: `12.5` hundredths are
rounded up to the odd `13`, the text is `0.13`. -/
theorem fixed_tie_rounds_up_witness :
    (∃ ip fp, do_format_double [] { type := 102, has_precision := true, precision := 2 }
        0x3FC0000000000000 = some ([]
        ++ (if sign_char { type := 102, has_precision := true, precision := 2 }
              (decide (0x3FC0000000000000 / 2 ^ 63 % 2 = 1)) ≠ 0
            then [sign_char { type := 102, has_precision := true, precision := 2 }
              (decide (0x3FC0000000000000 / 2 ^ 63 % 2 = 1))] else [])
        ++ (ip ++ (if (2 : Nat) ≠ 0 then 46 :: fp else []))) ∧
      all_digits ip ∧ ip ≠ [] ∧ all_digits fp ∧ fp.length = 2 ∧
      digits_value (ip ++ fp) = 12 + 1) ∧
    do_format_double [] { type := 102, has_precision := true, precision := 2 } 0x3FC0000000000000
      = some (bytes "0.13") := by
  refine ⟨?_, by decide!⟩
  have hs : (double_format_context.of_double (0x3FC0000000000000 % 2 ^ 63)).significand
      = 2 ^ 52 := by decide
  have he : (double_format_context.of_double (0x3FC0000000000000 % 2 ^ 63)).exponent
      = -55 := by decide
  exact fixed_tie_rounds_up [] { type := 102, has_precision := true, precision := 2 }
    0x3FC0000000000000 (by decide) (by decide) (Or.inl rfl) rfl (by decide) 12
    (by rw [hs, he]; unfold double_value; norm_num)


/-! ## Grisu: the exact product of `Times` -/

/-- Static member `Times` rounds the product exactly: the significand is
`floor((x.f * y.f + 2^63) / 2^64)`; the low half of the lowest partial product, which the code
drops, never changes the result. -/
theorem Times_exact (x y : DiyFp) (hx : x.f < 2 ^ 64) (hy : y.f < 2 ^ 64) :
    (DiyFp.Times x y).e = x.e + (y.e + 64) ∧
    (DiyFp.Times x y).f = (x.f * y.f + 2 ^ 63) / 2 ^ 64 := by
  refine ⟨rfl, ?_⟩
  unfold DiyFp.Times
  simp only [and_mask32, Nat.shiftRight_eq_div_pow]
  have ha : x.f / 2 ^ 32 < 2 ^ 32 := by omega
  have hb : x.f % 2 ^ 32 < 2 ^ 32 := Nat.mod_lt _ (by norm_num)
  have hc : y.f / 2 ^ 32 < 2 ^ 32 := by omega
  have hd : y.f % 2 ^ 32 < 2 ^ 32 := Nat.mod_lt _ (by norm_num)
  have hX : x.f = x.f / 2 ^ 32 * 2 ^ 32 + x.f % 2 ^ 32 := (Nat.div_add_mod' _ _).symm
  have hY : y.f = y.f / 2 ^ 32 * 2 ^ 32 + y.f % 2 ^ 32 := (Nat.div_add_mod' _ _).symm
  generalize x.f / 2 ^ 32 = a at *
  generalize x.f % 2 ^ 32 = b at *
  generalize y.f / 2 ^ 32 = c at *
  generalize y.f % 2 ^ 32 = d at *
  generalize x.f = X at *
  generalize y.f = Y at *
  have mac : mul64 a c = a * c := Nat.mod_eq_of_lt (mul_lt_two_pow_64 a c ha hc)
  have mbc : mul64 b c = b * c := Nat.mod_eq_of_lt (mul_lt_two_pow_64 b c hb hc)
  have mad : mul64 a d = a * d := Nat.mod_eq_of_lt (mul_lt_two_pow_64 a d ha hd)
  have mbd : mul64 b d = b * d := Nat.mod_eq_of_lt (mul_lt_two_pow_64 b d hb hd)
  rw [mac, mbc, mad, mbd]
  have hP : a * d = a * d / 2 ^ 32 * 2 ^ 32 + a * d % 2 ^ 32 := (Nat.div_add_mod' _ _).symm
  have hQ : b * c = b * c / 2 ^ 32 * 2 ^ 32 + b * c % 2 ^ 32 := (Nat.div_add_mod' _ _).symm
  have hB : b * d = b * d / 2 ^ 32 * 2 ^ 32 + b * d % 2 ^ 32 := (Nat.div_add_mod' _ _).symm
  have hPl : a * d % 2 ^ 32 < 2 ^ 32 := Nat.mod_lt _ (by norm_num)
  have hQl : b * c % 2 ^ 32 < 2 ^ 32 := Nat.mod_lt _ (by norm_num)
  have hBl : b * d % 2 ^ 32 < 2 ^ 32 := Nat.mod_lt _ (by norm_num)
  have hBh : b * d / 2 ^ 32 < 2 ^ 32 := by
    have := mul_lt_two_pow_64 b d hb hd
    omega
  have hPh : a * d / 2 ^ 32 < 2 ^ 32 := by
    have := mul_lt_two_pow_64 a d ha hd
    omega
  have hQh : b * c / 2 ^ 32 < 2 ^ 32 := by
    have := mul_lt_two_pow_64 b c hb hc
    omega
  have hac := mul_lt_two_pow_64 a c ha hc
  generalize a * d / 2 ^ 32 = Ph at *
  generalize a * d % 2 ^ 32 = Pl at *
  generalize b * c / 2 ^ 32 = Qh at *
  generalize b * c % 2 ^ 32 = Ql at *
  generalize b * d / 2 ^ 32 = Bh at *
  generalize b * d % 2 ^ 32 = Bl at *
  -- the product in terms of the partial products
  have hXY : X * Y + 2 ^ 63 = (a * c + Ph + Qh) * 2 ^ 64 + (Bh + Pl + Ql + 2 ^ 31) * 2 ^ 32 + Bl := by
    have e1 : X * Y = a * c * 2 ^ 64 + (a * d + b * c) * 2 ^ 32 + b * d := by
      rw [hX, hY]; ring
    rw [e1, hP, hQ, hB]; ring
  have htmp : add64 (add64 (add64 Bh Pl) Ql) (2 ^ 31) = Bh + Pl + Ql + 2 ^ 31 := by
    unfold add64; omega
  rw [htmp]
  generalize htv : (Bh + Pl + Ql + 2 ^ 31) / 2 ^ 32 = T
  have hT : T ≤ 3 := by omega
  have hdiv : (X * Y + 2 ^ 63) / 2 ^ 64 = a * c + Ph + Qh + T := by
    have e2 : X * Y + 2 ^ 63
        = ((Bh + Pl + Ql + 2 ^ 31) * 2 ^ 32 + Bl) + (a * c + Ph + Qh) * 2 ^ 64 := by omega
    rw [e2, Nat.add_mul_div_right _ _ (by norm_num : 0 < 2 ^ 64)]
    have e3 : ((Bh + Pl + Ql + 2 ^ 31) * 2 ^ 32 + Bl) / 2 ^ 64 = T := by
      rw [← htv]
      omega
    rw [e3]; ring
  have hmax : (X * Y + 2 ^ 63) / 2 ^ 64 < 2 ^ 64 := by
    rw [Nat.div_lt_iff_lt_mul (by norm_num)]
    have h1 : X * Y ≤ (2 ^ 64 - 1) * (2 ^ 64 - 1) := Nat.mul_le_mul (by omega) (by omega)
    have h2 : (2 ^ 64 - 1) * (2 ^ 64 - 1) + 2 ^ 63 < 2 ^ 64 * 2 ^ 64 := by norm_num
    omega
  have hsum : add64 (add64 (add64 (a * c) Ph) Qh) T = a * c + Ph + Qh + T := by
    unfold add64; omega
  rw [hsum, ← hdiv]


/-! ## Grisu: the cached powers of ten are correctly rounded -/

theorem cached_powers_accurate : kCachedPowers.all cached_power_accurate = true := by decide!

/-- The check `cached_power_accurate` in rational numbers. -/
theorem cached_power_accurate_spec (f : Nat) (be de : Int)
    (h : cached_power_accurate (f, be, de) = true) :
    |(f : ℚ) * 2 ^ be - 10 ^ de| ≤ 2 ^ be / 2 := by
  unfold cached_power_accurate at h
  simp only [decide_eq_true_eq] at h
  obtain ⟨h1, h2⟩ := h
  obtain ⟨a, ha⟩ : ∃ a : Nat, be.toNat = a := ⟨_, rfl⟩
  obtain ⟨a', ha'⟩ : ∃ a : Nat, (-be).toNat = a := ⟨_, rfl⟩
  obtain ⟨d, hd⟩ : ∃ a : Nat, de.toNat = a := ⟨_, rfl⟩
  obtain ⟨d', hd'⟩ : ∃ a : Nat, (-de).toNat = a := ⟨_, rfl⟩
  rw [ha, ha', hd, hd'] at h1 h2
  have hbe : be = (a : Int) - (a' : Int) := by omega
  have hde : de = (d : Int) - (d' : Int) := by omega
  have e2 : (2 : ℚ) ^ be = 2 ^ a / 2 ^ a' := by
    rw [hbe, zpow_sub₀ (by norm_num), zpow_natCast, zpow_natCast]
  have e10 : (10 : ℚ) ^ de = 10 ^ d / 10 ^ d' := by
    rw [hde, zpow_sub₀ (by norm_num), zpow_natCast, zpow_natCast]
  have p2 : (0 : ℚ) < 2 ^ a' := by positivity
  have p10 : (0 : ℚ) < 10 ^ d' := by positivity
  have q1 : (2 : ℚ) * ((f : ℚ) * 2 ^ a * 10 ^ d') ≤ 2 * (10 ^ d * 2 ^ a') + 2 ^ a * 10 ^ d' := by
    exact_mod_cast h1
  have q2 : (2 : ℚ) * (10 ^ d * 2 ^ a') ≤ 2 * ((f : ℚ) * 2 ^ a * 10 ^ d') + 2 ^ a * 10 ^ d' := by
    exact_mod_cast h2
  rw [e2, e10, abs_le]
  have key : (f : ℚ) * (2 ^ a / 2 ^ a') - 10 ^ d / 10 ^ d'
      = ((f : ℚ) * 2 ^ a * 10 ^ d' - 10 ^ d * 2 ^ a') / (2 ^ a' * 10 ^ d') := by
    field_simp
    ring
  have key2 : (2 : ℚ) ^ a / 2 ^ a' / 2 = (2 ^ a * 10 ^ d' / 2) / (2 ^ a' * 10 ^ d') := by
    field_simp
    ring
  rw [key, key2]
  have pp : (0 : ℚ) < 2 ^ a' * 10 ^ d' := by positivity
  constructor
  · rw [← neg_div, div_le_div_right pp]
    linarith
  · rw [div_le_div_right pp]
    linarith

/-- The cached power chosen for the exponent `we` of a normalized significand of a double is
`10^mk` rounded to 64 bits, `mk` being the decimal exponent returned with it. -/
theorem cached_power_value (we : Int) (h1 : -1137 ≤ we) (h2 : we ≤ 962) :
    |((GetCachedPowerForBinaryExponentRange (-60 - (we + 64)) (-32 - (we + 64))).1.f : ℚ)
        * 2 ^ (GetCachedPowerForBinaryExponentRange (-60 - (we + 64)) (-32 - (we + 64))).1.e
      - 10 ^ (GetCachedPowerForBinaryExponentRange (-60 - (we + 64)) (-32 - (we + 64))).2|
    ≤ 2 ^ (GetCachedPowerForBinaryExponentRange (-60 - (we + 64)) (-32 - (we + 64))).1.e / 2 := by
  obtain ⟨c1, -, -, -⟩ := cached_power_spec we h1 h2
  unfold GetCachedPowerForBinaryExponentRange at c1 ⊢
  simp only [] at c1 ⊢
  generalize (Int.tdiv (348 + fp_ceil (fp_mul (-60 - (we + 64) + 64 - 1, 0) k1Log10) - 1) 8
    + 1).toNat = i at c1 ⊢
  by_cases hi : i < kCachedPowers.length
  · have hmem : kCachedPowers.getD i (0, 0, 0) ∈ kCachedPowers := by
      rw [List.getD_eq_getElem _ _ hi]
      exact List.getElem_mem _
    have hall := cached_powers_accurate
    rw [List.all_eq_true] at hall
    have := hall _ hmem
    exact cached_power_accurate_spec _ _ _ this
  · rw [List.getD_eq_default _ _ (by omega)] at c1
    simp at c1


/-! ## Grisu: the value written by `DigitGen` -/

/-- Function `RoundWeed` returns; the last digit `d` is lowered `k` times, and when the result
is accepted the distance `rest + k * ten_kappa` to `too_high` lies between `2 * unit` and
`unsafe_interval - 4 * unit`. -/
theorem RoundWeed_value (dbl : double_format_context) (dist ui rest tk unit : Nat)
    (htk : 1 ≤ tk) (hui : ui < 2 ^ 64) (hunit : 1 ≤ unit) (hu4 : 4 * unit ≤ ui)
    (l : List Nat) (d : Nat) (hd : d ≤ 9) (hdig : dbl.digits = l ++ [48 + d])
    (hrest : rest < ui) (hprev : ui ≤ rest + d * tk) :
    ∃ ok k, RoundWeed dbl dist ui rest tk unit
        = some (ok, { dbl with digits := l ++ [48 + d - k] }) ∧ k ≤ d ∧
      (ok = true → k < d ∧ 2 * unit ≤ rest + k * tk ∧ rest + k * tk + 4 * unit ≤ ui) := by
  obtain ⟨k, rest2, e1, e2, e3, e4⟩ := RoundWeed_loop_spec (sub64 dist unit) ui tk htk hui
    (ui + 1) dbl rest l d hd hdig (by omega) hprev (by omega)
  unfold RoundWeed
  simp only []
  rw [e1]
  simp only []
  split_ifs with hc
  · exact ⟨false, k, rfl, e4, fun h => absurd h (by decide)⟩
  · refine ⟨_, k, rfl, e4, ?_⟩
    intro hok
    rw [decide_eq_true_eq] at hok
    have h4 : mul64 4 unit = 4 * unit := mul64_eq 4 unit (by omega)
    have h2 : mul64 2 unit = 2 * unit := mul64_eq 2 unit (by omega)
    rw [h4, h2, sub64_eq ui (4 * unit) hui hu4] at hok
    have hlt : k * tk < d * tk := by omega
    have := Nat.lt_of_mul_lt_mul_right hlt
    refine ⟨this, ?_, ?_⟩ <;> omega

/-- The remainder of `too_high` by the weight of the digit before the current one. -/
theorem too_high_mod (x n I s F : Nat) (hI : I < 10 ^ n) (hF : F < 2 ^ s) :
    ((x * 10 ^ n + I) * 2 ^ s + F) % (10 ^ n * 2 ^ s) = I * 2 ^ s + F := by
  have hlt : I * 2 ^ s + F < 10 ^ n * 2 ^ s := by
    have h1 : (I + 1) * 2 ^ s ≤ 10 ^ n * 2 ^ s := Nat.mul_le_mul_right _ hI
    have h2 : (I + 1) * 2 ^ s = I * 2 ^ s + 2 ^ s := by ring
    omega
  have e : (x * 10 ^ n + I) * 2 ^ s + F = I * 2 ^ s + F + 10 ^ n * 2 ^ s * x := by ring
  rw [e, Nat.add_mul_mod_self_left, Nat.mod_eq_of_lt hlt]

/-- The integral-digit loop of `DigitGen` with the value of its digits: `too_high` is the
number written so far, at the weight of the remaining `n` digits, plus the integrals still to
write and the fractionals. When `RoundWeed` accepts, the digits written, at the weight of
their last one, lie `rest` below `too_high` with `2 <= rest <= unsafe_interval - 4`, and the
remainder of `too_high` at the weight of the digit before is not inside the unsafe
interval. -/
theorem DigitGen_loop1_value (s sig too_high ui F : Nat)
    (hui4 : 4 ≤ ui) (hui : ui < 2 ^ 64) (hF : F < 2 ^ s) (n : Nat) (hn : n ≤ 10)
    (dbl : double_format_context)
    (I : Nat) (hI : I < 10 ^ n) (hwrap : I * 2 ^ s + F < 2 ^ 64) (hprev : ui ≤ I * 2 ^ s + F)
    (hfirst : dbl.digits = [] → 1 ≤ n → 10 ^ (n - 1) ≤ I)
    (hval : too_high = (digits_value dbl.digits * 10 ^ n + I) * 2 ^ s + F) :
    (∃ ok ds c, DigitGen_loop1 s sig too_high ui F n dbl I
        = Sum.inl (some (ok, { dbl with
            digits := dbl.digits ++ ds ++ [c],
            decimal_point := dbl.decimal_point - ((ds.length + 1 : Nat) : Int) })) ∧
      all_digits ds ∧ 48 ≤ c ∧ c ≤ 57 ∧ ds.length + 1 ≤ n ∧
      (ok = true → 49 ≤ c ∧ (dbl.digits = [] → (ds ++ [c]).head? ≠ some 48) ∧
        ∃ rest, digits_value (dbl.digits ++ ds ++ [c]) * 10 ^ (n - (ds.length + 1)) * 2 ^ s + rest
            = too_high ∧ 2 ≤ rest ∧ rest + 4 ≤ ui ∧
          ui ≤ too_high % (10 ^ (n - ds.length) * 2 ^ s))) ∨
    (∃ ds I2, DigitGen_loop1 s sig too_high ui F n dbl I
        = Sum.inr ({ dbl with
            digits := dbl.digits ++ ds,
            decimal_point := dbl.decimal_point - (n : Int) }, I2) ∧
      all_digits ds ∧ ui ≤ F ∧ ds.length = n ∧
      (dbl.digits = [] → 1 ≤ n → ds.head? ≠ some 48) ∧
      too_high = digits_value (dbl.digits ++ ds) * 2 ^ s + F) := by
  induction n generalizing dbl I with
  | zero =>
    right
    have hI0 : I = 0 := by simpa using hI
    refine ⟨[], I, ?_, all_digits_nil, ?_, rfl, fun _ h => absurd h (by omega), ?_⟩
    · rw [DigitGen_loop1]; simp
    · rw [hI0] at hprev
      simpa using hprev
    · rw [hval, hI0]
      simp
  | succ n ih =>
    rw [DigitGen_loop1]
    rw [kSmallPowersOfTen_spec n (by omega)]
    have hp : 0 < 10 ^ n := pow_pos (by norm_num) n
    have hsp : 0 < 2 ^ s := pow_pos (by norm_num) s
    have hdig : I / 10 ^ n < 10 := by
      rw [Nat.div_lt_iff_lt_mul hp]
      calc I < 10 ^ (n + 1) := hI
        _ = 10 * 10 ^ n := by ring
    have hmod : I % 10 ^ n < 10 ^ n := Nat.mod_lt _ hp
    have hdec : I = 10 ^ n * (I / 10 ^ n) + I % 10 ^ n := (Nat.div_add_mod _ _).symm
    have hmodTH : too_high % (10 ^ (n + 1) * 2 ^ s) = I * 2 ^ s + F := by
      rw [hval]
      exact too_high_mod _ _ _ _ _ hI hF
    rw [add_digit_eq dbl _ hdig]
    generalize hdv : I / 10 ^ n = d at *
    generalize hrv : I % 10 ^ n = r at *
    have hIs : I * 2 ^ s = d * (10 ^ n * 2 ^ s) + r * 2 ^ s := by rw [hdec]; ring
    have hrs : shl64 r s = r * 2 ^ s := shl64_eq r s (by omega)
    rw [hrs, add64_eq _ _ (by omega)]
    have hdf : dbl.digits = [] → 1 ≤ d := by
      intro hnil
      have h1 := hfirst hnil (by omega)
      simp only [Nat.add_sub_cancel] at h1
      by_contra hc
      have hd0 : d = 0 := by omega
      rw [hd0] at hdec
      omega
    have hval2 : too_high
        = (digits_value (dbl.digits ++ [48 + d]) * 10 ^ n + r) * 2 ^ s + F := by
      rw [hval, digits_value_append_single, hdec]
      have : 48 + d - 48 = d := by omega
      rw [this]
      ring
    by_cases hlt : r * 2 ^ s + F < ui
    · rw [if_pos hlt]
      left
      have hd1 : 1 ≤ d := by
        by_contra hc
        have hd0 : d = 0 := by omega
        rw [hd0] at hIs
        omega
      have htk : 10 ^ n * 2 ^ s ≤ d * (10 ^ n * 2 ^ s) := Nat.le_mul_of_pos_left _ hd1
      have hts : shl64 (10 ^ n) s = 10 ^ n * 2 ^ s := shl64_eq _ s (by omega)
      rw [hts]
      obtain ⟨ok, k, e1, e2, e3⟩ := RoundWeed_value
        { dbl with digits := dbl.digits ++ [48 + d], decimal_point := dbl.decimal_point - 1 }
        (sub64 too_high sig) ui (r * 2 ^ s + F) (10 ^ n * 2 ^ s) 1
        (Nat.mul_pos hp hsp) hui (le_refl 1) (by omega)
        dbl.digits d (by omega) rfl hlt (by omega)
      refine ⟨ok, [], 48 + d - k, by rw [e1]; simp, all_digits_nil, by omega, by omega,
        by simp, ?_⟩
      intro hok
      obtain ⟨k1, k2, k3⟩ := e3 hok
      refine ⟨by omega, ?_, r * 2 ^ s + F + k * (10 ^ n * 2 ^ s), ?_, by omega, by omega, ?_⟩
      · intro _
        simp only [List.nil_append, List.head?_cons, ne_eq, Option.some.injEq]
        omega
      · simp only [List.append_nil, List.length_nil, Nat.zero_add, Nat.add_sub_cancel]
        rw [hval, digits_value_append_single, hdec]
        have e5 : 48 + d - k - 48 = d - k := by omega
        rw [e5]
        obtain ⟨j, hj⟩ : ∃ j, d = k + j := ⟨d - k, by omega⟩
        rw [hj, Nat.add_sub_cancel_left]
        ring
      · simp only [List.length_nil, Nat.sub_zero]
        rw [hmodTH]
        exact hprev
    · rw [if_neg hlt]
      have hrI : r * 2 ^ s ≤ I * 2 ^ s := by omega
      rcases ih (by omega)
        { dbl with digits := dbl.digits ++ [48 + d], decimal_point := dbl.decimal_point - 1 }
        r hmod (by omega) (by omega) (fun hnil => absurd hnil (by simp)) hval2 with
        ⟨ok, ds, c, e1, e2, e3, e4, e5, e6⟩ | ⟨ds, I2, e1, e2, e3, e4, -, e8⟩
      · left
        refine ⟨ok, (48 + d) :: ds, c, ?_, ?_, e3, e4, by simp; omega, ?_⟩
        · rw [e1]
          simp only [List.append_assoc, List.singleton_append, List.length_cons]
          congr 3
          push_cast; ring_nf
        · rw [all_digits_cons]
          exact ⟨⟨by omega, by omega⟩, e2⟩
        · intro hok
          obtain ⟨f1, -, rest, f3, f4, f5, f6⟩ := e6 hok
          refine ⟨f1, ?_, rest, ?_, f4, f5, ?_⟩
          · intro hnil
            have := hdf hnil
            simp only [List.cons_append, List.head?_cons, ne_eq, Option.some.injEq]
            omega
          · simp only [List.length_cons]
            have e9 : n + 1 - (ds.length + 1 + 1) = n - (ds.length + 1) := by omega
            rw [e9, ← f3]
            simp
          · simp only [List.length_cons]
            have e9 : n + 1 - (ds.length + 1) = n - ds.length := by omega
            rw [e9]
            exact f6
      · right
        refine ⟨(48 + d) :: ds, I2, ?_, ?_, e3, by simp; omega, ?_, ?_⟩
        · rw [e1]
          simp only [List.append_assoc, List.singleton_append]
          congr 3
          push_cast; ring
        · rw [all_digits_cons]
          exact ⟨⟨by omega, by omega⟩, e2⟩
        · intro hnil _
          have := hdf hnil
          simp only [List.head?_cons, ne_eq, Option.some.injEq]
          omega
        · rw [e8]
          simp


/-- The fractional-digit loop of `DigitGen` with the value of its digits: it ends within the
fuel, and when `RoundWeed` accepts, the digits written lie `rest` below the start value scaled
by `10` per digit, with `rest` between twice and the unsafe interval less four times the scaled
unit, while one digit earlier the fractionals were not inside the unsafe interval. -/
theorem DigitGen_loop2_value (s sig too_high : Nat) (hs : s ≤ 60) (fuel : Nat)
    (dbl : double_format_context) (F U V : Nat) (hF : F < 2 ^ s) (hV : V ≤ F) (hU : 1 ≤ U)
    (hU4 : 4 * U ≤ V) (hfuel : 2 ^ 60 ≤ V * 10 ^ fuel) :
    ∃ ok ds c, DigitGen_loop2 s sig too_high (2 ^ s) fuel dbl F U V
        = some (ok, { dbl with
            digits := dbl.digits ++ ds ++ [c],
            decimal_point := dbl.decimal_point - ((ds.length + 1 : Nat) : Int) }) ∧
      all_digits ds ∧ 48 ≤ c ∧ c ≤ 57 ∧ ds.length + 1 ≤ fuel ∧
      (ok = true → 49 ≤ c ∧
        ∃ rest, digits_value (dbl.digits ++ ds ++ [c]) * 2 ^ s + rest
            = (digits_value dbl.digits * 2 ^ s + F) * 10 ^ (ds.length + 1) ∧
          2 * U * 10 ^ (ds.length + 1) ≤ rest ∧
          rest + 4 * U * 10 ^ (ds.length + 1) ≤ V * 10 ^ (ds.length + 1) ∧
          V * 10 ^ ds.length ≤ ((digits_value dbl.digits * 2 ^ s + F) * 10 ^ ds.length) % 2 ^ s) := by
  have hs60 : (2 : Nat) ^ s ≤ 2 ^ 60 := Nat.pow_le_pow_right (by norm_num) hs
  have hsp : 0 < 2 ^ s := pow_pos (by norm_num) s
  induction fuel generalizing dbl F U V with
  | zero =>
    simp only [pow_zero, mul_one] at hfuel
    omega
  | succ fuel ih =>
    rw [DigitGen_loop2]
    rw [mul64_eq F 10 (by omega), mul64_eq U 10 (by omega), mul64_eq V 10 (by omega),
      Nat.shiftRight_eq_div_pow, Nat.and_pow_two_sub_one_eq_mod]
    have hdig : F * 10 / 2 ^ s < 10 := by
      rw [Nat.div_lt_iff_lt_mul hsp]; omega
    have hmod : F * 10 % 2 ^ s < 2 ^ s := Nat.mod_lt _ hsp
    have hdec : F * 10 = 2 ^ s * (F * 10 / 2 ^ s) + F * 10 % 2 ^ s := (Nat.div_add_mod _ _).symm
    rw [add_digit_eq dbl _ hdig]
    generalize hdv : F * 10 / 2 ^ s = d at *
    generalize hrv : F * 10 % 2 ^ s = r at *
    have hx : digits_value (dbl.digits ++ [48 + d]) = 10 * digits_value dbl.digits + d := by
      rw [digits_value_append_single]
      omega
    have hstep : (digits_value dbl.digits * 2 ^ s + F) * 10
        = digits_value (dbl.digits ++ [48 + d]) * 2 ^ s + r := by
      rw [hx]
      have : (digits_value dbl.digits * 2 ^ s + F) * 10
          = 10 * digits_value dbl.digits * 2 ^ s + F * 10 := by ring
      rw [this, hdec]
      ring
    by_cases hlt : r < V * 10
    · rw [if_pos hlt]
      obtain ⟨ok, k, e1, e2, e3⟩ := RoundWeed_value
        { dbl with digits := dbl.digits ++ [48 + d], decimal_point := dbl.decimal_point - 1 }
        (mul64 (sub64 too_high sig) (U * 10)) (V * 10) r (2 ^ s) (U * 10)
        hsp (by omega) (by omega) (by omega) dbl.digits d (by omega) rfl hlt
        (by rw [Nat.mul_comm d]; omega)
      refine ⟨ok, [], 48 + d - k, by rw [e1]; simp, all_digits_nil, by omega, by omega,
        by simp, ?_⟩
      intro hok
      obtain ⟨k1, k2, k3⟩ := e3 hok
      refine ⟨by omega, r + k * 2 ^ s, ?_, ?_, ?_, ?_⟩
      · simp only [List.append_nil, List.length_nil, Nat.zero_add, pow_one]
        rw [hstep, hx, digits_value_append_single]
        have e5 : 48 + d - k - 48 = d - k := by omega
        rw [e5]
        obtain ⟨j, hj⟩ : ∃ j, d = k + j := ⟨d - k, by omega⟩
        rw [hj, Nat.add_sub_cancel_left]
        ring
      · simp only [List.length_nil, Nat.zero_add, pow_one]
        omega
      · simp only [List.length_nil, Nat.zero_add, pow_one]
        omega
      · simp only [List.length_nil, pow_zero, mul_one]
        have e6 : (digits_value dbl.digits * 2 ^ s + F) % 2 ^ s = F := by
          rw [Nat.add_comm, Nat.add_mul_mod_self_right, Nat.mod_eq_of_lt hF]
        rw [e6]
        exact hV
    · rw [if_neg hlt]
      obtain ⟨ok, ds, c, e1, e2, e3, e4, e5, e6⟩ := ih
        { dbl with digits := dbl.digits ++ [48 + d], decimal_point := dbl.decimal_point - 1 }
        r (U * 10) (V * 10) hmod (by omega) (by omega) (by omega)
        (by have : V * 10 ^ (fuel + 1) = V * 10 * 10 ^ fuel := by rw [pow_succ]; ring
            rw [← this]; exact hfuel)
      refine ⟨ok, (48 + d) :: ds, c, ?_, ?_, e3, e4, by simp; omega, ?_⟩
      · rw [e1]
        simp only [List.append_assoc, List.singleton_append, List.length_cons]
        congr 3
        push_cast; ring_nf
      · rw [all_digits_cons]
        exact ⟨⟨by omega, by omega⟩, e2⟩
      · intro hok
        obtain ⟨f1, rest, f3, f4, f5, f6⟩ := e6 hok
        have f3b : digits_value (dbl.digits ++ [48 + d] ++ ds ++ [c]) * 2 ^ s + rest
            = (digits_value (dbl.digits ++ [48 + d]) * 2 ^ s + r) * 10 ^ (ds.length + 1) := f3
        have f6b : V * 10 * 10 ^ ds.length
            ≤ ((digits_value (dbl.digits ++ [48 + d]) * 2 ^ s + r) * 10 ^ ds.length) % 2 ^ s := f6
        refine ⟨f1, rest, ?_, ?_, ?_, ?_⟩
        · simp only [List.length_cons]
          rw [pow_succ _ (ds.length + 1), ← Nat.mul_assoc, Nat.mul_right_comm _ (10 ^ (ds.length + 1)),
            hstep, ← f3b]
          simp
        · simp only [List.length_cons]
          rw [pow_succ _ (ds.length + 1)]
          calc 2 * U * (10 ^ (ds.length + 1) * 10) = 2 * (U * 10) * 10 ^ (ds.length + 1) := by ring
            _ ≤ rest := f4
        · simp only [List.length_cons]
          rw [pow_succ _ (ds.length + 1)]
          calc rest + 4 * U * (10 ^ (ds.length + 1) * 10)
              = rest + 4 * (U * 10) * 10 ^ (ds.length + 1) := by ring
            _ ≤ V * 10 * 10 ^ (ds.length + 1) := f5
            _ = V * (10 ^ (ds.length + 1) * 10) := by ring
        · simp only [List.length_cons]
          have e7 : (digits_value dbl.digits * 2 ^ s + F) * 10 ^ (ds.length + 1)
              = (digits_value (dbl.digits ++ [48 + d]) * 2 ^ s + r) * 10 ^ ds.length := by
            rw [← hstep, pow_succ]; ring
          rw [e7]
          calc V * 10 ^ (ds.length + 1) = V * 10 * 10 ^ ds.length := by rw [pow_succ]; ring
            _ ≤ _ := f6b


/-- Function `DigitGen` with the value of its digits, for boundaries `low + 2 <= high` at an
exponent in `[-60, -32]` and an empty buffer. With `kappa` the final `decimal_point`, an
accepted result is a digit string without leading or trailing zero whose number `X` satisfies
`X * 10^kappa * 2^shift + rest = too_high` (both sides scaled by `10^-kappa` for a negative
`kappa`), where `2 <= rest <= unsafe_interval - 4` in units; and the remainder of `too_high`
at the weight `10^(kappa+1)` is not inside the unsafe interval. -/
theorem DigitGen_value (dbl : double_format_context) (e : Int) (sig low high : Nat)
    (he1 : -60 ≤ e) (he2 : e ≤ -32) (hlow : 1 ≤ low) (hlh : low + 2 ≤ high)
    (hhigh : high + 1 < 2 ^ 64) (hbig : 2 ^ 62 ≤ high + 1) (hnil : dbl.digits = []) :
    ∃ ok ds k, DigitGen dbl e sig low high
        = some (ok, { dbl with digits := ds, decimal_point := k }) ∧
      (ok = true → all_digits ds ∧ ds.head? ≠ some 48 ∧ ds.getLast? ≠ some 48 ∧
        1 ≤ ds.length ∧ ds.length ≤ 74 ∧
        ∃ rest, digits_value ds * 10 ^ k.toNat * 2 ^ (-e).toNat + rest
            = (high + 1) * 10 ^ (-k).toNat ∧
          2 * 10 ^ (-k).toNat ≤ rest ∧
          rest + 4 * 10 ^ (-k).toNat ≤ (high + 2 - low) * 10 ^ (-k).toNat ∧
          (high + 2 - low) * 10 ^ (-(k + 1)).toNat
            ≤ ((high + 1) * 10 ^ (-(k + 1)).toNat) % (10 ^ (k + 1).toNat * 2 ^ (-e).toNat)) := by
  obtain ⟨s, hs⟩ : ∃ s : Nat, (-e).toNat = s := ⟨_, rfl⟩
  have hs1 : 32 ≤ s := by omega
  have hs2 : s ≤ 60 := by omega
  have hsp : 0 < 2 ^ s := pow_pos (by norm_num) s
  have h32 : (2 : Nat) ^ 32 ≤ 2 ^ s := Nat.pow_le_pow_right (by norm_num) hs1
  have hpw : (2 : Nat) ^ s * 2 ^ (64 - s) = 2 ^ 64 := by
    rw [← pow_add]; congr 1; omega
  have h60 : (2 : Nat) ^ s ≤ 2 ^ 60 := Nat.pow_le_pow_right (by norm_num) hs2
  have hone : shl64 1 s = 2 ^ s := by
    rw [shl64_eq 1 s (by omega), one_mul]
  have hth : add64 high 1 = high + 1 := add64_eq _ _ hhigh
  have htl : sub64 low 1 = low - 1 := sub64_eq _ _ (by omega) hlow
  have hui : sub64 (high + 1) (low - 1) = high + 1 - (low - 1) := sub64_eq _ _ hhigh (by omega)
  have hIlt : (high + 1) / 2 ^ s < 2 ^ (64 - s) := by
    rw [Nat.div_lt_iff_lt_mul hsp, Nat.mul_comm, hpw]; exact hhigh
  have hIb : (2 : Nat) ^ (64 - s) ≤ 2 ^ 32 := Nat.pow_le_pow_right (by norm_num) (by omega)
  have hI32 : (high + 1) / 2 ^ s % 2 ^ 32 = (high + 1) / 2 ^ s := Nat.mod_eq_of_lt (by omega)
  obtain ⟨g1, g2⟩ := greater_power_of_ten_spec ((high + 1) / 2 ^ s) (64 - s) (by omega) (by omega) hIlt
  have hIge : 2 ^ (64 - s - 2) ≤ (high + 1) / 2 ^ s := by
    rw [Nat.le_div_iff_mul_le hsp, ← pow_add]
    have : 64 - s - 2 + s = 62 := by omega
    rw [this]; exact hbig
  obtain ⟨g3, g4⟩ := greater_power_of_ten_lower ((high + 1) / 2 ^ s) (64 - s) (by omega) (by omega)
    hIge
  have hdec : high + 1 = 2 ^ s * ((high + 1) / 2 ^ s) + (high + 1) % 2 ^ s :=
    (Nat.div_add_mod _ _).symm
  have hmod : (high + 1) % 2 ^ s < 2 ^ s := Nat.mod_lt _ hsp
  unfold DigitGen
  simp only []
  rw [hs, hone, hth, htl, hui, Nat.shiftRight_eq_div_pow, Nat.and_pow_two_sub_one_eq_mod, hI32]
  generalize hpv : greater_power_of_ten ((high + 1) / 2 ^ s) (64 - s) = p at *
  generalize hIv : (high + 1) / 2 ^ s = I at *
  generalize hFv : (high + 1) % 2 ^ s = F at *
  have hsum : I * 2 ^ s + F = high + 1 := by rw [hdec]; ring
  have hui2 : high + 1 - (low - 1) = high + 2 - low := by omega
  rcases DigitGen_loop1_value s sig (high + 1) (high + 1 - (low - 1)) F (by omega) (by omega)
    hmod p g1 { dbl with decimal_point := (p : Int) } I g2 (by omega) (by omega) (fun _ _ => g4)
    (by show high + 1 = (digits_value dbl.digits * 10 ^ p + I) * 2 ^ s + F
        rw [hnil, digits_value_nil, Nat.zero_mul, Nat.zero_add]; omega)
    with ⟨ok, ds, c, e1, e2, e3, e4, e5, e6⟩ | ⟨ds, I2, e1, e2, e3, e4, e7, e8⟩
  · rw [e1]
    refine ⟨ok, dbl.digits ++ ds ++ [c], _, rfl, ?_⟩
    intro hok
    obtain ⟨f1, f2, rest, f3, f4, f5, f6⟩ := e6 hok
    have hall : all_digits (dbl.digits ++ ds ++ [c]) := by
      rw [hnil, List.nil_append, all_digits_append]
      exact ⟨e2, all_digits_single c e3 e4⟩
    have hk : ((p : Int) - ((ds.length + 1 : Nat) : Int)).toNat = p - (ds.length + 1) := by omega
    have hk2 : (-((p : Int) - ((ds.length + 1 : Nat) : Int))).toNat = 0 := by omega
    have hk3 : ((p : Int) - ((ds.length + 1 : Nat) : Int) + 1).toNat = p - ds.length := by omega
    have hk4 : (-((p : Int) - ((ds.length + 1 : Nat) : Int) + 1)).toNat = 0 := by omega
    have hlen : (dbl.digits ++ ds ++ [c]).length = ds.length + 1 := by simp [hnil]
    refine ⟨hall, ?_, ?_, by omega, by omega, rest, ?_, ?_, ?_, ?_⟩
    · rw [hnil, List.nil_append]
      exact f2 hnil
    · rw [List.getLast?_append_of_ne_nil _ (by simp)]
      simp only [List.getLast?_singleton, ne_eq, Option.some.injEq]
      omega
    · show digits_value (dbl.digits ++ ds ++ [c])
          * 10 ^ ((p : Int) - ((ds.length + 1 : Nat) : Int)).toNat * 2 ^ s + rest
        = (high + 1) * 10 ^ (-((p : Int) - ((ds.length + 1 : Nat) : Int))).toNat
      rw [hk, hk2, pow_zero, mul_one]
      exact f3
    · show 2 * 10 ^ (-((p : Int) - ((ds.length + 1 : Nat) : Int))).toNat ≤ rest
      rw [hk2, pow_zero, mul_one]
      exact f4
    · show rest + 4 * 10 ^ (-((p : Int) - ((ds.length + 1 : Nat) : Int))).toNat
        ≤ (high + 2 - low) * 10 ^ (-((p : Int) - ((ds.length + 1 : Nat) : Int))).toNat
      rw [hk2, pow_zero, mul_one, mul_one, ← hui2]
      exact f5
    · show (high + 2 - low) * 10 ^ (-((p : Int) - ((ds.length + 1 : Nat) : Int) + 1)).toNat
        ≤ ((high + 1) * 10 ^ (-((p : Int) - ((ds.length + 1 : Nat) : Int) + 1)).toNat)
          % (10 ^ ((p : Int) - ((ds.length + 1 : Nat) : Int) + 1).toNat * 2 ^ s)
      rw [hk3, hk4, pow_zero, mul_one, mul_one, ← hui2]
      exact f6
  · rw [e1]
    simp only []
    obtain ⟨ok, ds2, c, f1, f2, f3, f4, f5, f6⟩ := DigitGen_loop2_value s sig (high + 1) hs2 64
      { dbl with digits := dbl.digits ++ ds, decimal_point := (p : Int) - p }
      F 1 (high + 1 - (low - 1)) hmod e3 (le_refl 1) (by omega)
      (by have : 2 ^ 60 * 1 ≤ 10 ^ 64 * (high + 1 - (low - 1)) :=
            Nat.mul_le_mul (by norm_num) (by omega)
          rw [Nat.mul_comm _ (10 ^ 64)]; omega)
    rw [f1]
    refine ⟨ok, dbl.digits ++ ds ++ ds2 ++ [c], _, rfl, ?_⟩
    intro hok
    obtain ⟨h1, rest, h3, h4, h5, h6⟩ := f6 hok
    have hne : ds ≠ [] := by
      intro hds
      rw [hds] at e4
      simp at e4
      omega
    have hk : ((p : Int) - p - ((ds2.length + 1 : Nat) : Int)).toNat = 0 := by omega
    have hk2 : (-((p : Int) - p - ((ds2.length + 1 : Nat) : Int))).toNat = ds2.length + 1 := by
      omega
    have hk3 : ((p : Int) - p - ((ds2.length + 1 : Nat) : Int) + 1).toNat = 0 := by omega
    have hk4 : (-((p : Int) - p - ((ds2.length + 1 : Nat) : Int) + 1)).toNat = ds2.length := by
      omega
    have hth : digits_value (dbl.digits ++ ds) * 2 ^ s + F = high + 1 := e8.symm
    have hlen : (dbl.digits ++ ds ++ ds2 ++ [c]).length = ds.length + ds2.length + 1 := by
      simp [hnil]
      omega
    refine ⟨?_, ?_, ?_, by omega, by omega, rest, ?_, ?_, ?_, ?_⟩
    · rw [hnil, List.nil_append, all_digits_append, all_digits_append]
      exact ⟨⟨e2, f2⟩, all_digits_single c f3 f4⟩
    · rw [hnil, List.nil_append, List.append_assoc, List.head?_append_of_ne_nil _ hne]
      exact e7 hnil g3
    · rw [List.getLast?_append_of_ne_nil _ (by simp)]
      simp only [List.getLast?_singleton, ne_eq, Option.some.injEq]
      omega
    · show digits_value (dbl.digits ++ ds ++ ds2 ++ [c])
          * 10 ^ ((p : Int) - p - ((ds2.length + 1 : Nat) : Int)).toNat * 2 ^ s + rest
        = (high + 1) * 10 ^ (-((p : Int) - p - ((ds2.length + 1 : Nat) : Int))).toNat
      rw [hk, hk2, pow_zero, mul_one, ← hth]
      exact h3
    · show 2 * 10 ^ (-((p : Int) - p - ((ds2.length + 1 : Nat) : Int))).toNat ≤ rest
      rw [hk2]
      calc 2 * 10 ^ (ds2.length + 1) = 2 * 1 * 10 ^ (ds2.length + 1) := by ring
        _ ≤ rest := h4
    · show rest + 4 * 10 ^ (-((p : Int) - p - ((ds2.length + 1 : Nat) : Int))).toNat
        ≤ (high + 2 - low) * 10 ^ (-((p : Int) - p - ((ds2.length + 1 : Nat) : Int))).toNat
      rw [hk2, ← hui2]
      calc rest + 4 * 10 ^ (ds2.length + 1) = rest + 4 * 1 * 10 ^ (ds2.length + 1) := by ring
        _ ≤ _ := h5
    · show (high + 2 - low) * 10 ^ (-((p : Int) - p - ((ds2.length + 1 : Nat) : Int) + 1)).toNat
        ≤ ((high + 1) * 10 ^ (-((p : Int) - p - ((ds2.length + 1 : Nat) : Int) + 1)).toNat)
          % (10 ^ ((p : Int) - p - ((ds2.length + 1 : Nat) : Int) + 1).toNat * 2 ^ s)
      have h6c : (high + 1 - (low - 1)) * 10 ^ ds2.length
          ≤ ((digits_value (dbl.digits ++ ds) * 2 ^ s + F) * 10 ^ ds2.length) % 2 ^ s := h6
      rw [hth] at h6c
      rw [hk3, hk4, pow_zero, one_mul, ← hui2]
      exact h6c


/-! ## Grisu: an accepted result lies strictly between the boundaries -/

/-- The arithmetic of Grisu3: `A` and `B` are the significands of the two boundaries at the
binary exponent `we`, `cf * 2^ce` is `10^mk` rounded to 64 bits, `low` and `high` are the
rounded products with it, and the number `X * 10^(a - b)` lies `rest` below `too_high = high + 1`
with `2 <= rest <= unsafe_interval - 4` in units. Then `X * 10^(a - b - mk)` lies strictly
between the boundaries. -/
theorem grisu_interval (A B cf X rest a b s low high : Nat) (we ce mk : Int)
    (hC : |(cf : ℚ) * 2 ^ ce - 10 ^ mk| ≤ 2 ^ ce / 2)
    (hA : A < 2 ^ 64) (hB : B < 2 ^ 64)
    (hlow : low = (A * cf + 2 ^ 63) / 2 ^ 64) (hhigh : high = (B * cf + 2 ^ 63) / 2 ^ 64)
    (hs : (s : Int) = -(we + (ce + 64))) (hlh : low + 2 ≤ high)
    (hval : X * 10 ^ a * 2 ^ s + rest = (high + 1) * 10 ^ b)
    (h2 : 2 * 10 ^ b ≤ rest) (h4 : rest + 4 * 10 ^ b ≤ (high + 2 - low) * 10 ^ b) :
    (A : ℚ) * 2 ^ we < (X : ℚ) * 10 ^ ((a : Int) - (b : Int) - mk) ∧
    (X : ℚ) * 10 ^ ((a : Int) - (b : Int) - mk) < (B : ℚ) * 2 ^ we := by
  have p2 : ∀ z : Int, (0 : ℚ) < 2 ^ z := fun z => zpow_pos (by norm_num) z
  have p10 : ∀ z : Int, (0 : ℚ) < 10 ^ z := fun z => zpow_pos (by norm_num) z
  -- the real scaling factor, in units of the cached significand
  obtain ⟨C, hCdef⟩ : ∃ C : ℚ, C = 10 ^ mk / 2 ^ ce := ⟨_, rfl⟩
  have hCpos : 0 < C := by rw [hCdef]; exact div_pos (p10 mk) (p2 ce)
  have hCerr : |(cf : ℚ) - C| ≤ 1 / 2 := by
    have e1 : (cf : ℚ) - C = ((cf : ℚ) * 2 ^ ce - 10 ^ mk) / 2 ^ ce := by
      rw [hCdef]; field_simp
    rw [e1, abs_div, abs_of_pos (p2 ce), div_le_iff₀ (p2 ce)]
    calc |(cf : ℚ) * 2 ^ ce - 10 ^ mk| ≤ 2 ^ ce / 2 := hC
      _ = 1 / 2 * 2 ^ ce := by ring
  obtain ⟨hC1, hC2⟩ := abs_le.1 hCerr
  -- the rounded products
  have hhi1 : high * 2 ^ 64 ≤ B * cf + 2 ^ 63 := by
    rw [hhigh]; exact Nat.div_mul_le_self _ _
  have hlo1 : A * cf + 2 ^ 63 < (low + 1) * 2 ^ 64 := by
    have := Nat.lt_mul_div_succ (A * cf + 2 ^ 63) (show 0 < 2 ^ 64 by norm_num)
    rw [hlow]
    omega
  obtain ⟨H, hH⟩ : ∃ H : ℚ, H = 2 ^ 63 := ⟨_, rfl⟩
  have hHpos : 0 < H := by rw [hH]; positivity
  have hK : (2 : ℚ) ^ 64 = 2 * H := by rw [hH]; norm_num
  have hhiq : (high : ℚ) * (2 * H) ≤ (B : ℚ) * cf + H := by
    rw [← hK, hH]; exact_mod_cast hhi1
  have hloq : (A : ℚ) * cf + H < ((low : ℚ) + 1) * (2 * H) := by
    rw [← hK, hH]; exact_mod_cast hlo1
  have hAq : (A : ℚ) < 2 * H := by rw [← hK]; exact_mod_cast hA
  have hBq : (B : ℚ) < 2 * H := by rw [← hK]; exact_mod_cast hB
  have hA0 : (0 : ℚ) ≤ A := Nat.cast_nonneg A
  have hB0 : (0 : ℚ) ≤ B := Nat.cast_nonneg B
  -- the boundaries in scaled units
  have hup : ((high : ℚ) - 1) * (2 * H) < (B : ℚ) * C := by
    have h1 := mul_le_mul_of_nonneg_left hC2 hB0
    have h3 : (B : ℚ) * ((cf : ℚ) - C) = (B : ℚ) * cf - (B : ℚ) * C := by ring
    rw [h3] at h1
    linarith
  have hdn : (A : ℚ) * C < ((low : ℚ) + 3) * (2 * H) := by
    have h1 := mul_le_mul_of_nonneg_left hC1 hA0
    have h3 : (A : ℚ) * ((cf : ℚ) - C) = (A : ℚ) * cf - (A : ℚ) * C := by ring
    rw [h3] at h1
    linarith
  -- the number written, in scaled units
  have hT : (0 : ℚ) < 10 ^ b := by positivity
  have hvq : (X : ℚ) * 10 ^ a * 2 ^ s + rest = ((high : ℚ) + 1) * 10 ^ b := by
    exact_mod_cast hval
  have h2q : (2 : ℚ) * 10 ^ b ≤ rest := by exact_mod_cast h2
  have h4q : (rest : ℚ) + 4 * 10 ^ b ≤ ((high : ℚ) + 2 - low) * 10 ^ b := by
    have : ((high + 2 - low : Nat) : ℚ) = (high : ℚ) + 2 - low := by
      rw [Nat.cast_sub (by omega)]; push_cast; ring
    rw [← this]
    exact_mod_cast h4
  have hZ1 : (X : ℚ) * 10 ^ a * 2 ^ s ≤ ((high : ℚ) - 1) * 10 ^ b := by linarith
  have hZ2 : ((low : ℚ) + 3) * 10 ^ b ≤ (X : ℚ) * 10 ^ a * 2 ^ s := by linarith
  -- back to the value
  have hwe : we = -(s : Int) - ce - 64 := by omega
  have e10 : (10 : ℚ) ^ ((a : Int) - (b : Int) - mk) = 10 ^ a / (10 ^ b * 10 ^ mk) := by
    rw [zpow_sub₀ (by norm_num), zpow_sub₀ (by norm_num), zpow_natCast, zpow_natCast]
    field_simp
  have e2 : (2 : ℚ) ^ we = 1 / (2 ^ s * 2 ^ ce * (2 * H)) := by
    rw [hwe, zpow_sub₀ (by norm_num), zpow_sub₀ (by norm_num), zpow_neg, zpow_natCast]
    have : (2 : ℚ) ^ (64 : Int) = 2 * H := by rw [← hK]; norm_cast
    rw [this]
    field_simp
  have hCe : C * 2 ^ ce = 10 ^ mk := by
    rw [hCdef]; field_simp
  have hS : (0 : ℚ) < 2 ^ s := by positivity
  have hce := p2 ce
  have hD1 : (0 : ℚ) < 2 ^ s * 2 ^ ce * (2 * H) := by positivity
  have hD2 : (0 : ℚ) < 10 ^ b * (C * 2 ^ ce) := by positivity
  rw [e10, e2, ← hCe]
  constructor
  · rw [mul_one_div, mul_div_assoc', div_lt_div_iff hD1 hD2]
    have h5 : (A : ℚ) * C * 10 ^ b < (X : ℚ) * 10 ^ a * 2 ^ s * (2 * H) := by
      calc (A : ℚ) * C * 10 ^ b < ((low : ℚ) + 3) * (2 * H) * 10 ^ b :=
            mul_lt_mul_of_pos_right hdn hT
        _ = ((low : ℚ) + 3) * 10 ^ b * (2 * H) := by ring
        _ ≤ (X : ℚ) * 10 ^ a * 2 ^ s * (2 * H) :=
            mul_le_mul_of_nonneg_right hZ2 (by positivity)
    calc (A : ℚ) * (10 ^ b * (C * 2 ^ ce))
        = (A : ℚ) * C * 10 ^ b * 2 ^ ce := by ring
      _ < (X : ℚ) * 10 ^ a * 2 ^ s * (2 * H) * 2 ^ ce := mul_lt_mul_of_pos_right h5 hce
      _ = (X : ℚ) * 10 ^ a * (2 ^ s * 2 ^ ce * (2 * H)) := by ring
  · rw [mul_one_div, mul_div_assoc', div_lt_div_iff hD2 hD1]
    have h5 : (X : ℚ) * 10 ^ a * 2 ^ s * (2 * H) < (B : ℚ) * C * 10 ^ b := by
      calc (X : ℚ) * 10 ^ a * 2 ^ s * (2 * H)
          ≤ ((high : ℚ) - 1) * 10 ^ b * (2 * H) :=
            mul_le_mul_of_nonneg_right hZ1 (by positivity)
        _ = ((high : ℚ) - 1) * (2 * H) * 10 ^ b := by ring
        _ < (B : ℚ) * C * 10 ^ b := mul_lt_mul_of_pos_right hup hT
    calc (X : ℚ) * 10 ^ a * (2 ^ s * 2 ^ ce * (2 * H))
        = (X : ℚ) * 10 ^ a * 2 ^ s * (2 * H) * 2 ^ ce := by ring
      _ < (B : ℚ) * C * 10 ^ b * 2 ^ ce := mul_lt_mul_of_pos_right h5 hce
      _ = (B : ℚ) * (10 ^ b * (C * 2 ^ ce)) := by ring

/-- The arithmetic of the minimality of Grisu3: when the remainder of `too_high` at the
weight `10^(kappa+1)` is not inside the unsafe interval, a multiple `Y * 10^(kappa+1-mk)` that
is not above the upper boundary lies strictly below the lower boundary. -/
theorem grisu_shorter (A B cf Y a b s low high : Nat) (we ce mk : Int)
    (hC : |(cf : ℚ) * 2 ^ ce - 10 ^ mk| ≤ 2 ^ ce / 2)
    (hA : A < 2 ^ 64) (hB : B < 2 ^ 64)
    (hlow : low = (A * cf + 2 ^ 63) / 2 ^ 64) (hhigh : high = (B * cf + 2 ^ 63) / 2 ^ 64)
    (hs : (s : Int) = -(we + (ce + 64))) (hlh : low + 2 ≤ high) (hl1 : 1 ≤ low)
    (hmod : (high + 2 - low) * 10 ^ b ≤ ((high + 1) * 10 ^ b) % (10 ^ a * 2 ^ s))
    (hle : (Y : ℚ) * 10 ^ ((a : Int) - (b : Int) - mk) ≤ (B : ℚ) * 2 ^ we) :
    (Y : ℚ) * 10 ^ ((a : Int) - (b : Int) - mk) < (A : ℚ) * 2 ^ we := by
  have p2 : ∀ z : Int, (0 : ℚ) < 2 ^ z := fun z => zpow_pos (by norm_num) z
  have p10 : ∀ z : Int, (0 : ℚ) < 10 ^ z := fun z => zpow_pos (by norm_num) z
  obtain ⟨C, hCdef⟩ : ∃ C : ℚ, C = 10 ^ mk / 2 ^ ce := ⟨_, rfl⟩
  have hCpos : 0 < C := by rw [hCdef]; exact div_pos (p10 mk) (p2 ce)
  have hCerr : |(cf : ℚ) - C| ≤ 1 / 2 := by
    have e1 : (cf : ℚ) - C = ((cf : ℚ) * 2 ^ ce - 10 ^ mk) / 2 ^ ce := by
      rw [hCdef]; field_simp
    rw [e1, abs_div, abs_of_pos (p2 ce), div_le_iff₀ (p2 ce)]
    calc |(cf : ℚ) * 2 ^ ce - 10 ^ mk| ≤ 2 ^ ce / 2 := hC
      _ = 1 / 2 * 2 ^ ce := by ring
  obtain ⟨hC1, hC2⟩ := abs_le.1 hCerr
  have hlo1 : low * 2 ^ 64 ≤ A * cf + 2 ^ 63 := by
    rw [hlow]; exact Nat.div_mul_le_self _ _
  have hhi1 : B * cf + 2 ^ 63 < (high + 1) * 2 ^ 64 := by
    have := Nat.lt_mul_div_succ (B * cf + 2 ^ 63) (show 0 < 2 ^ 64 by norm_num)
    rw [hhigh]
    omega
  obtain ⟨H, hH⟩ : ∃ H : ℚ, H = 2 ^ 63 := ⟨_, rfl⟩
  have hHpos : 0 < H := by rw [hH]; positivity
  have hK : (2 : ℚ) ^ 64 = 2 * H := by rw [hH]; norm_num
  have hloq : (low : ℚ) * (2 * H) ≤ (A : ℚ) * cf + H := by
    rw [← hK, hH]; exact_mod_cast hlo1
  have hhiq : (B : ℚ) * cf + H < ((high : ℚ) + 1) * (2 * H) := by
    rw [← hK, hH]; exact_mod_cast hhi1
  have hAq : (A : ℚ) < 2 * H := by rw [← hK]; exact_mod_cast hA
  have hBq : (B : ℚ) < 2 * H := by rw [← hK]; exact_mod_cast hB
  have hA0 : (0 : ℚ) ≤ A := Nat.cast_nonneg A
  have hB0 : (0 : ℚ) ≤ B := Nat.cast_nonneg B
  have hup : (B : ℚ) * C < ((high : ℚ) + 1) * (2 * H) := by
    have h1 := mul_le_mul_of_nonneg_left hC1 hB0
    have h3 : (B : ℚ) * ((cf : ℚ) - C) = (B : ℚ) * cf - (B : ℚ) * C := by ring
    rw [h3] at h1
    linarith
  have hdn : ((low : ℚ) - 1) * (2 * H) < (A : ℚ) * C := by
    have h1 := mul_le_mul_of_nonneg_left hC2 hA0
    have h3 : (A : ℚ) * ((cf : ℚ) - C) = (A : ℚ) * cf - (A : ℚ) * C := by ring
    rw [h3] at h1
    linarith
  have hT : (0 : ℚ) < 10 ^ b := by positivity
  have hwe : we = -(s : Int) - ce - 64 := by omega
  have e10 : (10 : ℚ) ^ ((a : Int) - (b : Int) - mk) = 10 ^ a / (10 ^ b * 10 ^ mk) := by
    rw [zpow_sub₀ (by norm_num), zpow_sub₀ (by norm_num), zpow_natCast, zpow_natCast]
    field_simp
  have e2 : (2 : ℚ) ^ we = 1 / (2 ^ s * 2 ^ ce * (2 * H)) := by
    rw [hwe, zpow_sub₀ (by norm_num), zpow_sub₀ (by norm_num), zpow_neg, zpow_natCast]
    have : (2 : ℚ) ^ (64 : Int) = 2 * H := by rw [← hK]; norm_cast
    rw [this]
    field_simp
  have hCe : C * 2 ^ ce = 10 ^ mk := by
    rw [hCdef]; field_simp
  have hS : (0 : ℚ) < 2 ^ s := by positivity
  have hce := p2 ce
  have hD1 : (0 : ℚ) < 2 ^ s * 2 ^ ce * (2 * H) := by positivity
  have hD2 : (0 : ℚ) < 10 ^ b * (C * 2 ^ ce) := by positivity
  rw [e10, e2, ← hCe] at hle ⊢
  rw [mul_one_div, mul_div_assoc', div_le_div_iff hD2 hD1] at hle
  rw [mul_one_div, mul_div_assoc', div_lt_div_iff hD2 hD1]
  -- the multiple is below `too_high`
  have h5 : (Y : ℚ) * 10 ^ a * 2 ^ s * (2 * H) ≤ (B : ℚ) * C * 10 ^ b := by
    have h6 : (Y : ℚ) * 10 ^ a * 2 ^ s * (2 * H) * 2 ^ ce ≤ (B : ℚ) * C * 10 ^ b * 2 ^ ce := by
      calc (Y : ℚ) * 10 ^ a * 2 ^ s * (2 * H) * 2 ^ ce
          = (Y : ℚ) * 10 ^ a * (2 ^ s * 2 ^ ce * (2 * H)) := by ring
        _ ≤ (B : ℚ) * (10 ^ b * (C * 2 ^ ce)) := hle
        _ = (B : ℚ) * C * 10 ^ b * 2 ^ ce := by ring
    exact le_of_mul_le_mul_right h6 hce
  have h7 : (Y : ℚ) * 10 ^ a * 2 ^ s * (2 * H) < ((high : ℚ) + 1) * 10 ^ b * (2 * H) := by
    calc (Y : ℚ) * 10 ^ a * 2 ^ s * (2 * H) ≤ (B : ℚ) * C * 10 ^ b := h5
      _ < ((high : ℚ) + 1) * (2 * H) * 10 ^ b := mul_lt_mul_of_pos_right hup hT
      _ = ((high : ℚ) + 1) * 10 ^ b * (2 * H) := by ring
  have h8 : (Y : ℚ) * 10 ^ a * 2 ^ s < ((high : ℚ) + 1) * 10 ^ b :=
    lt_of_mul_lt_mul_right h7 (by positivity)
  have h9 : Y * (10 ^ a * 2 ^ s) < (high + 1) * 10 ^ b := by
    have : ((Y * (10 ^ a * 2 ^ s) : Nat) : ℚ) < (((high + 1) * 10 ^ b : Nat) : ℚ) := by
      push_cast
      calc (Y : ℚ) * (10 ^ a * 2 ^ s) = (Y : ℚ) * 10 ^ a * 2 ^ s := by ring
        _ < _ := h8
    exact_mod_cast this
  -- hence not above `too_low`
  have hM : 0 < 10 ^ a * 2 ^ s := by positivity
  have h10 : Y * (10 ^ a * 2 ^ s) + ((high + 1) * 10 ^ b) % (10 ^ a * 2 ^ s)
      ≤ (high + 1) * 10 ^ b := by
    have hq : Y ≤ (high + 1) * 10 ^ b / (10 ^ a * 2 ^ s) := by
      rw [Nat.le_div_iff_mul_le hM]
      exact le_of_lt h9
    have hdm := Nat.div_add_mod ((high + 1) * 10 ^ b) (10 ^ a * 2 ^ s)
    have hmul : Y * (10 ^ a * 2 ^ s)
        ≤ (high + 1) * 10 ^ b / (10 ^ a * 2 ^ s) * (10 ^ a * 2 ^ s) :=
      Nat.mul_le_mul_right _ hq
    rw [Nat.mul_comm ((high + 1) * 10 ^ b / (10 ^ a * 2 ^ s))] at hmul
    omega
  have h11 : Y * (10 ^ a * 2 ^ s) + (high + 2 - low) * 10 ^ b ≤ (high + 1) * 10 ^ b := by
    omega
  have h12 : Y * (10 ^ a * 2 ^ s) ≤ (low - 1) * 10 ^ b := by
    have e5 : (high + 1) * 10 ^ b = (high + 2 - low) * 10 ^ b + (low - 1) * 10 ^ b := by
      rw [← Nat.add_mul]
      congr 1
      omega
    omega
  have h13 : (Y : ℚ) * 10 ^ a * 2 ^ s ≤ ((low : ℚ) - 1) * 10 ^ b := by
    have : ((Y * (10 ^ a * 2 ^ s) : Nat) : ℚ) ≤ (((low - 1) * 10 ^ b : Nat) : ℚ) := by
      exact_mod_cast h12
    rw [Nat.cast_mul, Nat.cast_mul (low - 1), Nat.cast_sub hl1] at this
    push_cast at this
    calc (Y : ℚ) * 10 ^ a * 2 ^ s = (Y : ℚ) * (10 ^ a * 2 ^ s) := by ring
      _ ≤ _ := this
  have h14 : (Y : ℚ) * 10 ^ a * 2 ^ s * (2 * H) < (A : ℚ) * C * 10 ^ b := by
    calc (Y : ℚ) * 10 ^ a * 2 ^ s * (2 * H)
        ≤ ((low : ℚ) - 1) * 10 ^ b * (2 * H) :=
          mul_le_mul_of_nonneg_right h13 (by positivity)
      _ = ((low : ℚ) - 1) * (2 * H) * 10 ^ b := by ring
      _ < (A : ℚ) * C * 10 ^ b := mul_lt_mul_of_pos_right hdn hT
  calc (Y : ℚ) * 10 ^ a * (2 ^ s * 2 ^ ce * (2 * H))
      = (Y : ℚ) * 10 ^ a * 2 ^ s * (2 * H) * 2 ^ ce := by ring
    _ < (A : ℚ) * C * 10 ^ b * 2 ^ ce := mul_lt_mul_of_pos_right h14 hce
    _ = (A : ℚ) * (10 ^ b * (C * 2 ^ ce)) := by ring


/-- The normalized boundary `m_plus` has the exponent of the normalized significand: the two
shifts differ by ten bits. -/
theorem boundary_shift (m j k : Nat) (hj : j ≤ 52)
    (w2 : 2 ^ 63 ≤ m * 2 ^ (j + 11)) (w3 : m * 2 ^ (j + 11) < 2 ^ 64)
    (b2 : 2 ^ 63 ≤ (2 * m + 1) * 2 ^ k) (b3 : (2 * m + 1) * 2 ^ k < 2 ^ 64) : k = j + 10 := by
  have e64 : (2 : Nat) ^ 64 = 2 ^ (53 - j) * 2 ^ (j + 11) := by
    rw [← pow_add]; congr 1; omega
  have e63 : (2 : Nat) ^ 63 = 2 ^ (52 - j) * 2 ^ (j + 11) := by
    rw [← pow_add]; congr 1; omega
  have hp : 0 < 2 ^ (j + 11) := pow_pos (by norm_num) _
  have hm1 : m < 2 ^ (53 - j) := by
    rw [e64] at w3
    exact Nat.lt_of_mul_lt_mul_right w3
  have hm2 : 2 ^ (52 - j) ≤ m := by
    rw [e63] at w2
    exact Nat.le_of_mul_le_mul_right w2 hp
  have e53 : (2 : Nat) ^ (53 - j) = 2 * 2 ^ (52 - j) := by
    rw [← pow_succ']; congr 1; omega
  by_contra hne
  rcases Nat.lt_or_gt_of_ne hne with hlt | hgt
  · -- k <= j + 9
    have h1 : (2 : Nat) ^ k ≤ 2 ^ (j + 9) := Nat.pow_le_pow_right (by norm_num) (by omega)
    have h2 : (2 * m + 1) * 2 ^ k ≤ (2 * m + 1) * 2 ^ (j + 9) := Nat.mul_le_mul_left _ h1
    have h3 : (2 * m + 1) * 2 ^ (j + 9) < (2 * 2 ^ (53 - j)) * 2 ^ (j + 9) :=
      Nat.mul_lt_mul_of_pos_right (by omega) (pow_pos (by norm_num) _)
    have h4 : (2 * 2 ^ (53 - j)) * 2 ^ (j + 9) = 2 ^ 63 := by
      rw [← pow_succ', ← pow_add]; congr 1; omega
    omega
  · -- k >= j + 11
    have h1 : (2 : Nat) ^ (j + 11) ≤ 2 ^ k := Nat.pow_le_pow_right (by norm_num) (by omega)
    have h2 : (2 * m + 1) * 2 ^ (j + 11) ≤ (2 * m + 1) * 2 ^ k := Nat.mul_le_mul_left _ h1
    have h3 : (2 * 2 ^ (52 - j)) * 2 ^ (j + 11) ≤ (2 * m + 1) * 2 ^ (j + 11) :=
      Nat.mul_le_mul_right _ (by omega)
    have h4 : (2 * 2 ^ (52 - j)) * 2 ^ (j + 11) = 2 ^ 64 := by
      rw [← pow_succ', ← pow_add]; congr 1; omega
    omega

/-- The boundaries of `NormalizedBoundaries`, at the exponent of the normalized significand,
have the values `m_minus_value` and `m_plus_value`. -/
theorem boundary_values (m j : Nat) (e : Int) (hm0 : 0 < m) (lbc : Bool)
    (hlbc : lbc = decide (m = 2 ^ 52)) :
    (((if lbc = true then (4 * m - 1) * 2 ^ (j + 10 - 1) else (2 * m - 1) * 2 ^ (j + 10) : Nat) : ℚ)
        * 2 ^ (e - (j : Int) - 11) = m_minus_value m e) ∧
    ((((2 * m + 1) * 2 ^ (j + 10) : Nat) : ℚ) * 2 ^ (e - (j : Int) - 11) = m_plus_value m e) := by
  have h2 : (2 : ℚ) ≠ 0 := by norm_num
  have e1 : (2 : ℚ) ^ (e - (j : Int) - 11) = 2 ^ (e - 1) / 2 ^ (j + 10) := by
    have : e - (j : Int) - 11 = (e - 1) - ((j + 10 : Nat) : Int) := by push_cast; ring
    rw [this, zpow_sub₀ h2, zpow_natCast]
  have e2 : (2 : ℚ) ^ (e - (j : Int) - 11) = 2 ^ (e - 2) / 2 ^ (j + 10 - 1) := by
    have : e - (j : Int) - 11 = (e - 2) - ((j + 10 - 1 : Nat) : Int) := by
      rw [Nat.cast_sub (by omega)]; push_cast; ring
    rw [this, zpow_sub₀ h2, zpow_natCast]
  have hp : ∀ n : Nat, (2 : ℚ) ^ n ≠ 0 := fun n => pow_ne_zero n h2
  constructor
  · unfold m_minus_value
    by_cases h52 : m = 2 ^ 52
    · have : lbc = true := by rw [hlbc]; simpa using h52
      rw [if_pos this, if_pos h52, e2]
      rw [Nat.cast_mul, Nat.cast_sub (by omega)]
      push_cast
      field_simp
      ring
    · have : ¬ lbc = true := by rw [hlbc]; simpa using h52
      rw [if_neg this, if_neg h52, e1]
      rw [Nat.cast_mul, Nat.cast_sub (by omega)]
      push_cast
      field_simp
      ring
  · unfold m_plus_value
    rw [e1]
    push_cast
    field_simp
    ring

set_option maxHeartbeats 1600000 in
/-- Function `grisu3_dtoa` returns for every finite non-zero double, and a result it accepts
is a digit string without leading or trailing zero whose value lies strictly between the
boundaries `m_minus` and `m_plus`, while no multiple of ten times the weight of its last digit
lies between them, boundaries included. -/
theorem grisu3_dtoa_value (dbl : double_format_context)
    (hm0 : 0 < dbl.significand) (hm : dbl.significand < 2 ^ 53)
    (he1 : -1074 ≤ dbl.exponent) (he2 : dbl.exponent ≤ 972)
    (hsig : (double_format_context.of_double dbl.value).significand = dbl.significand)
    (hnil : dbl.digits = []) :
    ∃ ok ds k, grisu3_dtoa dbl = some (ok, { dbl with digits := ds, decimal_point := k }) ∧
      (ok = true → all_digits ds ∧ ds.head? ≠ some 48 ∧ ds.getLast? ≠ some 48 ∧
        1 ≤ ds.length ∧ ds.length ≤ 74 ∧
        m_minus_value dbl.significand dbl.exponent < decimal_of ds k ∧
        decimal_of ds k < m_plus_value dbl.significand dbl.exponent ∧
        ∀ Y : Nat,
          (Y : ℚ) * 10 ^ (k - (ds.length : Int) + 1) ≤ m_plus_value dbl.significand dbl.exponent →
          (Y : ℚ) * 10 ^ (k - (ds.length : Int) + 1)
            < m_minus_value dbl.significand dbl.exponent) := by
  obtain ⟨j, hj, w1, w2, w3, -⟩ := MakeNormalized_spec dbl hm0 hm
  obtain ⟨k, hk, b1, b2, b3, b4⟩ :=
    NormalizedBoundaries_spec (double_format_context.of_double dbl.value)
      (by rw [hsig]; exact hm0) (by rw [hsig]; exact hm)
  have hlbc : (double_format_context.of_double dbl.value).lower_boundary_is_closer
      = decide (dbl.significand = 2 ^ 52) := by
    unfold double_format_context.lower_boundary_is_closer
    rw [hsig]
  rw [hsig] at b1 b2 b3 b4
  rw [hlbc] at b4
  have hkj : k = j + 10 := boundary_shift dbl.significand j k hj w2 w3 b2 b3
  subst hkj
  obtain ⟨v1, v2⟩ := boundary_values dbl.significand j dbl.exponent hm0
    (decide (dbl.significand = 2 ^ 52)) rfl
  have hwe : (DiyFp.MakeNormalized dbl).e = dbl.exponent - (j : Int) - 11 := by rw [w1]
  have hwf : (DiyFp.MakeNormalized dbl).f < 2 ^ 64 := by rw [w1]; exact w3
  obtain ⟨c1, c2, c3, c4⟩ := cached_power_spec (DiyFp.MakeNormalized dbl).e
    (by rw [hwe]; omega) (by rw [hwe]; omega)
  have hC := cached_power_value (DiyFp.MakeNormalized dbl).e
    (by rw [hwe]; omega) (by rw [hwe]; omega)
  unfold grisu3_dtoa
  simp only []
  generalize hcp : GetCachedPowerForBinaryExponentRange (-60 - ((DiyFp.MakeNormalized dbl).e + 64))
    (-32 - ((DiyFp.MakeNormalized dbl).e + 64)) = cp at *
  obtain ⟨t1, -⟩ := Times_exact (DiyFp.MakeNormalized dbl) cp.1 hwf c2
  generalize hbs : DiyFp.NormalizedBoundaries (double_format_context.of_double dbl.value) = bs at *
  -- the boundaries differ by at least 8 and the lower one is at least 2
  have hk1 : (2 : Nat) ^ (j + 10) = 2 * 2 ^ (j + 10 - 1) := by
    rw [← pow_succ', Nat.sub_add_cancel (by omega)]
  have hk9 : (2 : Nat) ^ 9 ≤ 2 ^ (j + 10 - 1) := Nat.pow_le_pow_right (by norm_num) (by omega)
  have hgap : bs.1.f + 8 ≤ bs.2.f ∧ 2 ≤ bs.1.f := by
    rw [b1, b4]
    generalize hL : (2 : Nat) ^ (j + 10 - 1) = P at *
    split_ifs
    · have e1 : (4 * dbl.significand - 1) * P + 3 * P = (2 * dbl.significand + 1) * (2 * P) := by
        have : 4 * dbl.significand - 1 + 3 = (2 * dbl.significand + 1) * 2 := by omega
        calc (4 * dbl.significand - 1) * P + 3 * P = (4 * dbl.significand - 1 + 3) * P := by ring
          _ = (2 * dbl.significand + 1) * (2 * P) := by rw [this]; ring
      have e2 : 1 * P ≤ (4 * dbl.significand - 1) * P := Nat.mul_le_mul_right _ (by omega)
      rw [hk1]
      omega
    · have e1 : (2 * dbl.significand - 1) * (2 * P) + 2 * (2 * P) = (2 * dbl.significand + 1) * (2 * P) := by
        have : 2 * dbl.significand - 1 + 2 = 2 * dbl.significand + 1 := by omega
        calc (2 * dbl.significand - 1) * (2 * P) + 2 * (2 * P) = (2 * dbl.significand - 1 + 2) * (2 * P) := by ring
          _ = (2 * dbl.significand + 1) * (2 * P) := by rw [this]
      have e2 : 1 * (2 * P) ≤ (2 * dbl.significand - 1) * (2 * P) := Nat.mul_le_mul_right _ (by omega)
      rw [hk1]
      omega
  have hbp : bs.2.f < 2 ^ 64 := by rw [b1]; exact b3
  have hbm : bs.1.f < 2 ^ 64 := by omega
  obtain ⟨-, l1⟩ := Times_exact bs.1 cp.1 hbm c2
  obtain ⟨-, u1⟩ := Times_exact bs.2 cp.1 hbp c2
  have hprodL : 2 * 2 ^ 63 ≤ bs.1.f * cp.1.f := Nat.mul_le_mul hgap.2 c1
  have hprodU : bs.2.f * cp.1.f ≤ (2 ^ 64 - 1) * (2 ^ 64 - 1) :=
    Nat.mul_le_mul (by omega) (by omega)
  have hprodG : bs.1.f * cp.1.f + 8 * 2 ^ 63 ≤ bs.2.f * cp.1.f := by
    have h1 : (bs.1.f + 8) * cp.1.f ≤ bs.2.f * cp.1.f := Nat.mul_le_mul_right _ hgap.1
    have h2 : 8 * 2 ^ 63 ≤ 8 * cp.1.f := Nat.mul_le_mul_left _ c1
    have h3 : (bs.1.f + 8) * cp.1.f = bs.1.f * cp.1.f + 8 * cp.1.f := by ring
    omega
  have hmax : (2 ^ 64 - 1) * (2 ^ 64 - 1) + 2 ^ 63 < (2 ^ 64 - 1) * 2 ^ 64 := by norm_num
  have hprodB : 2 ^ 63 * 2 ^ 63 ≤ bs.2.f * cp.1.f := Nat.mul_le_mul (by rw [b1]; exact b2) c1
  have hq1 : 1 ≤ (DiyFp.Times bs.1 cp.1).f := by
    rw [l1]; generalize bs.1.f * cp.1.f = A at *; omega
  have hq2 : (DiyFp.Times bs.1 cp.1).f + 2 ≤ (DiyFp.Times bs.2 cp.1).f := by
    rw [l1, u1]
    generalize bs.1.f * cp.1.f = A at *
    generalize bs.2.f * cp.1.f = B at *
    omega
  have hq3 : (DiyFp.Times bs.2 cp.1).f + 1 < 2 ^ 64 := by
    rw [u1]; generalize bs.2.f * cp.1.f = B at *; omega
  have hq4 : 2 ^ 62 ≤ (DiyFp.Times bs.2 cp.1).f + 1 := by
    rw [u1]; generalize bs.2.f * cp.1.f = B at *; omega
  obtain ⟨ok, ds, kk, g1, g2⟩ := DigitGen_value dbl
    (DiyFp.Times (DiyFp.MakeNormalized dbl) cp.1).e (DiyFp.Times (DiyFp.MakeNormalized dbl) cp.1).f
    (DiyFp.Times bs.1 cp.1).f (DiyFp.Times bs.2 cp.1).f
    (by rw [t1]; exact c3) (by rw [t1]; exact c4) hq1 hq2 hq3 hq4 hnil
  rw [g1]
  cases ok
  · exact ⟨false, [], kk, rfl, fun h => absurd h (by decide)⟩
  · refine ⟨true, ds, (ds.length : Int) + (-cp.2 + kk), rfl, fun _ => ?_⟩
    obtain ⟨r1, r2, r3, r4, r5, rest, r6, r7, r8, r9⟩ := g2 rfl
    refine ⟨r1, r2, r3, r4, r5, ?_⟩
    rw [t1] at r6 r9
    obtain ⟨s, hs⟩ : ∃ s : Nat,
        (-((DiyFp.MakeNormalized dbl).e + (cp.1.e + 64))).toNat = s := ⟨_, rfl⟩
    rw [hs] at r6 r9
    have hsI : (s : Int) = -((DiyFp.MakeNormalized dbl).e + (cp.1.e + 64)) := by omega
    have hv1 : ((bs.1.f : Nat) : ℚ) * 2 ^ (DiyFp.MakeNormalized dbl).e = m_minus_value dbl.significand dbl.exponent := by
      rw [b4, hwe]
      simp only [decide_eq_true_eq] at v1 ⊢
      exact v1
    have hv2 : ((bs.2.f : Nat) : ℚ) * 2 ^ (DiyFp.MakeNormalized dbl).e = m_plus_value dbl.significand dbl.exponent := by
      rw [b1, hwe]
      exact v2
    have hdec : decimal_of ds ((ds.length : Int) + (-cp.2 + kk))
        = (digits_value ds : ℚ) * 10 ^ ((kk.toNat : Int) - ((-kk).toNat : Int) - cp.2) := by
      unfold decimal_of
      congr 2
      omega
    have hexp : (ds.length : Int) + (-cp.2 + kk) - (ds.length : Int) + 1
        = (((kk + 1).toNat : Int) - ((-(kk + 1)).toNat : Int) - cp.2) := by omega
    obtain ⟨i1, i2⟩ := grisu_interval bs.1.f bs.2.f cp.1.f (digits_value ds) rest kk.toNat
      (-kk).toNat s _ _ (DiyFp.MakeNormalized dbl).e cp.1.e cp.2 hC hbm hbp l1 u1 hsI hq2 r6 r7 r8
    rw [hv1] at i1
    rw [hv2] at i2
    refine ⟨by rw [hdec]; exact i1, by rw [hdec]; exact i2, ?_⟩
    intro Y hY
    rw [hexp] at hY ⊢
    rw [← hv2] at hY
    rw [← hv1]
    exact grisu_shorter bs.1.f bs.2.f cp.1.f Y (kk + 1).toNat (-(kk + 1)).toNat s _ _
      (DiyFp.MakeNormalized dbl).e cp.1.e cp.2 hC hbm hbp l1 u1 hsI hq2 hq1 r9 hY


open Bignum

/-! ## The exact digit generation in SHORTEST mode: the value of the digits -/

/-- The digit loop of the shortest mode with the value of its digits. In units of
`1 / denominator` at the weight of the next digit, the number written so far and the numerator
make up the value, `A` and `B` are the two boundaries, and the deltas are their distances. The
number `X` written when the loop ends, `i` digits later, lies between the boundaries (which
are allowed when the significand is even), and no multiple of ten does at that weight: no
number with fewer digits lies between them. -/
theorem GenerateShortestDigits_loop_value (is_even same : Bool) (D : Bignum) (hD : D.wf)
    (hDpos : 0 < D.value) (fuel : Nat) (dbl : double_format_context) (N dm dp : Bignum)
    (hN : N.wf) (hdm : dm.wf) (hdp : dp.wf) (hlt : N.value < 10 * D.value)
    (hroom : dm.value < N.value ∨ (is_even = false ∧ dm.value ≤ N.value))
    (hplus : N.value + (if same = true then dm else dp).value < 10 * D.value
      ∨ (is_even = false ∧ N.value + (if same = true then dm else dp).value ≤ 10 * D.value))
    (hin : dbl.digits = [] → D.value < N.value + (if same = true then dm else dp).value
      ∨ (is_even = true ∧ D.value ≤ N.value + (if same = true then dm else dp).value))
    (b : Nat) (hfuel : b + 1 ≤ fuel) (hterm : D.value ≤ 10 ^ b * dm.value)
    (hdmpos : 0 < dm.value) (hPpos : 0 < (if same = true then dm else dp).value)
    (A B : Nat) (hA : A + dm.value = 10 * digits_value dbl.digits * D.value + N.value)
    (hB : B = 10 * digits_value dbl.digits * D.value + N.value
      + (if same = true then dm else dp).value) :
    ∃ ds c, GenerateShortestDigits_loop is_even same D fuel dbl N dm dp
        = some { dbl with digits := dbl.digits ++ ds ++ [c] } ∧
      all_digits ds ∧ 49 ≤ c ∧ c ≤ 57 ∧ ds.length ≤ b ∧
      (dbl.digits = [] → (ds ++ [c]).head? ≠ some 48) ∧
      (A * 10 ^ ds.length < digits_value (dbl.digits ++ ds ++ [c]) * D.value
        ∨ (is_even = true
          ∧ A * 10 ^ ds.length ≤ digits_value (dbl.digits ++ ds ++ [c]) * D.value)) ∧
      (digits_value (dbl.digits ++ ds ++ [c]) * D.value < B * 10 ^ ds.length
        ∨ (is_even = true
          ∧ digits_value (dbl.digits ++ ds ++ [c]) * D.value ≤ B * 10 ^ ds.length)) ∧
      (1 ≤ ds.length → ∀ Y : Nat,
        ¬ ((A * 10 ^ ds.length < Y * 10 * D.value
            ∨ (is_even = true ∧ A * 10 ^ ds.length ≤ Y * 10 * D.value)) ∧
          (Y * 10 * D.value < B * 10 ^ ds.length
            ∨ (is_even = true ∧ Y * 10 * D.value ≤ B * 10 ^ ds.length)))) := by
  induction fuel generalizing dbl N dm dp b A B with
  | zero => omega
  | succ fuel ih =>
    have hq : N.value / D.value < 10 := by
      rw [Nat.div_lt_iff_lt_mul hDpos]; omega
    obtain ⟨R, hdiv, hRv, hRw⟩ := DivideModuloIntBignum_spec N D hN hD hDpos (by omega)
    have hRlt : R.value < D.value := by rw [hRv]; exact Nat.mod_lt _ hDpos
    rw [GenerateShortestDigits_loop, hdiv]
    simp only []
    rw [add_num_digit_eq dbl _ hq]
    generalize hd : N.value / D.value = d at hq
    -- the two room tests
    generalize hbm : (if is_even = true then LessEqual R dm else Less R dm) = bm
    generalize hbp : (if is_even = true then decide (PlusCompare R (if same = true then dm else dp) D ≥ 0)
      else decide (PlusCompare R (if same = true then dm else dp) D > 0)) = bp
    have hbm1 : bm = true → R.value ≤ dm.value := by
      intro h
      rw [h] at hbm
      rcases Bool.eq_false_or_eq_true is_even with hev | hev
      · rw [hev] at hbm; simp only [if_true] at hbm
        exact (LessEqual_iff R dm hRw hdm).1 hbm
      · rw [hev] at hbm; simp only [Bool.false_eq_true, if_false] at hbm
        exact le_of_lt ((Less_iff R dm hRw hdm).1 hbm)
    have hbm2 : bm = true → is_even = false → R.value < dm.value := by
      intro h hev
      rw [h, hev] at hbm; simp only [Bool.false_eq_true, if_false] at hbm
      exact (Less_iff R dm hRw hdm).1 hbm
    have hbm3 : bm = false → dm.value < R.value ∨ (is_even = false ∧ dm.value ≤ R.value) := by
      intro h
      rw [h] at hbm
      rcases Bool.eq_false_or_eq_true is_even with hev | hev
      · rw [hev] at hbm; simp only [if_true] at hbm
        left
        by_contra hc
        have := (LessEqual_iff R dm hRw hdm).2 (by omega)
        rw [this] at hbm; exact absurd hbm (by decide)
      · rw [hev] at hbm; simp only [Bool.false_eq_true, if_false] at hbm
        right
        refine ⟨hev, ?_⟩
        by_contra hc
        have := (Less_iff R dm hRw hdm).2 (by omega)
        rw [this] at hbm; exact absurd hbm (by decide)
    have hdecomp : N.value = D.value * d + R.value := by
      rw [hRv, ← hd]; exact (Nat.div_add_mod _ _).symm
    -- the room of `delta_plus`
    have hpw : (if same = true then dm else dp).wf := by
      cases same
      · exact hdp
      · exact hdm
    have hge := PlusCompare_ge_iff R (if same = true then dm else dp) D hRw hpw hD
    have hgt := PlusCompare_gt_iff R (if same = true then dm else dp) D hRw hpw hD
    generalize hPv : (if same = true then dm else dp).value = P at hplus hin hge hgt hB hPpos
    have hbp1 : bp = true → D.value < R.value + P ∨ (is_even = true ∧ D.value ≤ R.value + P) := by
      intro h
      rw [h] at hbp
      rcases Bool.eq_false_or_eq_true is_even with hev | hev
      · rw [hev] at hbp; simp only [if_true, decide_eq_true_eq] at hbp
        exact Or.inr ⟨hev, hge.1 hbp⟩
      · rw [hev] at hbp; simp only [Bool.false_eq_true, if_false, decide_eq_true_eq] at hbp
        exact Or.inl (hgt.1 hbp)
    have hbp0 : bp = false → R.value + P < D.value ∨ (is_even = false ∧ R.value + P ≤ D.value) := by
      intro h
      rw [h] at hbp
      rcases Bool.eq_false_or_eq_true is_even with hev | hev
      · rw [hev] at hbp; simp only [if_true, decide_eq_false_iff_not] at hbp
        left
        by_contra hc
        exact hbp (hge.2 (by omega))
      · rw [hev] at hbp; simp only [Bool.false_eq_true, if_false, decide_eq_false_iff_not] at hbp
        right
        refine ⟨hev, ?_⟩
        by_contra hc
        exact hbp (hgt.2 (by omega))
    -- a digit that is rounded up is not nine
    have hd8 : bp = true → d ≤ 8 := by
      intro h
      by_contra hc
      have hd9 : d = 9 := by omega
      rw [hd9] at hdecomp
      rcases hbp1 h with g | ⟨g1, g2⟩
      · rcases hplus with p | ⟨-, p⟩ <;> omega
      · rcases hplus with p | ⟨p1, -⟩
        · omega
        · rw [g1] at p1; exact absurd p1 (by decide)
    -- the digit is not zero when the remainder is in the room of `delta_minus`
    have hd0 : bm = true → d ≠ 0 := by
      intro h hz
      rw [hz] at hdecomp
      have h1 := hbm1 h
      rcases hroom with g | ⟨g1, g2⟩
      · omega
      · have := hbm2 h g1; omega
    -- the values of the two candidates
    have hxd : digits_value (dbl.digits ++ [d + 48]) = 10 * digits_value dbl.digits + d := by
      rw [digits_value_append_single]; omega
    have hxd1 : digits_value (dbl.digits ++ [d + 49]) = 10 * digits_value dbl.digits + d + 1 := by
      rw [digits_value_append_single]; omega
    have hfl : (10 * digits_value dbl.digits + d) * D.value + R.value = A + dm.value := by
      rw [hA, hdecomp]; ring
    have hBA : B = A + dm.value + P := by rw [hB, hA]
    have hRD : R.value < D.value := hRlt
    have F1 : bm = true → ∃ ds c, some { dbl with digits := dbl.digits ++ [d + 48] }
        = some { dbl with digits := dbl.digits ++ ds ++ [c] } ∧ all_digits ds ∧ 49 ≤ c ∧ c ≤ 57 ∧
          ds.length ≤ b ∧ (dbl.digits = [] → (ds ++ [c]).head? ≠ some 48) ∧
          (A * 10 ^ ds.length < digits_value (dbl.digits ++ ds ++ [c]) * D.value
            ∨ (is_even = true
              ∧ A * 10 ^ ds.length ≤ digits_value (dbl.digits ++ ds ++ [c]) * D.value)) ∧
          (digits_value (dbl.digits ++ ds ++ [c]) * D.value < B * 10 ^ ds.length
            ∨ (is_even = true
              ∧ digits_value (dbl.digits ++ ds ++ [c]) * D.value ≤ B * 10 ^ ds.length)) ∧
          (1 ≤ ds.length → ∀ Y : Nat,
            ¬ ((A * 10 ^ ds.length < Y * 10 * D.value
                ∨ (is_even = true ∧ A * 10 ^ ds.length ≤ Y * 10 * D.value)) ∧
              (Y * 10 * D.value < B * 10 ^ ds.length
                ∨ (is_even = true ∧ Y * 10 * D.value ≤ B * 10 ^ ds.length)))) := by
      intro h
      have := hd0 h
      refine ⟨[], d + 48, by simp, all_digits_nil, by omega, by omega, by simp, ?_, ?_, ?_,
        fun h1 => absurd h1 (by simp)⟩
      · intro _
        simp only [List.nil_append, List.head?_cons, ne_eq, Option.some.injEq]
        omega
      · simp only [List.append_nil, List.length_nil, pow_zero, mul_one]
        rw [hxd]
        generalize (10 * digits_value dbl.digits + d) * D.value = fD at hfl
        have h1 := hbm1 h
        rcases Bool.eq_false_or_eq_true is_even with hev | hev
        · rcases Nat.lt_or_ge R.value dm.value with g | g
          · left; omega
          · right; exact ⟨hev, by omega⟩
        · left
          have := hbm2 h hev
          omega
      · simp only [List.append_nil, List.length_nil, pow_zero, mul_one]
        rw [hxd]
        generalize (10 * digits_value dbl.digits + d) * D.value = fD at hfl
        left; omega
    have F2 : bp = true → ∃ ds c,
        some (double_format_context.round_up_last_digit { dbl with digits := dbl.digits ++ [d + 48] })
        = some { dbl with digits := dbl.digits ++ ds ++ [c] } ∧ all_digits ds ∧ 49 ≤ c ∧ c ≤ 57 ∧
          ds.length ≤ b ∧ (dbl.digits = [] → (ds ++ [c]).head? ≠ some 48) ∧
          (A * 10 ^ ds.length < digits_value (dbl.digits ++ ds ++ [c]) * D.value
            ∨ (is_even = true
              ∧ A * 10 ^ ds.length ≤ digits_value (dbl.digits ++ ds ++ [c]) * D.value)) ∧
          (digits_value (dbl.digits ++ ds ++ [c]) * D.value < B * 10 ^ ds.length
            ∨ (is_even = true
              ∧ digits_value (dbl.digits ++ ds ++ [c]) * D.value ≤ B * 10 ^ ds.length)) ∧
          (1 ≤ ds.length → ∀ Y : Nat,
            ¬ ((A * 10 ^ ds.length < Y * 10 * D.value
                ∨ (is_even = true ∧ A * 10 ^ ds.length ≤ Y * 10 * D.value)) ∧
              (Y * 10 * D.value < B * 10 ^ ds.length
                ∨ (is_even = true ∧ Y * 10 * D.value ≤ B * 10 ^ ds.length)))) := by
      intro h
      have := hd8 h
      have hcl : (10 * digits_value dbl.digits + d + 1) * D.value
          = (10 * digits_value dbl.digits + d) * D.value + D.value := by ring
      refine ⟨[], d + 49, ?_, all_digits_nil, by omega, by omega, by simp, ?_, ?_, ?_,
        fun h1 => absurd h1 (by simp)⟩
      · rw [round_up_last_digit_snoc _ dbl.digits (d + 48) (by omega) rfl]
        simp
      · intro _
        simp only [List.nil_append, List.head?_cons, ne_eq, Option.some.injEq]
        omega
      · simp only [List.append_nil, List.length_nil, pow_zero, mul_one]
        rw [hxd1, hcl]
        generalize (10 * digits_value dbl.digits + d) * D.value = fD at hfl
        left; omega
      · simp only [List.append_nil, List.length_nil, pow_zero, mul_one]
        rw [hxd1, hcl]
        generalize (10 * digits_value dbl.digits + d) * D.value = fD at hfl
        rcases hbp1 h with g | ⟨g1, g2⟩
        · left; omega
        · rcases Nat.lt_or_ge D.value (R.value + P) with g | g
          · left; omega
          · right; exact ⟨g1, by omega⟩
    cases bm
    · cases bp
      · simp only [Bool.not_false, Bool.and_self, if_true]
        have hr := hbm3 rfl
        have hb1 : 1 ≤ b := by
          by_contra hc
          have hf0 : b = 0 := by omega
          rw [hf0] at hterm
          simp at hterm
          rcases hr with g | ⟨_, g⟩ <;> omega
        have hdpw : (if same = true then dp else dp.Times10).wf := by
          cases same
          · exact Times10_wf dp hdp
          · exact hdp
        have hP10 : (if same = true then dm.Times10
            else (if same = true then dp else dp.Times10)).value = 10 * P := by
          rw [← hPv]
          cases same
          · simp only [Bool.false_eq_true, if_false]; rw [Times10_value dp hdp]; ring
          · simp only [if_true]; rw [Times10_value dm hdm]; ring
        have hp0 := hbp0 rfl
        obtain ⟨ds, c, e1, e2, e3, e4, e5, -, e7, e8, e9⟩ :=
          ih { dbl with digits := dbl.digits ++ [d + 48] }
          R.Times10 dm.Times10 (if same = true then dp else dp.Times10)
          (Times10_wf R hRw) (Times10_wf dm hdm) hdpw
          (by rw [Times10_value R hRw]; omega)
          (by rw [Times10_value R hRw, Times10_value dm hdm]
              rcases hr with g | ⟨g1, g2⟩
              · left; omega
              · right; exact ⟨g1, by omega⟩)
          (by rw [Times10_value R hRw, hP10]
              rcases hp0 with g | ⟨g1, g2⟩
              · left; omega
              · right; exact ⟨g1, by omega⟩)
          (by intro hnil; exact absurd hnil (by simp))
          (b - 1) (by omega)
          (by rw [Times10_value dm hdm]
              have : 10 ^ b = 10 ^ (b - 1) * 10 := by
                rw [← pow_succ, Nat.sub_add_cancel hb1]
              rw [this] at hterm
              calc D.value ≤ 10 ^ (b - 1) * 10 * dm.value := hterm
                _ = 10 ^ (b - 1) * (dm.value * 10) := by ring)
          (by rw [Times10_value dm hdm]; omega)
          (by rw [hP10]; omega)
          (A * 10) (B * 10)
          (by show A * 10 + dm.Times10.value
                = 10 * digits_value (dbl.digits ++ [d + 48]) * D.value + R.Times10.value
              rw [Times10_value dm hdm, Times10_value R hRw, hxd]
              have : 10 * (10 * digits_value dbl.digits + d) * D.value
                  = 10 * ((10 * digits_value dbl.digits + d) * D.value) := by ring
              rw [this]
              generalize (10 * digits_value dbl.digits + d) * D.value = fD at hfl
              omega)
          (by show B * 10 = 10 * digits_value (dbl.digits ++ [d + 48]) * D.value
                + R.Times10.value + _
              rw [hP10, Times10_value R hRw, hxd]
              have : 10 * (10 * digits_value dbl.digits + d) * D.value
                  = 10 * ((10 * digits_value dbl.digits + d) * D.value) := by ring
              rw [this]
              generalize (10 * digits_value dbl.digits + d) * D.value = fD at hfl
              omega)
        have hA10 : ∀ n, A * 10 * 10 ^ n = A * 10 ^ (n + 1) := fun n => by rw [pow_succ]; ring
        have hB10 : ∀ n, B * 10 * 10 ^ n = B * 10 ^ (n + 1) := fun n => by rw [pow_succ]; ring
        rw [hA10] at e7 e9
        rw [hB10] at e8 e9
        have hdig : dbl.digits ++ [d + 48] ++ ds ++ [c] = dbl.digits ++ (d + 48) :: ds ++ [c] := by
          simp
        rw [hdig] at e7 e8
        refine ⟨(d + 48) :: ds, c, ?_, ?_, e3, e4, by simp; omega, ?_, e7, e8, ?_⟩
        · rw [e1]; simp
        · rw [all_digits_cons]
          exact ⟨⟨by omega, by omega⟩, e2⟩
        · intro hnil
          simp only [List.cons_append, List.head?_cons, ne_eq, Option.some.injEq]
          intro hz
          have hd0' : d = 0 := by omega
          rw [hd0'] at hdecomp
          rcases hin hnil with g | ⟨g1, g2⟩
          · rcases hp0 with p | ⟨-, p⟩ <;> omega
          · rcases hp0 with p | ⟨p1, -⟩
            · omega
            · rw [g1] at p1; exact absurd p1 (by decide)
        · intro _ Y
          simp only [List.length_cons]
          by_cases hds : 1 ≤ ds.length
          · exact e9 hds Y
          · have hds0 : ds.length = 0 := by omega
            rw [hds0]
            simp only [Nat.zero_add, pow_one]
            intro hroomY
            obtain ⟨y1, y2⟩ := hroomY
            have hYD : Y * 10 * D.value = (Y * D.value) * 10 := by ring
            rw [hYD] at y1 y2
            rcases Nat.lt_or_ge Y (10 * digits_value dbl.digits + d + 1) with hY | hY
            · have hle : Y * D.value ≤ (10 * digits_value dbl.digits + d) * D.value :=
                Nat.mul_le_mul_right _ (by omega)
              generalize (10 * digits_value dbl.digits + d) * D.value = fD at hfl hle
              generalize Y * D.value = yD at *
              rcases hr with g | ⟨g1, g2⟩
              · rcases y1 with z | ⟨-, z⟩ <;> omega
              · rcases y1 with z | ⟨z1, -⟩
                · omega
                · rw [g1] at z1; exact absurd z1 (by decide)
            · have hle : (10 * digits_value dbl.digits + d + 1) * D.value ≤ Y * D.value :=
                Nat.mul_le_mul_right _ hY
              have hcl : (10 * digits_value dbl.digits + d + 1) * D.value
                  = (10 * digits_value dbl.digits + d) * D.value + D.value := by ring
              rw [hcl] at hle
              generalize (10 * digits_value dbl.digits + d) * D.value = fD at hfl hle
              generalize Y * D.value = yD at *
              rcases hp0 with g | ⟨g1, g2⟩
              · rcases y2 with z | ⟨-, z⟩ <;> omega
              · rcases y2 with z | ⟨z1, -⟩
                · omega
                · rw [g1] at z1; exact absurd z1 (by decide)
      · simp only [Bool.not_false, Bool.not_true, Bool.and_false, Bool.false_and,
          Bool.false_eq_true, if_false]
        exact F2 rfl
    · cases bp
      · simp only [Bool.not_true, Bool.not_false, Bool.and_true, Bool.false_and, Bool.true_and,
          Bool.and_false, Bool.false_eq_true, if_false, if_true]
        exact F1 rfl
      · simp only [Bool.not_true, Bool.and_self, Bool.false_eq_true, if_false, if_true]
        split_ifs
        · exact F1 rfl
        · exact F2 rfl
        · exact F1 rfl
        · exact F2 rfl


open Bignum

/-- The values after `FixupMultiply10`: the denominator is unchanged, the numerator is still
`c * 2 * m` times `delta_minus` and `delta_plus` is `c` times `delta_minus`, and
`numerator / denominator = v * 10^(1 - decimal_point)`. -/
theorem FixupMultiply10_values (est : Int) (is_even : Bool) (st : BignumState) (v : ℚ) (c m : Nat)
    (hn : st.numerator.wf) (hdm : st.delta_minus.wf) (hdp : st.delta_plus.wf)
    (pdm : 0 < st.delta_minus.value)
    (hnv : st.numerator.value = c * (2 * m * st.delta_minus.value))
    (hdpv : st.delta_plus.value = c * st.delta_minus.value)
    (hv : ((st.numerator.value : Nat) : ℚ) = v * 10 ^ (-est) * ((st.denominator.value : Nat) : ℚ)) :
    (FixupMultiply10 est is_even st).2.denominator = st.denominator ∧
    (FixupMultiply10 est is_even st).2.numerator.value
      = c * (2 * m * (FixupMultiply10 est is_even st).2.delta_minus.value) ∧
    (FixupMultiply10 est is_even st).2.delta_plus.value
      = c * (FixupMultiply10 est is_even st).2.delta_minus.value ∧
    (((FixupMultiply10 est is_even st).2.numerator.value : Nat) : ℚ)
      = v * 10 ^ (1 - (FixupMultiply10 est is_even st).1) * ((st.denominator.value : Nat) : ℚ) := by
  have h10 : (10 : ℚ) ≠ 0 := by norm_num
  unfold FixupMultiply10
  generalize (if is_even = true
      then decide (PlusCompare st.numerator st.delta_plus st.denominator ≥ 0)
      else decide (PlusCompare st.numerator st.delta_plus st.denominator > 0)) = cnd
  cases cnd
  · simp only [Bool.false_eq_true, if_false]
    have htv := Times10_value st.numerator hn
    have hmv := Times10_value st.delta_minus hdm
    have hpv := Times10_value st.delta_plus hdp
    have heq := Equal_iff st.delta_minus st.delta_plus hdm hdp
    have hq : ((st.numerator.Times10.value : Nat) : ℚ)
        = v * 10 ^ (1 - est) * ((st.denominator.value : Nat) : ℚ) := by
      rw [htv]
      push_cast
      rw [hv]
      have : (10 : ℚ) ^ (1 - est) = 10 * 10 ^ (-est) := by
        rw [sub_eq_add_neg, zpow_add₀ h10, zpow_one]
      rw [this]
      ring
    generalize Bignum.Equal st.delta_minus st.delta_plus = q at heq
    cases q
    · simp only [Bool.false_eq_true, if_false]
      refine ⟨trivial, ?_, ?_, hq⟩
      · show st.numerator.Times10.value = c * (2 * m * st.delta_minus.Times10.value)
        rw [htv, hmv, hnv]; ring
      · show st.delta_plus.Times10.value = c * st.delta_minus.Times10.value
        rw [hpv, hmv, hdpv]; ring
    · simp only [if_true]
      have hval := heq.1 rfl
      have hc1 : c = 1 := by
        rw [hdpv] at hval
        have : 1 * st.delta_minus.value = c * st.delta_minus.value := by omega
        exact (Nat.eq_of_mul_eq_mul_right pdm this).symm
      refine ⟨trivial, ?_, ?_, hq⟩
      · show st.numerator.Times10.value = c * (2 * m * st.delta_minus.Times10.value)
        rw [htv, hmv, hnv]; ring
      · show st.delta_minus.Times10.value = c * st.delta_minus.Times10.value
        rw [hc1]; ring
  · simp only [if_true]
    refine ⟨trivial, hnv, hdpv, ?_⟩
    rw [hv]
    have : (1 : Int) - (est + 1) = -est := by ring
    rw [this]

/-- Comparing in units of `1 / denominator`: with `N / D = v * 10^(1 - k)`, a number `Z` of
units at the weight of the first digit, scaled by `10^i`, is below `X * D` exactly when
`Z / N * v` is below `X * 10^(k - i - 1)`. -/
theorem scaled_lt_iff (N D X Z i : Nat) (v : ℚ) (k : Int) (hN : 0 < N) (hv : 0 < v)
    (hND : (N : ℚ) = v * 10 ^ (1 - k) * (D : ℚ)) :
    (Z * 10 ^ i < X * D ↔ (Z : ℚ) / N * v < (X : ℚ) * 10 ^ (k - (i : Int) - 1)) ∧
    (Z * 10 ^ i ≤ X * D ↔ (Z : ℚ) / N * v ≤ (X : ℚ) * 10 ^ (k - (i : Int) - 1)) ∧
    (X * D < Z * 10 ^ i ↔ (X : ℚ) * 10 ^ (k - (i : Int) - 1) < (Z : ℚ) / N * v) ∧
    (X * D ≤ Z * 10 ^ i ↔ (X : ℚ) * 10 ^ (k - (i : Int) - 1) ≤ (Z : ℚ) / N * v) := by
  have h10 : (10 : ℚ) ≠ 0 := by norm_num
  have hNq : (0 : ℚ) < N := by exact_mod_cast hN
  have hp : (0 : ℚ) < 10 ^ (1 - k) := zpow_pos (by norm_num) _
  have hDq : (D : ℚ) = (N : ℚ) / (v * 10 ^ (1 - k)) := by
    rw [hND]; field_simp
  have hg : (0 : ℚ) < v * 10 ^ (1 - k) * 10 ^ i / N := by positivity
  -- both sides times a positive factor
  have e1 : (Z : ℚ) / N * v = ((Z : ℚ) * 10 ^ i) * (v * 10 ^ (1 - k) / N) * 10 ^ (k - (i : Int) - 1) := by
    have : (10 : ℚ) ^ i * 10 ^ (1 - k) * 10 ^ (k - (i : Int) - 1) = 1 := by
      rw [← zpow_natCast, ← zpow_add₀ h10, ← zpow_add₀ h10]
      have : (i : Int) + (1 - k) + (k - (i : Int) - 1) = 0 := by ring
      rw [this, zpow_zero]
    calc (Z : ℚ) / N * v = (Z : ℚ) / N * v * 1 := by ring
      _ = (Z : ℚ) / N * v * ((10 : ℚ) ^ i * 10 ^ (1 - k) * 10 ^ (k - (i : Int) - 1)) := by
          rw [this]
      _ = _ := by ring
  have e2 : (X : ℚ) * 10 ^ (k - (i : Int) - 1)
      = ((X : ℚ) * D) * (v * 10 ^ (1 - k) / N) * 10 ^ (k - (i : Int) - 1) := by
    rw [hDq]; field_simp
  have hf : (0 : ℚ) < (v * 10 ^ (1 - k) / N) * 10 ^ (k - (i : Int) - 1) := by
    have := zpow_pos (by norm_num : (0 : ℚ) < 10) (k - (i : Int) - 1)
    positivity
  have c1 : ((Z * 10 ^ i : Nat) : ℚ) = (Z : ℚ) * 10 ^ i := by push_cast; ring
  have c2 : ((X * D : Nat) : ℚ) = (X : ℚ) * D := by push_cast; ring
  rw [e1, e2, mul_assoc ((Z : ℚ) * 10 ^ i), mul_assoc ((X : ℚ) * D)]
  refine ⟨?_, ?_, ?_, ?_⟩
  · rw [mul_lt_mul_right hf, ← c1, ← c2, Nat.cast_lt]
  · rw [mul_le_mul_right hf, ← c1, ← c2, Nat.cast_le]
  · rw [mul_lt_mul_right hf, ← c1, ← c2, Nat.cast_lt]
  · rw [mul_le_mul_right hf, ← c1, ← c2, Nat.cast_le]


open Bignum

/-- The boundaries in units of the numerator: with `c = 2` when the lower boundary is closer
and `c = 1` otherwise, `(2cm - 1) / (2cm)` of the value is `m_minus` and `(2cm + c) / (2cm)` of
it is `m_plus`. -/
theorem boundary_ratio (m : Nat) (e : Int) (hm0 : 0 < m) (dm c : Nat) (hdm : 0 < dm)
    (hc : c = if decide (m = 2 ^ 52) = true then 2 else 1) :
    ((c * (2 * m * dm) - dm : Nat) : ℚ) / ((c * (2 * m * dm) : Nat) : ℚ) * double_value m e
      = m_minus_value m e ∧
    ((c * (2 * m * dm) + c * dm : Nat) : ℚ) / ((c * (2 * m * dm) : Nat) : ℚ) * double_value m e
      = m_plus_value m e := by
  have hmq : (0 : ℚ) < m := by exact_mod_cast hm0
  have hdq : (0 : ℚ) < dm := by exact_mod_cast hdm
  have h2 : (2 : ℚ) ≠ 0 := by norm_num
  have e1 : (2 : ℚ) ^ e = 2 * 2 ^ (e - 1) := by
    rw [zpow_sub₀ h2, zpow_one]; field_simp
  have e2 : (2 : ℚ) ^ e = 4 * 2 ^ (e - 2) := by
    rw [zpow_sub₀ h2]; field_simp; norm_num; ring
  have hle : dm ≤ c * (2 * m * dm) := by
    have h1 : 1 ≤ c := by rw [hc]; split_ifs <;> omega
    have h3 : 1 * (1 * dm) ≤ c * (2 * m * dm) :=
      Nat.mul_le_mul h1 (Nat.mul_le_mul_right _ (by omega))
    omega
  unfold m_minus_value m_plus_value double_value
  by_cases h52 : m = 2 ^ 52
  · have hc2 : c = 2 := by
      rw [hc, if_pos (by rw [decide_eq_true_eq]; exact h52)]
    rw [if_pos h52, Nat.cast_sub hle, hc2]
    push_cast
    constructor
    · rw [e2]; field_simp; ring
    · rw [e1]; field_simp; ring
  · have hc1 : c = 1 := by
      rw [hc, if_neg (by rw [decide_eq_true_eq]; exact h52)]
    rw [if_neg h52, Nat.cast_sub hle, hc1]
    push_cast
    constructor
    · rw [e1]; field_simp; ring
    · rw [e1]; field_simp; ring

set_option maxHeartbeats 1600000 in
/-- In SHORTEST mode `bignum_dtoa` returns on an empty buffer a digit string without leading or
trailing zero whose value lies between the boundaries `m_minus` and `m_plus`, which are
allowed for an even significand only, and of at least two digits only if no multiple of ten
times the weight of the last digit lies between them. -/
theorem bignum_dtoa_shortest_value (dbl : double_format_context)
    (hm0 : 0 < dbl.significand) (hm : dbl.significand < 2 ^ 53)
    (he1 : -1074 ≤ dbl.exponent) (he2 : dbl.exponent ≤ 972)
    (hden : dbl.significand < 2 ^ 52 → dbl.exponent = -1074) (hnil : dbl.digits = []) :
    ∃ ds k, bignum_dtoa dbl dtoa_mode.SHORTEST
        = some { dbl with digits := ds, decimal_point := k } ∧
      all_digits ds ∧ ds.head? ≠ some 48 ∧ ds.getLast? ≠ some 48 ∧
      1 ≤ ds.length ∧ ds.length ≤ 18 ∧
      (m_minus_value dbl.significand dbl.exponent < decimal_of ds k
        ∨ (dbl.significand % 2 = 0
          ∧ m_minus_value dbl.significand dbl.exponent ≤ decimal_of ds k)) ∧
      (decimal_of ds k < m_plus_value dbl.significand dbl.exponent
        ∨ (dbl.significand % 2 = 0
          ∧ decimal_of ds k ≤ m_plus_value dbl.significand dbl.exponent)) ∧
      (2 ≤ ds.length → ∀ Y : Nat,
        ¬ ((m_minus_value dbl.significand dbl.exponent < (Y : ℚ) * 10 ^ (k - (ds.length : Int) + 1)
            ∨ (dbl.significand % 2 = 0 ∧ m_minus_value dbl.significand dbl.exponent
              ≤ (Y : ℚ) * 10 ^ (k - (ds.length : Int) + 1))) ∧
          ((Y : ℚ) * 10 ^ (k - (ds.length : Int) + 1) < m_plus_value dbl.significand dbl.exponent
            ∨ (dbl.significand % 2 = 0 ∧ (Y : ℚ) * 10 ^ (k - (ds.length : Int) + 1)
              ≤ m_plus_value dbl.significand dbl.exponent)))) := by
  obtain ⟨b1, b2, b3, b4, b5⟩ := estimate_of_double dbl.significand dbl.exponent hm0 hm he1 he2 hden
  obtain ⟨s1, s2, s3, s4, s5, s6, s7, s8, s9⟩ := InitialScaledStartValues_shortest dbl.significand
    dbl.exponent (EstimatePower (NormalizedExponent dbl.significand dbl.exponent))
    dbl.lower_boundary_is_closer hm b1 b2 b3 _ rfl
  have hub := upper_boundary_of_double dbl.significand dbl.exponent hm0 hm he1 he2 hden
  have hbnd : (InitialScaledStartValues dbl.significand dbl.exponent dbl.lower_boundary_is_closer
        (EstimatePower (NormalizedExponent dbl.significand dbl.exponent)) true {}).numerator.value
      + (InitialScaledStartValues dbl.significand dbl.exponent dbl.lower_boundary_is_closer
        (EstimatePower (NormalizedExponent dbl.significand dbl.exponent)) true {}).delta_plus.value
      < 10 * (InitialScaledStartValues dbl.significand dbl.exponent dbl.lower_boundary_is_closer
        (EstimatePower (NormalizedExponent dbl.significand dbl.exponent)) true
          {}).denominator.value := by
    generalize InitialScaledStartValues dbl.significand dbl.exponent dbl.lower_boundary_is_closer
      (EstimatePower (NormalizedExponent dbl.significand dbl.exponent)) true {} = st at *
    generalize EstimatePower (NormalizedExponent dbl.significand dbl.exponent) = est at *
    generalize (if dbl.lower_boundary_is_closer = true then 2 else 1) = c at *
    have hdq : (0 : ℚ) < ((st.denominator.value : Nat) : ℚ) := by exact_mod_cast s6
    have h10 : (10 : ℚ) ≠ 0 := by norm_num
    have hmq : (0 : ℚ) < ((dbl.significand : Nat) : ℚ) := by exact_mod_cast hm0
    have hsum : 2 * dbl.significand * (st.numerator.value + st.delta_plus.value)
        = (2 * dbl.significand + 1) * st.numerator.value := by
      rw [s7, s8]; ring
    have hsumq : (2 : ℚ) * (dbl.significand : ℚ)
          * (((st.numerator.value + st.delta_plus.value : Nat)) : ℚ)
        = ((2 * dbl.significand + 1 : Nat) : ℚ) * ((st.numerator.value : Nat) : ℚ) := by
      exact_mod_cast hsum
    have hhalf : double_value dbl.significand dbl.exponent
        = 2 * (dbl.significand : ℚ) * 2 ^ (dbl.exponent - 1) := by
      unfold double_value
      rw [zpow_sub₀ (by norm_num : (2 : ℚ) ≠ 0)]
      field_simp
      ring
    have key : (2 : ℚ) * (dbl.significand : ℚ)
          * (((st.numerator.value + st.delta_plus.value : Nat)) : ℚ)
        < 2 * (dbl.significand : ℚ) * ((10 * st.denominator.value : Nat) : ℚ) := by
      rw [hsumq, s9, hhalf]
      have h1 : ((2 * dbl.significand + 1 : Nat) : ℚ) * 2 ^ (dbl.exponent - 1) * 10 ^ (-est)
          < 10 ^ (est + 1) * 10 ^ (-est) :=
        mul_lt_mul_of_pos_right hub (zpow_pos (by norm_num) _)
      rw [← zpow_add₀ h10] at h1
      have e1 : est + 1 + -est = 1 := by ring
      rw [e1, zpow_one] at h1
      have h2 := mul_lt_mul_of_pos_right h1 hdq
      have h3 := mul_lt_mul_of_pos_left h2 (by positivity : (0 : ℚ) < 2 * (dbl.significand : ℚ))
      push_cast
      calc ((2 : ℚ) * (dbl.significand : ℚ) + 1)
            * (2 * (dbl.significand : ℚ) * 2 ^ (dbl.exponent - 1) * 10 ^ (-est)
              * (st.denominator.value : ℚ))
          = 2 * (dbl.significand : ℚ) * (((2 : ℚ) * (dbl.significand : ℚ) + 1)
              * 2 ^ (dbl.exponent - 1) * 10 ^ (-est) * (st.denominator.value : ℚ)) := by ring
        _ < 2 * (dbl.significand : ℚ) * (10 * (st.denominator.value : ℚ)) := by
            have := h3
            push_cast at this
            exact this
    have key2 := lt_of_mul_lt_mul_left key (by positivity)
    exact_mod_cast key2
  obtain ⟨f1, f2, f3, f4, f5, f6, f7, f8, f9, f10, f11, f12⟩ := FixupMultiply10_shortest
    (EstimatePower (NormalizedExponent dbl.significand dbl.exponent))
    (decide (dbl.significand &&& 1 = 0)) _ (double_value dbl.significand dbl.exponent)
    (if dbl.lower_boundary_is_closer then 2 else 1) dbl.significand
    s1 s2 s3 s4 s5 s6 (by split_ifs <;> omega) (by split_ifs <;> omega) hm0 hm s7 s8 s9 b4 b5
    hbnd _ rfl
  obtain ⟨x1, x2, x3, x4⟩ := FixupMultiply10_values
    (EstimatePower (NormalizedExponent dbl.significand dbl.exponent))
    (decide (dbl.significand &&& 1 = 0))
    (InitialScaledStartValues dbl.significand dbl.exponent dbl.lower_boundary_is_closer
      (EstimatePower (NormalizedExponent dbl.significand dbl.exponent)) true {})
    (double_value dbl.significand dbl.exponent)
    (if dbl.lower_boundary_is_closer then 2 else 1) dbl.significand s1 s3 s4 s5 s7 s8 s9
  rw [← x1] at x4
  unfold bignum_dtoa
  simp only [reduceCtorEq, false_and, if_false, decide_True]
  generalize FixupMultiply10 (EstimatePower (NormalizedExponent dbl.significand dbl.exponent))
    (decide (dbl.significand &&& 1 = 0))
    (InitialScaledStartValues dbl.significand dbl.exponent dbl.lower_boundary_is_closer
      (EstimatePower (NormalizedExponent dbl.significand dbl.exponent)) true {}) = fx at *
  unfold GenerateShortestDigits
  have hterm : fx.2.denominator.value
      ≤ 10 ^ (min 17 fx.2.denominator.value) * fx.2.delta_minus.value := by
    rcases Nat.le_total 17 fx.2.denominator.value with h | h
    · rw [Nat.min_eq_left h]; exact f10
    · rw [Nat.min_eq_right h]
      have h1 : fx.2.denominator.value < 10 ^ fx.2.denominator.value :=
        Nat.lt_pow_self (by norm_num) _
      have h2 : 10 ^ fx.2.denominator.value * 1
          ≤ 10 ^ fx.2.denominator.value * fx.2.delta_minus.value :=
        Nat.mul_le_mul_left _ f5
      omega
  have hsame : (if Bignum.Equal fx.2.delta_minus fx.2.delta_plus = true then fx.2.delta_minus
      else fx.2.delta_plus).value = fx.2.delta_plus.value := by
    by_cases hq : Bignum.Equal fx.2.delta_minus fx.2.delta_plus = true
    · rw [if_pos hq]; exact (Equal_iff _ _ f3 f4).1 hq
    · rw [if_neg hq]
  have hPv : (if Bignum.Equal fx.2.delta_minus fx.2.delta_plus = true then fx.2.delta_minus
      else fx.2.delta_plus).value = (if dbl.lower_boundary_is_closer = true then 2 else 1)
        * fx.2.delta_minus.value := by
    rw [hsame, x3]
  have hNpos : 0 < fx.2.numerator.value := by omega
  have hAle : fx.2.delta_minus.value ≤ fx.2.numerator.value := by omega
  obtain ⟨ds, c, g1, g2, g3, g4, g5, g6, g7, g8, g9⟩ := GenerateShortestDigits_loop_value
    (decide (dbl.significand &&& 1 = 0)) (Bignum.Equal fx.2.delta_minus fx.2.delta_plus)
    fx.2.denominator f2 f6 (fx.2.denominator.value + 1) { dbl with decimal_point := fx.1 }
    fx.2.numerator fx.2.delta_minus fx.2.delta_plus f1 f3 f4 f7 (Or.inl f8)
    (by rw [hsame]; exact f11) (by intro _; rw [hsame]; exact f12)
    (min 17 fx.2.denominator.value) (by omega) hterm f5
    (by rw [hPv]; exact Nat.mul_pos (by split_ifs <;> omega) f5)
    (fx.2.numerator.value - fx.2.delta_minus.value)
    (fx.2.numerator.value + fx.2.delta_plus.value)
    (by show fx.2.numerator.value - fx.2.delta_minus.value + fx.2.delta_minus.value
          = 10 * digits_value dbl.digits * fx.2.denominator.value + fx.2.numerator.value
        rw [hnil, digits_value_nil]; omega)
    (by show fx.2.numerator.value + fx.2.delta_plus.value
          = 10 * digits_value dbl.digits * fx.2.denominator.value + fx.2.numerator.value + _
        rw [hnil, digits_value_nil, hsame]; omega)
  have hdig : ({ dbl with decimal_point := fx.1 } : double_format_context).digits ++ ds ++ [c]
      = ds ++ [c] := by
    show dbl.digits ++ ds ++ [c] = ds ++ [c]
    rw [hnil]; rfl
  rw [hdig] at g1 g7 g8
  refine ⟨ds ++ [c], fx.1, g1, ?_, ?_, ?_, by simp, by simp; omega, ?_⟩
  · rw [all_digits_append]
    exact ⟨g2, all_digits_single c (by omega) g4⟩
  · exact g6 hnil
  · rw [List.getLast?_append_of_ne_nil _ (by simp)]
    simp only [List.getLast?_singleton, ne_eq, Option.some.injEq]
    omega
  -- the boundaries in units of the numerator
  have hlbc : dbl.lower_boundary_is_closer = decide (dbl.significand = 2 ^ 52) := rfl
  obtain ⟨r1, r2⟩ := boundary_ratio dbl.significand dbl.exponent hm0 fx.2.delta_minus.value
    (if dbl.lower_boundary_is_closer = true then 2 else 1) f5 (by rw [hlbc])
  rw [← x2] at r1 r2
  rw [← x3] at r2
  have hvpos : 0 < double_value dbl.significand dbl.exponent := by
    unfold double_value
    have : (0 : ℚ) < dbl.significand := by exact_mod_cast hm0
    have := zpow_pos (by norm_num : (0 : ℚ) < 2) dbl.exponent
    positivity
  have heven : decide (dbl.significand &&& 1 = 0) = true ↔ dbl.significand % 2 = 0 := by
    rw [decide_eq_true_eq, Nat.and_one_is_mod]
  have hdec : decimal_of (ds ++ [c]) fx.1
      = (digits_value (ds ++ [c]) : ℚ) * 10 ^ (fx.1 - (ds.length : Int) - 1) := by
    unfold decimal_of
    congr 2
    simp only [List.length_append, List.length_singleton]
    push_cast; ring
  obtain ⟨q1, q2, q3, q4⟩ := scaled_lt_iff fx.2.numerator.value fx.2.denominator.value
    (digits_value (ds ++ [c])) (fx.2.numerator.value - fx.2.delta_minus.value) ds.length
    (double_value dbl.significand dbl.exponent) fx.1 hNpos hvpos x4
  obtain ⟨p1, p2, p3, p4⟩ := scaled_lt_iff fx.2.numerator.value fx.2.denominator.value
    (digits_value (ds ++ [c])) (fx.2.numerator.value + fx.2.delta_plus.value) ds.length
    (double_value dbl.significand dbl.exponent) fx.1 hNpos hvpos x4
  rw [r1] at q1 q2
  rw [r2] at p3 p4
  refine ⟨?_, ?_, ?_⟩
  · rw [hdec]
    rcases g7 with g | ⟨ge, g⟩
    · exact Or.inl (q1.1 g)
    · exact Or.inr ⟨heven.1 ge, q2.1 g⟩
  · rw [hdec]
    rcases g8 with g | ⟨ge, g⟩
    · exact Or.inl (p3.1 g)
    · exact Or.inr ⟨heven.1 ge, p4.1 g⟩
  · intro h2 Y hY
    have hi1 : 1 ≤ ds.length := by
      simp only [List.length_append, List.length_singleton] at h2
      omega
    apply g9 hi1 Y
    obtain ⟨i, hi⟩ : ∃ i, ds.length = i + 1 := ⟨ds.length - 1, by omega⟩
    have hexp : fx.1 - ((ds ++ [c]).length : Int) + 1 = fx.1 - (i : Int) - 1 := by
      simp only [List.length_append, List.length_singleton, hi]
      push_cast; ring
    rw [hexp] at hY
    obtain ⟨a1, a2, -, -⟩ := scaled_lt_iff fx.2.numerator.value fx.2.denominator.value
      Y (fx.2.numerator.value - fx.2.delta_minus.value) i
      (double_value dbl.significand dbl.exponent) fx.1 hNpos hvpos x4
    obtain ⟨-, -, a3, a4⟩ := scaled_lt_iff fx.2.numerator.value fx.2.denominator.value
      Y (fx.2.numerator.value + fx.2.delta_plus.value) i
      (double_value dbl.significand dbl.exponent) fx.1 hNpos hvpos x4
    rw [r1] at a1 a2
    rw [r2] at a3 a4
    have t1 : ∀ Z : Nat, Z * 10 ^ ds.length = Z * 10 ^ i * 10 := fun Z => by
      rw [hi, pow_succ]; ring
    have t2 : Y * 10 * fx.2.denominator.value = Y * fx.2.denominator.value * 10 := by ring
    rw [t1, t1, t2]
    obtain ⟨y1, y2⟩ := hY
    constructor
    · rcases y1 with y | ⟨ye, y⟩
      · exact Or.inl (Nat.mul_lt_mul_of_pos_right (a1.2 y) (by norm_num))
      · exact Or.inr ⟨heven.2 ye, Nat.mul_le_mul_right _ (a2.2 y)⟩
    · rcases y2 with y | ⟨ye, y⟩
      · exact Or.inl (Nat.mul_lt_mul_of_pos_right (a3.2 y) (by norm_num))
      · exact Or.inr ⟨heven.2 ye, Nat.mul_le_mul_right _ (a4.2 y)⟩


/-! ## SHORTEST mode: the digits read back as the double -/

/-- The boundaries of the code bound the rounding interval: `m_plus` is the upper midpoint and
`m_minus` is the lower midpoint, except for a significand `2^52` at the lowest exponent, where
`m_minus` lies above the lower midpoint. -/
theorem midpoints_of_boundaries (m : Nat) (e : Int) (hm0 : 0 < m) :
    (predecessor_value m e + double_value m e) / 2 ≤ m_minus_value m e ∧
    ((m ≠ 2 ^ 52 ∨ -1074 < e) →
      (predecessor_value m e + double_value m e) / 2 = m_minus_value m e) ∧
    (double_value m e + successor_value m e) / 2 = m_plus_value m e := by
  have h2 : (2 : ℚ) ≠ 0 := by norm_num
  have e1 : (2 : ℚ) ^ e = 2 * 2 ^ (e - 1) := by
    rw [zpow_sub₀ h2, zpow_one]; field_simp
  have e2 : (2 : ℚ) ^ (e - 1) = 2 * 2 ^ (e - 2) := by
    have : e - 1 = (e - 2) + 1 := by ring
    rw [this, zpow_add₀ h2, zpow_one]; ring
  have hp : (0 : ℚ) < 2 ^ (e - 2) := zpow_pos (by norm_num) _
  have hm1 : ((m - 1 : Nat) : ℚ) = (m : ℚ) - 1 := by
    rw [Nat.cast_sub (by omega)]; simp
  unfold predecessor_value successor_value m_minus_value m_plus_value double_value
  have h53 : (((2 ^ 53 - 1 : Nat)) : ℚ) = 2 * (2 ^ 52 : ℚ) - 1 := by norm_num
  refine ⟨?_, ?_, ?_⟩
  · by_cases h52 : m = 2 ^ 52
    · by_cases he : -1074 < e
      · rw [if_pos ⟨h52, he⟩, if_pos h52, h53, e1, e2, h52]
        push_cast
        apply le_of_eq
        ring
      · rw [if_neg (fun h => he h.2), if_pos h52, hm1, e1, e2]
        have : (4 * (m : ℚ) - 1) * 2 ^ (e - 2)
            - (((m : ℚ) - 1) * (2 * (2 * 2 ^ (e - 2))) + (m : ℚ) * (2 * (2 * 2 ^ (e - 2)))) / 2
            = 2 ^ (e - 2) := by ring
        linarith
    · rw [if_neg (fun h => h52 h.1), if_neg h52, hm1, e1]
      apply le_of_eq
      ring
  · intro h
    by_cases h52 : m = 2 ^ 52
    · have he : -1074 < e := by
        rcases h with h | h
        · exact absurd h52 h
        · exact h
      rw [if_pos ⟨h52, he⟩, if_pos h52, h53, e1, e2, h52]
      push_cast
      ring
    · rw [if_neg (fun h => h52 h.1), if_neg h52, hm1, e1]
      ring
  · rw [e1]
    push_cast
    ring

/-- A number between the boundaries of the code, which are allowed for an even significand,
lies in the rounding interval. -/
theorem rounding_interval_of_boundaries (m : Nat) (e : Int) (hm0 : 0 < m) (x : ℚ)
    (hlo : m_minus_value m e < x ∨ (m % 2 = 0 ∧ m_minus_value m e ≤ x))
    (hhi : x < m_plus_value m e ∨ (m % 2 = 0 ∧ x ≤ m_plus_value m e)) :
    in_rounding_interval m e x := by
  obtain ⟨h1, -, h3⟩ := midpoints_of_boundaries m e hm0
  unfold in_rounding_interval
  simp only []
  rw [h3]
  by_cases hev : m % 2 = 0
  · rw [if_pos hev]
    constructor
    · rcases hlo with h | ⟨-, h⟩ <;> linarith
    · rcases hhi with h | ⟨-, h⟩ <;> linarith
  · rw [if_neg hev]
    constructor
    · rcases hlo with h | ⟨h, -⟩
      · linarith
      · exact absurd h hev
    · rcases hhi with h | ⟨h, -⟩
      · exact h
      · exact absurd h hev

/-- In SHORTEST mode the digit generation returns, for a non-zero double, a digit string
without leading or trailing zero whose value lies between the boundaries `m_minus` and
`m_plus` (allowed for an even significand), while no multiple of ten times the weight of its
last digit does, unless the string is a single digit. -/
theorem generate_decimal_digits_shortest_value (dbl : double_format_context) (h : decoded dbl)
    (hz : dbl.value ≠ 0) :
    ∃ ds k, generate_decimal_digits dbl dtoa_mode.SHORTEST
        = some { dbl with digits := ds, decimal_point := k } ∧
      all_digits ds ∧ ds.head? ≠ some 48 ∧ ds.getLast? ≠ some 48 ∧
      1 ≤ ds.length ∧ ds.length ≤ 74 ∧
      (m_minus_value dbl.significand dbl.exponent < decimal_of ds k
        ∨ (dbl.significand % 2 = 0
          ∧ m_minus_value dbl.significand dbl.exponent ≤ decimal_of ds k)) ∧
      (decimal_of ds k < m_plus_value dbl.significand dbl.exponent
        ∨ (dbl.significand % 2 = 0
          ∧ decimal_of ds k ≤ m_plus_value dbl.significand dbl.exponent)) ∧
      (2 ≤ ds.length → ∀ Y : Nat,
        ¬ ((m_minus_value dbl.significand dbl.exponent < (Y : ℚ) * 10 ^ (k - (ds.length : Int) + 1)
            ∨ (dbl.significand % 2 = 0 ∧ m_minus_value dbl.significand dbl.exponent
              ≤ (Y : ℚ) * 10 ^ (k - (ds.length : Int) + 1))) ∧
          ((Y : ℚ) * 10 ^ (k - (ds.length : Int) + 1) < m_plus_value dbl.significand dbl.exponent
            ∨ (dbl.significand % 2 = 0 ∧ (Y : ℚ) * 10 ^ (k - (ds.length : Int) + 1)
              ≤ m_plus_value dbl.significand dbl.exponent)))) := by
  obtain ⟨h1, h2, h3, h4, h5, h6, h7⟩ := h
  unfold generate_decimal_digits
  simp only [reduceCtorEq, false_and, if_false]
  rw [if_neg hz]
  have hm0 := h5 hz
  obtain ⟨ok, ds, k, g1, g2⟩ := grisu3_dtoa_value dbl hm0 h1 h2 h3 h6 h7
  rw [g1]
  cases ok
  · simp only []
    obtain ⟨ds2, k2, f1, f2, f3, f4, f5, f6, f7, f8, f9⟩ := bignum_dtoa_shortest_value
      { dbl with digits := [], decimal_point := 0 } hm0 h1 h2 h3 h4 rfl
    rw [f1]
    exact ⟨ds2, k2, rfl, f2, f3, f4, f5, by omega, f7, f8, f9⟩
  · simp only []
    obtain ⟨e1, e2, e3, e4, e5, e6, e7, e8⟩ := g2 rfl
    refine ⟨ds, k, rfl, e1, e2, e3, e4, e5, Or.inl e6, Or.inl e7, ?_⟩
    intro _ Y hY
    obtain ⟨y1, y2⟩ := hY
    have hle : (Y : ℚ) * 10 ^ (k - (ds.length : Int) + 1)
        ≤ m_plus_value dbl.significand dbl.exponent := by
      rcases y2 with y | ⟨-, y⟩
      · exact le_of_lt y
      · exact y
    have hlt := e8 Y hle
    rcases y1 with y | ⟨-, y⟩ <;> linarith

/-- C1: for every finite non-zero double, given by the bit pattern `u` of its absolute value
and decoded by the constructor as `significand * 2^exponent`, `generate_decimal_digits`
returns in SHORTEST mode (from Grisu3 when it certifies its result, from `bignum_dtoa`
otherwise) decimal digits `d1..dn` and a decimal point `k` such that `0.d1..dn * 10^k` lies in
the rounding interval of the double: between the midpoints to the neighbouring doubles, the
midpoints included only when the significand is even. -/
theorem shortest_round_trip (u : Nat) (hu : finite_pos u) :
    ∃ ds k, generate_decimal_digits (double_format_context.of_double u) dtoa_mode.SHORTEST
        = some { double_format_context.of_double u with digits := ds, decimal_point := k } ∧
      all_digits ds ∧ ds ≠ [] ∧
      in_rounding_interval (double_format_context.of_double u).significand
        (double_format_context.of_double u).exponent (decimal_of ds k) := by
  obtain ⟨hu0, hu63, -⟩ := hu
  have hdec : decoded (double_format_context.of_double u) :=
    decoded_of_double u hu63 _ _ _
  have hval : (double_format_context.of_double u).value = u := (of_double_lt u hu63).1
  have hm0 : 0 < (double_format_context.of_double u).significand :=
    (of_double_lt u hu63).2.2.2.2.2.1 (by omega)
  obtain ⟨ds, k, g1, g2, -, -, g5, -, g7, g8, -⟩ := generate_decimal_digits_shortest_value
    (double_format_context.of_double u) hdec (by rw [hval]; omega)
  refine ⟨ds, k, g1, g2, ?_, rounding_interval_of_boundaries _ _ hm0 _ g7 g8⟩
  intro hnil
  rw [hnil] at g5
  simp at g5

/-- C1 at `1.5`: the digits are `15` with the decimal point after the first of them. -/
theorem shortest_round_trip_witness :
    finite_pos 0x3FF8000000000000 ∧
    (∃ ds k, generate_decimal_digits (double_format_context.of_double 0x3FF8000000000000)
          dtoa_mode.SHORTEST
        = some { double_format_context.of_double 0x3FF8000000000000 with
            digits := ds, decimal_point := k } ∧
      all_digits ds ∧ ds ≠ [] ∧
      in_rounding_interval (double_format_context.of_double 0x3FF8000000000000).significand
        (double_format_context.of_double 0x3FF8000000000000).exponent (decimal_of ds k)) ∧
    generate_decimal_digits (double_format_context.of_double 0x3FF8000000000000)
        dtoa_mode.SHORTEST
      = some { double_format_context.of_double 0x3FF8000000000000 with
          digits := bytes "15", decimal_point := 1 } :=
  ⟨by decide, shortest_round_trip 0x3FF8000000000000 (by decide), by decide!⟩


/-! ## SHORTEST mode: no shorter digit string reads back as the double -/

/-- A digit string without leading zero of `n` digits is at least `10^(n-1)`. -/
theorem digits_value_ge (ds : List Nat) (hall : all_digits ds) (hne : ds ≠ [])
    (hhead : ds.head? ≠ some 48) : 10 ^ (ds.length - 1) ≤ digits_value ds := by
  cases ds with
  | nil => exact absurd rfl hne
  | cons c l =>
    rw [digits_value_cons]
    have hc := (all_digits_cons c l).1 hall
    have hc1 : c ≠ 48 := by
      intro h
      apply hhead
      rw [h]; rfl
    simp only [List.length_cons, Nat.add_sub_cancel]
    have : 1 * 10 ^ l.length ≤ (c - 48) * 10 ^ l.length := Nat.mul_le_mul_right _ (by omega)
    omega

/-- Minimality from the two facts the digit generators establish. Let the `n` digits of `X`,
the first of them not zero, end at the weight `10^(k-n)`, let `X * 10^(k-n)` not exceed the
upper end `H` of an interval, and let no multiple of `10^(k-n+1)` lie in the interval, whose
ends count when `incl` holds. Then no number of fewer than `n` digits, at any weight, lies in
the interval, provided zero does not. -/
theorem no_shorter_digits (L H : ℚ) (incl : Prop) (n X : Nat) (k : Int) (hL : 0 < L)
    (hn : 1 ≤ n) (hX : 10 ^ (n - 1) ≤ X)
    (hxH : (X : ℚ) * 10 ^ (k - (n : Int)) < H ∨ (incl ∧ (X : ℚ) * 10 ^ (k - (n : Int)) ≤ H))
    (hmult : 2 ≤ n → ∀ Y : Nat,
      ¬ ((L < (Y : ℚ) * 10 ^ (k - (n : Int) + 1) ∨ (incl ∧ L ≤ (Y : ℚ) * 10 ^ (k - (n : Int) + 1))) ∧
        ((Y : ℚ) * 10 ^ (k - (n : Int) + 1) < H ∨ (incl ∧ (Y : ℚ) * 10 ^ (k - (n : Int) + 1) ≤ H))))
    (Y : Nat) (t : Int) (hY : Y < 10 ^ (n - 1)) :
    ¬ ((L < (Y : ℚ) * 10 ^ t ∨ (incl ∧ L ≤ (Y : ℚ) * 10 ^ t)) ∧
      ((Y : ℚ) * 10 ^ t < H ∨ (incl ∧ (Y : ℚ) * 10 ^ t ≤ H))) := by
  have h10 : (10 : ℚ) ≠ 0 := by norm_num
  have p10 : ∀ z : Int, (0 : ℚ) < 10 ^ z := fun z => zpow_pos (by norm_num) z
  intro hroom
  obtain ⟨y1, y2⟩ := hroom
  have hyL : L ≤ (Y : ℚ) * 10 ^ t := by
    rcases y1 with y | ⟨-, y⟩
    · exact le_of_lt y
    · exact y
  by_cases hn2 : 2 ≤ n
  · by_cases ht : k - (n : Int) + 1 ≤ t
    · -- a multiple of the weight before the last digit
      obtain ⟨j, hj⟩ : ∃ j : Nat, t = (k - (n : Int) + 1) + (j : Int) :=
        ⟨(t - (k - (n : Int) + 1)).toNat, by omega⟩
      have e1 : (Y : ℚ) * 10 ^ t = ((Y * 10 ^ j : Nat) : ℚ) * 10 ^ (k - (n : Int) + 1) := by
        rw [hj, zpow_add₀ h10, zpow_natCast]
        push_cast
        ring
      rw [e1] at y1 y2
      exact hmult hn2 (Y * 10 ^ j) ⟨y1, y2⟩
    · -- below the first digit
      have hlt : (Y : ℚ) * 10 ^ t < 10 ^ (k - 1) := by
        have hYq : (Y : ℚ) < 10 ^ (n - 1) := by exact_mod_cast hY
        have ht2 : t ≤ k - (n : Int) := by omega
        have h1 : (10 : ℚ) ^ t ≤ 10 ^ (k - (n : Int)) :=
          zpow_le_zpow_right₀ (by norm_num) ht2
        calc (Y : ℚ) * 10 ^ t < 10 ^ (n - 1) * 10 ^ t :=
              mul_lt_mul_of_pos_right hYq (p10 t)
          _ ≤ 10 ^ (n - 1) * 10 ^ (k - (n : Int)) :=
              mul_le_mul_of_nonneg_left h1 (by positivity)
          _ = 10 ^ (k - 1) := by
              rw [← zpow_natCast, ← zpow_add₀ h10]
              congr 1
              rw [Nat.cast_sub hn]
              push_cast; ring
      -- the power of ten at the first digit is a multiple, not above the number written
      have e2 : (10 : ℚ) ^ (k - 1) = ((10 ^ (n - 2) : Nat) : ℚ) * 10 ^ (k - (n : Int) + 1) := by
        push_cast
        rw [← zpow_natCast, ← zpow_add₀ h10]
        congr 1
        rw [Nat.cast_sub hn2]
        push_cast; ring
      have hXq : (10 : ℚ) ^ (n - 1) ≤ X := by exact_mod_cast hX
      have hle : (10 : ℚ) ^ (k - 1) ≤ (X : ℚ) * 10 ^ (k - (n : Int)) := by
        calc (10 : ℚ) ^ (k - 1) = 10 ^ (n - 1) * 10 ^ (k - (n : Int)) := by
              rw [← zpow_natCast, ← zpow_add₀ h10]
              congr 1
              rw [Nat.cast_sub hn]
              push_cast; ring
          _ ≤ (X : ℚ) * 10 ^ (k - (n : Int)) :=
              mul_le_mul_of_nonneg_right hXq (p10 _).le
      have hno := hmult hn2 (10 ^ (n - 2))
      rw [← e2] at hno
      by_cases hi : incl
      · have hH : (10 : ℚ) ^ (k - 1) ≤ H := by
          rcases hxH with h | ⟨-, h⟩ <;> linarith
        have : ¬ L ≤ (10 : ℚ) ^ (k - 1) := fun h => hno ⟨Or.inr ⟨hi, h⟩, Or.inr ⟨hi, hH⟩⟩
        linarith
      · have hH : (10 : ℚ) ^ (k - 1) < H := by
          rcases hxH with h | ⟨h, -⟩
          · linarith
          · exact absurd h hi
        have : ¬ L < (10 : ℚ) ^ (k - 1) := fun h => hno ⟨Or.inl h, Or.inl hH⟩
        rcases y1 with y | ⟨yi, -⟩
        · linarith
        · exact hi yi
  · -- a single digit: only zero is shorter
    have hn1 : n = 1 := by omega
    rw [hn1] at hY
    simp only [Nat.sub_self, pow_zero, Nat.lt_one_iff] at hY
    rw [hY] at hyL
    simp at hyL
    linarith


/-- Away from the smallest normal double the boundaries of the code are the ends of the
rounding interval. -/
theorem rounding_interval_iff (m : Nat) (e : Int) (hm0 : 0 < m) (hns : m ≠ 2 ^ 52 ∨ -1074 < e)
    (x : ℚ) :
    in_rounding_interval m e x ↔
      (m_minus_value m e < x ∨ (m % 2 = 0 ∧ m_minus_value m e ≤ x)) ∧
      (x < m_plus_value m e ∨ (m % 2 = 0 ∧ x ≤ m_plus_value m e)) := by
  obtain ⟨-, h2, h3⟩ := midpoints_of_boundaries m e hm0
  have h2 := h2 hns
  unfold in_rounding_interval
  simp only []
  rw [h2, h3]
  by_cases hev : m % 2 = 0
  · rw [if_pos hev]
    constructor
    · intro h
      exact ⟨Or.inr ⟨hev, h.1⟩, Or.inr ⟨hev, h.2⟩⟩
    · intro h
      constructor
      · rcases h.1 with g | ⟨-, g⟩
        · exact le_of_lt g
        · exact g
      · rcases h.2 with g | ⟨-, g⟩
        · exact le_of_lt g
        · exact g
  · rw [if_neg hev]
    constructor
    · intro h
      exact ⟨Or.inl h.1, Or.inl h.2⟩
    · intro h
      constructor
      · rcases h.1 with g | ⟨g, -⟩
        · exact g
        · exact absurd g hev
      · rcases h.2 with g | ⟨g, -⟩
        · exact g
        · exact absurd g hev

/-- The boundary `m_minus` is positive. -/
theorem m_minus_value_pos (m : Nat) (e : Int) (hm0 : 0 < m) : 0 < m_minus_value m e := by
  have hmq : (1 : ℚ) ≤ m := by exact_mod_cast hm0
  have p2 : ∀ z : Int, (0 : ℚ) < 2 ^ z := fun z => zpow_pos (by norm_num) z
  unfold m_minus_value
  split_ifs
  · exact mul_pos (by linarith) (p2 _)
  · exact mul_pos (by linarith) (p2 _)

/-- The only double whose significand is `2^52` at the lowest exponent is the smallest normal
double, with the bit pattern `2^52`. -/
theorem smallest_normal_bits (u : Nat) (hu : u < 2 ^ 63)
    (hm : (double_format_context.of_double u).significand = 2 ^ 52)
    (he : (double_format_context.of_double u).exponent = -1074) : u = 2 ^ 52 := by
  unfold double_format_context.of_double at hm he
  simp only [] at hm he
  by_cases h : u / 2 ^ 52 % 2 ^ 11 ≠ 0
  · rw [if_pos h] at hm he
    have hm2 : u % 2 ^ 52 + 2 ^ 52 = 2 ^ 52 := hm
    have he2 : ((u / 2 ^ 52 % 2 ^ 11 : Nat) : Int) - 1075 = -1074 := he
    omega
  · rw [if_neg h] at hm
    have hm2 : u % 2 ^ 52 = 2 ^ 52 := hm
    omega

/-- The rounding interval of the smallest normal double `2^52 * 2^-1074` holds no number of
fewer than 17 digits. -/
theorem smallest_normal_minimal (Y : Nat) (t : Int) (hY : Y < 10 ^ 16) :
    ¬ in_rounding_interval (2 ^ 52) (-1074) ((Y : ℚ) * 10 ^ t) := by
  have h2 : (2 : ℚ) ≠ 0 := by norm_num
  have h10 : (10 : ℚ) ≠ 0 := by norm_num
  obtain ⟨L, hL⟩ : ∃ L : ℚ, L = (2 ^ 53 - 1) / 2 ^ 1075 := ⟨_, rfl⟩
  obtain ⟨H, hH⟩ : ∃ H : ℚ, H = (2 ^ 53 + 1) / 2 ^ 1075 := ⟨_, rfl⟩
  have hp : predecessor_value (2 ^ 52) (-1074) = double_value (2 ^ 52 - 1) (-1074) := by
    unfold predecessor_value
    rw [if_neg]
    intro h
    exact absurd h.2 (by norm_num)
  have hint : ∀ x : ℚ, in_rounding_interval (2 ^ 52) (-1074) x ↔ L ≤ x ∧ x ≤ H := by
    intro x
    unfold in_rounding_interval
    simp only []
    rw [if_pos (by norm_num), hp]
    unfold successor_value double_value
    have e1 : (2 : ℚ) ^ (-1074 : Int) = 2 / 2 ^ 1075 := by
      rw [zpow_neg, ← zpow_natCast]
      norm_num
    have c1 : (((2 ^ 52 - 1 : Nat)) : ℚ) = 2 ^ 52 - 1 := by norm_num
    have c2 : (((2 ^ 52 + 1 : Nat)) : ℚ) = 2 ^ 52 + 1 := by norm_num
    have c3 : (((2 ^ 52 : Nat)) : ℚ) = 2 ^ 52 := by norm_num
    rw [c1, c2, c3, e1]
    have l1 : ((2 ^ 52 - 1 : ℚ) * (2 / 2 ^ 1075) + 2 ^ 52 * (2 / 2 ^ 1075)) / 2 = L := by
      rw [hL]; ring
    have l2 : ((2 ^ 52 : ℚ) * (2 / 2 ^ 1075) + (2 ^ 52 + 1) * (2 / 2 ^ 1075)) / 2 = H := by
      rw [hH]; ring
    rw [l1, l2]
  rw [hint]
  intro hroom
  have hLpos : 0 < L := by rw [hL]; positivity
  have key := no_shorter_digits L H True 17 22250738585072014 (-307) hLpos (by norm_num)
    (by norm_num)
    (Or.inr ⟨trivial, by
      have he : ((-307 : Int) - ((17 : Nat) : Int)) = -324 := by norm_num
      have e4 : (10 : ℚ) ^ (-324 : Int) = 1 / 10 ^ 324 := by
        rw [zpow_neg, ← zpow_natCast]; norm_num
      rw [he, e4, hH, mul_one_div, div_le_div_iff (by positivity) (by positivity)]
      norm_num⟩)
    (by
      intro _ Z hZ
      obtain ⟨z1, z2⟩ := hZ
      have hz1 : L ≤ (Z : ℚ) * 10 ^ ((-307 : Int) - ((17 : Nat) : Int) + 1) := by
        rcases z1 with z | ⟨-, z⟩
        · exact le_of_lt z
        · exact z
      have hz2 : (Z : ℚ) * 10 ^ ((-307 : Int) - ((17 : Nat) : Int) + 1) ≤ H := by
        rcases z2 with z | ⟨-, z⟩
        · exact le_of_lt z
        · exact z
      have he : ((-307 : Int) - ((17 : Nat) : Int) + 1) = -323 := by norm_num
      have e3 : (10 : ℚ) ^ (-323 : Int) = 1 / 10 ^ 323 := by
        rw [zpow_neg, ← zpow_natCast]; norm_num
      rw [he, e3, hL, mul_one_div, div_le_div_iff (by positivity) (by positivity)] at hz1
      rw [he, e3, hH, mul_one_div, div_le_div_iff (by positivity) (by positivity)] at hz2
      rcases Nat.lt_or_ge Z 2225073858507202 with hlt | hge
      · have hZq : (Z : ℚ) ≤ 2225073858507201 := by exact_mod_cast Nat.lt_succ_iff.1 hlt
        have : (Z : ℚ) * 2 ^ 1075 ≤ 2225073858507201 * 2 ^ 1075 :=
          mul_le_mul_of_nonneg_right hZq (by positivity)
        have hnum : (2225073858507201 : ℚ) * 2 ^ 1075 < (2 ^ 53 - 1) * 10 ^ 323 := by norm_num
        linarith
      · have hZq : (2225073858507202 : ℚ) ≤ Z := by exact_mod_cast hge
        have : (2225073858507202 : ℚ) * 2 ^ 1075 ≤ (Z : ℚ) * 2 ^ 1075 :=
          mul_le_mul_of_nonneg_right hZq (by positivity)
        have hnum : ((2 : ℚ) ^ 53 + 1) * 10 ^ 323 < 2225073858507202 * 2 ^ 1075 := by norm_num
        linarith)
    Y t (by simpa using hY)
  exact key ⟨Or.inr ⟨trivial, hroom.1⟩, Or.inr ⟨trivial, hroom.2⟩⟩


/-- C2: for every finite non-zero double, given by the bit pattern `u` of its absolute value,
the digit sequence of `n` digits that `generate_decimal_digits` returns in SHORTEST mode is
minimal: no number `Y * 10^t` written with fewer than `n` significant digits, `Y < 10^(n-1)`,
at any decimal exponent `t`, lies in the rounding interval of the double. -/
theorem shortest_minimal (u : Nat) (hu : finite_pos u) :
    ∃ ds k, generate_decimal_digits (double_format_context.of_double u) dtoa_mode.SHORTEST
        = some { double_format_context.of_double u with digits := ds, decimal_point := k } ∧
      ∀ (Y : Nat) (t : Int), Y < 10 ^ (ds.length - 1) →
        ¬ in_rounding_interval (double_format_context.of_double u).significand
          (double_format_context.of_double u).exponent ((Y : ℚ) * 10 ^ t) := by
  obtain ⟨hu0, hu63, -⟩ := hu
  have hdec : decoded (double_format_context.of_double u) :=
    decoded_of_double u hu63 _ _ _
  obtain ⟨hval, -, hex, -, -, hm0, -⟩ := of_double_lt u hu63
  have hm0 := hm0 (by omega)
  by_cases hsp : (double_format_context.of_double u).significand = 2 ^ 52
      ∧ (double_format_context.of_double u).exponent = -1074
  · have hu52 := smallest_normal_bits u hu63 hsp.1 hsp.2
    subst hu52
    refine ⟨bytes "22250738585072014", -307, by decide!, ?_⟩
    intro Y t hY
    have e1 : (double_format_context.of_double (2 ^ 52)).significand = 2 ^ 52 := by decide
    have e2 : (double_format_context.of_double (2 ^ 52)).exponent = -1074 := by decide
    rw [e1, e2]
    exact smallest_normal_minimal Y t (by simpa [bytes] using hY)
  · have hns : (double_format_context.of_double u).significand ≠ 2 ^ 52
        ∨ -1074 < (double_format_context.of_double u).exponent := by
      by_cases h52 : (double_format_context.of_double u).significand = 2 ^ 52
      · right
        have : (double_format_context.of_double u).exponent ≠ -1074 := fun h => hsp ⟨h52, h⟩
        omega
      · exact Or.inl h52
    obtain ⟨ds, k, g1, g2, g3, -, g5, -, g7, g8, g9⟩ := generate_decimal_digits_shortest_value
      (double_format_context.of_double u) hdec (by rw [hval]; omega)
    refine ⟨ds, k, g1, ?_⟩
    intro Y t hY
    rw [rounding_interval_iff _ _ hm0 hns]
    have hne : ds ≠ [] := by
      intro hnil
      rw [hnil] at g5
      simp at g5
    exact no_shorter_digits _ _ _ ds.length (digits_value ds) k (m_minus_value_pos _ _ hm0) g5
      (digits_value_ge ds g2 hne g3) g8 g9 Y t hY

/-- C2 at `1.5`: the digits are `15`, and no single digit at any weight reads back as
`1.5`. -/
theorem shortest_minimal_witness :
    finite_pos 0x3FF8000000000000 ∧
    (∃ ds k, generate_decimal_digits (double_format_context.of_double 0x3FF8000000000000)
          dtoa_mode.SHORTEST
        = some { double_format_context.of_double 0x3FF8000000000000 with
            digits := ds, decimal_point := k } ∧
      ∀ (Y : Nat) (t : Int), Y < 10 ^ (ds.length - 1) →
        ¬ in_rounding_interval (double_format_context.of_double 0x3FF8000000000000).significand
          (double_format_context.of_double 0x3FF8000000000000).exponent ((Y : ℚ) * 10 ^ t)) ∧
    (generate_decimal_digits (double_format_context.of_double 0x3FF8000000000000)
        dtoa_mode.SHORTEST).map (fun d => d.digits.length) = some 2 :=
  ⟨by decide, shortest_minimal 0x3FF8000000000000 (by decide), by decide!⟩

end univang.fmt.detail
